import Mathlib

/-!
# Thread-cached arena allocator (`terark/mempool_thread_cache.hpp`)

A shallow embedding of `TCMemPoolOneThread<AlignSize>` and
`ThreadCacheMemPool<AlignSize>`.

Conventions of the embedding.

* `size_t` values are natural numbers kept below `2^64`; every `size_t`
  operation of the source is written with its wrap-around (`tosize`,
  `size_sub`).  `link_size_t` is 32 bits wide when `AlignSize == 4` and 64
  bits wide otherwise; conversions to it are written `tolink`.
* The pool buffer is a map from byte offset (relative to `base`) to the
  `link_size_t` word stored at that offset.  The source only ever reads and
  writes link words at `AlignSize`-aligned block offsets plus a multiple of
  `sizeof(link_size_t)`, so words never straddle.
* The release configuration is modelled: `assert` and the
  `mptc1t_debug_fill_*` hooks compile to nothing (`NDEBUG`), the sanitizer
  hooks are the no-op macros at the head of the file, and
  `TERARK_MPTC_USE_SKIPLIST` is defined.
* A result `none` stands for "no normal return": an out-of-bounds array
  access, a null or uninitialised pointer dereference, an explicit
  `TERARK_DIE`/`TERARK_VERIFY` abort, or a loop that ran out of `fuel`.
-/

namespace terark

/-- Template parameter `AlignSize` together with the two library calls whose
results the allocator consumes: `rand_r` (seed to result and next seed) and
`madvise` (begin, length, advice to `errno`, `0` on success). -/
structure Params where
  AlignSize : Nat
  rand_r : Nat → Nat × Nat
  madvise : Nat → Nat → Nat → Nat

/-- The two `BOOST_STATIC_ASSERT`s on `AlignSize`: a power of two, at least 4
(and small enough to be an `int`). -/
def ValidAlign (A : Nat) : Prop := ∃ j, 2 ≤ j ∧ j < 31 ∧ A = 2 ^ j

/-- Conversion to `size_t`. -/
def tosize (x : Nat) : Nat := x % 2 ^ 64

/-- Subtraction of `size_t` values. -/
def size_sub (a b : Nat) : Nat := (a + (2 ^ 64 - b % 2 ^ 64)) % 2 ^ 64

/-- The value `size_t(-1)`, the failure sentinel of the allocators. -/
def size_fail : Nat := 2 ^ 64 - 1

/-- Conversion to `intptr_t`. -/
def tointptr (z : Int) : Int := (z + 2 ^ 63) % 2 ^ 64 - 2 ^ 63

/-- Width in bits of `link_size_t`. -/
def link_bits (A : Nat) : Nat := if A = 4 then 32 else 64

/-- Conversion to `link_size_t`. -/
def tolink (A x : Nat) : Nat := x % 2 ^ link_bits A

/-- The constant `list_tail = ~link_size_t(0)`. -/
def list_tail (A : Nat) : Nat := 2 ^ link_bits A - 1

/-- The value `sizeof(link_size_t)`. -/
def sizeof_link (A : Nat) : Nat := link_bits A / 8

/-- The constant `skip_list_level_max`. -/
def skip_list_level_max : Nat := 8

/-- The value `sizeof(huge_link_t)`. -/
def sizeof_huge_link (A : Nat) : Nat := sizeof_link A * (1 + skip_list_level_max)

/-- The template `boost::static_log2<x>`: the position of the highest set
bit, computed by halving (at most 64 times). -/
def static_log2 : Nat → Nat → Nat
  | 0, _ => 0
  | f + 1, x => if 2 ≤ x then static_log2 f (x / 2) + 1 else 0

/-- The constant `offset_shift = static_log2<AlignSize>`. -/
def offset_shift (A : Nat) : Nat := static_log2 64 A

/-- The expression `x << offset_shift` on `size_t`. -/
def shl_off (A x : Nat) : Nat := tosize (x * 2 ^ offset_shift A)

/-- The expression `x >> offset_shift` on `size_t`. -/
def shr_off (A x : Nat) : Nat := x / 2 ^ offset_shift A

/-- The struct `head_t`: head link and length counter of one fastbin. -/
structure head_t where
  head : Nat
  cnt : Nat

/-- The struct `huge_link_t` as it sits in the thread cache (the skiplist
head): `size` is the current height, `next[k]` the first node of level `k`. -/
structure huge_link_t where
  size : Nat
  next : Nat → Nat

/-- Data members of `TCMemPoolOneThread`. -/
structure TCMemPoolOneThread where
  fragment_size : Nat
  m_frag_inc : Int
  huge_list : huge_link_t
  m_freelist_head : List head_t
  huge_size_sum : Nat
  huge_node_cnt : Nat
  m_hot_end : Nat
  m_hot_pos : Nat
  m_rand_seed : Nat

/-- Everything a call on one thread cache can read or write: the cache
itself, the pool buffer `base[...]`, and `m_mempool->fragment_size`. -/
structure Ctx where
  tc : TCMemPoolOneThread
  mem : Nat → Nat
  mp_fragment_size : Nat

/-- A `huge_link_t*`: either `&huge_list` or `(huge_link_t*)(base + off)`. -/
inductive NodePtr where
  | head : NodePtr
  | node (off : Nat) : NodePtr
deriving DecidableEq

/-- The local array `huge_link_t* update[skip_list_level_max]`; `none` is an
uninitialised or null entry. -/
abbrev UpdateArr := Nat → Option NodePtr

/-- Store into `update[k]`. -/
def upd_set (u : UpdateArr) (k : Nat) (v : Option NodePtr) : Option UpdateArr :=
  if k < skip_list_level_max then some (Function.update u k v) else none

/-- Load `update[k]` for dereferencing. -/
def upd_get (u : UpdateArr) (k : Nat) : Option NodePtr :=
  if k < skip_list_level_max then u k else none

/-- The read `n->size`. -/
def node_size (c : Ctx) : NodePtr → Nat
  | NodePtr.head => c.tc.huge_list.size
  | NodePtr.node a => c.mem a

/-- The read `n->next[k]`. -/
def node_next (A : Nat) (c : Ctx) (n : NodePtr) (k : Nat) : Option Nat :=
  if k < skip_list_level_max then
    match n with
    | NodePtr.head => some (c.tc.huge_list.next k)
    | NodePtr.node a => some (c.mem (a + sizeof_link A * (1 + k)))
  else none

/-- The context after the store of `v` into the word `n->next[k]`. -/
def set_next_ctx (A : Nat) (c : Ctx) (n : NodePtr) (k v : Nat) : Ctx :=
  match n with
  | NodePtr.head =>
    { c with tc := { c.tc with huge_list :=
      { c.tc.huge_list with next := Function.update c.tc.huge_list.next k v } } }
  | NodePtr.node a =>
    { c with mem := Function.update c.mem (a + sizeof_link A * (1 + k)) v }

/-- The write `n->next[k] = v`. -/
def node_set_next (A : Nat) (c : Ctx) (n : NodePtr) (k v : Nat) : Option Ctx :=
  if k < skip_list_level_max then some (set_next_ctx A c n k v) else none

/-- The pointer `(huge_link_t*)(base + (size_t(link) << offset_shift))`. -/
def node_of_link (A link : Nat) : NodePtr := NodePtr.node (shl_off A link)

/-- The call `rand()` inside `random_level`: the loop
`while (rand() % 4 == 0 && level < skip_list_level_max) ++level`, which
draws before it tests the level and therefore runs at most 8 times. -/
def random_level_loop (rand_r : Nat → Nat × Nat) : Nat → Nat → Nat → Nat × Nat
  | 0, seed, level => (level, seed)
  | f + 1, seed, level =>
    let r := rand_r seed
    if r.1 % 4 = 0 ∧ level < skip_list_level_max then
      random_level_loop rand_r f r.2 (level + 1)
    else (level, r.2)

/-- The method `random_level`; returns the level and the new seed. -/
def random_level (rand_r : Nat → Nat × Nat) (seed : Nat) : Nat × Nat :=
  let r := random_level_loop rand_r skip_list_level_max seed 1
  (r.1 - 1, r.2)

/-- The statement `if (m_frag_inc < -256 * 1024) { fetch_sub; m_frag_inc = 0; }`. -/
def flush_frag_dec (c : Ctx) : Ctx :=
  if c.tc.m_frag_inc < -(256 * 1024) then
    { c with
      mp_fragment_size := size_sub c.mp_fragment_size (tosize (-c.tc.m_frag_inc).toNat)
      tc := { c.tc with m_frag_inc := 0 } }
  else c

/-- The statement `if (m_frag_inc > 256 * 1024) { fetch_add; m_frag_inc = 0; }`. -/
def flush_frag_inc (c : Ctx) : Ctx :=
  if c.tc.m_frag_inc > 256 * 1024 then
    { c with
      mp_fragment_size := tosize (c.mp_fragment_size + tosize c.tc.m_frag_inc.toNat)
      tc := { c.tc with m_frag_inc := 0 } }
  else c

/-- The statements `fragment_size -= len; m_frag_inc -= len;` followed by the
flush test. -/
def account_alloc (c : Ctx) (len : Nat) : Ctx :=
  flush_frag_dec { c with tc := { c.tc with
    fragment_size := size_sub c.tc.fragment_size len
    m_frag_inc := tointptr (c.tc.m_frag_inc - len) } }

/-- The statements `fragment_size += len; m_frag_inc += len;` followed by the
flush test. -/
def account_free (c : Ctx) (len : Nat) : Ctx :=
  flush_frag_inc { c with tc := { c.tc with
    fragment_size := tosize (c.tc.fragment_size + len)
    m_frag_inc := tointptr (c.tc.m_frag_inc + len) } }

/-- The inner loop of the skiplist searches in `sfree` and in the large path
of `alloc`:
`while (n1->next[k] != list_tail && (n2 = node(n1->next[k]))->size < len) n1 = n2;`
Returns the final `n1` and `n2`. -/
def walk_lt (A : Nat) (c : Ctx) (k len : Nat) :
    Nat → NodePtr → Option NodePtr → Option (NodePtr × Option NodePtr)
  | 0, _, _ => none
  | f + 1, n1, n2 =>
    match node_next A c n1 k with
    | none => none
    | some nx =>
      if nx ≠ list_tail A then
        if node_size c (node_of_link A nx) < len then
          walk_lt A c k len f (node_of_link A nx) (some (node_of_link A nx))
        else some (n1, some (node_of_link A nx))
      else some (n1, n2)

/-- The outer loop of those searches, for levels `k-1, ..., 0`:
`while (k-- > 0) { inner loop; update[k] = n1; }`. -/
def find_lt (A : Nat) (c : Ctx) (len fuel : Nat) :
    Nat → NodePtr → Option NodePtr → UpdateArr →
      Option (NodePtr × Option NodePtr × UpdateArr)
  | 0, n1, n2, u => some (n1, n2, u)
  | k + 1, n1, n2, u =>
    match walk_lt A c k len fuel n1 n2 with
    | none => none
    | some (m1, m2) =>
      match upd_set u k (some m1) with
      | none => none
      | some u1 => find_lt A c len fuel k m1 m2 u1

/-- The do-while loop of `sfree` that links the node at `pos` into levels
`k, k-1, ..., 0`:
`do { n1 = update[k]; n2->next[k] = n1->next[k]; n1->next[k] = pos_shift; } while (k-- > 0);` -/
def link_levels (A : Nat) (u : UpdateArr) (pos : Nat) : Nat → Ctx → Option Ctx
  | k, c =>
    match upd_get u k with
    | none => none
    | some n1 =>
      match node_next A c n1 k with
      | none => none
      | some nx =>
        match node_set_next A c (NodePtr.node pos) k nx with
        | none => none
        | some c1 =>
          match node_set_next A c1 n1 k (tolink A (shr_off A pos)) with
          | none => none
          | some c2 =>
            match k with
            | 0 => some c2
            | j + 1 => link_levels A u pos j c2

/-- The skiplist branch of `sfree` (source lines 383-407 and 416-417). -/
def sfree_huge (P : Params) (fuel : Nat) (c : Ctx) (pos len : Nat) : Option Ctx :=
  let A := P.AlignSize
  let rl := random_level P.rand_r c.tc.m_rand_seed
  let c0 : Ctx := { c with tc := { c.tc with m_rand_seed := rl.2 } }
  match find_lt A c0 len fuel c0.tc.huge_list.size NodePtr.head none (fun _ => none) with
  | none => none
  | some (_, _, u) =>
    let grown : Option (Nat × UpdateArr × Ctx) :=
      if rl.1 ≥ c0.tc.huge_list.size then
        match upd_set u c0.tc.huge_list.size (some NodePtr.head) with
        | none => none
        | some u1 =>
          some (c0.tc.huge_list.size, u1,
            { c0 with tc := { c0.tc with huge_list :=
              { c0.tc.huge_list with size := tolink A (c0.tc.huge_list.size + 1) } } })
      else some (rl.1, u, c0)
    match grown with
    | none => none
    | some (k, u1, c1) =>
      match link_levels A u1 pos k c1 with
      | none => none
      | some c2 =>
        let c3 : Ctx := { c2 with mem := Function.update c2.mem pos (tolink A len) }
        some { c3 with tc := { c3.tc with
          huge_size_sum := tosize (c3.tc.huge_size_sum + len)
          huge_node_cnt := tosize (c3.tc.huge_node_cnt + 1) } }

/-- The fastbin branch of `sfree` (source lines 372-378). -/
def sfree_fast (A : Nat) (c : Ctx) (pos len : Nat) : Option Ctx :=
  let idx := size_sub (len / A) 1
  match c.tc.m_freelist_head[idx]? with
  | none => none
  | some list =>
    let list1 : head_t := { head := tolink A (pos / A), cnt := tolink A (list.cnt + 1) }
    some { c with
      mem := Function.update c.mem pos list.head
      tc := { c.tc with m_freelist_head := c.tc.m_freelist_head.set idx list1 } }

/-- The method `TCMemPoolOneThread::sfree(base, pos, len)`. -/
def sfree (P : Params) (fuel : Nat) (c : Ctx) (pos len : Nat) : Option Ctx :=
  let A := P.AlignSize
  if tosize (pos + len) = c.tc.m_hot_pos then
    some { c with tc := { c.tc with m_hot_pos := pos } }
  else
    match (if len ≤ tosize (c.tc.m_freelist_head.length * A) then sfree_fast A c pos len
           else sfree_huge P fuel c pos len) with
    | none => none
    | some c1 => some (account_free c1 len)

/-- Decrement of a `link_size_t` (`list.cnt--`, `--huge_list.size`). -/
def link_dec (A x : Nat) : Nat := (x + (2 ^ link_bits A - 1)) % 2 ^ link_bits A

/-- Fastbin hit of `alloc` (source lines 119-131): pop the head of
`m_freelist_head[idx]`, whose value `list` has just been read. -/
def alloc_fast_pop (A : Nat) (c : Ctx) (idx : Nat) (list : head_t) (request : Nat) :
    Nat × Ctx :=
  let pos := tosize (list.head * A)
  let c1 := account_alloc c request
  let list1 : head_t := { head := c1.mem pos, cnt := link_dec A list.cnt }
  (pos, { c1 with tc := { c1.tc with
    m_freelist_head := c1.tc.m_freelist_head.set idx list1 } })

/-- Split of a block of the `2 * request` fastbin (source lines 140-159);
`list` and `list2` are the values of `m_freelist_head[idx]` and
`m_freelist_head[idx2]`. -/
def alloc_fast_split (A : Nat) (c : Ctx) (idx idx2 : Nat) (list list2 : head_t)
    (request : Nat) : Nat × Ctx :=
  let pos := tosize (list2.head * A)
  let c1 := account_alloc c request
  let new2 : head_t := { head := c1.mem pos, cnt := link_dec A list2.cnt }
  let new1 : head_t :=
    { head := tolink A (tosize (pos + request) / A), cnt := tolink A (list.cnt + 1) }
  (pos, { c1 with
    mem := Function.update c1.mem (tosize (pos + request)) (list_tail A)
    tc := { c1.tc with
      m_freelist_head := (c1.tc.m_freelist_head.set idx2 new2).set idx new1 } })

/-- The hot bump (source lines 164-174 and 310-319): `none` when the request
does not fit between `m_hot_pos` and `m_hot_end`. -/
def alloc_hot (c : Ctx) (request : Nat) : Option (Nat × Ctx) :=
  if tosize (c.tc.m_hot_pos + request) ≤ c.tc.m_hot_end then
    some (c.tc.m_hot_pos,
      { c with tc := { c.tc with m_hot_pos := tosize (c.tc.m_hot_pos + request) } })
  else none

/-- The inner loop of the small-request search for the last node of level `k`:
`while (n2->next[k] != list_tail) { n1 = n2; n2 = node(n2->next[k]); }` -/
def walk_last (A : Nat) (c : Ctx) (k : Nat) :
    Nat → Option NodePtr → NodePtr → Option (Option NodePtr × NodePtr)
  | 0, _, _ => none
  | f + 1, n1, n2 =>
    match node_next A c n2 k with
    | none => none
    | some nx =>
      if nx ≠ list_tail A then walk_last A c k f (some n2) (node_of_link A nx)
      else some (n1, n2)

/-- The outer loop of that search (source lines 182-192):
`while (true) { inner loop; update[k] = n1; if (k-- > 0) n2 = n1; else break; }`
A null `n1` carried into the next level is dereferenced there. -/
def find_last (A : Nat) (c : Ctx) (fuel : Nat) :
    Nat → Option NodePtr → NodePtr → UpdateArr → Option (NodePtr × UpdateArr)
  | k, n1, n2, u =>
    match walk_last A c k fuel n1 n2 with
    | none => none
    | some (m1, m2) =>
      match upd_set u k m1 with
      | none => none
      | some u1 =>
        match k with
        | 0 => some (m2, u1)
        | j + 1 =>
          match m1 with
          | none => none
          | some q => find_last A c fuel j (some q) q u1

/-- The unlink loop of `alloc` (source lines 198-201 and 266-268), levels
`k, k+1, ...` for `r` more iterations:
`if (update[k]->next[k] == res_shift) update[k]->next[k] = n2->next[k];` -/
def unlink_levels (A : Nat) (u : UpdateArr) (n2 : NodePtr) (res_shift : Nat) :
    Nat → Nat → Ctx → Option Ctx
  | 0, _, c => some c
  | r + 1, k, c =>
    match upd_get u k with
    | none => none
    | some n1 =>
      match node_next A c n1 k with
      | none => none
      | some nx =>
        if nx = res_shift then
          match node_next A c n2 k with
          | none => none
          | some v =>
            match node_set_next A c n1 k v with
            | none => none
            | some c1 => unlink_levels A u n2 res_shift r (k + 1) c1
        else unlink_levels A u n2 res_shift r (k + 1) c

/-- The loop
`while (huge_list.next[huge_list.size - 1] == list_tail && --huge_list.size > 0) ;`
as a function of the current `huge_list.size`; returns the final size. -/
def shrink_levels (A : Nat) (next : Nat → Nat) : Nat → Option Nat
  | 0 => none
  | s + 1 =>
    if s < skip_list_level_max then
      if next s = list_tail A then (if s > 0 then shrink_levels A next s else some 0)
      else some (s + 1)
    else none

/-- Unlink followed by the shrink loop: the part common to both huge-list
branches of `alloc`. -/
def unlink_node (A : Nat) (c : Ctx) (u : UpdateArr) (res : Nat) : Option Ctx :=
  match unlink_levels A u (NodePtr.node res) (shr_off A res) c.tc.huge_list.size 0 c with
  | none => none
  | some c1 =>
    match shrink_levels A c1.tc.huge_list.next c1.tc.huge_list.size with
    | none => none
    | some sz =>
      some { c1 with tc := { c1.tc with huge_list := { c1.tc.huge_list with size := sz } } }

/-- The end of the refill (source lines 204-220) on the state `c2` left by the
unlink: free the old hot remainder, adopt the block at `res` of size `rlen`
as hot region, update the counters. -/
def refill_finish (P : Params) (fuel : Nat) (c2 : Ctx) (res rlen request : Nat) :
    Option (Nat × Ctx) :=
  let freed : Option Ctx :=
    if c2.tc.m_hot_pos < c2.tc.m_hot_end then
      sfree P fuel c2 c2.tc.m_hot_pos (size_sub c2.tc.m_hot_end c2.tc.m_hot_pos)
    else some c2
  match freed with
  | none => none
  | some c3 =>
    let c4 : Ctx := { c3 with tc := { c3.tc with
      m_hot_pos := tosize (res + request)
      m_hot_end := tosize (res + rlen)
      huge_size_sum := size_sub c3.tc.huge_size_sum rlen
      huge_node_cnt := size_sub c3.tc.huge_node_cnt 1 } }
    some (res, account_alloc c4 rlen)

/-- Huge-list refill of the hot region, the last attempt of the small-request
path of `alloc` (source lines 177-221, then the final `return size_t(-1)`). -/
def alloc_refill (P : Params) (fuel : Nat) (c : Ctx) (request : Nat) : Option (Nat × Ctx) :=
  let A := P.AlignSize
  let found : Option (NodePtr × UpdateArr) :=
    if c.tc.huge_list.size ≠ 0 then
      find_last A c fuel (c.tc.huge_list.size - 1) none NodePtr.head (fun _ => none)
    else some (NodePtr.head, fun _ => none)
  match found with
  | none => none
  | some (n2, u) =>
    if node_size c n2 ≥ request then
      match n2 with
      | NodePtr.head => none
      | NodePtr.node res =>
        match unlink_node A c u res with
        | none => none
        | some c2 => refill_finish P fuel c2 res (c.mem res) request
    else some (size_fail, c)

/-- The test `n2 != nullptr && n2->size >= request` of the large path, with
the offset `(byte*)n2 - base` when it holds (`n2` is only ever assigned
pointers into the buffer). -/
def large_hit (c : Ctx) (request : Nat) : Option NodePtr → Option Nat
  | some (NodePtr.node res) => if c.mem res ≥ request then some res else none
  | _ => none

/-- The end of the best fit (source lines 271-284) on the state `c2` left by
the unlink: give the bytes beyond the request back through `sfree`, update the
counters. -/
def large_finish (P : Params) (fuel : Nat) (c2 : Ctx) (res remain request : Nat) :
    Option (Nat × Ctx) :=
  let freed : Option Ctx :=
    if remain ≠ 0 then sfree P fuel c2 (tosize (res + request)) remain else some c2
  match freed with
  | none => none
  | some c3 =>
    let c4 : Ctx := { c3 with tc := { c3.tc with
      huge_size_sum := size_sub c3.tc.huge_size_sum request
      huge_node_cnt := size_sub c3.tc.huge_node_cnt 1 } }
    some (res, account_alloc c4 request)

/-- The large-request path of `alloc` (source lines 250-320, then the final
`return size_t(-1)`): best fit on the huge list, then the hot bump. -/
def alloc_large (P : Params) (fuel : Nat) (c : Ctx) (request : Nat) : Option (Nat × Ctx) :=
  let A := P.AlignSize
  match find_lt A c request fuel c.tc.huge_list.size NodePtr.head none (fun _ => none) with
  | none => none
  | some (_, n2, u) =>
    match large_hit c request n2 with
    | some res =>
      match unlink_node A c u res with
      | none => none
      | some c2 => large_finish P fuel c2 res (size_sub (c.mem res) request) request
    | none =>
      match alloc_hot c request with
      | some r => some r
      | none => some (size_fail, c)

/-- The attempt on the `2 * request` fastbin (source lines 135-161); `none`
when that bin does not exist or is empty. -/
def alloc_split_try (A : Nat) (c : Ctx) (idx : Nat) (list : head_t) (request : Nat) :
    Option (Nat × Ctx) :=
  let idx2 := tosize (idx * 2 + 1)
  if idx2 < c.tc.m_freelist_head.length then
    match c.tc.m_freelist_head[idx2]? with
    | some list2 =>
      if list_tail A ≠ list2.head then
        some (alloc_fast_split A c idx idx2 list list2 request)
      else none
    | none => none
  else none

/-- The small-request path of `alloc` after the lookup of
`m_freelist_head[idx]` (source lines 117-221). -/
def alloc_small (P : Params) (fuel : Nat) (c : Ctx) (request idx : Nat) (list : head_t) :
    Option (Nat × Ctx) :=
  let A := P.AlignSize
  if list_tail A ≠ list.head then some (alloc_fast_pop A c idx list request)
  else
    match alloc_split_try A c idx list request with
    | some r => some r
    | none =>
      match alloc_hot c request with
      | some r => some r
      | none => alloc_refill P fuel c request

/-- The method `TCMemPoolOneThread::alloc(base, request)`. -/
def alloc (P : Params) (fuel : Nat) (c : Ctx) (request : Nat) : Option (Nat × Ctx) :=
  let A := P.AlignSize
  if request ≤ tosize (c.tc.m_freelist_head.length * A) then
    match c.tc.m_freelist_head[size_sub (request / A) 1]? with
    | none => none
    | some list => alloc_small P fuel c request (size_sub (request / A) 1) list
  else alloc_large P fuel c request

/-- The call `memcpy(base + dst, base + src, len)` on the pool buffer. -/
def memcpy_buf (m : Nat → Nat) (dst src len : Nat) : Nat → Nat :=
  fun x => if dst ≤ x ∧ x < dst + len then m (src + (x - dst)) else m x

/-- The method `TCMemPoolOneThread::alloc3(base, oldpos, oldlen, newlen)`. -/
def alloc3 (P : Params) (fuel : Nat) (c : Ctx) (oldpos oldlen newlen : Nat) :
    Option (Nat × Ctx) :=
  if tosize (oldpos + oldlen) = c.tc.m_hot_pos ∧
      tosize (oldpos + newlen) ≤ c.tc.m_hot_end then
    some (oldpos, { c with tc := { c.tc with m_hot_pos := tosize (oldpos + newlen) } })
  else if newlen < oldlen then
    match sfree P fuel c (tosize (oldpos + newlen)) (size_sub oldlen newlen) with
    | none => none
    | some c1 => some (oldpos, c1)
  else if newlen = oldlen then some (oldpos, c)
  else
    match alloc P fuel c newlen with
    | none => none
    | some (newpos, c1) =>
      if size_fail ≠ newpos then
        let c2 : Ctx := { c1 with mem := memcpy_buf c1.mem newpos oldpos (min oldlen newlen) }
        match sfree P fuel c2 oldpos oldlen with
        | none => none
        | some c3 => some (newpos, c3)
      else some (newpos, c1)

/-- The method `TCMemPoolOneThread::set_hot_area(base, pos, len)`. -/
def set_hot_area (P : Params) (fuel : Nat) (c : Ctx) (pos len : Nat) : Option Ctx :=
  if c.tc.m_hot_end = pos then
    some { c with tc := { c.tc with m_hot_end := tosize (pos + len) } }
  else
    let freed : Option Ctx :=
      if c.tc.m_hot_pos < c.tc.m_hot_end then
        sfree P fuel c c.tc.m_hot_pos (size_sub c.tc.m_hot_end c.tc.m_hot_pos)
      else some c
    match freed with
    | none => none
    | some c1 =>
      some { c1 with tc := { c1.tc with m_hot_pos := pos, m_hot_end := tosize (pos + len) } }

/-- The byte store `base[pos] = 0` on the word map (little-endian words). -/
def store_byte_zero (A : Nat) (m : Nat → Nat) (pos : Nat) : Nat → Nat :=
  let w := pos / sizeof_link A * sizeof_link A
  let sh := 8 * (pos % sizeof_link A)
  Function.update m w (m w - (m w / 2 ^ sh % 256) * 2 ^ sh)

/-- The loop of `populate_hot_area`, started at `pos`:
`for (; pos < m_hot_end; pos += pageSize) base[pos] = 0;` -/
def populate_loop (A hot_end pageSize : Nat) : Nat → Nat → (Nat → Nat) → Option (Nat → Nat)
  | 0, _, _ => none
  | f + 1, pos, m =>
    if pos < hot_end then
      populate_loop A hot_end pageSize f (tosize (pos + pageSize)) (store_byte_zero A m pos)
    else some m

/-- The method `TCMemPoolOneThread::populate_hot_area(base, pageSize)`. -/
def populate_hot_area (A : Nat) (fuel : Nat) (c : Ctx) (pageSize : Nat) : Option Ctx :=
  match populate_loop A c.tc.m_hot_end pageSize fuel c.tc.m_hot_pos c.mem with
  | none => none
  | some m => some { c with mem := m }

/-- The constructor `TCMemPoolOneThread(mp)`, given `mp->m_fastbin_max_size`. -/
def TCMemPoolOneThread.init (A fastbin_max_size : Nat) : TCMemPoolOneThread :=
  { fragment_size := 0
    m_frag_inc := 0
    huge_list := { size := 0, next := fun _ => list_tail A }
    m_freelist_head := List.replicate (fastbin_max_size / A) { head := list_tail A, cnt := 0 }
    huge_size_sum := 0
    huge_node_cnt := 0
    m_hot_end := 0
    m_hot_pos := 0
    m_rand_seed := 1 }

/-- Modelled from the spec: the helper `pow2_align_up(x, align)` of the
repository's `stdtypes.hpp`/`config.hpp`, which is not among the sources.  The
spec only says the value is "rounded" up to the alignment; for a power of two
it is `(x + align - 1) & ~(align - 1)` on `size_t`. -/
def pow2_align_up (x align : Nat) : Nat := tosize (x + (align - 1)) / align * align

/-- Modelled from the spec: the helper `pow2_align_down(x, align)`, the
companion of `pow2_align_up`: `x & ~(align - 1)`. -/
def pow2_align_down (x align : Nat) : Nat := x / align * align

/-- The constant `ArenaSize`. -/
def ArenaSize : Nat := 2 * 1024 * 1024

/-- Data members of `ThreadCacheMemPool` (with those of the `valvec<byte_t>`
base: `p`, `n`, `c`), the buffer contents `buf`, and the thread caches
registered in the `instance_tls_owner`. -/
structure ThreadCacheMemPool where
  p : Nat
  n : Nat
  c : Nat
  buf : Nat → Nat
  fragment_size : Nat
  m_fastbin_max_size : Nat
  m_chunk_size : Nat
  m_vm_explicit_commit : Bool
  tls : List TCMemPoolOneThread

/-- The view of the pool that the thread cache number `tid` works on. -/
def ThreadCacheMemPool.ctx (mp : ThreadCacheMemPool) (tid : Nat) : Option Ctx :=
  match mp.tls[tid]? with
  | none => none
  | some tc => some { tc := tc, mem := mp.buf, mp_fragment_size := mp.fragment_size }

/-- Write the view of thread cache `tid` back into the pool. -/
def ThreadCacheMemPool.put (mp : ThreadCacheMemPool) (tid : Nat) (c : Ctx) :
    ThreadCacheMemPool :=
  { mp with buf := c.mem, fragment_size := c.mp_fragment_size, tls := mp.tls.set tid c.tc }

/-- The expression `endpos & (m_chunk_size - 1)`. -/
def chunk_rem (endpos chunk : Nat) : Nat := endpos &&& size_sub chunk 1

/-- The adjustment of `chunk_alloc` that makes the new end chunk-aligned:
`if ((endpos & (m_chunk_size-1)) != 0) chunk_len += m_chunk_size - (endpos & (m_chunk_size-1));` -/
def chunk_len_fix (mp : ThreadCacheMemPool) (chunk_len : Nat) : Nat :=
  if chunk_rem (tosize (mp.p + mp.n)) mp.m_chunk_size ≠ 0 then
    tosize (chunk_len + size_sub mp.m_chunk_size (chunk_rem (tosize (mp.p + mp.n)) mp.m_chunk_size))
  else chunk_len

/-- The length computed by one pass of the `do { ... } while (!cas_weak(...))`
loop of `chunk_alloc`; `none` is the `return false`. -/
def chunk_alloc_len (mp : ThreadCacheMemPool) (request : Nat) : Option Nat :=
  let chunk_len := chunk_len_fix mp (pow2_align_up request mp.m_chunk_size)
  if tosize (mp.n + chunk_len) > mp.c then
    if tosize (mp.n + request) > mp.c then none
    else some (size_sub mp.c mp.n)
  else some chunk_len

/-- The Linux branch after the CAS (source lines 702-725): with
`m_vm_explicit_commit`, `TERARK_VERIFY_AL(base, ArenaSize)` and the `madvise`
loop.  `EINVAL` (22) is ignored; `EFAULT` and every other error reach
`TERARK_DIE`, and a kernel that keeps answering `EAGAIN` is retried for ever. -/
def explicit_commit (P : Params) (mp : ThreadCacheMemPool) (oldn chunk_len : Nat) :
    Option Unit :=
  if mp.m_vm_explicit_commit then
    if mp.p % ArenaSize ≠ 0 then none
    else
      let beg := pow2_align_down (tosize (mp.p + oldn)) mp.m_chunk_size
      let e := pow2_align_up (tosize (mp.p + oldn + chunk_len)) mp.m_chunk_size
      let errno := P.madvise beg (size_sub e beg) 23
      if errno = 0 ∨ errno = 22 then some () else none
  else some ()

/-- The method `ThreadCacheMemPool::chunk_alloc(tc, request)` for the thread
cache number `tid`.  The CAS on `mem::n` is the one that succeeds: the model
is sequential, so the value read as `oldn` is still there. -/
def chunk_alloc (P : Params) (fuel : Nat) (mp : ThreadCacheMemPool) (tid request : Nat) :
    Option (Bool × ThreadCacheMemPool) :=
  match chunk_alloc_len mp request with
  | none => some (false, mp)
  | some chunk_len =>
    let oldn := mp.n
    let mp1 : ThreadCacheMemPool := { mp with n := tosize (oldn + chunk_len) }
    match explicit_commit P mp1 oldn chunk_len with
    | none => none
    | some _ =>
      match mp1.ctx tid with
      | none => none
      | some c =>
        match set_hot_area P fuel c oldn chunk_len with
        | none => none
        | some c1 => some (true, mp1.put tid c1)

/-- The rounding of a request at the head of `alloc`, `alloc3` and `sfree` of
the pool: `if (AlignSize < sizeof(link_t)) x = max(sizeof(link_t), x);` then
`pow2_align_up(x, AlignSize)`. -/
def round_request (A x : Nat) : Nat :=
  pow2_align_up (if A < sizeof_link A then max (sizeof_link A) x else x) A

/-- The method `ThreadCacheMemPool::alloc_slow_path(request, tc)`. -/
def alloc_slow_path (P : Params) (fuel : Nat) (mp : ThreadCacheMemPool) (tid request : Nat) :
    Option (Nat × ThreadCacheMemPool) :=
  match chunk_alloc P fuel mp tid request with
  | none => none
  | some (true, mp1) =>
    match mp1.ctx tid with
    | none => none
    | some c =>
      match alloc P fuel c request with
      | none => none
      | some (res, c1) => some (res, mp1.put tid c1)
  | some (false, mp1) => some (size_fail, mp1)

/-- The method `ThreadCacheMemPool::alloc(request, tc)` for the thread cache
number `tid`. -/
def ThreadCacheMemPool.alloc (P : Params) (fuel : Nat) (mp : ThreadCacheMemPool)
    (tid request : Nat) : Option (Nat × ThreadCacheMemPool) :=
  let r := round_request P.AlignSize request
  match mp.ctx tid with
  | none => none
  | some c =>
    match terark.alloc P fuel c r with
    | none => none
    | some (res, c1) =>
      if size_fail ≠ res then some (res, mp.put tid c1)
      else alloc_slow_path P fuel (mp.put tid c1) tid r

/-- The method `ThreadCacheMemPool::alloc3(oldpos, oldlen, newlen, tc)`. -/
def ThreadCacheMemPool.alloc3 (P : Params) (fuel : Nat) (mp : ThreadCacheMemPool)
    (tid oldpos oldlen newlen : Nat) : Option (Nat × ThreadCacheMemPool) :=
  let A := P.AlignSize
  let newlen0 := pow2_align_up newlen A
  let oldlen1 := pow2_align_up oldlen A
  let newlen1 := if A < sizeof_link A then max (sizeof_link A) newlen0 else newlen0
  match mp.ctx tid with
  | none => none
  | some c =>
    match terark.alloc3 P fuel c oldpos oldlen1 newlen1 with
    | none => none
    | some (res, c1) =>
      if size_fail = res then
        match chunk_alloc P fuel (mp.put tid c1) tid newlen1 with
        | none => none
        | some (true, mp1) =>
          match mp1.ctx tid with
          | none => none
          | some c2 =>
            match terark.alloc P fuel c2 newlen1 with
            | none => none
            | some (res2, c3) =>
              if size_fail ≠ res2 then
                let c4 : Ctx := { c3 with mem := memcpy_buf c3.mem res2 oldpos oldlen1 }
                match terark.sfree P fuel c4 oldpos oldlen1 with
                | none => none
                | some c5 => some (res2, mp1.put tid c5)
              else some (res2, mp1.put tid c3)
        | some (false, mp1) => some (res, mp1)
      else some (res, mp.put tid c1)

/-- The method `ThreadCacheMemPool::sfree(pos, len, tc)`. -/
def ThreadCacheMemPool.sfree (P : Params) (fuel : Nat) (mp : ThreadCacheMemPool)
    (tid pos len : Nat) : Option ThreadCacheMemPool :=
  match mp.ctx tid with
  | none => none
  | some c =>
    match terark.sfree P fuel c pos (round_request P.AlignSize len) with
    | none => none
    | some c1 => some (mp.put tid c1)

/-- The adjustment of `tc_populate`:
`if (endpos % m_chunk_size != 0) chunk_len += m_chunk_size - (endpos & (m_chunk_size-1));` -/
def populate_len_fix (mp : ThreadCacheMemPool) (chunk_len : Nat) : Nat :=
  if tosize (mp.p + mp.n) % mp.m_chunk_size ≠ 0 then
    tosize (chunk_len + size_sub mp.m_chunk_size (chunk_rem (tosize (mp.p + mp.n)) mp.m_chunk_size))
  else chunk_len

/-- The length computed by one pass of the CAS loop of `tc_populate`. -/
def tc_populate_len (mp : ThreadCacheMemPool) (sz : Nat) : Nat :=
  let chunk_len := populate_len_fix mp (pow2_align_down sz mp.m_chunk_size)
  if tosize (mp.n + chunk_len) > mp.c then size_sub mp.c mp.n else chunk_len

/-- The method `ThreadCacheMemPool::tc_populate(sz)` called by the thread that
owns cache number `tid`. -/
def tc_populate (P : Params) (fuel : Nat) (mp : ThreadCacheMemPool) (tid sz : Nat) :
    Option ThreadCacheMemPool :=
  let chunk_len := tc_populate_len mp sz
  let oldn := mp.n
  let mp1 : ThreadCacheMemPool := { mp with n := tosize (oldn + chunk_len) }
  match mp1.ctx tid with
  | none => none
  | some c =>
    match set_hot_area P fuel c oldn chunk_len with
    | none => none
    | some c1 =>
      match populate_hot_area P.AlignSize fuel c1 (4 * 1024) with
      | none => none
      | some c2 => some (mp1.put tid c2)

/-- The method `sync_frag_size`: fold every thread cache's `m_frag_inc` into
the pool counter. -/
def sync_frag_size (mp : ThreadCacheMemPool) : ThreadCacheMemPool :=
  { mp with
    fragment_size := mp.tls.foldl
      (fun acc tc => tosize (acc + tosize (tc.m_frag_inc % 2 ^ 64).toNat)) mp.fragment_size
    tls := mp.tls.map fun tc => { tc with m_frag_inc := 0 } }

/-- The method `sync_frag_size_full`. -/
def sync_frag_size_full (mp : ThreadCacheMemPool) : ThreadCacheMemPool :=
  { mp with
    fragment_size := mp.tls.foldl
      (fun acc tc => tosize (acc + tosize (tc.fragment_size + size_sub tc.m_hot_end tc.m_hot_pos)))
      0 }

/-- The method `slow_get_free_size`; a cache whose cursor reads inverted is
re-read for ever in a sequential run. -/
def slow_get_free_size (mp : ThreadCacheMemPool) : Option Nat :=
  mp.tls.foldl
    (fun acc tc =>
      match acc with
      | none => none
      | some sz =>
        if tc.m_hot_pos > tc.m_hot_end then none
        else some (tosize (tosize (sz + size_sub tc.m_hot_end tc.m_hot_pos) + tc.fragment_size)))
    (some 0)

/-- The method `get_huge_stat`: returns `(huge_node_cnt, *huge_memsize)`. -/
def get_huge_stat (mp : ThreadCacheMemPool) : Nat × Nat :=
  mp.tls.foldl
    (fun acc tc => (tosize (acc.1 + tc.huge_node_cnt), tosize (acc.2 + tc.huge_size_sum)))
    (0, 0)

/-- The method `get_fastbin`: the per-size-class sum of the fastbin counters;
a cache with more bins than `m_fastbin_max_size / AlignSize` would be added
past the end of `fast`. -/
def get_fastbin (A : Nat) (mp : ThreadCacheMemPool) : Option (List Nat) :=
  mp.tls.foldl
    (fun acc tc =>
      match acc with
      | none => none
      | some fast =>
        if tc.m_freelist_head.length ≤ fast.length then
          some (List.zipWith (fun x y => tosize (x + y)) fast
            (tc.m_freelist_head.map (fun h => h.cnt) ++
              List.replicate (fast.length - tc.m_freelist_head.length) 0))
        else none)
    (some (List.replicate (mp.m_fastbin_max_size / A) 0))

/-- Every member of the thread cache holds a value of its C++ type
(`size_t`, `intptr_t`, `link_size_t`). -/
def TCMemPoolOneThread.Typed (A : Nat) (tc : TCMemPoolOneThread) : Prop :=
  tc.fragment_size < 2 ^ 64 ∧ -(2 ^ 63) ≤ tc.m_frag_inc ∧ tc.m_frag_inc < 2 ^ 63 ∧
  tc.huge_list.size < 2 ^ link_bits A ∧
  (∀ k, k < skip_list_level_max → tc.huge_list.next k < 2 ^ link_bits A) ∧
  (∀ h, h ∈ tc.m_freelist_head → h.head < 2 ^ link_bits A ∧ h.cnt < 2 ^ link_bits A) ∧
  tc.huge_size_sum < 2 ^ 64 ∧ tc.huge_node_cnt < 2 ^ 64 ∧
  tc.m_hot_end < 2 ^ 64 ∧ tc.m_hot_pos < 2 ^ 64

/-! ### Well-formed huge lists

The huge list is described by its entries in list order: the offset of each
free block together with its height (the number of levels it is linked on).
-/

/-- A chain of level `k` in the buffer `m`: starting from the link word `nx`
it visits the nodes at the offsets `l` in order, and the link word after the
last of them is `e`.  Links are stored as `offset >> offset_shift`. -/
def Seg (A : Nat) (m : Nat → Nat) (k : Nat) : Nat → List Nat → Nat → Prop
  | nx, [], e => nx = e
  | nx, a :: l, e => nx = a / A ∧ Seg A m k (m (a + sizeof_link A * (1 + k))) l e

/-- The offsets of the entries that are linked on level `k`. -/
def level (k : Nat) (es : List (Nat × Nat)) : List Nat :=
  (es.filter (fun e => decide (k < e.2))).map Prod.fst

/-- The node reached from `p` by walking over the nodes `l`. -/
def last_ptr (p : NodePtr) : List Nat → NodePtr
  | [] => p
  | a :: l => last_ptr (NodePtr.node a) l

/-- The huge list of `c` is a well-formed skiplist with entries `es`: the
height is at most 8, the levels below the height are the chains of the
entries of sufficient height, the levels at or above it are empty, the top
level is not empty, sizes are non-decreasing along the list, and the free
blocks are aligned, link-addressable, large enough for a `huge_link_t`, inside
the address range and pairwise disjoint. -/
structure SkipWF (A : Nat) (c : Ctx) (es : List (Nat × Nat)) : Prop where
  size_le : c.tc.huge_list.size ≤ skip_list_level_max
  chain : ∀ k, k < c.tc.huge_list.size →
    Seg A c.mem k (c.tc.huge_list.next k) (level k es) (list_tail A)
  above : ∀ k, c.tc.huge_list.size ≤ k → k < skip_list_level_max →
    c.tc.huge_list.next k = list_tail A
  height : ∀ e, e ∈ es → 1 ≤ e.2 ∧ e.2 ≤ c.tc.huge_list.size
  top : c.tc.huge_list.size ≠ 0 → level (c.tc.huge_list.size - 1) es ≠ []
  sorted : es.Pairwise (fun e f => c.mem e.1 ≤ c.mem f.1)
  addr : ∀ e, e ∈ es →
    e.1 % A = 0 ∧ e.1 / A < list_tail A ∧ sizeof_huge_link A ≤ c.mem e.1 ∧
      e.1 + c.mem e.1 < 2 ^ 64
  disj : es.Pairwise (fun e f => e.1 + c.mem e.1 ≤ f.1 ∨ f.1 + c.mem f.1 ≤ e.1)

/-- The value of `n2` left by the inner search loop. -/
def walk_lt_n2 (p : NodePtr) (n2 : Option NodePtr) (R B : List Nat) : Option NodePtr :=
  match B with
  | b :: _ => some (NodePtr.node b)
  | [] =>
    match R with
    | [] => n2
    | _ :: _ => some (last_ptr p R)


/-- The context `c` differs from `c0` at most in `huge_list.next` and in the
`next` words of the block headers at the offsets `S`. -/
structure LinkFrame (A : Nat) (S : List Nat) (c0 c : Ctx) : Prop where
  fragment_size : c.tc.fragment_size = c0.tc.fragment_size
  frag_inc : c.tc.m_frag_inc = c0.tc.m_frag_inc
  freelist : c.tc.m_freelist_head = c0.tc.m_freelist_head
  huge_size_sum : c.tc.huge_size_sum = c0.tc.huge_size_sum
  huge_node_cnt : c.tc.huge_node_cnt = c0.tc.huge_node_cnt
  hot_end : c.tc.m_hot_end = c0.tc.m_hot_end
  hot_pos : c.tc.m_hot_pos = c0.tc.m_hot_pos
  rand_seed : c.tc.m_rand_seed = c0.tc.m_rand_seed
  mp_frag : c.mp_fragment_size = c0.mp_fragment_size
  size : c.tc.huge_list.size = c0.tc.huge_list.size
  mem_eq : ∀ addr, (∀ a, a ∈ S → ∀ i, i < skip_list_level_max →
    addr ≠ a + sizeof_link A * (1 + i)) → c.mem addr = c0.mem addr

/-- The thread cache of `c` is well formed with huge-list entries `es`: the
huge list is a well-formed skiplist of blocks whose sizes are multiples of
`AlignSize`, the hot region `[m_hot_pos, m_hot_end)` is aligned, ordered,
disjoint from the free huge blocks, and ends at least `fastbin_max` bytes
below `2^64`. -/
structure TcWF (A : Nat) (c : Ctx) (es : List (Nat × Nat)) : Prop where
  skip : SkipWF A c es
  size_al : ∀ e, e ∈ es → c.mem e.1 % A = 0
  hot_le : c.tc.m_hot_pos ≤ c.tc.m_hot_end
  hot_end_lt : c.tc.m_hot_end < 2 ^ 64
  hot_pos_al : c.tc.m_hot_pos % A = 0
  hot_end_al : c.tc.m_hot_end % A = 0
  hot_disj : ∀ e, e ∈ es → e.1 + c.mem e.1 ≤ c.tc.m_hot_pos ∨ c.tc.m_hot_end ≤ e.1
  bins_lt : c.tc.m_hot_end + c.tc.m_freelist_head.length * A < 2 ^ 64

/-- The arena `mp`, as seen by the thread cache `c` with huge-list entries
`es`, is well formed: the thread cache is well formed, `fastbin_max` is at
least `sizeof(huge_link_t)` (the constructor's assertion), the sizes of the
free huge blocks and of the hot region fit the `link_size_t` size field, the
free blocks and the hot region lie inside the used part of the arena,
`used ≤ capacity < 2^64`, every offset below the capacity is
link-addressable, the chunk size is not zero, and with
`m_vm_explicit_commit` the base is `ArenaSize`-aligned and `madvise` fails
with `EINVAL` at worst. -/
structure PoolWF (P : Params) (mp : ThreadCacheMemPool) (c : Ctx)
    (es : List (Nat × Nat)) : Prop where
  align : ValidAlign P.AlignSize
  tc : TcWF P.AlignSize c es
  bins : sizeof_huge_link P.AlignSize ≤ c.tc.m_freelist_head.length * P.AlignSize
  typed : ∀ e, e ∈ es → c.mem e.1 < 2 ^ link_bits P.AlignSize
  ends : ∀ e, e ∈ es → e.1 + c.mem e.1 ≤ mp.n
  hot_n : c.tc.m_hot_end ≤ mp.n
  hot_typed : c.tc.m_hot_end - c.tc.m_hot_pos < 2 ^ link_bits P.AlignSize
  used_le : mp.n ≤ mp.c
  cap_lt : mp.c < 2 ^ 64
  cap_link : mp.c / P.AlignSize ≤ list_tail P.AlignSize
  chunk_pos : 0 < mp.m_chunk_size
  commit : mp.m_vm_explicit_commit = true →
    mp.p % ArenaSize = 0 ∧ ∀ a l f, P.madvise a l f = 0 ∨ P.madvise a l f = 22

/-! ### The free bytes of a thread cache, read off its lists -/

/-- The number of blocks linked from the fastbin head `h` to `list_tail`,
following the link stored in the first word of each block. -/
def spec_chain_blocks (A : Nat) (m : Nat → Nat) : Nat → Nat → Option Nat
  | 0, _ => none
  | f + 1, h =>
    if h = list_tail A then some 0
    else (spec_chain_blocks A m f (m (tosize (h * A)))).map (fun k => k + 1)

/-- The bytes held on the fastbins in the words of the specification: the sum
of `(i + 1) * AlignSize` over the blocks linked in each `fastbin[i]`; the bins
`i, i + 1, ...` are the elements of the list. -/
def spec_fastbin_bytes (A : Nat) (m : Nat → Nat) (fuel : Nat) : Nat → List head_t → Option Nat
  | _, [] => some 0
  | i, h :: t =>
    match spec_chain_blocks A m fuel h.head, spec_fastbin_bytes A m fuel (i + 1) t with
    | some k, some s => some (k * ((i + 1) * A) + s)
    | _, _ => none

/-- The bytes held on the huge list in the words of the specification: the
sum of the size fields of the blocks linked on level 0, from the link `nx`
to `list_tail`. -/
def spec_huge_bytes (A : Nat) (m : Nat → Nat) : Nat → Nat → Option Nat
  | 0, _ => none
  | f + 1, nx =>
    if nx = list_tail A then some 0
    else (spec_huge_bytes A m f (m (shl_off A nx + sizeof_link A * (1 + 0)))).map
      (fun s => m (shl_off A nx) + s)

/-- The bytes actually held free on the lists of a thread cache, in the words
of the specification: fastbin bytes plus huge-list bytes. -/
def spec_free_bytes (A : Nat) (c : Ctx) (fuel : Nat) : Option Nat :=
  match spec_fastbin_bytes A c.mem fuel 0 c.tc.m_freelist_head,
    spec_huge_bytes A c.mem fuel (c.tc.huge_list.next 0) with
  | some a, some b => some (a + b)
  | _, _ => none

/-- The method `ThreadCacheMemPool::clean_for_reuse(t)` for the thread cache
number `tid`: `t->clean_for_reuse()` (empty in `TCMemPoolOneThread`), then
`fragment_size.fetch_add(t->m_frag_inc); t->m_frag_inc = 0;`. -/
def clean_for_reuse (mp : ThreadCacheMemPool) (tid : Nat) : Option ThreadCacheMemPool :=
  match mp.tls[tid]? with
  | none => none
  | some tc =>
    some { mp with
      fragment_size := tosize (mp.fragment_size + tosize (tc.m_frag_inc % 2 ^ 64).toNat)
      tls := mp.tls.set tid { tc with m_frag_inc := 0 } }

/-! ### The invariant of a thread cache

The free storage of a thread cache is described by the offsets `F i` of the
blocks linked on `fastbin[i]` (head first), the entries `es` of the huge list
and the hot region; `N` is the part of the arena handed out so far (`used`).
-/

/-- The chain of a fastbin in the buffer `m`: starting from the head link `nx`
it visits the blocks at the offsets `l`, each holding the link of the next one
in its first word, and ends with `list_tail`. -/
def FastSeg (A : Nat) (m : Nat → Nat) : Nat → List Nat → Prop
  | nx, [] => nx = list_tail A
  | nx, a :: l => nx = a / A ∧ FastSeg A m (m a) l

/-- The sum of `cnt * (i + 1) * AlignSize` over the fastbins (the bins
`i, i + 1, ...` are the elements of the list). -/
def fastbin_sum (A : Nat) : Nat → List head_t → Nat
  | _, [] => 0
  | i, h :: t => h.cnt * ((i + 1) * A) + fastbin_sum A (i + 1) t

/-- The byte at offset `x` is free in the thread cache: it lies in a block of
a fastbin, in a free huge block or in the hot region. -/
def FreeAt (A : Nat) (c : Ctx) (F : Nat → List Nat) (es : List (Nat × Nat)) (x : Nat) : Prop :=
  (∃ i a, a ∈ F i ∧ a ≤ x ∧ x < a + (i + 1) * A) ∨
  (∃ e, e ∈ es ∧ e.1 ≤ x ∧ x < e.1 + c.mem e.1) ∨
  (c.tc.m_hot_pos ≤ x ∧ x < c.tc.m_hot_end)

/-- The free lists of a thread cache are well formed: the huge list is a
well-formed skiplist of blocks larger than `fastbin_max` whose sizes are
multiples of `AlignSize`; every fastbin is the chain of its blocks and its
counter is their number; all free blocks are aligned, lie below `N` and are
pairwise disjoint; `fastbin_max` is at least `sizeof(huge_link_t)`; and `N` is
small enough for sizes to fit the size field and signed arithmetic. -/
structure Core (A N : Nat) (c : Ctx) (F : Nat → List Nat) (es : List (Nat × Nat)) : Prop where
  align : ValidAlign A
  limit : N < 2 ^ link_bits A ∧ N ≤ 2 ^ 62
  bins : sizeof_huge_link A ≤ c.tc.m_freelist_head.length * A
  bins_le : c.tc.m_freelist_head.length * A ≤ 2 ^ 62
  skip : SkipWF A c es
  size_al : ∀ e, e ∈ es → c.mem e.1 % A = 0
  huge_big : ∀ e, e ∈ es → c.tc.m_freelist_head.length * A < c.mem e.1
  huge_in : ∀ e, e ∈ es → e.1 + c.mem e.1 ≤ N
  fast_chain : ∀ i h, c.tc.m_freelist_head[i]? = some h →
    FastSeg A c.mem h.head (F i) ∧ h.cnt = (F i).length
  fast_addr : ∀ i a, a ∈ F i →
    i < c.tc.m_freelist_head.length ∧ a % A = 0 ∧ a + (i + 1) * A ≤ N
  fast_nodup : ∀ i, (F i).Nodup
  fast_disj : ∀ i j a b, a ∈ F i → b ∈ F j →
    (i = j ∧ a = b) ∨ a + (i + 1) * A ≤ b ∨ b + (j + 1) * A ≤ a
  fast_huge : ∀ i a e, a ∈ F i → e ∈ es → a + (i + 1) * A ≤ e.1 ∨ e.1 + c.mem e.1 ≤ a

/-- The hot region `[m_hot_pos, m_hot_end)` is aligned, ordered, below `N` and,
unless it is empty, separated from every free block. -/
structure HotWF (A N : Nat) (c : Ctx) (F : Nat → List Nat) (es : List (Nat × Nat)) : Prop where
  hot_le : c.tc.m_hot_pos ≤ c.tc.m_hot_end
  hot_pos_al : c.tc.m_hot_pos % A = 0
  hot_end_al : c.tc.m_hot_end % A = 0
  hot_in : c.tc.m_hot_end ≤ N
  hot_disj : ∀ e, e ∈ es →
    e.1 + c.mem e.1 ≤ c.tc.m_hot_pos ∨ c.tc.m_hot_end ≤ e.1 ∨ c.tc.m_hot_end ≤ c.tc.m_hot_pos
  fast_hot : ∀ i a, a ∈ F i →
    a + (i + 1) * A ≤ c.tc.m_hot_pos ∨ c.tc.m_hot_end ≤ a ∨ c.tc.m_hot_end ≤ c.tc.m_hot_pos

/-- The counters of a thread cache: `fragment_size` is the sum of the fastbin
counters weighted by their block sizes plus `huge_size_sum` (in `size_t`),
`huge_node_cnt` is the number of free huge blocks, and the pending delta
`m_frag_inc` lies within 256 KiB of zero. -/
structure Counters (A : Nat) (c : Ctx) (es : List (Nat × Nat)) : Prop where
  cnt_eq : c.tc.fragment_size
    = tosize (fastbin_sum A 0 c.tc.m_freelist_head + c.tc.huge_size_sum)
  node_cnt : c.tc.huge_node_cnt = es.length
  inc_lo : -(256 * 1024) ≤ c.tc.m_frag_inc
  inc_hi : c.tc.m_frag_inc ≤ 256 * 1024

/-- The invariant of a thread cache. -/
structure Inv (A N : Nat) (c : Ctx) (F : Nat → List Nat) (es : List (Nat × Nat)) : Prop where
  core : Core A N c F es
  hot : HotWF A N c F es
  counters : Counters A c es

/-- The transition from `(c, F, es)` to `(c1, F1, es1)` keeps every byte that
is neither free in the first state nor inside `[q, q + k)`: it is not free in
the second state and holds the same value. -/
def Keeps (A : Nat) (c : Ctx) (F : Nat → List Nat) (es : List (Nat × Nat))
    (c1 : Ctx) (F1 : Nat → List Nat) (es1 : List (Nat × Nat)) (q k : Nat) : Prop :=
  ∀ x, ¬ FreeAt A c F es x → ¬ (q ≤ x ∧ x < q + k) →
    ¬ FreeAt A c1 F1 es1 x ∧ c1.mem x = c.mem x

/-- The arena counter plus the pending delta minus the thread counter, in
`size_t` arithmetic: the part of `fragment_size` that a thread cache has
reported wrongly to the arena. -/
def frag_gap (c : Ctx) : Int :=
  ((c.mp_fragment_size : Int) + c.tc.m_frag_inc - (c.tc.fragment_size : Int)) % 2 ^ 64

/-- The sum over the thread caches of `m_frag_inc - fragment_size`. -/
def pending_sum (tls : List TCMemPoolOneThread) : Int :=
  (tls.map (fun tc => tc.m_frag_inc - (tc.fragment_size : Int))).sum

/-- The arena counter plus all pending deltas minus all thread counters, in
`size_t` arithmetic. -/
def pool_gap (mp : ThreadCacheMemPool) : Int :=
  ((mp.fragment_size : Int) + pending_sum mp.tls) % 2 ^ 64

/-- The outcome of a successful `alloc(r)` that returned `res` and led from
`(c, F, es)` to `(c1, F1, es1)`: the invariant holds again, the block
`[res, res + r)` is aligned, lies inside the used part of the arena, was free
and is not free any more, and every byte that was not free is still not free
and holds its value. -/
structure AllocOk (A N : Nat) (c : Ctx) (F : Nat → List Nat) (es : List (Nat × Nat))
    (r res : Nat) (c1 : Ctx) (F1 : Nat → List Nat) (es1 : List (Nat × Nat)) : Prop where
  inv : Inv A N c1 F1 es1
  keeps : Keeps A c F es c1 F1 es1 0 0
  gap : frag_gap c1 = frag_gap c
  bins : c1.tc.m_freelist_head.length = c.tc.m_freelist_head.length
  len : es1.length ≤ es.length + 1
  res_al : res % A = 0
  res_in : res + r ≤ N
  taken : ∀ x, res ≤ x → x < res + r → FreeAt A c F es x ∧ ¬ FreeAt A c1 F1 es1 x

/-- The outcome of a successful `alloc3(oldpos, oldlen, newlen)` that returned
`res` and led from `(c, F, es)` to `(c1, F1, es1)`: the invariant holds again;
the block `[res, res + newlen)` is aligned, inside the used part of the arena
and not free; its bytes come from the old block or were free; the first
`min(oldlen, newlen)` bytes are those of the old block; the bytes of the old
block outside the new one are free; when the block has moved, all of the new
block was free before; a block that has grown without moving was followed by
the hot region, which had the room; and every byte that was neither free nor
part of the old block is still not free and holds its value. -/
structure Alloc3Ok (A N : Nat) (c : Ctx) (F : Nat → List Nat) (es : List (Nat × Nat))
    (oldpos oldlen newlen res : Nat) (c1 : Ctx) (F1 : Nat → List Nat)
    (es1 : List (Nat × Nat)) : Prop where
  inv : Inv A N c1 F1 es1
  keeps : Keeps A c F es c1 F1 es1 oldpos oldlen
  gap : frag_gap c1 = frag_gap c
  bins : c1.tc.m_freelist_head.length = c.tc.m_freelist_head.length
  len : es1.length ≤ es.length + 2
  res_al : res % A = 0
  res_in : res + newlen ≤ N
  live : ∀ x, res ≤ x → x < res + newlen → ¬ FreeAt A c1 F1 es1 x
  origin : ∀ x, res ≤ x → x < res + newlen →
    FreeAt A c F es x ∨ (oldpos ≤ x ∧ x < oldpos + oldlen)
  copied : ∀ d, d < oldlen → d < newlen → c1.mem (res + d) = c.mem (oldpos + d)
  freed : ∀ x, oldpos ≤ x → x < oldpos + oldlen → ¬ (res ≤ x ∧ x < res + newlen) →
    FreeAt A c1 F1 es1 x
  moved : res ≠ oldpos → oldlen < newlen ∧ ∀ x, res ≤ x → x < res + newlen → FreeAt A c F es x
  stay : res = oldpos → oldlen < newlen →
    oldpos + oldlen = c.tc.m_hot_pos ∧ oldpos + newlen ≤ c.tc.m_hot_end

/-! ### The arena and runs of calls -/

/-- The arena is well formed: `used ≤ capacity`, the capacity is
link-addressable and at most `2^62`, the base address, the used size and the
capacity are multiples of `AlignSize`, the chunk size is a power of two (as
`set_chunk_size` verifies) not below `AlignSize`, and with
`m_vm_explicit_commit` the base is `ArenaSize`-aligned and `madvise` fails
with `EINVAL` at worst. -/
structure ArenaWF (P : Params) (mp : ThreadCacheMemPool) : Prop where
  used_le : mp.n ≤ mp.c
  cap_link : mp.c < 2 ^ link_bits P.AlignSize
  cap_le : mp.c ≤ 2 ^ 62
  used_al : mp.n % P.AlignSize = 0
  cap_al : mp.c % P.AlignSize = 0
  base_al : mp.p % P.AlignSize = 0
  chunk : ∃ j, j ≤ 61 ∧ mp.m_chunk_size = 2 ^ j ∧ P.AlignSize ≤ mp.m_chunk_size
  commit : mp.m_vm_explicit_commit = true →
    mp.p % ArenaSize = 0 ∧ ∀ a l f, P.madvise a l f = 0 ∨ P.madvise a l f = 22

/-- A call of the pool's interface; `tid` is the number of the calling
thread's cache. -/
inductive Call where
  | alloc (tid request : Nat)
  | alloc3 (tid oldpos oldlen newlen : Nat)
  | sfree (tid pos len : Nat)
  | sync
  | clean (tid : Nat)

/-- One call on the pool, together with the book-keeping of the caller: the
list of the blocks that were handed out and not released yet, each with its
offset and its length rounded up to `AlignSize`. -/
def step_call (P : Params) (fuel : Nat) (s : ThreadCacheMemPool × List (Nat × Nat)) :
    Call → Option (ThreadCacheMemPool × List (Nat × Nat))
  | Call.alloc tid request =>
    match s.1.alloc P fuel tid request with
    | none => none
    | some (res, mp1) =>
      some (mp1, if res = size_fail then s.2
        else (res, pow2_align_up request P.AlignSize) :: s.2)
  | Call.alloc3 tid oldpos oldlen newlen =>
    match s.1.alloc3 P fuel tid oldpos oldlen newlen with
    | none => none
    | some (res, mp1) =>
      some (mp1, if res = size_fail then s.2
        else (res, pow2_align_up newlen P.AlignSize) ::
          s.2.erase (oldpos, pow2_align_up oldlen P.AlignSize))
  | Call.sfree tid pos len =>
    match s.1.sfree P fuel tid pos len with
    | none => none
    | some mp1 => some (mp1, s.2.erase (pos, pow2_align_up len P.AlignSize))
  | Call.sync => some (sync_frag_size s.1, s.2)
  | Call.clean tid =>
    match clean_for_reuse s.1 tid with
    | none => none
    | some mp1 => some (mp1, s.2)

/-- A sequence of calls, one after the other. -/
def run_calls (P : Params) (fuel : Nat) :
    List Call → ThreadCacheMemPool × List (Nat × Nat) → Option (ThreadCacheMemPool × List (Nat × Nat))
  | [], s => some s
  | k :: ks, s =>
    match step_call P fuel s k with
    | none => none
    | some s1 => run_calls P fuel ks s1

/-- The call is one that a client may make in the state `s`: the thread cache
exists, lengths are positive, a request is at most `2^61` bytes, and a block
that is released or resized is one that was handed out, with its length. -/
def ValidCall (P : Params) (s : ThreadCacheMemPool × List (Nat × Nat)) : Call → Prop
  | Call.alloc tid request => tid < s.1.tls.length ∧ 0 < request ∧ request ≤ 2 ^ 61
  | Call.alloc3 tid oldpos oldlen newlen =>
    tid < s.1.tls.length ∧ 0 < oldlen ∧ 0 < newlen ∧ newlen ≤ 2 ^ 61 ∧
      (oldpos, pow2_align_up oldlen P.AlignSize) ∈ s.2
  | Call.sfree tid pos len =>
    tid < s.1.tls.length ∧ 0 < len ∧ (pos, pow2_align_up len P.AlignSize) ∈ s.2
  | Call.sync => True
  | Call.clean tid => tid < s.1.tls.length

/-- Every call of the sequence is valid in the state in which it is made. -/
def ValidRun (P : Params) (fuel : Nat) :
    List Call → ThreadCacheMemPool × List (Nat × Nat) → Prop
  | [], _ => True
  | k :: ks, s =>
    ValidCall P s k ∧ ∀ s1, step_call P fuel s k = some s1 → ValidRun P fuel ks s1

/-- The invariant of the pool: the arena is well formed; every thread cache
satisfies its invariant, with the free blocks `FF tid`, `EE tid`; no byte is
free in two thread caches; the blocks handed out are aligned, inside the used
part of the arena, not free in any thread cache and pairwise disjoint; the
arena counter plus the pending deltas is the sum of the thread counters; and
every thread cache has `m_fastbin_max_size / AlignSize` fastbins. -/
structure PoolInv (P : Params) (mp : ThreadCacheMemPool) (live : List (Nat × Nat))
    (FF : Nat → Nat → List Nat) (EE : Nat → List (Nat × Nat)) : Prop where
  arena : ArenaWF P mp
  inv : ∀ tid c, mp.ctx tid = some c → Inv P.AlignSize mp.n c (FF tid) (EE tid)
  sep : ∀ i j ci cj, i ≠ j → mp.ctx i = some ci → mp.ctx j = some cj →
    ∀ x, FreeAt P.AlignSize ci (FF i) (EE i) x → ¬ FreeAt P.AlignSize cj (FF j) (EE j) x
  live_ok : ∀ b, b ∈ live → 0 < b.2 ∧ b.2 % P.AlignSize = 0 ∧ b.1 % P.AlignSize = 0 ∧
    b.1 + b.2 ≤ mp.n ∧
    ∀ tid c, mp.ctx tid = some c → ∀ x, b.1 ≤ x → x < b.1 + b.2 →
      ¬ FreeAt P.AlignSize c (FF tid) (EE tid) x
  live_disj : live.Pairwise (fun a b => a.1 + a.2 ≤ b.1 ∨ b.1 + b.2 ≤ a.1)
  gap : pool_gap mp = 0
  bins : ∀ tc, tc ∈ mp.tls → tc.m_freelist_head.length = mp.m_fastbin_max_size / P.AlignSize

/-- The outcome of a call of thread cache `tid` that led from the pool `mp`
(view `c`, free blocks `F`, `es`) to `mp1` (view `c1`, free blocks `F1`,
`es1`) and released the block `[q, q + k)`: the arena is well formed and has
not shrunk, the other thread caches and the constants of the pool are
untouched, the invariant of the thread cache holds again, the counters agree
as before, every byte below the old `used` that was neither free nor part of
the released block is still not free and holds its value, and every free byte
was free before, is part of the released block or lies in the new part of the
arena. -/
structure PoolStep (P : Params) (mp : ThreadCacheMemPool) (tid : Nat) (c : Ctx)
    (F : Nat → List Nat) (es : List (Nat × Nat)) (mp1 : ThreadCacheMemPool) (c1 : Ctx)
    (F1 : Nat → List Nat) (es1 : List (Nat × Nat)) (q k : Nat) : Prop where
  arena : ArenaWF P mp1
  inv : Inv P.AlignSize mp1.n c1 F1 es1
  used : mp.n ≤ mp1.n
  tls : mp1.tls = mp.tls.set tid c1.tc
  buf : mp1.buf = c1.mem
  frag : mp1.fragment_size = c1.mp_fragment_size
  base : mp1.p = mp.p
  cap : mp1.c = mp.c
  fastbin_max : mp1.m_fastbin_max_size = mp.m_fastbin_max_size
  gap : frag_gap c1 = frag_gap c
  bins : c1.tc.m_freelist_head.length = c.tc.m_freelist_head.length
  keeps : ∀ x, ¬ FreeAt P.AlignSize c F es x → x < mp.n → ¬ (q ≤ x ∧ x < q + k) →
    ¬ FreeAt P.AlignSize c1 F1 es1 x ∧ c1.mem x = c.mem x
  stays : ∀ x, FreeAt P.AlignSize c1 F1 es1 x →
    FreeAt P.AlignSize c F es x ∨ (q ≤ x ∧ x < q + k) ∨ (mp.n ≤ x ∧ x < mp1.n)

/-- The bytes on the fastbins whose counters are `ks`, the first of them being
`fastbin[i]`: the sum of `k * (j + 1) * AlignSize` over the counters. -/
def bins_bytes (A : Nat) : Nat → List Nat → Nat
  | _, [] => 0
  | i, k :: ks => k * ((i + 1) * A) + bins_bytes A (i + 1) ks

instance decValidCall (P : Params) (s : ThreadCacheMemPool × List (Nat × Nat)) (k : Call) :
    Decidable (ValidCall P s k) :=
  match k with
  | Call.alloc tid request =>
    inferInstanceAs (Decidable (tid < s.1.tls.length ∧ 0 < request ∧ request ≤ 2 ^ 61))
  | Call.alloc3 tid oldpos oldlen newlen =>
    inferInstanceAs (Decidable (tid < s.1.tls.length ∧ 0 < oldlen ∧ 0 < newlen ∧
      newlen ≤ 2 ^ 61 ∧ (oldpos, pow2_align_up oldlen P.AlignSize) ∈ s.2))
  | Call.sfree tid pos len =>
    inferInstanceAs (Decidable (tid < s.1.tls.length ∧ 0 < len ∧
      (pos, pow2_align_up len P.AlignSize) ∈ s.2))
  | Call.sync => inferInstanceAs (Decidable True)
  | Call.clean tid => inferInstanceAs (Decidable (tid < s.1.tls.length))

/-- A checker for `ValidRun`: it runs the calls and tests each of them in the
state in which it is made. -/
def check_run (P : Params) (fuel : Nat) :
    List Call → ThreadCacheMemPool × List (Nat × Nat) → Bool
  | [], _ => true
  | k :: ks, s =>
    decide (ValidCall P s k) &&
      match step_call P fuel s k with
      | none => true
      | some s1 => check_run P fuel ks s1

/-- The loop of the statistics tool over `ms.fastbin`, from index `i` on:
`sum_fast_size += 4*(i+1)*k`. -/
def tool_sum_fast : Nat → List Nat → Nat → Nat
  | _, [], acc => acc
  | i, k :: ks, acc => tool_sum_fast (i + 1) ks (tosize (acc + tosize (4 * (i + 1) * k)))

/-- The fields of `Patricia::MemStat` that the tool's assertions read. -/
structure MemStat where
  fastbin : List Nat
  frag_size : Nat
  huge_size : Nat
  huge_cnt : Nat

/-- Modelled from the spec: `mem_get_stat` of a trie on this pool is not among
the sources.  Following the claim and the comment `frag_size; // = fast + huge`
of `MemStat`, it fills `fastbin` from `get_fastbin`, `frag_size` from
`frag_size()`, and `huge_cnt`, `huge_size` from `get_huge_stat`. -/
def mem_get_stat (A : Nat) (mp : ThreadCacheMemPool) : Option MemStat :=
  match get_fastbin A mp with
  | none => none
  | some fast =>
    some { fastbin := fast, frag_size := mp.fragment_size,
           huge_size := (get_huge_stat mp).2, huge_cnt := (get_huge_stat mp).1 }

/-- The three assertions at the end of the tool's `stat_trie`, where
`mem_frag_size()` is the pool's `frag_size()`. -/
def tool_asserts (mp : ThreadCacheMemPool) (ms : MemStat) : Prop :=
  size_sub mp.fragment_size (tool_sum_fast 0 ms.fastbin 0) = ms.huge_size ∧
  mp.fragment_size = ms.frag_size ∧
  tool_sum_fast 0 ms.fastbin 0 = size_sub ms.frag_size ms.huge_size

/-- The pool after the constructor `ThreadCacheMemPool(fastbin_max_size)`, a
reservation of `cap` bytes at the address `p`, `set_chunk_size(chunk)`, and the
creation of `k` thread caches, none of which has been used. -/
def fresh_pool (A p cap fastbin_max_size chunk : Nat) (commit : Bool) (buf : Nat → Nat)
    (k : Nat) : ThreadCacheMemPool :=
  { p := p, n := 0, c := cap, buf := buf, fragment_size := 0
    m_fastbin_max_size := pow2_align_up fastbin_max_size A
    m_chunk_size := chunk
    m_vm_explicit_commit := commit
    tls := List.replicate k (TCMemPoolOneThread.init A (pow2_align_up fastbin_max_size A)) }

/-- The number of blocks linked on level 0 of the huge list, from the link
`nx` to `list_tail`, in the words of the specification. -/
def spec_huge_count (A : Nat) (m : Nat → Nat) : Nat → Nat → Option Nat
  | 0, _ => none
  | f + 1, nx =>
    if nx = list_tail A then some 0
    else (spec_huge_count A m f (m (shl_off A nx + sizeof_link A * (1 + 0)))).map
      (fun k => k + 1)

/-- The total number of free blocks on `fastbin[i]` over the thread caches,
in the words of the specification: the chains are walked from the heads. -/
def spec_fastbin_total (A : Nat) (m : Nat → Nat) (fuel i : Nat) :
    List TCMemPoolOneThread → Option Nat
  | [] => some 0
  | tc :: t =>
    match tc.m_freelist_head[i]? with
    | none => none
    | some h =>
      match spec_chain_blocks A m fuel h.head, spec_fastbin_total A m fuel i t with
      | some k, some s => some (k + s)
      | _, _ => none

/-- The total number of free huge blocks over the thread caches, in the words
of the specification: level 0 of every huge list is walked. -/
def spec_huge_total (A : Nat) (m : Nat → Nat) (fuel : Nat) :
    List TCMemPoolOneThread → Option Nat
  | [] => some 0
  | tc :: t =>
    match spec_huge_count A m fuel (tc.huge_list.next 0), spec_huge_total A m fuel t with
    | some k, some s => some (k + s)
    | _, _ => none

/-- The block `[res, res + r)` lies in the used part of the arena and is
disjoint from every block of `live`, from every block on a fastbin or on the
huge list of any thread cache (the blocks `FF`, `EE`), and from every hot
region that is not empty. -/
structure BlockApart (P : Params) (mp : ThreadCacheMemPool) (live : List (Nat × Nat))
    (res r : Nat) (FF : Nat → Nat → List Nat) (EE : Nat → List (Nat × Nat)) : Prop where
  inside : res + r ≤ mp.n
  live_apart : ∀ b, b ∈ live → res + r ≤ b.1 ∨ b.1 + b.2 ≤ res
  fast_apart : ∀ tid c, mp.ctx tid = some c →
    ∀ i a, a ∈ FF tid i → res + r ≤ a ∨ a + (i + 1) * P.AlignSize ≤ res
  huge_apart : ∀ tid c, mp.ctx tid = some c →
    ∀ e, e ∈ EE tid → res + r ≤ e.1 ∨ e.1 + c.mem e.1 ≤ res
  hot_apart : ∀ tid c, mp.ctx tid = some c →
    res + r ≤ c.tc.m_hot_pos ∨ c.tc.m_hot_end ≤ res ∨ c.tc.m_hot_end ≤ c.tc.m_hot_pos

/-! ## The escape coding of `memcmp_coding.cpp` -/

/-- How a call that does not return normally ends: a failed `TERARK_VERIFY`
(the process aborts), or an access outside the buffer the caller passed
(undefined behaviour in C++). -/
inductive Fault where
  | verify_failed
  | out_of_bounds
deriving DecidableEq, Repr

/-- The loop and the tail of `encode_00_0n`: `inp` is the input
`[ibeg, iend)` still to be read and `room` is `oend - obeg`.  The result is
the list of the bytes written from `obeg` on; the pointer returned is `obeg`
plus its length.  The check `obeg < oend` guards one byte only: the second
byte of an escaped zero and the two bytes of the end mark are written
unchecked. -/
def encode_00_0n_loop (out_end_mark : Nat) : List Nat → Nat → Except Fault (List Nat)
  | [], room => if 2 ≤ room then Except.ok [0, out_end_mark] else Except.error Fault.out_of_bounds
  | b :: rest, room =>
    if room = 0 then Except.error Fault.verify_failed
    else if b ≠ 0 then
      match encode_00_0n_loop out_end_mark rest (room - 1) with
      | Except.ok out => Except.ok (b :: out)
      | Except.error e => Except.error e
    else if room < 2 then Except.error Fault.out_of_bounds
    else
      match encode_00_0n_loop out_end_mark rest (room - 2) with
      | Except.ok out => Except.ok (0 :: 0 :: out)
      | Except.error e => Except.error e

/-- The function `encode_00_0n(ibeg, iend, obeg, oend, out_end_mark)` on the
input bytes `inp` with an output buffer of `room` bytes. -/
def encode_00_0n (inp : List Nat) (room : Nat) (out_end_mark : Nat) : Except Fault (List Nat) :=
  if out_end_mark = 0 then Except.error Fault.verify_failed
  else encode_00_0n_loop out_end_mark inp room

/-- The loop of `decode_00_0n`: `inp` is the input from `icur` on (reading
past its end is out of bounds), `room` is `oend - obeg`.  The result is the
list of the bytes written from `obeg` on together with the number of input
bytes up to and including the ending pair, which is `*ires - icur`.  The
check `obeg < oend` comes first in every round, also in the round that meets
the ending pair and writes nothing. -/
def decode_00_0n_loop : List Nat → Nat → Except Fault (List Nat × Nat)
  | [], room => if room = 0 then Except.error Fault.verify_failed
    else Except.error Fault.out_of_bounds
  | [b], room =>
    if room = 0 then Except.error Fault.verify_failed
    else if b ≠ 0 then
      match decode_00_0n_loop [] (room - 1) with
      | Except.ok (out, n) => Except.ok (b :: out, n + 1)
      | Except.error e => Except.error e
    else Except.error Fault.out_of_bounds
  | b :: b1 :: rest, room =>
    if room = 0 then Except.error Fault.verify_failed
    else if b ≠ 0 then
      match decode_00_0n_loop (b1 :: rest) (room - 1) with
      | Except.ok (out, n) => Except.ok (b :: out, n + 1)
      | Except.error e => Except.error e
    else if b1 ≠ 0 then Except.ok ([], 2)
    else
      match decode_00_0n_loop rest (room - 1) with
      | Except.ok (out, n) => Except.ok (0 :: out, n + 2)
      | Except.error e => Except.error e

/-- The function `decode_00_0n(ibeg, ires, obeg, oend)`: the bytes written
from `obeg` on (the pointer returned is `obeg` plus their number) and
`*ires - ibeg`. -/
def decode_00_0n (inp : List Nat) (room : Nat) : Except Fault (List Nat × Nat) :=
  decode_00_0n_loop inp room

/-- The function `end_of_00_0n(encoded)`: the position after the ending
pair, relative to `encoded`. -/
def end_of_00_0n : List Nat → Except Fault Nat
  | [] => Except.error Fault.out_of_bounds
  | [b] =>
    if b ≠ 0 then
      match end_of_00_0n [] with
      | Except.ok n => Except.ok (n + 1)
      | Except.error e => Except.error e
    else Except.error Fault.out_of_bounds
  | b :: b1 :: rest =>
    if b ≠ 0 then
      match end_of_00_0n (b1 :: rest) with
      | Except.ok n => Except.ok (n + 1)
      | Except.error e => Except.error e
    else if b1 ≠ 0 then Except.ok 2
    else
      match end_of_00_0n rest with
      | Except.ok n => Except.ok (n + 2)
      | Except.error e => Except.error e

/-! ## `erase_if` of the string vectors of `sortable_strvec.hpp` -/

/-- The struct `SortableStrVec::SEntry` (64-bit layout): `offset : 40`,
`length : 20`, `seq_id : 36`. -/
structure SEntry where
  offset : Nat
  length : Nat
  seq_id : Nat
deriving DecidableEq, Repr

/-- The members `m_strpool` (its buffer `data`, its size and its capacity)
and `m_index` of a `SortableStrVec`. -/
structure SortableStrVec where
  data : Nat → Nat
  pool_size : Nat
  pool_cap : Nat
  m_index : List SEntry

/-- The bytes `[pos, pos + len)` of a buffer. -/
def read_bytes (data : Nat → Nat) (pos len : Nat) : List Nat :=
  (List.range len).map (fun d => data (pos + d))

/-- The call `memmove(data + dst, data + src, len)`: the bytes are copied as
if through a temporary buffer. -/
def memmove_bytes (data : Nat → Nat) (dst src len : Nat) : Nat → Nat :=
  fun x => if dst ≤ x ∧ x < dst + len then data (src + (x - dst)) else data x

/-- The string `(*this)[k]` of the entry `e` (release build: no check). -/
def SortableStrVec.str (v : SortableStrVec) (e : SEntry) : List Nat :=
  read_bytes v.data e.offset e.length

/-- The loop of `erase_if`, for an offset field of `w` bits: `rest` are the
entries `m_index[k..n)`, which the loop has not overwritten yet (`j ≤ k`),
`out` are the entries `m_index[0..j)` written so far, `offset` is the write
position.  An access outside the capacity of the pool is undefined behaviour
(`none`). -/
def erase_if_loop (w : Nat) (pred : List Nat → Bool) (cap : Nat) :
    List SEntry → List SEntry → (Nat → Nat) → Nat → Option (List SEntry × (Nat → Nat) × Nat)
  | [], out, data, offset => some (out, data, offset)
  | e :: rest, out, data, offset =>
    if cap < e.offset + e.length then none
    else if pred (read_bytes data e.offset e.length) then
      erase_if_loop w pred cap rest out data offset
    else if cap < offset + e.length then none
    else
      erase_if_loop w pred cap rest
        (out ++ [{ offset := offset % 2 ^ w, length := e.length % 2 ^ 20, seq_id := e.seq_id }])
        (memmove_bytes data offset e.offset e.length) (offset + e.length)

/-- The method `SortableStrVec::erase_if(pred)` (release build): the value
returned and the vector afterwards. -/
def SortableStrVec.erase_if (v : SortableStrVec) (pred : List Nat → Bool) :
    Option (Nat × SortableStrVec) :=
  match erase_if_loop 40 pred v.pool_cap v.m_index [] v.data 0 with
  | none => none
  | some (out, data, offset) =>
    some (out.length, { v with data := data, pool_size := offset, m_index := out })

/-- The struct `SortThinStrVec::SEntry` (64-bit layout): `offset : 44`,
`length : 20`. -/
structure ThinEntry where
  offset : Nat
  length : Nat
deriving DecidableEq, Repr

/-- The members `m_strpool` and `m_index` of a `SortThinStrVec`. -/
structure SortThinStrVec where
  data : Nat → Nat
  pool_size : Nat
  pool_cap : Nat
  m_index : List ThinEntry

/-- The string `(*this)[k]` of the entry `e` of a `SortThinStrVec`. -/
def SortThinStrVec.str (v : SortThinStrVec) (e : ThinEntry) : List Nat :=
  read_bytes v.data e.offset e.length

/-- The loop of `SortThinStrVec::erase_if`. -/
def thin_erase_if_loop (pred : List Nat → Bool) (cap : Nat) :
    List ThinEntry → List ThinEntry → (Nat → Nat) → Nat →
      Option (List ThinEntry × (Nat → Nat) × Nat)
  | [], out, data, offset => some (out, data, offset)
  | e :: rest, out, data, offset =>
    if cap < e.offset + e.length then none
    else if pred (read_bytes data e.offset e.length) then
      thin_erase_if_loop pred cap rest out data offset
    else if cap < offset + e.length then none
    else
      thin_erase_if_loop pred cap rest
        (out ++ [{ offset := offset % 2 ^ 44, length := e.length % 2 ^ 20 }])
        (memmove_bytes data offset e.offset e.length) (offset + e.length)

/-- The method `SortThinStrVec::erase_if(pred)` (release build). -/
def SortThinStrVec.erase_if (v : SortThinStrVec) (pred : List Nat → Bool) :
    Option (Nat × SortThinStrVec) :=
  match thin_erase_if_loop pred v.pool_cap v.m_index [] v.data 0 with
  | none => none
  | some (out, data, offset) =>
    some (out.length, { v with data := data, pool_size := offset, m_index := out })

/-- The offsets of strings of the lengths `lens` stored back to back from
`start`. -/
def packed_offsets : Nat → List Nat → List Nat
  | _, [] => []
  | start, len :: lens => start :: packed_offsets (start + len) lens

/-- A vector of three one-byte strings `"a"`, `"a"`, `"b"` over the two-byte
pool `"ab"` (capacity 4): the first two strings share their byte, as after
`compress_strpool`; the index is sorted by offset. -/
def ex_strvec_shared : SortableStrVec :=
  { data := fun x => if x = 0 then 97 else if x = 1 then 98 else 0
    pool_size := 2
    pool_cap := 4
    m_index := [{ offset := 0, length := 1, seq_id := 0 }, { offset := 0, length := 1, seq_id := 1 },
      { offset := 1, length := 1, seq_id := 2 }] }

/-- The entries `es` with their strings stored back to back from `start`. -/
def packed_entries : Nat → List SEntry → List SEntry
  | _, [] => []
  | start, e :: es =>
    { offset := start, length := e.length, seq_id := e.seq_id } ::
      packed_entries (start + e.length) es

/-- The entry of a `SortThinStrVec` as an entry with a sequence number. -/
def ThinEntry.up (e : ThinEntry) : SEntry :=
  { offset := e.offset, length := e.length, seq_id := 0 }

/-- The entry without its sequence number. -/
def SEntry.down (e : SEntry) : ThinEntry :=
  { offset := e.offset, length := e.length }

/-- A vector of the strings `"ab"`, `"c"`, `"de"` stored one after the other
in the pool `"abcde"`. -/
def ex_strvec_plain : SortableStrVec :=
  { data := fun x => 97 + x
    pool_size := 5
    pool_cap := 8
    m_index := [{ offset := 0, length := 2, seq_id := 4 }, { offset := 2, length := 1, seq_id := 9 },
      { offset := 3, length := 2, seq_id := 6 }] }

/-- The same strings in a `SortThinStrVec`. -/
def ex_thinvec_plain : SortThinStrVec :=
  { data := fun x => 97 + x
    pool_size := 5
    pool_cap := 8
    m_index := [{ offset := 0, length := 2 }, { offset := 2, length := 1 },
      { offset := 3, length := 2 }] }

/-! ## The Patricia trie behind the interface of `cspptrie.hpp` -/

/-- Modelled from the spec: the node storage of the trie, whose implementation
is not among the sources.  The children of a node in the order they are
stored: none, or a first child (the byte labelling it, the compressed edge
label consumed before its branching, the offset of its value slot if it is
terminal, its own children) followed by the later siblings.  The node shapes
(leaf-final, linear, small fan, bitmap fan) are encodings of this. -/
inductive TrieKids where
  | nil : TrieKids
  | node (byte : Nat) (label : List Nat) (value : Option Nat) (kids : TrieKids)
      (next : TrieKids) : TrieKids
deriving DecidableEq, Repr

/-- Modelled from the spec: the outcome of consuming the bytes of a key
against a compressed edge label (the walk of the missing trie
implementation): the label is used up (`full`, with the rest of the key), the
key ends inside the label (`key_ends`, with the common part, the next label
byte and the label after it), or a byte differs (`mismatch`, with the common
part and both continuations). -/
inductive LabelMatch where
  | full (rest : List Nat) : LabelMatch
  | key_ends (common : List Nat) (l : Nat) (lab_rest : List Nat) : LabelMatch
  | mismatch (common : List Nat) (l : Nat) (lab_rest : List Nat) (k : Nat)
      (key_rest : List Nat) : LabelMatch
deriving DecidableEq, Repr

/-- Modelled from the spec: step 1 of lookup of the missing trie
implementation, "consuming bytes of key against each node's compressed edge
label". -/
def match_label : List Nat → List Nat → LabelMatch
  | [], key => LabelMatch.full key
  | l :: ls, [] => LabelMatch.key_ends [] l ls
  | l :: ls, k :: ks =>
    if l = k then
      match match_label ls ks with
      | LabelMatch.full r => LabelMatch.full r
      | LabelMatch.key_ends c l1 r => LabelMatch.key_ends (l :: c) l1 r
      | LabelMatch.mismatch c l1 lr k1 kr => LabelMatch.mismatch (l :: c) l1 lr k1 kr
    else LabelMatch.mismatch [] l ls k ks

/-- Modelled from the spec: lookup below a node of the missing trie
implementation, for the next key byte `b` and the key bytes `rest` after it:
the child labelled `b` is entered, its label is consumed, and the walk ends
with the value slot of the node where the key is used up (`none`: mismatch,
or the key ends at a non-terminal node or inside a label). -/
def TrieKids.lookup : TrieKids → Nat → List Nat → Option Nat
  | TrieKids.nil, _, _ => none
  | TrieKids.node c lab val kids next, b, rest =>
    if b = c then
      match match_label lab rest with
      | LabelMatch.full [] => val
      | LabelMatch.full (d :: r) => kids.lookup d r
      | _ => none
    else next.lookup b rest

/-- The four structural transformations counted in `Patricia::Stat`. -/
inductive Edit where
  | add_state_move : Edit
  | fork : Edit
  | split : Edit
  | mark_final : Edit
deriving DecidableEq, Repr

/-- Modelled from the spec: what the walk of an insert of the missing trie
implementation finds: the key exists (with the offset of its value slot), or
the children after the one transformation that adds the key. -/
inductive InsertResult where
  | existing (off : Nat) : InsertResult
  | edited (kids : TrieKids) (e : Edit) : InsertResult
deriving DecidableEq, Repr

/-- Modelled from the spec: the structural part of insert of the missing trie
implementation, for the next key byte `b`, the key bytes `rest` after it and
the offset `slot` of the new value slot.  add-state-move appends a child
transition (siblings stay in ascending byte order), fork replaces an edge by
a branching node with the existing and the new suffix at a byte mismatch
inside the label, split puts an intermediate terminal node where the key ends
inside the label, mark-final attaches a value slot to an existing
non-terminal node. -/
def TrieKids.insert : TrieKids → Nat → List Nat → Nat → InsertResult
  | TrieKids.nil, b, rest, slot =>
    InsertResult.edited (TrieKids.node b rest (some slot) TrieKids.nil TrieKids.nil)
      Edit.add_state_move
  | TrieKids.node c lab val kids next, b, rest, slot =>
    if b < c then
      InsertResult.edited
        (TrieKids.node b rest (some slot) TrieKids.nil (TrieKids.node c lab val kids next))
        Edit.add_state_move
    else if b = c then
      match match_label lab rest with
      | LabelMatch.full [] =>
        match val with
        | some off => InsertResult.existing off
        | none => InsertResult.edited (TrieKids.node c lab (some slot) kids next) Edit.mark_final
      | LabelMatch.full (d :: r) =>
        match kids.insert d r slot with
        | InsertResult.existing off => InsertResult.existing off
        | InsertResult.edited kids1 e => InsertResult.edited (TrieKids.node c lab val kids1 next) e
      | LabelMatch.key_ends common l lr =>
        InsertResult.edited
          (TrieKids.node c common (some slot) (TrieKids.node l lr val kids TrieKids.nil) next)
          Edit.split
      | LabelMatch.mismatch common l lr k kr =>
        InsertResult.edited
          (TrieKids.node c common none
            (if l < k then
              TrieKids.node l lr val kids (TrieKids.node k kr (some slot) TrieKids.nil TrieKids.nil)
            else
              TrieKids.node k kr (some slot) TrieKids.nil (TrieKids.node l lr val kids TrieKids.nil))
            next)
          Edit.fork
    else
      match next.insert b rest slot with
      | InsertResult.existing off => InsertResult.existing off
      | InsertResult.edited next1 e => InsertResult.edited (TrieKids.node c lab val kids next1) e

/-- Modelled from the spec: the keys below a node of the missing trie
implementation in the order the iterator meets them: a terminal node before
its children, the children in the order they are stored.  `pre` are the key
bytes consumed on the way to the node. -/
def TrieKids.words : TrieKids → List Nat → List (List Nat)
  | TrieKids.nil, _ => []
  | TrieKids.node c lab val kids next, pre =>
    (match val with
      | some _ => [pre ++ c :: lab]
      | none => []) ++ kids.words (pre ++ c :: lab) ++ next.words pre

/-- The struct `Patricia::Stat`. -/
structure Stat where
  n_fork : Nat
  n_split : Nat
  n_mark_final : Nat
  n_add_state_move : Nat
deriving DecidableEq, Repr

/-- The member `Stat::sum`. -/
def Stat.sum (s : Stat) : Nat := s.n_fork + s.n_split + s.n_mark_final + s.n_add_state_move

/-- Modelled from the spec: the counting of one transformation in `Stat`, done
by the missing trie implementation. -/
def Stat.count (s : Stat) : Edit → Stat
  | Edit.fork => { s with n_fork := s.n_fork + 1 }
  | Edit.split => { s with n_split := s.n_split + 1 }
  | Edit.mark_final => { s with n_mark_final := s.n_mark_final + 1 }
  | Edit.add_state_move => { s with n_add_state_move := s.n_add_state_move + 1 }

/-- The member `m_value` of `Patricia::TokenBase`, which `value()` returns: the
offset of a value slot, `none` for `NULL`. -/
structure TokenBase where
  m_value : Option Nat
deriving DecidableEq, Repr

/-- Modelled from the spec: what the missing trie implementation takes from
the arena for one insert, which the spec leaves to the encoding: the
alignment of the arena and the bytes of the node(s) a transformation
allocates for a key of a given length. -/
structure TrieParams where
  AlignSize : Nat
  node_bytes : Edit → Nat → Nat

/-- Modelled from the spec: the state of a trie, whose implementation is not
among the sources: `m_valsize`, the root (a node without edge label), the
arena bytes with the bytes in use and the memory limit `maxMem`, and the
counters `num_words`, `trie_stat`, `verseq`.  The arena is taken as handing
out the bytes after `used`. -/
structure Patricia where
  m_valsize : Nat
  root_value : Option Nat
  root_kids : TrieKids
  mem : Nat → Nat
  used : Nat
  maxMem : Nat
  num_words : Nat
  stat : Stat
  verseq : Nat
  readonly : Bool

/-- Modelled from the spec: `Patricia::create(valsize, maxMem)`, an empty
writable trie. -/
def Patricia.create (valsize maxMem : Nat) : Patricia :=
  { m_valsize := valsize, root_value := none, root_kids := TrieKids.nil, mem := fun _ => 0,
    used := 0, maxMem := maxMem, num_words := 0, stat := Stat.mk 0 0 0 0, verseq := 0,
    readonly := false }

/-- Modelled from the spec: `set_readonly` of the missing trie implementation. -/
def Patricia.set_readonly (t : Patricia) : Patricia := { t with readonly := true }

/-- Modelled from the spec: the value slot offset a walk for `key` ends at
(steps 1 to 3 of lookup of the missing trie implementation); the empty key
ends at the root. -/
def Patricia.find (t : Patricia) : List Nat → Option Nat
  | [] => t.root_value
  | b :: rest => t.root_kids.lookup b rest

/-- Modelled from the spec: `lookup(key, token)` of the missing trie
implementation: found or not, and the token with the value offset published
on it. -/
def Patricia.lookup (t : Patricia) (key : List Nat) : Bool × TokenBase :=
  ((t.find key).isSome, TokenBase.mk (t.find key))

/-- The error of `insert_readonly_throw`. -/
inductive TrieError where
  | readonly : TrieError
deriving DecidableEq, Repr

/-- Modelled from the spec: the bytes an insert of the missing trie
implementation allocates: the value slot, aligned to the alignment of the
arena, and the node(s) of the transformation. -/
def Patricia.need (P : TrieParams) (t : Patricia) (e : Edit) (key : List Nat) : Nat :=
  (t.m_valsize + (P.AlignSize - 1)) / P.AlignSize * P.AlignSize + P.node_bytes e key.length

/-- Modelled from the spec: the `valsize` bytes insert copies from `value`
(a byte the caller did not provide reads as 0). -/
def copy_value (valsize : Nat) (value : List Nat) : List Nat :=
  (List.range valsize).map (fun d => value.getD d 0)

/-- The bytes `value` stored at `[pos, pos + |value|)` of a buffer. -/
def write_bytes (data : Nat → Nat) (pos : Nat) (value : List Nat) : Nat → Nat :=
  fun x => if pos ≤ x ∧ x < pos + value.length then value.getD (x - pos) 0 else data x

/-- Modelled from the spec: the publication of a transformation by the missing
trie implementation: the value slot and the node(s) are allocated from the
arena and initialised, the new root is set, `verseq` and the counters are
incremented. -/
def Patricia.committed (P : TrieParams) (t : Patricia) (e : Edit) (key value : List Nat)
    (root_value : Option Nat) (root_kids : TrieKids) : Patricia :=
  { t with
    root_value := root_value
    root_kids := root_kids
    mem := write_bytes t.mem t.used (copy_value t.m_valsize value)
    used := t.used + t.need P e key
    num_words := t.num_words + 1
    stat := t.stat.count e
    verseq := t.verseq + 1 }

/-- Modelled from the spec: the end of an insert of a new key by the missing
trie implementation: the transformation is published with the new value slot
on the token; when the arena cannot satisfy the allocation, the result is
`true` with a null `token->value` and the state before the call. -/
def Patricia.commit (P : TrieParams) (t : Patricia) (e : Edit) (key value : List Nat)
    (root_value : Option Nat) (root_kids : TrieKids) : Bool × TokenBase × Patricia :=
  if t.used + t.need P e key ≤ t.maxMem then
    (true, TokenBase.mk (some t.used), t.committed P e key value root_value root_kids)
  else (true, TokenBase.mk none, t)

/-- Modelled from the spec: `insert(key, value, token)` of the missing trie
implementation: the flag `newly_inserted`, the token and the state after the
call; the empty key marks the root terminal.  On a frozen trie the call
reports the error `readonly`. -/
def Patricia.insert (P : TrieParams) (t : Patricia) (key value : List Nat) :
    Except TrieError (Bool × TokenBase × Patricia) :=
  if t.readonly then Except.error TrieError.readonly
  else
    match key with
    | [] =>
      match t.root_value with
      | some off => Except.ok (false, TokenBase.mk (some off), t)
      | none => Except.ok (t.commit P Edit.mark_final [] value (some t.used) t.root_kids)
    | b :: rest =>
      match t.root_kids.insert b rest t.used with
      | InsertResult.existing off => Except.ok (false, TokenBase.mk (some off), t)
      | InsertResult.edited kids e => Except.ok (t.commit P e (b :: rest) value t.root_value kids)

/-- A sequence of `insert` calls (key and value of each), the state after it
and the keys it newly inserted, in the order of the calls. -/
def Patricia.insert_all (P : TrieParams) :
    Patricia → List (List Nat × List Nat) → Patricia × List (List Nat)
  | t, [] => (t, [])
  | t, (key, value) :: ops =>
    match t.insert P key value with
    | Except.ok (true, TokenBase.mk (some _), t1) =>
      ((Patricia.insert_all P t1 ops).1, key :: (Patricia.insert_all P t1 ops).2)
    | Except.ok (_, _, t1) => Patricia.insert_all P t1 ops
    | Except.error _ => Patricia.insert_all P t ops

/-- The keys of a trie in depth-first order (a terminal node before its
children, the children in the order they are stored); the empty key, at the
root, comes first. -/
def Patricia.words (t : Patricia) : List (List Nat) :=
  (match t.root_value with
    | some _ => [[]]
    | none => []) ++ t.root_kids.words []

/-- Modelled from the spec: a node on the path of the iterator of the missing
trie implementation: the byte labelling it, its compressed edge label, its
value slot and its children. -/
structure PathNode where
  byte : Nat
  label : List Nat
  value : Option Nat
  kids : TrieKids
deriving DecidableEq, Repr

/-- Modelled from the spec: an entry "(node, descent index)" of the path stack
of the missing iterator, for one level below the root: the key bytes `pre`
consumed before the level, the children before the one the path descends
into (nearest first; their number is the descent index), that child `cur`,
and the children after it. -/
structure Frame where
  pre : List Nat
  left : List PathNode
  cur : PathNode
  right : TrieKids
deriving DecidableEq, Repr

/-- The key bytes consumed up to and including the node `cur` of a frame (the
running byte buffer of the iterator). -/
def Frame.word (f : Frame) : List Nat := f.pre ++ f.cur.byte :: f.cur.label

/-- Modelled from the spec: the iterator of the missing trie implementation:
the root of the trie it belongs to and its path stack, innermost level first
(`none`: not valid; the empty stack: at the root). -/
structure Iterator where
  m_root_value : Option Nat
  m_root_kids : TrieKids
  m_stack : Option (List Frame)
deriving DecidableEq, Repr

/-- Modelled from the spec: `new_iter` of the missing trie implementation. -/
def Patricia.new_iter (t : Patricia) : Iterator :=
  { m_root_value := t.root_value, m_root_kids := t.root_kids, m_stack := none }

/-- Modelled from the spec: the descent of the missing iterator to the first
key among the children `kids` (and below them), which follow the children
`left` on a level with the consumed bytes `pre`, below the levels `stack`:
the path stack of that key, if there is one. -/
def TrieKids.first_in : TrieKids → List Nat → List PathNode → List Frame → Option (List Frame)
  | TrieKids.nil, _, _, _ => none
  | TrieKids.node c lab val kids next, pre, left, stack =>
    if val.isSome then some (Frame.mk pre left (PathNode.mk c lab val kids) next :: stack)
    else
      match kids.first_in (pre ++ c :: lab) []
          (Frame.mk pre left (PathNode.mk c lab val kids) next :: stack) with
      | some s => some s
      | none => next.first_in pre (PathNode.mk c lab val kids :: left) stack

/-- Modelled from the spec: the descent of the missing iterator to the last
key among the children `kids` (and below them): the last child first, and in
a child its children before the child itself. -/
def TrieKids.last_in : TrieKids → List Nat → List PathNode → List Frame → Option (List Frame)
  | TrieKids.nil, _, _, _ => none
  | TrieKids.node c lab val kids next, pre, left, stack =>
    match next.last_in pre (PathNode.mk c lab val kids :: left) stack with
    | some s => some s
    | none =>
      match kids.last_in (pre ++ c :: lab) []
          (Frame.mk pre left (PathNode.mk c lab val kids) next :: stack) with
      | some s => some s
      | none =>
        if val.isSome then some (Frame.mk pre left (PathNode.mk c lab val kids) next :: stack)
        else none

/-- Modelled from the spec: the step of `incr` of the missing iterator out of
a subtree that is used up: the first key among the later siblings, on the
innermost level that has one. -/
def up_next : List Frame → Option (List Frame)
  | [] => none
  | f :: rest =>
    match f.right.first_in f.pre (f.cur :: f.left) rest with
    | some s => some s
    | none => up_next rest

/-- Modelled from the spec: the step of `decr` of the missing iterator to the
last key among the earlier siblings `left` (nearest first) of a level, whose
later siblings are `right`. -/
def last_left : List PathNode → List Nat → TrieKids → List Frame → Option (List Frame)
  | [], _, _, _ => none
  | l :: left, pre, right, stack =>
    match l.kids.last_in (pre ++ l.byte :: l.label) [] (Frame.mk pre left l right :: stack) with
    | some s => some s
    | none =>
      if l.value.isSome then some (Frame.mk pre left l right :: stack)
      else last_left left pre (TrieKids.node l.byte l.label l.value l.kids right) stack

/-- Modelled from the spec: the step of `decr` of the missing iterator out of
a level without earlier keys: the node above if it is terminal, else the last
key before it; at the top the root, if it is terminal. -/
def up_prev (root_value : Option Nat) : List Frame → Option (List Frame)
  | [] => if root_value.isSome then some [] else none
  | f :: rest =>
    if f.cur.value.isSome then some (f :: rest)
    else
      match last_left f.left f.pre (TrieKids.node f.cur.byte f.cur.label f.cur.value f.cur.kids
          f.right) rest with
      | some s => some s
      | none => up_prev root_value rest

/-- Modelled from the spec: `seek_begin` of the missing iterator: the root if
it is terminal, else the first key below it. -/
def Iterator.seek_begin (it : Iterator) : Bool × Iterator :=
  if it.m_root_value.isSome then (true, { it with m_stack := some [] })
  else
    match it.m_root_kids.first_in [] [] [] with
    | some s => (true, { it with m_stack := some s })
    | none => (false, { it with m_stack := none })

/-- Modelled from the spec: `seek_end` of the missing iterator: the last key
below the root, else the root if it is terminal. -/
def Iterator.seek_end (it : Iterator) : Bool × Iterator :=
  match it.m_root_kids.last_in [] [] [] with
  | some s => (true, { it with m_stack := some s })
  | none =>
    if it.m_root_value.isSome then (true, { it with m_stack := some [] })
    else (false, { it with m_stack := none })

/-- Modelled from the spec: `incr` of the missing iterator: the first key
below the current node, else the first key among the later siblings of the
innermost level that has one; `false` and not valid when there is none. -/
def Iterator.incr (it : Iterator) : Bool × Iterator :=
  match it.m_stack with
  | none => (false, it)
  | some [] =>
    match it.m_root_kids.first_in [] [] [] with
    | some s => (true, { it with m_stack := some s })
    | none => (false, { it with m_stack := none })
  | some (f :: rest) =>
    match f.cur.kids.first_in f.word [] (f :: rest) with
    | some s => (true, { it with m_stack := some s })
    | none =>
      match up_next (f :: rest) with
      | some s => (true, { it with m_stack := some s })
      | none => (false, { it with m_stack := none })

/-- Modelled from the spec: `decr` of the missing iterator: the last key among
the earlier siblings, else the nearest terminal node above or the last key
before it; `false` and not valid when there is none. -/
def Iterator.decr (it : Iterator) : Bool × Iterator :=
  match it.m_stack with
  | none => (false, it)
  | some [] => (false, { it with m_stack := none })
  | some (f :: rest) =>
    match last_left f.left f.pre (TrieKids.node f.cur.byte f.cur.label f.cur.value f.cur.kids
        f.right) rest with
    | some s => (true, { it with m_stack := some s })
    | none =>
      match up_prev it.m_root_value rest with
      | some s => (true, { it with m_stack := some s })
      | none => (false, { it with m_stack := none })

/-- Modelled from the spec: `word()` of the missing iterator: the key bytes
consumed on the path (empty at the root). -/
def Iterator.word (it : Iterator) : List Nat :=
  match it.m_stack with
  | some (f :: _) => f.word
  | _ => []

/-- The keys after the subtrees of the current nodes of the levels `stack`:
those of the later siblings, innermost level first. -/
def after_up : List Frame → List (List Nat)
  | [] => []
  | f :: rest => f.right.words f.pre ++ after_up rest

/-- The keys after the key of a path stack, in depth-first order. -/
def keys_after (root_kids : TrieKids) : List Frame → List (List Nat)
  | [] => root_kids.words []
  | f :: rest => f.cur.kids.words f.word ++ after_up (f :: rest)

/-- The keys of the subtrees of the earlier siblings `left` (nearest first) of
a level, in depth-first order. -/
def left_words (pre : List Nat) : List PathNode → List (List Nat)
  | [] => []
  | l :: left =>
    left_words pre left ++
      (TrieKids.node l.byte l.label l.value l.kids TrieKids.nil).words pre

/-- The keys up to the current nodes of the levels `stack`, these nodes
included, in depth-first order. -/
def keys_upto (root_value : Option Nat) : List Frame → List (List Nat)
  | [] =>
    match root_value with
    | some _ => [[]]
    | none => []
  | f :: rest =>
    keys_upto root_value rest ++ left_words f.pre f.left ++
      (match f.cur.value with
        | some _ => [f.word]
        | none => [])

/-- The keys before the key of a path stack, in depth-first order. -/
def keys_before (root_value : Option Nat) : List Frame → List (List Nat)
  | [] => []
  | f :: rest => keys_upto root_value rest ++ left_words f.pre f.left

/-- The current node of a path stack is terminal. -/
def at_key (root_value : Option Nat) : List Frame → Prop
  | [] => root_value.isSome = true
  | f :: _ => f.cur.value.isSome = true

/-- The loop `while (ok) { use(iter->word()); ok = iter->step(); }` of
`patricia_mw.cpp`, run for at most `fuel` rounds: the words it uses. -/
def Iterator.visit (step : Iterator → Bool × Iterator) : Nat → Bool × Iterator → List (List Nat)
  | 0, _ => []
  | fuel + 1, (ok, it) => if ok then it.word :: Iterator.visit step fuel (step it) else []

/-- A new trie (`Patricia::create`) and a sequence of `insert` calls on it: the
state after them and the keys they newly inserted. -/
def Patricia.build (P : TrieParams) (valsize maxMem : Nat) (ops : List (List Nat × List Nat)) :
    Patricia × List (List Nat) :=
  Patricia.insert_all P (Patricia.create valsize maxMem) ops

/-- The loop of `bench_iter` in `patricia_mw.cpp`: `new_iter`, `seek_begin`,
then `incr` as long as it returns true, for at most `fuel` rounds. -/
def Patricia.iter_incr (t : Patricia) (fuel : Nat) : List (List Nat) :=
  Iterator.visit Iterator.incr fuel t.new_iter.seek_begin

/-- The loop of `main` in `patricia_mw.cpp`: `new_iter`, `seek_end`, then
`decr` as long as it returns true, for at most `fuel` rounds. -/
def Patricia.iter_decr (t : Patricia) (fuel : Nat) : List (List Nat) :=
  Iterator.visit Iterator.decr fuel t.new_iter.seek_end

/-- The bytewise lexicographic order of keys (a proper prefix comes first). -/
def key_lt (a b : List Nat) : Prop := List.Lex (fun x y : Nat => x < y) a b

/-- The siblings are labelled by bytes above `b`. -/
def TrieKids.all_gt (b : Nat) : TrieKids → Prop
  | TrieKids.nil => True
  | TrieKids.node c _ _ _ next => b < c ∧ next.all_gt b

/-- The invariant of the spec on nodes: the child labels of every node are
pairwise distinct and stored in ascending byte order. -/
def TrieKids.Sorted : TrieKids → Prop
  | TrieKids.nil => True
  | TrieKids.node c _ _ kids next => kids.Sorted ∧ next.Sorted ∧ next.all_gt c

/-- The value slots of the nodes lie inside `[0, u)`. -/
def TrieKids.slots_below (n u : Nat) : TrieKids → Prop
  | TrieKids.nil => True
  | TrieKids.node _ _ val kids next =>
    (∀ off, val = some off → off + n ≤ u) ∧ kids.slots_below n u ∧ next.slots_below n u

/-- The state invariant of the trie model: sorted siblings, value slots inside
the bytes in use, `num_words` keys, a writable trie. -/
structure Patricia.WF (t : Patricia) : Prop where
  sorted : t.root_kids.Sorted
  root_below : ∀ off, t.root_value = some off → off + t.m_valsize ≤ t.used
  kids_below : t.root_kids.slots_below t.m_valsize t.used
  count : t.num_words = t.words.length
  writable : t.readonly = false

/-- Scenario: the keys "apple", "apply", "app" with the values 10, 20, 30
(`valsize = 4`, little endian). -/
def ex_trie_ops : List (List Nat × List Nat) :=
  [([97, 112, 112, 108, 101], [10, 0, 0, 0]), ([97, 112, 112, 108, 121], [20, 0, 0, 0]),
    ([97, 112, 112], [30, 0, 0, 0])]

/-- Example parameters: alignment 4, 16 bytes of nodes plus the key bytes per
transformation. -/
def ex_trie_params : TrieParams := { AlignSize := 4, node_bytes := fun _ n => 16 + n }

/-- The walk of `TrieKids.lookup` inside one node: its label is consumed, then
the key ends at the node or goes on below it. -/
def TrieKids.walk (lab : List Nat) (val : Option Nat) (kids : TrieKids) (key : List Nat) :
    Option Nat :=
  match match_label lab key with
  | LabelMatch.full [] => val
  | LabelMatch.full (d :: r) => kids.lookup d r
  | _ => none

/-- Modelled from the spec: the transformation an insert of `key` by the
missing trie implementation performs (`none`: the key exists). -/
def Patricia.edit (t : Patricia) : List Nat → Option Edit
  | [] =>
    match t.root_value with
    | some _ => none
    | none => some Edit.mark_final
  | b :: rest =>
    match t.root_kids.insert b rest t.used with
    | InsertResult.existing _ => none
    | InsertResult.edited _ e => some e

/-- The state `t1` after an insert that added `key` with `value` to `t`. -/
structure Patricia.Added (t : Patricia) (key value : List Nat) (t1 : Patricia) : Prop where
  find : ∀ key2 : List Nat, t1.find key2 = if key2 = key then some t.used else t.find key2
  mem : t1.mem = write_bytes t.mem t.used (copy_value t.m_valsize value)
  used : t.used + t.m_valsize ≤ t1.used
  valsize : t1.m_valsize = t.m_valsize
  num_words : t1.num_words = t.num_words + 1
  words : t1.words.Perm (key :: t.words)
  verseq : t1.verseq = t.verseq + 1
  wf : t1.WF

/-- Example: the trie after the inserts "apple", "apply" of `ex_trie_ops`
(`valsize = 4`, memory limit 1000). -/
def ex_trie_two : Patricia := (Patricia.build ex_trie_params 4 1000 (ex_trie_ops.take 2)).1

/-- Example: the trie after all inserts of `ex_trie_ops`. -/
def ex_trie_three : Patricia := (Patricia.build ex_trie_params 4 1000 ex_trie_ops).1

/-- Example: as `ex_trie_two`, with the memory limit 60 (the two inserts take
50 bytes). -/
def ex_trie_full : Patricia := (Patricia.build ex_trie_params 4 60 (ex_trie_ops.take 2)).1

/-! ## `SortedStrVec`, `SortedStrVecUintTpl` of `sortable_strvec.hpp` -/

/-- The members `m_offsets` and `m_strpool` of a `SortedStrVec`.  The class
`UintVecMin0` of `m_offsets` is not among the sources; it is taken as the
vector of the values it holds, and `get2(idx, BegEnd)` as the read of the
entries `idx` and `idx + 1`. -/
structure SortedStrVec where
  m_offsets : List Nat
  m_strpool : List Nat

/-- The bytes of `fstring(m_strpool.data() + beg, len)`. -/
def pool_str (pool : List Nat) (beg len : Nat) : List Nat := (pool.drop beg).take len

/-- The member `SortedStrVec::size`: `m_offsets.size() - 1`, unless its
assertion `m_offsets.size() >= 1` fails. -/
def SortedStrVec.size (v : SortedStrVec) : Option Nat :=
  if 1 ≤ v.m_offsets.length then some (v.m_offsets.length - 1) else none

/-- The member `SortedStrVec::operator[]`: the string between the offsets
`idx` and `idx + 1`.  The result is `none` when the assertion
`idx + 1 < m_offsets.size()` fails (`size_t` arithmetic); without the
assertion `get2` would read outside `m_offsets`. -/
def SortedStrVec.get (v : SortedStrVec) (idx : Nat) : Option (List Nat) :=
  if (idx + 1) % 2 ^ 64 < v.m_offsets.length then
    match v.m_offsets[idx]?, v.m_offsets[idx + 1]? with
    | some b, some e => some (pool_str v.m_strpool b ((e + 2 ^ 64 - b) % 2 ^ 64))
    | _, _ => none
  else none

/-- The member `SortedStrVec::back`: `(*this)[m_offsets.size()-1]`. -/
def SortedStrVec.back (v : SortedStrVec) : Option (List Nat) :=
  v.get ((v.m_offsets.length + 2 ^ 64 - 1) % 2 ^ 64)

/-- The members `m_offsets`, `m_strpool` and `m_delim_len` of a
`SortedStrVecUintTpl`. -/
structure SortedStrVecUintTpl where
  m_offsets : List Nat
  m_strpool : List Nat
  m_delim_len : Nat

/-- The member `SortedStrVecUintTpl::size`. -/
def SortedStrVecUintTpl.size (v : SortedStrVecUintTpl) : Option Nat :=
  if 1 ≤ v.m_offsets.length then some (v.m_offsets.length - 1) else none

/-- The member `SortedStrVecUintTpl::operator[]`: the string between the
offsets `idx` and `idx + 1` without the delimiter; `none` when the assertion
`idx+1 < m_offsets.size()` fails. -/
def SortedStrVecUintTpl.get (v : SortedStrVecUintTpl) (idx : Nat) : Option (List Nat) :=
  if (idx + 1) % 2 ^ 64 < v.m_offsets.length then
    match v.m_offsets[idx]?, v.m_offsets[idx + 1]? with
    | some b, some e =>
      some (pool_str v.m_strpool b ((e + 2 ^ 64 - b + 2 ^ 64 - v.m_delim_len % 2 ^ 64) % 2 ^ 64))
    | _, _ => none
  else none

/-- The member `SortedStrVecUintTpl::back`: `(*this)[m_offsets.size()-1]`. -/
def SortedStrVecUintTpl.back (v : SortedStrVecUintTpl) : Option (List Nat) :=
  v.get ((v.m_offsets.length + 2 ^ 64 - 1) % 2 ^ 64)

/-- Example: the strings "ab", "c". -/
def ex_sorted_vec : SortedStrVec := { m_offsets := [0, 2, 3], m_strpool := [97, 98, 99] }

/-- Example: the strings "ab", "c", each followed by a delimiter byte. -/
def ex_sorted_tpl : SortedStrVecUintTpl :=
  { m_offsets := [0, 3, 5], m_strpool := [97, 98, 0, 99, 0], m_delim_len := 1 }

/-! ## `parallel_for_lines` of `mmap.cpp` -/

/-- The macro `isnewline(c)`. -/
def isnewline (c : Nat) : Bool := c == 10 || c == 13

/-- A loop `while (ptr < end && p(*ptr)) ++ptr;` with `n = end - ptr` bytes
before `end`: the final `ptr`. -/
def skip_while (p : Nat → Bool) (buf : Nat → Nat) : Nat → Nat → Nat
  | 0, ptr => ptr
  | n + 1, ptr => if p (buf ptr) then skip_while p buf n (ptr + 1) else ptr

/-- The function `adjust_bondary(ptr, end)`; positions are offsets from
`base`. -/
def adjust_bondary (buf : Nat → Nat) (ptr fin : Nat) : Nat :=
  skip_while isnewline buf (fin - skip_while (fun c => !isnewline c) buf (fin - ptr) ptr)
    (skip_while (fun c => !isnewline c) buf (fin - ptr) ptr)

/-- The lambda `thread_fun(tid)` of `parallel_for_lines`: the range
`(beg, end)` it passes to `func`. -/
def thread_fun (buf : Nat → Nat) (size num_threads tid : Nat) : Nat × Nat :=
  (if 0 ≠ tid then
      adjust_bondary buf (size / num_threads * tid)
        (if tid + 1 < num_threads then size / num_threads * tid + size / num_threads else size)
    else size / num_threads * tid,
    adjust_bondary buf
      (if tid + 1 < num_threads then size / num_threads * tid + size / num_threads else size)
      size)

/-- The function `parallel_for_lines(base, size, num_threads, func)`: the
calls `func(tid, beg, end)` it makes, listed by `tid`. -/
def parallel_for_lines (buf : Nat → Nat) (size num_threads : Nat) : List (Nat × Nat × Nat) :=
  if 0 = num_threads then []
  else (List.range num_threads).map (fun tid => (tid, thread_fun buf size num_threads tid))

/-- Example: the 12 bytes `"aaaaaaaaaa\nb"`, a line of ten bytes and a line
of one byte. -/
def ex_lines : Nat → Nat := fun i => [97, 97, 97, 97, 97, 97, 97, 97, 97, 97, 10, 98].getD i 0

/-! ## The floating point coding of `memcmp_coding.cpp` -/

/-- The constant `FLT_MANT_DIG` of `<float.h>` for an IEEE-754 `float`. -/
def FLT_MANT_DIG : Nat := 24

/-- The constant `DBL_MANT_DIG` of `<float.h>` for an IEEE-754 `double`. -/
def DBL_MANT_DIG : Nat := 53

/-- The constant `FLT_EXP_DIG`. -/
def FLT_EXP_DIG : Nat := 4 * 8 - FLT_MANT_DIG

/-- The constant `DBL_EXP_DIG`. -/
def DBL_EXP_DIG : Nat := 8 * 8 - DBL_MANT_DIG

/-- Modelled from the spec: the macro `VALUE_OF_BYTE_SWAP_IF_LITTLE_ENDIAN`
with `unaligned_save` of the repository's headers, which are not among the
sources: the `n` bytes of an unsigned integer, most significant byte
first. -/
def be_bytes : Nat → Nat → List Nat
  | 0, _ => []
  | n + 1, u => u / 256 ^ n % 256 :: be_bytes n u

/-- Modelled from the spec: `unaligned_load` with the macro
`BYTE_SWAP_IF_LITTLE_ENDIAN` of the repository's headers, which are not among
the sources: the unsigned integer whose bytes, most significant first, are
given. -/
def be_value (bytes : List Nat) : Nat := bytes.foldl (fun acc b => acc * 256 + b) 0

/-- The comparison `nr == 0.0` for a `Real` of `size` bytes given by its
IEEE-754 bit pattern `nr`: it holds for `+0.0` and `-0.0` only. -/
def real_is_zero (size nr : Nat) : Bool := nr % 2 ^ (size * 8 - 1) == 0

/-- The array `zero_pattern`: `{128, 0}`, filled up with zeros, which is also
what `memset(dst, 0, sizeof(Real)); dst[0] = 128` leaves. -/
def zero_pattern (size : Nat) : List Nat := 128 :: List.replicate (size - 1) 0

/-- The function `encode_memcmp_real<Real>(nr, dst)` for `sizeof(Real) = size`
(4 for `float`, 8 for `double`) and the value with the bit pattern `nr`: the
bytes written from `dst` on and the advance of the pointer returned.
`~ui` on the unsigned type of `size * 8` bits is `2 ^ (size * 8) - 1 - ui`,
and the addition to the exponent wraps. -/
def encode_memcmp_real (size nr : Nat) : List Nat × Nat :=
  if real_is_zero size nr then (zero_pattern size, size)
  else
    (be_bytes size
      (if nr &&& 2 ^ (size * 8 - 1) ≠ 0 then 2 ^ (size * 8) - 1 - nr
      else
        ((nr ||| 2 ^ (size * 8 - 1)) +
            2 ^ (size * 8 - 1 - if size = 4 then FLT_EXP_DIG else DBL_EXP_DIG)) %
          2 ^ (size * 8)),
      size)

/-- The function `decode_memcmp_real<Real>(src, dst)` for
`sizeof(Real) = size`: the bit pattern stored to `*dst` and the advance of the
pointer returned; `none` when fewer than `size` bytes can be read at `src`. -/
def decode_memcmp_real (size : Nat) (src : List Nat) : Option (Nat × Nat) :=
  if src.length < size then none
  else if src.take size = zero_pattern size then some (0, size)
  else
    some
      (if be_value (src.take size) &&& 2 ^ (size * 8 - 1) ≠ 0 then
        ((be_value (src.take size) + 2 ^ (size * 8) -
              2 ^ (size * 8 - 1 - if size = 4 then FLT_EXP_DIG else DBL_EXP_DIG)) %
            2 ^ (size * 8)) &&&
          ((2 ^ (size * 8) - 1) >>> 1)
      else 2 ^ (size * 8) - 1 - be_value (src.take size),
      size)

/-- The exponent field of an IEEE-754 bit pattern (`size * 8` bits, `expdig`
exponent bits). -/
def real_exp (size expdig nr : Nat) : Nat := nr / 2 ^ (size * 8 - 1 - expdig) % 2 ^ expdig

/-- The bit pattern is a NaN: the exponent field is all ones and the mantissa
is not zero. -/
def real_is_nan (size expdig nr : Nat) : Prop :=
  real_exp size expdig nr = 2 ^ expdig - 1 ∧ nr % 2 ^ (size * 8 - 1 - expdig) ≠ 0

/-- The bit pattern of `+infinity`: sign 0, exponent all ones, mantissa 0. -/
def real_pos_inf (size expdig : Nat) : Nat := (2 ^ expdig - 1) * 2 ^ (size * 8 - 1 - expdig)

/-- The magnitude of the finite IEEE-754 number with the bit pattern `nr`, in
units of the smallest subnormal: the mantissa for a subnormal (exponent field
0), else the mantissa with the hidden bit times `2 ^ (exponent field - 1)`. -/
def real_mag (size expdig nr : Nat) : Nat :=
  if real_exp size expdig nr = 0 then nr % 2 ^ (size * 8 - 1 - expdig)
  else
    (2 ^ (size * 8 - 1 - expdig) + nr % 2 ^ (size * 8 - 1 - expdig)) *
      2 ^ (real_exp size expdig nr - 1)

/-- The value of the finite IEEE-754 number with the bit pattern `nr`, in
units of the smallest subnormal. -/
def real_value (size expdig nr : Nat) : Int :=
  if nr / 2 ^ (size * 8 - 1) % 2 = 1 then -(real_mag size expdig nr : Int)
  else (real_mag size expdig nr : Int)

/-- The magnitude of `real_mag` as a function of the exponent and mantissa
bits `a` (the bit pattern without its sign bit), for `p` mantissa bits. -/
def mag_bits (p a : Nat) : Nat :=
  if a / 2 ^ p = 0 then a % 2 ^ p else (2 ^ p + a % 2 ^ p) * 2 ^ (a / 2 ^ p - 1)

/-! ## Concrete parameters and states used to exercise the theorems -/

/-- Parameters for `AlignSize = 4` with a counter as `rand_r` and a kernel
whose `madvise` always succeeds. -/
def ex_params : Params :=
  { AlignSize := 4, rand_r := fun s => (s + 1, s + 1), madvise := fun _ _ _ => 0 }

/-- A thread cache with four fastbins (sizes 4, 8, 12, 16), all empty, no huge
block and an empty hot region. -/
def ex_tc_empty : TCMemPoolOneThread :=
  { fragment_size := 0
    m_frag_inc := 0
    huge_list := { size := 0, next := fun _ => list_tail 4 }
    m_freelist_head := List.replicate 4 { head := list_tail 4, cnt := 0 }
    huge_size_sum := 0
    huge_node_cnt := 0
    m_hot_end := 0
    m_hot_pos := 0
    m_rand_seed := 1 }

/-- A context whose 8-byte fastbin holds the blocks at offsets 64 and 32. -/
def ex_ctx_fast : Ctx :=
  { tc := { ex_tc_empty with
      fragment_size := 16
      m_frag_inc := 16
      m_freelist_head :=
        [{ head := list_tail 4, cnt := 0 }, { head := 16, cnt := 2 },
         { head := list_tail 4, cnt := 0 }, { head := list_tail 4, cnt := 0 }] }
    mem := fun a => if a = 64 then 8 else list_tail 4
    mp_fragment_size := 0 }

/-- A fresh pool: base address 4 MiB, capacity 8 MiB, the default chunk size
of 2 MiB, one thread cache. -/
def ex_pool_fresh : ThreadCacheMemPool :=
  { p := 4194304, n := 0, c := 8388608, buf := fun _ => 0, fragment_size := 0,
    m_fastbin_max_size := 16, m_chunk_size := 2097152, m_vm_explicit_commit := false,
    tls := [ex_tc_empty] }

/-- A pool with `set_chunk_size(4 MiB)` and a capacity of 6 MiB whose first
chunk is used up by its only thread cache. -/
def ex_pool_clamp : ThreadCacheMemPool :=
  { p := 4194304, n := 4194304, c := 6291456, buf := fun _ => 0, fragment_size := 0,
    m_fastbin_max_size := 16, m_chunk_size := 4194304, m_vm_explicit_commit := false,
    tls := [{ ex_tc_empty with m_hot_pos := 4194304, m_hot_end := 4194304 }] }

/-- A pool of capacity 4 MiB whose first 2 MiB chunk belongs to thread cache 0;
thread cache 1 is fresh. -/
def ex_pool_two : ThreadCacheMemPool :=
  { p := 4194304, n := 2097152, c := 4194304, buf := fun _ => 0, fragment_size := 0,
    m_fastbin_max_size := 16, m_chunk_size := 2097152, m_vm_explicit_commit := false,
    tls := [{ ex_tc_empty with m_hot_pos := 1024, m_hot_end := 2097152 }, ex_tc_empty] }

/-- A context with one free huge block of 64 bytes at offset 1024 (height 1)
and a hot region `[4096, 8192)`. -/
def ex_ctx_huge : Ctx :=
  { tc := { ex_tc_empty with
      fragment_size := 64
      m_frag_inc := 64
      huge_list := { size := 1, next := fun k => if k = 0 then 256 else list_tail 4 }
      huge_size_sum := 64
      huge_node_cnt := 1
      m_hot_pos := 4096
      m_hot_end := 8192 }
    mem := fun a => if a = 1024 then 64 else list_tail 4
    mp_fragment_size := 0 }

/-- The context `ex_ctx_huge` with only 4 bytes left in its hot region. -/
def ex_ctx_refill : Ctx :=
  { ex_ctx_huge with tc := { ex_ctx_huge.tc with m_hot_pos := 4096, m_hot_end := 4100 } }

/-- A context with sixteen fastbins (sizes 4 to 64), all empty, one free huge
block of 128 bytes at offset 1024 (height 1) and a hot region `[4096, 8192)`. -/
def ex_ctx_best : Ctx :=
  { tc := { ex_tc_empty with
      fragment_size := 128
      m_frag_inc := 128
      huge_list := { size := 1, next := fun k => if k = 0 then 256 else list_tail 4 }
      m_freelist_head := List.replicate 16 { head := list_tail 4, cnt := 0 }
      huge_size_sum := 128
      huge_node_cnt := 1
      m_hot_pos := 4096
      m_hot_end := 8192 }
    mem := fun a => if a = 1024 then 128 else list_tail 4
    mp_fragment_size := 0 }

/-- Parameters for `AlignSize = 4` with a kernel whose `madvise` fails with
`EFAULT` (14), as it does when `vm.nr_hugepages` is insufficient. -/
def ex_params_efault : Params :=
  { AlignSize := 4, rand_r := fun s => (s + 1, s + 1), madvise := fun _ _ _ => 14 }

/-- A fresh pool with `m_vm_explicit_commit` switched on: base address 4 MiB,
capacity 8 MiB, chunk size 2 MiB, one fresh thread cache with sixteen
fastbins. -/
def ex_pool_commit : ThreadCacheMemPool :=
  { p := 4194304, n := 0, c := 8388608, buf := fun _ => 0, fragment_size := 0,
    m_fastbin_max_size := 64, m_chunk_size := 2097152, m_vm_explicit_commit := true,
    tls := [TCMemPoolOneThread.init 4 64] }

/-- The pool `ex_pool_commit` without explicit commit. -/
def ex_pool_lazy : ThreadCacheMemPool :=
  { ex_pool_commit with m_vm_explicit_commit := false }

/-- The view that the only thread cache of `ex_pool_lazy` works on. -/
def ex_ctx_init : Ctx :=
  { tc := TCMemPoolOneThread.init 4 64, mem := fun _ => 0, mp_fragment_size := 0 }

/-- The calls `alloc(128)`, `alloc(8)`, `sfree(first block, 128)`,
`alloc(96)` on the fresh pool `ex_pool_lazy`: the offsets returned, the pool
before the last call and the pool after it. -/
def ex_run_best_fit : Option (List Nat × ThreadCacheMemPool × ThreadCacheMemPool) :=
  match ex_pool_lazy.alloc ex_params 4 0 128 with
  | none => none
  | some (r1, m1) =>
    match m1.alloc ex_params 4 0 8 with
    | none => none
    | some (r2, m2) =>
      match m2.sfree ex_params 4 0 r1 128 with
      | none => none
      | some m3 =>
        match m3.alloc ex_params 4 0 96 with
        | none => none
        | some (r4, m4) => some ([r1, r2, r4], m3, m4)

/-- The calls `alloc(128)`, `alloc(8)`, `sfree(0, 128)`, `alloc(96)`,
`alloc3(0, 96, 200)`, `sync_frag_size()`, `clean_for_reuse` of thread cache
0: a release to the huge list, a best fit, and a block that grows by moving. -/
def ex_calls : List Call :=
  [Call.alloc 0 128, Call.alloc 0 8, Call.sfree 0 0 128, Call.alloc 0 96,
   Call.alloc3 0 0 96 200, Call.sync, Call.clean 0]

/-- The calls `alloc(2 MiB)`, `alloc(2^64 - 2 MiB)`, `alloc(8)` and
`sfree(second block, 2^64 - 2 MiB)` on the fresh pool `ex_pool_lazy`: the
offsets returned and the pool after the last call. -/
def ex_run_giant : Option (List Nat × ThreadCacheMemPool) :=
  match ex_pool_lazy.alloc ex_params 4 0 2097152 with
  | none => none
  | some (r1, m1) =>
    match m1.alloc ex_params 4 0 (2 ^ 64 - 2097152) with
    | none => none
    | some (r2, m2) =>
      match m2.alloc ex_params 4 0 8 with
      | none => none
      | some (r3, m3) =>
        match m3.sfree ex_params 4 0 r2 (2 ^ 64 - 2097152) with
        | none => none
        | some m4 => some ([r1, r2, r3], m4)

/-- The pool and the blocks handed out after the calls `alloc(128)`,
`alloc(8)`, `sfree(0, 128)`, `alloc(96)` on a fresh pool: the blocks
`[0, 96)` and `[128, 136)` are handed out, the hot region starts at 136. -/
def ex_state_grow : ThreadCacheMemPool × List (Nat × Nat) :=
  (run_calls ex_params 8388611
    [Call.alloc 0 128, Call.alloc 0 8, Call.sfree 0 0 128, Call.alloc 0 96]
    (fresh_pool 4 4194304 8388608 64 2097152 false (fun _ => 0) 1, [])).getD (ex_pool_lazy, [])

/-- The thread cache of `ex_state_grow`. -/
def ex_tc_grow : TCMemPoolOneThread := ex_state_grow.1.tls.getD 0 ex_tc_empty

/-! ## Sequences of pool operations, `chunk_alloc` and `tc_populate` included -/

/-- An operation on the pool: a call of the interface, the method
`chunk_alloc(tc, request)` on its own (as `alloc` and `alloc3` reach it after
the thread cache has failed), or `tc_populate(sz)` by the owner of the thread
cache number `tid`. -/
inductive Op where
  | call (k : Call)
  | chunk (tid request : Nat)
  | populate (tid sz : Nat)

/-- One operation on the pool; the blocks handed out change with the calls of
the interface only. -/
def step_op (P : Params) (fuel : Nat) (s : ThreadCacheMemPool × List (Nat × Nat)) :
    Op → Option (ThreadCacheMemPool × List (Nat × Nat))
  | Op.call k => step_call P fuel s k
  | Op.chunk tid request =>
    match chunk_alloc P fuel s.1 tid request with
    | none => none
    | some (_, mp1) => some (mp1, s.2)
  | Op.populate tid sz =>
    match tc_populate P fuel s.1 tid sz with
    | none => none
    | some mp1 => some (mp1, s.2)

/-- A sequence of operations, one after the other. -/
def run_ops (P : Params) (fuel : Nat) :
    List Op → ThreadCacheMemPool × List (Nat × Nat) → Option (ThreadCacheMemPool × List (Nat × Nat))
  | [], s => some s
  | o :: os, s =>
    match step_op P fuel s o with
    | none => none
    | some s1 => run_ops P fuel os s1

/-- The operation is one that may be made in the state `s`: a call is valid,
and `chunk_alloc` and `tc_populate` are made for an existing thread cache with
a positive request, respectively a size, of at most `2^61` bytes. -/
def ValidOp (P : Params) (s : ThreadCacheMemPool × List (Nat × Nat)) : Op → Prop
  | Op.call k => ValidCall P s k
  | Op.chunk tid request => tid < s.1.tls.length ∧ 0 < request ∧ request ≤ 2 ^ 61
  | Op.populate tid sz => tid < s.1.tls.length ∧ sz ≤ 2 ^ 61

/-- Every operation of the sequence is valid in the state in which it is
made. -/
def ValidOps (P : Params) (fuel : Nat) :
    List Op → ThreadCacheMemPool × List (Nat × Nat) → Prop
  | [], _ => True
  | o :: os, s =>
    ValidOp P s o ∧ ∀ s1, step_op P fuel s o = some s1 → ValidOps P fuel os s1

instance decValidOp (P : Params) (s : ThreadCacheMemPool × List (Nat × Nat)) (o : Op) :
    Decidable (ValidOp P s o) :=
  match o with
  | Op.call k => inferInstanceAs (Decidable (ValidCall P s k))
  | Op.chunk tid request =>
    inferInstanceAs (Decidable (tid < s.1.tls.length ∧ 0 < request ∧ request ≤ 2 ^ 61))
  | Op.populate tid sz => inferInstanceAs (Decidable (tid < s.1.tls.length ∧ sz ≤ 2 ^ 61))

/-- A checker for `ValidOps`: it runs the operations and tests each of them in
the state in which it is made. -/
def check_ops (P : Params) (fuel : Nat) :
    List Op → ThreadCacheMemPool × List (Nat × Nat) → Bool
  | [], _ => true
  | o :: os, s =>
    decide (ValidOp P s o) &&
      match step_op P fuel s o with
      | none => true
      | some s1 => check_ops P fuel os s1

/-- The operations `alloc(128)`, `tc_populate(2 MiB)`, `alloc(8)`,
`sfree(0, 128)`, `chunk_alloc(100)` of thread cache 0. -/
def ex_ops : List Op :=
  [Op.call (Call.alloc 0 128), Op.populate 0 2097152, Op.call (Call.alloc 0 8),
   Op.call (Call.sfree 0 0 128), Op.chunk 0 100]

/-- The calls `alloc(8)` and `alloc(2^64 - 2 MiB - 4)` on the fresh pool
`ex_pool_lazy`: the values returned, the pool between the calls and the pool
after them. -/
def ex_run_wrap : Option (Nat × Nat × ThreadCacheMemPool × ThreadCacheMemPool) :=
  match ex_pool_lazy.alloc ex_params 4 0 8 with
  | none => none
  | some (r1, m1) =>
    match m1.alloc ex_params 4 0 (2 ^ 64 - 2097152 - 4) with
    | none => none
    | some (r2, m2) => some (r1, r2, m1, m2)

/-- The calls `alloc(8)` and `alloc3(0, 8, 2^64 - 2 MiB - 4)` on the fresh
pool `ex_pool_lazy`: the values returned, the pool between the calls and the
pool after them. -/
def ex_run_wrap3 : Option (Nat × Nat × ThreadCacheMemPool × ThreadCacheMemPool) :=
  match ex_pool_lazy.alloc ex_params 4 0 8 with
  | none => none
  | some (r1, m1) =>
    match m1.alloc3 ex_params 4 0 r1 8 (2 ^ 64 - 2097152 - 4) with
    | none => none
    | some (r2, m2) => some (r1, r2, m1, m2)

/-- A fresh pool for `AlignSize` 4 with a capacity of 12 GiB, which 32-bit
links scaled by `AlignSize` can address: base address 4 MiB, `fastbin_max` 64,
chunk size 2 MiB, one thread cache. -/
def ex_pool_wide : ThreadCacheMemPool :=
  fresh_pool 4 4194304 12884901888 64 2097152 false (fun _ => 0) 1

/-- The calls `alloc(2^32 + 8)`, `alloc(2^32 + 4)`, `alloc(8)`,
`sfree(first block, 2^32 + 8)`, `sfree(second block, 2^32 + 4)` on the pool
`ex_pool_wide`: the offsets returned and the pool after the last call. -/
def ex_run_wide : Option (List Nat × ThreadCacheMemPool) :=
  match ex_pool_wide.alloc ex_params 4 0 (2 ^ 32 + 8) with
  | none => none
  | some (r1, m1) =>
    match m1.alloc ex_params 4 0 (2 ^ 32 + 4) with
    | none => none
    | some (r2, m2) =>
      match m2.alloc ex_params 4 0 8 with
      | none => none
      | some (r3, m3) =>
        match m3.sfree ex_params 4 0 r1 (2 ^ 32 + 8) with
        | none => none
        | some m4 =>
          match m4.sfree ex_params 4 0 r2 (2 ^ 32 + 4) with
          | none => none
          | some m5 => some ([r1, r2, r3], m5)

/-! ## Call sequences with requests close to `2^64` -/

/-- A fresh pool for `AlignSize` 4 (base address 4 MiB, capacity 8 MiB,
`fastbin_max` 64, chunk size 2 MiB, a zeroed buffer, one thread cache) with
no block handed out. -/
def ex_fresh_state : ThreadCacheMemPool × List (Nat × Nat) :=
  (fresh_pool 4 4194304 8388608 64 2097152 false (fun _ => 0) 1, [])

/-- The calls `alloc(2 MiB)`, `alloc(2^64 - 2 MiB)`, `alloc(8)`. -/
def ex_calls_overlap : List Call :=
  [Call.alloc 0 2097152, Call.alloc 0 (2 ^ 64 - 2097152), Call.alloc 0 8]

/-- The calls `alloc(2 MiB)`, `alloc(2^64 - 2 MiB)`, `alloc(8)`, `alloc(8)`,
`sfree(0, 8)`, `sfree(0, 2 MiB)`: the last two release the third and the first
block, which were both handed out at offset 0. -/
def ex_calls_chain : List Call :=
  [Call.alloc 0 2097152, Call.alloc 0 (2 ^ 64 - 2097152), Call.alloc 0 8, Call.alloc 0 8,
   Call.sfree 0 0 8, Call.sfree 0 0 2097152]

/-- The calls of `ex_calls_chain` followed by `alloc(8)`, `alloc(8)` and
`sync_frag_size()`. -/
def ex_calls_count : List Call :=
  ex_calls_chain ++ [Call.alloc 0 8, Call.alloc 0 8, Call.sync]

/-- The calls `alloc(4)`, `alloc(4)`, `alloc(8)`, `alloc(2^64 - 12)`. -/
def ex_calls_move : List Call :=
  [Call.alloc 0 4, Call.alloc 0 4, Call.alloc 0 8, Call.alloc 0 (2 ^ 64 - 12)]

/-- The calls `alloc(8)`, `alloc(8)`. -/
def ex_calls_round : List Call := [Call.alloc 0 8, Call.alloc 0 8]

/-! ## Arithmetic of the machine types -/

theorem tosize_lt (x : Nat) : tosize x < 2 ^ 64 := Nat.mod_lt _ (by norm_num)

theorem tosize_of_lt {x : Nat} (h : x < 2 ^ 64) : tosize x = x := Nat.mod_eq_of_lt h

theorem tosize_le (x : Nat) : tosize x ≤ x := Nat.mod_le _ _

theorem size_sub_lt (a b : Nat) : size_sub a b < 2 ^ 64 := Nat.mod_lt _ (by norm_num)

theorem size_sub_of_le {a b : Nat} (hb : b ≤ a) (ha : a < 2 ^ 64) : size_sub a b = a - b := by
  unfold size_sub
  have hb2 : b % 2 ^ 64 = b := Nat.mod_eq_of_lt (lt_of_le_of_lt hb ha)
  rw [hb2]
  have h1 : a + (2 ^ 64 - b) = (a - b) + 2 ^ 64 := by omega
  rw [h1, Nat.add_mod_right]
  exact Nat.mod_eq_of_lt (by omega)

theorem size_sub_add_cancel {a b : Nat} (ha : a < 2 ^ 64) :
    size_sub (tosize (a + b)) b = a := by
  unfold size_sub tosize
  have h2 : b % 2 ^ 64 < 2 ^ 64 := Nat.mod_lt _ (by norm_num)
  have key : ((a + b) % 2 ^ 64 + (2 ^ 64 - b % 2 ^ 64)) % 2 ^ 64 = a % 2 ^ 64 := by
    have : (a + b) % 2 ^ 64 = (a + b % 2 ^ 64) % 2 ^ 64 := by
      rw [Nat.add_mod, Nat.mod_eq_of_lt ha]
    rw [this, Nat.mod_add_mod]
    have h3 : a + b % 2 ^ 64 + (2 ^ 64 - b % 2 ^ 64) = a + 2 ^ 64 := by omega
    rw [h3, Nat.add_mod_right]
  rw [key]
  exact Nat.mod_eq_of_lt ha

theorem ValidAlign.pos {A : Nat} (h : ValidAlign A) : 0 < A := by
  obtain ⟨j, _, _, rfl⟩ := h
  exact Nat.pos_pow_of_pos j (by norm_num)

theorem ValidAlign.four_le {A : Nat} (h : ValidAlign A) : 4 ≤ A := by
  obtain ⟨j, h2, _, rfl⟩ := h
  calc 4 = 2 ^ 2 := by norm_num
    _ ≤ 2 ^ j := Nat.pow_le_pow_right (by norm_num) h2

theorem ValidAlign.lt {A : Nat} (h : ValidAlign A) : A < 2 ^ 31 := by
  obtain ⟨j, _, h3, rfl⟩ := h
  exact Nat.pow_lt_pow_right (by norm_num) h3

theorem ValidAlign.dvd_size {A : Nat} (h : ValidAlign A) : A ∣ 2 ^ 64 := by
  obtain ⟨j, _, h3, rfl⟩ := h
  exact Nat.pow_dvd_pow 2 (by omega)

theorem two_pow_offset_shift {A : Nat} (h : ValidAlign A) : 2 ^ offset_shift A = A := by
  obtain ⟨j, h2, h3, rfl⟩ := h
  unfold offset_shift
  interval_cases j <;> rfl

theorem link_bits_cases (A : Nat) : link_bits A = 32 ∨ link_bits A = 64 := by
  unfold link_bits
  split
  · left; rfl
  · right; rfl

theorem link_mod_pos (A : Nat) : 0 < 2 ^ link_bits A := Nat.pos_pow_of_pos _ (by norm_num)

theorem link_mod_le (A : Nat) : 2 ^ link_bits A ≤ 2 ^ 64 := by
  rcases link_bits_cases A with h | h
  · rw [h]; norm_num
  · rw [h]

theorem list_tail_lt (A : Nat) : list_tail A < 2 ^ link_bits A := by
  unfold list_tail
  have := link_mod_pos A
  omega

theorem tolink_lt (A x : Nat) : tolink A x < 2 ^ link_bits A := Nat.mod_lt _ (link_mod_pos A)

theorem tolink_of_lt {A x : Nat} (h : x < 2 ^ link_bits A) : tolink A x = x :=
  Nat.mod_eq_of_lt h

theorem tolink_of_lt_tail {A x : Nat} (h : x < list_tail A) : tolink A x = x :=
  tolink_of_lt (lt_trans h (list_tail_lt A))

theorem sizeof_link_cases (A : Nat) : sizeof_link A = 4 ∨ sizeof_link A = 8 := by
  unfold sizeof_link
  rcases link_bits_cases A with h | h
  · rw [h]; left; rfl
  · rw [h]; right; rfl

theorem sizeof_link_le {A : Nat} (h : ValidAlign A) : sizeof_link A ≤ A := by
  unfold sizeof_link link_bits
  have h4 := h.four_le
  split
  · omega
  · rename_i hne
    obtain ⟨j, h2, _, rfl⟩ := h
    have : 3 ≤ j := by
      rcases Nat.lt_or_ge j 3 with hj | hj
      · have : j = 2 := by omega
        subst this
        exact absurd rfl hne
      · exact hj
    calc 64 / 8 = 2 ^ 3 := by norm_num
      _ ≤ 2 ^ j := Nat.pow_le_pow_right (by norm_num) this

theorem shl_off_eq {A : Nat} (h : ValidAlign A) (x : Nat) : shl_off A x = tosize (x * A) := by
  unfold shl_off
  rw [two_pow_offset_shift h]

theorem shr_off_eq {A : Nat} (h : ValidAlign A) (x : Nat) : shr_off A x = x / A := by
  unfold shr_off
  rw [two_pow_offset_shift h]

/-! ## Frame facts of the accounting statements -/

@[simp] theorem flush_frag_dec_mem (c : Ctx) : (flush_frag_dec c).mem = c.mem := by
  unfold flush_frag_dec; split <;> rfl

@[simp] theorem flush_frag_inc_mem (c : Ctx) : (flush_frag_inc c).mem = c.mem := by
  unfold flush_frag_inc; split <;> rfl

@[simp] theorem account_alloc_mem (c : Ctx) (len : Nat) : (account_alloc c len).mem = c.mem := by
  simp [account_alloc]

@[simp] theorem account_free_mem (c : Ctx) (len : Nat) : (account_free c len).mem = c.mem := by
  simp [account_free]

@[simp] theorem account_alloc_fragment_size (c : Ctx) (len : Nat) :
    (account_alloc c len).tc.fragment_size = size_sub c.tc.fragment_size len := by
  unfold account_alloc flush_frag_dec; split <;> rfl

@[simp] theorem account_free_fragment_size (c : Ctx) (len : Nat) :
    (account_free c len).tc.fragment_size = tosize (c.tc.fragment_size + len) := by
  unfold account_free flush_frag_inc; split <;> rfl

@[simp] theorem account_alloc_freelist (c : Ctx) (len : Nat) :
    (account_alloc c len).tc.m_freelist_head = c.tc.m_freelist_head := by
  unfold account_alloc flush_frag_dec; split <;> rfl

@[simp] theorem account_free_freelist (c : Ctx) (len : Nat) :
    (account_free c len).tc.m_freelist_head = c.tc.m_freelist_head := by
  unfold account_free flush_frag_inc; split <;> rfl

@[simp] theorem account_alloc_huge_list (c : Ctx) (len : Nat) :
    (account_alloc c len).tc.huge_list = c.tc.huge_list := by
  unfold account_alloc flush_frag_dec; split <;> rfl

@[simp] theorem account_free_huge_list (c : Ctx) (len : Nat) :
    (account_free c len).tc.huge_list = c.tc.huge_list := by
  unfold account_free flush_frag_inc; split <;> rfl

@[simp] theorem account_alloc_huge_size_sum (c : Ctx) (len : Nat) :
    (account_alloc c len).tc.huge_size_sum = c.tc.huge_size_sum := by
  unfold account_alloc flush_frag_dec; split <;> rfl

@[simp] theorem account_free_huge_size_sum (c : Ctx) (len : Nat) :
    (account_free c len).tc.huge_size_sum = c.tc.huge_size_sum := by
  unfold account_free flush_frag_inc; split <;> rfl

@[simp] theorem account_alloc_huge_node_cnt (c : Ctx) (len : Nat) :
    (account_alloc c len).tc.huge_node_cnt = c.tc.huge_node_cnt := by
  unfold account_alloc flush_frag_dec; split <;> rfl

@[simp] theorem account_free_huge_node_cnt (c : Ctx) (len : Nat) :
    (account_free c len).tc.huge_node_cnt = c.tc.huge_node_cnt := by
  unfold account_free flush_frag_inc; split <;> rfl

@[simp] theorem account_alloc_hot_pos (c : Ctx) (len : Nat) :
    (account_alloc c len).tc.m_hot_pos = c.tc.m_hot_pos := by
  unfold account_alloc flush_frag_dec; split <;> rfl

@[simp] theorem account_free_hot_pos (c : Ctx) (len : Nat) :
    (account_free c len).tc.m_hot_pos = c.tc.m_hot_pos := by
  unfold account_free flush_frag_inc; split <;> rfl

@[simp] theorem account_alloc_hot_end (c : Ctx) (len : Nat) :
    (account_alloc c len).tc.m_hot_end = c.tc.m_hot_end := by
  unfold account_alloc flush_frag_dec; split <;> rfl

@[simp] theorem account_free_hot_end (c : Ctx) (len : Nat) :
    (account_free c len).tc.m_hot_end = c.tc.m_hot_end := by
  unfold account_free flush_frag_inc; split <;> rfl

@[simp] theorem account_alloc_rand_seed (c : Ctx) (len : Nat) :
    (account_alloc c len).tc.m_rand_seed = c.tc.m_rand_seed := by
  unfold account_alloc flush_frag_dec; split <;> rfl

@[simp] theorem account_free_rand_seed (c : Ctx) (len : Nat) :
    (account_free c len).tc.m_rand_seed = c.tc.m_rand_seed := by
  unfold account_free flush_frag_inc; split <;> rfl

/-! ## Fastbins (`alloc` lines 112-162, `sfree` lines 371-379) -/

theorem fastbin_index {A n request : Nat} (hA : ValidAlign A) (hpos : 0 < request)
    (hmul : request % A = 0) (hmax : request ≤ tosize (n * A)) :
    size_sub (request / A) 1 = request / A - 1 ∧ request / A - 1 < n ∧ 1 ≤ request / A := by
  have hA0 := hA.pos
  have h1 : A ≤ request := Nat.le_of_dvd hpos (Nat.dvd_of_mod_eq_zero hmul)
  have h2 : 1 ≤ request / A := (Nat.one_le_div_iff hA0).2 h1
  have h3 : request ≤ n * A := le_trans hmax (tosize_le _)
  have h4 : request / A ≤ n := by
    calc request / A ≤ n * A / A := Nat.div_le_div_right h3
      _ = n := Nat.mul_div_cancel _ hA0
  have h5 : request / A < 2 ^ 64 :=
    lt_of_le_of_lt (Nat.div_le_self _ _) (lt_of_le_of_lt hmax (tosize_lt _))
  exact ⟨size_sub_of_le h2 h5, by omega, h2⟩

/-- The run of `alloc` on a non-empty fastbin. -/
theorem alloc_fast_pop_run (P : Params) (fuel : Nat) (c : Ctx) (request : Nat) (list : head_t)
    (hA : ValidAlign P.AlignSize) (hpos : 0 < request) (hmul : request % P.AlignSize = 0)
    (hmax : request ≤ tosize (c.tc.m_freelist_head.length * P.AlignSize))
    (hlist : c.tc.m_freelist_head[request / P.AlignSize - 1]? = some list)
    (hne : list.head ≠ list_tail P.AlignSize) :
    alloc P fuel c request
      = some (alloc_fast_pop P.AlignSize c (request / P.AlignSize - 1) list request) := by
  obtain ⟨hidx, _, _⟩ := fastbin_index hA hpos hmul hmax
  unfold alloc
  simp only [hmax, if_true, hidx, hlist]
  unfold alloc_small
  simp only [ne_eq, Ne.symm hne, not_false_eq_true, if_true]

/-- C2: for every thread-cache state and every request that is a positive
multiple of `AlignSize` with `request ≤ fastbin_max`
(`m_freelist_head.size() * AlignSize`): the bin `request / AlignSize - 1`
exists, and if it is non-empty `alloc` returns `head * AlignSize` (as a
`size_t`), the new head of that bin is the link word stored at the popped
block, its counter is decremented (as a `link_size_t`), `fragment_size` is
decreased by `request` (as a `size_t`), and every other bin, the hot region,
the huge list with its counters and the whole pool buffer are unchanged. -/
theorem alloc_fastbin_hit (P : Params) (fuel : Nat) (c : Ctx) (request : Nat)
    (hA : ValidAlign P.AlignSize) (hpos : 0 < request) (hmul : request % P.AlignSize = 0)
    (hmax : request ≤ tosize (c.tc.m_freelist_head.length * P.AlignSize)) :
    ∃ list, c.tc.m_freelist_head[request / P.AlignSize - 1]? = some list ∧
      (list.head ≠ list_tail P.AlignSize →
        ∃ c1, alloc P fuel c request = some (tosize (list.head * P.AlignSize), c1) ∧
          c1.tc.m_freelist_head = c.tc.m_freelist_head.set (request / P.AlignSize - 1)
            { head := c.mem (tosize (list.head * P.AlignSize)),
              cnt := link_dec P.AlignSize list.cnt } ∧
          (0 < list.cnt → list.cnt < 2 ^ link_bits P.AlignSize →
            link_dec P.AlignSize list.cnt + 1 = list.cnt) ∧
          c1.tc.fragment_size = size_sub c.tc.fragment_size request ∧
          (request ≤ c.tc.fragment_size → c.tc.fragment_size < 2 ^ 64 →
            c1.tc.fragment_size + request = c.tc.fragment_size) ∧
          c1.tc.m_hot_pos = c.tc.m_hot_pos ∧ c1.tc.m_hot_end = c.tc.m_hot_end ∧
          c1.tc.huge_list = c.tc.huge_list ∧
          c1.tc.huge_size_sum = c.tc.huge_size_sum ∧
          c1.tc.huge_node_cnt = c.tc.huge_node_cnt ∧
          c1.mem = c.mem) := by
  obtain ⟨_, hlt, _⟩ := fastbin_index hA hpos hmul hmax
  obtain ⟨list, hlist⟩ : ∃ list, c.tc.m_freelist_head[request / P.AlignSize - 1]? = some list :=
    ⟨_, List.getElem?_eq_getElem hlt⟩
  refine ⟨list, hlist, fun hne => ?_⟩
  refine ⟨(alloc_fast_pop P.AlignSize c (request / P.AlignSize - 1) list request).2, ?_, ?_, ?_,
    ?_, ?_, ?_, ?_, ?_, ?_, ?_, ?_⟩
  · rw [alloc_fast_pop_run P fuel c request list hA hpos hmul hmax hlist hne]
    rfl
  · simp [alloc_fast_pop]
  · intro h0 hlt2
    unfold link_dec
    have h1 : list.cnt + (2 ^ link_bits P.AlignSize - 1)
        = (list.cnt - 1) + 2 ^ link_bits P.AlignSize := by
      have := link_mod_pos P.AlignSize
      omega
    rw [h1, Nat.add_mod_right, Nat.mod_eq_of_lt (by omega)]
    omega
  · simp [alloc_fast_pop]
  · intro h1 h2
    simp only [alloc_fast_pop, account_alloc_fragment_size]
    rw [size_sub_of_le h1 h2]
    omega
  · simp [alloc_fast_pop]
  · simp [alloc_fast_pop]
  · simp [alloc_fast_pop]
  · simp [alloc_fast_pop]
  · simp [alloc_fast_pop]
  · simp [alloc_fast_pop]

theorem alloc_fastbin_hit_witness :
    ValidAlign ex_params.AlignSize ∧ 0 < 8 ∧ 8 % ex_params.AlignSize = 0 ∧
    8 ≤ tosize (ex_ctx_fast.tc.m_freelist_head.length * ex_params.AlignSize) ∧
    (alloc ex_params 0 ex_ctx_fast 8).map Prod.fst = some 64 := by
  have hA : ValidAlign ex_params.AlignSize := ⟨2, by norm_num, by norm_num, rfl⟩
  have h2 : 8 % ex_params.AlignSize = 0 := by decide
  have h3 : 8 ≤ tosize (ex_ctx_fast.tc.m_freelist_head.length * ex_params.AlignSize) := by
    decide
  refine ⟨hA, by norm_num, h2, h3, ?_⟩
  obtain ⟨list, hl, h⟩ := alloc_fastbin_hit ex_params 0 ex_ctx_fast 8 hA (by norm_num) h2 h3
  have hl2 : list = { head := 16, cnt := 2 } := by
    have : ex_ctx_fast.tc.m_freelist_head[8 / ex_params.AlignSize - 1]?
        = some { head := 16, cnt := 2 } := rfl
    rw [this] at hl
    exact (Option.some.inj hl).symm
  subst hl2
  obtain ⟨c1, hc1, _⟩ := h (by decide)
  rw [hc1]
  rfl

theorem list_set_same {α : Type} {l : List α} {i : Nat} {x : α} (h : l[i]? = some x) :
    l.set i x = l := by
  apply List.ext_getElem?
  intro j
  rw [List.getElem?_set]
  split
  · rename_i hij
    subst hij
    split
    · exact h.symm
    · rename_i hlt
      rw [List.getElem?_eq_none (by omega)]
  · rfl

theorem link_dec_tolink_succ {A x : Nat} (h : x < 2 ^ link_bits A) :
    link_dec A (tolink A (x + 1)) = x := by
  unfold link_dec tolink
  have hM := link_mod_pos A
  rcases Nat.lt_or_ge (x + 1) (2 ^ link_bits A) with h1 | h1
  · rw [Nat.mod_eq_of_lt h1]
    have : x + 1 + (2 ^ link_bits A - 1) = x + 2 ^ link_bits A := by omega
    rw [this, Nat.add_mod_right, Nat.mod_eq_of_lt h]
  · have h2 : x + 1 = 2 ^ link_bits A := by omega
    rw [h2, Nat.mod_self, Nat.zero_add, Nat.mod_eq_of_lt (by omega)]
    omega

theorem mul_div_tosize {A pos : Nat} (_hA : ValidAlign A) (hal : pos % A = 0)
    (hlt : pos < 2 ^ 64) : tosize (pos / A * A) = pos := by
  rw [Nat.div_mul_cancel (Nat.dvd_of_mod_eq_zero hal)]
  exact tosize_of_lt hlt

/-- The fastbin branch of `sfree`, field by field. -/
theorem sfree_fastbin (P : Params) (fuel : Nat) (c : Ctx) (pos len : Nat)
    (hA : ValidAlign P.AlignSize) (hlen : 0 < len) (hmul : len % P.AlignSize = 0)
    (hmax : len ≤ tosize (c.tc.m_freelist_head.length * P.AlignSize))
    (hhot : tosize (pos + len) ≠ c.tc.m_hot_pos) :
    ∃ list c1, c.tc.m_freelist_head[len / P.AlignSize - 1]? = some list ∧
      sfree P fuel c pos len = some c1 ∧
      c1.tc.m_freelist_head = c.tc.m_freelist_head.set (len / P.AlignSize - 1)
        (head_t.mk (tolink P.AlignSize (pos / P.AlignSize)) (tolink P.AlignSize (list.cnt + 1))) ∧
      c1.mem = Function.update c.mem pos list.head ∧
      c1.tc.fragment_size = tosize (c.tc.fragment_size + len) ∧
      c1.tc.huge_list = c.tc.huge_list ∧
      c1.tc.huge_size_sum = c.tc.huge_size_sum ∧
      c1.tc.huge_node_cnt = c.tc.huge_node_cnt ∧
      c1.tc.m_hot_pos = c.tc.m_hot_pos ∧ c1.tc.m_hot_end = c.tc.m_hot_end ∧
      c1.tc.m_rand_seed = c.tc.m_rand_seed := by
  obtain ⟨hidx, hlt, _⟩ := fastbin_index hA hlen hmul hmax
  have hget : c.tc.m_freelist_head[len / P.AlignSize - 1]?
      = some (c.tc.m_freelist_head[len / P.AlignSize - 1]) := List.getElem?_eq_getElem hlt
  have h1 : ∃ c0, sfree_fast P.AlignSize c pos len = some c0 ∧
      c0.tc.m_freelist_head = c.tc.m_freelist_head.set (len / P.AlignSize - 1)
        (head_t.mk (tolink P.AlignSize (pos / P.AlignSize))
          (tolink P.AlignSize (c.tc.m_freelist_head[len / P.AlignSize - 1].cnt + 1))) ∧
      c0.mem = Function.update c.mem pos c.tc.m_freelist_head[len / P.AlignSize - 1].head ∧
      c0.tc.fragment_size = c.tc.fragment_size ∧
      c0.tc.huge_list = c.tc.huge_list ∧
      c0.tc.huge_size_sum = c.tc.huge_size_sum ∧
      c0.tc.huge_node_cnt = c.tc.huge_node_cnt ∧
      c0.tc.m_hot_pos = c.tc.m_hot_pos ∧ c0.tc.m_hot_end = c.tc.m_hot_end ∧
      c0.tc.m_rand_seed = c.tc.m_rand_seed := by
    unfold sfree_fast
    simp only [hidx, hget]
    exact ⟨_, rfl, rfl, rfl, rfl, rfl, rfl, rfl, rfl, rfl, rfl⟩
  obtain ⟨c0, hc0, h2, h3, h4, h5, h6, h7, h8, h9, h10⟩ := h1
  refine ⟨_, account_free c0 len, hget, ?_, ?_⟩
  · unfold sfree
    simp only [hhot, if_false, hmax, if_true, hc0]
  · simp [h2, h3, h4, h5, h6, h7, h8, h9, h10]

/-- C3: `sfree` then `alloc` on a fastbin are inverse.  For every
thread-cache state whose members hold values of their C++ types, every block
offset `pos` (aligned, below `2^64`, and representable as a link other than
`list_tail`) and every length `len` that is a positive multiple of
`AlignSize` with `len ≤ fastbin_max` and `pos + len ≠ m_hot_pos`:
`sfree(pos, len)` followed by `alloc(len)` returns `pos`, and afterwards all
fastbin heads and counters, `fragment_size`, the huge list with its counters
and the hot region are what they were before the `sfree`; the pool buffer
differs at most in the link word at `pos`. -/
theorem sfree_alloc_inverse (P : Params) (fuel fuel2 : Nat) (c : Ctx) (pos len : Nat)
    (hA : ValidAlign P.AlignSize) (hty : c.tc.Typed P.AlignSize)
    (hlen : 0 < len) (hmul : len % P.AlignSize = 0)
    (hmax : len ≤ tosize (c.tc.m_freelist_head.length * P.AlignSize))
    (hhot : tosize (pos + len) ≠ c.tc.m_hot_pos)
    (hal : pos % P.AlignSize = 0) (hpos : pos < 2 ^ 64)
    (hrep : pos / P.AlignSize < list_tail P.AlignSize) :
    ∃ c1 c2, sfree P fuel c pos len = some c1 ∧ alloc P fuel2 c1 len = some (pos, c2) ∧
      c2.tc.m_freelist_head = c.tc.m_freelist_head ∧
      c2.tc.fragment_size = c.tc.fragment_size ∧
      c2.tc.huge_list = c.tc.huge_list ∧
      c2.tc.huge_size_sum = c.tc.huge_size_sum ∧
      c2.tc.huge_node_cnt = c.tc.huge_node_cnt ∧
      c2.tc.m_hot_pos = c.tc.m_hot_pos ∧ c2.tc.m_hot_end = c.tc.m_hot_end ∧
      (∀ a, a ≠ pos → c2.mem a = c.mem a) := by
  obtain ⟨_, hlt, _⟩ := fastbin_index hA hlen hmul hmax
  obtain ⟨list, c1, hget, hs, hfl1, hmem1, hfs1, hhl1, hss1, hnc1, hhp1, hhe1, _⟩ :=
    sfree_fastbin P fuel c pos len hA hlen hmul hmax hhot
  have hcnt : list.cnt < 2 ^ link_bits P.AlignSize :=
    (hty.2.2.2.2.2.1 list (List.getElem?_mem hget)).2
  refine ⟨c1, ?_⟩
  have hmax2 : len ≤ tosize (c1.tc.m_freelist_head.length * P.AlignSize) := by
    rw [hfl1]; simpa using hmax
  have hlink : tolink P.AlignSize (pos / P.AlignSize) = pos / P.AlignSize :=
    tolink_of_lt_tail hrep
  have hl1 : c1.tc.m_freelist_head[len / P.AlignSize - 1]?
      = some (head_t.mk (pos / P.AlignSize) (tolink P.AlignSize (list.cnt + 1))) := by
    rw [hfl1, List.getElem?_set_self hlt, hlink]
  have hrun := alloc_fast_pop_run P fuel2 c1 len _ hA hlen hmul hmax2 hl1 (Nat.ne_of_lt hrep)
  refine ⟨(alloc_fast_pop P.AlignSize c1 (len / P.AlignSize - 1)
    (head_t.mk (pos / P.AlignSize) (tolink P.AlignSize (list.cnt + 1))) len).2,
    hs, ?_, ?_, ?_, ?_, ?_, ?_, ?_, ?_, ?_⟩
  · rw [hrun]
    simp only [alloc_fast_pop, mul_div_tosize hA hal hpos]
  · simp only [alloc_fast_pop, account_alloc_freelist, account_alloc_mem, hfl1, hmem1,
      mul_div_tosize hA hal hpos, List.set_set, Function.update_same,
      link_dec_tolink_succ hcnt]
    exact list_set_same hget
  · simp only [alloc_fast_pop, account_alloc_fragment_size, hfs1]
    exact size_sub_add_cancel hty.1
  · simp [alloc_fast_pop, hhl1]
  · simp [alloc_fast_pop, hss1]
  · simp [alloc_fast_pop, hnc1]
  · simp [alloc_fast_pop, hhp1]
  · simp [alloc_fast_pop, hhe1]
  · intro a ha
    simp only [alloc_fast_pop, account_alloc_mem, hmem1]
    exact Function.update_noteq ha _ _

theorem ex_valid_align : ValidAlign ex_params.AlignSize := ⟨2, by norm_num, by norm_num, rfl⟩

theorem ex_ctx_fast_typed : ex_ctx_fast.tc.Typed ex_params.AlignSize := by
  unfold TCMemPoolOneThread.Typed
  decide

theorem sfree_alloc_inverse_witness :
    (ValidAlign ex_params.AlignSize ∧ ex_ctx_fast.tc.Typed ex_params.AlignSize ∧ 0 < 8 ∧
      8 % ex_params.AlignSize = 0 ∧
      8 ≤ tosize (ex_ctx_fast.tc.m_freelist_head.length * ex_params.AlignSize) ∧
      tosize (128 + 8) ≠ ex_ctx_fast.tc.m_hot_pos ∧ 128 % ex_params.AlignSize = 0 ∧
      128 < 2 ^ 64 ∧ 128 / ex_params.AlignSize < list_tail ex_params.AlignSize) ∧
    ∃ c1 c2, sfree ex_params 0 ex_ctx_fast 128 8 = some c1 ∧
      alloc ex_params 0 c1 8 = some (128, c2) ∧
      c2.tc.m_freelist_head = ex_ctx_fast.tc.m_freelist_head ∧
      c2.tc.fragment_size = ex_ctx_fast.tc.fragment_size ∧
      c2.tc.huge_list = ex_ctx_fast.tc.huge_list ∧
      c2.tc.huge_size_sum = ex_ctx_fast.tc.huge_size_sum ∧
      c2.tc.huge_node_cnt = ex_ctx_fast.tc.huge_node_cnt ∧
      c2.tc.m_hot_pos = ex_ctx_fast.tc.m_hot_pos ∧
      c2.tc.m_hot_end = ex_ctx_fast.tc.m_hot_end ∧
      (∀ a, a ≠ 128 → c2.mem a = ex_ctx_fast.mem a) :=
  ⟨⟨ex_valid_align, ex_ctx_fast_typed, by decide, by decide, by decide, by decide, by decide,
      by decide, by decide⟩,
    sfree_alloc_inverse ex_params 0 0 ex_ctx_fast 128 8 ex_valid_align ex_ctx_fast_typed
      (by decide) (by decide) (by decide) (by decide) (by decide) (by decide) (by decide)⟩

/-- C4: for every thread-cache state and every request that is a positive
multiple of `AlignSize` with `2 * request ≤ fastbin_max`: both bins exist, and
if the request-sized bin is empty and the `2 * request` bin is not, `alloc`
pops the head block of the `2 * request` bin at offset `pos`, returns `pos`,
and leaves the request-sized bin with the link of `pos + request` as head and
`list_tail` stored in that block's link word, so that it holds exactly the
second half (its counter goes from 0 to 1); `fragment_size` is decreased by
`request`, and the hot region and the huge list with its counters are
unchanged. -/
theorem alloc_fastbin_split (P : Params) (fuel : Nat) (c : Ctx) (request : Nat)
    (hA : ValidAlign P.AlignSize) (hpos : 0 < request) (hmul : request % P.AlignSize = 0)
    (hmax2 : 2 * request ≤ tosize (c.tc.m_freelist_head.length * P.AlignSize)) :
    ∃ list list2, c.tc.m_freelist_head[request / P.AlignSize - 1]? = some list ∧
      c.tc.m_freelist_head[2 * request / P.AlignSize - 1]? = some list2 ∧
      (list.head = list_tail P.AlignSize → list2.head ≠ list_tail P.AlignSize →
        ∃ c1, alloc P fuel c request = some (tosize (list2.head * P.AlignSize), c1) ∧
          c1.tc.m_freelist_head[2 * request / P.AlignSize - 1]? =
            some (head_t.mk (c.mem (tosize (list2.head * P.AlignSize)))
              (link_dec P.AlignSize list2.cnt)) ∧
          c1.tc.m_freelist_head[request / P.AlignSize - 1]? =
            some (head_t.mk
              (tolink P.AlignSize (tosize (tosize (list2.head * P.AlignSize) + request)
                / P.AlignSize))
              (tolink P.AlignSize (list.cnt + 1))) ∧
          (∀ i, i ≠ request / P.AlignSize - 1 → i ≠ 2 * request / P.AlignSize - 1 →
            c1.tc.m_freelist_head[i]? = c.tc.m_freelist_head[i]?) ∧
          c1.mem = Function.update c.mem (tosize (tosize (list2.head * P.AlignSize) + request))
            (list_tail P.AlignSize) ∧
          (tosize (list2.head * P.AlignSize) + request < 2 ^ 64 →
            (tosize (list2.head * P.AlignSize) + request) / P.AlignSize
              < list_tail P.AlignSize →
            ∃ h1, c1.tc.m_freelist_head[request / P.AlignSize - 1]? = some h1 ∧
              h1.head ≠ list_tail P.AlignSize ∧
              tosize (h1.head * P.AlignSize) = tosize (list2.head * P.AlignSize) + request ∧
              c1.mem (tosize (h1.head * P.AlignSize)) = list_tail P.AlignSize ∧
              (list.cnt = 0 → h1.cnt = 1)) ∧
          c1.tc.fragment_size = size_sub c.tc.fragment_size request ∧
          (request ≤ c.tc.fragment_size → c.tc.fragment_size < 2 ^ 64 →
            c1.tc.fragment_size + request = c.tc.fragment_size) ∧
          c1.tc.m_hot_pos = c.tc.m_hot_pos ∧ c1.tc.m_hot_end = c.tc.m_hot_end ∧
          c1.tc.huge_list = c.tc.huge_list ∧
          c1.tc.huge_size_sum = c.tc.huge_size_sum ∧
          c1.tc.huge_node_cnt = c.tc.huge_node_cnt) := by
  have hA0 := hA.pos
  have hmax : request ≤ tosize (c.tc.m_freelist_head.length * P.AlignSize) := by omega
  obtain ⟨hidx, hlt, hge⟩ := fastbin_index hA hpos hmul hmax
  have hmul2 : (2 * request) % P.AlignSize = 0 := by
    rw [Nat.mul_mod, hmul]; simp
  obtain ⟨_, hlt2, _⟩ := fastbin_index hA (by omega : 0 < 2 * request) hmul2 hmax2
  have hdiv : 2 * request / P.AlignSize = 2 * (request / P.AlignSize) :=
    Nat.mul_div_assoc 2 (Nat.dvd_of_mod_eq_zero hmul)
  have hi2 : tosize ((request / P.AlignSize - 1) * 2 + 1) = 2 * request / P.AlignSize - 1 := by
    rw [hdiv]
    have h64 : 2 * (request / P.AlignSize) - 1 < 2 ^ 64 := by
      have h1 : 2 * request < 2 ^ 64 := lt_of_le_of_lt hmax2 (tosize_lt _)
      have h2 : 2 * (request / P.AlignSize) ≤ 2 * request :=
        Nat.mul_le_mul_left 2 (Nat.div_le_self _ _)
      omega
    have : (request / P.AlignSize - 1) * 2 + 1 = 2 * (request / P.AlignSize) - 1 := by omega
    rw [this]
    exact tosize_of_lt h64
  have hne : request / P.AlignSize - 1 ≠ 2 * request / P.AlignSize - 1 := by
    rw [hdiv]; omega
  have hget : c.tc.m_freelist_head[request / P.AlignSize - 1]?
      = some (c.tc.m_freelist_head[request / P.AlignSize - 1]) := List.getElem?_eq_getElem hlt
  have hget2 : c.tc.m_freelist_head[2 * request / P.AlignSize - 1]?
      = some (c.tc.m_freelist_head[2 * request / P.AlignSize - 1]) :=
    List.getElem?_eq_getElem hlt2
  generalize c.tc.m_freelist_head[request / P.AlignSize - 1] = list at hget
  generalize c.tc.m_freelist_head[2 * request / P.AlignSize - 1] = list2 at hget2
  refine ⟨list, list2, hget, hget2, fun he hne2 => ?_⟩
  have hrun : alloc P fuel c request = some (alloc_fast_split P.AlignSize c
      (request / P.AlignSize - 1) (2 * request / P.AlignSize - 1) list list2 request) := by
    unfold alloc
    simp only [hmax, if_true, hidx, hget]
    unfold alloc_small alloc_split_try
    simp only [he, ne_eq, not_true_eq_false, if_false, hi2, hlt2, if_true, hget2,
      Ne.symm hne2, not_false_eq_true]
  have hpm : tosize (list2.head * P.AlignSize) % P.AlignSize = 0 := by
    unfold tosize
    rw [Nat.mod_mod_of_dvd _ hA.dvd_size]
    exact Nat.mul_mod_left _ _
  refine ⟨_, hrun, ?_, ?_, ?_, ?_, ?_, ?_, ?_, ?_, ?_, ?_, ?_, ?_⟩
  · simp only [alloc_fast_split, account_alloc_freelist, account_alloc_mem]
    rw [List.getElem?_set_ne hne, List.getElem?_set_self hlt2]
  · simp only [alloc_fast_split, account_alloc_freelist, account_alloc_mem]
    rw [List.getElem?_set_self (by simpa using hlt)]
  · intro i h1 h2
    simp only [alloc_fast_split, account_alloc_freelist]
    rw [List.getElem?_set_ne (Ne.symm h1), List.getElem?_set_ne (Ne.symm h2)]
  · simp [alloc_fast_split]
  · intro h64 hrep
    refine ⟨head_t.mk
      (tolink P.AlignSize (tosize (tosize (list2.head * P.AlignSize) + request) / P.AlignSize))
      (tolink P.AlignSize (list.cnt + 1)), ?_, ?_, ?_, ?_, ?_⟩
    · simp only [alloc_fast_split, account_alloc_freelist, account_alloc_mem]
      rw [List.getElem?_set_self (by simpa using hlt)]
    · simp only [tosize_of_lt h64, tolink_of_lt_tail hrep]
      exact Nat.ne_of_lt hrep
    · simp only [tosize_of_lt h64, tolink_of_lt_tail hrep]
      have hm : (tosize (list2.head * P.AlignSize) + request) % P.AlignSize = 0 := by
        rw [Nat.add_mod, hpm, hmul]; simp
      rw [Nat.div_mul_cancel (Nat.dvd_of_mod_eq_zero hm)]
      exact tosize_of_lt h64
    · have hm : (tosize (list2.head * P.AlignSize) + request) % P.AlignSize = 0 := by
        rw [Nat.add_mod, hpm, hmul]; simp
      have key : tosize (tolink P.AlignSize (tosize (tosize (list2.head * P.AlignSize) + request)
          / P.AlignSize) * P.AlignSize) = tosize (tosize (list2.head * P.AlignSize) + request) := by
        simp only [tosize_of_lt h64, tolink_of_lt_tail hrep,
          Nat.div_mul_cancel (Nat.dvd_of_mod_eq_zero hm)]
      simp only [alloc_fast_split]
      rw [key]
      exact Function.update_same _ _ _
    · intro h0
      simp only [h0]
      unfold tolink
      exact Nat.mod_eq_of_lt (by
        rcases link_bits_cases P.AlignSize with h | h <;> rw [h] <;> norm_num)
  · simp [alloc_fast_split]
  · intro h1 h2
    simp only [alloc_fast_split, account_alloc_fragment_size]
    rw [size_sub_of_le h1 h2]
    omega
  · simp [alloc_fast_split]
  · simp [alloc_fast_split]
  · simp [alloc_fast_split]
  · simp [alloc_fast_split]
  · simp [alloc_fast_split]

theorem alloc_fastbin_split_witness :
    (ValidAlign ex_params.AlignSize ∧ 0 < 4 ∧ 4 % ex_params.AlignSize = 0 ∧
      2 * 4 ≤ tosize (ex_ctx_fast.tc.m_freelist_head.length * ex_params.AlignSize)) ∧
    (alloc ex_params 0 ex_ctx_fast 4).map Prod.fst = some 64 := by
  have h2 : 4 % ex_params.AlignSize = 0 := by decide
  have h3 : 2 * 4 ≤ tosize (ex_ctx_fast.tc.m_freelist_head.length * ex_params.AlignSize) := by
    decide
  refine ⟨⟨ex_valid_align, by norm_num, h2, h3⟩, ?_⟩
  obtain ⟨list, list2, hl, hl2, h⟩ :=
    alloc_fastbin_split ex_params 0 ex_ctx_fast 4 ex_valid_align (by norm_num) h2 h3
  have e1 : list = head_t.mk (list_tail 4) 0 := by
    have : ex_ctx_fast.tc.m_freelist_head[4 / ex_params.AlignSize - 1]?
        = some (head_t.mk (list_tail 4) 0) := rfl
    rw [this] at hl
    exact (Option.some.inj hl).symm
  have e2 : list2 = head_t.mk 16 2 := by
    have : ex_ctx_fast.tc.m_freelist_head[2 * 4 / ex_params.AlignSize - 1]?
        = some (head_t.mk 16 2) := rfl
    rw [this] at hl2
    exact (Option.some.inj hl2).symm
  subst e1 e2
  obtain ⟨c1, hc1, _⟩ := h rfl (by decide)
  rw [hc1]
  rfl

/-! ## The pool: `chunk_alloc`, `tc_populate` and the counter `used` (`mem::n`) -/

/-- The member `m_chunk_size` is a positive power of two (what
`set_chunk_size` verifies, and the default `ArenaSize`). -/
theorem chunk_rem_eq {endpos chunk : Nat} (hc : ∃ j, j < 64 ∧ chunk = 2 ^ j) :
    chunk_rem endpos chunk = endpos % chunk := by
  obtain ⟨j, hj, rfl⟩ := hc
  unfold chunk_rem
  have h1 : 1 ≤ 2 ^ j := Nat.one_le_two_pow
  have h2 : 2 ^ j < 2 ^ 64 := Nat.pow_lt_pow_right (by norm_num) hj
  rw [size_sub_of_le h1 h2]
  exact Nat.and_pow_two_sub_one_eq_mod _ _

@[simp] theorem put_n (mp : ThreadCacheMemPool) (tid : Nat) (c : Ctx) :
    (mp.put tid c).n = mp.n := rfl

@[simp] theorem put_c (mp : ThreadCacheMemPool) (tid : Nat) (c : Ctx) :
    (mp.put tid c).c = mp.c := rfl

@[simp] theorem put_p (mp : ThreadCacheMemPool) (tid : Nat) (c : Ctx) :
    (mp.put tid c).p = mp.p := rfl

@[simp] theorem put_chunk_size (mp : ThreadCacheMemPool) (tid : Nat) (c : Ctx) :
    (mp.put tid c).m_chunk_size = mp.m_chunk_size := rfl

/-- What `chunk_alloc` does to `n`, `c`, `p` and `m_chunk_size`. -/
theorem chunk_alloc_used {P : Params} {fuel : Nat} {mp mp1 : ThreadCacheMemPool}
    {tid request : Nat} {b : Bool}
    (h : chunk_alloc P fuel mp tid request = some (b, mp1)) :
    mp1.c = mp.c ∧ mp1.p = mp.p ∧ mp1.m_chunk_size = mp.m_chunk_size ∧
    ((b = false ∧ chunk_alloc_len mp request = none ∧ mp1 = mp) ∨
     (b = true ∧ ∃ l, chunk_alloc_len mp request = some l ∧ mp1.n = tosize (mp.n + l))) := by
  unfold chunk_alloc at h
  cases hl : chunk_alloc_len mp request with
  | none =>
    rw [hl] at h
    simp only [Option.some.injEq, Prod.mk.injEq] at h
    obtain ⟨hb, hmp⟩ := h
    subst hmp
    exact ⟨rfl, rfl, rfl, Or.inl ⟨hb.symm, rfl, rfl⟩⟩
  | some l =>
    rw [hl] at h
    simp only at h
    split at h
    · exact absurd h (by simp)
    · split at h
      · exact absurd h (by simp)
      · split at h
        · exact absurd h (by simp)
        · simp only [Option.some.injEq, Prod.mk.injEq] at h
          obtain ⟨hb, hmp⟩ := h
          subst hmp
          exact ⟨rfl, rfl, rfl, Or.inr ⟨hb.symm, l, rfl, rfl⟩⟩

/-- The length chosen by `chunk_alloc` never takes `used` past `capacity`,
whatever the request: the test `oldn + chunk_len > cap` is made on the very
value that is stored. -/
theorem chunk_alloc_len_le_cap {mp : ThreadCacheMemPool} {request l : Nat}
    (hinv : mp.n ≤ mp.c) (hc : mp.c < 2 ^ 64)
    (h : chunk_alloc_len mp request = some l) : tosize (mp.n + l) ≤ mp.c := by
  unfold chunk_alloc_len at h
  simp only at h
  generalize chunk_len_fix mp (pow2_align_up request mp.m_chunk_size) = l1 at h
  split at h
  · split at h
    · exact absurd h (by simp)
    · simp only [Option.some.injEq] at h
      subst h
      rw [size_sub_of_le hinv hc]
      have : mp.n + (mp.c - mp.n) = mp.c := by omega
      rw [this, tosize_of_lt hc]
  · rename_i hle
    simp only [Option.some.injEq] at h
    subst h
    exact Nat.le_of_not_lt hle

/-- The length chosen by `tc_populate` never takes `used` past `capacity`. -/
theorem tc_populate_len_le_cap {mp : ThreadCacheMemPool} {sz : Nat}
    (hinv : mp.n ≤ mp.c) (hc : mp.c < 2 ^ 64) :
    tosize (mp.n + tc_populate_len mp sz) ≤ mp.c := by
  unfold tc_populate_len
  simp only
  generalize populate_len_fix mp (pow2_align_down sz mp.m_chunk_size) = l1
  split
  · rw [size_sub_of_le hinv hc]
    have : mp.n + (mp.c - mp.n) = mp.c := by omega
    rw [this, tosize_of_lt hc]
  · rename_i hle
    exact Nat.le_of_not_lt hle

/-- What `tc_populate` does to `n` and `c`. -/
theorem tc_populate_used {P : Params} {fuel : Nat} {mp mp1 : ThreadCacheMemPool}
    {tid sz : Nat} (h : tc_populate P fuel mp tid sz = some mp1) :
    mp1.c = mp.c ∧ mp1.n = tosize (mp.n + tc_populate_len mp sz) := by
  unfold tc_populate at h
  simp only at h
  split at h
  · exact absurd h (by simp)
  · split at h
    · exact absurd h (by simp)
    · split at h
      · exact absurd h (by simp)
      · simp only [Option.some.injEq] at h
        subst h
        exact ⟨rfl, rfl⟩

/-- What `alloc_slow_path` does to `n` and `c`. -/
theorem alloc_slow_path_used {P : Params} {fuel : Nat} {mp mp1 : ThreadCacheMemPool}
    {tid request res : Nat} (h : alloc_slow_path P fuel mp tid request = some (res, mp1)) :
    ∃ b mp2, chunk_alloc P fuel mp tid request = some (b, mp2) ∧ mp1.n = mp2.n ∧
      mp1.c = mp2.c := by
  unfold alloc_slow_path at h
  split at h
  · exact absurd h (by simp)
  · rename_i mp2 hca
    refine ⟨true, mp2, hca, ?_⟩
    split at h
    · exact absurd h (by simp)
    · split at h
      · exact absurd h (by simp)
      · simp only [Option.some.injEq, Prod.mk.injEq] at h
        obtain ⟨_, hmp⟩ := h
        subst hmp
        exact ⟨rfl, rfl⟩
  · rename_i mp2 hca
    simp only [Option.some.injEq, Prod.mk.injEq] at h
    obtain ⟨_, hmp⟩ := h
    subst hmp
    exact ⟨false, mp2, hca, rfl, rfl⟩

/-- The pool `alloc` either leaves `n` alone (served by the thread cache) or
changes it through one `chunk_alloc` of the rounded request. -/
theorem pool_alloc_used {P : Params} {fuel : Nat} {mp mp1 : ThreadCacheMemPool}
    {tid request res : Nat} (h : mp.alloc P fuel tid request = some (res, mp1)) :
    (res ≠ size_fail ∧ mp1.n = mp.n ∧ mp1.c = mp.c ∧
      ∃ c c1, mp.ctx tid = some c ∧
        alloc P fuel c (round_request P.AlignSize request) = some (res, c1)) ∨
    (∃ c c1 b mp2, mp.ctx tid = some c ∧
      alloc P fuel c (round_request P.AlignSize request) = some (size_fail, c1) ∧
      chunk_alloc P fuel (mp.put tid c1) tid (round_request P.AlignSize request)
        = some (b, mp2) ∧ mp1.n = mp2.n ∧ mp1.c = mp2.c) := by
  unfold ThreadCacheMemPool.alloc at h
  simp only at h
  split at h
  · exact absurd h (by simp)
  · rename_i c hctx
    split at h
    · exact absurd h (by simp)
    · rename_i r c1 hrun
      split at h
      · rename_i hne
        simp only [Option.some.injEq, Prod.mk.injEq] at h
        obtain ⟨hr, hmp⟩ := h
        subst hr hmp
        exact Or.inl ⟨Ne.symm hne, rfl, rfl, c, c1, hctx, hrun⟩
      · rename_i hne
        have hr : r = size_fail := by
          by_contra hx
          exact hne (Ne.symm hx)
        subst hr
        obtain ⟨b, mp2, hca, h1, h2⟩ := alloc_slow_path_used h
        exact Or.inr ⟨c, c1, b, mp2, hctx, hrun, hca, h1, h2⟩
/-- What the pool `alloc3` does to `n` and `c`: nothing when the thread cache
serves the call, one `chunk_alloc` otherwise. -/
theorem pool_alloc3_used {P : Params} {fuel : Nat} {mp mp1 : ThreadCacheMemPool}
    {tid oldpos oldlen newlen res : Nat}
    (h : mp.alloc3 P fuel tid oldpos oldlen newlen = some (res, mp1)) :
    (mp1.n = mp.n ∧ mp1.c = mp.c ∧ ∃ c r0 c1, mp.ctx tid = some c ∧
      alloc3 P fuel c oldpos (pow2_align_up oldlen P.AlignSize)
        (if P.AlignSize < sizeof_link P.AlignSize
          then max (sizeof_link P.AlignSize) (pow2_align_up newlen P.AlignSize)
          else pow2_align_up newlen P.AlignSize) = some (r0, c1) ∧ r0 ≠ size_fail) ∨
    (∃ c1 b mp2, chunk_alloc P fuel (mp.put tid c1) tid
        (if P.AlignSize < sizeof_link P.AlignSize
          then max (sizeof_link P.AlignSize) (pow2_align_up newlen P.AlignSize)
          else pow2_align_up newlen P.AlignSize) = some (b, mp2) ∧
      mp1.n = mp2.n ∧ mp1.c = mp2.c) := by
  unfold ThreadCacheMemPool.alloc3 at h
  simp only at h
  split at h
  · exact absurd h (by simp)
  · rename_i c hctx
    split at h
    · exact absurd h (by simp)
    · rename_i r c1 hrun
      split at h
      · right
        split at h
        · exact absurd h (by simp)
        · rename_i mp2 hca
          refine ⟨c1, true, mp2, hca, ?_⟩
          split at h
          · exact absurd h (by simp)
          · split at h
            · exact absurd h (by simp)
            · split at h
              · split at h
                · exact absurd h (by simp)
                · simp only [Option.some.injEq, Prod.mk.injEq] at h
                  obtain ⟨_, hmp⟩ := h
                  subst hmp
                  exact ⟨rfl, rfl⟩
              · simp only [Option.some.injEq, Prod.mk.injEq] at h
                obtain ⟨_, hmp⟩ := h
                subst hmp
                exact ⟨rfl, rfl⟩
        · rename_i mp2 hca
          simp only [Option.some.injEq, Prod.mk.injEq] at h
          obtain ⟨_, hmp⟩ := h
          subst hmp
          exact ⟨c1, false, mp2, hca, rfl, rfl⟩
      · rename_i hne
        simp only [Option.some.injEq, Prod.mk.injEq] at h
        obtain ⟨hr, hmp⟩ := h
        subst hmp
        exact Or.inl ⟨rfl, rfl, c, r, c1, hctx, hrun, fun hx => hne hx.symm⟩

/-- The pool `sfree` does not touch `n` and `c`. -/
theorem pool_sfree_used {P : Params} {fuel : Nat} {mp mp1 : ThreadCacheMemPool}
    {tid pos len : Nat} (h : mp.sfree P fuel tid pos len = some mp1) :
    mp1.n = mp.n ∧ mp1.c = mp.c := by
  unfold ThreadCacheMemPool.sfree at h
  split at h
  · exact absurd h (by simp)
  · split at h
    · exact absurd h (by simp)
    · simp only [Option.some.injEq] at h
      subst h
      exact ⟨rfl, rfl⟩

/-- C9: `used ≤ capacity` (`mem::n ≤ mem::c`) is preserved, and `capacity`
kept, by `chunk_alloc`, by the pool's `alloc`, `alloc3` and `sfree`, and by
`tc_populate`, for every request and every populate size, whether the call
succeeds or returns the failure value. -/
theorem used_le_capacity_preserved (P : Params) (fuel : Nat) (mp : ThreadCacheMemPool)
    (tid : Nat) (hinv : mp.n ≤ mp.c) (hc : mp.c < 2 ^ 64) :
    (∀ request b mp1, chunk_alloc P fuel mp tid request = some (b, mp1) →
      mp1.n ≤ mp1.c ∧ mp1.c = mp.c) ∧
    (∀ request res mp1, mp.alloc P fuel tid request = some (res, mp1) →
      mp1.n ≤ mp1.c ∧ mp1.c = mp.c) ∧
    (∀ oldpos oldlen newlen res mp1,
      mp.alloc3 P fuel tid oldpos oldlen newlen = some (res, mp1) →
      mp1.n ≤ mp1.c ∧ mp1.c = mp.c) ∧
    (∀ pos len mp1, mp.sfree P fuel tid pos len = some mp1 →
      mp1.n ≤ mp1.c ∧ mp1.c = mp.c) ∧
    (∀ sz mp1, tc_populate P fuel mp tid sz = some mp1 → mp1.n ≤ mp1.c ∧ mp1.c = mp.c) := by
  have key : ∀ (mp0 : ThreadCacheMemPool) request b mp1, mp0.n = mp.n → mp0.c = mp.c →
      chunk_alloc P fuel mp0 tid request = some (b, mp1) → mp1.n ≤ mp1.c ∧ mp1.c = mp.c := by
    intro mp0 request b mp1 hn hcc h
    obtain ⟨h1, _, _, h2⟩ := chunk_alloc_used h
    rcases h2 with ⟨_, _, he⟩ | ⟨_, l, hl, hn1⟩
    · subst he
      exact ⟨by omega, hcc⟩
    · have := chunk_alloc_len_le_cap (by omega) (by omega) hl
      exact ⟨by omega, by omega⟩
  refine ⟨fun request b mp1 h => key mp request b mp1 rfl rfl h, ?_, ?_, ?_, ?_⟩
  · intro request res mp1 h
    rcases pool_alloc_used h with ⟨_, h1, h2, _⟩ | ⟨c, c1, b, mp2, _, _, hca, h1, h2⟩
    · exact ⟨by omega, h2⟩
    · have := key (mp.put tid c1) _ b mp2 rfl rfl hca
      exact ⟨by omega, by omega⟩
  · intro oldpos oldlen newlen res mp1 h
    rcases pool_alloc3_used h with ⟨h1, h2, _⟩ | ⟨c1, b, mp2, hca, h1, h2⟩
    · exact ⟨by omega, h2⟩
    · have := key (mp.put tid c1) _ b mp2 rfl rfl hca
      exact ⟨by omega, by omega⟩
  · intro pos len mp1 h
    obtain ⟨h1, h2⟩ := pool_sfree_used h
    exact ⟨by omega, h2⟩
  · intro sz mp1 h
    obtain ⟨h1, h2⟩ := tc_populate_used h
    have := @tc_populate_len_le_cap mp sz hinv hc
    exact ⟨by omega, h1⟩
theorem used_le_capacity_preserved_witness :
    (ex_pool_fresh.n ≤ ex_pool_fresh.c ∧ ex_pool_fresh.c < 2 ^ 64) ∧
    ∃ res mp1, ex_pool_fresh.alloc ex_params 0 0 8 = some (res, mp1) ∧
      mp1.n ≤ mp1.c ∧ mp1.c = ex_pool_fresh.c := by
  have h1 : ex_pool_fresh.n ≤ ex_pool_fresh.c := by decide
  have h2 : ex_pool_fresh.c < 2 ^ 64 := by decide
  refine ⟨⟨h1, h2⟩, 0, _, rfl, ?_⟩
  exact (used_le_capacity_preserved ex_params 0 ex_pool_fresh 0 h1 h2).2.1 8 0 _ rfl

theorem pow2_align_up_le (x a : Nat) : pow2_align_up x a ≤ x + (a - 1) := by
  unfold pow2_align_up
  exact le_trans (Nat.div_mul_le_self _ _) (tosize_le _)

theorem chunk_rem_le {endpos chunk : Nat} (h0 : 0 < chunk) (h64 : chunk < 2 ^ 64) :
    chunk_rem endpos chunk ≤ chunk - 1 := by
  unfold chunk_rem
  rw [size_sub_of_le h0 h64]
  exact Nat.and_le_right

theorem chunk_len_fix_le (mp : ThreadCacheMemPool) (l : Nat) (h0 : 0 < mp.m_chunk_size)
    (h64 : mp.m_chunk_size < 2 ^ 64) : chunk_len_fix mp l ≤ l + mp.m_chunk_size := by
  unfold chunk_len_fix
  have hr := @chunk_rem_le (tosize (mp.p + mp.n)) _ h0 h64
  split
  · refine le_trans (tosize_le _) ?_
    rw [size_sub_of_le (by omega) h64]
    omega
  · omega

theorem populate_len_fix_le (mp : ThreadCacheMemPool) (l : Nat) (h0 : 0 < mp.m_chunk_size)
    (h64 : mp.m_chunk_size < 2 ^ 64) : populate_len_fix mp l ≤ l + mp.m_chunk_size := by
  unfold populate_len_fix
  have hr := @chunk_rem_le (tosize (mp.p + mp.n)) _ h0 h64
  split
  · refine le_trans (tosize_le _) ?_
    rw [size_sub_of_le (by omega) h64]
    omega
  · omega

/-- Without wrap-around the length chosen by `chunk_alloc` does not take
`used` backwards. -/
theorem chunk_alloc_len_mono {mp : ThreadCacheMemPool} {request l : Nat}
    (hinv : mp.n ≤ mp.c) (hc : mp.c < 2 ^ 64) (h0 : 0 < mp.m_chunk_size)
    (hw : mp.n + request + 2 * mp.m_chunk_size ≤ 2 ^ 64)
    (h : chunk_alloc_len mp request = some l) : mp.n ≤ tosize (mp.n + l) := by
  unfold chunk_alloc_len at h
  simp only at h
  have hb := chunk_len_fix_le mp (pow2_align_up request mp.m_chunk_size) h0 (by omega)
  have hb2 := pow2_align_up_le request mp.m_chunk_size
  generalize chunk_len_fix mp (pow2_align_up request mp.m_chunk_size) = l1 at h hb
  split at h
  · split at h
    · exact absurd h (by simp)
    · simp only [Option.some.injEq] at h
      subst h
      rw [size_sub_of_le hinv hc]
      have : mp.n + (mp.c - mp.n) = mp.c := by omega
      rw [this, tosize_of_lt hc]
      exact hinv
  · simp only [Option.some.injEq] at h
    subst h
    rw [tosize_of_lt (by omega)]
    omega

/-- Without wrap-around the length chosen by `tc_populate` does not take
`used` backwards. -/
theorem tc_populate_len_mono {mp : ThreadCacheMemPool} {sz : Nat}
    (hinv : mp.n ≤ mp.c) (hc : mp.c < 2 ^ 64) (h0 : 0 < mp.m_chunk_size)
    (hw : mp.n + sz + mp.m_chunk_size < 2 ^ 64) :
    mp.n ≤ tosize (mp.n + tc_populate_len mp sz) := by
  unfold tc_populate_len
  simp only
  have hb := populate_len_fix_le mp (pow2_align_down sz mp.m_chunk_size) h0 (by omega)
  have hb2 : pow2_align_down sz mp.m_chunk_size ≤ sz := Nat.div_mul_le_self _ _
  generalize populate_len_fix mp (pow2_align_down sz mp.m_chunk_size) = l1 at hb
  split
  · rw [size_sub_of_le hinv hc]
    have : mp.n + (mp.c - mp.n) = mp.c := by omega
    rw [this, tosize_of_lt hc]
    exact hinv
  · rw [tosize_of_lt (by omega)]
    omega

theorem round_request_le {A : Nat} (hA : ValidAlign A) (x : Nat) :
    round_request A x ≤ x + (A - 1) := by
  unfold round_request
  rw [if_neg (Nat.not_lt.2 (sizeof_link_le hA))]
  exact pow2_align_up_le x A

/-- C10: `used` decreases.  In a pool with `used = 2 MiB` (capacity 4 MiB,
chunk size 2 MiB) a thread cache with an empty hot region calls
`alloc(2^64 - 2^21)`.  The thread cache fails, and `chunk_alloc` computes
`chunk_len = 2^64 - 2^21`; the sum `oldn + chunk_len` wraps around to 0, so
the capacity test `oldn + chunk_len > cap` and the assertion
`oldn + chunk_len <= cap` pass, and the CAS stores `used = 0`.
`set_hot_area(2 MiB, chunk_len)` leaves `m_hot_pos = 2 MiB` and
`m_hot_end = 0`, so the assertion `m_hot_pos <= m_hot_end` of the hot bump
is false in the retry; there `m_hot_pos + request` wraps to 0 as well, and
`alloc` returns offset `2^21` with `used = 0`, below the value before the
call. -/
theorem used_decreases_on_wrap :
    (∃ mp0 tc0 tc1,
      chunk_alloc ex_params 0 ex_pool_two 1 (2 ^ 64 - 2 ^ 21) = some (true, mp0) ∧
      mp0.n = 0 ∧ mp0.tls = [tc0, tc1] ∧ tc1.m_hot_pos = 2097152 ∧ tc1.m_hot_end = 0 ∧
      ¬ (tc1.m_hot_pos ≤ tc1.m_hot_end)) ∧
    ∃ mp1, ex_pool_two.alloc ex_params 0 1 (2 ^ 64 - 2 ^ 21) = some (2097152, mp1) ∧
      mp1.n = 0 ∧ mp1.n < ex_pool_two.n :=
  ⟨⟨_, _, _, rfl, rfl, rfl, rfl, rfl, by decide⟩, _, rfl, rfl, by decide⟩
@[simp] theorem sync_frag_size_n (mp : ThreadCacheMemPool) : (sync_frag_size mp).n = mp.n := rfl

@[simp] theorem sync_frag_size_full_n (mp : ThreadCacheMemPool) :
    (sync_frag_size_full mp).n = mp.n := rfl

/-- Monotonicity of `used` without wrap-around (the part of C10 that
holds): as long as the size arithmetic does not wrap around
`size_t` (`used + request + AlignSize + 2 * chunk_size ≤ 2^64`, respectively
`used + sz + chunk_size < 2^64` for `tc_populate`), `used` after
`chunk_alloc`, the pool's `alloc` and `alloc3`, and `tc_populate` is at least
`used` before; `sfree`, `sync_frag_size`, `sync_frag_size_full` and every
`alloc`/`alloc3` that the thread cache serves leave `used` unchanged (the
read-only statistics `slow_get_free_size`, `get_fastbin`, `get_huge_stat`
return no new pool state at all). -/
theorem used_monotone (P : Params) (fuel : Nat) (mp : ThreadCacheMemPool) (tid : Nat)
    (hA : ValidAlign P.AlignSize) (hinv : mp.n ≤ mp.c) (hc : mp.c < 2 ^ 64)
    (h0 : 0 < mp.m_chunk_size) :
    (∀ request b mp1, mp.n + request + 2 * mp.m_chunk_size ≤ 2 ^ 64 →
      chunk_alloc P fuel mp tid request = some (b, mp1) → mp.n ≤ mp1.n) ∧
    (∀ request res mp1, mp.n + request + P.AlignSize + 2 * mp.m_chunk_size ≤ 2 ^ 64 →
      mp.alloc P fuel tid request = some (res, mp1) → mp.n ≤ mp1.n) ∧
    (∀ oldpos oldlen newlen res mp1,
      mp.n + newlen + P.AlignSize + 2 * mp.m_chunk_size ≤ 2 ^ 64 →
      mp.alloc3 P fuel tid oldpos oldlen newlen = some (res, mp1) → mp.n ≤ mp1.n) ∧
    (∀ sz mp1, mp.n + sz + mp.m_chunk_size < 2 ^ 64 →
      tc_populate P fuel mp tid sz = some mp1 → mp.n ≤ mp1.n) ∧
    (∀ pos len mp1, mp.sfree P fuel tid pos len = some mp1 → mp1.n = mp.n) ∧
    (sync_frag_size mp).n = mp.n ∧ (sync_frag_size_full mp).n = mp.n ∧
    (∀ request res mp1 c r0 c1, mp.ctx tid = some c →
      alloc P fuel c (round_request P.AlignSize request) = some (r0, c1) → r0 ≠ size_fail →
      mp.alloc P fuel tid request = some (res, mp1) → mp1.n = mp.n) ∧
    (∀ oldpos oldlen newlen res mp1 c r0 c1, mp.ctx tid = some c →
      alloc3 P fuel c oldpos (pow2_align_up oldlen P.AlignSize)
        (pow2_align_up newlen P.AlignSize) = some (r0, c1) → r0 ≠ size_fail →
      mp.alloc3 P fuel tid oldpos oldlen newlen = some (res, mp1) → mp1.n = mp.n) := by
  have hlink : ¬ P.AlignSize < sizeof_link P.AlignSize := Nat.not_lt.2 (sizeof_link_le hA)
  have hA0 := hA.pos
  have key : ∀ (mp0 : ThreadCacheMemPool) request b mp1, mp0.n = mp.n → mp0.c = mp.c →
      mp0.m_chunk_size = mp.m_chunk_size →
      mp.n + request + 2 * mp.m_chunk_size ≤ 2 ^ 64 →
      chunk_alloc P fuel mp0 tid request = some (b, mp1) → mp.n ≤ mp1.n := by
    intro mp0 request b mp1 hn hcc hck hw h
    obtain ⟨_, _, _, h2⟩ := chunk_alloc_used h
    rcases h2 with ⟨_, _, he⟩ | ⟨_, l, hl, hn1⟩
    · subst he
      omega
    · have := chunk_alloc_len_mono (by omega) (by omega) (by omega) (by omega) hl
      omega
  refine ⟨fun request b mp1 hw h => key mp request b mp1 rfl rfl rfl hw h, ?_, ?_, ?_, ?_,
    rfl, rfl, ?_, ?_⟩
  · intro request res mp1 hw h
    rcases pool_alloc_used h with ⟨_, h1, _, _⟩ | ⟨c, c1, b, mp2, _, _, hca, h1, _⟩
    · omega
    · have hr := round_request_le hA request
      have := key (mp.put tid c1) _ b mp2 rfl rfl rfl (by omega) hca
      omega
  · intro oldpos oldlen newlen res mp1 hw h
    rcases pool_alloc3_used h with ⟨h1, _, _⟩ | ⟨c1, b, mp2, hca, h1, _⟩
    · omega
    · rw [if_neg hlink] at hca
      have hr := pow2_align_up_le newlen P.AlignSize
      have := key (mp.put tid c1) _ b mp2 rfl rfl rfl (by omega) hca
      omega
  · intro sz mp1 hw h
    obtain ⟨_, h2⟩ := tc_populate_used h
    have := @tc_populate_len_mono mp sz hinv hc h0 hw
    omega
  · intro pos len mp1 h
    exact (pool_sfree_used h).1
  · intro request res mp1 c r0 c1 hctx hrun hne h
    rcases pool_alloc_used h with ⟨_, h1, _, _⟩ | ⟨c2, c3, b, mp2, hctx2, hrun2, _, _, _⟩
    · exact h1
    · rw [hctx] at hctx2
      have hcc := Option.some.inj hctx2
      subst hcc
      rw [hrun] at hrun2
      simp only [Option.some.injEq, Prod.mk.injEq] at hrun2
      exact absurd hrun2.1 hne
  · intro oldpos oldlen newlen res mp1 c r0 c1 hctx hrun hne h
    unfold ThreadCacheMemPool.alloc3 at h
    simp only [hctx, if_neg hlink, hrun, if_neg (Ne.symm hne), Option.some.injEq,
      Prod.mk.injEq] at h
    obtain ⟨_, hmp⟩ := h
    subst hmp
    rfl

theorem used_monotone_witness :
    (ValidAlign ex_params.AlignSize ∧ ex_pool_fresh.n ≤ ex_pool_fresh.c ∧
      ex_pool_fresh.c < 2 ^ 64 ∧ 0 < ex_pool_fresh.m_chunk_size) ∧
    ∃ res mp1, ex_pool_fresh.alloc ex_params 0 0 8 = some (res, mp1) ∧
      ex_pool_fresh.n ≤ mp1.n := by
  have h1 : ex_pool_fresh.n ≤ ex_pool_fresh.c := by decide
  have h2 : ex_pool_fresh.c < 2 ^ 64 := by decide
  have h3 : 0 < ex_pool_fresh.m_chunk_size := by decide
  refine ⟨⟨ex_valid_align, h1, h2, h3⟩, 0, _, rfl, ?_⟩
  exact (used_monotone ex_params 0 ex_pool_fresh 0 ex_valid_align h1 h2 h3).2.1 8 0 _
    (by decide) rfl

/-- The counterexample to the growth claim: with `chunk_size` 4 MiB,
capacity 6 MiB and 4 MiB in use, `chunk_alloc(tc, 8)` returns true after
growing `used` by only 2 MiB, to an end that is not chunk-aligned. -/
theorem chunk_alloc_clamped :
    ∃ mp1, chunk_alloc ex_params 0 ex_pool_clamp 0 8 = some (true, mp1) ∧
      mp1.n = 6291456 ∧
      ¬ (ex_pool_clamp.n + max 8 ex_pool_clamp.m_chunk_size ≤ mp1.n) ∧
      ¬ ((ex_pool_clamp.p + mp1.n) % ex_pool_clamp.m_chunk_size = 0) :=
  ⟨_, rfl, rfl, by decide, by decide⟩

theorem pow2_align_up_spec {x a : Nat} (ha : 0 < a) (hx : 0 < x) (hw : x + a ≤ 2 ^ 64) :
    x ≤ pow2_align_up x a ∧ a ≤ pow2_align_up x a ∧ pow2_align_up x a % a = 0 := by
  unfold pow2_align_up
  rw [tosize_of_lt (by omega)]
  refine ⟨?_, ?_, Nat.mul_mod_left _ _⟩
  · have h1 := Nat.div_add_mod (x + (a - 1)) a
    have h2 := Nat.mod_lt (x + (a - 1)) ha
    have h3 : a * ((x + (a - 1)) / a) = (x + (a - 1)) / a * a := Nat.mul_comm _ _
    omega
  · have h1 : 1 ≤ (x + (a - 1)) / a := (Nat.one_le_div_iff ha).2 (by omega)
    calc a = 1 * a := (Nat.one_mul a).symm
      _ ≤ (x + (a - 1)) / a * a := Nat.mul_le_mul_right a h1

/-- C8 (amended): a `chunk_alloc(tc, request)` that returns true, for a
positive request and without `size_t` wrap-around
(`base + used + request + 2 * chunk_size ≤ 2^64`), has increased `used` by at
least `request`; and either it has increased `used` by at least
`max(request, chunk_size)` and left `base + used` a multiple of `chunk_size`,
or it was cut at the capacity and has left `used = capacity`. -/
theorem chunk_alloc_growth (P : Params) (fuel : Nat) (mp mp1 : ThreadCacheMemPool)
    (tid request : Nat) (hchunk : ∃ j, j < 64 ∧ mp.m_chunk_size = 2 ^ j)
    (hinv : mp.n ≤ mp.c) (hc : mp.c < 2 ^ 64) (hreq : 0 < request)
    (hw : mp.p + mp.n + request + 2 * mp.m_chunk_size ≤ 2 ^ 64)
    (h : chunk_alloc P fuel mp tid request = some (true, mp1)) :
    mp.n + request ≤ mp1.n ∧ mp1.n ≤ mp.c ∧
    ((mp.n + max request mp.m_chunk_size ≤ mp1.n ∧
        (mp.p + mp1.n) % mp.m_chunk_size = 0) ∨ mp1.n = mp.c) := by
  have h0 : 0 < mp.m_chunk_size := by
    obtain ⟨j, _, hj⟩ := hchunk
    rw [hj]
    exact Nat.pos_pow_of_pos j (by norm_num)
  obtain ⟨_, _, _, h2⟩ := chunk_alloc_used h
  rcases h2 with ⟨hb, _, _⟩ | ⟨_, l, hl, hn1⟩
  · exact absurd hb (by simp)
  have hcap := chunk_alloc_len_le_cap hinv hc hl
  unfold chunk_alloc_len at hl
  simp only at hl
  obtain ⟨ha1, ha2, ha3⟩ := @pow2_align_up_spec request mp.m_chunk_size h0 hreq (by omega)
  have hb2 := pow2_align_up_le request mp.m_chunk_size
  have hfix : chunk_len_fix mp (pow2_align_up request mp.m_chunk_size)
      ≤ pow2_align_up request mp.m_chunk_size + mp.m_chunk_size ∧
      pow2_align_up request mp.m_chunk_size
        ≤ chunk_len_fix mp (pow2_align_up request mp.m_chunk_size) ∧
      (mp.p + mp.n + chunk_len_fix mp (pow2_align_up request mp.m_chunk_size))
        % mp.m_chunk_size = 0 := by
    unfold chunk_len_fix
    rw [chunk_rem_eq hchunk, tosize_of_lt (by omega : mp.p + mp.n < 2 ^ 64)]
    have hr := Nat.mod_lt (mp.p + mp.n) h0
    obtain ⟨t, ht⟩ := Nat.dvd_of_mod_eq_zero ha3
    split
    · rw [size_sub_of_le (by omega) (by omega), tosize_of_lt (by omega)]
      refine ⟨by omega, by omega, ?_⟩
      have h1 := Nat.div_add_mod (mp.p + mp.n) mp.m_chunk_size
      have h3 : mp.p + mp.n + (pow2_align_up request mp.m_chunk_size
          + (mp.m_chunk_size - (mp.p + mp.n) % mp.m_chunk_size))
          = mp.m_chunk_size * ((mp.p + mp.n) / mp.m_chunk_size + t + 1) := by
        rw [Nat.mul_add, Nat.mul_add, ← ht]
        omega
      rw [h3]
      exact Nat.mul_mod_right _ _
    · rename_i hz
      have hz2 : (mp.p + mp.n) % mp.m_chunk_size = 0 := by
        by_contra hx
        exact hz hx
      refine ⟨by omega, le_refl _, ?_⟩
      rw [Nat.add_mod, hz2, ha3]
      simp
  generalize chunk_len_fix mp (pow2_align_up request mp.m_chunk_size) = l1 at hl hfix
  obtain ⟨hf1, hf2, hf3⟩ := hfix
  split at hl
  · split at hl
    · exact absurd hl (by simp)
    · rename_i hle
      simp only [Option.some.injEq] at hl
      subst hl
      rw [size_sub_of_le hinv hc] at hn1 hcap
      have e : mp.n + (mp.c - mp.n) = mp.c := by omega
      rw [e, tosize_of_lt hc] at hn1
      rw [tosize_of_lt (by omega)] at hle
      exact ⟨by omega, by omega, Or.inr hn1⟩
  · simp only [Option.some.injEq] at hl
    subst hl
    rw [tosize_of_lt (by omega)] at hn1 hcap
    refine ⟨by omega, by omega, Or.inl ⟨?_, ?_⟩⟩
    · rw [hn1]
      have : max request mp.m_chunk_size ≤ l1 := max_le (by omega) (by omega)
      omega
    · rw [hn1, ← Nat.add_assoc]
      exact hf3

theorem chunk_alloc_growth_witness :
    ((∃ j, j < 64 ∧ ex_pool_fresh.m_chunk_size = 2 ^ j) ∧ ex_pool_fresh.n ≤ ex_pool_fresh.c ∧
      ex_pool_fresh.c < 2 ^ 64 ∧ 0 < 8 ∧
      ex_pool_fresh.p + ex_pool_fresh.n + 8 + 2 * ex_pool_fresh.m_chunk_size ≤ 2 ^ 64) ∧
    ∃ mp1, chunk_alloc ex_params 0 ex_pool_fresh 0 8 = some (true, mp1) ∧
      ex_pool_fresh.n + 8 ≤ mp1.n ∧ mp1.n ≤ ex_pool_fresh.c ∧
      ((ex_pool_fresh.n + max 8 ex_pool_fresh.m_chunk_size ≤ mp1.n ∧
        (ex_pool_fresh.p + mp1.n) % ex_pool_fresh.m_chunk_size = 0) ∨
        mp1.n = ex_pool_fresh.c) := by
  have h1 : ∃ j, j < 64 ∧ ex_pool_fresh.m_chunk_size = 2 ^ j := ⟨21, by norm_num, rfl⟩
  have h2 : ex_pool_fresh.n ≤ ex_pool_fresh.c := by decide
  have h3 : ex_pool_fresh.c < 2 ^ 64 := by decide
  have h5 : ex_pool_fresh.p + ex_pool_fresh.n + 8 + 2 * ex_pool_fresh.m_chunk_size ≤ 2 ^ 64 := by
    decide
  exact ⟨⟨h1, h2, h3, by norm_num, h5⟩, _, rfl,
    chunk_alloc_growth ex_params 0 ex_pool_fresh _ 0 8 h1 h2 h3 (by norm_num) h5 rfl⟩

/-! ## The huge list as a skiplist -/

theorem level_nil (k : Nat) : level k [] = [] := rfl

theorem level_append (k : Nat) (es fs : List (Nat × Nat)) :
    level k (es ++ fs) = level k es ++ level k fs := by
  simp [level]

theorem level_cons_pos {k : Nat} {e : Nat × Nat} (es : List (Nat × Nat)) (h : k < e.2) :
    level k (e :: es) = e.1 :: level k es := by
  simp [level, h]

theorem level_cons_neg {k : Nat} {e : Nat × Nat} (es : List (Nat × Nat)) (h : ¬ k < e.2) :
    level k (e :: es) = level k es := by
  simp [level, h]

theorem level_concat_pos {k : Nat} {e : Nat × Nat} (es : List (Nat × Nat)) (h : k < e.2) :
    level k (es ++ [e]) = level k es ++ [e.1] := by
  rw [level_append, level_cons_pos _ h, level_nil]

theorem level_concat_neg {k : Nat} {e : Nat × Nat} (es : List (Nat × Nat)) (h : ¬ k < e.2) :
    level k (es ++ [e]) = level k es := by
  rw [level_append, level_cons_neg _ h, level_nil, List.append_nil]

theorem mem_level {k a : Nat} {es : List (Nat × Nat)} :
    a ∈ level k es ↔ ∃ h, (a, h) ∈ es ∧ k < h := by
  simp [level]

theorem level_zero {es : List (Nat × Nat)} (h : ∀ e, e ∈ es → 1 ≤ e.2) :
    level 0 es = es.map Prod.fst := by
  unfold level
  rw [List.filter_eq_self.2]
  intro e he
  simpa using h e he

theorem level_eq_nil_of_height {k : Nat} {es : List (Nat × Nat)} (h : ∀ e, e ∈ es → e.2 ≤ k) :
    level k es = [] := by
  unfold level
  rw [List.map_eq_nil_iff, List.filter_eq_nil_iff]
  intro e he
  have := h e he
  simp only [decide_eq_true_eq]
  omega

theorem level_length_le (k : Nat) (es : List (Nat × Nat)) : (level k es).length ≤ es.length := by
  unfold level
  rw [List.length_map]
  exact List.length_filter_le _ _

theorem last_ptr_append (p : NodePtr) (l1 l2 : List Nat) :
    last_ptr p (l1 ++ l2) = last_ptr (last_ptr p l1) l2 := by
  induction l1 generalizing p with
  | nil => rfl
  | cons a l ih => exact ih _

theorem last_ptr_concat (p : NodePtr) (l : List Nat) (a : Nat) :
    last_ptr p (l ++ [a]) = NodePtr.node a := by
  rw [last_ptr_append]
  rfl

theorem last_ptr_cases (p : NodePtr) (l : List Nat) :
    (l = [] ∧ last_ptr p l = p) ∨ (∃ l1 a, l = l1 ++ [a] ∧ last_ptr p l = NodePtr.node a) := by
  induction l using List.reverseRecOn with
  | nil => exact Or.inl ⟨rfl, rfl⟩
  | append_singleton l1 a _ => exact Or.inr ⟨l1, a, rfl, last_ptr_concat p l1 a⟩

theorem seg_append {A : Nat} {m : Nat → Nat} {k : Nat} (l1 l2 : List Nat) (nx e : Nat) :
    Seg A m k nx (l1 ++ l2) e ↔ ∃ mid, Seg A m k nx l1 mid ∧ Seg A m k mid l2 e := by
  induction l1 generalizing nx with
  | nil =>
    constructor
    · intro h
      exact ⟨nx, rfl, h⟩
    · rintro ⟨mid, h1, h2⟩
      have : nx = mid := h1
      subst this
      exact h2
  | cons a l ih =>
    constructor
    · rintro ⟨h1, h2⟩
      obtain ⟨mid, h3, h4⟩ := (ih _).1 h2
      exact ⟨mid, ⟨h1, h3⟩, h4⟩
    · rintro ⟨mid, ⟨h1, h3⟩, h4⟩
      exact ⟨h1, (ih _).2 ⟨mid, h3, h4⟩⟩

/-- A chain only depends on the `next[k]` words of its nodes. -/
theorem seg_congr {A : Nat} {m m1 : Nat → Nat} {k : Nat} (l : List Nat) (nx e : Nat)
    (h : ∀ a, a ∈ l → m1 (a + sizeof_link A * (1 + k)) = m (a + sizeof_link A * (1 + k))) :
    Seg A m1 k nx l e ↔ Seg A m k nx l e := by
  induction l generalizing nx with
  | nil => exact Iff.rfl
  | cons a l ih =>
    have ha := h a (List.mem_cons_self _ _)
    have hl : ∀ b, b ∈ l →
        m1 (b + sizeof_link A * (1 + k)) = m (b + sizeof_link A * (1 + k)) :=
      fun b hb => h b (List.mem_cons_of_mem _ hb)
    constructor
    · rintro ⟨h1, h2⟩
      rw [ha] at h2
      exact ⟨h1, (ih _ hl).1 h2⟩
    · rintro ⟨h1, h2⟩
      refine ⟨h1, ?_⟩
      rw [ha]
      exact (ih _ hl).2 h2

/-- Going down one level: the level-`k` list splits at the node where the
level-`k+1` walk ended. -/
theorem level_split (k : Nat) (es : List (Nat × Nat)) :
    ∃ Q R, level k es = Q ++ R ∧
      last_ptr NodePtr.head Q = last_ptr NodePtr.head (level (k + 1) es) ∧
      last_ptr (last_ptr NodePtr.head (level (k + 1) es)) R
        = last_ptr NodePtr.head (level k es) := by
  induction es using List.reverseRecOn with
  | nil => exact ⟨[], [], rfl, rfl, rfl⟩
  | append_singleton es e ih =>
    obtain ⟨Q, R, h1, h2, h3⟩ := ih
    by_cases hk1 : k + 1 < e.2
    · have hk : k < e.2 := by omega
      refine ⟨level k es ++ [e.1], [], ?_, ?_, ?_⟩
      · rw [level_concat_pos _ hk, List.append_nil]
      · rw [level_concat_pos _ hk1, last_ptr_concat, last_ptr_concat]
      · rw [level_concat_pos _ hk1, level_concat_pos _ hk, last_ptr_concat, last_ptr_concat]
        rfl
    · by_cases hk : k < e.2
      · refine ⟨Q, R ++ [e.1], ?_, ?_, ?_⟩
        · rw [level_concat_pos _ hk, h1, List.append_assoc]
        · rw [level_concat_neg _ hk1, h2]
        · rw [level_concat_neg _ hk1, level_concat_pos _ hk, last_ptr_concat, last_ptr_concat]
      · refine ⟨Q, R, ?_, ?_, ?_⟩
        · rw [level_concat_neg _ hk, h1]
        · rw [level_concat_neg _ hk1, h2]
        · rw [level_concat_neg _ hk1, level_concat_neg _ hk, h3]
theorem shl_off_link {A a : Nat} (hA : ValidAlign A) (hal : a % A = 0) (ha : a < 2 ^ 64) :
    shl_off A (a / A) = a := by
  rw [shl_off_eq hA]
  exact mul_div_tosize hA hal ha

theorem node_next_head {A : Nat} (c : Ctx) {k : Nat} (hk : k < skip_list_level_max) :
    node_next A c NodePtr.head k = some (c.tc.huge_list.next k) := by
  unfold node_next
  rw [if_pos hk]

theorem node_next_at {A : Nat} (c : Ctx) (a : Nat) {k : Nat} (hk : k < skip_list_level_max) :
    node_next A c (NodePtr.node a) k = some (c.mem (a + sizeof_link A * (1 + k))) := by
  unfold node_next
  rw [if_pos hk]

/-- The inner search loop on a chain `R ++ B` whose nodes `R` are smaller
than `len` and whose next node, if any, is not: it stops at the last node of
`R`. -/
theorem walk_lt_spec {A : Nat} (hA : ValidAlign A) (c : Ctx) (k len : Nat)
    (hk : k < skip_list_level_max) (R B : List Nat) :
    ∀ (p : NodePtr) (n2 : Option NodePtr) (fuel nx : Nat),
      node_next A c p k = some nx →
      Seg A c.mem k nx (R ++ B) (list_tail A) →
      (∀ a, a ∈ R → c.mem a < len) →
      (∀ b, B.head? = some b → ¬ c.mem b < len) →
      (∀ a, a ∈ R ++ B → a % A = 0 ∧ a / A < list_tail A ∧ a < 2 ^ 64) →
      R.length < fuel →
      walk_lt A c k len fuel p n2 = some (last_ptr p R, walk_lt_n2 p n2 R B) := by
  induction R with
  | nil =>
    intro p n2 fuel nx hnx hseg _ hB haddr hfuel
    obtain ⟨f, rfl⟩ : ∃ f, fuel = f + 1 := ⟨fuel - 1, by simp at hfuel; omega⟩
    unfold walk_lt
    rw [hnx]
    cases B with
    | nil =>
      have : nx = list_tail A := hseg
      simp [this, last_ptr, walk_lt_n2]
    | cons b B1 =>
      obtain ⟨h1, _⟩ := hseg
      obtain ⟨hb1, hb2, hb3⟩ := haddr b (by simp)
      have hne : nx ≠ list_tail A := by rw [h1]; exact Nat.ne_of_lt hb2
      have hnode : node_of_link A nx = NodePtr.node b := by
        unfold node_of_link
        rw [h1, shl_off_link hA hb1 hb3]
      have hsz := hB b rfl
      simp only [hne, ne_eq, not_false_eq_true, if_true, hnode, node_size, hsz, if_false]
      rfl
  | cons a R1 ih =>
    intro p n2 fuel nx hnx hseg hR hB haddr hfuel
    obtain ⟨f, rfl⟩ : ∃ f, fuel = f + 1 := ⟨fuel - 1, by simp at hfuel; omega⟩
    obtain ⟨h1, h2⟩ := hseg
    obtain ⟨ha1, ha2, ha3⟩ := haddr a (by simp)
    have hne : nx ≠ list_tail A := by rw [h1]; exact Nat.ne_of_lt ha2
    have hnode : node_of_link A nx = NodePtr.node a := by
      unfold node_of_link
      rw [h1, shl_off_link hA ha1 ha3]
    have hsz := hR a (by simp)
    unfold walk_lt
    rw [hnx]
    simp only [hne, ne_eq, not_false_eq_true, if_true, hnode, node_size, hsz]
    rw [ih (NodePtr.node a) (some (NodePtr.node a)) f _ (node_next_at c a hk) h2
      (fun x hx => hR x (List.mem_cons_of_mem _ hx)) hB
      (fun x hx => haddr x (List.mem_cons_of_mem _ hx)) (by simp at hfuel; omega)]
    congr 2
    cases B with
    | nil =>
      cases R1 with
      | nil => rfl
      | cons r R2 => rfl
    | cons b B1 => rfl

/-- The chain of level `k` from the head, cut after the nodes `Q`: the rest
starts at the `next[k]` word of the node `last_ptr head Q`. -/
theorem seg_after {A : Nat} (c : Ctx) {k : Nat} (hk : k < skip_list_level_max)
    (Q M : List Nat) (e : Nat)
    (h : Seg A c.mem k (c.tc.huge_list.next k) (Q ++ M) e) :
    ∃ nx, node_next A c (last_ptr NodePtr.head Q) k = some nx ∧ Seg A c.mem k nx M e ∧
      Seg A c.mem k (c.tc.huge_list.next k) Q nx := by
  obtain ⟨mid, h1, h2⟩ := (seg_append Q M _ e).1 h
  rcases last_ptr_cases NodePtr.head Q with ⟨hq, hp⟩ | ⟨Q1, a, hq, hp⟩
  · subst hq
    have : c.tc.huge_list.next k = mid := h1
    rw [hp, node_next_head c hk]
    exact ⟨_, rfl, by rw [this]; exact h2, rfl⟩
  · subst hq
    obtain ⟨mid1, h3, h4, h5⟩ := (seg_append Q1 [a] _ mid).1 h1
    have h5 : c.mem (a + sizeof_link A * (1 + k)) = mid := h5
    rw [hp, node_next_at c a hk]
    exact ⟨_, rfl, by rw [h5]; exact h2, by rw [h5]; exact h1⟩
theorem last_ptr_mem (p : NodePtr) (l : List Nat) :
    last_ptr p l = p ∨ ∃ a, a ∈ l ∧ last_ptr p l = NodePtr.node a := by
  rcases last_ptr_cases p l with ⟨_, h⟩ | ⟨l1, a, hl, h⟩
  · exact Or.inl h
  · exact Or.inr ⟨a, by rw [hl]; simp, h⟩

theorem level_subset_zero {k a : Nat} {es : List (Nat × Nat)} (h : a ∈ level k es) :
    a ∈ level 0 es := by
  obtain ⟨x, h1, h2⟩ := mem_level.1 h
  exact mem_level.2 ⟨x, h1, by omega⟩

theorem sizeof_huge_link_pos (A : Nat) : 0 < sizeof_huge_link A := by
  unfold sizeof_huge_link skip_list_level_max
  rcases sizeof_link_cases A with h | h <;> rw [h] <;> norm_num

theorem SkipWF.addr_level {A : Nat} {c : Ctx} {es : List (Nat × Nat)} (hwf : SkipWF A c es)
    {k a : Nat} (h : a ∈ level k es) : a % A = 0 ∧ a / A < list_tail A ∧ a < 2 ^ 64 := by
  obtain ⟨x, h1, _⟩ := mem_level.1 h
  obtain ⟨h3, h4, h5, h7⟩ := hwf.addr _ h1
  have h6 := sizeof_huge_link_pos A
  exact ⟨h3, h4, by simp only at h5 h7; omega⟩

/-- The search of `sfree` and of the large path of `alloc` on a well-formed
list whose entries split into `small` (sizes below `len`) and `big` (the
rest): `update[j]` is the last node of `small` on level `j` (the head if
there is none), and `n2` ends on the first entry of `big`. -/
theorem find_lt_spec {A : Nat} (hA : ValidAlign A) (c : Ctx) (es small big : List (Nat × Nat))
    (len fuel : Nat) (hwf : SkipWF A c es) (hes : es = small ++ big)
    (hs : ∀ e, e ∈ small → c.mem e.1 < len) (hb : ∀ e, e ∈ big → ¬ c.mem e.1 < len)
    (hfuel : es.length < fuel) :
    ∀ k, k ≤ c.tc.huge_list.size → ∀ (n2 : Option NodePtr) (u : UpdateArr),
      ∃ n2r ur, find_lt A c len fuel k (last_ptr NodePtr.head (level k small)) n2 u
          = some (last_ptr NodePtr.head (level 0 small), n2r, ur) ∧
        (∀ j, j < k → ur j = some (last_ptr NodePtr.head (level j small))) ∧
        (∀ j, k ≤ j → ur j = u j) ∧
        (0 < k → ∀ b bs, big = b :: bs → n2r = some (NodePtr.node b.1)) ∧
        (big = [] → (n2 = none ∨ ∃ a, a ∈ level 0 small ∧ n2 = some (NodePtr.node a)) →
          (n2r = none ∨ ∃ a, a ∈ level 0 small ∧ n2r = some (NodePtr.node a))) := by
  intro k
  induction k with
  | zero =>
    intro _ n2 u
    exact ⟨n2, u, rfl, fun j hj => absurd hj (Nat.not_lt_zero j), fun _ _ => rfl,
      fun h => absurd h (Nat.lt_irrefl 0), fun _ h => h⟩
  | succ k ih =>
    intro hk n2 u
    have hk8 : k < skip_list_level_max := lt_of_lt_of_le hk hwf.size_le
    obtain ⟨Q, R, hQR, hQ, hR⟩ := level_split k small
    have hchain := hwf.chain k hk
    rw [hes, level_append, hQR, List.append_assoc] at hchain
    obtain ⟨nx, hnx, hseg, _⟩ := seg_after c hk8 Q (R ++ level k big) _ hchain
    rw [hQ] at hnx
    have hRmem : ∀ a, a ∈ R → a ∈ level k small := fun a ha => by rw [hQR]; simp [ha]
    have hwalk := walk_lt_spec hA c k len hk8 R (level k big)
      (last_ptr NodePtr.head (level (k + 1) small)) n2 fuel nx hnx hseg
      (fun a ha => by
        obtain ⟨x, h1, _⟩ := mem_level.1 (hRmem a ha)
        exact hs _ h1)
      (fun b hb1 => by
        have : b ∈ level k big := List.mem_of_mem_head? hb1
        obtain ⟨x, h1, _⟩ := mem_level.1 this
        exact hb _ h1)
      (fun a ha => by
        apply hwf.addr_level (k := k)
        rw [hes, level_append, hQR]
        rcases List.mem_append.1 ha with h | h
        · simp [h]
        · simp [h])
      (by
        have h1 : R.length ≤ (level k small).length := by rw [hQR]; simp
        have h2 := level_length_le k small
        have h3 : small.length ≤ es.length := by rw [hes]; simp
        omega)
    rw [hR] at hwalk
    obtain ⟨n2r, ur, hrun, hu1, hu2, hn1, hn2⟩ := ih (by omega)
      (walk_lt_n2 (last_ptr NodePtr.head (level (k + 1) small)) n2 R (level k big))
      (Function.update u k (some (last_ptr NodePtr.head (level k small))))
    refine ⟨n2r, ur, ?_, ?_, ?_, ?_, ?_⟩
    · unfold find_lt
      rw [hwalk]
      simp only [upd_set, hk8, if_true]
      exact hrun
    · intro j hj
      rcases Nat.lt_or_ge j k with h | h
      · exact hu1 j h
      · have : j = k := by omega
        subst this
        rw [hu2 j (le_refl _)]
        exact Function.update_same _ _ _
    · intro j hj
      rw [hu2 j (by omega)]
      exact Function.update_noteq (by omega) _ _
    · intro _ b bs hbig
      rcases Nat.eq_zero_or_pos k with h0 | h0
      · subst h0
        have hb2 : 0 < b.2 := by
          have := (hwf.height b (by rw [hes, hbig]; simp)).1
          omega
        unfold find_lt at hrun
        simp only [Option.some.injEq, Prod.mk.injEq] at hrun
        rw [← hrun.2.1, hbig, level_cons_pos _ hb2]
        rfl
      · exact hn1 h0 b bs hbig
    · intro hbig hn
      apply hn2 hbig
      rw [hbig, level_nil]
      cases R with
      | nil => exact hn
      | cons r R1 =>
        right
        rcases last_ptr_cases (last_ptr NodePtr.head (level (k + 1) small)) (r :: R1)
          with ⟨h4, _⟩ | ⟨l1, a, h4, h5⟩
        · exact absurd h4 (by simp)
        · have hmemR : a ∈ r :: R1 := by rw [h4]; simp
          exact ⟨a, level_subset_zero (hRmem a hmemR), by
            simp only [walk_lt_n2]
            rw [h5]⟩
/-- The last entry that is linked on level `k`. -/
theorem last_entry_above (k : Nat) (es : List (Nat × Nat)) (h : level k es ≠ []) :
    ∃ es1 z es2, es = es1 ++ z :: es2 ∧ k < z.2 ∧ level k es2 = [] := by
  induction es using List.reverseRecOn with
  | nil => exact absurd rfl h
  | append_singleton es e ih =>
    by_cases hk : k < e.2
    · exact ⟨es, e, [], rfl, hk, rfl⟩
    · rw [level_concat_neg _ hk] at h
      obtain ⟨es1, z, es2, h1, h2, h3⟩ := ih h
      refine ⟨es1, z, es2 ++ [e], ?_, h2, ?_⟩
      · rw [h1]; simp
      · rw [level_concat_neg _ hk, h3]

/-- Going down one level in the search for the last node: the level-`k` list
splits after the node that precedes the last node of level `k + 1`. -/
theorem level_split_pred (k : Nat) (es : List (Nat × Nat)) (h : level k es ≠ []) :
    ∃ Q R, level k es = Q ++ R ∧ R ≠ [] ∧
      last_ptr NodePtr.head Q = last_ptr NodePtr.head (level (k + 1) es).dropLast ∧
      last_ptr (last_ptr NodePtr.head (level (k + 1) es).dropLast) R.dropLast
        = last_ptr NodePtr.head (level k es).dropLast ∧
      last_ptr (last_ptr NodePtr.head (level (k + 1) es).dropLast) R
        = last_ptr NodePtr.head (level k es) := by
  have fin : ∀ Q R, level k es = Q ++ R → R ≠ [] →
      last_ptr NodePtr.head Q = last_ptr NodePtr.head (level (k + 1) es).dropLast →
      ∃ Q R, level k es = Q ++ R ∧ R ≠ [] ∧
        last_ptr NodePtr.head Q = last_ptr NodePtr.head (level (k + 1) es).dropLast ∧
        last_ptr (last_ptr NodePtr.head (level (k + 1) es).dropLast) R.dropLast
          = last_ptr NodePtr.head (level k es).dropLast ∧
        last_ptr (last_ptr NodePtr.head (level (k + 1) es).dropLast) R
          = last_ptr NodePtr.head (level k es) := by
    intro Q R h1 h2 h3
    refine ⟨Q, R, h1, h2, h3, ?_, ?_⟩
    · rw [h1, List.dropLast_append_of_ne_nil _ h2, last_ptr_append, h3]
    · rw [h1, last_ptr_append, h3]
  by_cases h1 : level (k + 1) es = []
  · exact fin [] (level k es) rfl h (by rw [h1]; rfl)
  · obtain ⟨es1, z, es2, he, hz, h2⟩ := last_entry_above (k + 1) es h1
    obtain ⟨Q, R1, h3, h4, _⟩ := level_split k es1
    have hz0 : k < z.2 := by omega
    refine fin Q (R1 ++ z.1 :: level k es2) ?_ (by simp) ?_
    · rw [he, level_append, level_cons_pos _ hz0, h3, List.append_assoc]
    · rw [h4, he, level_append, level_cons_pos _ hz, h2]
      simp

/-- The inner loop of the search for the last node, on a chain `R`. -/
theorem walk_last_spec {A : Nat} (hA : ValidAlign A) (c : Ctx) (k : Nat)
    (hk : k < skip_list_level_max) (R : List Nat) :
    ∀ (q : NodePtr) (n1 : Option NodePtr) (fuel nx : Nat),
      node_next A c q k = some nx →
      Seg A c.mem k nx R (list_tail A) →
      (∀ a, a ∈ R → a % A = 0 ∧ a / A < list_tail A ∧ a < 2 ^ 64) →
      R.length < fuel →
      walk_last A c k fuel n1 q
        = some (if R = [] then n1 else some (last_ptr q R.dropLast), last_ptr q R) := by
  induction R with
  | nil =>
    intro q n1 fuel nx hnx hseg _ hfuel
    obtain ⟨f, rfl⟩ : ∃ f, fuel = f + 1 := ⟨fuel - 1, by simp at hfuel; omega⟩
    have : nx = list_tail A := hseg
    unfold walk_last
    rw [hnx]
    simp [this, last_ptr]
  | cons a R1 ih =>
    intro q n1 fuel nx hnx hseg haddr hfuel
    obtain ⟨f, rfl⟩ : ∃ f, fuel = f + 1 := ⟨fuel - 1, by simp at hfuel; omega⟩
    obtain ⟨h1, h2⟩ := hseg
    obtain ⟨ha1, ha2, ha3⟩ := haddr a (by simp)
    have hne : nx ≠ list_tail A := by rw [h1]; exact Nat.ne_of_lt ha2
    have hnode : node_of_link A nx = NodePtr.node a := by
      unfold node_of_link
      rw [h1, shl_off_link hA ha1 ha3]
    unfold walk_last
    rw [hnx]
    simp only [hne, ne_eq, not_false_eq_true, if_true, hnode]
    rw [ih (NodePtr.node a) (some q) f _ (node_next_at c a hk) h2
      (fun x hx => haddr x (List.mem_cons_of_mem _ hx)) (by simp at hfuel; omega)]
    cases R1 with
    | nil => simp [last_ptr]
    | cons r R2 => simp [last_ptr]

theorem SkipWF.level_ne_nil {A : Nat} {c : Ctx} {es : List (Nat × Nat)} (hwf : SkipWF A c es)
    {k : Nat} (hk : k < c.tc.huge_list.size) : level k es ≠ [] := by
  have h0 : c.tc.huge_list.size ≠ 0 := by omega
  have htop := hwf.top h0
  obtain ⟨a, ha⟩ := List.exists_mem_of_ne_nil _ htop
  obtain ⟨x, h1, h2⟩ := mem_level.1 ha
  exact List.ne_nil_of_mem (mem_level.2 ⟨x, h1, by omega⟩)

/-- The small-request search on a well-formed non-empty list: it ends on the
last node of level 0, and `update[j]` is the node before the last node of
level `j` (the head if that level has a single node). -/
theorem find_last_spec {A : Nat} (hA : ValidAlign A) (c : Ctx) (es : List (Nat × Nat))
    (fuel : Nat) (hwf : SkipWF A c es) (hfuel : es.length < fuel) :
    ∀ k, k < c.tc.huge_list.size → ∀ (n1 : Option NodePtr) (u : UpdateArr),
      ∃ ur, find_last A c fuel k n1
          (last_ptr NodePtr.head (level (k + 1) es).dropLast) u
          = some (last_ptr NodePtr.head (level 0 es), ur) ∧
        (∀ j, j ≤ k → ur j = some (last_ptr NodePtr.head (level j es).dropLast)) ∧
        (∀ j, k < j → ur j = u j) := by
  have step : ∀ k, k < c.tc.huge_list.size → ∀ (n1 : Option NodePtr),
      walk_last A c k fuel n1 (last_ptr NodePtr.head (level (k + 1) es).dropLast)
        = some (some (last_ptr NodePtr.head (level k es).dropLast),
            last_ptr NodePtr.head (level k es)) := by
    intro k hk n1
    have hk8 : k < skip_list_level_max := lt_of_lt_of_le hk hwf.size_le
    obtain ⟨Q, R, hQR, hRne, hQ, hR1, hR2⟩ := level_split_pred k es (hwf.level_ne_nil hk)
    have hchain := hwf.chain k hk
    rw [hQR] at hchain
    obtain ⟨nx, hnx, hseg, _⟩ := seg_after c hk8 Q R _ hchain
    rw [hQ] at hnx
    rw [walk_last_spec hA c k hk8 R _ n1 fuel nx hnx hseg
      (fun a ha => hwf.addr_level (k := k) (by rw [hQR]; simp [ha]))
      (by
        have h1 : R.length ≤ (level k es).length := by rw [hQR]; simp
        have h2 := level_length_le k es
        omega), if_neg hRne, hR1, hR2]
  intro k
  induction k with
  | zero =>
    intro hk n1 u
    refine ⟨Function.update u 0 (some (last_ptr NodePtr.head (level 0 es).dropLast)), ?_, ?_, ?_⟩
    · unfold find_last
      rw [step 0 hk n1]
      simp [upd_set, skip_list_level_max]
    · intro j hj
      have : j = 0 := by omega
      subst this
      exact Function.update_same _ _ _
    · intro j hj
      exact Function.update_noteq (by omega) _ _
  | succ k ih =>
    intro hk n1 u
    have hk8 : k + 1 < skip_list_level_max := lt_of_lt_of_le hk hwf.size_le
    obtain ⟨ur, hrun, hu1, hu2⟩ := ih (by omega)
      (some (last_ptr NodePtr.head (level (k + 1) es).dropLast))
      (Function.update u (k + 1) (some (last_ptr NodePtr.head (level (k + 1) es).dropLast)))
    refine ⟨ur, ?_, ?_, ?_⟩
    · unfold find_last
      rw [step (k + 1) hk n1]
      simp only [upd_set, hk8, if_true]
      exact hrun
    · intro j hj
      rcases Nat.lt_or_ge j (k + 1) with h | h
      · exact hu1 j (by omega)
      · have : j = k + 1 := by omega
        subst this
        rw [hu2 _ (by omega)]
        exact Function.update_same _ _ _
    · intro j hj
      rw [hu2 j (by omega)]
      exact Function.update_noteq (by omega) _ _
/-! ### Stores into link words -/

theorem node_set_next_eq {A : Nat} (c : Ctx) (n : NodePtr) {k : Nat} (v : Nat)
    (hk : k < skip_list_level_max) :
    node_set_next A c n k v = some (set_next_ctx A c n k v) := by
  unfold node_set_next
  rw [if_pos hk]

theorem sizeof_link_pos (A : Nat) : 0 < sizeof_link A := by
  rcases sizeof_link_cases A with h | h <;> rw [h] <;> norm_num

/-- Two link words of block headers that do not overlap are different words
unless they are the same word. -/
theorem field_sep {A a x i j : Nat} (hi : i < skip_list_level_max)
    (hj : j < skip_list_level_max)
    (h : a = x ∨ a + sizeof_huge_link A ≤ x ∨ x + sizeof_huge_link A ≤ a)
    (hne : a ≠ x ∨ i ≠ j) :
    a + sizeof_link A * (1 + i) ≠ x + sizeof_link A * (1 + j) := by
  have hL := sizeof_link_pos A
  unfold sizeof_huge_link at h
  unfold skip_list_level_max at hi hj h
  intro heq
  rcases h with h | h | h
  · subst h
    rcases hne with h1 | h1
    · exact h1 rfl
    · have h2 : sizeof_link A * (1 + i) = sizeof_link A * (1 + j) := by omega
      have := Nat.eq_of_mul_eq_mul_left hL h2
      omega
  · have h1 : sizeof_link A * (1 + i) ≤ sizeof_link A * 8 := Nat.mul_le_mul_left _ (by omega)
    have h2 : sizeof_link A * (1 + 8) = sizeof_link A * 8 + sizeof_link A := by ring
    have h3 : 0 < sizeof_link A * (1 + j) := Nat.mul_pos hL (by omega)
    omega
  · have h1 : sizeof_link A * (1 + j) ≤ sizeof_link A * 8 := Nat.mul_le_mul_left _ (by omega)
    have h2 : sizeof_link A * (1 + 8) = sizeof_link A * 8 + sizeof_link A := by ring
    have h3 : 0 < sizeof_link A * (1 + i) := Nat.mul_pos hL (by omega)
    omega

/-- A link word of a block header is not the size word of a block header that
is the same or does not overlap. -/
theorem size_sep {A a x j : Nat} (hj : j < skip_list_level_max)
    (h : a = x ∨ a + sizeof_huge_link A ≤ x ∨ x + sizeof_huge_link A ≤ a) :
    a ≠ x + sizeof_link A * (1 + j) := by
  have hL := sizeof_link_pos A
  unfold sizeof_huge_link at h
  unfold skip_list_level_max at hj h
  have h1 : sizeof_link A * (1 + j) ≤ sizeof_link A * 8 := Nat.mul_le_mul_left _ (by omega)
  have h2 : sizeof_link A * (1 + 8) = sizeof_link A * 8 + sizeof_link A := by ring
  have h3 : 0 < sizeof_link A * (1 + j) := Nat.mul_pos hL (by omega)
  omega

theorem set_next_ctx_next {A : Nat} (c : Ctx) (n : NodePtr) {k : Nat} (v : Nat)
    (hk : k < skip_list_level_max) :
    node_next A (set_next_ctx A c n k v) n k = some v := by
  cases n with
  | head => simp [node_next, set_next_ctx, hk]
  | node a => simp [node_next, set_next_ctx, hk]

@[simp] theorem set_next_ctx_size {A : Nat} (c : Ctx) (n : NodePtr) (k v : Nat) :
    (set_next_ctx A c n k v).tc.huge_list.size = c.tc.huge_list.size := by
  cases n <;> rfl

theorem set_next_ctx_head_next {A : Nat} (c : Ctx) (n : NodePtr) (k v i : Nat)
    (h : n = NodePtr.head → i ≠ k) :
    (set_next_ctx A c n k v).tc.huge_list.next i = c.tc.huge_list.next i := by
  cases n with
  | head => simp [set_next_ctx, Function.update_noteq (h rfl)]
  | node a => rfl

theorem set_next_ctx_mem {A : Nat} (c : Ctx) (n : NodePtr) (k v addr : Nat)
    (h : ∀ x, n = NodePtr.node x → addr ≠ x + sizeof_link A * (1 + k)) :
    (set_next_ctx A c n k v).mem addr = c.mem addr := by
  cases n with
  | head => rfl
  | node a => simp [set_next_ctx, Function.update_noteq (h a rfl)]

/-- Replacing what follows the nodes `Q` on level `j`: after the store of `v`
into the `next[j]` word of the last node of `Q` (the head if `Q` is empty),
the chain of level `j` is `Q` followed by the chain that starts at `v`. -/
theorem relink {A : Nat} (c : Ctx) {j : Nat} (_hj : j < skip_list_level_max)
    (Q M M1 : List Nat) (v : Nat)
    (h : Seg A c.mem j (c.tc.huge_list.next j) (Q ++ M) (list_tail A))
    (hv : Seg A c.mem j v M1 (list_tail A))
    (hnd : ∀ x, last_ptr NodePtr.head Q = NodePtr.node x → x ∉ Q.dropLast ∧ x ∉ M1) :
    Seg A (set_next_ctx A c (last_ptr NodePtr.head Q) j v).mem j
      ((set_next_ctx A c (last_ptr NodePtr.head Q) j v).tc.huge_list.next j) (Q ++ M1)
      (list_tail A) := by
  rcases last_ptr_cases NodePtr.head Q with ⟨hq, hp⟩ | ⟨Q1, x, hq, hp⟩
  · subst hq
    rw [hp]
    simp only [set_next_ctx, Function.update_same, List.nil_append]
    exact hv
  · subst hq
    obtain ⟨hx1, hx2⟩ := hnd x hp
    rw [List.dropLast_concat] at hx1
    rw [hp]
    obtain ⟨mid, h1, _⟩ := (seg_append (Q1 ++ [x]) M _ _).1 h
    obtain ⟨mid1, h2, h3, _⟩ := (seg_append Q1 [x] _ mid).1 h1
    have hframe : ∀ (l : List Nat), x ∉ l → ∀ b, b ∈ l →
        Function.update c.mem (x + sizeof_link A * (1 + j)) v (b + sizeof_link A * (1 + j))
          = c.mem (b + sizeof_link A * (1 + j)) := by
      intro l hl b hb
      apply Function.update_noteq
      intro heq
      have : b = x := by omega
      exact hl (this ▸ hb)
    rw [List.append_assoc]
    refine (seg_append Q1 ([x] ++ M1) _ _).2 ⟨mid1, ?_, ?_⟩
    · exact (seg_congr Q1 _ _ (hframe Q1 hx1)).2 h2
    · refine ⟨h3, ?_⟩
      simp only [set_next_ctx, Function.update_same]
      exact (seg_congr M1 _ _ (hframe M1 hx2)).2 hv

/-- A store into a `next[j]` word does not change a chain whose words it
misses. -/
theorem seg_set_next_other {A : Nat} (c : Ctx) (p : NodePtr) (j v i : Nat) (l : List Nat)
    (nx e : Nat)
    (hsep : ∀ x, p = NodePtr.node x → ∀ a, a ∈ l →
      a + sizeof_link A * (1 + i) ≠ x + sizeof_link A * (1 + j)) :
    Seg A (set_next_ctx A c p j v).mem i nx l e ↔ Seg A c.mem i nx l e := by
  apply seg_congr
  intro a ha
  exact set_next_ctx_mem c p j v _ (fun x hx => hsep x hx a ha)
theorem LinkFrame.refl (A : Nat) (S : List Nat) (c : Ctx) : LinkFrame A S c c :=
  ⟨rfl, rfl, rfl, rfl, rfl, rfl, rfl, rfl, rfl, rfl, fun _ _ => rfl⟩

theorem LinkFrame.set_next {A : Nat} {S : List Nat} {c0 c : Ctx} (h : LinkFrame A S c0 c)
    (p : NodePtr) {j : Nat} (v : Nat) (hj : j < skip_list_level_max)
    (hp : ∀ x, p = NodePtr.node x → x ∈ S) :
    LinkFrame A S c0 (set_next_ctx A c p j v) := by
  cases p with
  | head => exact ⟨h.1, h.2, h.3, h.4, h.5, h.6, h.7, h.8, h.9, h.10, h.11⟩
  | node x =>
    refine ⟨h.1, h.2, h.3, h.4, h.5, h.6, h.7, h.8, h.9, h.10, ?_⟩
    intro addr haddr
    have h1 : addr ≠ x + sizeof_link A * (1 + j) := haddr x (hp x rfl) j hj
    simp only [set_next_ctx, Function.update_noteq h1]
    exact h.mem_eq addr haddr

theorem SkipWF.hdr {A : Nat} {c : Ctx} {es : List (Nat × Nat)} (hwf : SkipWF A c es)
    {e f : Nat × Nat} (he : e ∈ es) (hf : f ∈ es) :
    e = f ∨ e.1 + sizeof_huge_link A ≤ f.1 ∨ f.1 + sizeof_huge_link A ≤ e.1 := by
  by_cases hef : e = f
  · exact Or.inl hef
  · right
    have hsym : Symmetric (fun e f : Nat × Nat =>
        e.1 + c.mem e.1 ≤ f.1 ∨ f.1 + c.mem f.1 ≤ e.1) := fun a b h => h.symm
    have h1 := List.Pairwise.forall hsym hwf.disj he hf hef
    have h2 := (hwf.addr e he).2.2.1
    have h3 := (hwf.addr f hf).2.2.1
    rcases h1 with h1 | h1
    · left; omega
    · right; omega

theorem SkipWF.hdr_fst {A : Nat} {c : Ctx} {es : List (Nat × Nat)} (hwf : SkipWF A c es)
    {e f : Nat × Nat} (he : e ∈ es) (hf : f ∈ es) :
    e.1 = f.1 ∨ e.1 + sizeof_huge_link A ≤ f.1 ∨ f.1 + sizeof_huge_link A ≤ e.1 := by
  rcases hwf.hdr he hf with h | h
  · exact Or.inl (by rw [h])
  · exact Or.inr h

theorem SkipWF.nodup {A : Nat} {c : Ctx} {es : List (Nat × Nat)} (hwf : SkipWF A c es) :
    (es.map Prod.fst).Nodup := by
  unfold List.Nodup
  rw [List.pairwise_map]
  refine List.Pairwise.imp_of_mem ?_ hwf.disj
  intro e f he hf h
  have h2 := (hwf.addr e he).2.2.1
  have h3 := (hwf.addr f hf).2.2.1
  have h4 := sizeof_huge_link_pos A
  omega

theorem level_sublist (k : Nat) (es : List (Nat × Nat)) :
    (level k es).Sublist (es.map Prod.fst) :=
  List.Sublist.map _ (List.filter_sublist _)

theorem SkipWF.level_nodup {A : Nat} {c : Ctx} {es : List (Nat × Nat)} (hwf : SkipWF A c es)
    (k : Nat) : (level k es).Nodup :=
  List.Nodup.sublist (level_sublist k es) hwf.nodup

theorem mem_level_entry {k a : Nat} {es : List (Nat × Nat)} (h : a ∈ level k es) :
    ∃ e, e ∈ es ∧ e.1 = a := by
  obtain ⟨x, h1, _⟩ := mem_level.1 h
  exact ⟨(a, x), h1, rfl⟩

/-- The unlink loop of `alloc`, run on levels `k, ..., size - 1` from a state
in which the lower levels are already unlinked: afterwards every level is the
chain of the remaining entries, and nothing but `next` words has changed. -/
theorem unlink_levels_spec {A : Nat} (hA : ValidAlign A) (c0 : Ctx)
    (es pre post : List (Nat × Nat)) (t : Nat × Nat) (u : UpdateArr)
    (hwf : SkipWF A c0 es) (hes : es = pre ++ t :: post)
    (hu1 : ∀ k, k < c0.tc.huge_list.size → k < t.2 →
      u k = some (last_ptr NodePtr.head (level k pre)))
    (hu2 : ∀ k, k < c0.tc.huge_list.size → ¬ k < t.2 →
      ∃ p nx, u k = some p ∧ (p = NodePtr.head ∨ ∃ e, e ∈ es ∧ p = NodePtr.node e.1) ∧
        node_next A c0 p k = some nx ∧ nx ≠ t.1 / A) :
    ∀ (r k : Nat) (c : Ctx), k + r = c0.tc.huge_list.size →
      LinkFrame A (es.map Prod.fst) c0 c →
      (∀ i, k ≤ i → i < skip_list_level_max →
        c.tc.huge_list.next i = c0.tc.huge_list.next i ∧
        ∀ e, e ∈ es → c.mem (e.1 + sizeof_link A * (1 + i))
          = c0.mem (e.1 + sizeof_link A * (1 + i))) →
      (∀ i, i < k → Seg A c.mem i (c.tc.huge_list.next i) (level i (pre ++ post))
        (list_tail A)) →
      ∃ c1, unlink_levels A u (NodePtr.node t.1) (shr_off A t.1) r k c = some c1 ∧
        LinkFrame A (es.map Prod.fst) c0 c1 ∧
        (∀ i, c0.tc.huge_list.size ≤ i → i < skip_list_level_max →
          c1.tc.huge_list.next i = c0.tc.huge_list.next i) ∧
        (∀ i, i < c0.tc.huge_list.size →
          Seg A c1.mem i (c1.tc.huge_list.next i) (level i (pre ++ post)) (list_tail A)) := by
  have ht : t ∈ es := by rw [hes]; simp
  intro r
  induction r with
  | zero =>
    intro k c hk hfr hun hdone
    have hk2 : k = c0.tc.huge_list.size := by omega
    subst hk2
    exact ⟨c, rfl, hfr, fun i h1 h2 => (hun i h1 h2).1, hdone⟩
  | succ r ih =>
    intro k c hk hfr hun hdone
    have hks : k < c0.tc.huge_list.size := by omega
    have hk8 : k < skip_list_level_max := lt_of_lt_of_le hks hwf.size_le
    -- reads on level `k` see the original words
    have hread : ∀ p, (p = NodePtr.head ∨ ∃ e, e ∈ es ∧ p = NodePtr.node e.1) →
        node_next A c p k = node_next A c0 p k := by
      intro p hp
      rcases hp with rfl | ⟨e, he, rfl⟩
      · rw [node_next_head c hk8, node_next_head c0 hk8, (hun k (le_refl _) hk8).1]
      · rw [node_next_at c _ hk8, node_next_at c0 _ hk8, (hun k (le_refl _) hk8).2 e he]
    have hsegk : ∀ (l : List Nat) nx e, (∀ a, a ∈ l → ∃ e, e ∈ es ∧ e.1 = a) →
        (Seg A c.mem k nx l e ↔ Seg A c0.mem k nx l e) := by
      intro l nx e hl
      apply seg_congr
      intro a ha
      obtain ⟨e1, he1, rfl⟩ := hl a ha
      exact (hun k (le_refl _) hk8).2 e1 he1
    by_cases hkt : k < t.2
    · -- the node is linked on level `k`
      have hchain := hwf.chain k hks
      have hlev : level k es = level k pre ++ t.1 :: level k post := by
        rw [hes, level_append, level_cons_pos _ hkt]
      rw [hlev] at hchain
      obtain ⟨nx0, hnx0, hseg0, _⟩ := seg_after c0 hk8 (level k pre) _ _ hchain
      obtain ⟨hnx1, hrest⟩ := hseg0
      have hpmem : last_ptr NodePtr.head (level k pre) = NodePtr.head ∨
          ∃ e, e ∈ es ∧ last_ptr NodePtr.head (level k pre) = NodePtr.node e.1 := by
        rcases last_ptr_mem NodePtr.head (level k pre) with h | ⟨a, ha, h⟩
        · exact Or.inl h
        · obtain ⟨e, he, rfl⟩ := mem_level_entry ha
          exact Or.inr ⟨e, by rw [hes]; simp [he], h⟩
      have hres : c.mem (t.1 + sizeof_link A * (1 + k))
          = c0.mem (t.1 + sizeof_link A * (1 + k)) := (hun k (le_refl _) hk8).2 t ht
      have hnd := hwf.level_nodup k
      rw [hlev] at hnd
      -- the state after the store
      have hmemlev : ∀ a, a ∈ level k pre ++ t.1 :: level k post → ∃ e, e ∈ es ∧ e.1 = a := by
        intro a ha
        rw [← hlev] at ha
        exact mem_level_entry ha
      have hrl := relink c hk8 (level k pre) (t.1 :: level k post) (level k post)
        (c.mem (t.1 + sizeof_link A * (1 + k)))
        (by
          rw [(hun k (le_refl _) hk8).1]
          exact (hsegk _ _ _ hmemlev).2 hchain)
        (by
          rw [hres]
          exact (hsegk _ _ _ (fun a ha => hmemlev a (by simp [ha]))).2 hrest)
        (by
          intro x hx
          rcases last_ptr_cases NodePtr.head (level k pre) with ⟨_, h2⟩ | ⟨Q1, y, h1, h2⟩
          · rw [h2] at hx
            exact absurd hx (by simp)
          · rw [h2] at hx
            have hxy : y = x := NodePtr.node.inj hx
            subst hxy
            rw [h1, List.dropLast_concat]
            rw [h1] at hnd
            have hnd2 : (Q1 ++ y :: (t.1 :: level k post)).Nodup := by
              simpa [List.append_assoc] using hnd
            have h3 := List.nodup_middle.1 hnd2
            rw [List.nodup_cons] at h3
            have h4 := h3.1
            simp only [List.mem_append, List.mem_cons, not_or] at h4
            exact ⟨h4.1, h4.2.2⟩)
      obtain ⟨c1, hrun, hfr1, hab1, hd1⟩ := ih (k + 1)
        (set_next_ctx A c (last_ptr NodePtr.head (level k pre)) k
          (c.mem (t.1 + sizeof_link A * (1 + k)))) (by omega)
        (hfr.set_next _ _ hk8 (by
          intro x hx
          rcases hpmem with h | ⟨e, he, h⟩
          · rw [h] at hx
            exact absurd hx (by simp)
          · rw [h] at hx
            rw [← NodePtr.node.inj hx]
            exact List.mem_map_of_mem _ he))
        (by
          intro i hi hi8
          refine ⟨?_, ?_⟩
          · rw [set_next_ctx_head_next _ _ _ _ _ (fun _ => by omega)]
            exact (hun i (by omega) hi8).1
          · intro e he
            rw [set_next_ctx_mem]
            · exact (hun i (by omega) hi8).2 e he
            · intro x hx
              rcases hpmem with h | ⟨e1, he1, h⟩
              · rw [h] at hx
                exact absurd hx (by simp)
              · rw [h] at hx
                rw [← NodePtr.node.inj hx]
                exact field_sep hi8 hk8 (hwf.hdr_fst he he1) (Or.inr (by omega)))
        (by
          intro i hi
          rcases Nat.lt_or_ge i k with h | h
          · rw [set_next_ctx_head_next _ _ _ _ _ (fun _ => by omega)]
            refine (seg_set_next_other c _ k _ i _ _ _ ?_).2 (hdone i h)
            intro x hx a ha
            obtain ⟨e, he, rfl⟩ := mem_level_entry ha
            have he2 : e ∈ es := by
              rw [hes]
              rcases List.mem_append.1 he with h5 | h5
              · simp [h5]
              · simp [h5]
            rcases hpmem with h6 | ⟨e1, he1, h6⟩
            · rw [h6] at hx
              exact absurd hx (by simp)
            · rw [h6] at hx
              rw [← NodePtr.node.inj hx]
              exact field_sep (by omega) hk8 (hwf.hdr_fst he2 he1) (Or.inr (by omega))
          · have : i = k := by omega
            subst this
            rw [level_append]
            exact hrl)
      refine ⟨c1, ?_, hfr1, hab1, hd1⟩
      unfold unlink_levels
      simp only [upd_get, hk8, if_true, hu1 k hks hkt]
      rw [hread _ hpmem, hnx0]
      simp only [hnx1, shr_off_eq hA, if_true, node_next_at c _ hk8,
        node_set_next_eq c _ _ hk8]
      rw [shr_off_eq hA] at hrun
      exact hrun
    · -- the node is not linked on level `k`
      obtain ⟨p, nx, hup, hp, hnx, hne⟩ := hu2 k hks hkt
      have hlev : level k (pre ++ post) = level k es := by
        rw [hes, level_append, level_append, level_cons_neg _ hkt]
      obtain ⟨c1, hrun, hfr1, hab1, hd1⟩ := ih (k + 1) c (by omega) hfr
        (fun i hi hi8 => hun i (by omega) hi8)
        (by
          intro i hi
          rcases Nat.lt_or_ge i k with h | h
          · exact hdone i h
          · have : i = k := by omega
            subst this
            rw [hlev, (hun i (le_refl _) hk8).1]
            exact (hsegk _ _ _ (fun a ha => mem_level_entry ha)).2 (hwf.chain i hks))
      refine ⟨c1, ?_, hfr1, hab1, hd1⟩
      unfold unlink_levels
      simp only [upd_get, hk8, if_true, hup]
      rw [hread _ hp, hnx]
      simp only [shr_off_eq hA, hne, if_false]
      rw [shr_off_eq hA] at hrun
      exact hrun
/-- The shrink loop: it stops at the first level from the top whose head link
is not `list_tail`. -/
theorem shrink_levels_spec (A : Nat) (next : Nat → Nat) :
    ∀ s, 0 < s → s ≤ skip_list_level_max →
      ∃ s1, shrink_levels A next s = some s1 ∧ s1 ≤ s ∧
        (∀ i, s1 ≤ i → i < s → next i = list_tail A) ∧
        (s1 ≠ 0 → next (s1 - 1) ≠ list_tail A) := by
  intro s
  induction s with
  | zero => intro h; exact absurd h (Nat.lt_irrefl 0)
  | succ s ih =>
    intro _ h8
    have hs8 : s < skip_list_level_max := by omega
    unfold shrink_levels
    rw [if_pos hs8]
    by_cases ht : next s = list_tail A
    · rw [if_pos ht]
      rcases Nat.eq_zero_or_pos s with h0 | h0
      · subst h0
        refine ⟨0, by simp, by omega, ?_, fun h => absurd rfl h⟩
        intro i _ hi
        have : i = 0 := by omega
        subst this
        exact ht
      · rw [if_pos h0]
        obtain ⟨s1, h1, h2, h3, h4⟩ := ih h0 (by omega)
        refine ⟨s1, h1, by omega, ?_, h4⟩
        intro i hi1 hi2
        rcases Nat.lt_or_ge i s with h | h
        · exact h3 i hi1 h
        · have : i = s := by omega
          subst this
          exact ht
    · rw [if_neg ht]
      exact ⟨s + 1, rfl, le_refl _, fun i h1 h2 => by omega, fun _ => by simpa using ht⟩

theorem SkipWF.size_eq {A : Nat} {c0 c : Ctx} {es : List (Nat × Nat)} (hwf : SkipWF A c0 es)
    (hfr : LinkFrame A (es.map Prod.fst) c0 c) {e : Nat × Nat} (he : e ∈ es) :
    c.mem e.1 = c0.mem e.1 := by
  apply hfr.mem_eq
  intro a ha i hi
  obtain ⟨f, hf, rfl⟩ := List.mem_map.1 ha
  exact size_sep hi (hwf.hdr_fst he hf)

/-- Unlinking an entry of a well-formed huge list (the unlink loop followed by
the shrink loop) leaves a well-formed huge list with the other entries, and
changes nothing but `next` words and the height. -/
theorem unlink_node_spec {A : Nat} (hA : ValidAlign A) (c0 : Ctx)
    (es pre post : List (Nat × Nat)) (t : Nat × Nat) (u : UpdateArr)
    (hwf : SkipWF A c0 es) (hes : es = pre ++ t :: post)
    (hu1 : ∀ k, k < c0.tc.huge_list.size → k < t.2 →
      u k = some (last_ptr NodePtr.head (level k pre)))
    (hu2 : ∀ k, k < c0.tc.huge_list.size → ¬ k < t.2 →
      ∃ p nx, u k = some p ∧ (p = NodePtr.head ∨ ∃ e, e ∈ es ∧ p = NodePtr.node e.1) ∧
        node_next A c0 p k = some nx ∧ nx ≠ t.1 / A) :
    ∃ c1 sz, LinkFrame A (es.map Prod.fst) c0 c1 ∧
      unlink_node A c0 u t.1 = some { c1 with tc := { c1.tc with
        huge_list := { c1.tc.huge_list with size := sz } } } ∧
      SkipWF A { c1 with tc := { c1.tc with
        huge_list := { c1.tc.huge_list with size := sz } } } (pre ++ post) := by
  have ht : t ∈ es := by rw [hes]; simp
  obtain ⟨c1, hrun, hfr, hab, hdone⟩ := unlink_levels_spec hA c0 es pre post t u hwf hes hu1 hu2
    c0.tc.huge_list.size 0 c0 (by omega) (LinkFrame.refl _ _ _)
    (fun i _ _ => ⟨rfl, fun _ _ => rfl⟩) (fun i h => absurd h (Nat.not_lt_zero i))
  have hsz0 : 0 < c0.tc.huge_list.size := by
    have := (hwf.height t ht).1
    have := (hwf.height t ht).2
    omega
  obtain ⟨sz, hs1, hs2, hs3, hs4⟩ := shrink_levels_spec A c1.tc.huge_list.next
    c1.tc.huge_list.size (by rw [hfr.size]; exact hsz0) (by rw [hfr.size]; exact hwf.size_le)
  rw [hfr.size] at hs2 hs3
  have hsub : (pre ++ post).Sublist es := by
    rw [hes]
    exact List.Sublist.append (List.Sublist.refl pre) (List.sublist_cons_self t post)
  have hmem : ∀ e, e ∈ pre ++ post → e ∈ es := fun e he => hsub.subset he
  have hsize : ∀ e, e ∈ es → c1.mem e.1 = c0.mem e.1 := fun e he => hwf.size_eq hfr he
  have habove : ∀ k, sz ≤ k → k < skip_list_level_max →
      c1.tc.huge_list.next k = list_tail A := by
    intro k h1 h2
    rcases Nat.lt_or_ge k c0.tc.huge_list.size with h | h
    · exact hs3 k h1 h
    · rw [hab k h h2]
      exact hwf.above k h h2
  have hhead : ∀ k, k < c0.tc.huge_list.size → level k (pre ++ post) ≠ [] →
      c1.tc.huge_list.next k ≠ list_tail A := by
    intro k hk hne
    have hch := hdone k hk
    obtain ⟨a, l, hal⟩ := List.exists_cons_of_ne_nil hne
    rw [hal] at hch
    obtain ⟨h1, _⟩ := hch
    rw [h1]
    have ha : a ∈ level k (pre ++ post) := by rw [hal]; simp
    obtain ⟨e, he, rfl⟩ := mem_level_entry ha
    exact Nat.ne_of_lt (hwf.addr e (hmem e he)).2.1
  refine ⟨c1, sz, hfr, ?_, ?_⟩
  · unfold unlink_node
    rw [hrun]
    simp only [hs1]
  · refine ⟨?_, ?_, ?_, ?_, ?_, ?_, ?_, ?_⟩
    · exact le_trans hs2 hwf.size_le
    · intro k hk
      exact hdone k (lt_of_lt_of_le hk hs2)
    · exact habove
    · intro e he
      refine ⟨(hwf.height e (hmem e he)).1, ?_⟩
      by_contra hlt
      have hlt2 : sz < e.2 := Nat.lt_of_not_le hlt
      have h2 := (hwf.height e (hmem e he)).2
      have hne : level sz (pre ++ post) ≠ [] :=
        List.ne_nil_of_mem (mem_level.2 ⟨e.2, he, hlt2⟩)
      exact hhead sz (by omega) hne
        (habove sz (le_refl _) (lt_of_lt_of_le (by omega) hwf.size_le))
    · intro hsz
      simp only at hsz ⊢
      intro hnil
      have hch := hdone (sz - 1) (by omega)
      rw [hnil] at hch
      exact hs4 hsz hch
    · refine List.Pairwise.imp_of_mem ?_ (hwf.sorted.sublist hsub)
      intro e f he hf h
      simp only [hsize e (hmem e he), hsize f (hmem f hf)]
      exact h
    · intro e he
      simp only [hsize e (hmem e he)]
      exact hwf.addr e (hmem e he)
    · refine List.Pairwise.imp_of_mem ?_ (hwf.disj.sublist hsub)
      intro e f he hf h
      simp only [hsize e (hmem e he), hsize f (hmem f hf)]
      exact h

/-- The large-request search finds nothing when every free huge block is
smaller than the request: `alloc` then goes on to the hot bump. -/
theorem alloc_large_miss (P : Params) (fuel : Nat) (c : Ctx) (request : Nat)
    (es : List (Nat × Nat)) (hA : ValidAlign P.AlignSize) (hwf : SkipWF P.AlignSize c es)
    (hmiss : ∀ e, e ∈ es → c.mem e.1 < request) (hfuel : es.length < fuel) :
    (∀ r, alloc_hot c request = some r → alloc_large P fuel c request = some r) ∧
    (alloc_hot c request = none → alloc_large P fuel c request = some (size_fail, c)) := by
  obtain ⟨n2r, ur, hrun, _, _, _, hn2⟩ := find_lt_spec hA c es es [] request fuel hwf
    (List.append_nil es).symm hmiss (fun e he => absurd he (List.not_mem_nil e)) hfuel
    c.tc.huge_list.size (le_refl _) none (fun _ => none)
  have hstart : last_ptr NodePtr.head (level c.tc.huge_list.size es) = NodePtr.head := by
    rw [level_eq_nil_of_height (fun e he => (hwf.height e he).2)]
    rfl
  rw [hstart] at hrun
  have hhit : large_hit c request n2r = none := by
    rcases hn2 rfl (Or.inl rfl) with h | ⟨a, ha, h⟩
    · rw [h]
      rfl
    · rw [h]
      obtain ⟨x, h1, _⟩ := mem_level.1 ha
      have := hmiss _ h1
      simp only [large_hit, ge_iff_le, ite_eq_right_iff]
      intro h2
      simp only at this
      omega
  constructor
  · intro r hr
    unfold alloc_large
    simp only [hrun, hhit, hr]
  · intro hr
    unfold alloc_large
    simp only [hrun, hhit, hr]

/-- C5 (amended): the hot bump.  For a request that is a positive multiple of
`AlignSize` with `m_hot_pos + request ≤ m_hot_end`, `alloc` returns the old
`m_hot_pos`, sets `m_hot_pos` to `m_hot_pos + request` and changes nothing
else (huge list, `fragment_size`, `m_hot_end`, fastbins, buffer) in these two
cases: the request is at most `fastbin_max` and its own fastbin and the
`2 * request` fastbin are empty (or the latter does not exist); or the
request is above `fastbin_max`, the huge list is well formed and none of its
blocks has a size of at least `request` - for such requests the huge list is
searched before the hot region. -/
theorem alloc_hot_bump (P : Params) (fuel : Nat) (c : Ctx) (request : Nat)
    (hA : ValidAlign P.AlignSize) (hpos : 0 < request) (hmul : request % P.AlignSize = 0)
    (hend : c.tc.m_hot_end < 2 ^ 64)
    (hfit : c.tc.m_hot_pos + request ≤ c.tc.m_hot_end)
    (hcase :
      (request ≤ tosize (c.tc.m_freelist_head.length * P.AlignSize) ∧
        (∀ list, c.tc.m_freelist_head[request / P.AlignSize - 1]? = some list →
          list.head = list_tail P.AlignSize) ∧
        (∀ list2, c.tc.m_freelist_head[2 * request / P.AlignSize - 1]? = some list2 →
          list2.head = list_tail P.AlignSize)) ∨
      (tosize (c.tc.m_freelist_head.length * P.AlignSize) < request ∧
        ∃ es, SkipWF P.AlignSize c es ∧ (∀ e, e ∈ es → c.mem e.1 < request) ∧
          es.length < fuel)) :
    alloc P fuel c request = some (c.tc.m_hot_pos,
      { c with tc := { c.tc with m_hot_pos := c.tc.m_hot_pos + request } }) := by
  have hhot : alloc_hot c request = some (c.tc.m_hot_pos,
      { c with tc := { c.tc with m_hot_pos := c.tc.m_hot_pos + request } }) := by
    unfold alloc_hot
    rw [tosize_of_lt (by omega), if_pos hfit]
  rcases hcase with ⟨hmax, hbin, hbin2⟩ | ⟨hmax, es, hwf, hmiss, hfuel⟩
  · obtain ⟨hidx, hlt, hge⟩ := fastbin_index hA hpos hmul hmax
    have hget : c.tc.m_freelist_head[request / P.AlignSize - 1]?
        = some (c.tc.m_freelist_head[request / P.AlignSize - 1]) := List.getElem?_eq_getElem hlt
    have hempty := hbin _ hget
    have hdiv : 2 * request / P.AlignSize = 2 * (request / P.AlignSize) :=
      Nat.mul_div_assoc 2 (Nat.dvd_of_mod_eq_zero hmul)
    have hi2 : tosize ((request / P.AlignSize - 1) * 2 + 1) = 2 * request / P.AlignSize - 1 := by
      rw [hdiv]
      have h4 := hA.four_le
      have h64 : request < 2 ^ 64 := lt_of_le_of_lt hmax (tosize_lt _)
      have h1 : request / P.AlignSize ≤ request / 4 := Nat.div_le_div_left h4 (by norm_num)
      have : (request / P.AlignSize - 1) * 2 + 1 = 2 * (request / P.AlignSize) - 1 := by omega
      rw [this]
      exact tosize_of_lt (by omega)
    unfold alloc
    simp only [hmax, if_true, hidx, hget]
    unfold alloc_small
    simp only [hempty, ne_eq, not_true_eq_false, if_false]
    have hsplit : alloc_split_try P.AlignSize c (request / P.AlignSize - 1)
        (c.tc.m_freelist_head[request / P.AlignSize - 1]) request = none := by
      unfold alloc_split_try
      simp only [hi2]
      split
      · split
        · rename_i list2 hl2
          rw [if_neg (by rw [hbin2 _ hl2]; simp)]
        · rfl
      · rfl
    rw [hsplit, hhot]
  · unfold alloc
    rw [if_neg (Nat.not_le.2 hmax)]
    exact (alloc_large_miss P fuel c request es hA hwf hmiss hfuel).1 _ hhot

/-- The counterexample to "hot region before huge list" for large requests:
with `fastbin_max = 16`, a free huge block of 64 bytes at offset 1024 and the
hot region `[4096, 8192)`, `alloc(32)` returns 1024 and leaves `m_hot_pos` at
4096, although `m_hot_pos + 32 ≤ m_hot_end`. -/
theorem alloc_large_prefers_huge_list :
    tosize (ex_ctx_huge.tc.m_freelist_head.length * ex_params.AlignSize) < 32 ∧
    ex_ctx_huge.tc.m_hot_pos + 32 ≤ ex_ctx_huge.tc.m_hot_end ∧
    ∃ c1, alloc ex_params 2 ex_ctx_huge 32 = some (1024, c1) ∧
      1024 ≠ ex_ctx_huge.tc.m_hot_pos ∧ c1.tc.m_hot_pos = ex_ctx_huge.tc.m_hot_pos ∧
      c1.tc.huge_list.next 0 ≠ ex_ctx_huge.tc.huge_list.next 0 :=
  ⟨by decide, by decide, _, rfl, by decide, rfl, by decide⟩

theorem alloc_hot_bump_witness :
    (ValidAlign ex_params.AlignSize ∧ 0 < 8 ∧ 8 % ex_params.AlignSize = 0 ∧
      ex_ctx_huge.tc.m_hot_end < 2 ^ 64 ∧
      ex_ctx_huge.tc.m_hot_pos + 8 ≤ ex_ctx_huge.tc.m_hot_end) ∧
    alloc ex_params 0 ex_ctx_huge 8 = some (ex_ctx_huge.tc.m_hot_pos,
      { ex_ctx_huge with
        tc := { ex_ctx_huge.tc with m_hot_pos := ex_ctx_huge.tc.m_hot_pos + 8 } }) :=
  ⟨⟨ex_valid_align, by decide, by decide, by decide, by decide⟩,
    alloc_hot_bump ex_params 0 ex_ctx_huge 8 ex_valid_align (by decide) (by decide) (by decide)
      (by decide)
      (Or.inl ⟨by decide, fun list h => by
          have e : ex_ctx_huge.tc.m_freelist_head[8 / ex_params.AlignSize - 1]?
              = some (head_t.mk (list_tail 4) 0) := rfl
          rw [e] at h
          rw [← Option.some.inj h]
          rfl,
        fun list h => by
          have e : ex_ctx_huge.tc.m_freelist_head[2 * 8 / ex_params.AlignSize - 1]?
              = some (head_t.mk (list_tail 4) 0) := rfl
          rw [e] at h
          rw [← Option.some.inj h]
          rfl⟩)⟩

/-! ## Huge-list refill of the hot region (`alloc` lines 175-221) -/

/-- A well-formed huge list stays well formed when the head and the headers
of its blocks are left alone. -/
theorem SkipWF.frame {A : Nat} {c c1 : Ctx} {es : List (Nat × Nat)} (hwf : SkipWF A c es)
    (hh : c1.tc.huge_list = c.tc.huge_list)
    (hm : ∀ e, e ∈ es → ∀ d, d < sizeof_huge_link A → c1.mem (e.1 + d) = c.mem (e.1 + d)) :
    SkipWF A c1 es := by
  have hsize : ∀ e, e ∈ es → c1.mem e.1 = c.mem e.1 := by
    intro e he
    have := hm e he 0 (sizeof_huge_link_pos A)
    simpa using this
  refine ⟨?_, ?_, ?_, ?_, ?_, ?_, ?_, ?_⟩
  · rw [hh]; exact hwf.size_le
  · intro k hk
    rw [hh] at hk ⊢
    refine (seg_congr _ _ _ ?_).2 (hwf.chain k hk)
    intro a ha
    obtain ⟨e, he, rfl⟩ := mem_level_entry ha
    apply hm e he
    have hk8 : k < skip_list_level_max := lt_of_lt_of_le hk hwf.size_le
    unfold sizeof_huge_link
    exact Nat.mul_lt_mul_of_pos_left (by omega) (sizeof_link_pos A)
  · intro k h1 h2
    rw [hh] at h1 ⊢
    exact hwf.above k h1 h2
  · intro e he
    rw [hh]
    exact hwf.height e he
  · intro h
    rw [hh] at h ⊢
    exact hwf.top h
  · refine List.Pairwise.imp_of_mem ?_ hwf.sorted
    intro e f he hf h
    simp only [hsize e he, hsize f hf]
    exact h
  · intro e he
    simp only [hsize e he]
    exact hwf.addr e he
  · refine List.Pairwise.imp_of_mem ?_ hwf.disj
    intro e f he hf h
    simp only [hsize e he, hsize f hf]
    exact h

/-- An empty well-formed huge list has height 0. -/
theorem SkipWF.size_zero {A : Nat} {c : Ctx} (hwf : SkipWF A c []) :
    c.tc.huge_list.size = 0 := by
  by_contra h
  exact hwf.top h rfl

/-- The last entry of a well-formed huge list has the largest size. -/
theorem SkipWF.last_max {A : Nat} {c : Ctx} {init : List (Nat × Nat)} {t : Nat × Nat}
    (hwf : SkipWF A c (init ++ [t])) : ∀ e, e ∈ init ++ [t] → c.mem e.1 ≤ c.mem t.1 := by
  intro e he
  have h := hwf.sorted
  rw [List.pairwise_append] at h
  rcases List.mem_append.1 he with h1 | h1
  · exact h.2.2 e h1 t (by simp)
  · simp only [List.mem_singleton] at h1
    rw [h1]

/-- When both fastbins and the hot region miss, the small-request path of
`alloc` is the huge-list refill. -/
theorem alloc_small_to_refill (P : Params) (fuel : Nat) (c : Ctx) (request : Nat)
    (hA : ValidAlign P.AlignSize) (hpos : 0 < request) (hmul : request % P.AlignSize = 0)
    (hmax : request ≤ tosize (c.tc.m_freelist_head.length * P.AlignSize))
    (hbin : ∀ list, c.tc.m_freelist_head[request / P.AlignSize - 1]? = some list →
      list.head = list_tail P.AlignSize)
    (hbin2 : ∀ list2, c.tc.m_freelist_head[2 * request / P.AlignSize - 1]? = some list2 →
      list2.head = list_tail P.AlignSize)
    (hnofit : ¬ tosize (c.tc.m_hot_pos + request) ≤ c.tc.m_hot_end) :
    alloc P fuel c request = alloc_refill P fuel c request := by
  obtain ⟨hidx, hlt, hge⟩ := fastbin_index hA hpos hmul hmax
  have hget : c.tc.m_freelist_head[request / P.AlignSize - 1]?
      = some (c.tc.m_freelist_head[request / P.AlignSize - 1]) := List.getElem?_eq_getElem hlt
  have hempty := hbin _ hget
  have hdiv : 2 * request / P.AlignSize = 2 * (request / P.AlignSize) :=
    Nat.mul_div_assoc 2 (Nat.dvd_of_mod_eq_zero hmul)
  have hi2 : tosize ((request / P.AlignSize - 1) * 2 + 1) = 2 * request / P.AlignSize - 1 := by
    rw [hdiv]
    have h4 := hA.four_le
    have h64 : request < 2 ^ 64 := lt_of_le_of_lt hmax (tosize_lt _)
    have h1 : request / P.AlignSize ≤ request / 4 := Nat.div_le_div_left h4 (by norm_num)
    have : (request / P.AlignSize - 1) * 2 + 1 = 2 * (request / P.AlignSize) - 1 := by omega
    rw [this]
    exact tosize_of_lt (by omega)
  have hsplit : alloc_split_try P.AlignSize c (request / P.AlignSize - 1)
      (c.tc.m_freelist_head[request / P.AlignSize - 1]) request = none := by
    unfold alloc_split_try
    simp only [hi2]
    split
    · split
      · rename_i list2 hl2
        rw [if_neg (by rw [hbin2 _ hl2]; simp)]
      · rfl
    · rfl
  have hhot : alloc_hot c request = none := by
    unfold alloc_hot
    rw [if_neg hnofit]
  unfold alloc
  simp only [hmax, if_true, hidx, hget]
  unfold alloc_small
  simp only [hempty, ne_eq, not_true_eq_false, if_false, hsplit, hhot]
theorem link_ne_of_ne {A a b : Nat} (_hA : ValidAlign A) (ha : a % A = 0) (hb : b % A = 0)
    (h : a ≠ b) : a / A ≠ b / A := by
  intro heq
  apply h
  have h1 := Nat.div_add_mod a A
  have h2 := Nat.div_add_mod b A
  rw [ha] at h1
  rw [hb, ← heq] at h2
  omega

/-- The search of the refill path on a well-formed list that ends with the
entry `t`: it stops on `t`, with the `update` array that the unlink loop
needs. -/
theorem refill_search {A : Nat} (hA : ValidAlign A) (c : Ctx) (init : List (Nat × Nat))
    (t : Nat × Nat) (fuel : Nat) (hwf : SkipWF A c (init ++ [t]))
    (hfuel : (init ++ [t]).length < fuel) :
    ∃ ur, (if c.tc.huge_list.size ≠ 0 then
        find_last A c fuel (c.tc.huge_list.size - 1) none NodePtr.head (fun _ => none)
        else some (NodePtr.head, fun _ => none)) = some (NodePtr.node t.1, ur) ∧
      (∀ k, k < c.tc.huge_list.size → k < t.2 →
        ur k = some (last_ptr NodePtr.head (level k init))) ∧
      (∀ k, k < c.tc.huge_list.size → ¬ k < t.2 →
        ∃ p nx, ur k = some p ∧
          (p = NodePtr.head ∨ ∃ e, e ∈ init ++ [t] ∧ p = NodePtr.node e.1) ∧
          node_next A c p k = some nx ∧ nx ≠ t.1 / A) := by
  have ht : t ∈ init ++ [t] := by simp
  have hth := hwf.height t ht
  have hsz : c.tc.huge_list.size ≠ 0 := by omega
  obtain ⟨ur, hrun, hu, _⟩ := find_last_spec hA c (init ++ [t]) fuel hwf hfuel
    (c.tc.huge_list.size - 1) (by omega) none (fun _ => none)
  have htop : level (c.tc.huge_list.size - 1 + 1) (init ++ [t]) = [] :=
    level_eq_nil_of_height (fun e he => by have := (hwf.height e he).2; omega)
  rw [htop] at hrun
  have hl0 : level 0 (init ++ [t]) = level 0 init ++ [t.1] := level_concat_pos _ (by omega)
  rw [hl0, last_ptr_concat] at hrun
  refine ⟨ur, ?_, ?_, ?_⟩
  · rw [if_pos hsz]
    exact hrun
  · intro k hk hkt
    rw [hu k (by omega), level_concat_pos _ hkt, List.dropLast_concat]
  · intro k hk hkt
    have hk8 : k < skip_list_level_max := lt_of_lt_of_le hk hwf.size_le
    have hlev : level k (init ++ [t]) = level k init := level_concat_neg _ hkt
    have hne := hwf.level_ne_nil hk
    rw [hlev] at hne
    obtain ⟨L1, z, hL⟩ : ∃ L1 z, level k init = L1 ++ [z] := by
      rcases List.eq_nil_or_concat (level k init) with h | ⟨L1, z, h⟩
      · exact absurd h hne
      · exact ⟨L1, z, by rw [h]; simp⟩
    have hchain := hwf.chain k hk
    rw [hlev, hL] at hchain
    obtain ⟨nx, hnx, hseg, _⟩ := seg_after c hk8 L1 [z] _ hchain
    have hnxz : nx = z / A := hseg.1
    have hz : z ∈ level k init := by rw [hL]; simp
    obtain ⟨e, he, hez⟩ := mem_level_entry hz
    refine ⟨last_ptr NodePtr.head L1, nx, ?_, ?_, hnx, ?_⟩
    · rw [hu k (by omega), hlev, hL, List.dropLast_concat]
    · rcases last_ptr_mem NodePtr.head L1 with h | ⟨a, ha, h⟩
      · exact Or.inl h
      · have ha2 : a ∈ level k init := by rw [hL]; simp [ha]
        obtain ⟨e1, he1, rfl⟩ := mem_level_entry ha2
        exact Or.inr ⟨e1, by simp [he1], h⟩
    · rw [hnxz, ← hez]
      have hnd := hwf.nodup
      rw [List.map_append, List.nodup_append] at hnd
      have hne2 : e.1 ≠ t.1 := by
        intro heq
        exact hnd.2.2 (List.mem_map_of_mem _ he) (by simp [heq])
      exact link_ne_of_ne hA (hwf.addr e (by simp [he])).1 (hwf.addr t ht).1 hne2

/-- The refill path fails, leaving the state alone, when the huge list is
empty or its last (largest) block is smaller than the request. -/
theorem alloc_refill_fail (P : Params) (fuel : Nat) (c : Ctx) (request : Nat)
    (es : List (Nat × Nat)) (hA : ValidAlign P.AlignSize) (hwf : SkipWF P.AlignSize c es)
    (hpos : 0 < request) (hfuel : es.length < fuel)
    (h : es = [] ∨ ∃ init t, es = init ++ [t] ∧ c.mem t.1 < request) :
    alloc_refill P fuel c request = some (size_fail, c) := by
  rcases h with rfl | ⟨init, t, rfl, hlt⟩
  · have hsz := hwf.size_zero
    unfold alloc_refill
    simp only [hsz, ne_eq, not_true_eq_false, if_false, node_size]
    rw [if_neg (by omega)]
  · obtain ⟨ur, hrun, _, _⟩ := refill_search hA c init t fuel hwf hfuel
    unfold alloc_refill
    simp only [hrun, node_size]
    rw [if_neg (by omega)]
/-- The refill path when the last (largest) entry `t` of the huge list is
large enough: `t` is unlinked and becomes the hot region, after the old hot
remainder has been pushed on its fastbin. -/
theorem alloc_refill_hit (P : Params) (fuel : Nat) (c : Ctx) (request : Nat)
    (init : List (Nat × Nat)) (t : Nat × Nat)
    (hA : ValidAlign P.AlignSize) (htc : TcWF P.AlignSize c (init ++ [t]))
    (hmax : request ≤ c.tc.m_freelist_head.length * P.AlignSize)
    (hnofit : c.tc.m_hot_end < c.tc.m_hot_pos + request)
    (hfuel : (init ++ [t]).length < fuel) (hge : request ≤ c.mem t.1) :
    ∃ c1, alloc_refill P fuel c request = some (t.1, c1) ∧
      SkipWF P.AlignSize c1 init ∧
      c1.tc.m_hot_pos = t.1 + request ∧ c1.tc.m_hot_end = t.1 + c.mem t.1 ∧
      (c.tc.m_hot_pos < c.tc.m_hot_end →
        ∃ list, c.tc.m_freelist_head[(c.tc.m_hot_end - c.tc.m_hot_pos) / P.AlignSize - 1]?
            = some list ∧
          c1.tc.m_freelist_head
            = c.tc.m_freelist_head.set ((c.tc.m_hot_end - c.tc.m_hot_pos) / P.AlignSize - 1)
              (head_t.mk (tolink P.AlignSize (c.tc.m_hot_pos / P.AlignSize))
                (tolink P.AlignSize (list.cnt + 1))) ∧
          c1.mem c.tc.m_hot_pos = list.head) ∧
      (¬ c.tc.m_hot_pos < c.tc.m_hot_end →
        c1.tc.m_freelist_head = c.tc.m_freelist_head) := by
  have hwf := htc.skip
  have hbl := htc.bins_lt
  have hfm : tosize (c.tc.m_freelist_head.length * P.AlignSize)
      = c.tc.m_freelist_head.length * P.AlignSize := tosize_of_lt (by omega)
  have ht : t ∈ init ++ [t] := by simp
  obtain ⟨ur, hrun, hu1, hu2⟩ := refill_search hA c init t fuel hwf hfuel
  obtain ⟨c1, sz, hfr, hunl, hwf2⟩ := unlink_node_spec hA c (init ++ [t]) init [] t ur hwf rfl
    hu1 hu2
  rw [List.append_nil] at hwf2
  obtain ⟨hta1, hta2, hta3, hta4⟩ := hwf.addr t ht
  have hsub : ∀ e, e ∈ init → e ∈ init ++ [t] := fun e he => by simp [he]
  -- the state after the unlink
  have hp2 : ({ c1 with tc := { c1.tc with
      huge_list := { c1.tc.huge_list with size := sz } } } : Ctx).tc.m_hot_pos
      = c.tc.m_hot_pos := hfr.hot_pos
  have he2 : ({ c1 with tc := { c1.tc with
      huge_list := { c1.tc.huge_list with size := sz } } } : Ctx).tc.m_hot_end
      = c.tc.m_hot_end := hfr.hot_end
  have hfl2 : ({ c1 with tc := { c1.tc with
      huge_list := { c1.tc.huge_list with size := sz } } } : Ctx).tc.m_freelist_head
      = c.tc.m_freelist_head := hfr.freelist
  have hsz2 : ∀ e, e ∈ init ++ [t] → ({ c1 with tc := { c1.tc with
      huge_list := { c1.tc.huge_list with size := sz } } } : Ctx).mem e.1 = c.mem e.1 :=
    fun e he => hwf.size_eq hfr he
  generalize ({ c1 with tc := { c1.tc with
      huge_list := { c1.tc.huge_list with size := sz } } } : Ctx) = c2 at hunl hwf2 hp2 he2 hfl2 hsz2
  have hstart : alloc_refill P fuel c request
      = refill_finish P fuel c2 t.1 (c.mem t.1) request := by
    unfold alloc_refill
    simp only [hrun, node_size]
    rw [if_pos hge]
    simp only [hunl]
  rw [hstart]
  unfold refill_finish
  have hpe1 : tosize (t.1 + request) = t.1 + request := tosize_of_lt (by omega)
  have hpe2 : tosize (t.1 + c.mem t.1) = t.1 + c.mem t.1 := tosize_of_lt hta4
  by_cases hrem : c.tc.m_hot_pos < c.tc.m_hot_end
  · -- the old hot remainder goes to its fastbin
    have hrem2 : c2.tc.m_hot_pos < c2.tc.m_hot_end := by rw [hp2, he2]; exact hrem
    have hss : size_sub c2.tc.m_hot_end c2.tc.m_hot_pos = c.tc.m_hot_end - c.tc.m_hot_pos := by
      rw [hp2, he2]
      exact size_sub_of_le (le_of_lt hrem) htc.hot_end_lt
    have hremal : (c.tc.m_hot_end - c.tc.m_hot_pos) % P.AlignSize = 0 :=
      (Nat.dvd_sub' (Nat.dvd_of_mod_eq_zero htc.hot_end_al)
        (Nat.dvd_of_mod_eq_zero htc.hot_pos_al)).elim (fun k hk => by rw [hk]; simp)
    obtain ⟨list, c3, hget, hs, hfl3, hmem3, _, hhl3, _, _, _, _, _⟩ :=
      sfree_fastbin P fuel c2 c.tc.m_hot_pos (c.tc.m_hot_end - c.tc.m_hot_pos) hA (by omega)
        hremal (by rw [hfl2, hfm]; omega)
        (by
          rw [hp2]
          have : c.tc.m_hot_pos + (c.tc.m_hot_end - c.tc.m_hot_pos) = c.tc.m_hot_end := by omega
          rw [this, tosize_of_lt htc.hot_end_lt]
          omega)
    rw [if_pos hrem2, hss, hp2, hs]
    refine ⟨_, rfl, ?_, ?_, ?_, ?_, ?_⟩
    · apply hwf2.frame
      · simp [hhl3]
      · intro e he d hd
        simp only [account_alloc_mem, hmem3]
        apply Function.update_noteq
        have h1 := htc.hot_disj e (hsub e he)
        have h2 := (hwf.addr e (hsub e he)).2.2.1
        omega
    · simp [hpe1]
    · simp [hpe2]
    · intro _
      rw [hfl2] at hget hfl3
      exact ⟨list, hget, by simp [hfl3], by simp [hmem3]⟩
    · intro h
      exact absurd hrem h
  · have hrem2 : ¬ c2.tc.m_hot_pos < c2.tc.m_hot_end := by rw [hp2, he2]; exact hrem
    rw [if_neg hrem2]
    refine ⟨_, rfl, ?_, ?_, ?_, ?_, ?_⟩
    · apply hwf2.frame
      · simp
      · intro e he d hd
        simp
    · simp [hpe1]
    · simp [hpe2]
    · intro h
      exact absurd h hrem
    · intro _
      simp [hfl2]

/-- C6: the huge-list refill of the small-request path.  For a request that
is a positive multiple of `AlignSize`, at most `fastbin_max`, that misses its
own fastbin and the `2 * request` fastbin and does not fit the hot region, on
a well-formed thread cache whose huge list has the entries `es`:

* if the list is empty, or its last block - the block of maximum size - is
  smaller than the request, `alloc` returns `size_t(-1)` and changes nothing;
* otherwise `es = init ++ [t]`, `alloc` returns the offset of `t`, the huge
  list is again well formed with the entries `init` (the block is linked on no
  level), the hot region is `[res + request, res + rlen)`, and a non-empty old
  hot remainder `[hot_pos, hot_end)` has been pushed on the fastbin of its
  size: that bin's head is the link of `hot_pos` and the link word at
  `hot_pos` holds the previous head. -/
theorem alloc_refill_spec (P : Params) (fuel : Nat) (c : Ctx) (request : Nat)
    (es : List (Nat × Nat)) (hA : ValidAlign P.AlignSize) (htc : TcWF P.AlignSize c es)
    (hpos : 0 < request) (hmul : request % P.AlignSize = 0)
    (hmax : request ≤ tosize (c.tc.m_freelist_head.length * P.AlignSize))
    (hbin : ∀ list, c.tc.m_freelist_head[request / P.AlignSize - 1]? = some list →
      list.head = list_tail P.AlignSize)
    (hbin2 : ∀ list2, c.tc.m_freelist_head[2 * request / P.AlignSize - 1]? = some list2 →
      list2.head = list_tail P.AlignSize)
    (hnofit : c.tc.m_hot_end < c.tc.m_hot_pos + request)
    (hfuel : es.length < fuel) :
    ((es = [] ∨ ∃ init t, es = init ++ [t] ∧ c.mem t.1 < request) →
      alloc P fuel c request = some (size_fail, c)) ∧
    (∀ init t, es = init ++ [t] → request ≤ c.mem t.1 →
      (∀ e, e ∈ es → c.mem e.1 ≤ c.mem t.1) ∧
      ∃ c1, alloc P fuel c request = some (t.1, c1) ∧
        SkipWF P.AlignSize c1 init ∧
        c1.tc.m_hot_pos = t.1 + request ∧ c1.tc.m_hot_end = t.1 + c.mem t.1 ∧
        (c.tc.m_hot_pos < c.tc.m_hot_end →
          ∃ list, c.tc.m_freelist_head[(c.tc.m_hot_end - c.tc.m_hot_pos) / P.AlignSize - 1]?
              = some list ∧
            c1.tc.m_freelist_head
              = c.tc.m_freelist_head.set ((c.tc.m_hot_end - c.tc.m_hot_pos) / P.AlignSize - 1)
                (head_t.mk (tolink P.AlignSize (c.tc.m_hot_pos / P.AlignSize))
                  (tolink P.AlignSize (list.cnt + 1))) ∧
            c1.mem c.tc.m_hot_pos = list.head) ∧
        (¬ c.tc.m_hot_pos < c.tc.m_hot_end →
          c1.tc.m_freelist_head = c.tc.m_freelist_head)) := by
  have hwf := htc.skip
  have hbl := htc.bins_lt
  have hfm : tosize (c.tc.m_freelist_head.length * P.AlignSize)
      = c.tc.m_freelist_head.length * P.AlignSize := tosize_of_lt (by omega)
  rw [hfm] at hmax
  have hnofit2 : ¬ tosize (c.tc.m_hot_pos + request) ≤ c.tc.m_hot_end := by
    have := htc.hot_le
    rw [tosize_of_lt (by omega)]
    omega
  have hrefill := alloc_small_to_refill P fuel c request hA hpos hmul (by rw [hfm]; exact hmax)
    hbin hbin2 hnofit2
  refine ⟨fun h => ?_, ?_⟩
  · rw [hrefill]
    exact alloc_refill_fail P fuel c request es hA hwf hpos hfuel h
  intro init t hes hge
  subst hes
  refine ⟨hwf.last_max, ?_⟩
  rw [hrefill]
  exact alloc_refill_hit P fuel c request init t hA htc hmax hnofit hfuel hge
theorem ex_ctx_refill_wf : TcWF ex_params.AlignSize ex_ctx_refill [(1024, 1)] := by
  refine ⟨⟨by decide, ?_, ?_, ?_, ?_, ?_, ?_, ?_⟩, ?_, by decide, by decide, by decide,
    by decide, ?_, by decide⟩
  · intro k hk
    have hk0 : k = 0 := by
      have : k < 1 := hk
      omega
    subst hk0
    exact ⟨by decide,
      (by decide : ex_ctx_refill.mem (1024 + sizeof_link 4 * (1 + 0)) = list_tail 4)⟩
  · intro k hk _
    have hk1 : 1 ≤ k := hk
    show (if k = 0 then 256 else list_tail 4) = list_tail 4
    rw [if_neg (by omega)]
  · intro e he
    simp only [List.mem_singleton] at he
    subst he
    exact ⟨by decide, by decide⟩
  · intro _
    decide
  · simp
  · intro e he
    simp only [List.mem_singleton] at he
    subst he
    decide
  · simp
  · intro e he
    simp only [List.mem_singleton] at he
    subst he
    decide
  · intro e he
    simp only [List.mem_singleton] at he
    subst he
    decide

theorem alloc_refill_spec_witness :
    (ValidAlign ex_params.AlignSize ∧ TcWF ex_params.AlignSize ex_ctx_refill [(1024, 1)] ∧
      0 < 8 ∧ 8 % ex_params.AlignSize = 0 ∧
      8 ≤ tosize (ex_ctx_refill.tc.m_freelist_head.length * ex_params.AlignSize) ∧
      ex_ctx_refill.tc.m_hot_end < ex_ctx_refill.tc.m_hot_pos + 8 ∧
      [((1024 : Nat), (1 : Nat))].length < 2) ∧
    ∃ c1, alloc ex_params 2 ex_ctx_refill 8 = some (1024, c1) ∧
      SkipWF ex_params.AlignSize c1 [] ∧
      c1.tc.m_hot_pos = 1024 + 8 ∧ c1.tc.m_hot_end = 1024 + ex_ctx_refill.mem 1024 := by
  have hb : ∀ (i : Nat) (list : head_t), i < 4 →
      ex_ctx_refill.tc.m_freelist_head[i]? = some list → list.head = list_tail 4 := by
    intro i list hi h
    have e : ex_ctx_refill.tc.m_freelist_head
        = List.replicate 4 (head_t.mk (list_tail 4) 0) := rfl
    rw [e, List.getElem?_replicate, if_pos hi] at h
    rw [← Option.some.inj h]
  have h := (alloc_refill_spec ex_params 2 ex_ctx_refill 8 [(1024, 1)] ex_valid_align
    ex_ctx_refill_wf (by decide) (by decide) (by decide)
    (fun list hl => hb _ list (by decide) hl) (fun list hl => hb _ list (by decide) hl)
    (by decide) (by decide)).2 [] (1024, 1) rfl (by decide)
  obtain ⟨_, c1, h1, h2, h3, h4, _⟩ := h
  exact ⟨⟨ex_valid_align, ex_ctx_refill_wf, by decide, by decide, by decide, by decide,
    by decide⟩, c1, h1, h2, h3, h4⟩

/-! ## Insertion into the huge list (`sfree` lines 380-418) -/

/-- One pass of the link loop of `sfree` on level `j`: the new node at `pos`
is linked after the last node of `small` on that level. -/
theorem link_step {A : Nat} (cb : Ctx) (es small big : List (Nat × Nat))
    (pos k sz : Nat) (hes : es = small ++ big) (hsz : sz ≤ skip_list_level_max)
    (hbase : ∀ i, i < sz →
      Seg A cb.mem i (cb.tc.huge_list.next i) (level i es) (list_tail A))
    (hhdr : ∀ e f, e ∈ es → f ∈ es →
      e.1 = f.1 ∨ e.1 + sizeof_huge_link A ≤ f.1 ∨ f.1 + sizeof_huge_link A ≤ e.1)
    (hnew : ∀ e, e ∈ es → e.1 + sizeof_huge_link A ≤ pos ∨ pos + sizeof_huge_link A ≤ e.1)
    (hnodup : ∀ i, (level i es).Nodup)
    (j : Nat) (hjk : j ≤ k) (hksz : k < sz) (c : Ctx)
    (hfr : LinkFrame A (pos :: es.map Prod.fst) cb c)
    (hun : ∀ i, i ≤ j → c.tc.huge_list.next i = cb.tc.huge_list.next i ∧
      ∀ e, e ∈ es → c.mem (e.1 + sizeof_link A * (1 + i))
        = cb.mem (e.1 + sizeof_link A * (1 + i)))
    (hhi : ∀ i, k < i → c.tc.huge_list.next i = cb.tc.huge_list.next i)
    (hdone : ∀ i, j < i → i < sz →
      Seg A c.mem i (c.tc.huge_list.next i) (level i (small ++ (pos, k + 1) :: big))
        (list_tail A)) :
    ∃ nx, node_next A c (last_ptr NodePtr.head (level j small)) j = some nx ∧
      LinkFrame A (pos :: es.map Prod.fst) cb
        (set_next_ctx A (set_next_ctx A c (NodePtr.node pos) j nx)
          (last_ptr NodePtr.head (level j small)) j (pos / A)) ∧
      (∀ i, i < j →
        (set_next_ctx A (set_next_ctx A c (NodePtr.node pos) j nx)
          (last_ptr NodePtr.head (level j small)) j (pos / A)).tc.huge_list.next i
          = cb.tc.huge_list.next i ∧
        ∀ e, e ∈ es →
          (set_next_ctx A (set_next_ctx A c (NodePtr.node pos) j nx)
            (last_ptr NodePtr.head (level j small)) j (pos / A)).mem
              (e.1 + sizeof_link A * (1 + i))
            = cb.mem (e.1 + sizeof_link A * (1 + i))) ∧
      (∀ i, k < i →
        (set_next_ctx A (set_next_ctx A c (NodePtr.node pos) j nx)
          (last_ptr NodePtr.head (level j small)) j (pos / A)).tc.huge_list.next i
          = cb.tc.huge_list.next i) ∧
      (∀ i, j ≤ i → i < sz →
        Seg A (set_next_ctx A (set_next_ctx A c (NodePtr.node pos) j nx)
          (last_ptr NodePtr.head (level j small)) j (pos / A)).mem i
          ((set_next_ctx A (set_next_ctx A c (NodePtr.node pos) j nx)
            (last_ptr NodePtr.head (level j small)) j (pos / A)).tc.huge_list.next i)
          (level i (small ++ (pos, k + 1) :: big)) (list_tail A)) := by
  have hj8 : j < skip_list_level_max := by omega
  have hjsz : j < sz := by omega
  have hsmall : ∀ e, e ∈ small → e ∈ es := fun e he => by rw [hes]; simp [he]
  have hbig : ∀ e, e ∈ big → e ∈ es := fun e he => by rw [hes]; simp [he]
  -- the pointer `update[j]`
  have hpmem : last_ptr NodePtr.head (level j small) = NodePtr.head ∨
      ∃ e, e ∈ es ∧ last_ptr NodePtr.head (level j small) = NodePtr.node e.1 := by
    rcases last_ptr_mem NodePtr.head (level j small) with h | ⟨a, ha, h⟩
    · exact Or.inl h
    · obtain ⟨e, he, rfl⟩ := mem_level_entry ha
      exact Or.inr ⟨e, hsmall e he, h⟩
  generalize hpdef : last_ptr NodePtr.head (level j small) = p at hpmem ⊢
  -- level `j` has not been written yet
  have hsegj : ∀ (l : List Nat) nx e, (∀ a, a ∈ l → ∃ e, e ∈ es ∧ e.1 = a) →
      (Seg A c.mem j nx l e ↔ Seg A cb.mem j nx l e) := by
    intro l nx e hl
    apply seg_congr
    intro a ha
    obtain ⟨e1, he1, rfl⟩ := hl a ha
    exact (hun j (le_refl _)).2 e1 he1
  have hchain : Seg A c.mem j (c.tc.huge_list.next j) (level j small ++ level j big)
      (list_tail A) := by
    rw [(hun j (le_refl _)).1, ← level_append, ← hes]
    exact (hsegj _ _ _ (fun a ha => mem_level_entry ha)).2 (hbase j hjsz)
  obtain ⟨nx, hnx, hrest, _⟩ := seg_after c hj8 (level j small) (level j big) _ hchain
  rw [hpdef] at hnx
  refine ⟨nx, hnx, ?_, ?_, ?_, ?_⟩
  · exact (hfr.set_next _ _ hj8 (fun x hx => by
      rw [← NodePtr.node.inj hx]; simp)).set_next _ _ hj8 (fun x hx => by
      rcases hpmem with h | ⟨e, he, h⟩
      · rw [h] at hx
        exact absurd hx (by simp)
      · rw [h] at hx
        rw [← NodePtr.node.inj hx]
        exact List.mem_cons_of_mem _ (List.mem_map_of_mem _ he))
  · intro i hi
    refine ⟨?_, ?_⟩
    · rw [set_next_ctx_head_next _ _ _ _ _ (fun _ => by omega),
        set_next_ctx_head_next _ _ _ _ _ (fun h => absurd h (by simp))]
      exact (hun i (by omega)).1
    · intro e he
      rw [set_next_ctx_mem, set_next_ctx_mem]
      · exact (hun i (by omega)).2 e he
      · intro x hx
        rw [← NodePtr.node.inj hx]
        exact field_sep (by omega) hj8 (Or.inr (hnew e he)) (Or.inr (by omega))
      · intro x hx
        rcases hpmem with h | ⟨e1, he1, h⟩
        · rw [h] at hx
          exact absurd hx (by simp)
        · rw [h] at hx
          rw [← NodePtr.node.inj hx]
          exact field_sep (by omega) hj8 (hhdr e e1 he he1) (Or.inr (by omega))
  · intro i hi
    rw [set_next_ctx_head_next _ _ _ _ _ (fun _ => by omega),
      set_next_ctx_head_next _ _ _ _ _ (fun h => absurd h (by simp))]
    exact hhi i hi
  · intro i hi hisz
    have hi8 : i < skip_list_level_max := by omega
    -- membership in the new level lists
    have hmemnew : ∀ a, a ∈ level i (small ++ (pos, k + 1) :: big) →
        a = pos ∨ ∃ e, e ∈ es ∧ e.1 = a := by
      intro a ha
      obtain ⟨x, h1, _⟩ := mem_level.1 ha
      rcases List.mem_append.1 h1 with h | h
      · exact Or.inr ⟨_, hsmall _ h, rfl⟩
      · rcases List.mem_cons.1 h with h | h
        · left
          exact (Prod.mk.inj h).1
        · exact Or.inr ⟨_, hbig _ h, rfl⟩
    rcases Nat.lt_or_ge j i with hlt | hge
    · -- a level that is already linked
      rw [set_next_ctx_head_next _ _ _ _ _ (fun _ => by omega),
        set_next_ctx_head_next _ _ _ _ _ (fun h => absurd h (by simp))]
      refine (seg_set_next_other _ _ j _ i _ _ _ ?_).2
        ((seg_set_next_other _ _ j _ i _ _ _ ?_).2 (hdone i hlt hisz))
      · intro x hx a ha
        rcases hpmem with h | ⟨e1, he1, h⟩
        · rw [h] at hx
          exact absurd hx (by simp)
        · rw [h] at hx
          rw [← NodePtr.node.inj hx]
          rcases hmemnew a ha with rfl | ⟨e, he, rfl⟩
          · exact field_sep hi8 hj8 (Or.inr ((hnew e1 he1).symm)) (Or.inr (by omega))
          · exact field_sep hi8 hj8 (hhdr e e1 he he1) (Or.inr (by omega))
      · intro x hx a ha
        rw [← NodePtr.node.inj hx]
        rcases hmemnew a ha with rfl | ⟨e, he, rfl⟩
        · exact field_sep hi8 hj8 (Or.inl rfl) (Or.inr (by omega))
        · exact field_sep hi8 hj8 (Or.inr (hnew e he)) (Or.inr (by omega))
    · -- the level being linked
      have hij : i = j := by omega
      subst hij
      have hlevnew : level i (small ++ (pos, k + 1) :: big)
          = level i small ++ pos :: level i big := by
        rw [level_append, level_cons_pos _ (by simp only; omega)]
      rw [hlevnew, ← hpdef]
      have hnotin : ∀ l : List Nat, (∀ a, a ∈ l → ∃ e, e ∈ es ∧ e.1 = a) → pos ∉ l := by
        intro l hl hmem
        obtain ⟨e, he, hep⟩ := hl pos hmem
        have := hnew e he
        have := sizeof_huge_link_pos A
        omega
      apply relink _ hj8 (level i small) (level i big) (pos :: level i big) (pos / A)
      · -- the old chain survives the store into the new node
        rw [set_next_ctx_head_next _ _ _ _ _ (fun h => absurd h (by simp))]
        refine (seg_set_next_other _ _ i _ i _ _ _ ?_).2 hchain
        intro x hx a ha
        rw [← NodePtr.node.inj hx]
        have ha2 : a ∈ level i es := by rw [hes, level_append]; exact ha
        obtain ⟨e, he, rfl⟩ := mem_level_entry ha2
        exact field_sep hi8 hi8 (Or.inr (hnew e he)) (Or.inl (by
          intro h
          have := hnew e he
          have := sizeof_huge_link_pos A
          omega))
      · -- the chain that starts at the new node
        refine ⟨rfl, ?_⟩
        have hval : (set_next_ctx A c (NodePtr.node pos) i nx).mem
            (pos + sizeof_link A * (1 + i)) = nx := by
          simp [set_next_ctx]
        rw [hval]
        refine (seg_set_next_other _ _ i _ i _ _ _ ?_).2 hrest
        intro x hx a ha
        rw [← NodePtr.node.inj hx]
        obtain ⟨e, he, rfl⟩ := mem_level_entry ha
        exact field_sep hi8 hi8 (Or.inr (hnew e (hbig e he))) (Or.inl (by
          intro h
          have := hnew e (hbig e he)
          have := sizeof_huge_link_pos A
          omega))
      · intro x hx
        have hnd := hnodup i
        rw [hes, level_append] at hnd
        rcases last_ptr_cases NodePtr.head (level i small) with ⟨_, h2⟩ | ⟨Q1, y, h1, h2⟩
        · rw [h2] at hx
          exact absurd hx (by simp)
        · rw [h2] at hx
          have hxy : y = x := NodePtr.node.inj hx
          subst hxy
          rw [h1, List.dropLast_concat]
          rw [h1] at hnd
          have hnd2 : (Q1 ++ y :: level i big).Nodup := by
            simpa [List.append_assoc] using hnd
          have h3 := List.nodup_middle.1 hnd2
          rw [List.nodup_cons] at h3
          have h4 := h3.1
          simp only [List.mem_append, not_or] at h4
          refine ⟨h4.1, ?_⟩
          simp only [List.mem_cons, not_or]
          refine ⟨?_, h4.2⟩
          intro hyp
          have hy : y ∈ level i small := by rw [h1]; simp
          exact hnotin (level i small) (fun a ha => by
            obtain ⟨e, he, h⟩ := mem_level_entry ha
            exact ⟨e, hsmall e he, h⟩) (hyp ▸ hy)

/-- The link loop of `sfree` from level `j` down to level 0, on a state in
which the levels above `j` have been linked already. -/
theorem link_levels_spec {A : Nat} (hA : ValidAlign A) (cb : Ctx)
    (es small big : List (Nat × Nat))
    (pos k sz : Nat) (u : UpdateArr) (hes : es = small ++ big)
    (hsz : sz ≤ skip_list_level_max)
    (hbase : ∀ i, i < sz →
      Seg A cb.mem i (cb.tc.huge_list.next i) (level i es) (list_tail A))
    (hhdr : ∀ e f, e ∈ es → f ∈ es →
      e.1 = f.1 ∨ e.1 + sizeof_huge_link A ≤ f.1 ∨ f.1 + sizeof_huge_link A ≤ e.1)
    (hnew : ∀ e, e ∈ es → e.1 + sizeof_huge_link A ≤ pos ∨ pos + sizeof_huge_link A ≤ e.1)
    (hnodup : ∀ i, (level i es).Nodup)
    (hlink : pos / A < list_tail A)
    (hu : ∀ i, i ≤ k → u i = some (last_ptr NodePtr.head (level i small)))
    (hksz : k < sz) :
    ∀ j, j ≤ k → ∀ c : Ctx,
      LinkFrame A (pos :: es.map Prod.fst) cb c →
      (∀ i, i ≤ j → c.tc.huge_list.next i = cb.tc.huge_list.next i ∧
        ∀ e, e ∈ es → c.mem (e.1 + sizeof_link A * (1 + i))
          = cb.mem (e.1 + sizeof_link A * (1 + i))) →
      (∀ i, k < i → c.tc.huge_list.next i = cb.tc.huge_list.next i) →
      (∀ i, j < i → i < sz →
        Seg A c.mem i (c.tc.huge_list.next i) (level i (small ++ (pos, k + 1) :: big))
          (list_tail A)) →
      ∃ c1, link_levels A u pos j c = some c1 ∧
        LinkFrame A (pos :: es.map Prod.fst) cb c1 ∧
        (∀ i, k < i → c1.tc.huge_list.next i = cb.tc.huge_list.next i) ∧
        (∀ i, i < sz →
          Seg A c1.mem i (c1.tc.huge_list.next i) (level i (small ++ (pos, k + 1) :: big))
            (list_tail A)) := by
  intro j
  induction j with
  | zero =>
    intro hjk c hfr hun hhi hdone
    obtain ⟨nx, hnx, h1, _, h3, h4⟩ := link_step cb es small big pos k sz hes hsz hbase hhdr
      hnew hnodup 0 hjk hksz c hfr hun hhi hdone
    have h8 : 0 < skip_list_level_max := by decide
    refine ⟨_, ?_, h1, h3, fun i hi => h4 i (Nat.zero_le i) hi⟩
    unfold link_levels
    simp only [upd_get, if_pos h8, hu 0 hjk, hnx, node_set_next_eq _ _ _ h8,
      shr_off_eq hA, tolink_of_lt_tail hlink]
  | succ j ih =>
    intro hjk c hfr hun hhi hdone
    obtain ⟨nx, hnx, h1, h2, h3, h4⟩ := link_step cb es small big pos k sz hes hsz hbase hhdr
      hnew hnodup (j + 1) hjk hksz c hfr hun hhi hdone
    have h8 : j + 1 < skip_list_level_max := by omega
    obtain ⟨c1, hrun, hr⟩ := ih (by omega) _ h1 (fun i hi => h2 i (by omega)) h3
      (fun i hi hi2 => h4 i (by omega) hi2)
    refine ⟨c1, ?_, hr⟩
    unfold link_levels
    simp only [upd_get, if_pos h8, hu (j + 1) hjk, hnx, node_set_next_eq _ _ _ h8,
      shr_off_eq hA, tolink_of_lt_tail hlink]
    exact hrun

theorem pairwise_insert {α : Type} {R : α → α → Prop} {small big : List α} {x : α}
    (h : (small ++ big).Pairwise R) (h1 : ∀ a, a ∈ small → R a x)
    (h2 : ∀ b, b ∈ big → R x b) : (small ++ x :: big).Pairwise R := by
  rw [List.pairwise_append] at h ⊢
  rw [List.pairwise_cons]
  refine ⟨h.1, ⟨h2, h.2.1⟩, fun a ha b hb => ?_⟩
  rcases List.mem_cons.1 hb with hb | hb
  · rw [hb]
    exact h1 a ha
  · exact h.2.2 a ha b hb

theorem random_level_loop_le (r : Nat → Nat × Nat) :
    ∀ (f seed lv : Nat), lv ≤ skip_list_level_max →
      (random_level_loop r f seed lv).1 ≤ skip_list_level_max := by
  intro f
  induction f with
  | zero =>
    intro seed lv h
    exact h
  | succ f ih =>
    intro seed lv h
    unfold random_level_loop
    simp only
    split
    · rename_i hc
      exact ih _ _ hc.2
    · exact h

theorem random_level_lt (r : Nat → Nat × Nat) (seed : Nat) :
    (random_level r seed).1 < skip_list_level_max := by
  have h := random_level_loop_le r skip_list_level_max seed 1 (by decide)
  unfold random_level
  simp only
  have h8 : skip_list_level_max = 8 := rfl
  omega

/-- The link loop of `sfree` followed by the store of the block size: the new
block `[pos, pos + len)` is entered with height `k + 1` between the entries
smaller than `len` and the others, and the list stays well formed. -/
theorem insert_core {A : Nat} (hA : ValidAlign A) (c cb : Ctx)
    (es small big : List (Nat × Nat)) (pos len k : Nat) (u : UpdateArr)
    (hwf : SkipWF A c es) (hes : es = small ++ big)
    (hs : ∀ e, e ∈ small → c.mem e.1 < len) (hb : ∀ e, e ∈ big → ¬ c.mem e.1 < len)
    (hposal : pos % A = 0) (hlink : pos / A < list_tail A)
    (hlen : sizeof_huge_link A ≤ len) (hend : pos + len < 2 ^ 64)
    (hdisj : ∀ e, e ∈ es → e.1 + c.mem e.1 ≤ pos ∨ pos + len ≤ e.1)
    (hcbmem : cb.mem = c.mem) (hcbnext : cb.tc.huge_list.next = c.tc.huge_list.next)
    (hcbsz : c.tc.huge_list.size ≤ cb.tc.huge_list.size)
    (hsz8 : cb.tc.huge_list.size ≤ skip_list_level_max)
    (hk : k < cb.tc.huge_list.size)
    (htop : cb.tc.huge_list.size = c.tc.huge_list.size ∨ cb.tc.huge_list.size = k + 1)
    (hu : ∀ i, i ≤ k → u i = some (last_ptr NodePtr.head (level i small))) :
    ∃ c2, link_levels A u pos k cb = some c2 ∧
      LinkFrame A (pos :: es.map Prod.fst) cb c2 ∧
      (∀ e, e ∈ es → c2.mem e.1 = c.mem e.1) ∧
      SkipWF A { c2 with mem := Function.update c2.mem pos len }
        (small ++ (pos, k + 1) :: big) := by
  have hshl := sizeof_huge_link_pos A
  have hnew : ∀ e, e ∈ es →
      e.1 + sizeof_huge_link A ≤ pos ∨ pos + sizeof_huge_link A ≤ e.1 := by
    intro e he
    have h1 := hdisj e he
    have h2 := (hwf.addr e he).2.2.1
    omega
  have hbase : ∀ i, i < cb.tc.huge_list.size →
      Seg A cb.mem i (cb.tc.huge_list.next i) (level i es) (list_tail A) := by
    intro i hi
    rw [hcbmem, hcbnext]
    by_cases hic : i < c.tc.huge_list.size
    · exact hwf.chain i hic
    · have hl : level i es = [] :=
        level_eq_nil_of_height (fun e he => le_trans (hwf.height e he).2 (by omega))
      rw [hl]
      exact hwf.above i (by omega) (by omega)
  have hlvl : ∀ i, k < i → level i (small ++ (pos, k + 1) :: big) = level i es := by
    intro i hi
    rw [level_append, level_cons_neg _ (by simp only; omega), ← level_append, ← hes]
  obtain ⟨c2, hrun, hfr, hhi, hseg⟩ := link_levels_spec hA cb es small big pos k
    cb.tc.huge_list.size u hes hsz8 hbase (fun e f he hf => hwf.hdr_fst he hf) hnew
    hwf.level_nodup hlink hu hk k le_rfl cb (LinkFrame.refl _ _ _)
    (fun i _ => ⟨rfl, fun _ _ => rfl⟩) (fun _ _ => rfl)
    (fun i hi hi2 => by rw [hlvl i hi]; exact hbase i hi2)
  have hsub1 : ∀ e, e ∈ small → e ∈ es := fun e he => by rw [hes]; simp [he]
  have hsub2 : ∀ e, e ∈ big → e ∈ es := fun e he => by rw [hes]; simp [he]
  have hne : ∀ e, e ∈ es → e.1 ≠ pos := by
    intro e he
    have := hnew e he
    omega
  have hmem2 : ∀ e, e ∈ es → c2.mem e.1 = c.mem e.1 := by
    intro e he
    rw [← hcbmem]
    apply hfr.mem_eq
    intro a ha i hi
    rcases List.mem_cons.1 ha with ha | ha
    · rw [ha]
      exact size_sep hi (Or.inr (hnew e he))
    · obtain ⟨f, hf, hfa⟩ := List.mem_map.1 ha
      rw [← hfa]
      exact size_sep hi (hwf.hdr_fst he hf)
  refine ⟨c2, hrun, hfr, hmem2, ?_⟩
  have hmem3 : ∀ e, e ∈ es → Function.update c2.mem pos len e.1 = c.mem e.1 := by
    intro e he
    rw [Function.update_noteq (hne e he)]
    exact hmem2 e he
  have hmemp : Function.update c2.mem pos len pos = len := Function.update_same _ _ _
  have hnewmem : ∀ e, e ∈ small ++ (pos, k + 1) :: big → e ∈ es ∨ e = (pos, k + 1) := by
    intro e he
    rcases List.mem_append.1 he with h | h
    · exact Or.inl (hsub1 e h)
    · rcases List.mem_cons.1 h with h | h
      · exact Or.inr h
      · exact Or.inl (hsub2 e h)
  refine ⟨?_, ?_, ?_, ?_, ?_, ?_, ?_, ?_⟩
  · show c2.tc.huge_list.size ≤ skip_list_level_max
    rw [hfr.size]
    exact hsz8
  · intro i hi
    have hi2 : i < cb.tc.huge_list.size := by
      have : i < c2.tc.huge_list.size := hi
      rw [hfr.size] at this
      exact this
    show Seg A (Function.update c2.mem pos len) i (c2.tc.huge_list.next i) _ _
    rw [seg_congr]
    · exact hseg i hi2
    · intro a ha
      apply Function.update_noteq
      have h8 : i < skip_list_level_max := by omega
      obtain ⟨e, he, hea⟩ := mem_level_entry ha
      rcases hnewmem e he with h | h
      · rw [← hea]
        have := hnew e h
        exact Ne.symm (size_sep h8 (Or.inr (by omega)))
      · rw [← hea, h]
        exact Ne.symm (size_sep h8 (Or.inl rfl))
  · intro i hi hi8
    have hi2 : cb.tc.huge_list.size ≤ i := by
      have : c2.tc.huge_list.size ≤ i := hi
      rw [hfr.size] at this
      exact this
    show c2.tc.huge_list.next i = list_tail A
    rw [hhi i (by omega), hcbnext]
    exact hwf.above i (by omega) hi8
  · intro e he
    show 1 ≤ e.2 ∧ e.2 ≤ c2.tc.huge_list.size
    rw [hfr.size]
    rcases hnewmem e he with h | h
    · have := hwf.height e h
      omega
    · rw [h]
      simp only
      omega
  · intro _
    show level (c2.tc.huge_list.size - 1) _ ≠ []
    rw [hfr.size]
    rcases htop with h | h
    · have hc0 : c.tc.huge_list.size ≠ 0 := by omega
      have h1 := hwf.top hc0
      rw [h]
      obtain ⟨a, ha⟩ := List.exists_mem_of_ne_nil _ h1
      apply List.ne_nil_of_mem (a := a)
      rw [hes, level_append] at ha
      rw [level_append]
      rcases List.mem_append.1 ha with h2 | h2
      · exact List.mem_append_left _ h2
      · apply List.mem_append_right
        obtain ⟨x, hx1, hx2⟩ := mem_level.1 h2
        exact mem_level.2 ⟨x, List.mem_cons_of_mem _ hx1, hx2⟩
    · rw [h, Nat.add_sub_cancel, level_append, level_cons_pos _ (by simp)]
      simp
  · show List.Pairwise (fun e f : Nat × Nat =>
        Function.update c2.mem pos len e.1 ≤ Function.update c2.mem pos len f.1) _
    have h0 : es.Pairwise (fun e f : Nat × Nat =>
        Function.update c2.mem pos len e.1 ≤ Function.update c2.mem pos len f.1) := by
      refine List.Pairwise.imp_of_mem ?_ hwf.sorted
      intro e f he hf h
      rw [hmem3 e he, hmem3 f hf]
      exact h
    rw [hes] at h0
    apply pairwise_insert h0
    · intro a ha
      rw [hmem3 a (hsub1 a ha), hmemp]
      exact le_of_lt (hs a ha)
    · intro b hb'
      rw [hmem3 b (hsub2 b hb'), hmemp]
      have := hb b hb'
      omega
  · intro e he
    show e.1 % A = 0 ∧ e.1 / A < list_tail A ∧
      sizeof_huge_link A ≤ Function.update c2.mem pos len e.1 ∧
      e.1 + Function.update c2.mem pos len e.1 < 2 ^ 64
    rcases hnewmem e he with h | h
    · rw [hmem3 e h]
      exact hwf.addr e h
    · rw [h]
      simp only [hmemp]
      exact ⟨hposal, hlink, hlen, hend⟩
  · show List.Pairwise (fun e f : Nat × Nat =>
        e.1 + Function.update c2.mem pos len e.1 ≤ f.1 ∨
        f.1 + Function.update c2.mem pos len f.1 ≤ e.1) _
    have h0 : es.Pairwise (fun e f : Nat × Nat =>
        e.1 + Function.update c2.mem pos len e.1 ≤ f.1 ∨
        f.1 + Function.update c2.mem pos len f.1 ≤ e.1) := by
      refine List.Pairwise.imp_of_mem ?_ hwf.disj
      intro e f he hf h
      rw [hmem3 e he, hmem3 f hf]
      exact h
    rw [hes] at h0
    apply pairwise_insert h0
    · intro a ha
      rw [hmem3 a (hsub1 a ha), hmemp]
      exact hdisj a (hsub1 a ha)
    · intro b hb'
      rw [hmem3 b (hsub2 b hb'), hmemp]
      exact (hdisj b (hsub2 b hb')).symm

/-- The facts about the state left by the skiplist branch of `sfree`, from
those about the state `c2` left by its link loop. -/
theorem sfree_huge_post {A : Nat} (c cb c2 : Ctx) (es L : List (Nat × Nat)) (pos len : Nat)
    (hcb : cb.mem = c.mem ∧ cb.tc.m_freelist_head = c.tc.m_freelist_head ∧
      cb.tc.m_hot_pos = c.tc.m_hot_pos ∧ cb.tc.m_hot_end = c.tc.m_hot_end ∧
      cb.tc.fragment_size = c.tc.fragment_size ∧ cb.tc.m_frag_inc = c.tc.m_frag_inc ∧
      cb.mp_fragment_size = c.mp_fragment_size ∧
      cb.tc.huge_size_sum = c.tc.huge_size_sum ∧ cb.tc.huge_node_cnt = c.tc.huge_node_cnt)
    (hne : ∀ e, e ∈ es → e.1 ≠ pos)
    (hfr : LinkFrame A (pos :: es.map Prod.fst) cb c2)
    (hmem2 : ∀ e, e ∈ es → c2.mem e.1 = c.mem e.1)
    (hwf2 : SkipWF A { c2 with mem := Function.update c2.mem pos len } L) :
    SkipWF A ({ c2 with
        mem := Function.update c2.mem pos len
        tc := { c2.tc with
          huge_size_sum := tosize (c2.tc.huge_size_sum + len)
          huge_node_cnt := tosize (c2.tc.huge_node_cnt + 1) } } : Ctx) L ∧
      Function.update c2.mem pos len pos = len ∧
      (∀ e, e ∈ es → Function.update c2.mem pos len e.1 = c.mem e.1) ∧
      (∀ addr, addr < pos ∨ pos + sizeof_huge_link A ≤ addr →
        (∀ e, e ∈ es → addr < e.1 ∨ e.1 + sizeof_huge_link A ≤ addr) →
        Function.update c2.mem pos len addr = c.mem addr) ∧
      c2.tc.m_freelist_head = c.tc.m_freelist_head ∧
      c2.tc.m_hot_pos = c.tc.m_hot_pos ∧ c2.tc.m_hot_end = c.tc.m_hot_end ∧
      c2.tc.fragment_size = c.tc.fragment_size ∧ c2.tc.m_frag_inc = c.tc.m_frag_inc ∧
      c2.mp_fragment_size = c.mp_fragment_size ∧
      tosize (c2.tc.huge_size_sum + len) = tosize (c.tc.huge_size_sum + len) ∧
      tosize (c2.tc.huge_node_cnt + 1) = tosize (c.tc.huge_node_cnt + 1) := by
  obtain ⟨hc1, hc2, hc3, hc4, hc5, hc6, hc7, hc8, hc9⟩ := hcb
  have hshl := sizeof_huge_link_pos A
  refine ⟨hwf2.frame rfl (fun _ _ _ _ => rfl), Function.update_same _ _ _, ?_, ?_,
    hfr.freelist.trans hc2, hfr.hot_pos.trans hc3, hfr.hot_end.trans hc4,
    hfr.fragment_size.trans hc5, hfr.frag_inc.trans hc6, hfr.mp_frag.trans hc7, ?_, ?_⟩
  · intro e he
    rw [Function.update_noteq (hne e he)]
    exact hmem2 e he
  · intro addr h1 h2
    rw [Function.update_noteq (by omega), ← hc1]
    apply hfr.mem_eq
    intro a ha i hi
    have hlt : sizeof_link A * (1 + i) < sizeof_huge_link A := by
      unfold sizeof_huge_link
      exact Nat.mul_lt_mul_of_pos_left (by omega) (sizeof_link_pos _)
    rcases List.mem_cons.1 ha with ha | ha
    · rw [ha]
      omega
    · obtain ⟨f, hf, hfa⟩ := List.mem_map.1 ha
      have := h2 f hf
      rw [← hfa]
      omega
  · rw [hfr.huge_size_sum, hc8]
  · rw [hfr.huge_node_cnt, hc9]

/-- The skiplist branch of `sfree` on a well-formed huge list: the block
`[pos, pos + len)` is entered behind the entries smaller than `len`, with
some height `h`, and everything outside the block headers is preserved. -/
theorem sfree_huge_spec (P : Params) (fuel : Nat) (c : Ctx) (pos len : Nat)
    (es small big : List (Nat × Nat)) (hA : ValidAlign P.AlignSize)
    (hwf : SkipWF P.AlignSize c es) (hes : es = small ++ big)
    (hs : ∀ e, e ∈ small → c.mem e.1 < len) (hb : ∀ e, e ∈ big → ¬ c.mem e.1 < len)
    (hposal : pos % P.AlignSize = 0) (hlink : pos / P.AlignSize < list_tail P.AlignSize)
    (hlen : sizeof_huge_link P.AlignSize ≤ len) (hlenl : len < 2 ^ link_bits P.AlignSize)
    (hend : pos + len < 2 ^ 64)
    (hdisj : ∀ e, e ∈ es → e.1 + c.mem e.1 ≤ pos ∨ pos + len ≤ e.1)
    (hfuel : es.length < fuel) :
    ∃ h c1, sfree_huge P fuel c pos len = some c1 ∧
      SkipWF P.AlignSize c1 (small ++ (pos, h) :: big) ∧
      c1.mem pos = len ∧
      (∀ e, e ∈ es → c1.mem e.1 = c.mem e.1) ∧
      (∀ addr, addr < pos ∨ pos + sizeof_huge_link P.AlignSize ≤ addr →
        (∀ e, e ∈ es → addr < e.1 ∨ e.1 + sizeof_huge_link P.AlignSize ≤ addr) →
        c1.mem addr = c.mem addr) ∧
      c1.tc.m_freelist_head = c.tc.m_freelist_head ∧
      c1.tc.m_hot_pos = c.tc.m_hot_pos ∧ c1.tc.m_hot_end = c.tc.m_hot_end ∧
      c1.tc.fragment_size = c.tc.fragment_size ∧ c1.tc.m_frag_inc = c.tc.m_frag_inc ∧
      c1.mp_fragment_size = c.mp_fragment_size ∧
      c1.tc.huge_size_sum = tosize (c.tc.huge_size_sum + len) ∧
      c1.tc.huge_node_cnt = tosize (c.tc.huge_node_cnt + 1) := by
  have h88 : skip_list_level_max = 8 := rfl
  have hrl := random_level_lt P.rand_r c.tc.m_rand_seed
  have hwf0 : SkipWF P.AlignSize ({ c with tc := { c.tc with
      m_rand_seed := (random_level P.rand_r c.tc.m_rand_seed).2 } } : Ctx) es :=
    hwf.frame rfl (fun _ _ _ _ => rfl)
  have hl0 : level c.tc.huge_list.size small = [] :=
    level_eq_nil_of_height (fun e he => (hwf.height e (by rw [hes]; simp [he])).2)
  obtain ⟨n2r, ur, hfind, hur, hur2, _, _⟩ := find_lt_spec hA _ es small big len fuel hwf0 hes
    hs hb hfuel c.tc.huge_list.size (le_refl _) none (fun _ => none)
  rw [hl0] at hfind
  have hlen2 : tolink P.AlignSize len = len := tolink_of_lt hlenl
  have hne : ∀ e, e ∈ es → e.1 ≠ pos := by
    intro e he
    have h1 := hdisj e he
    have h2 := (hwf.addr e he).2.2.1
    have h3 := sizeof_huge_link_pos P.AlignSize
    omega
  by_cases hg : (random_level P.rand_r c.tc.m_rand_seed).1 ≥ c.tc.huge_list.size
  · have hs8 : c.tc.huge_list.size < skip_list_level_max := by omega
    have htl : tolink P.AlignSize (c.tc.huge_list.size + 1) = c.tc.huge_list.size + 1 := by
      apply tolink_of_lt
      rcases link_bits_cases P.AlignSize with h | h <;> rw [h] <;> omega
    obtain ⟨c2, hrun, hfr, hmem2, hwf2⟩ := insert_core hA c
      ({ c with tc := { c.tc with
          m_rand_seed := (random_level P.rand_r c.tc.m_rand_seed).2
          huge_list := { c.tc.huge_list with size := c.tc.huge_list.size + 1 } } } : Ctx)
      es small big pos len c.tc.huge_list.size
      (Function.update ur c.tc.huge_list.size (some NodePtr.head))
      hwf hes hs hb hposal hlink hlen hend hdisj rfl rfl (Nat.le_succ _)
      (by show c.tc.huge_list.size + 1 ≤ skip_list_level_max; omega)
      (Nat.lt_succ_self _) (Or.inr rfl)
      (by
        intro i hi
        by_cases hi2 : i = c.tc.huge_list.size
        · rw [hi2, Function.update_same, hl0]
          rfl
        · rw [Function.update_noteq hi2]
          exact hur i (by omega))
    have hrunX : sfree_huge P fuel c pos len = some ({ c2 with
        mem := Function.update c2.mem pos len
        tc := { c2.tc with
          huge_size_sum := tosize (c2.tc.huge_size_sum + len)
          huge_node_cnt := tosize (c2.tc.huge_node_cnt + 1) } } : Ctx) := by
      unfold sfree_huge
      simp only [ge_iff_le, hg, if_true, upd_set, if_pos hs8, htl, hlen2]
      generalize hF : find_lt P.AlignSize _ len fuel _ _ _ _ = F
      have hF2 : F = some (last_ptr NodePtr.head (level 0 small), n2r, ur) :=
        hF.symm.trans hfind
      rw [hF2]
      simp only []
      generalize hL : link_levels P.AlignSize _ pos _ _ = L
      have hL2 : L = some c2 := hL.symm.trans hrun
      rw [hL2]
    exact ⟨c.tc.huge_list.size + 1, _, hrunX,
      sfree_huge_post c ({ c with tc := { c.tc with
          m_rand_seed := (random_level P.rand_r c.tc.m_rand_seed).2
          huge_list := { c.tc.huge_list with size := c.tc.huge_list.size + 1 } } } : Ctx)
        c2 es _ pos len ⟨rfl, rfl, rfl, rfl, rfl, rfl, rfl, rfl, rfl⟩
        hne hfr hmem2 hwf2⟩
  · have hk : (random_level P.rand_r c.tc.m_rand_seed).1 < c.tc.huge_list.size := by omega
    obtain ⟨c2, hrun, hfr, hmem2, hwf2⟩ := insert_core hA c
      ({ c with tc := { c.tc with
          m_rand_seed := (random_level P.rand_r c.tc.m_rand_seed).2 } } : Ctx)
      es small big pos len (random_level P.rand_r c.tc.m_rand_seed).1 ur
      hwf hes hs hb hposal hlink hlen hend hdisj rfl rfl (le_refl _) hwf.size_le
      hk (Or.inl rfl) (fun i hi => hur i (by omega))
    have hrunX : sfree_huge P fuel c pos len = some ({ c2 with
        mem := Function.update c2.mem pos len
        tc := { c2.tc with
          huge_size_sum := tosize (c2.tc.huge_size_sum + len)
          huge_node_cnt := tosize (c2.tc.huge_node_cnt + 1) } } : Ctx) := by
      unfold sfree_huge
      simp only [ge_iff_le, hg, if_false, hlen2]
      generalize hF : find_lt P.AlignSize _ len fuel _ _ _ _ = F
      have hF2 : F = some (last_ptr NodePtr.head (level 0 small), n2r, ur) :=
        hF.symm.trans hfind
      rw [hF2]
      simp only []
      generalize hL : link_levels P.AlignSize _ pos _ _ = L
      have hL2 : L = some c2 := hL.symm.trans hrun
      rw [hL2]
    exact ⟨(random_level P.rand_r c.tc.m_rand_seed).1 + 1, _, hrunX,
      sfree_huge_post c ({ c with tc := { c.tc with
          m_rand_seed := (random_level P.rand_r c.tc.m_rand_seed).2 } } : Ctx)
        c2 es _ pos len ⟨rfl, rfl, rfl, rfl, rfl, rfl, rfl, rfl, rfl⟩
        hne hfr hmem2 hwf2⟩

theorem sorted_split {α : Type} (f : α → Nat) (len : Nat) :
    ∀ es : List α, es.Pairwise (fun a b => f a ≤ f b) →
      ∃ small big, es = small ++ big ∧ (∀ e, e ∈ small → f e < len) ∧
        (∀ e, e ∈ big → ¬ f e < len) := by
  intro es
  induction es with
  | nil =>
    intro _
    exact ⟨[], [], rfl, fun _ h => by simp at h, fun _ h => by simp at h⟩
  | cons a l ih =>
    intro h
    rw [List.pairwise_cons] at h
    by_cases ha : f a < len
    · obtain ⟨small, big, h1, h2, h3⟩ := ih h.2
      refine ⟨a :: small, big, by rw [h1]; rfl, ?_, h3⟩
      intro e he
      rcases List.mem_cons.1 he with he | he
      · rw [he]
        exact ha
      · exact h2 e he
    · refine ⟨[], a :: l, rfl, fun _ h => by simp at h, ?_⟩
      intro e he
      rcases List.mem_cons.1 he with he | he
      · rw [he]
        exact ha
      · have := h.1 e he
        omega

/-- The method `sfree` on a well-formed huge list, whatever branch it takes:
it returns, the huge list stays well formed, and its entries are the old ones
with their sizes, plus the freed block when that was entered into the list. -/
theorem sfree_skip (P : Params) (fuel : Nat) (c : Ctx) (pos len : Nat)
    (es : List (Nat × Nat)) (hA : ValidAlign P.AlignSize)
    (hwf : SkipWF P.AlignSize c es)
    (hposal : pos % P.AlignSize = 0) (hlen0 : 0 < len) (hlenal : len % P.AlignSize = 0)
    (hlink : pos / P.AlignSize < list_tail P.AlignSize)
    (hlenl : len < 2 ^ link_bits P.AlignSize) (hend : pos + len < 2 ^ 64)
    (hdisj : ∀ e, e ∈ es → e.1 + c.mem e.1 ≤ pos ∨ pos + len ≤ e.1)
    (hbin : sizeof_huge_link P.AlignSize ≤ c.tc.m_freelist_head.length * P.AlignSize)
    (hbl : c.tc.m_freelist_head.length * P.AlignSize < 2 ^ 64)
    (hfuel : es.length < fuel) :
    ∃ c1 es1, sfree P fuel c pos len = some c1 ∧ SkipWF P.AlignSize c1 es1 ∧
      (∀ e, e ∈ es1 → (e ∈ es ∧ c1.mem e.1 = c.mem e.1) ∨
        (e.1 = pos ∧ c1.mem e.1 = len ∧ c.tc.m_freelist_head.length * P.AlignSize < len)) ∧
      (∀ e, e ∈ es → e ∈ es1 ∧ c1.mem e.1 = c.mem e.1) ∧
      es1.length ≤ es.length + 1 ∧
      c1.tc.m_freelist_head.length = c.tc.m_freelist_head.length ∧
      c1.tc.m_hot_end = c.tc.m_hot_end ∧
      (c1.tc.m_hot_pos = c.tc.m_hot_pos ∨
        (c1.tc.m_hot_pos = pos ∧ pos + len = c.tc.m_hot_pos ∧ es1 = es)) := by
  have hfm : tosize (c.tc.m_freelist_head.length * P.AlignSize)
      = c.tc.m_freelist_head.length * P.AlignSize := tosize_of_lt hbl
  have hpl : tosize (pos + len) = pos + len := tosize_of_lt hend
  by_cases hhot : tosize (pos + len) = c.tc.m_hot_pos
  · refine ⟨{ c with tc := { c.tc with m_hot_pos := pos } }, es, ?_,
      hwf.frame rfl (fun _ _ _ _ => rfl), fun e he => Or.inl ⟨he, rfl⟩,
      fun e he => ⟨he, rfl⟩, Nat.le_succ _, rfl, rfl, Or.inr ⟨rfl, ?_, rfl⟩⟩
    · unfold sfree
      rw [if_pos hhot]
    · rw [← hpl]
      exact hhot
  by_cases hfast : len ≤ c.tc.m_freelist_head.length * P.AlignSize
  · obtain ⟨list, c1, _, hs, hfl, hmem, _, hhl, _, _, hp, he, _⟩ :=
      sfree_fastbin P fuel c pos len hA hlen0 hlenal (by rw [hfm]; exact hfast) hhot
    have hmem1 : ∀ e, e ∈ es → ∀ d, d < sizeof_huge_link P.AlignSize →
        c1.mem (e.1 + d) = c.mem (e.1 + d) := by
      intro e he d hd
      rw [hmem]
      apply Function.update_noteq
      have h1 := hdisj e he
      have h2 := (hwf.addr e he).2.2.1
      omega
    have hmem0 : ∀ e, e ∈ es → c1.mem e.1 = c.mem e.1 := fun e he =>
      hmem1 e he 0 (sizeof_huge_link_pos _)
    refine ⟨c1, es, hs, hwf.frame hhl hmem1, fun e he => Or.inl ⟨he, hmem0 e he⟩,
      fun e he => ⟨he, hmem0 e he⟩, Nat.le_succ _, ?_, he, Or.inl hp⟩
    rw [hfl, List.length_set]
  · obtain ⟨small, big, hes, hsm, hbg⟩ := sorted_split (fun e : Nat × Nat => c.mem e.1) len es
      hwf.sorted
    obtain ⟨h, c0, hrun, hwf0, hm1, hm2, _, hfl, hp, he, _⟩ := sfree_huge_spec P fuel c pos len
      es small big hA hwf hes hsm hbg hposal hlink (by omega) hlenl hend hdisj hfuel
    refine ⟨account_free c0 len, small ++ (pos, h) :: big, ?_, ?_, ?_, ?_, ?_, ?_, ?_, ?_⟩
    · unfold sfree
      rw [if_neg hhot, hfm, if_neg hfast, hrun]
    · exact hwf0.frame (by simp) (fun _ _ _ _ => by simp)
    · intro e he'
      simp only [account_free_mem]
      rcases List.mem_append.1 he' with h1 | h1
      · have : e ∈ es := by rw [hes]; exact List.mem_append_left _ h1
        exact Or.inl ⟨this, hm2 e this⟩
      · rcases List.mem_cons.1 h1 with h1 | h1
        · rw [h1]
          exact Or.inr ⟨rfl, hm1, by omega⟩
        · have : e ∈ es := by rw [hes]; exact List.mem_append_right _ h1
          exact Or.inl ⟨this, hm2 e this⟩
    · intro e he'
      simp only [account_free_mem]
      refine ⟨?_, hm2 e he'⟩
      rw [hes] at he'
      rcases List.mem_append.1 he' with h1 | h1
      · exact List.mem_append_left _ h1
      · exact List.mem_append_right _ (List.mem_cons_of_mem _ h1)
    · rw [hes]
      simp only [List.length_append, List.length_cons]
      omega
    · simp [hfl]
    · simp [he]
    · left
      simp [hp]

/-! ## Best fit on the huge list (`alloc` lines 249-285) -/

/-- The search of the large-request path on a well-formed list whose first
entry of size at least `request` is `t`: it stops with `n2` on `t`, and with
the `update` array that the unlink loop needs. -/
theorem best_fit_search {A : Nat} (hA : ValidAlign A) (c : Ctx)
    (es small big : List (Nat × Nat)) (t : Nat × Nat) (request fuel : Nat)
    (hwf : SkipWF A c es) (hes : es = small ++ t :: big)
    (hs : ∀ e, e ∈ small → c.mem e.1 < request) (hge : request ≤ c.mem t.1)
    (hfuel : es.length < fuel) :
    ∃ n1 ur, find_lt A c request fuel c.tc.huge_list.size NodePtr.head none (fun _ => none)
        = some (n1, some (NodePtr.node t.1), ur) ∧
      (∀ k, k < c.tc.huge_list.size → k < t.2 →
        ur k = some (last_ptr NodePtr.head (level k small))) ∧
      (∀ k, k < c.tc.huge_list.size → ¬ k < t.2 →
        ∃ p nx, ur k = some p ∧ (p = NodePtr.head ∨ ∃ e, e ∈ es ∧ p = NodePtr.node e.1) ∧
          node_next A c p k = some nx ∧ nx ≠ t.1 / A) := by
  have ht : t ∈ es := by rw [hes]; simp
  have hth := hwf.height t ht
  have hsorted := hwf.sorted
  rw [hes, List.pairwise_append, List.pairwise_cons] at hsorted
  have hb : ∀ e, e ∈ t :: big → ¬ c.mem e.1 < request := by
    intro e he
    rcases List.mem_cons.1 he with he | he
    · rw [he]
      omega
    · have := hsorted.2.1.1 e he
      omega
  obtain ⟨n2r, ur, hrun, hur, _, hn2, _⟩ := find_lt_spec hA c es small (t :: big) request fuel
    hwf hes hs hb hfuel c.tc.huge_list.size (le_refl _) none (fun _ => none)
  have hl0 : level c.tc.huge_list.size small = [] :=
    level_eq_nil_of_height (fun e he => (hwf.height e (by rw [hes]; simp [he])).2)
  rw [hl0] at hrun
  have hn2r : n2r = some (NodePtr.node t.1) := hn2 (by omega) t big rfl
  rw [hn2r] at hrun
  refine ⟨_, ur, hrun, fun k hk _ => hur k hk, ?_⟩
  intro k hk hkt
  have hk8 : k < skip_list_level_max := lt_of_lt_of_le hk hwf.size_le
  have hlev : level k es = level k small ++ level k big := by
    rw [hes, level_append, level_cons_neg _ hkt]
  have hchain := hwf.chain k hk
  rw [hlev] at hchain
  obtain ⟨nx, hnx, hseg, _⟩ := seg_after c hk8 (level k small) (level k big) _ hchain
  refine ⟨last_ptr NodePtr.head (level k small), nx, hur k hk, ?_, hnx, ?_⟩
  · rcases last_ptr_mem NodePtr.head (level k small) with h | ⟨a, ha, h⟩
    · exact Or.inl h
    · obtain ⟨e1, he1, rfl⟩ := mem_level_entry ha
      exact Or.inr ⟨e1, by rw [hes]; simp [he1], h⟩
  · cases hlb : level k big with
    | nil =>
      rw [hlb] at hseg
      have h1 : nx = list_tail A := hseg
      have h2 := (hwf.addr t ht).2.1
      omega
    | cons b l =>
      rw [hlb] at hseg
      have h1 : nx = b / A := hseg.1
      have hbm : b ∈ level k big := by rw [hlb]; simp
      obtain ⟨e, he, hez⟩ := mem_level_entry hbm
      have hnd := hwf.nodup
      rw [hes, List.map_append, List.map_cons, List.nodup_append, List.nodup_cons] at hnd
      have hne2 : e.1 ≠ t.1 := by
        intro heq
        exact hnd.2.1.1 (by rw [← heq]; exact List.mem_map_of_mem _ he)
      rw [h1, ← hez]
      exact link_ne_of_ne hA (hwf.addr e (by rw [hes]; simp [he])).1 (hwf.addr t ht).1 hne2

/-- The large-request path of `alloc` when the huge list holds a block of
size at least `request`, `t` being the first such entry: `t` is unlinked
(state `c2`), the bytes behind the request go through `sfree` (state `c3`),
and the offset of `t` is returned. -/
theorem alloc_large_hit (P : Params) (fuel : Nat) (c : Ctx) (request : Nat)
    (es small big : List (Nat × Nat)) (t : Nat × Nat)
    (hA : ValidAlign P.AlignSize) (htc : TcWF P.AlignSize c es)
    (hbin : sizeof_huge_link P.AlignSize ≤ c.tc.m_freelist_head.length * P.AlignSize)
    (hpos : 0 < request) (hmul : request % P.AlignSize = 0)
    (htyped : c.mem t.1 < 2 ^ link_bits P.AlignSize)
    (hendlink : (t.1 + c.mem t.1) / P.AlignSize ≤ list_tail P.AlignSize)
    (hes : es = small ++ t :: big)
    (hs : ∀ e, e ∈ small → c.mem e.1 < request) (hge : request ≤ c.mem t.1)
    (hfuel : es.length < fuel) :
    ∃ c2 c3 es3, SkipWF P.AlignSize c2 (small ++ big) ∧
      (∀ e, e ∈ es → c2.mem e.1 = c.mem e.1) ∧
      c2.tc.m_freelist_head = c.tc.m_freelist_head ∧
      c2.tc.m_hot_pos = c.tc.m_hot_pos ∧ c2.tc.m_hot_end = c.tc.m_hot_end ∧
      (request < c.mem t.1 →
        sfree P fuel c2 (t.1 + request) (c.mem t.1 - request) = some c3) ∧
      (c.mem t.1 = request → c3 = c2) ∧
      alloc_large P fuel c request = some (t.1, account_alloc { c3 with tc := { c3.tc with
        huge_size_sum := size_sub c3.tc.huge_size_sum request
        huge_node_cnt := size_sub c3.tc.huge_node_cnt 1 } } request) ∧
      SkipWF P.AlignSize c3 es3 ∧
      (∀ e, e ∈ es3 → (e ∈ small ++ big ∧ c3.mem e.1 = c.mem e.1) ∨
        (e.1 = t.1 + request ∧ c3.mem e.1 = c.mem t.1 - request)) ∧
      (∀ e, e ∈ small ++ big → e ∈ es3) ∧
      (∀ e, e ∈ es3 → e.1 ≠ t.1) := by
  have hwf := htc.skip
  have ht : t ∈ es := by rw [hes]; simp
  obtain ⟨hta1, hta2, hta3, hta4⟩ := hwf.addr t ht
  have hsub : ∀ e, e ∈ small ++ big → e ∈ es := by
    intro e he
    rw [hes]
    rcases List.mem_append.1 he with h | h
    · exact List.mem_append_left _ h
    · exact List.mem_append_right _ (List.mem_cons_of_mem _ h)
  -- the blocks other than `t` lie outside `t`
  have hdis : ∀ e, e ∈ small ++ big →
      e.1 + c.mem e.1 ≤ t.1 ∨ t.1 + c.mem t.1 ≤ e.1 := by
    have hd := hwf.disj
    rw [hes, List.pairwise_append, List.pairwise_cons] at hd
    intro e he
    rcases List.mem_append.1 he with h | h
    · exact hd.2.2 e h t (List.mem_cons_self _ _)
    · exact (hd.2.1.1 e h).symm
  have hnet : ∀ e, e ∈ small ++ big → e.1 ≠ t.1 := by
    intro e he
    have h1 := hdis e he
    have h2 := (hwf.addr e (hsub e he)).2.2.1
    have h3 := sizeof_huge_link_pos P.AlignSize
    omega
  obtain ⟨n1, ur, hrun, hu1, hu2⟩ := best_fit_search hA c es small big t request fuel hwf hes
    hs hge hfuel
  obtain ⟨c1, sz, hfr, hunl, hwf2⟩ := unlink_node_spec hA c es small big t ur hwf hes hu1 hu2
  have hp2 : ({ c1 with tc := { c1.tc with
      huge_list := { c1.tc.huge_list with size := sz } } } : Ctx).tc.m_hot_pos
      = c.tc.m_hot_pos := hfr.hot_pos
  have he2 : ({ c1 with tc := { c1.tc with
      huge_list := { c1.tc.huge_list with size := sz } } } : Ctx).tc.m_hot_end
      = c.tc.m_hot_end := hfr.hot_end
  have hfl2 : ({ c1 with tc := { c1.tc with
      huge_list := { c1.tc.huge_list with size := sz } } } : Ctx).tc.m_freelist_head
      = c.tc.m_freelist_head := hfr.freelist
  have hsz2 : ∀ e, e ∈ es → ({ c1 with tc := { c1.tc with
      huge_list := { c1.tc.huge_list with size := sz } } } : Ctx).mem e.1 = c.mem e.1 :=
    fun e he => hwf.size_eq hfr he
  generalize ({ c1 with tc := { c1.tc with
      huge_list := { c1.tc.huge_list with size := sz } } } : Ctx) = c2
    at hunl hwf2 hp2 he2 hfl2 hsz2
  have hstart : alloc_large P fuel c request
      = large_finish P fuel c2 t.1 (c.mem t.1 - request) request := by
    unfold alloc_large
    simp only [hrun, large_hit, ge_iff_le, hge, if_true, hunl]
    rw [size_sub_of_le hge (by omega)]
  have hpe : tosize (t.1 + request) = t.1 + request := tosize_of_lt (by omega)
  by_cases hrem : c.mem t.1 - request ≠ 0
  · have hremal : (c.mem t.1 - request) % P.AlignSize = 0 :=
      (Nat.dvd_sub' (Nat.dvd_of_mod_eq_zero (htc.size_al t ht))
        (Nat.dvd_of_mod_eq_zero hmul)).elim (fun k hk => by rw [hk]; simp)
    have hposal : (t.1 + request) % P.AlignSize = 0 :=
      (Nat.dvd_add (Nat.dvd_of_mod_eq_zero hta1)
        (Nat.dvd_of_mod_eq_zero hmul)).elim (fun k hk => by rw [hk]; simp)
    have hlink : (t.1 + request) / P.AlignSize < list_tail P.AlignSize := by
      have hd : P.AlignSize ∣ t.1 + c.mem t.1 :=
        Nat.dvd_add (Nat.dvd_of_mod_eq_zero hta1) (Nat.dvd_of_mod_eq_zero (htc.size_al t ht))
      have := Nat.div_lt_div_of_lt_of_dvd hd (show t.1 + request < t.1 + c.mem t.1 by omega)
      omega
    obtain ⟨c3, es3, hs3, hwf3, hent, hold, _, _, _, _⟩ := sfree_skip P fuel c2 (t.1 + request)
      (c.mem t.1 - request) (small ++ big) hA hwf2 hposal (by omega) hremal hlink (by omega)
      (by omega)
      (by
        intro e he
        rw [hsz2 e (hsub e he)]
        have := hdis e he
        omega)
      (by rw [hfl2]; exact hbin)
      (by rw [hfl2]; have := htc.bins_lt; omega)
      (by
        have : (small ++ big).length ≤ es.length := by
          rw [hes]
          simp
        omega)
    refine ⟨c2, c3, es3, hwf2, hsz2, hfl2, hp2, he2, fun _ => hs3,
      fun h => absurd h (by omega), ?_, hwf3, ?_, fun e he => (hold e he).1, ?_⟩
    · rw [hstart]
      unfold large_finish
      simp only [hrem, ne_eq, not_false_eq_true, if_true, hpe, hs3]
    · intro e he
      rcases hent e he with ⟨h1, h2⟩ | ⟨h1, h2, _⟩
      · exact Or.inl ⟨h1, by rw [h2, hsz2 e (hsub e h1)]⟩
      · exact Or.inr ⟨h1, h2⟩
    · intro e he
      rcases hent e he with ⟨h1, _⟩ | ⟨h1, _, _⟩
      · exact hnet e h1
      · omega
  · refine ⟨c2, c2, small ++ big, hwf2, hsz2, hfl2, hp2, he2, fun h => absurd h (by omega),
      fun _ => rfl, ?_, hwf2, fun e he => Or.inl ⟨he, hsz2 e (hsub e he)⟩,
      fun e he => he, hnet⟩
    rw [hstart]
    unfold large_finish
    simp only [hrem, if_false]

/-- C7: best fit on the huge list.  On a well-formed thread cache (canonical
skiplist sorted by size, block sizes multiples of `AlignSize` that fit the
size field, block ends link-addressable, `fastbin_max` at least
`sizeof(huge_link_t)`) and for a request above `fastbin_max` that is a
multiple of `AlignSize`, with enough search fuel:

* if some block of the huge list has size at least `request`, `alloc` returns
  the offset `t.1` of an entry `t` whose size is minimal among the blocks of
  size at least `request`; in the intermediate state `c2` that entry is gone
  from every level (the list is well formed with the other entries); the bytes
  `[t.1 + request, t.1 + size)` are passed to `sfree`, which returns a state
  `c3` (when `size = request`, nothing is freed); the final state is `c3`
  with the counters updated, its huge list is well formed and has no entry at
  `t.1`;
* if no block has size at least `request`, `alloc` returns with the huge list
  and the buffer unchanged. -/
theorem alloc_best_fit (P : Params) (fuel : Nat) (c : Ctx) (request : Nat)
    (es : List (Nat × Nat)) (hA : ValidAlign P.AlignSize) (htc : TcWF P.AlignSize c es)
    (hbin : sizeof_huge_link P.AlignSize ≤ c.tc.m_freelist_head.length * P.AlignSize)
    (hlarge : c.tc.m_freelist_head.length * P.AlignSize < request)
    (hmul : request % P.AlignSize = 0)
    (htyped : ∀ e, e ∈ es → c.mem e.1 < 2 ^ link_bits P.AlignSize)
    (hendlink : ∀ e, e ∈ es → (e.1 + c.mem e.1) / P.AlignSize ≤ list_tail P.AlignSize)
    (hfuel : es.length < fuel) :
    ((∃ e, e ∈ es ∧ request ≤ c.mem e.1) →
      ∃ small t big c2 c3 es3, es = small ++ t :: big ∧ request ≤ c.mem t.1 ∧
        (∀ e, e ∈ es → request ≤ c.mem e.1 → c.mem t.1 ≤ c.mem e.1) ∧
        SkipWF P.AlignSize c2 (small ++ big) ∧
        (request < c.mem t.1 →
          sfree P fuel c2 (t.1 + request) (c.mem t.1 - request) = some c3) ∧
        (c.mem t.1 = request → c3 = c2) ∧
        alloc P fuel c request = some (t.1, account_alloc { c3 with tc := { c3.tc with
          huge_size_sum := size_sub c3.tc.huge_size_sum request
          huge_node_cnt := size_sub c3.tc.huge_node_cnt 1 } } request) ∧
        SkipWF P.AlignSize (account_alloc { c3 with tc := { c3.tc with
          huge_size_sum := size_sub c3.tc.huge_size_sum request
          huge_node_cnt := size_sub c3.tc.huge_node_cnt 1 } } request) es3 ∧
        (∀ e, e ∈ es3 → e.1 ≠ t.1)) ∧
    ((∀ e, e ∈ es → c.mem e.1 < request) →
      ∃ res cf, alloc P fuel c request = some (res, cf) ∧
        cf.tc.huge_list = c.tc.huge_list ∧ cf.mem = c.mem ∧ SkipWF P.AlignSize cf es) := by
  have hwf := htc.skip
  have hbl := htc.bins_lt
  have hfm : tosize (c.tc.m_freelist_head.length * P.AlignSize)
      = c.tc.m_freelist_head.length * P.AlignSize := tosize_of_lt (by omega)
  have halloc : alloc P fuel c request = alloc_large P fuel c request := by
    unfold alloc
    simp only
    rw [hfm, if_neg (by omega)]
  constructor
  · rintro ⟨e0, he0, hge0⟩
    obtain ⟨small, big0, hes, hsm, hbg⟩ :=
      sorted_split (fun e : Nat × Nat => c.mem e.1) request es hwf.sorted
    cases big0 with
    | nil =>
      rw [List.append_nil] at hes
      have := hsm e0 (by rw [← hes]; exact he0)
      simp only at this
      omega
    | cons t big =>
      have ht : t ∈ es := by rw [hes]; simp
      have hge : request ≤ c.mem t.1 := by
        have := hbg t (List.mem_cons_self _ _)
        simp only at this
        omega
      obtain ⟨c2, c3, es3, h1, _, _, _, _, h2, h3, h4, h5, _, _, h6⟩ :=
        alloc_large_hit P fuel c request es small big t hA htc hbin (by omega) hmul
          (htyped t ht) (hendlink t ht) hes hsm hge hfuel
      refine ⟨small, t, big, c2, c3, es3, hes, hge, ?_, h1, h2, h3, ?_, ?_, h6⟩
      · intro e he hre
        have hso := hwf.sorted
        rw [hes, List.pairwise_append, List.pairwise_cons] at hso
        rw [hes] at he
        rcases List.mem_append.1 he with h | h
        · have := hsm e h
          simp only at this
          omega
        · rcases List.mem_cons.1 h with h | h
          · rw [h]
          · exact hso.2.1.1 e h
      · rw [halloc]
        exact h4
      · exact h5.frame (by simp) (fun _ _ _ _ => by simp)
  · intro hmiss
    obtain ⟨hm1, hm2⟩ := alloc_large_miss P fuel c request es hA hwf hmiss hfuel
    rw [halloc]
    cases hh : alloc_hot c request with
    | none =>
      exact ⟨size_fail, c, hm2 hh, rfl, rfl, hwf⟩
    | some r =>
      refine ⟨r.1, r.2, hm1 r hh, ?_⟩
      unfold alloc_hot at hh
      split at hh
      · have hr := Option.some.inj hh
        rw [← hr]
        exact ⟨rfl, rfl, hwf.frame rfl (fun _ _ _ _ => rfl)⟩
      · exact absurd hh (by simp)

theorem ex_ctx_best_wf : TcWF ex_params.AlignSize ex_ctx_best [(1024, 1)] := by
  refine ⟨⟨by decide, ?_, ?_, ?_, ?_, ?_, ?_, ?_⟩, ?_, by decide, by decide, by decide,
    by decide, ?_, by decide⟩
  · intro k hk
    have hk0 : k = 0 := by
      have : k < 1 := hk
      omega
    subst hk0
    exact ⟨by decide,
      (by decide : ex_ctx_best.mem (1024 + sizeof_link 4 * (1 + 0)) = list_tail 4)⟩
  · intro k hk _
    have hk1 : 1 ≤ k := hk
    show (if k = 0 then 256 else list_tail 4) = list_tail 4
    rw [if_neg (by omega)]
  · intro e he
    simp only [List.mem_singleton] at he
    subst he
    exact ⟨by decide, by decide⟩
  · intro _
    decide
  · simp
  · intro e he
    simp only [List.mem_singleton] at he
    subst he
    decide
  · simp
  · intro e he
    simp only [List.mem_singleton] at he
    subst he
    decide
  · intro e he
    simp only [List.mem_singleton] at he
    subst he
    decide

theorem alloc_best_fit_witness :
    (ValidAlign ex_params.AlignSize ∧ TcWF ex_params.AlignSize ex_ctx_best [(1024, 1)] ∧
      sizeof_huge_link ex_params.AlignSize
        ≤ ex_ctx_best.tc.m_freelist_head.length * ex_params.AlignSize ∧
      ex_ctx_best.tc.m_freelist_head.length * ex_params.AlignSize < 96 ∧
      96 % ex_params.AlignSize = 0 ∧ [((1024 : Nat), (1 : Nat))].length < 2 ∧
      ∃ e, e ∈ [((1024 : Nat), (1 : Nat))] ∧ 96 ≤ ex_ctx_best.mem e.1) ∧
    ∃ cf es3, alloc ex_params 2 ex_ctx_best 96 = some (1024, cf) ∧
      SkipWF ex_params.AlignSize cf es3 ∧ ∀ e, e ∈ es3 → e.1 ≠ 1024 := by
  have hex : ∃ e, e ∈ [((1024 : Nat), (1 : Nat))] ∧ 96 ≤ ex_ctx_best.mem e.1 :=
    ⟨(1024, 1), by simp, by decide⟩
  have h := (alloc_best_fit ex_params 2 ex_ctx_best 96 [(1024, 1)] ex_valid_align
    ex_ctx_best_wf (by decide) (by decide) (by decide)
    (fun e he => by
      simp only [List.mem_singleton] at he
      subst he
      decide)
    (fun e he => by
      simp only [List.mem_singleton] at he
      subst he
      decide)
    (by decide)).1 hex
  obtain ⟨small, t, big, c2, c3, es3, hes, _, _, _, _, _, hrun, hwf, hno⟩ := h
  have ht : t = (1024, 1) := by
    have : t ∈ [((1024 : Nat), (1 : Nat))] := by rw [hes]; simp
    simpa using this
  subst ht
  exact ⟨⟨ex_valid_align, ex_ctx_best_wf, by decide, by decide, by decide, by decide, hex⟩,
    _, es3, hrun, hwf, hno⟩

/-! ## The pool-level `alloc` (lines 741-770) -/

/-- C1 (counterexample): `alloc` can abort.  On a fresh 8 MiB pool with
`m_vm_explicit_commit` set, a request of 8 bytes (with `used + 8 ≤ capacity`)
reaches `chunk_alloc`, whose `madvise(POPULATE_WRITE)` fails with `EFAULT`:
the call ends in `TERARK_DIE` instead of returning an offset or `size_t(-1)`. -/
theorem pool_alloc_aborts :
    0 < 8 ∧ ex_pool_commit.n + round_request ex_params_efault.AlignSize 8 ≤ ex_pool_commit.c ∧
      ex_pool_commit.p % ArenaSize = 0 ∧
      ex_pool_commit.alloc ex_params_efault 2 0 8 = none := by
  refine ⟨by decide, by decide, by decide, rfl⟩

theorem aligned_ne_fail {A x : Nat} (hA : ValidAlign A) (h : x % A = 0) : x ≠ size_fail := by
  intro hx
  rw [hx] at h
  have h1 : A ∣ 2 ^ 64 - 1 := Nat.dvd_of_mod_eq_zero h
  have h2 : A ∣ 2 ^ 64 := hA.dvd_size
  have h3 : A ∣ 2 ^ 64 - (2 ^ 64 - 1) := Nat.dvd_sub' h2 h1
  have h4 : A ≤ 1 := Nat.le_of_dvd (by norm_num) (by simpa using h3)
  have := hA.four_le
  omega

theorem tosize_mul_ne_fail {A : Nat} (hA : ValidAlign A) (x : Nat) :
    tosize (x * A) ≠ size_fail := by
  apply aligned_ne_fail hA
  unfold tosize
  rw [Nat.mod_mod_of_dvd _ hA.dvd_size]
  exact Nat.mul_mod_left x A

/-- The small-request path of `alloc` up to the hot bump: either one of the
fastbins or the hot region serves the request, and the offset returned is not
`size_t(-1)`, or the hot region does not fit and the refill path is taken. -/
theorem alloc_small_result (P : Params) (fuel : Nat) (c : Ctx) (request idx : Nat)
    (list : head_t) (hA : ValidAlign P.AlignSize) (hhp : c.tc.m_hot_pos ≠ size_fail) :
    (∃ res c1, alloc_small P fuel c request idx list = some (res, c1) ∧ res ≠ size_fail) ∨
    (alloc_hot c request = none ∧
      alloc_small P fuel c request idx list = alloc_refill P fuel c request) := by
  unfold alloc_small
  simp only
  by_cases h1 : list_tail P.AlignSize ≠ list.head
  · rw [if_pos h1]
    exact Or.inl ⟨_, _, rfl, tosize_mul_ne_fail hA _⟩
  · rw [if_neg h1]
    cases h2 : alloc_split_try P.AlignSize c idx list request with
    | some x =>
      left
      refine ⟨x.1, x.2, rfl, ?_⟩
      unfold alloc_split_try at h2
      simp only at h2
      split at h2
      · split at h2
        · split at h2
          · rw [← Option.some.inj h2]
            exact tosize_mul_ne_fail hA _
          · exact absurd h2 (by simp)
        · exact absurd h2 (by simp)
      · exact absurd h2 (by simp)
    | none =>
      simp only
      cases h3 : alloc_hot c request with
      | some x =>
        left
        refine ⟨x.1, x.2, rfl, ?_⟩
        unfold alloc_hot at h3
        split at h3
        · rw [← Option.some.inj h3]
          exact hhp
        · exact absurd h3 (by simp)
      | none =>
        exact Or.inr ⟨rfl, rfl⟩

/-- The thread-cache `alloc` returns on every well-formed thread cache; when
it returns `size_t(-1)` the state is unchanged, the hot region is too small
for the request, and (for a request above `fastbin_max`) so is every free
huge block. -/
theorem tc_alloc_total (P : Params) (fuel : Nat) (c : Ctx) (r : Nat)
    (es : List (Nat × Nat)) (hA : ValidAlign P.AlignSize) (htc : TcWF P.AlignSize c es)
    (hbin : sizeof_huge_link P.AlignSize ≤ c.tc.m_freelist_head.length * P.AlignSize)
    (htyped : ∀ e, e ∈ es → c.mem e.1 < 2 ^ link_bits P.AlignSize)
    (hendlink : ∀ e, e ∈ es → (e.1 + c.mem e.1) / P.AlignSize ≤ list_tail P.AlignSize)
    (hpos : 0 < r) (hmul : r % P.AlignSize = 0) (hhotw : c.tc.m_hot_pos + r < 2 ^ 64)
    (hfuel : es.length < fuel) :
    ∃ res c1, alloc P fuel c r = some (res, c1) ∧
      (res = size_fail → c1 = c ∧ c.tc.m_hot_end < c.tc.m_hot_pos + r ∧
        (c.tc.m_freelist_head.length * P.AlignSize < r → ∀ e, e ∈ es → c.mem e.1 < r)) := by
  have hwf := htc.skip
  have hbl := htc.bins_lt
  have hfm : tosize (c.tc.m_freelist_head.length * P.AlignSize)
      = c.tc.m_freelist_head.length * P.AlignSize := tosize_of_lt (by omega)
  have hhp : c.tc.m_hot_pos ≠ size_fail := aligned_ne_fail hA htc.hot_pos_al
  have hnf : alloc_hot c r = none → c.tc.m_hot_end < c.tc.m_hot_pos + r := by
    intro h
    unfold alloc_hot at h
    split at h
    · exact absurd h (by simp)
    · rename_i h2
      rw [tosize_of_lt hhotw] at h2
      omega
  by_cases hsmall : r ≤ c.tc.m_freelist_head.length * P.AlignSize
  · obtain ⟨hidx, hlt, _⟩ := fastbin_index hA hpos hmul (by rw [hfm]; exact hsmall)
    have hget : c.tc.m_freelist_head[r / P.AlignSize - 1]?
        = some (c.tc.m_freelist_head[r / P.AlignSize - 1]) := List.getElem?_eq_getElem hlt
    have halloc : alloc P fuel c r = alloc_small P fuel c r (r / P.AlignSize - 1)
        (c.tc.m_freelist_head[r / P.AlignSize - 1]) := by
      unfold alloc
      simp only [hfm, hsmall, if_true, hidx, hget]
    rw [halloc]
    rcases alloc_small_result P fuel c r (r / P.AlignSize - 1)
      (c.tc.m_freelist_head[r / P.AlignSize - 1]) hA hhp with ⟨res, c1, h, hne⟩ | ⟨hhot, hre⟩
    · exact ⟨res, c1, h, fun h => absurd h hne⟩
    · rw [hre]
      have hnofit := hnf hhot
      rcases List.eq_nil_or_concat es with hnil | ⟨init, t, hcat⟩
      · exact ⟨size_fail, c,
          alloc_refill_fail P fuel c r es hA hwf hpos hfuel (Or.inl hnil),
          fun _ => ⟨rfl, hnofit, fun h => absurd h (by omega)⟩⟩
      · have hcat2 : es = init ++ [t] := by rw [hcat]; simp
        by_cases hlt2 : c.mem t.1 < r
        · exact ⟨size_fail, c,
            alloc_refill_fail P fuel c r es hA hwf hpos hfuel (Or.inr ⟨init, t, hcat2, hlt2⟩),
            fun _ => ⟨rfl, hnofit, fun h => absurd h (by omega)⟩⟩
        · subst hcat2
          obtain ⟨c1, hrun, _⟩ := alloc_refill_hit P fuel c r init t hA htc hsmall hnofit
            hfuel (by omega)
          exact ⟨t.1, c1, hrun, fun h =>
            absurd h (aligned_ne_fail hA (hwf.addr t (by simp)).1)⟩
  · have halloc : alloc P fuel c r = alloc_large P fuel c r := by
      unfold alloc
      simp only
      rw [hfm, if_neg hsmall]
    rw [halloc]
    by_cases hex : ∃ e, e ∈ es ∧ r ≤ c.mem e.1
    · obtain ⟨e0, he0, hge0⟩ := hex
      obtain ⟨small, big0, hes, hsm, hbg⟩ :=
        sorted_split (fun e : Nat × Nat => c.mem e.1) r es hwf.sorted
      cases big0 with
      | nil =>
        rw [List.append_nil] at hes
        have := hsm e0 (by rw [← hes]; exact he0)
        simp only at this
        omega
      | cons t big =>
        have ht : t ∈ es := by rw [hes]; simp
        have hge : r ≤ c.mem t.1 := by
          have := hbg t (List.mem_cons_self _ _)
          simp only at this
          omega
        obtain ⟨c2, c3, es3, _, _, _, _, _, _, _, h4, _⟩ :=
          alloc_large_hit P fuel c r es small big t hA htc hbin hpos hmul
            (htyped t ht) (hendlink t ht) hes hsm hge hfuel
        exact ⟨t.1, _, h4, fun h => absurd h (aligned_ne_fail hA (hwf.addr t ht).1)⟩
    · have hmiss : ∀ e, e ∈ es → c.mem e.1 < r := by
        intro e he
        by_contra hcon
        exact hex ⟨e, he, by omega⟩
      obtain ⟨hm1, hm2⟩ := alloc_large_miss P fuel c r es hA hwf hmiss hfuel
      cases hh : alloc_hot c r with
      | none =>
        exact ⟨size_fail, c, hm2 hh, fun _ => ⟨rfl, hnf hh, fun _ => hmiss⟩⟩
      | some x =>
        refine ⟨x.1, x.2, hm1 x hh, fun h => ?_⟩
        unfold alloc_hot at hh
        split at hh
        · rw [← Option.some.inj hh] at h
          exact absurd h hhp
        · exact absurd hh (by simp)

/-- The call `set_hot_area(pos, len)` made by `chunk_alloc` after a failed
thread-cache `alloc` of `r ≤ len` bytes: it returns, the huge list stays well
formed (the old hot remainder may have been entered into it), the new hot
region has room for `r` bytes, and every free huge block is still too small
for a request above `fastbin_max`. -/
theorem set_hot_area_retry (P : Params) (fuel : Nat) (c : Ctx) (es : List (Nat × Nat))
    (pos len r : Nat) (hA : ValidAlign P.AlignSize) (htc : TcWF P.AlignSize c es)
    (hbin : sizeof_huge_link P.AlignSize ≤ c.tc.m_freelist_head.length * P.AlignSize)
    (hhotlink : c.tc.m_hot_end / P.AlignSize ≤ list_tail P.AlignSize)
    (hhottyped : c.tc.m_hot_end - c.tc.m_hot_pos < 2 ^ link_bits P.AlignSize)
    (hnofit : c.tc.m_hot_end < c.tc.m_hot_pos + r)
    (hmiss : c.tc.m_freelist_head.length * P.AlignSize < r → ∀ e, e ∈ es → c.mem e.1 < r)
    (hr : r ≤ len) (hpl : pos + len < 2 ^ 64) (hfuel : es.length < fuel) :
    ∃ c1 es1, set_hot_area P fuel c pos len = some c1 ∧ SkipWF P.AlignSize c1 es1 ∧
      es1.length ≤ es.length + 1 ∧
      c1.tc.m_freelist_head.length = c.tc.m_freelist_head.length ∧
      tosize (c1.tc.m_hot_pos + r) ≤ c1.tc.m_hot_end ∧
      (c1.tc.m_hot_pos = c.tc.m_hot_pos ∨ c1.tc.m_hot_pos = pos) ∧
      (c.tc.m_freelist_head.length * P.AlignSize < r → ∀ e, e ∈ es1 → c1.mem e.1 < r) := by
  have hwf := htc.skip
  have hle := htc.hot_le
  have hpe : tosize (pos + len) = pos + len := tosize_of_lt hpl
  have hpr : tosize (pos + r) = pos + r := tosize_of_lt (by omega)
  unfold set_hot_area
  by_cases h1 : c.tc.m_hot_end = pos
  · rw [if_pos h1]
    refine ⟨_, es, rfl, hwf.frame rfl (fun _ _ _ _ => rfl), Nat.le_succ _, rfl, ?_,
      Or.inl rfl, hmiss⟩
    show tosize (c.tc.m_hot_pos + r) ≤ tosize (pos + len)
    rw [hpe, tosize_of_lt (by omega)]
    omega
  · rw [if_neg h1]
    by_cases h2 : c.tc.m_hot_pos < c.tc.m_hot_end
    · rw [if_pos h2, size_sub_of_le hle htc.hot_end_lt]
      have hremal : (c.tc.m_hot_end - c.tc.m_hot_pos) % P.AlignSize = 0 :=
        (Nat.dvd_sub' (Nat.dvd_of_mod_eq_zero htc.hot_end_al)
          (Nat.dvd_of_mod_eq_zero htc.hot_pos_al)).elim (fun k hk => by rw [hk]; simp)
      have hlink : c.tc.m_hot_pos / P.AlignSize < list_tail P.AlignSize := by
        have := Nat.div_lt_div_of_lt_of_dvd (Nat.dvd_of_mod_eq_zero htc.hot_end_al) h2
        omega
      have hend : c.tc.m_hot_pos + (c.tc.m_hot_end - c.tc.m_hot_pos) < 2 ^ 64 := by
        have := htc.hot_end_lt
        omega
      obtain ⟨c1, es1, hs, hwf1, hent, _, hlen, hfl, _, _⟩ := sfree_skip P fuel c c.tc.m_hot_pos
        (c.tc.m_hot_end - c.tc.m_hot_pos) es hA hwf htc.hot_pos_al (by omega) hremal hlink
        hhottyped hend
        (by
          intro e he
          have := htc.hot_disj e he
          omega)
        hbin (by have := htc.bins_lt; omega) hfuel
      rw [hs]
      refine ⟨_, es1, rfl, hwf1.frame rfl (fun _ _ _ _ => rfl), hlen, hfl, ?_, Or.inr rfl, ?_⟩
      · show tosize (pos + r) ≤ tosize (pos + len)
        rw [hpe, hpr]
        omega
      · intro hlarge e he
        show c1.mem e.1 < r
        rcases hent e he with ⟨h3, h4⟩ | ⟨_, h4, _⟩
        · rw [h4]
          exact hmiss hlarge e h3
        · rw [h4]
          omega
    · rw [if_neg h2]
      refine ⟨_, es, rfl, hwf.frame rfl (fun _ _ _ _ => rfl), Nat.le_succ _, rfl, ?_,
        Or.inr rfl, hmiss⟩
      show tosize (pos + r) ≤ tosize (pos + len)
      rw [hpe, hpr]
      omega

/-- The thread-cache `alloc` on a state whose hot region has room for the
request, and whose free huge blocks are too small for it when it is above
`fastbin_max`: it returns an offset other than `size_t(-1)`. -/
theorem tc_alloc_retry (P : Params) (fuel : Nat) (c : Ctx) (r : Nat)
    (es : List (Nat × Nat)) (hA : ValidAlign P.AlignSize) (hwf : SkipWF P.AlignSize c es)
    (hbl : c.tc.m_freelist_head.length * P.AlignSize < 2 ^ 64)
    (hpos : 0 < r) (hmul : r % P.AlignSize = 0)
    (hhot : tosize (c.tc.m_hot_pos + r) ≤ c.tc.m_hot_end)
    (hhp : c.tc.m_hot_pos ≠ size_fail)
    (hmiss : c.tc.m_freelist_head.length * P.AlignSize < r → ∀ e, e ∈ es → c.mem e.1 < r)
    (hfuel : es.length < fuel) :
    ∃ res c1, alloc P fuel c r = some (res, c1) ∧ res ≠ size_fail := by
  have hfm : tosize (c.tc.m_freelist_head.length * P.AlignSize)
      = c.tc.m_freelist_head.length * P.AlignSize := tosize_of_lt hbl
  have hh : alloc_hot c r = some (c.tc.m_hot_pos,
      { c with tc := { c.tc with m_hot_pos := tosize (c.tc.m_hot_pos + r) } }) := by
    unfold alloc_hot
    rw [if_pos hhot]
  by_cases hsmall : r ≤ c.tc.m_freelist_head.length * P.AlignSize
  · obtain ⟨hidx, hlt, _⟩ := fastbin_index hA hpos hmul (by rw [hfm]; exact hsmall)
    have hget : c.tc.m_freelist_head[r / P.AlignSize - 1]?
        = some (c.tc.m_freelist_head[r / P.AlignSize - 1]) := List.getElem?_eq_getElem hlt
    have halloc : alloc P fuel c r = alloc_small P fuel c r (r / P.AlignSize - 1)
        (c.tc.m_freelist_head[r / P.AlignSize - 1]) := by
      unfold alloc
      simp only [hfm, hsmall, if_true, hidx, hget]
    rw [halloc]
    rcases alloc_small_result P fuel c r (r / P.AlignSize - 1)
      (c.tc.m_freelist_head[r / P.AlignSize - 1]) hA hhp with h | ⟨hnone, _⟩
    · exact h
    · rw [hh] at hnone
      exact absurd hnone (by simp)
  · have halloc : alloc P fuel c r = alloc_large P fuel c r := by
      unfold alloc
      simp only
      rw [hfm, if_neg hsmall]
    rw [halloc]
    obtain ⟨hm1, _⟩ := alloc_large_miss P fuel c r es hA hwf (hmiss (by omega)) hfuel
    exact ⟨_, _, hm1 _ hh, hhp⟩

/-- Without wrap-around `chunk_alloc` refuses exactly the requests that do not
fit below the capacity, and otherwise grows `used` by at least the request. -/
theorem chunk_alloc_len_spec (mp : ThreadCacheMemPool) (r : Nat)
    (hc : mp.c < 2 ^ 64) (h0 : 0 < mp.m_chunk_size) (hr : 0 < r)
    (hw : mp.n + r + 2 * mp.m_chunk_size ≤ 2 ^ 64) :
    (mp.c < mp.n + r → chunk_alloc_len mp r = none) ∧
    (mp.n + r ≤ mp.c → ∃ l, chunk_alloc_len mp r = some l ∧ r ≤ l ∧ mp.n + l ≤ mp.c) := by
  have h64 : mp.m_chunk_size < 2 ^ 64 := by omega
  have ha := (pow2_align_up_spec h0 hr (by omega : r + mp.m_chunk_size ≤ 2 ^ 64)).1
  have hb := pow2_align_up_le r mp.m_chunk_size
  have hfle := chunk_len_fix_le mp (pow2_align_up r mp.m_chunk_size) h0 h64
  have hfge : pow2_align_up r mp.m_chunk_size
      ≤ chunk_len_fix mp (pow2_align_up r mp.m_chunk_size) := by
    unfold chunk_len_fix
    have hrem := @chunk_rem_le (tosize (mp.p + mp.n)) _ h0 h64
    split
    · rw [size_sub_of_le (by omega) h64, tosize_of_lt (by omega)]
      omega
    · exact le_refl _
  unfold chunk_alloc_len
  simp only
  generalize chunk_len_fix mp (pow2_align_up r mp.m_chunk_size) = l at hfle hfge
  rw [tosize_of_lt (by omega : mp.n + l < 2 ^ 64), tosize_of_lt (by omega : mp.n + r < 2 ^ 64)]
  constructor
  · intro h
    rw [if_pos (by omega), if_pos h]
  · intro h
    by_cases h1 : mp.n + l > mp.c
    · rw [if_pos h1, if_neg (by omega)]
      refine ⟨_, rfl, ?_, ?_⟩
      · rw [size_sub_of_le (by omega) hc]
        omega
      · rw [size_sub_of_le (by omega) hc]
        omega
    · rw [if_neg h1]
      exact ⟨l, rfl, by omega, by omega⟩

theorem round_request_spec {A : Nat} (hA : ValidAlign A) {x : Nat} (hx : 0 < x)
    (hw : x + A ≤ 2 ^ 64) :
    x ≤ round_request A x ∧ A ≤ round_request A x ∧ round_request A x % A = 0 ∧
      round_request A x ≤ x + (A - 1) := by
  refine ⟨?_, ?_, ?_, round_request_le hA x⟩
  all_goals
    unfold round_request
    rw [if_neg (Nat.not_lt.2 (sizeof_link_le hA))]
  · exact (pow2_align_up_spec hA.pos hx hw).1
  · exact (pow2_align_up_spec hA.pos hx hw).2.1
  · exact (pow2_align_up_spec hA.pos hx hw).2.2

theorem ctx_put {mp : ThreadCacheMemPool} {tid : Nat} {c : Ctx} (c1 : Ctx)
    (h : mp.ctx tid = some c) : (mp.put tid c1).ctx tid = some c1 := by
  have hlt : tid < mp.tls.length := by
    unfold ThreadCacheMemPool.ctx at h
    by_contra hcon
    rw [List.getElem?_eq_none (by omega)] at h
    exact absurd h (by simp)
  unfold ThreadCacheMemPool.ctx ThreadCacheMemPool.put
  simp only [List.getElem?_set_self hlt]

/-- The successful branch of `chunk_alloc`, step by step. -/
theorem chunk_alloc_run (P : Params) (fuel : Nat) (mp : ThreadCacheMemPool)
    (tid r l : Nat) (c c1 : Ctx) (hlen : chunk_alloc_len mp r = some l)
    (hcommit : mp.m_vm_explicit_commit = true →
      mp.p % ArenaSize = 0 ∧ ∀ a l f, P.madvise a l f = 0 ∨ P.madvise a l f = 22)
    (hctx : mp.ctx tid = some c) (hset : set_hot_area P fuel c mp.n l = some c1) :
    chunk_alloc P fuel mp tid r
      = some (true, ({ mp with n := tosize (mp.n + l) } : ThreadCacheMemPool).put tid c1) := by
  have hec : explicit_commit P ({ mp with n := tosize (mp.n + l) } : ThreadCacheMemPool)
      mp.n l = some () := by
    unfold explicit_commit
    by_cases hv : mp.m_vm_explicit_commit = true
    · obtain ⟨h1, h2⟩ := hcommit hv
      simp only [hv, if_true, h1, ne_eq, not_true_eq_false, if_false]
      rw [if_pos (h2 _ _ _)]
    · simp only [hv]
      rfl
  have hctx2 : ({ mp with n := tosize (mp.n + l) } : ThreadCacheMemPool).ctx tid = some c :=
    hctx
  unfold chunk_alloc
  simp only [hlen, hec, hctx2, hset]

/-- C1 (amended): failure of the pool's `alloc`.  On a well-formed arena
(`PoolWF`: well-formed thread cache, `fastbin_max ≥ sizeof(huge_link_t)`,
block and hot-region sizes that fit the size field, everything inside
`used ≤ capacity`, link-addressable capacity, and - with
`m_vm_explicit_commit` - an aligned base and a `madvise` that fails with
`EINVAL` at worst), for a request `> 0` without wrap-around of `size_t`
(`used + request + AlignSize + 2 * chunk_size ≤ 2^64`) and with enough search
fuel, `alloc` returns; and it returns `size_t(-1)` if and only if the
thread-cache `alloc` of the rounded request `r` returns `size_t(-1)` and
`used + r > capacity`.  In every other case the value returned is an offset
other than `size_t(-1)`. -/
theorem pool_alloc_fail_iff (P : Params) (fuel : Nat) (mp : ThreadCacheMemPool)
    (tid request : Nat) (c : Ctx) (es : List (Nat × Nat))
    (hctx : mp.ctx tid = some c) (hwf : PoolWF P mp c es) (hreq : 0 < request)
    (hw : mp.n + request + P.AlignSize + 2 * mp.m_chunk_size ≤ 2 ^ 64)
    (hfuel : es.length + 1 < fuel) :
    ∃ res mp1, mp.alloc P fuel tid request = some (res, mp1) ∧
      (res = size_fail ↔
        (∃ c1, alloc P fuel c (round_request P.AlignSize request) = some (size_fail, c1)) ∧
          mp.c < mp.n + round_request P.AlignSize request) := by
  have hA := hwf.align
  have htc := hwf.tc
  have hApos := hA.pos
  obtain ⟨hr1, hr2, hr3, hr4⟩ := round_request_spec hA hreq (by omega)
  generalize hrdef : round_request P.AlignSize request = r at hr1 hr2 hr3 hr4
  have hrpos : 0 < r := by omega
  have hhot_n := hwf.hot_n
  have hhot_le := htc.hot_le
  have hendlink : ∀ e, e ∈ es →
      (e.1 + c.mem e.1) / P.AlignSize ≤ list_tail P.AlignSize := by
    intro e he
    have h1 := hwf.ends e he
    have h2 := hwf.used_le
    exact le_trans (Nat.div_le_div_right (le_trans h1 h2)) hwf.cap_link
  obtain ⟨res0, c1, h0, hfail0⟩ := tc_alloc_total P fuel c r es hA htc hwf.bins hwf.typed
    hendlink hrpos hr3 (by omega) (by omega)
  have hstart : mp.alloc P fuel tid request
      = if size_fail ≠ res0 then some (res0, mp.put tid c1)
        else alloc_slow_path P fuel (mp.put tid c1) tid r := by
    unfold ThreadCacheMemPool.alloc
    simp only [hrdef, hctx, h0]
  rw [hstart]
  by_cases hres : res0 = size_fail
  · rw [if_neg (by rw [hres]; simp)]
    obtain ⟨hc1, hnofit, hmiss⟩ := hfail0 hres
    subst hc1
    rw [hres] at h0
    obtain ⟨hs1, hs2⟩ := chunk_alloc_len_spec (mp.put tid c1) r hwf.cap_lt hwf.chunk_pos hrpos
      (by
        show mp.n + r + 2 * mp.m_chunk_size ≤ 2 ^ 64
        omega)
    by_cases hcap : mp.c < mp.n + r
    · have hnone := hs1 hcap
      refine ⟨size_fail, mp.put tid c1, ?_, ?_⟩
      · unfold alloc_slow_path chunk_alloc
        simp only [hnone]
      · exact ⟨fun _ => ⟨⟨c1, h0⟩, hcap⟩, fun _ => rfl⟩
    · obtain ⟨l, hl, hrl, hnl⟩ := hs2 (by
        show mp.n + r ≤ mp.c
        omega)
      have hnl2 : mp.n + l ≤ mp.c := hnl
      have hcl := hwf.cap_lt
      have hhotlink : c1.tc.m_hot_end / P.AlignSize ≤ list_tail P.AlignSize :=
        le_trans (Nat.div_le_div_right (le_trans hhot_n hwf.used_le)) hwf.cap_link
      obtain ⟨c2, es1, hset, hwf2, hlen2, hfl2, hhot2, hpos2, hmiss2⟩ :=
        set_hot_area_retry P fuel c1 es mp.n l r hA htc hwf.bins hhotlink hwf.hot_typed
          hnofit hmiss hrl (by omega) (by omega)
      have hrun := chunk_alloc_run P fuel (mp.put tid c1) tid r l c1 c2 hl hwf.commit
        (ctx_put c1 hctx) hset
      have hhp : c2.tc.m_hot_pos ≠ size_fail := by
        rcases hpos2 with h | h
        · rw [h]
          exact aligned_ne_fail hA htc.hot_pos_al
        · rw [h]
          unfold size_fail
          omega
      obtain ⟨res, c3, hretry, hne⟩ := tc_alloc_retry P fuel c2 r es1 hA hwf2
        (by rw [hfl2]; have := htc.bins_lt; omega) hrpos hr3 hhot2 hhp
        (by rw [hfl2]; exact hmiss2) (by omega)
      have hctx3 : (({ mp.put tid c1 with n := tosize ((mp.put tid c1).n + l) }
          : ThreadCacheMemPool).put tid c2).ctx tid = some c2 := by
        apply ctx_put (c := c1)
        exact ctx_put c1 hctx
      have hfin : alloc_slow_path P fuel (mp.put tid c1) tid r
          = some (res, (({ mp.put tid c1 with n := tosize ((mp.put tid c1).n + l) }
            : ThreadCacheMemPool).put tid c2).put tid c3) := by
        unfold alloc_slow_path
        simp only [hrun, hctx3, hretry]
      exact ⟨res, _, hfin, fun h => absurd h hne, fun h => absurd h.2 hcap⟩
  · rw [if_pos (Ne.symm hres)]
    refine ⟨res0, _, rfl, ?_⟩
    constructor
    · intro h
      exact absurd h hres
    · rintro ⟨⟨c1b, h1⟩, _⟩
      rw [h0] at h1
      have := (Prod.mk.inj (Option.some.inj h1)).1
      exact absurd this hres

theorem ex_pool_lazy_wf : PoolWF ex_params ex_pool_lazy ex_ctx_init [] := by
  have hnil : ∀ (p : Nat × Nat → Prop) (e : Nat × Nat), e ∈ ([] : List (Nat × Nat)) → p e :=
    fun _ e he => absurd he (List.not_mem_nil e)
  refine ⟨ex_valid_align, ⟨⟨by decide, ?_, ?_, hnil _, ?_, List.Pairwise.nil, hnil _,
    List.Pairwise.nil⟩, hnil _, by decide, by decide, by decide, by decide, hnil _, by decide⟩,
    by decide, hnil _, hnil _, by decide, by decide, by decide, by decide, by decide,
    by decide, ?_⟩
  · intro k hk
    exact absurd hk (Nat.not_lt_zero k)
  · intro k _ _
    rfl
  · intro h
    exact absurd rfl h
  · intro h
    exact absurd h (by decide)

theorem pool_alloc_fail_iff_witness :
    (ex_pool_lazy.ctx 0 = some ex_ctx_init ∧ PoolWF ex_params ex_pool_lazy ex_ctx_init [] ∧
      0 < 8 ∧
      ex_pool_lazy.n + 8 + ex_params.AlignSize + 2 * ex_pool_lazy.m_chunk_size ≤ 2 ^ 64 ∧
      ([] : List (Nat × Nat)).length + 1 < 2) ∧
    ∃ res mp1, ex_pool_lazy.alloc ex_params 2 0 8 = some (res, mp1) ∧
      (res = size_fail ↔
        (∃ c1, alloc ex_params 2 ex_ctx_init (round_request ex_params.AlignSize 8)
          = some (size_fail, c1)) ∧
          ex_pool_lazy.c < ex_pool_lazy.n + round_request ex_params.AlignSize 8) :=
  ⟨⟨rfl, ex_pool_lazy_wf, by decide, by decide, by decide⟩,
    pool_alloc_fail_iff ex_params 2 ex_pool_lazy 0 8 ex_ctx_init [] rfl ex_pool_lazy_wf
      (by decide) (by decide) (by decide)⟩

/-! ## `sfree` next to the hot region, and `alloc3` (lines 324-370) -/

/-- C11: `sfree` of a block that abuts the hot region.  For every
thread-cache state and every block with `pos + len == m_hot_pos` (in `size_t`
arithmetic), `sfree(pos, len)` returns the state in which `m_hot_pos` is `pos`
and nothing else has changed: the fastbins, the huge list, the buffer,
`fragment_size`, `m_frag_inc`, the arena counter, `huge_size_sum`,
`huge_node_cnt` and `m_hot_end` are as before. -/
theorem sfree_hot_merge (P : Params) (fuel : Nat) (c : Ctx) (pos len : Nat)
    (h : tosize (pos + len) = c.tc.m_hot_pos) :
    ∃ c1, sfree P fuel c pos len = some c1 ∧
      c1 = { c with tc := { c.tc with m_hot_pos := pos } } ∧
      c1.tc.m_hot_pos = pos ∧ c1.tc.m_freelist_head = c.tc.m_freelist_head ∧
      c1.tc.huge_list = c.tc.huge_list ∧ c1.mem = c.mem ∧
      c1.tc.fragment_size = c.tc.fragment_size ∧ c1.tc.m_frag_inc = c.tc.m_frag_inc ∧
      c1.mp_fragment_size = c.mp_fragment_size ∧
      c1.tc.huge_size_sum = c.tc.huge_size_sum ∧ c1.tc.huge_node_cnt = c.tc.huge_node_cnt ∧
      c1.tc.m_hot_end = c.tc.m_hot_end := by
  refine ⟨_, ?_, rfl, rfl, rfl, rfl, rfl, rfl, rfl, rfl, rfl, rfl, rfl⟩
  unfold sfree
  rw [if_pos h]

theorem sfree_hot_merge_witness :
    tosize (4064 + 32) = ex_ctx_huge.tc.m_hot_pos ∧
    ∃ c1, sfree ex_params 0 ex_ctx_huge 4064 32 = some c1 ∧
      c1 = { ex_ctx_huge with tc := { ex_ctx_huge.tc with m_hot_pos := 4064 } } ∧
      c1.tc.m_hot_pos = 4064 ∧ c1.tc.m_freelist_head = ex_ctx_huge.tc.m_freelist_head ∧
      c1.tc.huge_list = ex_ctx_huge.tc.huge_list ∧ c1.mem = ex_ctx_huge.mem ∧
      c1.tc.fragment_size = ex_ctx_huge.tc.fragment_size ∧
      c1.tc.m_frag_inc = ex_ctx_huge.tc.m_frag_inc ∧
      c1.mp_fragment_size = ex_ctx_huge.mp_fragment_size ∧
      c1.tc.huge_size_sum = ex_ctx_huge.tc.huge_size_sum ∧
      c1.tc.huge_node_cnt = ex_ctx_huge.tc.huge_node_cnt ∧
      c1.tc.m_hot_end = ex_ctx_huge.tc.m_hot_end :=
  ⟨by decide, sfree_hot_merge ex_params 0 ex_ctx_huge 4064 32 (by decide)⟩

/-- C17: `alloc3` grows a block in place.  For every thread-cache state and
every block with `oldpos + oldlen == m_hot_pos` and
`oldpos + newlen ≤ m_hot_end` (in `size_t` arithmetic; the claim's case is
`newlen > oldlen`), `alloc3` returns `oldpos` and the state in which
`m_hot_pos` is `oldpos + newlen`: the buffer is untouched (nothing is copied,
the block's bytes stay), and the fastbins, the huge list, `fragment_size`,
`m_frag_inc`, the huge counters and `m_hot_end` are as before. -/
theorem alloc3_grow_in_place (P : Params) (fuel : Nat) (c : Ctx) (oldpos oldlen newlen : Nat)
    (habut : tosize (oldpos + oldlen) = c.tc.m_hot_pos)
    (hfit : tosize (oldpos + newlen) ≤ c.tc.m_hot_end) :
    ∃ c1, alloc3 P fuel c oldpos oldlen newlen = some (oldpos, c1) ∧
      c1 = { c with tc := { c.tc with m_hot_pos := tosize (oldpos + newlen) } } ∧
      (oldpos + newlen < 2 ^ 64 → c1.tc.m_hot_pos = oldpos + newlen) ∧
      c1.mem = c.mem ∧ c1.tc.m_freelist_head = c.tc.m_freelist_head ∧
      c1.tc.huge_list = c.tc.huge_list ∧
      c1.tc.fragment_size = c.tc.fragment_size ∧ c1.tc.m_frag_inc = c.tc.m_frag_inc ∧
      c1.mp_fragment_size = c.mp_fragment_size ∧
      c1.tc.huge_size_sum = c.tc.huge_size_sum ∧ c1.tc.huge_node_cnt = c.tc.huge_node_cnt ∧
      c1.tc.m_hot_end = c.tc.m_hot_end := by
  refine ⟨_, ?_, rfl, fun h => tosize_of_lt h, rfl, rfl, rfl, rfl, rfl, rfl, rfl, rfl, rfl⟩
  unfold alloc3
  rw [if_pos ⟨habut, hfit⟩]

theorem alloc3_grow_in_place_witness :
    (tosize (4064 + 32) = ex_ctx_huge.tc.m_hot_pos ∧
      tosize (4064 + 64) ≤ ex_ctx_huge.tc.m_hot_end) ∧
    ∃ c1, alloc3 ex_params 0 ex_ctx_huge 4064 32 64 = some (4064, c1) ∧
      c1 = { ex_ctx_huge with tc := { ex_ctx_huge.tc with m_hot_pos := tosize (4064 + 64) } } ∧
      (4064 + 64 < 2 ^ 64 → c1.tc.m_hot_pos = 4064 + 64) ∧
      c1.mem = ex_ctx_huge.mem ∧ c1.tc.m_freelist_head = ex_ctx_huge.tc.m_freelist_head ∧
      c1.tc.huge_list = ex_ctx_huge.tc.huge_list ∧
      c1.tc.fragment_size = ex_ctx_huge.tc.fragment_size ∧
      c1.tc.m_frag_inc = ex_ctx_huge.tc.m_frag_inc ∧
      c1.mp_fragment_size = ex_ctx_huge.mp_fragment_size ∧
      c1.tc.huge_size_sum = ex_ctx_huge.tc.huge_size_sum ∧
      c1.tc.huge_node_cnt = ex_ctx_huge.tc.huge_node_cnt ∧
      c1.tc.m_hot_end = ex_ctx_huge.tc.m_hot_end :=
  ⟨⟨by decide, by decide⟩,
    alloc3_grow_in_place ex_params 0 ex_ctx_huge 4064 32 64 (by decide) (by decide)⟩

/-- The method `sfree` when it takes its skiplist branch, on a well-formed
huge list: the result of the insertion, with the counters. -/
theorem sfree_huge_run (P : Params) (fuel : Nat) (c : Ctx) (pos len : Nat)
    (es : List (Nat × Nat)) (hA : ValidAlign P.AlignSize)
    (hwf : SkipWF P.AlignSize c es)
    (hhot : tosize (pos + len) ≠ c.tc.m_hot_pos)
    (hbig : c.tc.m_freelist_head.length * P.AlignSize < len)
    (hbin : sizeof_huge_link P.AlignSize ≤ c.tc.m_freelist_head.length * P.AlignSize)
    (hbl : c.tc.m_freelist_head.length * P.AlignSize < 2 ^ 64)
    (hposal : pos % P.AlignSize = 0) (hlink : pos / P.AlignSize < list_tail P.AlignSize)
    (hlenl : len < 2 ^ link_bits P.AlignSize) (hend : pos + len < 2 ^ 64)
    (hdisj : ∀ e, e ∈ es → e.1 + c.mem e.1 ≤ pos ∨ pos + len ≤ e.1)
    (hfuel : es.length < fuel) :
    ∃ small big h c1, es = small ++ big ∧ (∀ e, e ∈ small → c.mem e.1 < len) ∧
      (∀ e, e ∈ big → len ≤ c.mem e.1) ∧
      sfree P fuel c pos len = some c1 ∧
      SkipWF P.AlignSize c1 (small ++ (pos, h) :: big) ∧
      c1.mem pos = len ∧
      (∀ e, e ∈ es → c1.mem e.1 = c.mem e.1) ∧
      (∀ addr, addr < pos ∨ pos + sizeof_huge_link P.AlignSize ≤ addr →
        (∀ e, e ∈ es → addr < e.1 ∨ e.1 + sizeof_huge_link P.AlignSize ≤ addr) →
        c1.mem addr = c.mem addr) ∧
      c1.tc.m_freelist_head = c.tc.m_freelist_head ∧
      c1.tc.m_hot_pos = c.tc.m_hot_pos ∧ c1.tc.m_hot_end = c.tc.m_hot_end ∧
      c1.tc.fragment_size = tosize (c.tc.fragment_size + len) ∧
      c1.tc.huge_size_sum = tosize (c.tc.huge_size_sum + len) ∧
      c1.tc.huge_node_cnt = tosize (c.tc.huge_node_cnt + 1) := by
  obtain ⟨small, big, hes, hsm, hbg⟩ := sorted_split (fun e : Nat × Nat => c.mem e.1) len es
    hwf.sorted
  obtain ⟨h, c0, hrun, hwf0, hm1, hm2, hm3, hfl, hp, he, hfs, _, _, hss, hnc⟩ :=
    sfree_huge_spec P fuel c pos len es small big hA hwf hes hsm hbg hposal hlink (by omega)
      hlenl hend hdisj hfuel
  refine ⟨small, big, h, account_free c0 len, hes, hsm,
    fun e he => Nat.le_of_not_lt (hbg e he), ?_, ?_, ?_, ?_, ?_, ?_, ?_, ?_, ?_, ?_, ?_⟩
  · unfold sfree
    rw [if_neg hhot, tosize_of_lt hbl, if_neg (by omega), hrun]
  · exact hwf0.frame (by simp) (fun _ _ _ _ => by simp)
  · simpa using hm1
  · intro e he
    simpa using hm2 e he
  · intro addr h1 h2
    simpa using hm3 addr h1 h2
  · simp [hfl]
  · simp [hp]
  · simp [he]
  · simp [hfs]
  · simp [hss]
  · simp [hnc]

/-- C15: `alloc3` with `0 < newlen ≤ oldlen`.  On a thread cache with a
well-formed huge list, for a block `[oldpos, oldpos + oldlen)` that is
aligned, link-addressable and disjoint from the free huge blocks, and lengths
that are multiples of `AlignSize`: `alloc3` returns (with enough search fuel),
the value returned is `oldpos`, which is not `size_t(-1)`, and when
`newlen == oldlen` the state is unchanged. -/
theorem alloc3_shrink_returns (P : Params) (fuel : Nat) (c : Ctx)
    (oldpos oldlen newlen : Nat) (es : List (Nat × Nat))
    (hA : ValidAlign P.AlignSize) (hwf : SkipWF P.AlignSize c es)
    (hbin : sizeof_huge_link P.AlignSize ≤ c.tc.m_freelist_head.length * P.AlignSize)
    (hbl : c.tc.m_freelist_head.length * P.AlignSize < 2 ^ 64)
    (h0 : 0 < newlen) (hle : newlen ≤ oldlen)
    (hnl : newlen % P.AlignSize = 0) (hol : oldlen % P.AlignSize = 0)
    (hposal : oldpos % P.AlignSize = 0)
    (hlink : (oldpos + oldlen) / P.AlignSize ≤ list_tail P.AlignSize)
    (htyped : oldlen < 2 ^ link_bits P.AlignSize) (hend : oldpos + oldlen < 2 ^ 64)
    (hdisj : ∀ e, e ∈ es → e.1 + c.mem e.1 ≤ oldpos ∨ oldpos + oldlen ≤ e.1)
    (hfuel : es.length < fuel) :
    ∃ c1, alloc3 P fuel c oldpos oldlen newlen = some (oldpos, c1) ∧
      oldpos ≠ size_fail ∧ (newlen = oldlen → c1 = c) := by
  have hne := aligned_ne_fail hA hposal
  unfold alloc3
  by_cases h1 : tosize (oldpos + oldlen) = c.tc.m_hot_pos ∧
      tosize (oldpos + newlen) ≤ c.tc.m_hot_end
  · rw [if_pos h1]
    refine ⟨_, rfl, hne, ?_⟩
    intro heq
    subst heq
    rw [h1.1]
  · rw [if_neg h1]
    by_cases h2 : newlen < oldlen
    · rw [if_pos h2]
      have hpe : tosize (oldpos + newlen) = oldpos + newlen := tosize_of_lt (by omega)
      have hlen : size_sub oldlen newlen = oldlen - newlen :=
        size_sub_of_le hle (by omega)
      have hremal : (oldlen - newlen) % P.AlignSize = 0 :=
        (Nat.dvd_sub' (Nat.dvd_of_mod_eq_zero hol)
          (Nat.dvd_of_mod_eq_zero hnl)).elim (fun k hk => by rw [hk]; simp)
      have hposal2 : (oldpos + newlen) % P.AlignSize = 0 :=
        (Nat.dvd_add (Nat.dvd_of_mod_eq_zero hposal)
          (Nat.dvd_of_mod_eq_zero hnl)).elim (fun k hk => by rw [hk]; simp)
      have hlink2 : (oldpos + newlen) / P.AlignSize < list_tail P.AlignSize := by
        have hd : P.AlignSize ∣ oldpos + oldlen :=
          Nat.dvd_add (Nat.dvd_of_mod_eq_zero hposal) (Nat.dvd_of_mod_eq_zero hol)
        have := Nat.div_lt_div_of_lt_of_dvd hd (show oldpos + newlen < oldpos + oldlen by omega)
        omega
      obtain ⟨c1, es1, hs, _⟩ := sfree_skip P fuel c (oldpos + newlen) (oldlen - newlen) es hA
        hwf hposal2 (by omega) hremal hlink2 (by omega) (by omega)
        (by
          intro e he
          have := hdisj e he
          omega)
        hbin hbl hfuel
      rw [hpe, hlen, hs]
      exact ⟨c1, rfl, hne, fun h => absurd h (by omega)⟩
    · rw [if_neg h2]
      have heq : newlen = oldlen := by omega
      rw [if_pos heq]
      exact ⟨c, rfl, hne, fun _ => rfl⟩

theorem alloc3_shrink_returns_witness :
    (ValidAlign ex_params.AlignSize ∧ SkipWF ex_params.AlignSize ex_ctx_best [(1024, 1)] ∧
      sizeof_huge_link ex_params.AlignSize
        ≤ ex_ctx_best.tc.m_freelist_head.length * ex_params.AlignSize ∧
      0 < 16 ∧ 16 ≤ 32 ∧ 16 % ex_params.AlignSize = 0 ∧ 32 % ex_params.AlignSize = 0 ∧
      2048 % ex_params.AlignSize = 0 ∧ [((1024 : Nat), (1 : Nat))].length < 2) ∧
    ∃ c1, alloc3 ex_params 2 ex_ctx_best 2048 32 16 = some (2048, c1) ∧
      2048 ≠ size_fail ∧ (16 = 32 → c1 = ex_ctx_best) :=
  ⟨⟨ex_valid_align, ex_ctx_best_wf.skip, by decide, by decide, by decide, by decide, by decide,
      by decide, by decide⟩,
    alloc3_shrink_returns ex_params 2 ex_ctx_best 2048 32 16 [(1024, 1)] ex_valid_align
      ex_ctx_best_wf.skip (by decide) (by decide) (by decide) (by decide) (by decide)
      (by decide) (by decide) (by decide) (by decide) (by decide)
      (fun e he => by
        simp only [List.mem_singleton] at he
        subst he
        decide)
      (by decide)⟩

/-- C16 (counterexample): a shrink that frees nothing.  The 32-byte block at
offset 4064 ends where the hot region `[4096, 8192)` begins; `alloc3` to 16
bytes takes its first branch, moves `m_hot_pos` down to 4080 and returns: the
tail `[4080, 4096)` is on no free list (all fastbins are as before, the huge
list is as before) and `fragment_size` has not grown. -/
theorem alloc3_shrink_merges_tail :
    16 < 32 ∧ ∃ c1, alloc3 ex_params 2 ex_ctx_huge 4064 32 16 = some (4064, c1) ∧
      c1.tc.m_hot_pos = 4080 ∧
      c1.tc.m_freelist_head = ex_ctx_huge.tc.m_freelist_head ∧
      c1.tc.huge_list = ex_ctx_huge.tc.huge_list ∧ c1.mem = ex_ctx_huge.mem ∧
      c1.tc.fragment_size = ex_ctx_huge.tc.fragment_size ∧
      ¬ (c1.tc.fragment_size = ex_ctx_huge.tc.fragment_size + (32 - 16)) :=
  ⟨by decide, _, rfl, rfl, rfl, rfl, rfl, rfl, by decide⟩

/-- C16 (amended): `alloc3` with `newlen < oldlen`, for an aligned block and
lengths that are multiples of `AlignSize`.

* If the block ends at `m_hot_pos` (and `m_hot_pos ≤ m_hot_end`), the tail is
  merged into the hot region: `m_hot_pos` becomes `oldpos + newlen` and
  nothing else changes.
* Otherwise the tail `[oldpos + newlen, oldpos + oldlen)` goes through
  `sfree` and `fragment_size` grows by `oldlen - newlen` (in `size_t`):
  a tail of at most `fastbin_max` bytes becomes the head of the fastbin of
  its size, the previous head being stored in its first word; a longer tail
  is entered into the (well-formed) huge list behind the blocks smaller than
  it, with its length as size field, and `huge_size_sum` grows by the same
  amount. -/
theorem alloc3_shrink (P : Params) (fuel : Nat) (c : Ctx) (oldpos oldlen newlen : Nat)
    (es : List (Nat × Nat)) (hA : ValidAlign P.AlignSize)
    (hlt : newlen < oldlen)
    (hnl : newlen % P.AlignSize = 0) (hol : oldlen % P.AlignSize = 0)
    (hposal : oldpos % P.AlignSize = 0) (hend : oldpos + oldlen < 2 ^ 64)
    (hbl : c.tc.m_freelist_head.length * P.AlignSize < 2 ^ 64) :
    (oldpos + oldlen = c.tc.m_hot_pos → c.tc.m_hot_pos ≤ c.tc.m_hot_end →
      alloc3 P fuel c oldpos oldlen newlen
        = some (oldpos, { c with tc := { c.tc with m_hot_pos := oldpos + newlen } })) ∧
    (oldpos + oldlen ≠ c.tc.m_hot_pos →
      oldlen - newlen ≤ c.tc.m_freelist_head.length * P.AlignSize →
      ∃ list c1, c.tc.m_freelist_head[(oldlen - newlen) / P.AlignSize - 1]? = some list ∧
        alloc3 P fuel c oldpos oldlen newlen = some (oldpos, c1) ∧
        c1.tc.m_freelist_head
          = c.tc.m_freelist_head.set ((oldlen - newlen) / P.AlignSize - 1)
            (head_t.mk (tolink P.AlignSize ((oldpos + newlen) / P.AlignSize))
              (tolink P.AlignSize (list.cnt + 1))) ∧
        c1.mem = Function.update c.mem (oldpos + newlen) list.head ∧
        c1.tc.fragment_size = tosize (c.tc.fragment_size + (oldlen - newlen)) ∧
        c1.tc.huge_list = c.tc.huge_list ∧ c1.tc.huge_size_sum = c.tc.huge_size_sum ∧
        c1.tc.m_hot_pos = c.tc.m_hot_pos ∧ c1.tc.m_hot_end = c.tc.m_hot_end) ∧
    (oldpos + oldlen ≠ c.tc.m_hot_pos →
      c.tc.m_freelist_head.length * P.AlignSize < oldlen - newlen →
      SkipWF P.AlignSize c es →
      sizeof_huge_link P.AlignSize ≤ c.tc.m_freelist_head.length * P.AlignSize →
      (oldpos + oldlen) / P.AlignSize ≤ list_tail P.AlignSize →
      oldlen < 2 ^ link_bits P.AlignSize →
      (∀ e, e ∈ es → e.1 + c.mem e.1 ≤ oldpos ∨ oldpos + oldlen ≤ e.1) →
      es.length < fuel →
      ∃ small big h c1, es = small ++ big ∧
        (∀ e, e ∈ small → c.mem e.1 < oldlen - newlen) ∧
        (∀ e, e ∈ big → oldlen - newlen ≤ c.mem e.1) ∧
        alloc3 P fuel c oldpos oldlen newlen = some (oldpos, c1) ∧
        SkipWF P.AlignSize c1 (small ++ (oldpos + newlen, h) :: big) ∧
        c1.mem (oldpos + newlen) = oldlen - newlen ∧
        c1.tc.fragment_size = tosize (c.tc.fragment_size + (oldlen - newlen)) ∧
        c1.tc.huge_size_sum = tosize (c.tc.huge_size_sum + (oldlen - newlen)) ∧
        c1.tc.m_freelist_head = c.tc.m_freelist_head ∧
        c1.tc.m_hot_pos = c.tc.m_hot_pos ∧ c1.tc.m_hot_end = c.tc.m_hot_end) := by
  have hpe : tosize (oldpos + newlen) = oldpos + newlen := tosize_of_lt (by omega)
  have hpo : tosize (oldpos + oldlen) = oldpos + oldlen := tosize_of_lt hend
  have hlen : size_sub oldlen newlen = oldlen - newlen :=
    size_sub_of_le (le_of_lt hlt) (by omega)
  have hremal : (oldlen - newlen) % P.AlignSize = 0 :=
    (Nat.dvd_sub' (Nat.dvd_of_mod_eq_zero hol)
      (Nat.dvd_of_mod_eq_zero hnl)).elim (fun k hk => by rw [hk]; simp)
  have hposal2 : (oldpos + newlen) % P.AlignSize = 0 :=
    (Nat.dvd_add (Nat.dvd_of_mod_eq_zero hposal)
      (Nat.dvd_of_mod_eq_zero hnl)).elim (fun k hk => by rw [hk]; simp)
  have hsum : oldpos + newlen + (oldlen - newlen) = oldpos + oldlen := by omega
  have hstart : oldpos + oldlen ≠ c.tc.m_hot_pos →
      alloc3 P fuel c oldpos oldlen newlen
        = (sfree P fuel c (oldpos + newlen) (oldlen - newlen)).map
            (fun c1 => (oldpos, c1)) := by
    intro hne
    unfold alloc3
    rw [if_neg (by rw [hpo]; exact fun h => hne h.1), if_pos hlt, hpe, hlen]
    cases sfree P fuel c (oldpos + newlen) (oldlen - newlen) <;> rfl
  refine ⟨?_, ?_, ?_⟩
  · intro habut hle
    unfold alloc3
    rw [if_pos ⟨by rw [hpo]; exact habut, by rw [hpe]; omega⟩, hpe]
  · intro hne hfast
    obtain ⟨list, c1, hget, hs, hfl, hmem, hfs, hhl, hss, _, hp, he, _⟩ :=
      sfree_fastbin P fuel c (oldpos + newlen) (oldlen - newlen) hA (by omega) hremal
        (by rw [tosize_of_lt hbl]; exact hfast) (by rw [hsum, hpo]; exact hne)
    refine ⟨list, c1, hget, ?_, hfl, hmem, hfs, hhl, hss, hp, he⟩
    simp only [hstart hne, hs, Option.map_some']
  · intro hne hbig hwf hbin hlink htyped hdisj hfuel
    have hlink2 : (oldpos + newlen) / P.AlignSize < list_tail P.AlignSize := by
      have hd : P.AlignSize ∣ oldpos + oldlen :=
        Nat.dvd_add (Nat.dvd_of_mod_eq_zero hposal) (Nat.dvd_of_mod_eq_zero hol)
      have := Nat.div_lt_div_of_lt_of_dvd hd (show oldpos + newlen < oldpos + oldlen by omega)
      omega
    obtain ⟨small, big, h, c1, hes, hsm, hbg, hs, hwf1, hm1, _, _, hfl, hp, he, hfs, hss, _⟩ :=
      sfree_huge_run P fuel c (oldpos + newlen) (oldlen - newlen) es hA hwf
        (by rw [hsum, hpo]; exact hne) hbig hbin hbl hposal2 hlink2 (by omega) (by omega)
        (by
          intro e he
          have := hdisj e he
          omega)
        hfuel
    refine ⟨small, big, h, c1, hes, hsm, hbg, ?_, hwf1, hm1, hfs, hss, hfl, hp, he⟩
    simp only [hstart hne, hs, Option.map_some']

theorem alloc3_shrink_witness :
    (ValidAlign ex_params.AlignSize ∧ 16 < 32 ∧ 16 % ex_params.AlignSize = 0 ∧
      32 % ex_params.AlignSize = 0 ∧ 2048 % ex_params.AlignSize = 0 ∧
      2048 + 32 < 2 ^ 64 ∧
      ex_ctx_best.tc.m_freelist_head.length * ex_params.AlignSize < 2 ^ 64 ∧
      2048 + 32 ≠ ex_ctx_best.tc.m_hot_pos ∧
      32 - 16 ≤ ex_ctx_best.tc.m_freelist_head.length * ex_params.AlignSize) ∧
    ∃ list c1, ex_ctx_best.tc.m_freelist_head[(32 - 16) / ex_params.AlignSize - 1]?
        = some list ∧
      alloc3 ex_params 2 ex_ctx_best 2048 32 16 = some (2048, c1) ∧
      c1.mem = Function.update ex_ctx_best.mem (2048 + 16) list.head ∧
      c1.tc.fragment_size = tosize (ex_ctx_best.tc.fragment_size + (32 - 16)) := by
  obtain ⟨list, c1, h1, h2, _, h4, h5, _⟩ :=
    (alloc3_shrink ex_params 2 ex_ctx_best 2048 32 16 [] ex_valid_align (by decide)
      (by decide) (by decide) (by decide) (by decide) (by decide)).2.1 (by decide) (by decide)
  exact ⟨⟨ex_valid_align, by decide, by decide, by decide, by decide, by decide, by decide,
    by decide, by decide⟩, list, c1, h1, h2, h4, h5⟩

/-! ## `tc_populate` (lines 819-841) -/

/-- C20 (counterexample): `tc_populate` rounds its argument down to a
multiple of the chunk size.  On a fresh 8 MiB pool with 2 MiB chunks,
`tc_populate(100)` computes `chunk_len = pow2_align_down(100, 2 MiB) = 0`:
`used` stays 0 and the hot region of the calling thread cache stays empty,
although `used + 100 ≤ capacity`. -/
theorem tc_populate_rounds_down :
    ex_pool_fresh.n + 100 ≤ ex_pool_fresh.c ∧
    ∃ mp1 tc1, tc_populate ex_params 1 ex_pool_fresh 0 100 = some mp1 ∧
      mp1.n = ex_pool_fresh.n ∧ mp1.tls[0]? = some tc1 ∧
      tc1.m_hot_end - tc1.m_hot_pos = 0 ∧ ¬ (ex_pool_fresh.n + 100 ≤ mp1.n) :=
  ⟨by decide, _, _, rfl, rfl, rfl, rfl, by decide⟩

/-- The loop of `populate_hot_area` ends: one pass per page of the hot
region. -/
theorem populate_loop_total (A hot_end ps : Nat) (hps : 0 < ps) (hw : hot_end + ps ≤ 2 ^ 64) :
    ∀ (fuel pos : Nat) (m : Nat → Nat), (hot_end - pos + (ps - 1)) / ps + 1 ≤ fuel →
      ∃ m1, populate_loop A hot_end ps fuel pos m = some m1 := by
  intro fuel
  induction fuel with
  | zero =>
    intro pos m h
    exact absurd h (Nat.not_succ_le_zero _)
  | succ f ih =>
    intro pos m h
    unfold populate_loop
    by_cases hlt : pos < hot_end
    · rw [if_pos hlt, tosize_of_lt (by omega)]
      apply ih
      by_cases hd : ps ≤ hot_end - pos
      · have h1 : hot_end - pos + (ps - 1) = (hot_end - (pos + ps) + (ps - 1)) + ps := by omega
        rw [h1, Nat.add_div_right _ hps] at h
        omega
      · have h1 : hot_end - (pos + ps) = 0 := by omega
        have h2 : (0 + (ps - 1)) / ps = 0 := Nat.div_eq_of_lt (by omega)
        have h3 : 1 ≤ (hot_end - pos + (ps - 1)) / ps :=
          (Nat.one_le_div_iff hps).2 (by omega)
        rw [h1, h2]
        omega
    · rw [if_neg hlt]
      exact ⟨m, rfl⟩

/-- The method `set_hot_area(pos, len)` returns on a well-formed thread
cache; afterwards the hot region ends at `pos + len` and holds at least `len`
bytes. -/
theorem set_hot_area_total (P : Params) (fuel : Nat) (c : Ctx) (es : List (Nat × Nat))
    (pos len : Nat) (hA : ValidAlign P.AlignSize) (htc : TcWF P.AlignSize c es)
    (hbin : sizeof_huge_link P.AlignSize ≤ c.tc.m_freelist_head.length * P.AlignSize)
    (hhotlink : c.tc.m_hot_end / P.AlignSize ≤ list_tail P.AlignSize)
    (hhottyped : c.tc.m_hot_end - c.tc.m_hot_pos < 2 ^ link_bits P.AlignSize)
    (hpl : pos + len < 2 ^ 64) (hfuel : es.length < fuel) :
    ∃ c1, set_hot_area P fuel c pos len = some c1 ∧ c1.tc.m_hot_end = pos + len ∧
      ((c.tc.m_hot_end = pos ∧ c1.tc.m_hot_pos = c.tc.m_hot_pos) ∨ c1.tc.m_hot_pos = pos) ∧
      c1.tc.m_hot_pos + len ≤ c1.tc.m_hot_end := by
  have hwf := htc.skip
  have hle := htc.hot_le
  have hpe : tosize (pos + len) = pos + len := tosize_of_lt hpl
  unfold set_hot_area
  by_cases h1 : c.tc.m_hot_end = pos
  · rw [if_pos h1]
    refine ⟨_, rfl, hpe, Or.inl ⟨h1, rfl⟩, ?_⟩
    show c.tc.m_hot_pos + len ≤ tosize (pos + len)
    rw [hpe]
    omega
  · rw [if_neg h1]
    by_cases h2 : c.tc.m_hot_pos < c.tc.m_hot_end
    · rw [if_pos h2, size_sub_of_le hle htc.hot_end_lt]
      have hremal : (c.tc.m_hot_end - c.tc.m_hot_pos) % P.AlignSize = 0 :=
        (Nat.dvd_sub' (Nat.dvd_of_mod_eq_zero htc.hot_end_al)
          (Nat.dvd_of_mod_eq_zero htc.hot_pos_al)).elim (fun k hk => by rw [hk]; simp)
      have hlink : c.tc.m_hot_pos / P.AlignSize < list_tail P.AlignSize := by
        have := Nat.div_lt_div_of_lt_of_dvd (Nat.dvd_of_mod_eq_zero htc.hot_end_al) h2
        omega
      have hend : c.tc.m_hot_pos + (c.tc.m_hot_end - c.tc.m_hot_pos) < 2 ^ 64 := by
        have := htc.hot_end_lt
        omega
      obtain ⟨c1, es1, hs, _⟩ := sfree_skip P fuel c c.tc.m_hot_pos
        (c.tc.m_hot_end - c.tc.m_hot_pos) es hA hwf htc.hot_pos_al (by omega) hremal hlink
        hhottyped hend
        (by
          intro e he
          have := htc.hot_disj e he
          omega)
        hbin (by have := htc.bins_lt; omega) hfuel
      rw [hs]
      refine ⟨_, rfl, hpe, Or.inr rfl, ?_⟩
      show pos + len ≤ tosize (pos + len)
      rw [hpe]
    · rw [if_neg h2]
      refine ⟨_, rfl, hpe, Or.inr rfl, ?_⟩
      show pos + len ≤ tosize (pos + len)
      rw [hpe]

/-- C20 (amended): `tc_populate(sz)` on a well-formed arena, with
`used + sz ≤ capacity`, without wrap-around and with enough fuel: the call
returns, `used` grows by at least `pow2_align_down(sz, chunk_size)` - which is
more than `sz - chunk_size`, and is `sz` itself when `sz` is a multiple of the
chunk size - and stays at most `capacity`; afterwards the hot region of the
calling thread cache ends at `used` and holds at least that many bytes. -/
theorem tc_populate_grows (P : Params) (fuel : Nat) (mp : ThreadCacheMemPool)
    (tid sz : Nat) (c : Ctx) (es : List (Nat × Nat))
    (hctx : mp.ctx tid = some c) (hwf : PoolWF P mp c es) (hsz : mp.n + sz ≤ mp.c)
    (hw : mp.n + sz + mp.m_chunk_size < 2 ^ 64) (hcw : mp.c + 4096 ≤ 2 ^ 64)
    (hfuel : es.length < fuel) (hfuel2 : mp.c / 4096 + 2 ≤ fuel) :
    ∃ mp1 c1, tc_populate P fuel mp tid sz = some mp1 ∧ mp1.ctx tid = some c1 ∧
      mp.n + pow2_align_down sz mp.m_chunk_size ≤ mp1.n ∧ mp1.n ≤ mp.c ∧
      pow2_align_down sz mp.m_chunk_size ≤ c1.tc.m_hot_end - c1.tc.m_hot_pos ∧
      c1.tc.m_hot_end = mp1.n ∧
      sz < pow2_align_down sz mp.m_chunk_size + mp.m_chunk_size ∧
      (sz % mp.m_chunk_size = 0 → pow2_align_down sz mp.m_chunk_size = sz) := by
  have hA := hwf.align
  have htc := hwf.tc
  have h0 := hwf.chunk_pos
  have h64 : mp.m_chunk_size < 2 ^ 64 := by omega
  have hcl := hwf.cap_lt
  have hdle : pow2_align_down sz mp.m_chunk_size ≤ sz := Nat.div_mul_le_self _ _
  have hdlt : sz < pow2_align_down sz mp.m_chunk_size + mp.m_chunk_size :=
    Nat.lt_div_mul_add h0
  -- the length chosen
  have hfge : pow2_align_down sz mp.m_chunk_size
      ≤ populate_len_fix mp (pow2_align_down sz mp.m_chunk_size) := by
    unfold populate_len_fix
    have hrem := @chunk_rem_le (tosize (mp.p + mp.n)) _ h0 h64
    split
    · rw [size_sub_of_le (by omega) h64, tosize_of_lt (by omega)]
      omega
    · exact le_refl _
  have hfle := populate_len_fix_le mp (pow2_align_down sz mp.m_chunk_size) h0 h64
  have hL : pow2_align_down sz mp.m_chunk_size ≤ tc_populate_len mp sz ∧
      mp.n + tc_populate_len mp sz ≤ mp.c := by
    unfold tc_populate_len
    simp only
    generalize populate_len_fix mp (pow2_align_down sz mp.m_chunk_size) = l at hfge hfle
    rw [tosize_of_lt (by omega : mp.n + l < 2 ^ 64)]
    by_cases h1 : mp.n + l > mp.c
    · rw [if_pos h1, size_sub_of_le hwf.used_le hcl]
      have := hwf.used_le
      omega
    · rw [if_neg h1]
      omega
  obtain ⟨L, hLdef⟩ : ∃ L, tc_populate_len mp sz = L := ⟨_, rfl⟩
  rw [hLdef] at hL
  have hnL : tosize (mp.n + L) = mp.n + L := tosize_of_lt (by omega)
  have hhotlink : c.tc.m_hot_end / P.AlignSize ≤ list_tail P.AlignSize :=
    le_trans (Nat.div_le_div_right (le_trans hwf.hot_n hwf.used_le)) hwf.cap_link
  obtain ⟨c1, hset, he1, hp1, hroom⟩ := set_hot_area_total P fuel c es mp.n L hA htc hwf.bins
    hhotlink hwf.hot_typed (by omega) hfuel
  obtain ⟨m1, hloop⟩ := populate_loop_total P.AlignSize c1.tc.m_hot_end (4 * 1024) (by norm_num)
    (by rw [he1]; omega) fuel c1.tc.m_hot_pos c1.mem
    (by
      rw [he1]
      have h1 : (mp.n + L - c1.tc.m_hot_pos + (4 * 1024 - 1)) / (4 * 1024)
          ≤ (mp.c + (4 * 1024 - 1)) / (4 * 1024) := Nat.div_le_div_right (by omega)
      omega)
  have hctx2 : ({ mp with n := tosize (mp.n + L) } : ThreadCacheMemPool).ctx tid = some c :=
    hctx
  have hrun : tc_populate P fuel mp tid sz
      = some (({ mp with n := tosize (mp.n + L) } : ThreadCacheMemPool).put tid
          { c1 with mem := m1 }) := by
    unfold tc_populate populate_hot_area
    simp only [hLdef, hctx2, hset, hloop]
  refine ⟨_, { c1 with mem := m1 }, hrun, ctx_put _ hctx2, ?_, ?_, ?_, ?_, hdlt, ?_⟩
  · show mp.n + pow2_align_down sz mp.m_chunk_size ≤ tosize (mp.n + L)
    rw [hnL]
    omega
  · show tosize (mp.n + L) ≤ mp.c
    rw [hnL]
    exact hL.2
  · show pow2_align_down sz mp.m_chunk_size ≤ c1.tc.m_hot_end - c1.tc.m_hot_pos
    omega
  · show c1.tc.m_hot_end = tosize (mp.n + L)
    rw [hnL, he1]
  · intro hmod
    exact Nat.div_mul_cancel (Nat.dvd_of_mod_eq_zero hmod)

theorem tc_populate_grows_witness :
    (ex_pool_lazy.ctx 0 = some ex_ctx_init ∧ PoolWF ex_params ex_pool_lazy ex_ctx_init [] ∧
      ex_pool_lazy.n + 2097152 ≤ ex_pool_lazy.c ∧
      ex_pool_lazy.n + 2097152 + ex_pool_lazy.m_chunk_size < 2 ^ 64 ∧
      ex_pool_lazy.c + 4096 ≤ 2 ^ 64 ∧ ([] : List (Nat × Nat)).length < 2050 ∧
      ex_pool_lazy.c / 4096 + 2 ≤ 2050) ∧
    ∃ mp1 c1, tc_populate ex_params 2050 ex_pool_lazy 0 2097152 = some mp1 ∧
      mp1.ctx 0 = some c1 ∧
      ex_pool_lazy.n + pow2_align_down 2097152 ex_pool_lazy.m_chunk_size ≤ mp1.n ∧
      mp1.n ≤ ex_pool_lazy.c ∧
      pow2_align_down 2097152 ex_pool_lazy.m_chunk_size
        ≤ c1.tc.m_hot_end - c1.tc.m_hot_pos ∧
      c1.tc.m_hot_end = mp1.n ∧
      2097152 < pow2_align_down 2097152 ex_pool_lazy.m_chunk_size + ex_pool_lazy.m_chunk_size ∧
      (2097152 % ex_pool_lazy.m_chunk_size = 0 →
        pow2_align_down 2097152 ex_pool_lazy.m_chunk_size = 2097152) :=
  ⟨⟨rfl, ex_pool_lazy_wf, by decide, by decide, by decide, by decide, by decide⟩,
    tc_populate_grows ex_params 2050 ex_pool_lazy 0 2097152 ex_ctx_init [] rfl ex_pool_lazy_wf
      (by decide) (by decide) (by decide) (by decide) (by decide)⟩

/-! ## The byte counters of a thread cache -/

/-- C13 (divergence): the best fit miscounts.  On a fresh pool (`AlignSize`
4, `fastbin_max` 64) the calls `alloc(128)`, `alloc(8)`, `sfree(0, 128)`,
`alloc(96)` return the offsets 0, 128 and 0.  Before the last call the
counters are right: `fragment_size = huge_size_sum = 128`, one huge block of
128 bytes.  After it `fragment_size` is 64 and `huge_size_sum` is 32, while
the lists hold a single 32-byte block on its fastbin and the huge list is
empty: the best-fit branch subtracts `request` after `sfree` has added the
tail, where the refill branch subtracts the size of the block. -/
theorem best_fit_miscounts :
    ∃ m3 m4 c3 c4, ex_run_best_fit = some ([0, 128, 0], m3, m4) ∧
      m3.ctx 0 = some c3 ∧ m4.ctx 0 = some c4 ∧
      c3.tc.fragment_size = 128 ∧ spec_free_bytes 4 c3 4 = some 128 ∧
      c3.tc.huge_size_sum = 128 ∧
      spec_huge_bytes 4 c3.mem 4 (c3.tc.huge_list.next 0) = some 128 ∧
      c4.tc.fragment_size = 64 ∧ spec_free_bytes 4 c4 4 = some 32 ∧
      c4.tc.huge_size_sum = 32 ∧
      spec_huge_bytes 4 c4.mem 4 (c4.tc.huge_list.next 0) = some 0 :=
  ⟨_, _, _, _, rfl, rfl, rfl, rfl, rfl, rfl, rfl, rfl, rfl, rfl, rfl⟩

/-! ## The invariant of a thread cache: basic facts -/

/-- The pending delta after the accounting of an allocation stays within
256 KiB of zero. -/
theorem account_alloc_inc (c : Ctx) (len : Nat) (hlo : -(256 * 1024) ≤ c.tc.m_frag_inc)
    (hhi : c.tc.m_frag_inc ≤ 256 * 1024) (hlen : len ≤ 2 ^ 62) :
    -(256 * 1024) ≤ (account_alloc c len).tc.m_frag_inc ∧
      (account_alloc c len).tc.m_frag_inc ≤ 256 * 1024 := by
  unfold account_alloc flush_frag_dec tointptr
  split
  · exact ⟨by norm_num, by norm_num⟩
  · rename_i h
    simp only [tointptr] at h
    simp only []
    omega

/-- The pending delta after the accounting of a release stays within 256 KiB
of zero. -/
theorem account_free_inc (c : Ctx) (len : Nat) (hlo : -(256 * 1024) ≤ c.tc.m_frag_inc)
    (hhi : c.tc.m_frag_inc ≤ 256 * 1024) (hlen : len ≤ 2 ^ 62) :
    -(256 * 1024) ≤ (account_free c len).tc.m_frag_inc ∧
      (account_free c len).tc.m_frag_inc ≤ 256 * 1024 := by
  unfold account_free flush_frag_inc tointptr
  split
  · exact ⟨by norm_num, by norm_num⟩
  · rename_i h
    simp only [tointptr] at h
    simp only []
    omega

/-- The accounting of an allocation moves the same amount off the thread
counter and off the arena counter plus the pending delta. -/
theorem account_alloc_gap (c : Ctx) (len : Nat) : frag_gap (account_alloc c len) = frag_gap c := by
  unfold frag_gap account_alloc flush_frag_dec tointptr size_sub tosize
  split
  · rename_i h
    simp only [] at h ⊢
    have h1 : (-((c.tc.m_frag_inc - (len : Int) + 2 ^ 63) % 2 ^ 64 - 2 ^ 63)).toNat
        = ((2:Int) ^ 63 - (c.tc.m_frag_inc - (len : Int) + 2 ^ 63) % 2 ^ 64).toNat := by
      congr 1; ring
    push_cast
    omega
  · simp only []
    push_cast
    omega

/-- The accounting of a release adds the same amount to the thread counter and
to the arena counter plus the pending delta. -/
theorem account_free_gap (c : Ctx) (len : Nat) : frag_gap (account_free c len) = frag_gap c := by
  unfold frag_gap account_free flush_frag_inc tointptr tosize
  split
  · rename_i h
    simp only [] at h ⊢
    push_cast
    omega
  · simp only []
    push_cast
    omega

theorem fastbin_sum_set (A : Nat) (bins : List head_t) (k i : Nat) (h h1 : head_t)
    (hi : bins[i]? = some h) :
    fastbin_sum A k (bins.set i h1) + h.cnt * ((k + i + 1) * A)
      = fastbin_sum A k bins + h1.cnt * ((k + i + 1) * A) := by
  induction bins generalizing k i with
  | nil => simp at hi
  | cons b t ih =>
    cases i with
    | zero =>
      simp only [List.getElem?_cons_zero, Option.some.injEq] at hi
      subst hi
      simp only [List.set_cons_zero, fastbin_sum, Nat.add_zero]
      omega
    | succ j =>
      simp only [List.getElem?_cons_succ] at hi
      have := ih (k + 1) j hi
      simp only [List.set_cons_succ, fastbin_sum]
      have e : k + 1 + j + 1 = k + (j + 1) + 1 := by omega
      rw [e] at this
      omega

theorem nodup_length_le {l : List Nat} {N : Nat} (hnd : l.Nodup)
    (hlt : ∀ a, a ∈ l → a < N) : l.length ≤ N := by
  have h := (List.subperm_of_subset hnd (fun a ha => List.mem_range.2 (hlt a ha))).length_le
  simpa using h

theorem interval_disj {a s p l : Nat} (hs : 0 < s) (hl : 0 < l)
    (h : ∀ x, a ≤ x → x < a + s → p ≤ x → x < p + l → False) : a + s ≤ p ∨ p + l ≤ a := by
  rcases Nat.le_total a p with hap | hpa
  · by_cases h1 : p < a + s
    · exact absurd (h p hap h1 (Nat.le_refl _) (by omega)) id
    · left; omega
  · by_cases h1 : a < p + l
    · exact absurd (h a (Nat.le_refl _) (by omega) hpa h1) id
    · right; omega

theorem FastSeg.fast_congr {A : Nat} {m m1 : Nat → Nat} {l : List Nat} :
    ∀ {nx : Nat}, FastSeg A m nx l → (∀ a, a ∈ l → m1 a = m a) → FastSeg A m1 nx l := by
  induction l with
  | nil => intro nx h _; exact h
  | cons a l ih =>
    intro nx h hm
    refine ⟨h.1, ?_⟩
    rw [hm a (List.mem_cons_self _ _)]
    exact ih h.2 (fun b hb => hm b (List.mem_cons_of_mem _ hb))

theorem link_lt_of_limit {A a : Nat} (hA : ValidAlign A) (h : a < 2 ^ link_bits A) :
    a / A < list_tail A := by
  have h4 := hA.four_le
  have h1 : a / A ≤ a / 4 := Nat.div_le_div_left h4 (by norm_num)
  unfold list_tail
  rcases link_bits_cases A with hb | hb <;> (rw [hb] at h ⊢; omega)

theorem sizeof_huge_link_le (A : Nat) : sizeof_huge_link A ≤ 72 := by
  unfold sizeof_huge_link sizeof_link skip_list_level_max
  rcases link_bits_cases A with hb | hb <;> simp [hb]

theorem link_word_lt (A : Nat) {i : Nat} (hi : i < skip_list_level_max) :
    sizeof_link A * (1 + i) < sizeof_huge_link A := by
  have hL := sizeof_link_pos A
  unfold sizeof_huge_link
  unfold skip_list_level_max at hi ⊢
  have h1 : sizeof_link A * (1 + i) ≤ sizeof_link A * 8 := Nat.mul_le_mul_left _ (by omega)
  have h2 : sizeof_link A * (1 + 8) = sizeof_link A * 8 + sizeof_link A := by ring
  omega

theorem mem_update_list {F : Nat → List Nat} {i j b : Nat} {L : List Nat}
    (h : b ∈ Function.update F i L j) : (j = i ∧ b ∈ L) ∨ (j ≠ i ∧ b ∈ F j) := by
  by_cases hji : j = i
  · subst hji
    rw [Function.update_same] at h
    exact Or.inl ⟨rfl, h⟩
  · rw [Function.update_noteq hji] at h
    exact Or.inr ⟨hji, h⟩

theorem Core.fast_off {A N : Nat} {c : Ctx} {F : Nat → List Nat} {es : List (Nat × Nat)}
    (h : Core A N c F es) {i a : Nat} (ha : a ∈ F i) :
    a / A < list_tail A ∧ a < 2 ^ link_bits A ∧ a < 2 ^ 64 ∧ tosize (a / A * A) = a ∧
      0 < (i + 1) * A ∧ a < N := by
  obtain ⟨h1, h2, h3⟩ := h.fast_addr i a ha
  have hp : 0 < (i + 1) * A := Nat.mul_pos (Nat.succ_pos _) h.align.pos
  have hl := h.limit
  have hlt : a < 2 ^ link_bits A := by omega
  have h64 : a < 2 ^ 64 := by omega
  exact ⟨link_lt_of_limit h.align hlt, hlt, h64, mul_div_tosize h.align h2 h64, hp, by omega⟩

theorem Core.huge_pos {A N : Nat} {c : Ctx} {F : Nat → List Nat} {es : List (Nat × Nat)}
    (h : Core A N c F es) {e : Nat × Nat} (he : e ∈ es) :
    sizeof_huge_link A ≤ c.mem e.1 ∧ 0 < c.mem e.1 ∧ e.1 < N ∧ e.1 % A = 0 := by
  obtain ⟨h1, _, h3, _⟩ := h.skip.addr e he
  have := sizeof_huge_link_pos A
  have := h.huge_in e he
  exact ⟨h3, by omega, by omega, h1⟩

theorem Core.length_le {A N : Nat} {c : Ctx} {F : Nat → List Nat} {es : List (Nat × Nat)}
    (h : Core A N c F es) : es.length ≤ N := by
  have h1 := nodup_length_le h.skip.nodup (N := N) (by
    intro a ha
    obtain ⟨e, he, rfl⟩ := List.mem_map.1 ha
    exact (h.huge_pos he).2.2.1)
  simpa using h1

theorem Core.bin_cases {A N : Nat} {c : Ctx} {F : Nat → List Nat} {es : List (Nat × Nat)}
    (h : Core A N c F es) {i : Nat} {hd : head_t} (hi : c.tc.m_freelist_head[i]? = some hd) :
    (F i = [] ∧ hd.head = list_tail A ∧ hd.cnt = 0) ∨
    (∃ a l, F i = a :: l ∧ hd.head = a / A ∧ hd.head ≠ list_tail A ∧
      tosize (hd.head * A) = a ∧ FastSeg A c.mem (c.mem a) l ∧ hd.cnt = l.length + 1) := by
  obtain ⟨hseg, hcnt⟩ := h.fast_chain i hd hi
  cases hF : F i with
  | nil =>
    rw [hF] at hseg hcnt
    exact Or.inl ⟨rfl, hseg, hcnt⟩
  | cons a l =>
    rw [hF] at hseg hcnt
    have ha : a ∈ F i := by rw [hF]; exact List.mem_cons_self _ _
    obtain ⟨h1, _, _, h4, _, _⟩ := h.fast_off ha
    refine Or.inr ⟨a, l, rfl, hseg.1, ?_, ?_, hseg.2, hcnt⟩
    · rw [hseg.1]; omega
    · rw [hseg.1]; exact h4

theorem Core.bin_length {A N : Nat} {c : Ctx} {F : Nat → List Nat} {es : List (Nat × Nat)}
    (h : Core A N c F es) (i : Nat) : (F i).length ≤ N :=
  nodup_length_le (h.fast_nodup i) (fun _ ha => (h.fast_off ha).2.2.2.2.2)

/-- The well-formedness of the free lists depends on the thread cache only
through the fastbin heads, the head of the huge list, the link words of the
fastbin blocks and the headers of the free huge blocks. -/
theorem Core.core_frame {A N : Nat} {c c1 : Ctx} {F : Nat → List Nat} {es : List (Nat × Nat)}
    (h : Core A N c F es)
    (hfl : c1.tc.m_freelist_head = c.tc.m_freelist_head)
    (hhl : c1.tc.huge_list = c.tc.huge_list)
    (hfast : ∀ i a, a ∈ F i → c1.mem a = c.mem a)
    (hhuge : ∀ e, e ∈ es → ∀ d, d < sizeof_huge_link A → c1.mem (e.1 + d) = c.mem (e.1 + d)) :
    Core A N c1 F es := by
  have hsz : ∀ e, e ∈ es → c1.mem e.1 = c.mem e.1 := fun e he =>
    hhuge e he 0 (sizeof_huge_link_pos A)
  refine ⟨h.align, h.limit, by rw [hfl]; exact h.bins, by rw [hfl]; exact h.bins_le,
    h.skip.frame hhl hhuge, ?_, ?_, ?_, ?_, ?_, h.fast_nodup, h.fast_disj, ?_⟩
  · intro e he; rw [hsz e he]; exact h.size_al e he
  · intro e he; rw [hsz e he, hfl]; exact h.huge_big e he
  · intro e he; rw [hsz e he]; exact h.huge_in e he
  · intro i hd hi
    rw [hfl] at hi
    obtain ⟨h1, h2⟩ := h.fast_chain i hd hi
    exact ⟨h1.fast_congr (fun a ha => hfast i a ha), h2⟩
  · intro i a ha; rw [hfl]; exact h.fast_addr i a ha
  · intro i a e ha he; rw [hsz e he]; exact h.fast_huge i a e ha he

/-- The free lists stay well formed when the used part of the arena grows. -/
theorem Core.core_grow {A N N1 : Nat} {c : Ctx} {F : Nat → List Nat} {es : List (Nat × Nat)}
    (h : Core A N c F es) (hle : N ≤ N1) (hlim : N1 < 2 ^ link_bits A ∧ N1 ≤ 2 ^ 62) :
    Core A N1 c F es :=
  ⟨h.align, hlim, h.bins, h.bins_le, h.skip, h.size_al, h.huge_big,
    fun e he => (h.huge_in e he).trans hle, h.fast_chain,
    fun i a ha => ⟨(h.fast_addr i a ha).1, (h.fast_addr i a ha).2.1,
      (h.fast_addr i a ha).2.2.trans hle⟩,
    h.fast_nodup, h.fast_disj, h.fast_huge⟩

/-- Pop of the head of a fastbin. -/
theorem Core.pop {A N : Nat} {c : Ctx} {F : Nat → List Nat} {es : List (Nat × Nat)}
    (h : Core A N c F es) {i a : Nat} {l : List Nat} {hd : head_t}
    (hi : c.tc.m_freelist_head[i]? = some hd) (hF : F i = a :: l)
    (c1 : Ctx) (hmem : c1.mem = c.mem) (hhl : c1.tc.huge_list = c.tc.huge_list)
    (hfl : c1.tc.m_freelist_head
      = c.tc.m_freelist_head.set i (head_t.mk (c.mem a) (link_dec A hd.cnt))) :
    Core A N c1 (Function.update F i l) es := by
  have hsub : ∀ j b, b ∈ Function.update F i l j → b ∈ F j := by
    intro j b hb
    rcases mem_update_list hb with ⟨rfl, h1⟩ | ⟨_, h1⟩
    · rw [hF]; exact List.mem_cons_of_mem _ h1
    · exact h1
  have hlen : c1.tc.m_freelist_head.length = c.tc.m_freelist_head.length := by
    rw [hfl, List.length_set]
  have hnd : (a :: l).Nodup := hF ▸ h.fast_nodup i
  refine ⟨h.align, h.limit, by rw [hlen]; exact h.bins, by rw [hlen]; exact h.bins_le,
    h.skip.frame hhl (fun e _ d _ => by rw [hmem]), ?_, ?_, ?_, ?_, ?_, ?_, ?_, ?_⟩
  · intro e he; rw [hmem]; exact h.size_al e he
  · intro e he; rw [hmem, hlen]; exact h.huge_big e he
  · intro e he; rw [hmem]; exact h.huge_in e he
  · intro j hj hjs
    rw [hfl] at hjs
    by_cases hji : j = i
    · subst hji
      have hlt : j < c.tc.m_freelist_head.length := by
        rcases Nat.lt_or_ge j c.tc.m_freelist_head.length with h1 | h1
        · exact h1
        · rw [List.getElem?_eq_none (by rw [List.length_set]; exact h1)] at hjs
          exact absurd hjs (by simp)
      rw [List.getElem?_set_self hlt] at hjs
      simp only [Option.some.injEq] at hjs
      subst hjs
      rw [Function.update_same, hmem]
      rcases h.bin_cases hi with ⟨h1, _⟩ | ⟨a1, l1, h1, _, _, _, h5, h6⟩
      · rw [hF] at h1; exact absurd h1 (by simp)
      · rw [hF] at h1
        simp only [List.cons.injEq] at h1
        obtain ⟨rfl, rfl⟩ := h1
        refine ⟨h5, ?_⟩
        have hb := h.bin_length j
        rw [hF] at hb
        simp only [List.length_cons] at hb
        have hl := h.limit
        simp only [h6]
        have := link_dec_tolink_succ (A := A) (x := l.length) (by omega)
        rw [tolink_of_lt (by omega)] at this
        exact this
    · rw [List.getElem?_set_ne (fun e => hji e.symm)] at hjs
      rw [Function.update_noteq hji, hmem]
      exact h.fast_chain j hj hjs
  · intro j b hb; rw [hlen]; exact h.fast_addr j b (hsub j b hb)
  · intro j
    by_cases hji : j = i
    · subst hji; rw [Function.update_same]; exact (List.nodup_cons.1 hnd).2
    · rw [Function.update_noteq hji]; exact h.fast_nodup j
  · intro j k b d hb hd; exact h.fast_disj j k b d (hsub j b hb) (hsub k d hd)
  · intro j b e hb he; rw [hmem]; exact h.fast_huge j b e (hsub j b hb) he

/-- Push of a block onto a fastbin. -/
theorem Core.push {A N : Nat} {c : Ctx} {F : Nat → List Nat} {es : List (Nat × Nat)}
    (h : Core A N c F es) {i a : Nat} {hd : head_t}
    (hi : c.tc.m_freelist_head[i]? = some hd)
    (hal : a % A = 0) (hin : a + (i + 1) * A ≤ N)
    (hfast : ∀ j b, b ∈ F j → b + (j + 1) * A ≤ a ∨ a + (i + 1) * A ≤ b)
    (hhuge : ∀ e, e ∈ es → e.1 + c.mem e.1 ≤ a ∨ a + (i + 1) * A ≤ e.1)
    (c1 : Ctx) (hmem : c1.mem = Function.update c.mem a hd.head)
    (hhl : c1.tc.huge_list = c.tc.huge_list)
    (hfl : c1.tc.m_freelist_head = c.tc.m_freelist_head.set i
      (head_t.mk (tolink A (a / A)) (tolink A (hd.cnt + 1)))) :
    Core A N c1 (Function.update F i (a :: F i)) es := by
  have hp : 0 < (i + 1) * A := Nat.mul_pos (Nat.succ_pos _) h.align.pos
  have hl := h.limit
  have hlen : c1.tc.m_freelist_head.length = c.tc.m_freelist_head.length := by
    rw [hfl, List.length_set]
  have hilt : i < c.tc.m_freelist_head.length := by
    rcases Nat.lt_or_ge i c.tc.m_freelist_head.length with h1 | h1
    · exact h1
    · rw [List.getElem?_eq_none h1] at hi
      exact absurd hi (by simp)
  have hne : ∀ j b, b ∈ F j → b ≠ a := by
    intro j b hb
    have h1 := hfast j b hb
    have h2 := (h.fast_off hb).2.2.2.2.1
    omega
  have hmf : ∀ j b, b ∈ F j → c1.mem b = c.mem b := by
    intro j b hb
    rw [hmem, Function.update_noteq (hne j b hb)]
  have hmh : ∀ e, e ∈ es → ∀ d, d < sizeof_huge_link A → c1.mem (e.1 + d) = c.mem (e.1 + d) := by
    intro e he d hdlt
    rw [hmem, Function.update_noteq]
    have h1 := hhuge e he
    have h2 := (h.huge_pos he).1
    omega
  have hsz : ∀ e, e ∈ es → c1.mem e.1 = c.mem e.1 := fun e he =>
    hmh e he 0 (sizeof_huge_link_pos A)
  have hcases : ∀ j b, b ∈ Function.update F i (a :: F i) j →
      (j = i ∧ b = a) ∨ b ∈ F j := by
    intro j b hb
    rcases mem_update_list hb with ⟨rfl, h1⟩ | ⟨_, h1⟩
    · rcases List.mem_cons.1 h1 with h2 | h2
      · exact Or.inl ⟨rfl, h2⟩
      · exact Or.inr h2
    · exact Or.inr h1
  have hnd : (a :: F i).Nodup :=
    List.nodup_cons.2 ⟨fun hmemb => hne i a hmemb rfl, h.fast_nodup i⟩
  have hbl : (a :: F i).length ≤ N := nodup_length_le hnd (by
    intro b hb
    rcases List.mem_cons.1 hb with h1 | h1
    · subst h1; omega
    · exact (h.fast_off h1).2.2.2.2.2)
  simp only [List.length_cons] at hbl
  refine ⟨h.align, h.limit, by rw [hlen]; exact h.bins, by rw [hlen]; exact h.bins_le,
    h.skip.frame hhl hmh, ?_, ?_, ?_, ?_, ?_, ?_, ?_, ?_⟩
  · intro e he; rw [hsz e he]; exact h.size_al e he
  · intro e he; rw [hsz e he, hlen]; exact h.huge_big e he
  · intro e he; rw [hsz e he]; exact h.huge_in e he
  · intro j hj hjs
    rw [hfl] at hjs
    by_cases hji : j = i
    · subst hji
      rw [List.getElem?_set_self hilt] at hjs
      simp only [Option.some.injEq] at hjs
      subst hjs
      rw [Function.update_same]
      obtain ⟨h1, h2⟩ := h.fast_chain j hd hi
      refine ⟨⟨tolink_of_lt (by
        have := Nat.div_le_self a A
        omega), ?_⟩, ?_⟩
      · rw [hmem, Function.update_same, ← hmem]
        exact h1.fast_congr (fun b hb => hmf j b hb)
      · simp only [List.length_cons, h2]
        exact tolink_of_lt (by omega)
    · rw [List.getElem?_set_ne (fun e => hji e.symm)] at hjs
      rw [Function.update_noteq hji]
      obtain ⟨h1, h2⟩ := h.fast_chain j hj hjs
      exact ⟨h1.fast_congr (fun b hb => hmf j b hb), h2⟩
  · intro j b hb
    rw [hlen]
    rcases hcases j b hb with ⟨rfl, rfl⟩ | h1
    · exact ⟨hilt, hal, hin⟩
    · exact h.fast_addr j b h1
  · intro j
    by_cases hji : j = i
    · subst hji; rw [Function.update_same]; exact hnd
    · rw [Function.update_noteq hji]; exact h.fast_nodup j
  · intro j k b d hb hd2
    rcases hcases j b hb with ⟨rfl, rfl⟩ | h1 <;> rcases hcases k d hd2 with ⟨rfl, rfl⟩ | h2
    · exact Or.inl ⟨rfl, rfl⟩
    · have := hfast k d h2; omega
    · have := hfast j b h1; omega
    · exact h.fast_disj j k b d h1 h2
  · intro j b e hb he
    rw [hsz e he]
    rcases hcases j b hb with ⟨rfl, rfl⟩ | h1
    · have := hhuge e he; omega
    · exact h.fast_huge j b e h1 he

/-- Insertion of a block into the huge list. -/
theorem Core.insert {A N : Nat} {c c1 : Ctx} {F : Nat → List Nat}
    {es small big : List (Nat × Nat)} (h : Core A N c F es) {pos len hgt : Nat}
    (hes : es = small ++ big)
    (hwf1 : SkipWF A c1 (small ++ (pos, hgt) :: big)) (hsz1 : c1.mem pos = len)
    (hsame : ∀ e, e ∈ es → c1.mem e.1 = c.mem e.1)
    (hframe : ∀ addr, addr < pos ∨ pos + sizeof_huge_link A ≤ addr →
      (∀ e, e ∈ es → addr < e.1 ∨ e.1 + sizeof_huge_link A ≤ addr) → c1.mem addr = c.mem addr)
    (hfl : c1.tc.m_freelist_head = c.tc.m_freelist_head)
    (hlenal : len % A = 0) (hbig : c.tc.m_freelist_head.length * A < len)
    (hin : pos + len ≤ N)
    (hfast : ∀ j b, b ∈ F j → b + (j + 1) * A ≤ pos ∨ pos + len ≤ b) :
    Core A N c1 F (small ++ (pos, hgt) :: big) := by
  have hcases : ∀ e, e ∈ small ++ (pos, hgt) :: big → e = (pos, hgt) ∨ e ∈ es := by
    intro e he
    rw [hes]
    rcases List.mem_append.1 he with h1 | h1
    · exact Or.inr (List.mem_append_left _ h1)
    · rcases List.mem_cons.1 h1 with h2 | h2
      · exact Or.inl h2
      · exact Or.inr (List.mem_append_right _ h2)
  have hb := h.bins
  have hmf : ∀ j b, b ∈ F j → c1.mem b = c.mem b := by
    intro j b hb2
    apply hframe
    · have := hfast j b hb2
      have := (h.fast_off hb2).2.2.2.2.1
      omega
    · intro e he
      have := h.fast_huge j b e hb2 he
      have := (h.huge_pos he).1
      have := (h.fast_off hb2).2.2.2.2.1
      omega
  refine ⟨h.align, h.limit, by rw [hfl]; exact h.bins, by rw [hfl]; exact h.bins_le,
    hwf1, ?_, ?_, ?_, ?_, ?_, h.fast_nodup, h.fast_disj, ?_⟩
  · intro e he
    rcases hcases e he with rfl | h1
    · rw [hsz1]; exact hlenal
    · rw [hsame e h1]; exact h.size_al e h1
  · intro e he
    rw [hfl]
    rcases hcases e he with rfl | h1
    · rw [hsz1]; exact hbig
    · rw [hsame e h1]; exact h.huge_big e h1
  · intro e he
    rcases hcases e he with rfl | h1
    · rw [hsz1]; exact hin
    · rw [hsame e h1]; exact h.huge_in e h1
  · intro i hd hi
    rw [hfl] at hi
    obtain ⟨h1, h2⟩ := h.fast_chain i hd hi
    exact ⟨h1.fast_congr (fun a ha => hmf i a ha), h2⟩
  · intro i a ha; rw [hfl]; exact h.fast_addr i a ha
  · intro i a e ha he
    rcases hcases e he with rfl | h1
    · rw [hsz1]; exact hfast i a ha
    · rw [hsame e h1]; exact h.fast_huge i a e ha h1

/-- Removal of an entry from the huge list. -/
theorem Core.unlink {A N : Nat} {c c1 c2 : Ctx} {F : Nat → List Nat}
    {pre post : List (Nat × Nat)} {t : Nat × Nat} (h : Core A N c F (pre ++ t :: post))
    (hfr : LinkFrame A ((pre ++ t :: post).map Prod.fst) c c1)
    (hmem : c2.mem = c1.mem) (hfl : c2.tc.m_freelist_head = c1.tc.m_freelist_head)
    (hwf : SkipWF A c2 (pre ++ post)) :
    Core A N c2 F (pre ++ post) := by
  have hsub : ∀ e, e ∈ pre ++ post → e ∈ pre ++ t :: post := by
    intro e he
    rcases List.mem_append.1 he with h1 | h1
    · exact List.mem_append_left _ h1
    · exact List.mem_append_right _ (List.mem_cons_of_mem _ h1)
  have hsz : ∀ e, e ∈ pre ++ t :: post → c2.mem e.1 = c.mem e.1 := by
    intro e he
    rw [hmem]
    exact h.skip.size_eq hfr he
  have hmf : ∀ j b, b ∈ F j → c2.mem b = c.mem b := by
    intro j b hb
    rw [hmem]
    apply hfr.mem_eq
    intro a ha i hi
    obtain ⟨e, he, rfl⟩ := List.mem_map.1 ha
    have := h.fast_huge j b e hb he
    have := (h.huge_pos he).1
    have := (h.fast_off hb).2.2.2.2.1
    have := link_word_lt A hi
    omega
  have hfl2 : c2.tc.m_freelist_head = c.tc.m_freelist_head := hfl.trans hfr.freelist
  refine ⟨h.align, h.limit, by rw [hfl2]; exact h.bins, by rw [hfl2]; exact h.bins_le,
    hwf, ?_, ?_, ?_, ?_, ?_, h.fast_nodup, h.fast_disj, ?_⟩
  · intro e he; rw [hsz e (hsub e he)]; exact h.size_al e (hsub e he)
  · intro e he; rw [hsz e (hsub e he), hfl2]; exact h.huge_big e (hsub e he)
  · intro e he; rw [hsz e (hsub e he)]; exact h.huge_in e (hsub e he)
  · intro i hd hi
    rw [hfl2] at hi
    obtain ⟨h1, h2⟩ := h.fast_chain i hd hi
    exact ⟨h1.fast_congr (fun a ha => hmf i a ha), h2⟩
  · intro i a ha; rw [hfl2]; exact h.fast_addr i a ha
  · intro i a e ha he
    rw [hsz e (hsub e he)]; exact h.fast_huge i a e ha (hsub e he)

theorem frag_gap_congr {c c1 : Ctx} (h1 : c1.mp_fragment_size = c.mp_fragment_size)
    (h2 : c1.tc.m_frag_inc = c.tc.m_frag_inc) (h3 : c1.tc.fragment_size = c.tc.fragment_size) :
    frag_gap c1 = frag_gap c := by
  unfold frag_gap
  rw [h1, h2, h3]

theorem cnt_eq_free {fs S H S1 H1 len : Nat} (h : fs = tosize (S + H))
    (hsum : tosize (S1 + H1) = tosize (S + H + len)) : tosize (fs + len) = tosize (S1 + H1) := by
  unfold tosize at *
  omega

theorem cnt_eq_alloc {fs S H S1 H1 len : Nat} (h : fs = tosize (S + H))
    (hsum : tosize (S1 + H1 + len) = tosize (S + H)) : size_sub fs len = tosize (S1 + H1) := by
  unfold tosize at *
  unfold size_sub
  omega

theorem sfree_fast_eq (P : Params) (fuel : Nat) (c : Ctx) (pos len : Nat)
    (hA : ValidAlign P.AlignSize) (hlen : 0 < len) (hmul : len % P.AlignSize = 0)
    (hmax : len ≤ tosize (c.tc.m_freelist_head.length * P.AlignSize))
    (hhot : tosize (pos + len) ≠ c.tc.m_hot_pos) :
    ∃ list, c.tc.m_freelist_head[len / P.AlignSize - 1]? = some list ∧
      sfree P fuel c pos len = some (account_free { c with
        mem := Function.update c.mem pos list.head
        tc := { c.tc with m_freelist_head := (c.tc.m_freelist_head.set (len / P.AlignSize - 1)
          (head_t.mk (tolink P.AlignSize (pos / P.AlignSize))
            (tolink P.AlignSize (list.cnt + 1)))) } } len) := by
  obtain ⟨hidx, hlt, _⟩ := fastbin_index hA hlen hmul hmax
  have hget : c.tc.m_freelist_head[len / P.AlignSize - 1]?
      = some (c.tc.m_freelist_head[len / P.AlignSize - 1]) := List.getElem?_eq_getElem hlt
  refine ⟨_, hget, ?_⟩
  unfold sfree
  simp only [hhot, if_false, hmax, if_true]
  unfold sfree_fast
  simp only [hidx, hget]

/-- The release of a block that does not abut the hot region: the block goes
onto the fastbin of its size or into the huge list, and the free lists and
the counters stay well formed. -/
theorem sfree_core (P : Params) (fuel N : Nat) (c : Ctx) (F : Nat → List Nat)
    (es : List (Nat × Nat)) (pos len : Nat)
    (hcore : Core P.AlignSize N c F es)
    (hlo : -(256 * 1024) ≤ c.tc.m_frag_inc) (hhi : c.tc.m_frag_inc ≤ 256 * 1024)
    (hnc : c.tc.huge_node_cnt ≤ 2 ^ 62)
    (hlen : 0 < len) (hmul : len % P.AlignSize = 0) (hposal : pos % P.AlignSize = 0)
    (hin : pos + len ≤ N) (hhot : pos + len ≠ c.tc.m_hot_pos)
    (hfast : ∀ j b, b ∈ F j → b + (j + 1) * P.AlignSize ≤ pos ∨ pos + len ≤ b)
    (hhuge : ∀ e, e ∈ es → e.1 + c.mem e.1 ≤ pos ∨ pos + len ≤ e.1)
    (hfuel : es.length < fuel) :
    ∃ c1 F1 es1, sfree P fuel c pos len = some c1 ∧ Core P.AlignSize N c1 F1 es1 ∧
      (c1.tc.fragment_size = tosize (c.tc.fragment_size + len) ∧
        tosize (fastbin_sum P.AlignSize 0 c1.tc.m_freelist_head + c1.tc.huge_size_sum)
          = tosize (fastbin_sum P.AlignSize 0 c.tc.m_freelist_head + c.tc.huge_size_sum + len) ∧
        c1.tc.huge_node_cnt + es.length = c.tc.huge_node_cnt + es1.length ∧
        -(256 * 1024) ≤ c1.tc.m_frag_inc ∧ c1.tc.m_frag_inc ≤ 256 * 1024) ∧
      c1.tc.m_hot_pos = c.tc.m_hot_pos ∧ c1.tc.m_hot_end = c.tc.m_hot_end ∧
      c1.tc.m_freelist_head.length = c.tc.m_freelist_head.length ∧
      frag_gap c1 = frag_gap c ∧
      (∀ i a, a ∈ F1 i → a ∈ F i ∨ (a = pos ∧ (i + 1) * P.AlignSize = len)) ∧
      (∀ e, e ∈ es1 → (e ∈ es ∧ c1.mem e.1 = c.mem e.1) ∨ (e.1 = pos ∧ c1.mem e.1 = len)) ∧
      (∀ x, (x < pos ∨ pos + len ≤ x) → (∀ e, e ∈ es → x < e.1 ∨ e.1 + c.mem e.1 ≤ x) →
        c1.mem x = c.mem x) ∧
      ((∃ i, pos ∈ F1 i ∧ (i + 1) * P.AlignSize = len) ∨
        (∃ e, e ∈ es1 ∧ e.1 = pos ∧ c1.mem e.1 = len)) ∧
      (∀ i a, a ∈ F i → a ∈ F1 i) ∧ (∀ e, e ∈ es → e ∈ es1 ∧ c1.mem e.1 = c.mem e.1) ∧
      es1.length ≤ es.length + 1 := by
  have hA := hcore.align
  have hl := hcore.limit
  have hbl := hcore.bins_le
  have hhot2 : tosize (pos + len) ≠ c.tc.m_hot_pos := by
    rw [tosize_of_lt (by omega)]; exact hhot
  have hbt : tosize (c.tc.m_freelist_head.length * P.AlignSize)
      = c.tc.m_freelist_head.length * P.AlignSize := tosize_of_lt (by omega)
  by_cases hsmall : len ≤ c.tc.m_freelist_head.length * P.AlignSize
  · -- the fastbin
    obtain ⟨hd, hget, hrun⟩ := sfree_fast_eq P fuel c pos len hA hlen hmul (by omega) hhot2
    obtain ⟨_, hlt, h1le⟩ := fastbin_index hA hlen hmul (hbt.symm ▸ hsmall)
    have hsz : (len / P.AlignSize - 1 + 1) * P.AlignSize = len := by
      rw [Nat.sub_add_cancel h1le]
      exact Nat.div_mul_cancel (Nat.dvd_of_mod_eq_zero hmul)
    have hcore1 := hcore.push (i := len / P.AlignSize - 1) (a := pos) hget hposal
      (by rw [hsz]; exact hin) (by rw [hsz]; exact hfast) (by rw [hsz]; exact hhuge)
      (account_free { c with
        mem := Function.update c.mem pos hd.head
        tc := { c.tc with m_freelist_head := (c.tc.m_freelist_head.set (len / P.AlignSize - 1)
          (head_t.mk (tolink P.AlignSize (pos / P.AlignSize))
            (tolink P.AlignSize (hd.cnt + 1)))) } } len)
      (by simp) (by simp) (by simp)
    have hne : ∀ j b, b ∈ F j → b ≠ pos := by
      intro j b hb
      have h1 := hfast j b hb
      have h2 := (hcore.fast_off hb).2.2.2.2.1
      omega
    have hcl : hd.cnt + 1 < 2 ^ link_bits P.AlignSize := by
      have h1 := (hcore.fast_chain _ hd hget).2
      have h2 : (pos :: F (len / P.AlignSize - 1)).length ≤ N :=
        nodup_length_le (List.nodup_cons.2 ⟨fun hm => hne _ pos hm rfl, hcore.fast_nodup _⟩) (by
          intro b hb
          rcases List.mem_cons.1 hb with h3 | h3
          · subst h3; omega
          · exact (hcore.fast_off h3).2.2.2.2.2)
      simp only [List.length_cons] at h2
      omega
    refine ⟨_, _, es, hrun, hcore1, ?_, by simp, by simp, by simp, ?_, ?_, ?_, ?_, ?_, ?_, ?_,
      by omega⟩
    · refine ⟨by simp, ?_, by simp, account_free_inc _ len hlo hhi (by omega)⟩
      have hs := fastbin_sum_set P.AlignSize c.tc.m_freelist_head 0 (len / P.AlignSize - 1) hd
        (head_t.mk (tolink P.AlignSize (pos / P.AlignSize))
          (tolink P.AlignSize (hd.cnt + 1))) hget
      simp only [Nat.zero_add, hsz, tolink_of_lt hcl] at hs
      have e : (hd.cnt + 1) * len = hd.cnt * len + len := by ring
      rw [e] at hs
      simp only [account_free_freelist, account_free_huge_size_sum, tolink_of_lt hcl]
      exact congrArg tosize (by omega)
    · rw [account_free_gap]
      exact frag_gap_congr rfl rfl rfl
    · intro i a ha
      rcases mem_update_list ha with ⟨rfl, h1⟩ | ⟨_, h1⟩
      · rcases List.mem_cons.1 h1 with h2 | h2
        · exact Or.inr ⟨h2, hsz⟩
        · exact Or.inl h2
      · exact Or.inl h1
    · intro e he
      refine Or.inl ⟨he, ?_⟩
      simp only [account_free_mem]
      rw [Function.update_noteq]
      have := hhuge e he
      have := (hcore.huge_pos he).2.1
      omega
    · intro x hx _
      simp only [account_free_mem]
      rw [Function.update_noteq]
      omega
    · exact Or.inl ⟨len / P.AlignSize - 1, by simp, hsz⟩
    · intro i a ha
      by_cases hi : i = len / P.AlignSize - 1
      · subst hi; rw [Function.update_same]; exact List.mem_cons_of_mem _ ha
      · rw [Function.update_noteq hi]; exact ha
    · intro e he
      refine ⟨he, ?_⟩
      simp only [account_free_mem]
      rw [Function.update_noteq]
      have := hhuge e he
      have := (hcore.huge_pos he).2.1
      omega
  · -- the huge list
    have hbig : c.tc.m_freelist_head.length * P.AlignSize < len := by omega
    obtain ⟨small, big, hes, hsm, hbg⟩ := sorted_split (fun e : Nat × Nat => c.mem e.1) len es
      hcore.skip.sorted
    obtain ⟨h, c0, hrun, hwf0, hm1, hm2, hm3, hfl, hp, he, hfs, hinc, hmp, hss, hnc2⟩ :=
      sfree_huge_spec P fuel c pos len es small big hA hcore.skip hes hsm hbg hposal
        (link_lt_of_limit hA (by omega)) (by have := hcore.bins; omega) (by omega) (by omega)
        hhuge hfuel
    have hrun2 : sfree P fuel c pos len = some (account_free c0 len) := by
      unfold sfree
      rw [if_neg hhot2, hbt, if_neg (by omega), hrun]
    have hcore0 : Core P.AlignSize N c0 F (small ++ (pos, h) :: big) :=
      hcore.insert hes hwf0 hm1 hm2 hm3 hfl hmul hbig hin hfast
    have hcore1 : Core P.AlignSize N (account_free c0 len) F (small ++ (pos, h) :: big) :=
      hcore0.core_frame (by simp) (by simp) (by simp) (by simp)
    have hlen1 : (small ++ (pos, h) :: big).length = es.length + 1 := by
      rw [hes]; simp only [List.length_append, List.length_cons]; omega
    have hel := hcore.length_le
    have hcases : ∀ e, e ∈ small ++ (pos, h) :: big → e = (pos, h) ∨ e ∈ es := by
      intro e he
      rw [hes]
      rcases List.mem_append.1 he with h1 | h1
      · exact Or.inr (List.mem_append_left _ h1)
      · rcases List.mem_cons.1 h1 with h2 | h2
        · exact Or.inl h2
        · exact Or.inr (List.mem_append_right _ h2)
    have hsub : ∀ e, e ∈ es → e ∈ small ++ (pos, h) :: big := by
      intro e he
      rw [hes] at he
      rcases List.mem_append.1 he with h1 | h1
      · exact List.mem_append_left _ h1
      · exact List.mem_append_right _ (List.mem_cons_of_mem _ h1)
    refine ⟨_, F, _, hrun2, hcore1, ?_, by simp [hp], by simp [he], by simp [hfl], ?_, ?_, ?_,
      ?_, ?_, fun _ _ ha => ha, ?_, by omega⟩
    · refine ⟨by simp [hfs], ?_, ?_, account_free_inc _ len (hinc ▸ hlo) (hinc ▸ hhi) (by omega)⟩
      · simp only [account_free_freelist, account_free_huge_size_sum, hfl, hss]
        unfold tosize
        omega
      · simp only [account_free_huge_node_cnt, hnc2, hlen1]
        rw [tosize_of_lt (by omega)]
        omega
    · rw [account_free_gap]
      exact frag_gap_congr hmp hinc hfs
    · intro i a ha; exact Or.inl ha
    · intro e he
      simp only [account_free_mem]
      rcases hcases e he with rfl | h1
      · exact Or.inr ⟨rfl, hm1⟩
      · exact Or.inl ⟨h1, hm2 e h1⟩
    · intro x hx hxe
      simp only [account_free_mem]
      apply hm3 x
      · have := hcore.bins; omega
      · intro e he
        have := hxe e he
        have := (hcore.huge_pos he).1
        omega
    · exact Or.inr ⟨(pos, h), by simp, rfl, by simpa using hm1⟩
    · intro e he
      exact ⟨hsub e he, by simpa using hm2 e he⟩
/-- Removal of the entry `t` from the huge list, as the unlink loops of
`alloc` do it: the other free blocks and the counters are untouched, and the
buffer changes inside the headers of free huge blocks only. -/
theorem unlink_core {A N : Nat} {c : Ctx} {F : Nat → List Nat} {pre post : List (Nat × Nat)}
    {t : Nat × Nat} (u : UpdateArr) (hcore : Core A N c F (pre ++ t :: post))
    (hu1 : ∀ k, k < c.tc.huge_list.size → k < t.2 →
      u k = some (last_ptr NodePtr.head (level k pre)))
    (hu2 : ∀ k, k < c.tc.huge_list.size → ¬ k < t.2 →
      ∃ p nx, u k = some p ∧
        (p = NodePtr.head ∨ ∃ e, e ∈ pre ++ t :: post ∧ p = NodePtr.node e.1) ∧
        node_next A c p k = some nx ∧ nx ≠ t.1 / A) :
    ∃ c2, unlink_node A c u t.1 = some c2 ∧ Core A N c2 F (pre ++ post) ∧
      c2.tc.fragment_size = c.tc.fragment_size ∧ c2.tc.m_frag_inc = c.tc.m_frag_inc ∧
      c2.tc.m_freelist_head = c.tc.m_freelist_head ∧
      c2.tc.huge_size_sum = c.tc.huge_size_sum ∧
      c2.tc.huge_node_cnt = c.tc.huge_node_cnt ∧ c2.tc.m_hot_end = c.tc.m_hot_end ∧
      c2.tc.m_hot_pos = c.tc.m_hot_pos ∧ c2.mp_fragment_size = c.mp_fragment_size ∧
      (∀ e, e ∈ pre ++ t :: post → c2.mem e.1 = c.mem e.1) ∧
      (∀ x, (∀ e, e ∈ pre ++ t :: post → x < e.1 ∨ e.1 + c.mem e.1 ≤ x) →
        c2.mem x = c.mem x) := by
  obtain ⟨c1, sz, hfr, hunl, hwf2⟩ := unlink_node_spec hcore.align c _ pre post t u hcore.skip
    rfl hu1 hu2
  refine ⟨_, hunl, hcore.unlink hfr rfl rfl hwf2, hfr.fragment_size, hfr.frag_inc, hfr.freelist,
    hfr.huge_size_sum, hfr.huge_node_cnt, hfr.hot_end, hfr.hot_pos, hfr.mp_frag,
    fun e he => hcore.skip.size_eq hfr he, ?_⟩
  intro x hx
  apply hfr.mem_eq
  intro a ha i hi
  obtain ⟨e, he, rfl⟩ := List.mem_map.1 ha
  have := hx e he
  have := (hcore.huge_pos he).1
  have := link_word_lt A hi
  omega

/-- A block none of whose bytes is free is separated from every free block
and, unless the hot region is empty, from the hot region. -/
theorem not_free_disj {A N : Nat} {c : Ctx} {F : Nat → List Nat} {es : List (Nat × Nat)}
    {pos len : Nat} (hcore : Core A N c F es) (hlen : 0 < len)
    (hfree : ∀ x, pos ≤ x → x < pos + len → ¬ FreeAt A c F es x) :
    (∀ j b, b ∈ F j → b + (j + 1) * A ≤ pos ∨ pos + len ≤ b) ∧
    (∀ e, e ∈ es → e.1 + c.mem e.1 ≤ pos ∨ pos + len ≤ e.1) ∧
    (pos + len ≤ c.tc.m_hot_pos ∨ c.tc.m_hot_end ≤ pos ∨ c.tc.m_hot_end ≤ c.tc.m_hot_pos) := by
  refine ⟨?_, ?_, ?_⟩
  · intro j b hb
    exact interval_disj (hcore.fast_off hb).2.2.2.2.1 hlen
      (fun x h1 h2 h3 h4 => hfree x h3 h4 (Or.inl ⟨j, b, hb, h1, h2⟩))
  · intro e he
    exact interval_disj (hcore.huge_pos he).2.1 hlen
      (fun x h1 h2 h3 h4 => hfree x h3 h4 (Or.inr (Or.inl ⟨e, he, h1, h2⟩)))
  · by_cases hh : c.tc.m_hot_pos < c.tc.m_hot_end
    · have := interval_disj (a := c.tc.m_hot_pos) (s := c.tc.m_hot_end - c.tc.m_hot_pos)
        (by omega) hlen
        (fun x h1 h2 h3 h4 => hfree x h3 h4 (Or.inr (Or.inr ⟨h1, by omega⟩)))
      omega
    · omega

/-- The method `sfree` keeps the invariant: a block that is aligned, inside
the used part of the arena and not free is released; afterwards all of its
bytes are free, and every byte that was neither free nor part of the block is
still not free and holds its value. -/
theorem sfree_inv (P : Params) (fuel N : Nat) (c : Ctx) (F : Nat → List Nat)
    (es : List (Nat × Nat)) (pos len : Nat)
    (hinv : Inv P.AlignSize N c F es)
    (hlen : 0 < len) (hmul : len % P.AlignSize = 0) (hposal : pos % P.AlignSize = 0)
    (hin : pos + len ≤ N)
    (hfree : ∀ x, pos ≤ x → x < pos + len → ¬ FreeAt P.AlignSize c F es x)
    (hfuel : es.length < fuel) :
    ∃ c1 F1 es1, sfree P fuel c pos len = some c1 ∧ Inv P.AlignSize N c1 F1 es1 ∧
      Keeps P.AlignSize c F es c1 F1 es1 pos len ∧
      (∀ x, pos ≤ x → x < pos + len → FreeAt P.AlignSize c1 F1 es1 x) ∧
      (∀ x, FreeAt P.AlignSize c F es x → FreeAt P.AlignSize c1 F1 es1 x) ∧
      frag_gap c1 = frag_gap c ∧
      c1.tc.m_freelist_head.length = c.tc.m_freelist_head.length ∧
      es1.length ≤ es.length + 1 := by
  obtain ⟨hcore, hhotwf, hcnt⟩ := hinv
  have hl := hcore.limit
  obtain ⟨hdf, hdh, hdhot⟩ := not_free_disj hcore hlen hfree
  by_cases hm : pos + len = c.tc.m_hot_pos
  · -- the block is merged into the hot region
    have hm2 : tosize (pos + len) = c.tc.m_hot_pos := by rw [tosize_of_lt (by omega)]; exact hm
    have hrun : sfree P fuel c pos len = some { c with tc := { c.tc with m_hot_pos := pos } } := by
      unfold sfree
      rw [if_pos hm2]
    have hle := hhotwf.hot_le
    refine ⟨_, F, es, hrun, ⟨hcore.core_frame rfl rfl (fun _ _ _ => rfl) (fun _ _ _ _ => rfl), ?_,
      ⟨hcnt.cnt_eq, hcnt.node_cnt, hcnt.inc_lo, hcnt.inc_hi⟩⟩, ?_, ?_, ?_, rfl, rfl, by omega⟩
    · refine ⟨?_, hposal, hhotwf.hot_end_al, hhotwf.hot_in, ?_, ?_⟩
      · show pos ≤ c.tc.m_hot_end
        omega
      · intro e he
        show e.1 + c.mem e.1 ≤ pos ∨ c.tc.m_hot_end ≤ e.1 ∨ c.tc.m_hot_end ≤ pos
        have := hdh e he
        have := hhotwf.hot_disj e he
        have := (hcore.huge_pos he).2.1
        omega
      · intro i a ha
        show a + (i + 1) * P.AlignSize ≤ pos ∨ c.tc.m_hot_end ≤ a ∨ c.tc.m_hot_end ≤ pos
        have := hdf i a ha
        have := hhotwf.fast_hot i a ha
        have := (hcore.fast_off ha).2.2.2.2.1
        omega
    · intro x hx hnb
      refine ⟨?_, rfl⟩
      rintro (h1 | h1 | ⟨h1, h2⟩)
      · exact hx (Or.inl h1)
      · exact hx (Or.inr (Or.inl h1))
      · have h1' : pos ≤ x := h1
        have h2' : x < c.tc.m_hot_end := h2
        by_cases hxp : x < pos + len
        · exact hnb ⟨h1', hxp⟩
        · exact hx (Or.inr (Or.inr ⟨by omega, h2'⟩))
    · intro x h1 h2
      refine Or.inr (Or.inr ⟨h1, ?_⟩)
      show x < c.tc.m_hot_end
      omega
    · rintro x (h1 | h1 | ⟨h1, h2⟩)
      · exact Or.inl h1
      · exact Or.inr (Or.inl h1)
      · refine Or.inr (Or.inr ⟨?_, h2⟩)
        show pos ≤ x
        omega
  · -- the block goes onto a free list
    have hel := hcore.length_le
    obtain ⟨c1, F1, es1, hrun, hcore1, ⟨hfs, hsum, hnode, hlo, hhi⟩, hp, he, hfl, hgap, hF1,
      hes1, hmemf, hnew, hFsub, hessub, hlen1⟩ :=
      sfree_core P fuel N c F es pos len hcore hcnt.inc_lo hcnt.inc_hi
        (by rw [hcnt.node_cnt]; omega) hlen hmul hposal hin hm hdf hdh hfuel
    refine ⟨c1, F1, es1, hrun, ⟨hcore1, ?_, ?_⟩, ?_, ?_, ?_, hgap, hfl, hlen1⟩
    · refine ⟨by rw [hp, he]; exact hhotwf.hot_le, by rw [hp]; exact hhotwf.hot_pos_al,
        by rw [he]; exact hhotwf.hot_end_al, by rw [he]; exact hhotwf.hot_in, ?_, ?_⟩
      · intro e hee
        rw [hp, he]
        rcases hes1 e hee with ⟨h1, h2⟩ | ⟨h1, h2⟩
        · rw [h2]; exact hhotwf.hot_disj e h1
        · rw [h2, h1]; exact hdhot
      · intro i a ha
        rw [hp, he]
        rcases hF1 i a ha with h1 | ⟨h1, h2⟩
        · exact hhotwf.fast_hot i a h1
        · rw [h1, h2]; exact hdhot
    · refine ⟨?_, ?_, hlo, hhi⟩
      · rw [hfs]
        exact cnt_eq_free hcnt.cnt_eq hsum
      · have := hcnt.node_cnt
        omega
    · intro x hx hnb
      refine ⟨?_, ?_⟩
      · rintro (⟨i, a, ha, h1, h2⟩ | ⟨e, hee, h1, h2⟩ | ⟨h1, h2⟩)
        · rcases hF1 i a ha with h3 | ⟨h3, h4⟩
          · exact hx (Or.inl ⟨i, a, h3, h1, h2⟩)
          · exact hnb ⟨by omega, by omega⟩
        · rcases hes1 e hee with ⟨h3, h4⟩ | ⟨h3, h4⟩
          · exact hx (Or.inr (Or.inl ⟨e, h3, h1, by omega⟩))
          · exact hnb ⟨by omega, by omega⟩
        · exact hx (Or.inr (Or.inr ⟨by omega, by omega⟩))
      · apply hmemf x (by omega)
        intro e hee
        by_contra hcon
        exact hx (Or.inr (Or.inl ⟨e, hee, by omega, by omega⟩))
    · intro x h1 h2
      rcases hnew with ⟨i, h3, h4⟩ | ⟨e, h3, h4, h5⟩
      · exact Or.inl ⟨i, pos, h3, h1, by omega⟩
      · exact Or.inr (Or.inl ⟨e, h3, by omega, by omega⟩)
    · rintro x (⟨i, a, ha, h1, h2⟩ | ⟨e, hee, h1, h2⟩ | ⟨h1, h2⟩)
      · exact Or.inl ⟨i, a, hFsub i a ha, h1, h2⟩
      · exact Or.inr (Or.inl ⟨e, (hessub e hee).1, h1, by rw [(hessub e hee).2]; exact h2⟩)
      · exact Or.inr (Or.inr ⟨by omega, by omega⟩)

/-! ## `alloc` keeps the invariant -/

theorem link_dec_succ {A x : Nat} (h : x + 1 < 2 ^ link_bits A) : link_dec A (x + 1) = x := by
  have := link_dec_tolink_succ (A := A) (x := x) (by omega)
  rw [tolink_of_lt h] at this
  exact this

theorem fastbin_index2 {A n request : Nat} (hA : ValidAlign A) (hpos : 0 < request)
    (hmul : request % A = 0) (hmax : request ≤ tosize (n * A)) :
    tosize ((request / A - 1) * 2 + 1) = 2 * request / A - 1 := by
  have hdiv : 2 * request / A = 2 * (request / A) :=
    Nat.mul_div_assoc 2 (Nat.dvd_of_mod_eq_zero hmul)
  rw [hdiv]
  have h4 := hA.four_le
  have h64 : request < 2 ^ 64 := lt_of_le_of_lt hmax (tosize_lt _)
  have h1 : request / A ≤ request / 4 := Nat.div_le_div_left h4 (by norm_num)
  have h0 := (fastbin_index hA hpos hmul hmax).2.2
  have : (request / A - 1) * 2 + 1 = 2 * (request / A) - 1 := by omega
  rw [this]
  exact tosize_of_lt (by omega)

theorem alloc_split_run (P : Params) (fuel : Nat) (c : Ctx) (request : Nat) (list list2 : head_t)
    (hA : ValidAlign P.AlignSize) (hpos : 0 < request) (hmul : request % P.AlignSize = 0)
    (hmax : request ≤ tosize (c.tc.m_freelist_head.length * P.AlignSize))
    (hget : c.tc.m_freelist_head[request / P.AlignSize - 1]? = some list)
    (hget2 : c.tc.m_freelist_head[2 * request / P.AlignSize - 1]? = some list2)
    (he : list.head = list_tail P.AlignSize) (hne2 : list2.head ≠ list_tail P.AlignSize) :
    alloc P fuel c request = some (alloc_fast_split P.AlignSize c
      (request / P.AlignSize - 1) (2 * request / P.AlignSize - 1) list list2 request) := by
  obtain ⟨hidx, _, _⟩ := fastbin_index hA hpos hmul hmax
  have hi2 := fastbin_index2 hA hpos hmul hmax
  have hlt2 : 2 * request / P.AlignSize - 1 < c.tc.m_freelist_head.length := by
    rcases Nat.lt_or_ge (2 * request / P.AlignSize - 1) c.tc.m_freelist_head.length with h | h
    · exact h
    · rw [List.getElem?_eq_none h] at hget2
      exact absurd hget2 (by simp)
  unfold alloc
  simp only [hmax, if_true, hidx, hget]
  unfold alloc_small alloc_split_try
  simp only [he, ne_eq, not_true_eq_false, if_false, hi2, hlt2, if_true, hget2,
    Ne.symm hne2, not_false_eq_true]

theorem alloc_small_hot_run (P : Params) (fuel : Nat) (c : Ctx) (request : Nat) (list : head_t)
    (hA : ValidAlign P.AlignSize) (hpos : 0 < request) (hmul : request % P.AlignSize = 0)
    (hmax : request ≤ tosize (c.tc.m_freelist_head.length * P.AlignSize))
    (hget : c.tc.m_freelist_head[request / P.AlignSize - 1]? = some list)
    (he : list.head = list_tail P.AlignSize)
    (hbin2 : ∀ list2, c.tc.m_freelist_head[2 * request / P.AlignSize - 1]? = some list2 →
      list2.head = list_tail P.AlignSize)
    (hfit : tosize (c.tc.m_hot_pos + request) ≤ c.tc.m_hot_end) :
    alloc P fuel c request = some (c.tc.m_hot_pos,
      { c with tc := { c.tc with m_hot_pos := tosize (c.tc.m_hot_pos + request) } }) := by
  obtain ⟨hidx, _, _⟩ := fastbin_index hA hpos hmul hmax
  have hi2 := fastbin_index2 hA hpos hmul hmax
  have hsplit : alloc_split_try P.AlignSize c (request / P.AlignSize - 1) list request = none := by
    unfold alloc_split_try
    simp only [hi2]
    split
    · split
      · rename_i list2 hl2
        rw [if_neg (by rw [hbin2 _ hl2]; simp)]
      · rfl
    · rfl
  unfold alloc
  simp only [hmax, if_true, hidx, hget]
  unfold alloc_small
  simp only [he, ne_eq, not_true_eq_false, if_false, hsplit]
  unfold alloc_hot
  rw [if_pos hfit]

/-- The fastbin hit keeps the invariant. -/
theorem alloc_pop_ok (P : Params) (fuel N : Nat) (c : Ctx) (F : Nat → List Nat)
    (es : List (Nat × Nat)) (r : Nat) (hinv : Inv P.AlignSize N c F es)
    (hpos : 0 < r) (hmul : r % P.AlignSize = 0)
    (hmax : r ≤ c.tc.m_freelist_head.length * P.AlignSize) {hd : head_t}
    (hget : c.tc.m_freelist_head[r / P.AlignSize - 1]? = some hd)
    (hne : hd.head ≠ list_tail P.AlignSize) :
    ∃ res c1 F1, alloc P fuel c r = some (res, c1) ∧
      AllocOk P.AlignSize N c F es r res c1 F1 es := by
  obtain ⟨hcore, hhot, hcnt⟩ := hinv
  have hA := hcore.align
  have hl := hcore.limit
  have hbl := hcore.bins_le
  have hbt : tosize (c.tc.m_freelist_head.length * P.AlignSize)
      = c.tc.m_freelist_head.length * P.AlignSize := tosize_of_lt (by omega)
  have hmax2 : r ≤ tosize (c.tc.m_freelist_head.length * P.AlignSize) := by rw [hbt]; exact hmax
  obtain ⟨_, hlt, h1le⟩ := fastbin_index hA hpos hmul hmax2
  have hsz : (r / P.AlignSize - 1 + 1) * P.AlignSize = r := by
    rw [Nat.sub_add_cancel h1le]
    exact Nat.div_mul_cancel (Nat.dvd_of_mod_eq_zero hmul)
  rcases hcore.bin_cases hget with ⟨_, h2, _⟩ | ⟨a, l, hF, hhead, _, htos, hseg, hcn⟩
  · exact absurd h2 hne
  have hrun := alloc_fast_pop_run P fuel c r hd hA hpos hmul hmax2 hget hne
  have haF : a ∈ F (r / P.AlignSize - 1) := by rw [hF]; exact List.mem_cons_self _ _
  have hnd : (a :: l).Nodup := hF ▸ hcore.fast_nodup _
  have hbl2 := hcore.bin_length (r / P.AlignSize - 1)
  rw [hF] at hbl2
  simp only [List.length_cons] at hbl2
  have hsub : ∀ j b, b ∈ Function.update F (r / P.AlignSize - 1) l j →
      b ∈ F j ∧ (j = r / P.AlignSize - 1 → b ≠ a) := by
    intro j b hb
    rcases mem_update_list hb with ⟨rfl, h1⟩ | ⟨h0, h1⟩
    · refine ⟨by rw [hF]; exact List.mem_cons_of_mem _ h1, fun _ hba => ?_⟩
      subst hba
      exact (List.nodup_cons.1 hnd).1 h1
    · exact ⟨h1, fun h => absurd h h0⟩
  have hcore1 : Core P.AlignSize N (alloc_fast_pop P.AlignSize c (r / P.AlignSize - 1) hd r).2
      (Function.update F (r / P.AlignSize - 1) l) es :=
    hcore.pop hget hF _ (by simp [alloc_fast_pop]) (by simp [alloc_fast_pop])
      (by simp [alloc_fast_pop, htos])
  have hkeep : ∀ x, FreeAt P.AlignSize (alloc_fast_pop P.AlignSize c (r / P.AlignSize - 1) hd r).2
      (Function.update F (r / P.AlignSize - 1) l) es x →
      FreeAt P.AlignSize c F es x ∧ ¬ (a ≤ x ∧ x < a + r) := by
    rintro x (⟨i, b, hb, h1, h2⟩ | ⟨e, hee, h1, h2⟩ | ⟨h1, h2⟩)
    · obtain ⟨hb1, hb2⟩ := hsub i b hb
      refine ⟨Or.inl ⟨i, b, hb1, h1, h2⟩, fun hx => ?_⟩
      rcases hcore.fast_disj i _ b a hb1 haF with ⟨h3, h4⟩ | h3 | h3
      · exact hb2 h3 h4
      · omega
      · rw [hsz] at h3; omega
    · have h2' : x < e.1 + c.mem e.1 := by simpa [alloc_fast_pop] using h2
      refine ⟨Or.inr (Or.inl ⟨e, hee, h1, h2'⟩), fun hx => ?_⟩
      have := hcore.fast_huge _ a e haF hee
      rw [hsz] at this
      omega
    · have h1' : c.tc.m_hot_pos ≤ x := by simpa [alloc_fast_pop] using h1
      have h2' : x < c.tc.m_hot_end := by simpa [alloc_fast_pop] using h2
      refine ⟨Or.inr (Or.inr ⟨h1', h2'⟩), fun hx => ?_⟩
      have := hhot.fast_hot _ a haF
      rw [hsz] at this
      omega
  refine ⟨a, (alloc_fast_pop P.AlignSize c (r / P.AlignSize - 1) hd r).2, _, ?_,
    ⟨⟨hcore1, ?_, ?_⟩, ?_, ?_, ?_, Nat.le_succ _, (hcore.fast_addr _ a haF).2.1, ?_, ?_⟩⟩
  · rw [hrun]
    simp [alloc_fast_pop, htos]
  · refine ⟨by simpa [alloc_fast_pop] using hhot.hot_le,
      by simpa [alloc_fast_pop] using hhot.hot_pos_al,
      by simpa [alloc_fast_pop] using hhot.hot_end_al,
      by simpa [alloc_fast_pop] using hhot.hot_in, ?_, ?_⟩
    · intro e hee
      simpa [alloc_fast_pop] using hhot.hot_disj e hee
    · intro i b hb
      simpa [alloc_fast_pop] using hhot.fast_hot i b (hsub i b hb).1
  · obtain ⟨h1, h2⟩ := account_alloc_inc c r hcnt.inc_lo hcnt.inc_hi (by
      have := (hcore.fast_addr _ a haF).2.2
      rw [hsz] at this
      omega)
    refine ⟨?_, by simpa [alloc_fast_pop] using hcnt.node_cnt, h1, h2⟩
    have hs := fastbin_sum_set P.AlignSize c.tc.m_freelist_head 0 (r / P.AlignSize - 1) hd
      (head_t.mk (c.mem a) (link_dec P.AlignSize hd.cnt)) hget
    simp only [Nat.zero_add, hsz, hcn, link_dec_succ (show l.length + 1 < 2 ^ link_bits P.AlignSize by omega)] at hs
    have e : (l.length + 1) * r = l.length * r + r := by ring
    rw [e] at hs
    simp only [alloc_fast_pop, account_alloc_fragment_size, account_alloc_freelist,
      account_alloc_huge_size_sum, account_alloc_mem, htos, hcn,
      link_dec_succ (show l.length + 1 < 2 ^ link_bits P.AlignSize by omega)]
    exact cnt_eq_alloc hcnt.cnt_eq (congrArg tosize (by omega))
  · intro x hx _
    exact ⟨fun h => hx (hkeep x h).1, by simp [alloc_fast_pop]⟩
  · rw [← account_alloc_gap c r]
    exact frag_gap_congr rfl rfl rfl
  · simp [alloc_fast_pop]
  · have := (hcore.fast_addr _ a haF).2.2
    rw [hsz] at this
    exact this
  · intro x h1 h2
    exact ⟨Or.inl ⟨_, a, haF, h1, by rw [hsz]; exact h2⟩, fun h => (hkeep x h).2 ⟨h1, h2⟩⟩

/-- The hot bump keeps the invariant. -/
theorem hot_bump_ok {A N : Nat} {c : Ctx} {F : Nat → List Nat} {es : List (Nat × Nat)} {r : Nat}
    (hinv : Inv A N c F es) (hpos : 0 < r) (hmul : r % A = 0)
    (hfit : c.tc.m_hot_pos + r ≤ c.tc.m_hot_end) :
    AllocOk A N c F es r c.tc.m_hot_pos
      { c with tc := { c.tc with m_hot_pos := tosize (c.tc.m_hot_pos + r) } } F es := by
  obtain ⟨hcore, hhot, hcnt⟩ := hinv
  have hl := hcore.limit
  have hin := hhot.hot_in
  have hts : tosize (c.tc.m_hot_pos + r) = c.tc.m_hot_pos + r := tosize_of_lt (by omega)
  rw [hts]
  refine ⟨⟨hcore.core_frame rfl rfl (fun _ _ _ => rfl) (fun _ _ _ _ => rfl), ?_,
    ⟨hcnt.cnt_eq, hcnt.node_cnt, hcnt.inc_lo, hcnt.inc_hi⟩⟩, ?_, rfl, rfl, Nat.le_succ _,
    hhot.hot_pos_al, by omega, ?_⟩
  · refine ⟨hfit, ?_, hhot.hot_end_al, hhot.hot_in, ?_, ?_⟩
    · show (c.tc.m_hot_pos + r) % A = 0
      have := hhot.hot_pos_al
      exact (Nat.dvd_add (Nat.dvd_of_mod_eq_zero this) (Nat.dvd_of_mod_eq_zero hmul)).elim
        (fun k hk => by rw [hk]; simp)
    · intro e he
      show e.1 + c.mem e.1 ≤ c.tc.m_hot_pos + r ∨ c.tc.m_hot_end ≤ e.1 ∨
        c.tc.m_hot_end ≤ c.tc.m_hot_pos + r
      have := hhot.hot_disj e he
      omega
    · intro i a ha
      show a + (i + 1) * A ≤ c.tc.m_hot_pos + r ∨ c.tc.m_hot_end ≤ a ∨
        c.tc.m_hot_end ≤ c.tc.m_hot_pos + r
      have := hhot.fast_hot i a ha
      omega
  · intro x hx _
    refine ⟨?_, rfl⟩
    rintro (h1 | h1 | ⟨h1, h2⟩)
    · exact hx (Or.inl h1)
    · exact hx (Or.inr (Or.inl h1))
    · have h1' : c.tc.m_hot_pos + r ≤ x := h1
      exact hx (Or.inr (Or.inr ⟨by omega, h2⟩))
  · intro x h1 h2
    refine ⟨Or.inr (Or.inr ⟨h1, by omega⟩), ?_⟩
    rintro (⟨i, a, ha, h3, h4⟩ | ⟨e, he, h3, h4⟩ | ⟨h3, h4⟩)
    · have := hhot.fast_hot i a ha
      omega
    · have h4' : x < e.1 + c.mem e.1 := h4
      have := hhot.hot_disj e he
      omega
    · have h3' : c.tc.m_hot_pos + r ≤ x := h3
      omega

/-- The split of a block of the `2 * request` fastbin keeps the invariant. -/
theorem alloc_split_ok (P : Params) (fuel N : Nat) (c : Ctx) (F : Nat → List Nat)
    (es : List (Nat × Nat)) (r : Nat) (hinv : Inv P.AlignSize N c F es)
    (hpos : 0 < r) (hmul : r % P.AlignSize = 0)
    (hmax : r ≤ c.tc.m_freelist_head.length * P.AlignSize) {hd hd2 : head_t}
    (hget : c.tc.m_freelist_head[r / P.AlignSize - 1]? = some hd)
    (hget2 : c.tc.m_freelist_head[2 * r / P.AlignSize - 1]? = some hd2)
    (he : hd.head = list_tail P.AlignSize) (hne2 : hd2.head ≠ list_tail P.AlignSize) :
    ∃ res c1 F1, alloc P fuel c r = some (res, c1) ∧
      AllocOk P.AlignSize N c F es r res c1 F1 es := by
  obtain ⟨hcore, hhot, hcnt⟩ := hinv
  have hA := hcore.align
  have hl := hcore.limit
  have hbl := hcore.bins_le
  have hbt : tosize (c.tc.m_freelist_head.length * P.AlignSize)
      = c.tc.m_freelist_head.length * P.AlignSize := tosize_of_lt (by omega)
  have hmax2 : r ≤ tosize (c.tc.m_freelist_head.length * P.AlignSize) := by rw [hbt]; exact hmax
  obtain ⟨_, hlt, h1le⟩ := fastbin_index hA hpos hmul hmax2
  have hdiv : 2 * r / P.AlignSize = 2 * (r / P.AlignSize) :=
    Nat.mul_div_assoc 2 (Nat.dvd_of_mod_eq_zero hmul)
  have hrA : r / P.AlignSize * P.AlignSize = r := Nat.div_mul_cancel (Nat.dvd_of_mod_eq_zero hmul)
  have hsz : (r / P.AlignSize - 1 + 1) * P.AlignSize = r := by
    rw [Nat.sub_add_cancel h1le]; exact hrA
  have hsz2 : (2 * r / P.AlignSize - 1 + 1) * P.AlignSize = 2 * r := by
    rw [hdiv, Nat.sub_add_cancel (by omega), Nat.mul_assoc, hrA]
  have hii : r / P.AlignSize - 1 ≠ 2 * r / P.AlignSize - 1 := by rw [hdiv]; omega
  rcases hcore.bin_cases hget2 with ⟨_, h2, _⟩ | ⟨a, l, hF2, hhead2, _, htos2, hseg2, hcn2⟩
  · exact absurd h2 hne2
  rcases hcore.bin_cases hget with ⟨hF1, _, hcn1⟩ | ⟨_, _, _, _, h3, _⟩
  swap
  · exact absurd he h3
  have hrun := alloc_split_run P fuel c r hd hd2 hA hpos hmul hmax2 hget hget2 he hne2
  have haF : a ∈ F (2 * r / P.AlignSize - 1) := by rw [hF2]; exact List.mem_cons_self _ _
  obtain ⟨_, haal, hain⟩ := hcore.fast_addr _ a haF
  rw [hsz2] at hain
  have hnd : (a :: l).Nodup := hF2 ▸ hcore.fast_nodup _
  have hbl2 := hcore.bin_length (2 * r / P.AlignSize - 1)
  rw [hF2] at hbl2
  simp only [List.length_cons] at hbl2
  have hts : tosize (a + r) = a + r := tosize_of_lt (by omega)
  -- the state after the pop
  have hmid : Core P.AlignSize N
      { c with tc := { c.tc with m_freelist_head :=
        (c.tc.m_freelist_head.set (2 * r / P.AlignSize - 1)
          (head_t.mk (c.mem a) (link_dec P.AlignSize hd2.cnt))) } }
      (Function.update F (2 * r / P.AlignSize - 1) l) es :=
    hcore.pop hget2 hF2 _ rfl rfl rfl
  have hsub : ∀ j b, b ∈ Function.update F (2 * r / P.AlignSize - 1) l j →
      b ∈ F j ∧ (j = 2 * r / P.AlignSize - 1 → b ≠ a) := by
    intro j b hb
    rcases mem_update_list hb with ⟨rfl, h1⟩ | ⟨h0, h1⟩
    · refine ⟨by rw [hF2]; exact List.mem_cons_of_mem _ h1, fun _ hba => ?_⟩
      subst hba
      exact (List.nodup_cons.1 hnd).1 h1
    · exact ⟨h1, fun h => absurd h h0⟩
  have hout : ∀ j b, b ∈ Function.update F (2 * r / P.AlignSize - 1) l j →
      b + (j + 1) * P.AlignSize ≤ a ∨ a + 2 * r ≤ b := by
    intro j b hb
    obtain ⟨hb1, hb2⟩ := hsub j b hb
    rcases hcore.fast_disj j _ b a hb1 haF with ⟨h3, h4⟩ | h3 | h3
    · exact absurd h4 (hb2 h3)
    · exact Or.inl h3
    · rw [hsz2] at h3; exact Or.inr h3
  have hmidi : (Function.update F (2 * r / P.AlignSize - 1) l) (r / P.AlignSize - 1) = [] := by
    rw [Function.update_noteq hii, hF1]
  have hcore1 : Core P.AlignSize N (alloc_fast_split P.AlignSize c (r / P.AlignSize - 1)
      (2 * r / P.AlignSize - 1) hd hd2 r).2
      (Function.update (Function.update F (2 * r / P.AlignSize - 1) l) (r / P.AlignSize - 1)
        ((a + r) :: (Function.update F (2 * r / P.AlignSize - 1) l) (r / P.AlignSize - 1)))
      es := by
    have hgetm : (c.tc.m_freelist_head.set (2 * r / P.AlignSize - 1)
        (head_t.mk (c.mem a) (link_dec P.AlignSize hd2.cnt)))[r / P.AlignSize - 1]? = some hd := by
      rw [List.getElem?_set_ne (fun e => hii e.symm)]
      exact hget
    refine hmid.push (a := a + r) hgetm ?_ ?_ ?_ ?_ _ ?_ ?_ ?_
    · exact (Nat.dvd_add (Nat.dvd_of_mod_eq_zero haal) (Nat.dvd_of_mod_eq_zero hmul)).elim
        (fun k hk => by rw [hk]; simp)
    · rw [hsz]; omega
    · intro j b hb
      rw [hsz]
      have := hout j b hb
      omega
    · intro e hee
      rw [hsz]
      have := hcore.fast_huge _ a e haF hee
      rw [hsz2] at this
      show e.1 + c.mem e.1 ≤ a + r ∨ a + r + r ≤ e.1
      omega
    · simp [alloc_fast_split, htos2, hts, he]
    · simp [alloc_fast_split]
    · simp [alloc_fast_split, htos2, hts]
  rw [hmidi] at hcore1
  have hmemx : ∀ x, x ≠ a + r → (alloc_fast_split P.AlignSize c (r / P.AlignSize - 1)
      (2 * r / P.AlignSize - 1) hd hd2 r).2.mem x = c.mem x := by
    intro x hx
    simp only [alloc_fast_split, account_alloc_mem, htos2, hts]
    exact Function.update_noteq hx _ _
  have hmeme : ∀ e, e ∈ es → (alloc_fast_split P.AlignSize c (r / P.AlignSize - 1)
      (2 * r / P.AlignSize - 1) hd hd2 r).2.mem e.1 = c.mem e.1 := by
    intro e hee
    apply hmemx
    have := hcore.fast_huge _ a e haF hee
    have := (hcore.huge_pos hee).2.1
    rw [hsz2] at *
    omega
  have hcases : ∀ j b, b ∈ Function.update (Function.update F (2 * r / P.AlignSize - 1) l)
      (r / P.AlignSize - 1) [a + r] j →
      (j = r / P.AlignSize - 1 ∧ b = a + r) ∨
      (b ∈ F j ∧ (b + (j + 1) * P.AlignSize ≤ a ∨ a + 2 * r ≤ b)) := by
    intro j b hb
    rcases mem_update_list hb with ⟨h0, h1⟩ | ⟨_, h1⟩
    · exact Or.inl ⟨h0, by simpa using h1⟩
    · exact Or.inr ⟨(hsub j b h1).1, hout j b h1⟩
  have hkeep : ∀ x, FreeAt P.AlignSize (alloc_fast_split P.AlignSize c (r / P.AlignSize - 1)
      (2 * r / P.AlignSize - 1) hd hd2 r).2
      (Function.update (Function.update F (2 * r / P.AlignSize - 1) l)
        (r / P.AlignSize - 1) [a + r]) es x →
      FreeAt P.AlignSize c F es x ∧ ¬ (a ≤ x ∧ x < a + r) := by
    rintro x (⟨i, b, hb, h1, h2⟩ | ⟨e, hee, h1, h2⟩ | ⟨h1, h2⟩)
    · rcases hcases i b hb with ⟨rfl, rfl⟩ | ⟨hb1, hb2⟩
      · rw [hsz] at h2
        exact ⟨Or.inl ⟨_, a, haF, by omega, by rw [hsz2]; omega⟩, by omega⟩
      · exact ⟨Or.inl ⟨i, b, hb1, h1, h2⟩, by omega⟩
    · rw [hmeme e hee] at h2
      refine ⟨Or.inr (Or.inl ⟨e, hee, h1, h2⟩), fun hx => ?_⟩
      have := hcore.fast_huge _ a e haF hee
      rw [hsz2] at this
      omega
    · have h1' : c.tc.m_hot_pos ≤ x := by simpa [alloc_fast_split] using h1
      have h2' : x < c.tc.m_hot_end := by simpa [alloc_fast_split] using h2
      refine ⟨Or.inr (Or.inr ⟨h1', h2'⟩), fun hx => ?_⟩
      have := hhot.fast_hot _ a haF
      rw [hsz2] at this
      omega
  refine ⟨a, (alloc_fast_split P.AlignSize c (r / P.AlignSize - 1)
      (2 * r / P.AlignSize - 1) hd hd2 r).2, _, ?_,
    ⟨⟨hcore1, ?_, ?_⟩, ?_, ?_, ?_, Nat.le_succ _, haal, by omega, ?_⟩⟩
  · rw [hrun]
    simp [alloc_fast_split, htos2]
  · refine ⟨by simpa [alloc_fast_split] using hhot.hot_le,
      by simpa [alloc_fast_split] using hhot.hot_pos_al,
      by simpa [alloc_fast_split] using hhot.hot_end_al,
      by simpa [alloc_fast_split] using hhot.hot_in, ?_, ?_⟩
    · intro e hee
      rw [hmeme e hee]
      simpa [alloc_fast_split] using hhot.hot_disj e hee
    · intro i b hb
      have h0 := hhot.fast_hot _ a haF
      rw [hsz2] at h0
      rcases hcases i b hb with ⟨rfl, rfl⟩ | ⟨hb1, _⟩
      · rw [hsz]
        simp only [alloc_fast_split, account_alloc_hot_pos, account_alloc_hot_end]
        omega
      · simpa [alloc_fast_split] using hhot.fast_hot i b hb1
  · obtain ⟨h1, h2⟩ := account_alloc_inc c r hcnt.inc_lo hcnt.inc_hi (by omega)
    refine ⟨?_, by simpa [alloc_fast_split] using hcnt.node_cnt, h1, h2⟩
    have hs := fastbin_sum_set P.AlignSize c.tc.m_freelist_head 0 (2 * r / P.AlignSize - 1) hd2
      (head_t.mk (c.mem a) (link_dec P.AlignSize hd2.cnt)) hget2
    have hs2 := fastbin_sum_set P.AlignSize (c.tc.m_freelist_head.set (2 * r / P.AlignSize - 1)
      (head_t.mk (c.mem a) (link_dec P.AlignSize hd2.cnt))) 0 (r / P.AlignSize - 1) hd
      (head_t.mk (tolink P.AlignSize ((a + r) / P.AlignSize)) (tolink P.AlignSize (hd.cnt + 1)))
      (by rw [List.getElem?_set_ne (fun e => hii e.symm)]; exact hget)
    have h1lt : (1 : Nat) < 2 ^ link_bits P.AlignSize := by
      rcases link_bits_cases P.AlignSize with hb | hb <;> rw [hb] <;> norm_num
    simp only [Nat.zero_add, hsz2, hcn2,
      link_dec_succ (show l.length + 1 < 2 ^ link_bits P.AlignSize by omega)] at hs
    simp only [Nat.zero_add, hsz, hcn1, tolink_of_lt h1lt, Nat.zero_mul, Nat.add_zero,
      Nat.one_mul, hcn2,
      link_dec_succ (show l.length + 1 < 2 ^ link_bits P.AlignSize by omega)] at hs2
    have e : (l.length + 1) * (2 * r) = l.length * (2 * r) + 2 * r := by ring
    rw [e] at hs
    simp only [alloc_fast_split, account_alloc_fragment_size, account_alloc_freelist,
      account_alloc_huge_size_sum, account_alloc_mem, htos2, hts, hcn1, hcn2,
      tolink_of_lt h1lt,
      link_dec_succ (show l.length + 1 < 2 ^ link_bits P.AlignSize by omega)]
    exact cnt_eq_alloc hcnt.cnt_eq (congrArg tosize (by omega))
  · intro x hx _
    refine ⟨fun h => hx (hkeep x h).1, hmemx x ?_⟩
    rintro rfl
    exact hx (Or.inl ⟨_, a, haF, by omega, by rw [hsz2]; omega⟩)
  · rw [← account_alloc_gap c r]
    exact frag_gap_congr rfl rfl rfl
  · simp [alloc_fast_split]
  · intro x h1 h2
    exact ⟨Or.inl ⟨_, a, haF, h1, by rw [hsz2]; omega⟩, fun h => (hkeep x h).2 ⟨h1, h2⟩⟩
/-- The refill of the hot region from the huge list keeps the invariant. -/
theorem alloc_refill_ok (P : Params) (fuel N : Nat) (c : Ctx) (F : Nat → List Nat)
    (init : List (Nat × Nat)) (t : Nat × Nat) (r : Nat)
    (hinv : Inv P.AlignSize N c F (init ++ [t]))
    (hpos : 0 < r) (hmul : r % P.AlignSize = 0)
    (hmax : r ≤ c.tc.m_freelist_head.length * P.AlignSize)
    (hbin : ∀ list, c.tc.m_freelist_head[r / P.AlignSize - 1]? = some list →
      list.head = list_tail P.AlignSize)
    (hbin2 : ∀ list2, c.tc.m_freelist_head[2 * r / P.AlignSize - 1]? = some list2 →
      list2.head = list_tail P.AlignSize)
    (hnofit : c.tc.m_hot_end < c.tc.m_hot_pos + r) (hge : r ≤ c.mem t.1)
    (hfuel : (init ++ [t]).length < fuel) :
    ∃ res c1 F1 es1, alloc P fuel c r = some (res, c1) ∧
      AllocOk P.AlignSize N c F (init ++ [t]) r res c1 F1 es1 := by
  obtain ⟨hcore, hhot, hcnt⟩ := hinv
  have hA := hcore.align
  have hl := hcore.limit
  have hbl := hcore.bins_le
  have hhin := hhot.hot_in
  have hhle := hhot.hot_le
  have hbt : tosize (c.tc.m_freelist_head.length * P.AlignSize)
      = c.tc.m_freelist_head.length * P.AlignSize := tosize_of_lt (by omega)
  have ht : t ∈ init ++ [t] := by simp
  have hsub : ∀ e, e ∈ init → e ∈ init ++ [t] := fun e he => by simp [he]
  obtain ⟨hS1, hS2, hS3, hS4⟩ := hcore.huge_pos ht
  have hSin := hcore.huge_in t ht
  have hSal := hcore.size_al t ht
  have hel := hcore.length_le
  have hinitlen : (init ++ [t]).length = init.length + 1 := by simp
  -- the other blocks lie outside `t`
  have hdis : ∀ e, e ∈ init → e.1 + c.mem e.1 ≤ t.1 ∨ t.1 + c.mem t.1 ≤ e.1 := by
    have hd := hcore.skip.disj
    rw [List.pairwise_append] at hd
    intro e he
    exact hd.2.2 e he t (List.mem_singleton_self _)
  have hrefill : alloc P fuel c r = alloc_refill P fuel c r :=
    alloc_small_to_refill P fuel c r hA hpos hmul (by rw [hbt]; exact hmax) hbin hbin2
      (by rw [tosize_of_lt (by omega)]; omega)
  obtain ⟨ur, hfind, hu1, hu2⟩ := refill_search hA c init t fuel hcore.skip hfuel
  obtain ⟨c2, hunl, hcore2, hfs2, hinc2, hfl2, hss2, hnc2, he2, hp2, hmp2, hsz2, hmem2⟩ :=
    @unlink_core _ _ _ _ init [] t ur hcore hu1 hu2
  rw [List.append_nil] at hcore2
  have hstart : alloc P fuel c r = refill_finish P fuel c2 t.1 (c.mem t.1) r := by
    rw [hrefill]
    unfold alloc_refill
    simp only [hfind, node_size]
    rw [if_pos hge]
    simp only [hunl]
  have hgap2 : frag_gap c2 = frag_gap c := frag_gap_congr hmp2 hinc2 hfs2
  -- the release of the old hot remainder
  have hfreed : ∃ c3 F3 es3,
      (if c2.tc.m_hot_pos < c2.tc.m_hot_end then
        sfree P fuel c2 c2.tc.m_hot_pos (size_sub c2.tc.m_hot_end c2.tc.m_hot_pos)
       else some c2) = some c3 ∧ Core P.AlignSize N c3 F3 es3 ∧
      c3.tc.fragment_size = tosize (c.tc.fragment_size + (c.tc.m_hot_end - c.tc.m_hot_pos)) ∧
      tosize (fastbin_sum P.AlignSize 0 c3.tc.m_freelist_head + c3.tc.huge_size_sum)
        = tosize (fastbin_sum P.AlignSize 0 c.tc.m_freelist_head + c.tc.huge_size_sum
          + (c.tc.m_hot_end - c.tc.m_hot_pos)) ∧
      c3.tc.huge_node_cnt + init.length = c.tc.huge_node_cnt + es3.length ∧
      -(256 * 1024) ≤ c3.tc.m_frag_inc ∧ c3.tc.m_frag_inc ≤ 256 * 1024 ∧
      frag_gap c3 = frag_gap c ∧
      c3.tc.m_freelist_head.length = c.tc.m_freelist_head.length ∧
      (∀ i a, a ∈ F3 i → a ∈ F i ∨ (a = c.tc.m_hot_pos ∧
        (i + 1) * P.AlignSize = c.tc.m_hot_end - c.tc.m_hot_pos ∧
        c.tc.m_hot_pos < c.tc.m_hot_end)) ∧
      (∀ e, e ∈ es3 → (e ∈ init ∧ c3.mem e.1 = c.mem e.1) ∨ (e.1 = c.tc.m_hot_pos ∧
        c3.mem e.1 = c.tc.m_hot_end - c.tc.m_hot_pos ∧ c.tc.m_hot_pos < c.tc.m_hot_end)) ∧
      (∀ x, (x < c.tc.m_hot_pos ∨ c.tc.m_hot_end ≤ x) →
        (∀ e, e ∈ init ++ [t] → x < e.1 ∨ e.1 + c.mem e.1 ≤ x) → c3.mem x = c.mem x) ∧
      es3.length ≤ init.length + 1 := by
    by_cases hrem : c.tc.m_hot_pos < c.tc.m_hot_end
    · have hss : size_sub c2.tc.m_hot_end c2.tc.m_hot_pos = c.tc.m_hot_end - c.tc.m_hot_pos := by
        rw [hp2, he2]
        exact size_sub_of_le (le_of_lt hrem) (by omega)
      have hremal : (c.tc.m_hot_end - c.tc.m_hot_pos) % P.AlignSize = 0 :=
        (Nat.dvd_sub' (Nat.dvd_of_mod_eq_zero hhot.hot_end_al)
          (Nat.dvd_of_mod_eq_zero hhot.hot_pos_al)).elim (fun k hk => by rw [hk]; simp)
      obtain ⟨c3, F3, es3, hrun, hcore3, ⟨hfs, hsum, hnode, hlo, hhi⟩, _, _, hfl, hgap, hF3,
        hes3, hmemf, _, _, _, hlen3⟩ :=
        sfree_core P fuel N c2 F init c.tc.m_hot_pos (c.tc.m_hot_end - c.tc.m_hot_pos) hcore2
          (hinc2 ▸ hcnt.inc_lo) (hinc2 ▸ hcnt.inc_hi)
          (by rw [hnc2, hcnt.node_cnt]; omega) (by omega) hremal hhot.hot_pos_al (by omega)
          (by rw [hp2]; omega)
          (by
            intro j b hb
            have := hhot.fast_hot j b hb
            omega)
          (by
            intro e he
            rw [hsz2 e (hsub e he)]
            have := hhot.hot_disj e (hsub e he)
            omega)
          (by omega)
      refine ⟨c3, F3, es3, ?_, hcore3, by rw [hfs, hfs2], by rw [hsum, hfl2, hss2],
        by rw [← hnc2]; exact hnode, hlo, hhi, hgap.trans hgap2, by rw [hfl, hfl2], ?_, ?_, ?_,
        hlen3⟩
      · rw [if_pos (by rw [hp2, he2]; exact hrem), hss, hp2]
        exact hrun
      · intro i a ha
        rcases hF3 i a ha with h1 | ⟨h1, h2⟩
        · exact Or.inl h1
        · exact Or.inr ⟨h1, h2, hrem⟩
      · intro e he
        rcases hes3 e he with ⟨h1, h2⟩ | ⟨h1, h2⟩
        · exact Or.inl ⟨h1, by rw [h2, hsz2 e (hsub e h1)]⟩
        · exact Or.inr ⟨h1, h2, hrem⟩
      · intro x hx hxe
        rw [hmemf x (by omega) (fun e he => by
          rw [hsz2 e (hsub e he)]; exact hxe e (hsub e he))]
        exact hmem2 x hxe
    · have h0 : c.tc.m_hot_end - c.tc.m_hot_pos = 0 := by omega
      refine ⟨c2, F, init, ?_, hcore2, ?_, ?_, by rw [hnc2], hinc2 ▸ hcnt.inc_lo,
        hinc2 ▸ hcnt.inc_hi, hgap2, by rw [hfl2], fun i a ha => Or.inl ha,
        fun e he => Or.inl ⟨he, hsz2 e (hsub e he)⟩, fun x _ hxe => hmem2 x hxe, Nat.le_succ _⟩
      · rw [if_neg (by rw [hp2, he2]; exact hrem)]
      · rw [h0, hfs2, Nat.add_zero, hcnt.cnt_eq]
        unfold tosize
        omega
      · rw [h0, hfl2, hss2, Nat.add_zero]
  obtain ⟨c3, F3, es3, hfr, hcore3, hfs3, hsum3, hnc3, hlo3, hhi3, hgap3, hfl3, hF3, hes3, hmem3,
    hlen3⟩ := hfreed
  -- the final state
  have hpe1 : tosize (t.1 + r) = t.1 + r := tosize_of_lt (by omega)
  have hpe2 : tosize (t.1 + c.mem t.1) = t.1 + c.mem t.1 := tosize_of_lt (by omega)
  obtain ⟨cf, hcf⟩ : ∃ cf, cf = account_alloc { c3 with tc := { c3.tc with
      m_hot_pos := tosize (t.1 + r)
      m_hot_end := tosize (t.1 + c.mem t.1)
      huge_size_sum := size_sub c3.tc.huge_size_sum (c.mem t.1)
      huge_node_cnt := size_sub c3.tc.huge_node_cnt 1 } } (c.mem t.1) := ⟨_, rfl⟩
  have hrun : alloc P fuel c r = some (t.1, cf) := by
    rw [hstart, hcf]
    unfold refill_finish
    simp only [hfr]
  have hm : cf.mem = c3.mem := by rw [hcf]; simp
  have hflf : cf.tc.m_freelist_head = c3.tc.m_freelist_head := by rw [hcf]; simp
  have hhl : cf.tc.huge_list = c3.tc.huge_list := by rw [hcf]; simp
  have hhp : cf.tc.m_hot_pos = t.1 + r := by rw [hcf]; simp [hpe1]
  have hhe : cf.tc.m_hot_end = t.1 + c.mem t.1 := by rw [hcf]; simp [hpe2]
  have hfsf : cf.tc.fragment_size = size_sub c3.tc.fragment_size (c.mem t.1) := by
    rw [hcf]; simp
  have hhs : cf.tc.huge_size_sum = size_sub c3.tc.huge_size_sum (c.mem t.1) := by
    rw [hcf]; simp
  have hnc : cf.tc.huge_node_cnt = size_sub c3.tc.huge_node_cnt 1 := by rw [hcf]; simp
  have hincf : -(256 * 1024) ≤ cf.tc.m_frag_inc ∧ cf.tc.m_frag_inc ≤ 256 * 1024 := by
    rw [hcf]
    exact account_alloc_inc _ _ hlo3 hhi3 (by omega)
  have hgapf : frag_gap cf = frag_gap c := by
    rw [hcf, account_alloc_gap]
    exact (frag_gap_congr rfl rfl rfl).trans hgap3
  have hcoref : Core P.AlignSize N cf F3 es3 :=
    hcore3.core_frame hflf hhl (fun _ _ _ => by rw [hm]) (fun _ _ _ _ => by rw [hm])
  -- free bytes of the final state were free before and lie outside the block
  have hkeep : ∀ x, FreeAt P.AlignSize cf F3 es3 x →
      FreeAt P.AlignSize c F (init ++ [t]) x ∧ ¬ (t.1 ≤ x ∧ x < t.1 + r) := by
    rintro x (⟨i, b, hb, h1, h2⟩ | ⟨e, hee, h1, h2⟩ | ⟨h1, h2⟩)
    · rcases hF3 i b hb with h3 | ⟨h3, h4, h5⟩
      · refine ⟨Or.inl ⟨i, b, h3, h1, h2⟩, fun hx => ?_⟩
        have := hcore.fast_huge i b t h3 ht
        omega
      · refine ⟨Or.inr (Or.inr ⟨by omega, by omega⟩), fun hx => ?_⟩
        have := hhot.hot_disj t ht
        omega
    · rw [hm] at h2
      rcases hes3 e hee with ⟨h3, h4⟩ | ⟨h3, h4, h5⟩
      · rw [h4] at h2
        refine ⟨Or.inr (Or.inl ⟨e, hsub e h3, h1, h2⟩), fun hx => ?_⟩
        have := hdis e h3
        omega
      · refine ⟨Or.inr (Or.inr ⟨by omega, by omega⟩), fun hx => ?_⟩
        have := hhot.hot_disj t ht
        omega
    · rw [hhp] at h1
      rw [hhe] at h2
      exact ⟨Or.inr (Or.inl ⟨t, ht, by omega, h2⟩), by omega⟩
  refine ⟨t.1, cf, F3, es3, hrun, ⟨⟨hcoref, ?_, ?_⟩, ?_, hgapf, by rw [hflf, hfl3],
    by omega, hS4, by omega, ?_⟩⟩
  · refine ⟨by rw [hhp, hhe]; omega, ?_, ?_, by rw [hhe]; exact hSin, ?_, ?_⟩
    · rw [hhp]
      exact (Nat.dvd_add (Nat.dvd_of_mod_eq_zero hS4) (Nat.dvd_of_mod_eq_zero hmul)).elim
        (fun k hk => by rw [hk]; simp)
    · rw [hhe]
      exact (Nat.dvd_add (Nat.dvd_of_mod_eq_zero hS4) (Nat.dvd_of_mod_eq_zero hSal)).elim
        (fun k hk => by rw [hk]; simp)
    · intro e hee
      rw [hhp, hhe, hm]
      rcases hes3 e hee with ⟨h3, h4⟩ | ⟨h3, h4, h5⟩
      · rw [h4]
        have := hdis e h3
        omega
      · rw [h4, h3]
        have := hhot.hot_disj t ht
        omega
    · intro i b hb
      rw [hhp, hhe]
      rcases hF3 i b hb with h3 | ⟨h3, h4, h5⟩
      · have := hcore.fast_huge i b t h3 ht
        omega
      · rw [h3, h4]
        have := hhot.hot_disj t ht
        omega
  · refine ⟨?_, ?_, hincf.1, hincf.2⟩
    · rw [hfsf, hflf, hhs, hfs3]
      have h0 := hcnt.cnt_eq
      unfold tosize at hsum3 h0 ⊢
      unfold size_sub
      omega
    · rw [hnc]
      have h0 := hcnt.node_cnt
      rw [hinitlen] at h0
      rw [size_sub_of_le (by omega) (by omega)]
      omega
  · intro x hx _
    refine ⟨fun h => hx (hkeep x h).1, ?_⟩
    rw [hm]
    apply hmem3 x
    · by_contra hcon
      exact hx (Or.inr (Or.inr ⟨by omega, by omega⟩))
    · intro e he
      by_contra hcon
      exact hx (Or.inr (Or.inl ⟨e, he, by omega, by omega⟩))
  · intro x h1 h2
    exact ⟨Or.inr (Or.inl ⟨t, ht, h1, by omega⟩), fun h => (hkeep x h).2 ⟨h1, h2⟩⟩

/-- The best fit on the huge list keeps the invariant. -/
theorem alloc_best_fit_ok (P : Params) (fuel N : Nat) (c : Ctx) (F : Nat → List Nat)
    (small big : List (Nat × Nat)) (t : Nat × Nat) (r : Nat)
    (hinv : Inv P.AlignSize N c F (small ++ t :: big))
    (hpos : 0 < r) (hmul : r % P.AlignSize = 0)
    (hbig : c.tc.m_freelist_head.length * P.AlignSize < r)
    (hs : ∀ e, e ∈ small → c.mem e.1 < r) (hge : r ≤ c.mem t.1)
    (hfuel : (small ++ t :: big).length < fuel) :
    ∃ res c1 F1 es1, alloc P fuel c r = some (res, c1) ∧
      AllocOk P.AlignSize N c F (small ++ t :: big) r res c1 F1 es1 := by
  obtain ⟨hcore, hhot, hcnt⟩ := hinv
  have hA := hcore.align
  have hl := hcore.limit
  have hbl := hcore.bins_le
  have hhin := hhot.hot_in
  have hhle := hhot.hot_le
  have hbt : tosize (c.tc.m_freelist_head.length * P.AlignSize)
      = c.tc.m_freelist_head.length * P.AlignSize := tosize_of_lt (by omega)
  have ht : t ∈ small ++ t :: big := by simp
  have hsub : ∀ e, e ∈ small ++ big → e ∈ small ++ t :: big := by
    intro e he
    rcases List.mem_append.1 he with h | h
    · exact List.mem_append_left _ h
    · exact List.mem_append_right _ (List.mem_cons_of_mem _ h)
  obtain ⟨hS1, hS2, hS3, hS4⟩ := hcore.huge_pos ht
  have hSin := hcore.huge_in t ht
  have hSal := hcore.size_al t ht
  have hel := hcore.length_le
  have heslen : (small ++ t :: big).length = (small ++ big).length + 1 := by
    simp only [List.length_append, List.length_cons]; omega
  have hdis : ∀ e, e ∈ small ++ big → e.1 + c.mem e.1 ≤ t.1 ∨ t.1 + c.mem t.1 ≤ e.1 := by
    have hd := hcore.skip.disj
    rw [List.pairwise_append, List.pairwise_cons] at hd
    intro e he
    rcases List.mem_append.1 he with h | h
    · exact hd.2.2 e h t (List.mem_cons_self _ _)
    · exact (hd.2.1.1 e h).symm
  obtain ⟨n1, ur, hfind, hu1, hu2⟩ := best_fit_search hA c _ small big t r fuel hcore.skip rfl
    hs hge hfuel
  obtain ⟨c2, hunl, hcore2, hfs2, hinc2, hfl2, hss2, hnc2, he2, hp2, hmp2, hsz2, hmem2⟩ :=
    unlink_core ur hcore hu1 hu2
  have hstart : alloc P fuel c r = large_finish P fuel c2 t.1 (c.mem t.1 - r) r := by
    unfold alloc
    rw [if_neg (by rw [hbt]; omega)]
    unfold alloc_large
    simp only [hfind, large_hit, ge_iff_le, hge, if_true, hunl]
    rw [size_sub_of_le hge (by omega)]
  have hgap2 : frag_gap c2 = frag_gap c := frag_gap_congr hmp2 hinc2 hfs2
  have hpe : tosize (t.1 + r) = t.1 + r := tosize_of_lt (by omega)
  have hremal : (c.mem t.1 - r) % P.AlignSize = 0 :=
    (Nat.dvd_sub' (Nat.dvd_of_mod_eq_zero hSal)
      (Nat.dvd_of_mod_eq_zero hmul)).elim (fun k hk => by rw [hk]; simp)
  have hposal : (t.1 + r) % P.AlignSize = 0 :=
    (Nat.dvd_add (Nat.dvd_of_mod_eq_zero hS4)
      (Nat.dvd_of_mod_eq_zero hmul)).elim (fun k hk => by rw [hk]; simp)
  have hfs0 : tosize (c.tc.fragment_size + 0) = c.tc.fragment_size := by
    rw [Nat.add_zero, hcnt.cnt_eq]
    unfold tosize
    omega
  -- the release of the tail
  have hfreed : ∃ c3 F3 es3 d,
      (if c.mem t.1 - r ≠ 0 then sfree P fuel c2 (tosize (t.1 + r)) (c.mem t.1 - r)
       else some c2) = some c3 ∧ Core P.AlignSize N c3 F3 es3 ∧
      c3.tc.fragment_size = tosize (c.tc.fragment_size + d) ∧
      tosize (fastbin_sum P.AlignSize 0 c3.tc.m_freelist_head + c3.tc.huge_size_sum)
        = tosize (fastbin_sum P.AlignSize 0 c.tc.m_freelist_head + c.tc.huge_size_sum + d) ∧
      c3.tc.huge_node_cnt + (small ++ big).length = c.tc.huge_node_cnt + es3.length ∧
      -(256 * 1024) ≤ c3.tc.m_frag_inc ∧ c3.tc.m_frag_inc ≤ 256 * 1024 ∧
      frag_gap c3 = frag_gap c ∧
      c3.tc.m_freelist_head.length = c.tc.m_freelist_head.length ∧
      c3.tc.m_hot_end = c.tc.m_hot_end ∧
      (c3.tc.m_hot_pos = c.tc.m_hot_pos ∨
        (c3.tc.m_hot_pos = t.1 + r ∧ t.1 + c.mem t.1 = c.tc.m_hot_pos)) ∧
      (∀ i a, a ∈ F3 i → a ∈ F i ∨ (a = t.1 + r ∧ (i + 1) * P.AlignSize = c.mem t.1 - r ∧
        r < c.mem t.1 ∧ c3.tc.m_hot_pos = c.tc.m_hot_pos)) ∧
      (∀ e, e ∈ es3 → (e ∈ small ++ big ∧ c3.mem e.1 = c.mem e.1) ∨ (e.1 = t.1 + r ∧
        c3.mem e.1 = c.mem t.1 - r ∧ r < c.mem t.1 ∧ c3.tc.m_hot_pos = c.tc.m_hot_pos)) ∧
      (∀ x, (∀ e, e ∈ small ++ t :: big → x < e.1 ∨ e.1 + c.mem e.1 ≤ x) →
        c3.mem x = c.mem x) ∧
      es3.length ≤ (small ++ big).length + 1 := by
    by_cases hrem : c.mem t.1 - r ≠ 0
    · rw [if_pos hrem, hpe]
      by_cases hm : t.1 + c.mem t.1 = c.tc.m_hot_pos
      · -- the tail is merged into the hot region
        have hrun : sfree P fuel c2 (t.1 + r) (c.mem t.1 - r)
            = some { c2 with tc := { c2.tc with m_hot_pos := t.1 + r } } := by
          unfold sfree
          rw [if_pos (by
            rw [hp2, ← hm]
            have : t.1 + r + (c.mem t.1 - r) = t.1 + c.mem t.1 := by omega
            rw [this]
            exact tosize_of_lt (by omega))]
        refine ⟨_, F, small ++ big, 0, hrun,
          hcore2.core_frame rfl rfl (fun _ _ _ => rfl) (fun _ _ _ _ => rfl), ?_, ?_, ?_, ?_, ?_, ?_,
          ?_, he2, Or.inr ⟨rfl, hm⟩, fun i a ha => Or.inl ha,
          fun e he => Or.inl ⟨he, hsz2 e (hsub e he)⟩, fun x hxe => hmem2 x hxe, Nat.le_succ _⟩
        · show c2.tc.fragment_size = _
          rw [hfs2, hfs0]
        · show tosize (fastbin_sum P.AlignSize 0 c2.tc.m_freelist_head + c2.tc.huge_size_sum) = _
          rw [hfl2, hss2, Nat.add_zero]
        · show c2.tc.huge_node_cnt + _ = _
          rw [hnc2]
        · show _ ≤ c2.tc.m_frag_inc
          rw [hinc2]; exact hcnt.inc_lo
        · show c2.tc.m_frag_inc ≤ _
          rw [hinc2]; exact hcnt.inc_hi
        · exact (frag_gap_congr rfl rfl rfl).trans hgap2
        · show c2.tc.m_freelist_head.length = _
          rw [hfl2]
      · obtain ⟨c3, F3, es3, hrun, hcore3, ⟨hfs, hsum, hnode, hlo, hhi⟩, hp3, he3, hfl, hgap,
          hF3, hes3, hmemf, _, _, _, hlen3⟩ :=
          sfree_core P fuel N c2 F (small ++ big) (t.1 + r) (c.mem t.1 - r) hcore2
            (hinc2 ▸ hcnt.inc_lo) (hinc2 ▸ hcnt.inc_hi)
            (by rw [hnc2, hcnt.node_cnt]; omega) (by omega) hremal hposal (by omega)
            (by rw [hp2]; omega)
            (by
              intro j b hb
              have := hcore.fast_huge j b t hb ht
              omega)
            (by
              intro e he
              rw [hsz2 e (hsub e he)]
              have := hdis e he
              omega)
            (by omega)
        refine ⟨c3, F3, es3, c.mem t.1 - r, hrun, hcore3, by rw [hfs, hfs2],
          by rw [hsum, hfl2, hss2], by rw [← hnc2]; exact hnode, hlo, hhi, hgap.trans hgap2,
          by rw [hfl, hfl2], by rw [he3, he2], Or.inl (by rw [hp3, hp2]), ?_, ?_, ?_, hlen3⟩
        · intro i a ha
          rcases hF3 i a ha with h1 | ⟨h1, h2⟩
          · exact Or.inl h1
          · exact Or.inr ⟨h1, h2, by omega, by rw [hp3, hp2]⟩
        · intro e he
          rcases hes3 e he with ⟨h1, h2⟩ | ⟨h1, h2⟩
          · exact Or.inl ⟨h1, by rw [h2, hsz2 e (hsub e h1)]⟩
          · exact Or.inr ⟨h1, h2, by omega, by rw [hp3, hp2]⟩
        · intro x hxe
          have hxt := hxe t ht
          rw [hmemf x (by omega) (fun e he => by
            rw [hsz2 e (hsub e he)]; exact hxe e (hsub e he))]
          exact hmem2 x hxe
    · rw [if_neg hrem]
      exact ⟨c2, F, small ++ big, 0, rfl, hcore2, by rw [hfs2, hfs0],
        by rw [hfl2, hss2, Nat.add_zero], by rw [hnc2], hinc2 ▸ hcnt.inc_lo,
        hinc2 ▸ hcnt.inc_hi, hgap2, by rw [hfl2], he2, Or.inl hp2, fun i a ha => Or.inl ha,
        fun e he => Or.inl ⟨he, hsz2 e (hsub e he)⟩, fun x hxe => hmem2 x hxe, Nat.le_succ _⟩
  obtain ⟨c3, F3, es3, d, hfr, hcore3, hfs3, hsum3, hnc3, hlo3, hhi3, hgap3, hfl3, he3, hp3,
    hF3, hes3, hmem3, hlen3⟩ := hfreed
  -- the final state
  obtain ⟨cf, hcf⟩ : ∃ cf, cf = account_alloc { c3 with tc := { c3.tc with
      huge_size_sum := size_sub c3.tc.huge_size_sum r
      huge_node_cnt := size_sub c3.tc.huge_node_cnt 1 } } r := ⟨_, rfl⟩
  have hrun : alloc P fuel c r = some (t.1, cf) := by
    rw [hstart, hcf]
    unfold large_finish
    simp only [hfr]
  have hm : cf.mem = c3.mem := by rw [hcf]; simp
  have hflf : cf.tc.m_freelist_head = c3.tc.m_freelist_head := by rw [hcf]; simp
  have hhl : cf.tc.huge_list = c3.tc.huge_list := by rw [hcf]; simp
  have hhp : cf.tc.m_hot_pos = c3.tc.m_hot_pos := by rw [hcf]; simp
  have hhe : cf.tc.m_hot_end = c.tc.m_hot_end := by rw [hcf]; simp [he3]
  have hfsf : cf.tc.fragment_size = size_sub c3.tc.fragment_size r := by rw [hcf]; simp
  have hhs : cf.tc.huge_size_sum = size_sub c3.tc.huge_size_sum r := by rw [hcf]; simp
  have hnc : cf.tc.huge_node_cnt = size_sub c3.tc.huge_node_cnt 1 := by rw [hcf]; simp
  have hincf : -(256 * 1024) ≤ cf.tc.m_frag_inc ∧ cf.tc.m_frag_inc ≤ 256 * 1024 := by
    rw [hcf]
    exact account_alloc_inc _ _ hlo3 hhi3 (by omega)
  have hgapf : frag_gap cf = frag_gap c := by
    rw [hcf, account_alloc_gap]
    exact (frag_gap_congr rfl rfl rfl).trans hgap3
  have hcoref : Core P.AlignSize N cf F3 es3 :=
    hcore3.core_frame hflf hhl (fun _ _ _ => by rw [hm]) (fun _ _ _ _ => by rw [hm])
  have hkeep : ∀ x, FreeAt P.AlignSize cf F3 es3 x →
      FreeAt P.AlignSize c F (small ++ t :: big) x ∧ ¬ (t.1 ≤ x ∧ x < t.1 + r) := by
    rintro x (⟨i, b, hb, h1, h2⟩ | ⟨e, hee, h1, h2⟩ | ⟨h1, h2⟩)
    · rcases hF3 i b hb with h3 | ⟨h3, h4, h5, _⟩
      · refine ⟨Or.inl ⟨i, b, h3, h1, h2⟩, fun hx => ?_⟩
        have := hcore.fast_huge i b t h3 ht
        omega
      · exact ⟨Or.inr (Or.inl ⟨t, ht, by omega, by omega⟩), by omega⟩
    · rw [hm] at h2
      rcases hes3 e hee with ⟨h3, h4⟩ | ⟨h3, h4, h5, _⟩
      · rw [h4] at h2
        refine ⟨Or.inr (Or.inl ⟨e, hsub e h3, h1, h2⟩), fun hx => ?_⟩
        have := hdis e h3
        omega
      · exact ⟨Or.inr (Or.inl ⟨t, ht, by omega, by omega⟩), by omega⟩
    · rw [hhp] at h1
      rw [hhe] at h2
      have := hhot.hot_disj t ht
      rcases hp3 with h3 | ⟨h3, h4⟩
      · rw [h3] at h1
        exact ⟨Or.inr (Or.inr ⟨h1, h2⟩), by omega⟩
      · rw [h3] at h1
        refine ⟨?_, by omega⟩
        by_cases hx : x < t.1 + c.mem t.1
        · exact Or.inr (Or.inl ⟨t, ht, by omega, hx⟩)
        · exact Or.inr (Or.inr ⟨by omega, h2⟩)
  refine ⟨t.1, cf, F3, es3, hrun, ⟨⟨hcoref, ?_, ?_⟩, ?_, hgapf, by rw [hflf, hfl3],
    by omega, hS4, by omega, ?_⟩⟩
  · refine ⟨?_, ?_, by rw [hhe]; exact hhot.hot_end_al, by rw [hhe]; exact hhot.hot_in,
      ?_, ?_⟩
    · rw [hhp, hhe]
      rcases hp3 with h3 | ⟨h3, h4⟩ <;> rw [h3] <;> omega
    · rw [hhp]
      rcases hp3 with h3 | ⟨h3, h4⟩ <;> rw [h3]
      · exact hhot.hot_pos_al
      · exact hposal
    · intro e hee
      rw [hhp, hhe, hm]
      have h0 := hhot.hot_disj t ht
      rcases hes3 e hee with ⟨h3, h4⟩ | ⟨h3, h4, h5, h6⟩
      · rw [h4]
        have := hdis e h3
        have := hhot.hot_disj e (hsub e h3)
        have := (hcore.huge_pos (hsub e h3)).2.1
        rcases hp3 with h7 | ⟨h7, h8⟩ <;> rw [h7] <;> omega
      · rw [h4, h3, h6]
        omega
    · intro i b hb
      rw [hhp, hhe]
      have h0 := hhot.hot_disj t ht
      rcases hF3 i b hb with h3 | ⟨h3, h4, h5, h6⟩
      · have := hcore.fast_huge i b t h3 ht
        have := hhot.fast_hot i b h3
        have := (hcore.fast_off h3).2.2.2.2.1
        rcases hp3 with h7 | ⟨h7, h8⟩ <;> rw [h7] <;> omega
      · rw [h3, h4, h6]
        omega
  · refine ⟨?_, ?_, hincf.1, hincf.2⟩
    · rw [hfsf, hflf, hhs, hfs3]
      have h0 := hcnt.cnt_eq
      unfold tosize at hsum3 h0 ⊢
      unfold size_sub
      omega
    · rw [hnc]
      have h0 := hcnt.node_cnt
      rw [heslen] at h0 hel
      rw [size_sub_of_le (by omega) (by omega)]
      omega
  · intro x hx _
    refine ⟨fun h => hx (hkeep x h).1, ?_⟩
    rw [hm]
    apply hmem3 x
    intro e he
    by_contra hcon
    exact hx (Or.inr (Or.inl ⟨e, he, by omega, by omega⟩))
  · intro x h1 h2
    exact ⟨Or.inr (Or.inl ⟨t, ht, h1, by omega⟩), fun h => (hkeep x h).2 ⟨h1, h2⟩⟩
/-- The method `alloc` keeps the invariant: for a request that is a positive
multiple of `AlignSize` the call returns; it either fails, leaving the state
unchanged, when the request does not fit the hot region, or returns a block
that was free, with the invariant holding again. -/
theorem alloc_inv (P : Params) (fuel N : Nat) (c : Ctx) (F : Nat → List Nat)
    (es : List (Nat × Nat)) (r : Nat) (hinv : Inv P.AlignSize N c F es)
    (hpos : 0 < r) (hmul : r % P.AlignSize = 0) (hr : r ≤ 2 ^ 62)
    (hfuel : es.length < fuel) :
    ∃ res c1 F1 es1, alloc P fuel c r = some (res, c1) ∧
      ((res = size_fail ∧ c1 = c ∧ F1 = F ∧ es1 = es ∧
          c.tc.m_hot_end < c.tc.m_hot_pos + r) ∨
        AllocOk P.AlignSize N c F es r res c1 F1 es1) := by
  have hcore := hinv.core
  have hhot := hinv.hot
  have hA := hcore.align
  have hl := hcore.limit
  have hbl := hcore.bins_le
  have hhin := hhot.hot_in
  have hhle := hhot.hot_le
  have hbt : tosize (c.tc.m_freelist_head.length * P.AlignSize)
      = c.tc.m_freelist_head.length * P.AlignSize := tosize_of_lt (by omega)
  by_cases hsmall : r ≤ c.tc.m_freelist_head.length * P.AlignSize
  · have hmax2 : r ≤ tosize (c.tc.m_freelist_head.length * P.AlignSize) := by
      rw [hbt]; exact hsmall
    obtain ⟨_, hlt, _⟩ := fastbin_index hA hpos hmul hmax2
    have hget : c.tc.m_freelist_head[r / P.AlignSize - 1]?
        = some (c.tc.m_freelist_head[r / P.AlignSize - 1]) := List.getElem?_eq_getElem hlt
    generalize c.tc.m_freelist_head[r / P.AlignSize - 1] = hd at hget
    by_cases hne : hd.head ≠ list_tail P.AlignSize
    · obtain ⟨res, c1, F1, h1, h2⟩ := alloc_pop_ok P fuel N c F es r hinv hpos hmul hsmall hget hne
      exact ⟨res, c1, F1, es, h1, Or.inr h2⟩
    have he : hd.head = list_tail P.AlignSize := not_not.1 hne
    by_cases hb2 : ∃ hd2, c.tc.m_freelist_head[2 * r / P.AlignSize - 1]? = some hd2 ∧
        hd2.head ≠ list_tail P.AlignSize
    · obtain ⟨hd2, hget2, hne2⟩ := hb2
      obtain ⟨res, c1, F1, h1, h2⟩ := alloc_split_ok P fuel N c F es r hinv hpos hmul hsmall
        hget hget2 he hne2
      exact ⟨res, c1, F1, es, h1, Or.inr h2⟩
    have hbin2 : ∀ list2, c.tc.m_freelist_head[2 * r / P.AlignSize - 1]? = some list2 →
        list2.head = list_tail P.AlignSize := by
      intro list2 h
      by_contra hcon
      exact hb2 ⟨list2, h, hcon⟩
    have hbin : ∀ list, c.tc.m_freelist_head[r / P.AlignSize - 1]? = some list →
        list.head = list_tail P.AlignSize := by
      intro list h
      rw [hget] at h
      simp only [Option.some.injEq] at h
      rw [← h]; exact he
    by_cases hfit : c.tc.m_hot_pos + r ≤ c.tc.m_hot_end
    · exact ⟨_, _, F, es, alloc_small_hot_run P fuel c r hd hA hpos hmul hmax2 hget he hbin2
        (by rw [tosize_of_lt (by omega)]; exact hfit), Or.inr (hot_bump_ok hinv hpos hmul hfit)⟩
    have hnofit : c.tc.m_hot_end < c.tc.m_hot_pos + r := by omega
    have hrefill : alloc P fuel c r = alloc_refill P fuel c r :=
      alloc_small_to_refill P fuel c r hA hpos hmul hmax2 hbin hbin2
        (by rw [tosize_of_lt (by omega)]; omega)
    rcases List.eq_nil_or_concat es with hnil | ⟨init, t, hes⟩
    swap
    · rw [List.concat_eq_append] at hes
      by_cases hge : r ≤ c.mem t.1
      · subst hes
        obtain ⟨res, c1, F1, es1, h1, h2⟩ := alloc_refill_ok P fuel N c F init t r hinv hpos
          hmul hsmall hbin hbin2 hnofit hge hfuel
        exact ⟨res, c1, F1, es1, h1, Or.inr h2⟩
      · refine ⟨size_fail, c, F, es, ?_, Or.inl ⟨rfl, rfl, rfl, rfl, hnofit⟩⟩
        rw [hrefill]
        exact alloc_refill_fail P fuel c r es hA hcore.skip hpos hfuel
          (Or.inr ⟨init, t, hes, by omega⟩)
    · refine ⟨size_fail, c, F, es, ?_, Or.inl ⟨rfl, rfl, rfl, rfl, hnofit⟩⟩
      rw [hrefill]
      exact alloc_refill_fail P fuel c r es hA hcore.skip hpos hfuel (Or.inl hnil)
  · have hbig : c.tc.m_freelist_head.length * P.AlignSize < r := by omega
    obtain ⟨small, big, hes, hsm, hbg⟩ := sorted_split (fun e : Nat × Nat => c.mem e.1) r es
      hcore.skip.sorted
    cases big with
    | cons t big =>
      subst hes
      obtain ⟨res, c1, F1, es1, h1, h2⟩ := alloc_best_fit_ok P fuel N c F small big t r hinv
        hpos hmul hbig hsm (Nat.le_of_not_lt (hbg t (List.mem_cons_self _ _))) hfuel
      exact ⟨res, c1, F1, es1, h1, Or.inr h2⟩
    | nil =>
      rw [List.append_nil] at hes
      subst hes
      have hlarge : alloc P fuel c r = alloc_large P fuel c r := by
        unfold alloc
        rw [if_neg (by rw [hbt]; omega)]
      obtain ⟨h1, h2⟩ := alloc_large_miss P fuel c r es hA hcore.skip hsm hfuel
      by_cases hfit : c.tc.m_hot_pos + r ≤ c.tc.m_hot_end
      · refine ⟨_, _, F, es, ?_, Or.inr (hot_bump_ok hinv hpos hmul hfit)⟩
        rw [hlarge]
        apply h1
        unfold alloc_hot
        rw [if_pos (by rw [tosize_of_lt (by omega)]; exact hfit)]
      · refine ⟨size_fail, c, F, es, ?_, Or.inl ⟨rfl, rfl, rfl, rfl, by omega⟩⟩
        rw [hlarge]
        apply h2
        unfold alloc_hot
        rw [if_neg (by rw [tosize_of_lt (by omega)]; exact hfit)]

/-! ## `set_hot_area` and `alloc3` keep the invariant -/

theorem FreeAt.free_congr {A : Nat} (c c1 : Ctx) {F : Nat → List Nat} {es : List (Nat × Nat)}
    (hp : c1.tc.m_hot_pos = c.tc.m_hot_pos) (he : c1.tc.m_hot_end = c.tc.m_hot_end)
    (hm : ∀ e, e ∈ es → c1.mem e.1 = c.mem e.1) (x : Nat) :
    FreeAt A c1 F es x ↔ FreeAt A c F es x := by
  unfold FreeAt
  rw [hp, he]
  constructor
  · rintro (h | ⟨e, h1, h2, h3⟩ | h)
    · exact Or.inl h
    · exact Or.inr (Or.inl ⟨e, h1, h2, by rw [← hm e h1]; exact h3⟩)
    · exact Or.inr (Or.inr h)
  · rintro (h | ⟨e, h1, h2, h3⟩ | h)
    · exact Or.inl h
    · exact Or.inr (Or.inl ⟨e, h1, h2, by rw [hm e h1]; exact h3⟩)
    · exact Or.inr (Or.inr h)

/-- The invariant of a thread cache depends on the buffer only through the
bytes of its free blocks, and not at all on the arena counter. -/
theorem Inv.inv_frame {A N : Nat} {c c1 : Ctx} {F : Nat → List Nat} {es : List (Nat × Nat)}
    (h : Inv A N c F es) (htc : c1.tc = c.tc)
    (hm : ∀ x, ((∃ i a, a ∈ F i ∧ a ≤ x ∧ x < a + (i + 1) * A) ∨
      (∃ e, e ∈ es ∧ e.1 ≤ x ∧ x < e.1 + c.mem e.1)) → c1.mem x = c.mem x) :
    Inv A N c1 F es := by
  obtain ⟨hcore, hhot, hcnt⟩ := h
  have hsz : ∀ e, e ∈ es → c1.mem e.1 = c.mem e.1 := fun e he =>
    hm e.1 (Or.inr ⟨e, he, Nat.le_refl _, by have := (hcore.huge_pos he).2.1; omega⟩)
  refine ⟨hcore.core_frame (by rw [htc]) (by rw [htc]) ?_ ?_, ?_, ?_⟩
  · intro i a ha
    exact hm a (Or.inl ⟨i, a, ha, Nat.le_refl _, by
      have := (hcore.fast_off ha).2.2.2.2.1; omega⟩)
  · intro e he d hd
    exact hm _ (Or.inr ⟨e, he, Nat.le_add_right _ _, by
      have := (hcore.huge_pos he).1; omega⟩)
  · refine ⟨by rw [htc]; exact hhot.hot_le, by rw [htc]; exact hhot.hot_pos_al,
      by rw [htc]; exact hhot.hot_end_al, by rw [htc]; exact hhot.hot_in, ?_, ?_⟩
    · intro e he; rw [htc, hsz e he]; exact hhot.hot_disj e he
    · intro i a ha; rw [htc]; exact hhot.fast_hot i a ha
  · exact ⟨by rw [htc]; exact hcnt.cnt_eq, by rw [htc]; exact hcnt.node_cnt,
      by rw [htc]; exact hcnt.inc_lo, by rw [htc]; exact hcnt.inc_hi⟩

/-- The invariant of a thread cache is kept when the used part of the arena
grows. -/
theorem Inv.inv_grow {A N N1 : Nat} {c : Ctx} {F : Nat → List Nat} {es : List (Nat × Nat)}
    (h : Inv A N c F es) (hle : N ≤ N1) (hlim : N1 < 2 ^ link_bits A ∧ N1 ≤ 2 ^ 62) :
    Inv A N1 c F es :=
  ⟨h.core.core_grow hle hlim, ⟨h.hot.hot_le, h.hot.hot_pos_al, h.hot.hot_end_al,
    h.hot.hot_in.trans hle, h.hot.hot_disj, h.hot.fast_hot⟩, h.counters⟩

/-- The method `set_hot_area`, called with the chunk `[N, N + len)` that
`chunk_alloc` has just taken from the arena, keeps the invariant: the old hot
remainder is released unless the chunk extends it, the chunk is the end of
the new hot region, and every byte that was not free and lies below `N` is
still not free and holds its value. -/
theorem set_hot_area_inv (P : Params) (fuel N : Nat) (c : Ctx) (F : Nat → List Nat)
    (es : List (Nat × Nat)) (len : Nat) (hinv : Inv P.AlignSize N c F es)
    (hNal : N % P.AlignSize = 0) (hlenal : len % P.AlignSize = 0)
    (hlim : N + len < 2 ^ link_bits P.AlignSize ∧ N + len ≤ 2 ^ 62)
    (hfuel : es.length < fuel) :
    ∃ c1 F1 es1, set_hot_area P fuel c N len = some c1 ∧
      Inv P.AlignSize (N + len) c1 F1 es1 ∧ Keeps P.AlignSize c F es c1 F1 es1 N len ∧
      frag_gap c1 = frag_gap c ∧
      c1.tc.m_freelist_head.length = c.tc.m_freelist_head.length ∧
      es1.length ≤ es.length + 1 ∧
      c1.tc.m_hot_end = N + len ∧ c1.tc.m_hot_pos ≤ N ∧
      (∀ x, FreeAt P.AlignSize c1 F1 es1 x → FreeAt P.AlignSize c F es x ∨ N ≤ x) := by
  obtain ⟨hcore, hhot, hcnt⟩ := hinv
  have hl := hcore.limit
  have hhin := hhot.hot_in
  have hhle := hhot.hot_le
  have hts : tosize (N + len) = N + len := tosize_of_lt (by omega)
  have hNlal : (N + len) % P.AlignSize = 0 :=
    (Nat.dvd_add (Nat.dvd_of_mod_eq_zero hNal) (Nat.dvd_of_mod_eq_zero hlenal)).elim
      (fun k hk => by rw [hk]; simp)
  by_cases hext : c.tc.m_hot_end = N
  · -- the chunk extends the hot region
    have hrun : set_hot_area P fuel c N len
        = some { c with tc := { c.tc with m_hot_end := N + len } } := by
      unfold set_hot_area
      rw [if_pos hext, hts]
    refine ⟨_, F, es, hrun, ⟨(hcore.core_grow (Nat.le_add_right _ _) hlim).core_frame rfl rfl
      (fun _ _ _ => rfl) (fun _ _ _ _ => rfl), ?_,
      ⟨hcnt.cnt_eq, hcnt.node_cnt, hcnt.inc_lo, hcnt.inc_hi⟩⟩, ?_, rfl, rfl, Nat.le_succ _,
      rfl, by show c.tc.m_hot_pos ≤ N; omega, ?_⟩
    · refine ⟨by show c.tc.m_hot_pos ≤ N + len; omega, hhot.hot_pos_al, hNlal, Nat.le_refl _,
        ?_, ?_⟩
      · intro e he
        show e.1 + c.mem e.1 ≤ c.tc.m_hot_pos ∨ N + len ≤ e.1 ∨ N + len ≤ c.tc.m_hot_pos
        have := hhot.hot_disj e he
        have := hcore.huge_in e he
        have := (hcore.huge_pos he).2.1
        omega
      · intro i a ha
        show a + (i + 1) * P.AlignSize ≤ c.tc.m_hot_pos ∨ N + len ≤ a ∨ N + len ≤ c.tc.m_hot_pos
        have := hhot.fast_hot i a ha
        have := (hcore.fast_addr i a ha).2.2
        have := (hcore.fast_off ha).2.2.2.2.1
        omega
    · intro x hx hnb
      refine ⟨?_, rfl⟩
      rintro (h1 | h1 | ⟨h1, h2⟩)
      · exact hx (Or.inl h1)
      · exact hx (Or.inr (Or.inl h1))
      · have h2' : x < N + len := h2
        exact hx (Or.inr (Or.inr ⟨h1, by omega⟩))
    · rintro x (h1 | h1 | ⟨h1, h2⟩)
      · exact Or.inl (Or.inl h1)
      · exact Or.inl (Or.inr (Or.inl h1))
      · have h2' : x < N + len := h2
        by_cases hx : x < N
        · exact Or.inl (Or.inr (Or.inr ⟨h1, by omega⟩))
        · exact Or.inr (by omega)
  · -- the old hot remainder is released
    have hel := hcore.length_le
    have hfreed : ∃ c3 F3 es3,
        (if c.tc.m_hot_pos < c.tc.m_hot_end then
          sfree P fuel c c.tc.m_hot_pos (size_sub c.tc.m_hot_end c.tc.m_hot_pos)
         else some c) = some c3 ∧ Core P.AlignSize N c3 F3 es3 ∧ Counters P.AlignSize c3 es3 ∧
        frag_gap c3 = frag_gap c ∧
        c3.tc.m_freelist_head.length = c.tc.m_freelist_head.length ∧
        (∀ i a, a ∈ F3 i → a ∈ F i ∨ (a = c.tc.m_hot_pos ∧
          (i + 1) * P.AlignSize = c.tc.m_hot_end - c.tc.m_hot_pos ∧
          c.tc.m_hot_pos < c.tc.m_hot_end)) ∧
        (∀ e, e ∈ es3 → (e ∈ es ∧ c3.mem e.1 = c.mem e.1) ∨ (e.1 = c.tc.m_hot_pos ∧
          c3.mem e.1 = c.tc.m_hot_end - c.tc.m_hot_pos ∧ c.tc.m_hot_pos < c.tc.m_hot_end)) ∧
        (∀ x, (x < c.tc.m_hot_pos ∨ c.tc.m_hot_end ≤ x) →
          (∀ e, e ∈ es → x < e.1 ∨ e.1 + c.mem e.1 ≤ x) → c3.mem x = c.mem x) ∧
        es3.length ≤ es.length + 1 := by
      by_cases hrem : c.tc.m_hot_pos < c.tc.m_hot_end
      · have hss : size_sub c.tc.m_hot_end c.tc.m_hot_pos = c.tc.m_hot_end - c.tc.m_hot_pos :=
          size_sub_of_le (le_of_lt hrem) (by omega)
        have hremal : (c.tc.m_hot_end - c.tc.m_hot_pos) % P.AlignSize = 0 :=
          (Nat.dvd_sub' (Nat.dvd_of_mod_eq_zero hhot.hot_end_al)
            (Nat.dvd_of_mod_eq_zero hhot.hot_pos_al)).elim (fun k hk => by rw [hk]; simp)
        obtain ⟨c3, F3, es3, hrun, hcore3, ⟨hfs, hsum, hnode, hlo, hhi⟩, _, _, hfl, hgap, hF3,
          hes3, hmemf, _, _, _, hlen3⟩ :=
          sfree_core P fuel N c F es c.tc.m_hot_pos (c.tc.m_hot_end - c.tc.m_hot_pos) hcore
            hcnt.inc_lo hcnt.inc_hi (by rw [hcnt.node_cnt]; omega) (by omega) hremal
            hhot.hot_pos_al (by omega) (by omega)
            (by
              intro j b hb
              have := hhot.fast_hot j b hb
              omega)
            (by
              intro e he
              have := hhot.hot_disj e he
              omega)
            hfuel
        refine ⟨c3, F3, es3, by rw [if_pos hrem, hss]; exact hrun, hcore3,
          ⟨by rw [hfs]; exact cnt_eq_free hcnt.cnt_eq hsum,
            by have := hcnt.node_cnt; omega, hlo, hhi⟩, hgap, hfl, ?_, ?_,
          fun x hx hxe => hmemf x (by omega) hxe, hlen3⟩
        · intro i a ha
          rcases hF3 i a ha with h1 | ⟨h1, h2⟩
          · exact Or.inl h1
          · exact Or.inr ⟨h1, h2, hrem⟩
        · intro e he
          rcases hes3 e he with h1 | ⟨h1, h2⟩
          · exact Or.inl h1
          · exact Or.inr ⟨h1, h2, hrem⟩
      · exact ⟨c, F, es, by rw [if_neg hrem], hcore, hcnt, rfl, rfl, fun i a ha => Or.inl ha,
          fun e he => Or.inl ⟨he, rfl⟩, fun x _ _ => rfl, Nat.le_succ _⟩
    obtain ⟨c3, F3, es3, hfr, hcore3, hcnt3, hgap3, hfl3, hF3, hes3, hmem3, hlen3⟩ := hfreed
    have hrun : set_hot_area P fuel c N len
        = some { c3 with tc := { c3.tc with m_hot_pos := N, m_hot_end := N + len } } := by
      unfold set_hot_area
      rw [if_neg hext]
      simp only [hfr, hts]
    have hkeep : ∀ x, FreeAt P.AlignSize
        { c3 with tc := { c3.tc with m_hot_pos := N, m_hot_end := N + len } } F3 es3 x →
        FreeAt P.AlignSize c F es x ∨ (N ≤ x ∧ x < N + len) := by
      rintro x (⟨i, b, hb, h1, h2⟩ | ⟨e, hee, h1, h2⟩ | ⟨h1, h2⟩)
      · rcases hF3 i b hb with h3 | ⟨h3, h4, h5⟩
        · exact Or.inl (Or.inl ⟨i, b, h3, h1, h2⟩)
        · exact Or.inl (Or.inr (Or.inr ⟨by omega, by omega⟩))
      · have h2' : x < e.1 + c3.mem e.1 := h2
        rcases hes3 e hee with ⟨h3, h4⟩ | ⟨h3, h4, h5⟩
        · rw [h4] at h2'
          exact Or.inl (Or.inr (Or.inl ⟨e, h3, h1, h2'⟩))
        · exact Or.inl (Or.inr (Or.inr ⟨by omega, by omega⟩))
      · exact Or.inr ⟨h1, h2⟩
    refine ⟨_, F3, es3, hrun, ⟨(hcore3.core_grow (Nat.le_add_right _ _) hlim).core_frame rfl rfl
      (fun _ _ _ => rfl) (fun _ _ _ _ => rfl), ?_,
      ⟨hcnt3.cnt_eq, hcnt3.node_cnt, hcnt3.inc_lo, hcnt3.inc_hi⟩⟩, ?_,
      (frag_gap_congr rfl rfl rfl).trans hgap3, hfl3, hlen3, rfl, Nat.le_refl _, ?_⟩
    · refine ⟨Nat.le_add_right _ _, hNal, hNlal, Nat.le_refl _, ?_, ?_⟩
      · intro e he
        have := hcore3.huge_in e he
        exact Or.inl this
      · intro i a ha
        exact Or.inl (hcore3.fast_addr i a ha).2.2
    · intro x hx hnb
      refine ⟨fun h => (hkeep x h).elim hx hnb, ?_⟩
      apply hmem3 x
      · by_contra hcon
        exact hx (Or.inr (Or.inr ⟨by omega, by omega⟩))
      · intro e he
        by_contra hcon
        exact hx (Or.inr (Or.inl ⟨e, he, by omega, by omega⟩))
    · intro x h
      rcases hkeep x h with h1 | h1
      · exact Or.inl h1
      · exact Or.inr h1.1

/-- The second half of a move: after `alloc` has returned the new block, the
old block is copied into it and released. -/
theorem move_ok (P : Params) (fuel N : Nat) (c : Ctx) (F : Nat → List Nat)
    (es : List (Nat × Nat)) (oldpos oldlen newlen res : Nat) (c1 : Ctx)
    (F1 : Nat → List Nat) (es1 : List (Nat × Nat))
    (hold : 0 < oldlen) (holdal : oldlen % P.AlignSize = 0)
    (hposal : oldpos % P.AlignSize = 0) (hin : oldpos + oldlen ≤ N)
    (hlive : ∀ x, oldpos ≤ x → x < oldpos + oldlen → ¬ FreeAt P.AlignSize c F es x)
    (hgt : oldlen < newlen)
    (hok : AllocOk P.AlignSize N c F es newlen res c1 F1 es1) (hfuel : es1.length < fuel) :
    ∃ c3 F3 es3,
      sfree P fuel { c1 with mem := memcpy_buf c1.mem res oldpos oldlen } oldpos oldlen
        = some c3 ∧
      Alloc3Ok P.AlignSize N c F es oldpos oldlen newlen res c3 F3 es3 := by
  -- the new block and the old block are apart
  have hapart : ∀ x, res ≤ x → x < res + newlen → ¬ (oldpos ≤ x ∧ x < oldpos + oldlen) :=
    fun x h1 h2 h3 => hlive x h3.1 h3.2 (hok.taken x h1 h2).1
  have hinv2 : Inv P.AlignSize N
      { c1 with mem := memcpy_buf c1.mem res oldpos oldlen } F1 es1 := by
    refine hok.inv.inv_frame rfl ?_
    intro x hx
    show memcpy_buf c1.mem res oldpos oldlen x = c1.mem x
    unfold memcpy_buf
    rw [if_neg]
    rintro ⟨h1, h2⟩
    exact (hok.taken x h1 (by omega)).2 (hx.elim Or.inl (fun h => Or.inr (Or.inl h)))
  have hcongr : ∀ x, FreeAt P.AlignSize
      { c1 with mem := memcpy_buf c1.mem res oldpos oldlen } F1 es1 x ↔
      FreeAt P.AlignSize c1 F1 es1 x := by
    intro x
    refine FreeAt.free_congr c1
      { c1 with mem := memcpy_buf c1.mem res oldpos oldlen } rfl rfl ?_ x
    intro e he
    show memcpy_buf c1.mem res oldpos oldlen e.1 = c1.mem e.1
    unfold memcpy_buf
    rw [if_neg]
    rintro ⟨h1, h2⟩
    exact (hok.taken e.1 h1 (by omega)).2 (Or.inr (Or.inl ⟨e, he, Nat.le_refl _, by
      have := (hok.inv.core.huge_pos he).2.1; omega⟩))
  obtain ⟨c3, F3, es3, hrun3, hinv3, hkeeps3, hfreed3, _, hgap3, hbins3, hlen3⟩ :=
    sfree_inv P fuel N _ F1 es1 oldpos oldlen hinv2 hold holdal hposal hin
      (fun x h1 h2 h => (hok.keeps x (hlive x h1 h2) (by omega)).1 ((hcongr x).1 h))
      hfuel
  refine ⟨c3, F3, es3, hrun3, ⟨hinv3, ?_, ?_, hbins3.trans hok.bins,
    by have := hok.len; omega, hok.res_al, hok.res_in, ?_,
    fun x h1 h2 => Or.inl (hok.taken x h1 h2).1,
    ?_, fun x h1 h2 _ => hfreed3 x h1 h2, fun _ => ⟨hgt, fun x h1 h2 => (hok.taken x h1 h2).1⟩,
    fun h _ => absurd (hok.taken res (Nat.le_refl _) (by omega)).1
      (by rw [h]; exact hlive oldpos (Nat.le_refl _) (by omega))⟩⟩
  · intro x hx hnb
    obtain ⟨h1, h2⟩ := hok.keeps x hx (by omega)
    obtain ⟨h3, h4⟩ := hkeeps3 x (fun h => h1 ((hcongr x).1 h)) hnb
    refine ⟨h3, ?_⟩
    rw [h4, ← h2]
    show memcpy_buf c1.mem res oldpos oldlen x = c1.mem x
    unfold memcpy_buf
    rw [if_neg]
    rintro ⟨h5, h6⟩
    exact hx (hok.taken x h5 (by omega)).1
  · rw [hgap3]
    exact (frag_gap_congr rfl rfl rfl).trans hok.gap
  · intro x h1 h2
    exact (hkeeps3 x (fun h => (hok.taken x h1 h2).2 ((hcongr x).1 h)) (hapart x h1 h2)).1
  · intro d h1 h2
    have ha := hapart (res + d) (Nat.le_add_right _ _) (by omega)
    rw [(hkeeps3 (res + d) (fun h => (hok.taken _ (Nat.le_add_right _ _) (by omega)).2
      ((hcongr _).1 h)) ha).2]
    show memcpy_buf c1.mem res oldpos oldlen (res + d) = c.mem (oldpos + d)
    unfold memcpy_buf
    rw [if_pos ⟨Nat.le_add_right _ _, by omega⟩, Nat.add_sub_cancel_left]
    exact (hok.keeps _ (hlive _ (Nat.le_add_right _ _) (by omega)) (by omega)).2

/-- The method `alloc3` keeps the invariant: called for a block that is
aligned, inside the used part of the arena and not free, and for a new length
that is a positive multiple of `AlignSize`, it returns; it either fails,
leaving the state unchanged (only when the block has to grow and the request
does not fit the hot region), or succeeds as described by `Alloc3Ok`. -/
theorem alloc3_inv (P : Params) (fuel N : Nat) (c : Ctx) (F : Nat → List Nat)
    (es : List (Nat × Nat)) (oldpos oldlen newlen : Nat)
    (hinv : Inv P.AlignSize N c F es)
    (hold : 0 < oldlen) (holdal : oldlen % P.AlignSize = 0)
    (hposal : oldpos % P.AlignSize = 0) (hin : oldpos + oldlen ≤ N)
    (hlive : ∀ x, oldpos ≤ x → x < oldpos + oldlen → ¬ FreeAt P.AlignSize c F es x)
    (hnew : 0 < newlen) (hnewal : newlen % P.AlignSize = 0) (hnewle : newlen ≤ 2 ^ 62)
    (hfuel : es.length + 1 < fuel) :
    ∃ res c1 F1 es1, alloc3 P fuel c oldpos oldlen newlen = some (res, c1) ∧
      ((res = size_fail ∧ c1 = c ∧ F1 = F ∧ es1 = es ∧ oldlen < newlen ∧
          c.tc.m_hot_end < c.tc.m_hot_pos + newlen) ∨
        Alloc3Ok P.AlignSize N c F es oldpos oldlen newlen res c1 F1 es1) := by
  have hcore := hinv.core
  have hhot := hinv.hot
  have hcnt := hinv.counters
  have hl := hcore.limit
  have hhin := hhot.hot_in
  have hhle := hhot.hot_le
  obtain ⟨hdf, hdh, hdhot⟩ := not_free_disj hcore hold hlive
  have ht1 : tosize (oldpos + oldlen) = oldpos + oldlen := tosize_of_lt (by omega)
  have ht2 : tosize (oldpos + newlen) = oldpos + newlen := tosize_of_lt (by omega)
  by_cases hplace : oldpos + oldlen = c.tc.m_hot_pos ∧ oldpos + newlen ≤ c.tc.m_hot_end
  · -- the block is resized in place at the hot region
    obtain ⟨hab, hfit⟩ := hplace
    have hrun : alloc3 P fuel c oldpos oldlen newlen
        = some (oldpos, { c with tc := { c.tc with m_hot_pos := oldpos + newlen } }) := by
      unfold alloc3
      rw [if_pos ⟨by rw [ht1]; exact hab, by rw [ht2]; exact hfit⟩, ht2]
    have hnal : (oldpos + newlen) % P.AlignSize = 0 :=
      (Nat.dvd_add (Nat.dvd_of_mod_eq_zero hposal) (Nat.dvd_of_mod_eq_zero hnewal)).elim
        (fun k hk => by rw [hk]; simp)
    have hfastd : ∀ i a, a ∈ F i → a + (i + 1) * P.AlignSize ≤ oldpos ∨ c.tc.m_hot_end ≤ a := by
      intro i a ha
      have := hdf i a ha
      have := hhot.fast_hot i a ha
      have := (hcore.fast_off ha).2.2.2.2.1
      omega
    have hhuged : ∀ e, e ∈ es → e.1 + c.mem e.1 ≤ oldpos ∨ c.tc.m_hot_end ≤ e.1 := by
      intro e he
      have := hdh e he
      have := hhot.hot_disj e he
      have := (hcore.huge_pos he).2.1
      omega
    refine ⟨oldpos, _, F, es, hrun, Or.inr ⟨⟨hcore.core_frame rfl rfl (fun _ _ _ => rfl)
      (fun _ _ _ _ => rfl), ?_, ⟨hcnt.cnt_eq, hcnt.node_cnt, hcnt.inc_lo, hcnt.inc_hi⟩⟩, ?_,
      rfl, rfl, by omega, hposal, by omega, ?_, ?_, fun _ _ _ => rfl, ?_,
      fun h => absurd rfl h, fun _ _ => ⟨hab, hfit⟩⟩⟩
    · refine ⟨hfit, hnal, hhot.hot_end_al, hhot.hot_in, ?_, ?_⟩
      · intro e he
        show e.1 + c.mem e.1 ≤ oldpos + newlen ∨ c.tc.m_hot_end ≤ e.1 ∨
          c.tc.m_hot_end ≤ oldpos + newlen
        have := hhuged e he
        omega
      · intro i a ha
        show a + (i + 1) * P.AlignSize ≤ oldpos + newlen ∨ c.tc.m_hot_end ≤ a ∨
          c.tc.m_hot_end ≤ oldpos + newlen
        have := hfastd i a ha
        omega
    · intro x hx hnb
      refine ⟨?_, rfl⟩
      rintro (h1 | h1 | ⟨h1, h2⟩)
      · exact hx (Or.inl h1)
      · exact hx (Or.inr (Or.inl h1))
      · have h1' : oldpos + newlen ≤ x := h1
        have h2' : x < c.tc.m_hot_end := h2
        exact hx (Or.inr (Or.inr ⟨by omega, h2'⟩))
    · intro x h1 h2
      rintro (⟨i, a, ha, h3, h4⟩ | ⟨e, he, h3, h4⟩ | ⟨h3, h4⟩)
      · have := hfastd i a ha
        omega
      · have h4' : x < e.1 + c.mem e.1 := h4
        have := hhuged e he
        omega
      · have h3' : oldpos + newlen ≤ x := h3
        omega
    · intro x h1 h2
      by_cases hx : x < oldpos + oldlen
      · exact Or.inr ⟨h1, hx⟩
      · exact Or.inl (Or.inr (Or.inr ⟨by omega, by omega⟩))
    · intro x h1 h2 h3
      refine Or.inr (Or.inr ⟨?_, ?_⟩)
      · show oldpos + newlen ≤ x
        omega
      · show x < c.tc.m_hot_end
        omega
  have hplace2 : ¬ (tosize (oldpos + oldlen) = c.tc.m_hot_pos ∧
      tosize (oldpos + newlen) ≤ c.tc.m_hot_end) := by
    rw [ht1, ht2]; exact hplace
  by_cases hlt : newlen < oldlen
  · -- the tail is released
    have hss : size_sub oldlen newlen = oldlen - newlen :=
      size_sub_of_le (le_of_lt hlt) (by omega)
    obtain ⟨c1, F1, es1, hrun, hinv1, hkeeps, hfreed, _, hgap, hbins, hlen1⟩ :=
      sfree_inv P fuel N c F es (oldpos + newlen) (oldlen - newlen) hinv (by omega)
        ((Nat.dvd_sub' (Nat.dvd_of_mod_eq_zero holdal)
          (Nat.dvd_of_mod_eq_zero hnewal)).elim (fun k hk => by rw [hk]; simp))
        ((Nat.dvd_add (Nat.dvd_of_mod_eq_zero hposal) (Nat.dvd_of_mod_eq_zero hnewal)).elim
          (fun k hk => by rw [hk]; simp))
        (by omega) (fun x h1 h2 => hlive x (by omega) (by omega)) (by omega)
    have hrun2 : alloc3 P fuel c oldpos oldlen newlen = some (oldpos, c1) := by
      unfold alloc3
      rw [if_neg hplace2, if_pos hlt, ht2, hss, hrun]
    refine ⟨oldpos, c1, F1, es1, hrun2, Or.inr ⟨hinv1, ?_, hgap, hbins, by omega, hposal,
      by omega, ?_, fun x h1 h2 => Or.inr ⟨h1, by omega⟩, ?_, ?_, fun h => absurd rfl h,
      fun _ h => absurd h (by omega)⟩⟩
    · intro x hx hnb
      exact hkeeps x hx (fun h => hnb ⟨by omega, by omega⟩)
    · intro x h1 h2
      exact (hkeeps x (hlive x h1 (by omega)) (by omega)).1
    · intro d h1 h2
      exact (hkeeps _ (hlive _ (Nat.le_add_right _ _) (by omega)) (by omega)).2
    · intro x h1 h2 h3
      exact hfreed x (by omega) (by omega)
  by_cases heq : newlen = oldlen
  · have hrun : alloc3 P fuel c oldpos oldlen newlen = some (oldpos, c) := by
      unfold alloc3
      rw [if_neg hplace2, if_neg hlt, if_pos heq]
    subst heq
    exact ⟨oldpos, c, F, es, hrun, Or.inr ⟨hinv, fun x hx _ => ⟨hx, rfl⟩, rfl, rfl, by omega,
      hposal, hin, hlive, fun x h1 h2 => Or.inr ⟨h1, h2⟩, fun _ _ _ => rfl,
      fun x h1 h2 h3 => absurd ⟨h1, h2⟩ h3, fun h => absurd rfl h,
      fun _ h => absurd h (Nat.lt_irrefl _)⟩⟩
  -- the block moves
  have hgt : oldlen < newlen := by omega
  obtain ⟨res, c1, F1, es1, hrun, hcase⟩ := alloc_inv P fuel N c F es newlen hinv hnew hnewal
    hnewle (by omega)
  rcases hcase with ⟨h1, h2, h3, h4, h5⟩ | hok
  · rw [h1, h2] at hrun
    refine ⟨size_fail, c, F, es, ?_, Or.inl ⟨rfl, rfl, rfl, rfl, hgt, h5⟩⟩
    unfold alloc3
    rw [if_neg hplace2, if_neg hlt, if_neg heq, hrun]
    simp
  have hl1 := hok.inv.core.limit
  have hne : size_fail ≠ res := by
    have := hok.res_in
    unfold size_fail
    omega
  have hmin : min oldlen newlen = oldlen := Nat.min_eq_left (le_of_lt hgt)
  obtain ⟨c3, F3, es3, hrun3, hok3⟩ := move_ok P fuel N c F es oldpos oldlen newlen res c1 F1
    es1 hold holdal hposal hin hlive hgt hok (by have := hok.len; omega)
  refine ⟨res, c3, F3, es3, ?_, Or.inr hok3⟩
  unfold alloc3
  rw [if_neg hplace2, if_neg hlt, if_neg heq, hrun]
  simp only [hne, ne_eq, not_false_eq_true, if_true, hmin, hrun3]

/-! ## The pool's `alloc`, `sfree` and `alloc3` keep the invariant -/

theorem put_same {mp : ThreadCacheMemPool} {tid : Nat} {c : Ctx} (h : mp.ctx tid = some c) :
    mp.put tid c = mp := by
  unfold ThreadCacheMemPool.ctx at h
  cases htc : mp.tls[tid]? with
  | none => rw [htc] at h; exact absurd h (by simp)
  | some tc =>
    rw [htc] at h
    simp only [Option.some.injEq] at h
    subst h
    unfold ThreadCacheMemPool.put
    simp only [list_set_same htc]

theorem ctx_lt {mp : ThreadCacheMemPool} {tid : Nat} {c : Ctx} (h : mp.ctx tid = some c) :
    tid < mp.tls.length := by
  unfold ThreadCacheMemPool.ctx at h
  by_contra hcon
  rw [List.getElem?_eq_none (by omega)] at h
  exact absurd h (by simp)

theorem ctx_fields {mp : ThreadCacheMemPool} {tid : Nat} {c : Ctx} (h : mp.ctx tid = some c) :
    mp.tls[tid]? = some c.tc ∧ c.mem = mp.buf ∧ c.mp_fragment_size = mp.fragment_size := by
  unfold ThreadCacheMemPool.ctx at h
  cases htc : mp.tls[tid]? with
  | none => rw [htc] at h; exact absurd h (by simp)
  | some tc =>
    rw [htc] at h
    simp only [Option.some.injEq] at h
    subst h
    exact ⟨rfl, rfl, rfl⟩

/-- Every free byte of a thread cache lies in the used part of the arena. -/
theorem free_lt {A N : Nat} {c : Ctx} {F : Nat → List Nat} {es : List (Nat × Nat)} {x : Nat}
    (h : Inv A N c F es) (hx : FreeAt A c F es x) : x < N := by
  rcases hx with ⟨i, a, ha, _, h2⟩ | ⟨e, he, _, h2⟩ | ⟨_, h2⟩
  · have := (h.core.fast_addr i a ha).2.2
    omega
  · have := h.core.huge_in e he
    omega
  · have := h.hot.hot_in
    omega

theorem round_request_eq {A : Nat} (hA : ValidAlign A) (x : Nat) :
    round_request A x = pow2_align_up x A := by
  unfold round_request
  rw [if_neg (Nat.not_lt.2 (sizeof_link_le hA))]

theorem ArenaWF.align_dvd_chunk {P : Params} {mp : ThreadCacheMemPool} (h : ArenaWF P mp)
    (hA : ValidAlign P.AlignSize) : P.AlignSize ∣ mp.m_chunk_size := by
  obtain ⟨j, _, hj, hle⟩ := h.chunk
  obtain ⟨a, _, _, ha⟩ := hA
  rw [hj, ha] at hle ⊢
  exact pow_dvd_pow 2 ((Nat.pow_le_pow_iff_right (by norm_num)).1 hle)

/-- The length of a chunk taken by `chunk_alloc` is a multiple of
`AlignSize`. -/
theorem chunk_alloc_len_al {P : Params} {mp : ThreadCacheMemPool} (h : ArenaWF P mp)
    (hA : ValidAlign P.AlignSize) {r l : Nat} (hl : chunk_alloc_len mp r = some l) :
    l % P.AlignSize = 0 := by
  have hd := h.align_dvd_chunk hA
  obtain ⟨j, hj61, hj, _⟩ := h.chunk
  have hcpos : 0 < mp.m_chunk_size := by rw [hj]; exact Nat.two_pow_pos j
  have hclt : mp.m_chunk_size < 2 ^ 64 := by
    rw [hj]; exact Nat.pow_lt_pow_right (by norm_num) (by omega)
  have hup : pow2_align_up r mp.m_chunk_size % P.AlignSize = 0 := by
    unfold pow2_align_up
    exact Nat.mod_eq_zero_of_dvd (Dvd.dvd.mul_left hd _)
  have hrem : chunk_rem (tosize (mp.p + mp.n)) mp.m_chunk_size % P.AlignSize = 0 := by
    rw [chunk_rem_eq ⟨j, by omega, hj⟩, Nat.mod_mod_of_dvd _ hd]
    unfold tosize
    rw [Nat.mod_mod_of_dvd _ hA.dvd_size]
    exact Nat.mod_eq_zero_of_dvd (Nat.dvd_add (Nat.dvd_of_mod_eq_zero h.base_al)
      (Nat.dvd_of_mod_eq_zero h.used_al))
  have hfix : chunk_len_fix mp (pow2_align_up r mp.m_chunk_size) % P.AlignSize = 0 := by
    unfold chunk_len_fix
    split
    · have hlt : chunk_rem (tosize (mp.p + mp.n)) mp.m_chunk_size < mp.m_chunk_size := by
        rw [chunk_rem_eq ⟨j, by omega, hj⟩]
        exact Nat.mod_lt _ hcpos
      rw [size_sub_of_le (le_of_lt hlt) hclt]
      unfold tosize
      rw [Nat.mod_mod_of_dvd _ hA.dvd_size]
      exact Nat.mod_eq_zero_of_dvd (Nat.dvd_add (Nat.dvd_of_mod_eq_zero hup)
        (Nat.dvd_sub' hd (Nat.dvd_of_mod_eq_zero hrem)))
    · exact hup
  unfold chunk_alloc_len at hl
  simp only [] at hl
  split at hl
  · split at hl
    · exact absurd hl (by simp)
    · simp only [Option.some.injEq] at hl
      rw [← hl, size_sub_of_le h.used_le (by have := h.cap_le; omega)]
      exact Nat.mod_eq_zero_of_dvd (Nat.dvd_sub' (Nat.dvd_of_mod_eq_zero h.cap_al)
        (Nat.dvd_of_mod_eq_zero h.used_al))
  · simp only [Option.some.injEq] at hl
    rw [← hl]
    exact hfix

theorem ArenaWF.of_put {P : Params} {mp : ThreadCacheMemPool} (h : ArenaWF P mp) (tid : Nat)
    (c : Ctx) : ArenaWF P (mp.put tid c) :=
  ⟨h.used_le, h.cap_link, h.cap_le, h.used_al, h.cap_al, h.base_al, h.chunk, h.commit⟩

/-- A call that leaves the pool as it is. -/
theorem PoolStep.same {P : Params} {mp : ThreadCacheMemPool} {tid : Nat} {c : Ctx}
    {F : Nat → List Nat} {es : List (Nat × Nat)} (har : ArenaWF P mp)
    (hctx : mp.ctx tid = some c) (hinv : Inv P.AlignSize mp.n c F es) (q k : Nat) :
    PoolStep P mp tid c F es mp c F es q k := by
  obtain ⟨h1, h2, h3⟩ := ctx_fields hctx
  exact ⟨har, hinv, Nat.le_refl _, (list_set_same h1).symm, h2.symm, h3.symm, rfl, rfl, rfl, rfl,
    rfl, fun x hx _ _ => ⟨hx, rfl⟩, fun x hx => Or.inl hx⟩

/-- A step of the thread cache after a step of the pool. -/
theorem PoolStep.andThen {P : Params} {mp mp1 : ThreadCacheMemPool} {tid : Nat} {c c1 c2 : Ctx}
    {F F1 F2 : Nat → List Nat} {es es1 es2 : List (Nat × Nat)} {q k : Nat}
    (h : PoolStep P mp tid c F es mp1 c1 F1 es1 q k)
    (hinv : Inv P.AlignSize mp1.n c2 F2 es2) (hgap : frag_gap c2 = frag_gap c1)
    (hbins : c2.tc.m_freelist_head.length = c1.tc.m_freelist_head.length)
    (hk2 : ∀ x, ¬ FreeAt P.AlignSize c1 F1 es1 x → ¬ (q ≤ x ∧ x < q + k) →
      ¬ FreeAt P.AlignSize c2 F2 es2 x ∧ c2.mem x = c1.mem x) :
    PoolStep P mp tid c F es (mp1.put tid c2) c2 F2 es2 q k := by
  refine ⟨h.arena.of_put tid c2, hinv, h.used, ?_, rfl, rfl, h.base, h.cap, h.fastbin_max,
    hgap.trans h.gap, hbins.trans h.bins, ?_, ?_⟩
  · show mp1.tls.set tid c2.tc = _
    rw [h.tls, List.set_set]
  · intro x hx hlt hnb
    obtain ⟨h1, h2⟩ := h.keeps x hx hlt hnb
    obtain ⟨h3, h4⟩ := hk2 x h1 hnb
    exact ⟨h3, h4.trans h2⟩
  · intro x hx
    by_cases hb : q ≤ x ∧ x < q + k
    · exact Or.inr (Or.inl hb)
    · by_cases hf : FreeAt P.AlignSize c1 F1 es1 x
      · exact h.stays x hf
      · exact absurd hx (hk2 x hf hb).1

/-- The method `chunk_alloc` either finds the arena exhausted and leaves the
pool alone, or takes a chunk and makes it the end of the hot region of the
calling thread cache, which then has room for the request. -/
theorem chunk_alloc_inv (P : Params) (fuel : Nat) (mp : ThreadCacheMemPool) (tid : Nat)
    (c : Ctx) (F : Nat → List Nat) (es : List (Nat × Nat)) (r : Nat)
    (har : ArenaWF P mp) (hctx : mp.ctx tid = some c)
    (hinv : Inv P.AlignSize mp.n c F es) (hpos : 0 < r) (hr : r ≤ 2 ^ 62)
    (hfuel : es.length < fuel) :
    (mp.c < mp.n + r ∧ chunk_alloc P fuel mp tid r = some (false, mp)) ∨
    (∃ mp1 c1 F1 es1, chunk_alloc P fuel mp tid r = some (true, mp1) ∧
      mp1.ctx tid = some c1 ∧ PoolStep P mp tid c F es mp1 c1 F1 es1 0 0 ∧
      c1.tc.m_hot_pos + r ≤ c1.tc.m_hot_end ∧ es1.length ≤ es.length + 1) := by
  have hA := hinv.core.align
  obtain ⟨j, hj61, hj, _⟩ := har.chunk
  have hcpos : 0 < mp.m_chunk_size := by rw [hj]; exact Nat.two_pow_pos j
  have hcle : mp.m_chunk_size ≤ 2 ^ 61 := by
    rw [hj]; exact Nat.pow_le_pow_right (by norm_num) hj61
  have hcap := har.cap_le
  have hul := har.used_le
  obtain ⟨hs1, hs2⟩ := chunk_alloc_len_spec mp r (by omega) hcpos hpos (by omega)
  by_cases hex : mp.c < mp.n + r
  · refine Or.inl ⟨hex, ?_⟩
    unfold chunk_alloc
    simp only [hs1 hex]
  · obtain ⟨l, hl, hrl, hnl⟩ := hs2 (by omega)
    have hlal := chunk_alloc_len_al har hA hl
    have hts : tosize (mp.n + l) = mp.n + l := tosize_of_lt (by omega)
    obtain ⟨c1, F1, es1, hset, hinv1, hkeeps, hgap, hbins, hlen, hhe, hhp, hstays⟩ :=
      set_hot_area_inv P fuel mp.n c F es l hinv har.used_al hlal
        ⟨by have := har.cap_link; omega, by omega⟩ hfuel
    have hrun := chunk_alloc_run P fuel mp tid r l c c1 hl har.commit hctx hset
    rw [hts] at hrun
    have hctx1 : (({ mp with n := mp.n + l } : ThreadCacheMemPool).put tid c1).ctx tid
        = some c1 := by
      apply ctx_put (c := c)
      exact hctx
    refine Or.inr ⟨_, c1, F1, es1, hrun, hctx1, ⟨⟨hnl, har.cap_link, har.cap_le, ?_,
      har.cap_al, har.base_al, har.chunk, har.commit⟩, hinv1, Nat.le_add_right _ _, rfl, rfl,
      rfl, rfl, rfl, rfl, hgap, hbins, ?_, ?_⟩, by omega, hlen⟩
    · show (mp.n + l) % P.AlignSize = 0
      exact Nat.mod_eq_zero_of_dvd (Nat.dvd_add (Nat.dvd_of_mod_eq_zero har.used_al)
        (Nat.dvd_of_mod_eq_zero hlal))
    · intro x hx hlt _
      exact hkeeps x hx (by omega)
    · intro x hx
      rcases hstays x hx with h1 | h1
      · exact Or.inl h1
      · exact Or.inr (Or.inr ⟨h1, free_lt hinv1 hx⟩)

/-- The pool's `alloc` keeps the invariant of the calling thread cache: for a
request of at most `2^61` bytes the call returns; it fails only when the
arena is exhausted, and then the pool is unchanged; otherwise the block
returned is aligned, has the request rounded up to `AlignSize` as its length,
lies inside the used part of the arena, is not free, and consists of bytes
that were free or lie in the new part of the arena. -/
theorem pool_alloc_inv (P : Params) (fuel : Nat) (mp : ThreadCacheMemPool) (tid : Nat)
    (c : Ctx) (F : Nat → List Nat) (es : List (Nat × Nat)) (request : Nat)
    (har : ArenaWF P mp) (hctx : mp.ctx tid = some c)
    (hinv : Inv P.AlignSize mp.n c F es) (hpos : 0 < request) (hreq : request ≤ 2 ^ 61)
    (hfuel : es.length + 1 < fuel) :
    ∃ res mp1 c1 F1 es1, mp.alloc P fuel tid request = some (res, mp1) ∧
      mp1.ctx tid = some c1 ∧ PoolStep P mp tid c F es mp1 c1 F1 es1 0 0 ∧
      (res = size_fail → mp1 = mp ∧ mp.c < mp.n + pow2_align_up request P.AlignSize) ∧
      (res ≠ size_fail → res % P.AlignSize = 0 ∧
        res + pow2_align_up request P.AlignSize ≤ mp1.n ∧
        ∀ x, res ≤ x → x < res + pow2_align_up request P.AlignSize →
          ¬ FreeAt P.AlignSize c1 F1 es1 x ∧ (FreeAt P.AlignSize c F es x ∨ mp.n ≤ x)) := by
  have hA := hinv.core.align
  have hAlt := hA.lt
  have hl := hinv.core.limit
  obtain ⟨hr1, hr2, hr3, hr4⟩ := round_request_spec hA hpos (x := request) (by omega)
  rw [round_request_eq hA] at hr1 hr2 hr3 hr4
  have hrpos : 0 < pow2_align_up request P.AlignSize := by omega
  have hrle : pow2_align_up request P.AlignSize ≤ 2 ^ 62 := by omega
  obtain ⟨res0, c0, F0, es0, hrun0, hcase0⟩ := alloc_inv P fuel mp.n c F es _ hinv hrpos hr3
    hrle (by omega)
  have hstart : mp.alloc P fuel tid request
      = if size_fail ≠ res0 then some (res0, mp.put tid c0)
        else alloc_slow_path P fuel (mp.put tid c0) tid
          (pow2_align_up request P.AlignSize) := by
    unfold ThreadCacheMemPool.alloc
    simp only [round_request_eq hA, hctx, hrun0]
  have hne_of : ∀ {N res c1 F1 es1} {c2 : Ctx} {F2 : Nat → List Nat} {es2 : List (Nat × Nat)},
      N ≤ 2 ^ 62 →
      AllocOk P.AlignSize N c2 F2 es2 (pow2_align_up request P.AlignSize) res c1 F1 es1 →
      res ≠ size_fail := by
    intro N res c1 F1 es1 c2 F2 es2 hN hok
    have := hok.res_in
    unfold size_fail
    omega
  rcases hcase0 with ⟨h1, h2, h3, h4, h5⟩ | hok
  · -- the thread cache has no room: take a chunk from the arena
    subst h1
    rw [h2] at hrun0 hstart
    rw [if_neg (by simp), put_same hctx] at hstart
    rcases chunk_alloc_inv P fuel mp tid c F es _ har hctx hinv hrpos hrle (by omega) with
      ⟨hex, hch⟩ | ⟨mp1, c1, F1, es1, hch, hctx1, hstep, hfit, hlen1⟩
    · refine ⟨size_fail, mp, c, F, es, ?_, hctx, PoolStep.same har hctx hinv 0 0,
        fun _ => ⟨rfl, hex⟩, fun h => absurd rfl h⟩
      rw [hstart]
      unfold alloc_slow_path
      simp only [hch]
    · obtain ⟨res2, c2, F2, es2, hrun2, hcase2⟩ := alloc_inv P fuel mp1.n c1 F1 es1 _ hstep.inv
        hrpos hr3 hrle (by omega)
      rcases hcase2 with ⟨_, _, _, _, h5⟩ | hok2
      · omega
      have hne2 := hne_of hstep.inv.core.limit.2 hok2
      refine ⟨res2, mp1.put tid c2, c2, F2, es2, ?_, ctx_put c2 hctx1,
        hstep.andThen hok2.inv hok2.gap hok2.bins (fun x hx _ => hok2.keeps x hx (by omega)),
        fun h => absurd h hne2, fun _ => ⟨hok2.res_al, hok2.res_in, ?_⟩⟩
      · rw [hstart]
        unfold alloc_slow_path
        simp only [hch, hctx1, hrun2]
      · intro x hx1 hx2
        obtain ⟨h6, h7⟩ := hok2.taken x hx1 hx2
        refine ⟨h7, ?_⟩
        rcases hstep.stays x h6 with h8 | h8 | h8
        · exact Or.inl h8
        · omega
        · exact Or.inr h8.1
  · have hne := hne_of hl.2 hok
    rw [if_pos (Ne.symm hne)] at hstart
    refine ⟨res0, mp.put tid c0, c0, F0, es0, hstart, ctx_put c0 hctx,
      (PoolStep.same har hctx hinv 0 0).andThen hok.inv hok.gap hok.bins
        (fun x hx _ => hok.keeps x hx (by omega)),
      fun h => absurd h hne, fun _ => ⟨hok.res_al, hok.res_in, fun x hx1 hx2 => ?_⟩⟩
    obtain ⟨h6, h7⟩ := hok.taken x hx1 hx2
    exact ⟨h7, Or.inl h6⟩
theorem PoolStep.weaken {P : Params} {mp mp1 : ThreadCacheMemPool} {tid : Nat} {c c1 : Ctx}
    {F F1 : Nat → List Nat} {es es1 : List (Nat × Nat)}
    (h : PoolStep P mp tid c F es mp1 c1 F1 es1 0 0) (q k : Nat) :
    PoolStep P mp tid c F es mp1 c1 F1 es1 q k :=
  ⟨h.arena, h.inv, h.used, h.tls, h.buf, h.frag, h.base, h.cap, h.fastbin_max, h.gap, h.bins,
    fun x hx hlt _ => h.keeps x hx hlt (by omega),
    fun x hx => (h.stays x hx).elim Or.inl
      (fun h1 => h1.elim (fun h2 => absurd h2.2 (by omega)) (fun h2 => Or.inr (Or.inr h2)))⟩

/-- The pool's `sfree` keeps the invariant of the calling thread cache: a
block whose rounded length is positive, that is aligned, inside the used part
of the arena and not free, is released; afterwards all of its bytes are
free. -/
theorem pool_sfree_inv (P : Params) (fuel : Nat) (mp : ThreadCacheMemPool) (tid : Nat)
    (c : Ctx) (F : Nat → List Nat) (es : List (Nat × Nat)) (pos len : Nat)
    (har : ArenaWF P mp) (hctx : mp.ctx tid = some c)
    (hinv : Inv P.AlignSize mp.n c F es)
    (hlen : 0 < pow2_align_up len P.AlignSize)
    (hlal : pow2_align_up len P.AlignSize % P.AlignSize = 0)
    (hposal : pos % P.AlignSize = 0) (hin : pos + pow2_align_up len P.AlignSize ≤ mp.n)
    (hlive : ∀ x, pos ≤ x → x < pos + pow2_align_up len P.AlignSize →
      ¬ FreeAt P.AlignSize c F es x)
    (hfuel : es.length < fuel) :
    ∃ mp1 c1 F1 es1, mp.sfree P fuel tid pos len = some mp1 ∧ mp1.ctx tid = some c1 ∧
      PoolStep P mp tid c F es mp1 c1 F1 es1 pos (pow2_align_up len P.AlignSize) ∧
      (∀ x, pos ≤ x → x < pos + pow2_align_up len P.AlignSize →
        FreeAt P.AlignSize c1 F1 es1 x) := by
  have hA := hinv.core.align
  obtain ⟨c1, F1, es1, hrun, hinv1, hkeeps, hfreed, _, hgap, hbins, _⟩ :=
    sfree_inv P fuel mp.n c F es pos _ hinv hlen hlal hposal hin hlive hfuel
  refine ⟨mp.put tid c1, c1, F1, es1, ?_, ctx_put c1 hctx,
    (PoolStep.same har hctx hinv _ _).andThen hinv1 hgap hbins hkeeps, hfreed⟩
  unfold ThreadCacheMemPool.sfree
  simp only [hctx, round_request_eq hA, hrun]

/-- The pool's `alloc3` keeps the invariant of the calling thread cache: the
call returns; it fails only when the block has to grow, does not fit the hot
region, and the arena is exhausted, and then the pool is unchanged; otherwise
the block returned is aligned, inside the used part of the arena and not
free, its first bytes are those of the old block, the rest of the old block
is free, a block that has moved lies apart from the old one, and a block that
has grown without moving was followed by the hot region, which had the room. -/
theorem pool_alloc3_inv (P : Params) (fuel : Nat) (mp : ThreadCacheMemPool) (tid : Nat)
    (c : Ctx) (F : Nat → List Nat) (es : List (Nat × Nat)) (oldpos oldlen newlen : Nat)
    (har : ArenaWF P mp) (hctx : mp.ctx tid = some c)
    (hinv : Inv P.AlignSize mp.n c F es)
    (hold : 0 < pow2_align_up oldlen P.AlignSize)
    (holdal : pow2_align_up oldlen P.AlignSize % P.AlignSize = 0)
    (hposal : oldpos % P.AlignSize = 0)
    (hin : oldpos + pow2_align_up oldlen P.AlignSize ≤ mp.n)
    (hlive : ∀ x, oldpos ≤ x → x < oldpos + pow2_align_up oldlen P.AlignSize →
      ¬ FreeAt P.AlignSize c F es x)
    (hnew : 0 < newlen) (hnewle : newlen ≤ 2 ^ 61) (hfuel : es.length + 2 < fuel) :
    ∃ res mp1 c1 F1 es1, mp.alloc3 P fuel tid oldpos oldlen newlen = some (res, mp1) ∧
      mp1.ctx tid = some c1 ∧
      ((res = size_fail ∧ mp1 = mp ∧ c1 = c ∧ F1 = F ∧ es1 = es ∧
          pow2_align_up oldlen P.AlignSize < pow2_align_up newlen P.AlignSize ∧
          mp.c < mp.n + pow2_align_up newlen P.AlignSize) ∨
        (PoolStep P mp tid c F es mp1 c1 F1 es1 oldpos (pow2_align_up oldlen P.AlignSize) ∧
          res ≠ size_fail ∧ res % P.AlignSize = 0 ∧
          res + pow2_align_up newlen P.AlignSize ≤ mp1.n ∧
          (∀ x, res ≤ x → x < res + pow2_align_up newlen P.AlignSize →
            ¬ FreeAt P.AlignSize c1 F1 es1 x) ∧
          (∀ x, res ≤ x → x < res + pow2_align_up newlen P.AlignSize →
            FreeAt P.AlignSize c F es x ∨
            (oldpos ≤ x ∧ x < oldpos + pow2_align_up oldlen P.AlignSize) ∨ mp.n ≤ x) ∧
          (∀ d, d < pow2_align_up oldlen P.AlignSize → d < pow2_align_up newlen P.AlignSize →
            c1.mem (res + d) = c.mem (oldpos + d)) ∧
          (∀ x, oldpos ≤ x → x < oldpos + pow2_align_up oldlen P.AlignSize →
            ¬ (res ≤ x ∧ x < res + pow2_align_up newlen P.AlignSize) →
            FreeAt P.AlignSize c1 F1 es1 x) ∧
          (res ≠ oldpos →
            pow2_align_up oldlen P.AlignSize < pow2_align_up newlen P.AlignSize ∧
            ∀ x, res ≤ x → x < res + pow2_align_up newlen P.AlignSize →
              ¬ (oldpos ≤ x ∧ x < oldpos + pow2_align_up oldlen P.AlignSize)) ∧
          (res = oldpos →
            pow2_align_up oldlen P.AlignSize < pow2_align_up newlen P.AlignSize →
            oldpos + pow2_align_up oldlen P.AlignSize = c.tc.m_hot_pos ∧
              oldpos + pow2_align_up newlen P.AlignSize ≤ c.tc.m_hot_end))) := by
  have hA := hinv.core.align
  have hAlt := hA.lt
  have hl := hinv.core.limit
  obtain ⟨hr1, hr2, hr3, hr4⟩ := round_request_spec hA hnew (x := newlen) (by omega)
  rw [round_request_eq hA] at hr1 hr2 hr3 hr4
  have hrpos : 0 < pow2_align_up newlen P.AlignSize := by omega
  have hrle : pow2_align_up newlen P.AlignSize ≤ 2 ^ 62 := by omega
  have hn1 : (if P.AlignSize < sizeof_link P.AlignSize then
      max (sizeof_link P.AlignSize) (pow2_align_up newlen P.AlignSize)
      else pow2_align_up newlen P.AlignSize) = pow2_align_up newlen P.AlignSize :=
    if_neg (Nat.not_lt.2 (sizeof_link_le hA))
  obtain ⟨res0, c0, F0, es0, hrun0, hcase0⟩ := alloc3_inv P fuel mp.n c F es oldpos _ _ hinv
    hold holdal hposal hin hlive hrpos hr3 hrle (by omega)
  rcases hcase0 with ⟨h1, h2, h3, h4, h5, h6⟩ | hok
  · -- the thread cache has no room: take a chunk and move the block
    subst h1
    rw [h2] at hrun0
    rcases chunk_alloc_inv P fuel mp tid c F es _ har hctx hinv hrpos hrle (by omega) with
      ⟨hex, hch⟩ | ⟨mp1, c1, F1, es1, hch, hctx1, hstep, hfit, hlen1⟩
    · refine ⟨size_fail, mp, c, F, es, ?_, hctx, Or.inl ⟨rfl, rfl, rfl, rfl, rfl, h5, hex⟩⟩
      unfold ThreadCacheMemPool.alloc3
      simp only [hn1, hctx, hrun0, if_true, put_same hctx, hch]
    · obtain ⟨res2, c3, F3, es3, hrun2, hcase2⟩ := alloc_inv P fuel mp1.n c1 F1 es1 _ hstep.inv
        hrpos hr3 hrle (by omega)
      rcases hcase2 with ⟨_, _, _, _, h7⟩ | hok2
      · omega
      have hl1 := hstep.inv.core.limit
      have hne2 : size_fail ≠ res2 := by
        have := hok2.res_in
        unfold size_fail
        omega
      have hused := hstep.used
      have hlive1 : ∀ x, oldpos ≤ x → x < oldpos + pow2_align_up oldlen P.AlignSize →
          ¬ FreeAt P.AlignSize c1 F1 es1 x :=
        fun x h7 h8 => (hstep.keeps x (hlive x h7 h8) (by omega) (by omega)).1
      obtain ⟨c5, F5, es5, hrun5, hok5⟩ := move_ok P fuel mp1.n c1 F1 es1 oldpos _ _ res2 c3 F3
        es3 hold holdal hposal (by omega) hlive1 h5 hok2 (by have := hok2.len; omega)
      refine ⟨res2, mp1.put tid c5, c5, F5, es5, ?_, ctx_put c5 hctx1,
        Or.inr ⟨(hstep.weaken _ _).andThen hok5.inv hok5.gap hok5.bins hok5.keeps,
          Ne.symm hne2, hok5.res_al, hok5.res_in, hok5.live, ?_, ?_, hok5.freed,
          fun _ => ⟨h5, fun x h7 h8 h9 => hlive1 x h9.1 h9.2 (hok2.taken x h7 h8).1⟩,
          fun h _ => absurd (hok2.taken res2 (Nat.le_refl _) (by omega)).1
            (by rw [h]; exact hlive1 oldpos (Nat.le_refl _) (by omega))⟩⟩
      · unfold ThreadCacheMemPool.alloc3
        simp only [hn1, hctx, hrun0, if_true, put_same hctx, hch, hctx1, hrun2, hne2, ne_eq,
          not_false_eq_true, hrun5]
      · intro x h7 h8
        rcases hstep.stays x (hok2.taken x h7 h8).1 with h9 | h9 | h9
        · exact Or.inl h9
        · omega
        · exact Or.inr (Or.inr h9.1)
      · intro d h7 h8
        rw [hok5.copied d h7 h8]
        exact (hstep.keeps _ (hlive _ (Nat.le_add_right _ _) (by omega)) (by omega)
          (by omega)).2
  · have hne : res0 ≠ size_fail := by
      have := hok.res_in
      unfold size_fail
      omega
    refine ⟨res0, mp.put tid c0, c0, F0, es0, ?_, ctx_put c0 hctx,
      Or.inr ⟨(PoolStep.same har hctx hinv _ _).andThen hok.inv hok.gap hok.bins hok.keeps,
        hne, hok.res_al, hok.res_in, hok.live, ?_, hok.copied, hok.freed, ?_, hok.stay⟩⟩
    · unfold ThreadCacheMemPool.alloc3
      simp only [hn1, hctx, hrun0, Ne.symm hne, if_false]
    · intro x h7 h8
      rcases hok.origin x h7 h8 with h9 | h9
      · exact Or.inl h9
      · exact Or.inr (Or.inl h9)
    · intro h
      obtain ⟨h7, h8⟩ := hok.moved h
      exact ⟨h7, fun x h9 h10 h11 => hlive x h11.1 h11.2 (h8 x h9 h10)⟩

/-! ## The invariant of the pool -/

theorem pending_sum_set (tls : List TCMemPoolOneThread) (tid : Nat) (tc tc1 : TCMemPoolOneThread)
    (h : tls[tid]? = some tc) :
    pending_sum (tls.set tid tc1)
      = pending_sum tls - (tc.m_frag_inc - (tc.fragment_size : Int))
        + (tc1.m_frag_inc - (tc1.fragment_size : Int)) := by
  unfold pending_sum
  induction tls generalizing tid with
  | nil => simp at h
  | cons a l ih =>
    cases tid with
    | zero =>
      simp only [List.getElem?_cons_zero, Option.some.injEq] at h
      subst h
      simp only [List.set_cons_zero, List.map_cons, List.sum_cons]
      omega
    | succ j =>
      simp only [List.getElem?_cons_succ] at h
      have := ih j h
      simp only [List.set_cons_succ, List.map_cons, List.sum_cons]
      omega

/-- A call of one thread cache that moves the same amount on its counter and
on the arena counter plus its pending delta keeps the arena-wide balance. -/
theorem pool_gap_step {mp mp1 : ThreadCacheMemPool} {tid : Nat} {c c1 : Ctx}
    (hctx : mp.ctx tid = some c) (htls : mp1.tls = mp.tls.set tid c1.tc)
    (hfrag : mp1.fragment_size = c1.mp_fragment_size) (hgap : frag_gap c1 = frag_gap c) :
    pool_gap mp1 = pool_gap mp := by
  obtain ⟨h1, _, h3⟩ := ctx_fields hctx
  unfold pool_gap
  rw [htls, pending_sum_set _ _ _ _ h1, hfrag]
  unfold frag_gap at hgap
  rw [h3] at hgap
  omega

/-- The view of another thread cache after a call. -/
theorem ctx_other {mp mp1 : ThreadCacheMemPool} {tid j : Nat} {c1 cj1 : Ctx}
    (htls : mp1.tls = mp.tls.set tid c1.tc) (hj : j ≠ tid) (hctx : mp1.ctx j = some cj1) :
    ∃ cj, mp.ctx j = some cj ∧ cj1.tc = cj.tc ∧ cj1.mem = mp1.buf ∧ cj.mem = mp.buf := by
  obtain ⟨h1, h2, _⟩ := ctx_fields hctx
  rw [htls, List.getElem?_set_ne (fun e => hj e.symm)] at h1
  refine ⟨{ tc := cj1.tc, mem := mp.buf, mp_fragment_size := mp.fragment_size }, ?_, rfl, h2,
    rfl⟩
  unfold ThreadCacheMemPool.ctx
  rw [h1]

theorem ctx_other_back {mp mp1 : ThreadCacheMemPool} {tid j : Nat} {c1 cj : Ctx}
    (htls : mp1.tls = mp.tls.set tid c1.tc) (hj : j ≠ tid) (hctx : mp.ctx j = some cj) :
    ∃ cj1, mp1.ctx j = some cj1 ∧ cj1.tc = cj.tc ∧ cj1.mem = mp1.buf ∧ cj.mem = mp.buf := by
  obtain ⟨h1, h2, _⟩ := ctx_fields hctx
  refine ⟨{ tc := cj.tc, mem := mp1.buf, mp_fragment_size := mp1.fragment_size }, ?_, rfl, rfl,
    h2⟩
  unfold ThreadCacheMemPool.ctx
  rw [htls, List.getElem?_set_ne (fun e => hj e.symm), h1]

theorem ctx_unique {mp : ThreadCacheMemPool} {tid : Nat} {c c1 : Ctx}
    (h : mp.ctx tid = some c) (h1 : mp.ctx tid = some c1) : c1 = c := by
  rw [h] at h1
  exact (Option.some.inj h1).symm

/-- The invariant of the pool after a call of the thread cache `tid`: the
call has kept the invariant of its thread cache, the block it released was
not free in any other thread cache, and the blocks handed out are the old
ones apart from the released block, or were made of free bytes, of bytes of
the released block and of bytes of the new part of the arena. -/
theorem PoolInv.step {P : Params} {mp mp1 : ThreadCacheMemPool} {live live1 : List (Nat × Nat)}
    {FF : Nat → Nat → List Nat} {EE : Nat → List (Nat × Nat)} {tid : Nat} {c c1 : Ctx}
    {F1 : Nat → List Nat} {es1 : List (Nat × Nat)} {q k : Nat}
    (h : PoolInv P mp live FF EE) (hctx : mp.ctx tid = some c) (hctx1 : mp1.ctx tid = some c1)
    (hstep : PoolStep P mp tid c (FF tid) (EE tid) mp1 c1 F1 es1 q k)
    (hq : ∀ j cj, j ≠ tid → mp.ctx j = some cj → ∀ x, q ≤ x → x < q + k →
      ¬ FreeAt P.AlignSize cj (FF j) (EE j) x)
    (hlive1 : ∀ b, b ∈ live1 →
      (b ∈ live ∧ (b.1 + b.2 ≤ q ∨ q + k ≤ b.1)) ∨
      (0 < b.2 ∧ b.2 % P.AlignSize = 0 ∧ b.1 % P.AlignSize = 0 ∧ b.1 + b.2 ≤ mp1.n ∧
        ∀ x, b.1 ≤ x → x < b.1 + b.2 → ¬ FreeAt P.AlignSize c1 F1 es1 x ∧
          (FreeAt P.AlignSize c (FF tid) (EE tid) x ∨ (q ≤ x ∧ x < q + k) ∨ mp.n ≤ x)))
    (hdisj1 : live1.Pairwise (fun a b => a.1 + a.2 ≤ b.1 ∨ b.1 + b.2 ≤ a.1)) :
    PoolInv P mp1 live1 (Function.update FF tid F1) (Function.update EE tid es1) := by
  have hbuf0 := (ctx_fields hctx).2.1
  have hinv0 := h.inv tid c hctx
  -- the other thread caches see their free blocks as before
  have hmemj : ∀ j cj, j ≠ tid → mp.ctx j = some cj → ∀ x,
      FreeAt P.AlignSize cj (FF j) (EE j) x → mp1.buf x = mp.buf x := by
    intro j cj hj hcj x hx
    rw [hstep.buf, ← hbuf0]
    exact (hstep.keeps x (h.sep j tid cj c hj hcj hctx x hx) (free_lt (h.inv j cj hcj) hx)
      (fun hb => hq j cj hj hcj x hb.1 hb.2 hx)).2
  have hfreej : ∀ j cj cj1, j ≠ tid → mp.ctx j = some cj → cj1.tc = cj.tc →
      cj1.mem = mp1.buf → cj.mem = mp.buf → ∀ x,
      (FreeAt P.AlignSize cj1 (FF j) (EE j) x ↔ FreeAt P.AlignSize cj (FF j) (EE j) x) := by
    intro j cj cj1 hj hcj htc hm1 hm x
    refine FreeAt.free_congr cj cj1 (by rw [htc]) (by rw [htc]) ?_ x
    intro e he
    rw [hm1, hm]
    exact hmemj j cj hj hcj e.1 (Or.inr (Or.inl ⟨e, he, Nat.le_refl _, by
      have := ((h.inv j cj hcj).core.huge_pos he).2.1
      omega⟩))
  have hlim1 : mp1.n < 2 ^ link_bits P.AlignSize ∧ mp1.n ≤ 2 ^ 62 := hstep.inv.core.limit
  refine ⟨hstep.arena, ?_, ?_, ?_, hdisj1, ?_, ?_⟩
  · intro j cj1 hcj1
    by_cases hj : j = tid
    · subst hj
      rw [Function.update_same, Function.update_same, ctx_unique hctx1 hcj1]
      exact hstep.inv
    · rw [Function.update_noteq hj, Function.update_noteq hj]
      obtain ⟨cj, hcj, htc, hm1, hm⟩ := ctx_other hstep.tls hj hcj1
      refine ((h.inv j cj hcj).inv_frame htc ?_).inv_grow hstep.used hlim1
      intro x hx
      rw [hm1, hm]
      exact hmemj j cj hj hcj x (hx.elim Or.inl (fun h1 => Or.inr (Or.inl h1)))
  · -- no byte is free in two thread caches
    have key : ∀ j cj1, j ≠ tid → mp1.ctx j = some cj1 → ∀ x,
        FreeAt P.AlignSize c1 F1 es1 x → ¬ FreeAt P.AlignSize cj1 (FF j) (EE j) x := by
      intro j cj1 hj hcj1 x hx hxj
      obtain ⟨cj, hcj, htc, hm1, hm⟩ := ctx_other hstep.tls hj hcj1
      have hxj0 := (hfreej j cj cj1 hj hcj htc hm1 hm x).1 hxj
      rcases hstep.stays x hx with h1 | h1 | h1
      · exact h.sep j tid cj c hj hcj hctx x hxj0 h1
      · exact hq j cj hj hcj x h1.1 h1.2 hxj0
      · have := free_lt (h.inv j cj hcj) hxj0
        omega
    intro i j ci cj hij hci hcj x hxi hxj
    by_cases hi : i = tid
    · subst hi
      rw [Function.update_same, Function.update_same, ctx_unique hctx1 hci] at hxi
      rw [Function.update_noteq (Ne.symm hij), Function.update_noteq (Ne.symm hij)] at hxj
      exact key j cj (Ne.symm hij) hcj x hxi hxj
    · rw [Function.update_noteq hi, Function.update_noteq hi] at hxi
      by_cases hj : j = tid
      · subst hj
        rw [Function.update_same, Function.update_same, ctx_unique hctx1 hcj] at hxj
        exact key i ci hi hci x hxj hxi
      · rw [Function.update_noteq hj, Function.update_noteq hj] at hxj
        obtain ⟨ci0, hci0, htci, hmi1, hmi⟩ := ctx_other hstep.tls hi hci
        obtain ⟨cj0, hcj0, htcj, hmj1, hmj⟩ := ctx_other hstep.tls hj hcj
        exact h.sep i j ci0 cj0 hij hci0 hcj0 x
          ((hfreej i ci0 ci hi hci0 htci hmi1 hmi x).1 hxi)
          ((hfreej j cj0 cj hj hcj0 htcj hmj1 hmj x).1 hxj)
  · -- the blocks handed out
    intro b hb
    rcases hlive1 b hb with ⟨hbl, hbq⟩ | ⟨h1, h2, h3, h4, h5⟩
    · obtain ⟨h1, h2, h3, h4, h5⟩ := h.live_ok b hbl
      refine ⟨h1, h2, h3, h4.trans hstep.used, ?_⟩
      intro j cj1 hcj1 x hx1 hx2
      by_cases hj : j = tid
      · subst hj
        rw [Function.update_same, Function.update_same, ctx_unique hctx1 hcj1]
        exact (hstep.keeps x (h5 j c hctx x hx1 hx2) (by omega) (by omega)).1
      · rw [Function.update_noteq hj, Function.update_noteq hj]
        obtain ⟨cj, hcj, htc, hm1, hm⟩ := ctx_other hstep.tls hj hcj1
        exact fun hf => h5 j cj hcj x hx1 hx2 ((hfreej j cj cj1 hj hcj htc hm1 hm x).1 hf)
    · refine ⟨h1, h2, h3, h4, ?_⟩
      intro j cj1 hcj1 x hx1 hx2
      obtain ⟨h6, h7⟩ := h5 x hx1 hx2
      by_cases hj : j = tid
      · subst hj
        rw [Function.update_same, Function.update_same, ctx_unique hctx1 hcj1]
        exact h6
      · rw [Function.update_noteq hj, Function.update_noteq hj]
        obtain ⟨cj, hcj, htc, hm1, hm⟩ := ctx_other hstep.tls hj hcj1
        intro hf
        have hf0 := (hfreej j cj cj1 hj hcj htc hm1 hm x).1 hf
        rcases h7 with h8 | h8 | h8
        · exact h.sep j tid cj c hj hcj hctx x hf0 h8
        · exact hq j cj hj hcj x h8.1 h8.2 hf0
        · have := free_lt (h.inv j cj hcj) hf0
          omega
  · rw [pool_gap_step hctx hstep.tls hstep.frag hstep.gap]
    exact h.gap
  · intro tc htc
    rw [hstep.fastbin_max]
    rw [hstep.tls] at htc
    rcases List.mem_or_eq_of_mem_set htc with h1 | h1
    · exact h.bins tc h1
    · rw [h1, hstep.bins]
      exact h.bins c.tc (List.getElem?_mem (ctx_fields hctx).1)
theorem ctx_exists {mp : ThreadCacheMemPool} {tid : Nat} (h : tid < mp.tls.length) :
    ∃ c, mp.ctx tid = some c := by
  unfold ThreadCacheMemPool.ctx
  rw [List.getElem?_eq_getElem h]
  exact ⟨_, rfl⟩

theorem PoolInv.fuel {P : Params} {mp : ThreadCacheMemPool} {live : List (Nat × Nat)}
    {FF : Nat → Nat → List Nat} {EE : Nat → List (Nat × Nat)} (h : PoolInv P mp live FF EE)
    {tid fuel : Nat} {c : Ctx} (hctx : mp.ctx tid = some c) (hfuel : mp.c + 2 < fuel) :
    (EE tid).length + 2 < fuel := by
  have := (h.inv tid c hctx).core.length_le
  have := h.arena.used_le
  omega

/-- The blocks that were handed out are different blocks. -/
theorem PoolInv.live_nodup {P : Params} {mp : ThreadCacheMemPool} {live : List (Nat × Nat)}
    {FF : Nat → Nat → List Nat} {EE : Nat → List (Nat × Nat)} (h : PoolInv P mp live FF EE) :
    live.Nodup := by
  refine List.Pairwise.imp_of_mem ?_ h.live_disj
  intro a b ha _ hd hab
  have := (h.live_ok a ha).1
  subst hab
  omega

/-- Two different blocks that were handed out are disjoint. -/
theorem PoolInv.live_apart {P : Params} {mp : ThreadCacheMemPool} {live : List (Nat × Nat)}
    {FF : Nat → Nat → List Nat} {EE : Nat → List (Nat × Nat)} (h : PoolInv P mp live FF EE)
    {a b : Nat × Nat} (ha : a ∈ live) (hb : b ∈ live) (hab : a ≠ b) :
    a.1 + a.2 ≤ b.1 ∨ b.1 + b.2 ≤ a.1 :=
  h.live_disj.forall (fun _ _ hxy => hxy.symm) ha hb hab

/-- A block made of bytes that were free, or lie in the released block, or in
the new part of the arena, is disjoint from the blocks that stay handed
out. -/
theorem PoolInv.new_apart {P : Params} {mp : ThreadCacheMemPool} {live : List (Nat × Nat)}
    {FF : Nat → Nat → List Nat} {EE : Nat → List (Nat × Nat)} (h : PoolInv P mp live FF EE)
    {tid : Nat} {c : Ctx} (hctx : mp.ctx tid = some c) {res len q k : Nat} (hlen : 0 < len)
    (horigin : ∀ x, res ≤ x → x < res + len →
      FreeAt P.AlignSize c (FF tid) (EE tid) x ∨ (q ≤ x ∧ x < q + k) ∨ mp.n ≤ x)
    {b : Nat × Nat} (hb : b ∈ live) (hbq : b.1 + b.2 ≤ q ∨ q + k ≤ b.1) :
    res + len ≤ b.1 ∨ b.1 + b.2 ≤ res := by
  obtain ⟨h1, _, _, h4, h5⟩ := h.live_ok b hb
  refine interval_disj hlen h1 ?_
  intro x hx1 hx2 hx3 hx4
  rcases horigin x hx1 hx2 with h6 | h6 | h6
  · exact h5 tid c hctx x hx3 hx4 h6
  · omega
  · omega

/-- A valid call of the pool's `alloc` returns and keeps the invariant of the
pool, the block returned being handed out. -/
theorem pool_alloc_global (P : Params) (fuel : Nat) (mp : ThreadCacheMemPool)
    (live : List (Nat × Nat)) (FF : Nat → Nat → List Nat) (EE : Nat → List (Nat × Nat))
    (tid request : Nat) (h : PoolInv P mp live FF EE) (hfuel : mp.c + 2 < fuel)
    (hv : ValidCall P (mp, live) (Call.alloc tid request)) :
    ∃ res mp1 FF1 EE1, mp.alloc P fuel tid request = some (res, mp1) ∧ mp1.c = mp.c ∧
      PoolInv P mp1 (if res = size_fail then live
        else (res, pow2_align_up request P.AlignSize) :: live) FF1 EE1 := by
  obtain ⟨htid, hpos, hreq⟩ := hv
  obtain ⟨c, hctx⟩ := ctx_exists htid
  have hinv := h.inv tid c hctx
  have hA := hinv.core.align
  have hAlt := hA.lt
  obtain ⟨hr1, hr2, hr3, hr4⟩ := round_request_spec hA hpos (x := request) (by omega)
  rw [round_request_eq hA] at hr1 hr2 hr3 hr4
  obtain ⟨res, mp1, c1, F1, es1, hrun, hctx1, hstep, hfail, hsucc⟩ :=
    pool_alloc_inv P fuel mp tid c (FF tid) (EE tid) request h.arena hctx hinv hpos hreq
      (by have := h.fuel hctx hfuel; omega)
  have hq : ∀ j cj, j ≠ tid → mp.ctx j = some cj → ∀ x, 0 ≤ x → x < 0 + 0 →
      ¬ FreeAt P.AlignSize cj (FF j) (EE j) x := fun _ _ _ _ x _ hx => absurd hx (by omega)
  refine ⟨res, mp1, Function.update FF tid F1, Function.update EE tid es1, hrun, hstep.cap, ?_⟩
  by_cases hres : res = size_fail
  · rw [if_pos hres]
    exact h.step hctx hctx1 hstep hq (fun b hb => Or.inl ⟨hb, Or.inr (by omega)⟩) h.live_disj
  · obtain ⟨h1, h2, h3⟩ := hsucc hres
    rw [if_neg hres]
    refine h.step hctx hctx1 hstep hq ?_ ?_
    · intro b hb
      rcases List.mem_cons.1 hb with rfl | hb
      · exact Or.inr ⟨by omega, hr3, h1, h2, fun x hx1 hx2 =>
          ⟨(h3 x hx1 hx2).1, (h3 x hx1 hx2).2.elim Or.inl (fun h4 => Or.inr (Or.inr h4))⟩⟩
      · exact Or.inl ⟨hb, Or.inr (by omega)⟩
    · refine List.pairwise_cons.2 ⟨?_, h.live_disj⟩
      intro b hb
      exact h.new_apart hctx (q := 0) (k := 0) (by omega)
        (fun x hx1 hx2 => (h3 x hx1 hx2).2.elim Or.inl (fun h4 => Or.inr (Or.inr h4))) hb
        (Or.inr (by omega))

/-- A valid call of the pool's `sfree` keeps the invariant of the pool. -/
theorem step_sfree_inv (P : Params) (fuel : Nat) (mp : ThreadCacheMemPool)
    (live : List (Nat × Nat)) (FF : Nat → Nat → List Nat) (EE : Nat → List (Nat × Nat))
    (tid pos len : Nat) (h : PoolInv P mp live FF EE) (hfuel : mp.c + 2 < fuel)
    (hv : ValidCall P (mp, live) (Call.sfree tid pos len)) :
    ∃ mp1 live1 FF1 EE1, step_call P fuel (mp, live) (Call.sfree tid pos len)
        = some (mp1, live1) ∧
      PoolInv P mp1 live1 FF1 EE1 ∧ mp1.c = mp.c := by
  obtain ⟨htid, _, hmem⟩ := hv
  obtain ⟨c, hctx⟩ := ctx_exists htid
  have hinv := h.inv tid c hctx
  obtain ⟨h1, h2, h3, h4, h5⟩ := h.live_ok _ hmem
  obtain ⟨mp1, c1, F1, es1, hrun, hctx1, hstep, _⟩ :=
    pool_sfree_inv P fuel mp tid c (FF tid) (EE tid) pos len h.arena hctx hinv h1 h2 h3 h4
      (h5 tid c hctx) (by have := h.fuel hctx hfuel; omega)
  refine ⟨mp1, live.erase (pos, pow2_align_up len P.AlignSize), _, _, ?_,
    h.step hctx hctx1 hstep (fun j cj _ hcj x hx1 hx2 => h5 j cj hcj x hx1 hx2) ?_
      (h.live_disj.sublist (List.erase_sublist _ _)), hstep.cap⟩
  · unfold step_call
    simp only [hrun]
  · intro b hb
    have hb0 := List.mem_of_mem_erase hb
    have hne : b ≠ (pos, pow2_align_up len P.AlignSize) :=
      fun e => (h.live_nodup.mem_erase_iff.1 hb).1 e
    exact Or.inl ⟨hb0, h.live_apart hb0 hmem hne⟩

/-- A valid call of the pool's `alloc3` returns and keeps the invariant of
the pool.  When it fails the pool is unchanged.  Otherwise the block returned
replaces the old one among the blocks handed out, its first bytes are those
of the old block, the bytes of the old block outside it are free, a block
that has moved lies apart from the old one, and a block that has grown
without moving was followed by the hot region, which had the room. -/
theorem pool_alloc3_global (P : Params) (fuel : Nat) (mp : ThreadCacheMemPool)
    (live : List (Nat × Nat)) (FF : Nat → Nat → List Nat) (EE : Nat → List (Nat × Nat))
    (tid oldpos oldlen newlen : Nat) (h : PoolInv P mp live FF EE) (hfuel : mp.c + 2 < fuel)
    (hv : ValidCall P (mp, live) (Call.alloc3 tid oldpos oldlen newlen)) :
    ∃ res mp1 c c1 FF1 EE1, mp.ctx tid = some c ∧
      mp.alloc3 P fuel tid oldpos oldlen newlen = some (res, mp1) ∧
      mp1.ctx tid = some c1 ∧ mp1.c = mp.c ∧
      PoolInv P mp1 (if res = size_fail then live
        else (res, pow2_align_up newlen P.AlignSize) ::
          live.erase (oldpos, pow2_align_up oldlen P.AlignSize)) FF1 EE1 ∧
      (res = size_fail → mp1 = mp ∧
        pow2_align_up oldlen P.AlignSize < pow2_align_up newlen P.AlignSize) ∧
      (res ≠ size_fail →
        (∀ d, d < pow2_align_up oldlen P.AlignSize → d < pow2_align_up newlen P.AlignSize →
          mp1.buf (res + d) = mp.buf (oldpos + d)) ∧
        (∀ x, oldpos ≤ x → x < oldpos + pow2_align_up oldlen P.AlignSize →
          ¬ (res ≤ x ∧ x < res + pow2_align_up newlen P.AlignSize) →
          FreeAt P.AlignSize c1 (FF1 tid) (EE1 tid) x) ∧
        (res ≠ oldpos →
          pow2_align_up oldlen P.AlignSize < pow2_align_up newlen P.AlignSize ∧
          ∀ x, res ≤ x → x < res + pow2_align_up newlen P.AlignSize →
            ¬ (oldpos ≤ x ∧ x < oldpos + pow2_align_up oldlen P.AlignSize)) ∧
        (res = oldpos →
          pow2_align_up oldlen P.AlignSize < pow2_align_up newlen P.AlignSize →
          oldpos + pow2_align_up oldlen P.AlignSize = c.tc.m_hot_pos ∧
            oldpos + pow2_align_up newlen P.AlignSize ≤ c.tc.m_hot_end)) := by
  obtain ⟨htid, _, hnew, hnewle, hmem⟩ := hv
  obtain ⟨c, hctx⟩ := ctx_exists htid
  have hinv := h.inv tid c hctx
  have hA := hinv.core.align
  have hAlt := hA.lt
  obtain ⟨hr1, hr2, hr3, hr4⟩ := round_request_spec hA hnew (x := newlen) (by omega)
  rw [round_request_eq hA] at hr1 hr2 hr3 hr4
  obtain ⟨h1, h2, h3, h4, h5⟩ := h.live_ok _ hmem
  obtain ⟨res, mp1, c1, F1, es1, hrun, hctx1, hcase⟩ :=
    pool_alloc3_inv P fuel mp tid c (FF tid) (EE tid) oldpos oldlen newlen h.arena hctx hinv
      h1 h2 h3 h4 (h5 tid c hctx) hnew hnewle (h.fuel hctx hfuel)
  rcases hcase with ⟨hres, hmp, _, _, _, hlt, _⟩ |
    ⟨hstep, hres, hal, hin, hlive, horigin, hcopied, hfreed, hmoved, hstay⟩
  · subst hmp
    refine ⟨res, mp1, c, c1, FF, EE, hctx, hrun, hctx1, rfl, ?_, fun _ => ⟨rfl, hlt⟩,
      fun hne => absurd hres hne⟩
    rw [if_pos hres]
    exact h
  · refine ⟨res, mp1, c, c1, Function.update FF tid F1, Function.update EE tid es1, hctx, hrun,
      hctx1, hstep.cap, ?_, fun he => absurd he hres, fun _ => ⟨?_, ?_, hmoved, hstay⟩⟩
    · rw [if_neg hres]
      refine h.step hctx hctx1 hstep (fun j cj _ hcj x hx1 hx2 => h5 j cj hcj x hx1 hx2) ?_ ?_
      · intro b hb
        rcases List.mem_cons.1 hb with rfl | hb
        · exact Or.inr ⟨by omega, hr3, hal, hin, fun x hx1 hx2 =>
            ⟨hlive x hx1 hx2, horigin x hx1 hx2⟩⟩
        · have hb0 := List.mem_of_mem_erase hb
          have hne : b ≠ (oldpos, pow2_align_up oldlen P.AlignSize) :=
            fun e => (h.live_nodup.mem_erase_iff.1 hb).1 e
          exact Or.inl ⟨hb0, h.live_apart hb0 hmem hne⟩
      · refine List.pairwise_cons.2 ⟨?_, h.live_disj.sublist (List.erase_sublist _ _)⟩
        intro b hb
        have hb0 := List.mem_of_mem_erase hb
        have hne : b ≠ (oldpos, pow2_align_up oldlen P.AlignSize) :=
          fun e => (h.live_nodup.mem_erase_iff.1 hb).1 e
        exact h.new_apart hctx (by omega) horigin hb0 (h.live_apart hb0 hmem hne)
    · intro d hd1 hd2
      rw [(ctx_fields hctx1).2.1.symm, (ctx_fields hctx).2.1.symm]
      exact hcopied d hd1 hd2
    · intro x hx1 hx2 hx3
      simp only [Function.update_same]
      exact hfreed x hx1 hx2 hx3

/-- The invariant of a thread cache does not depend on the arena counter, and
is kept when the pending delta is cleared. -/
theorem Inv.inv_recount {A N : Nat} {c c1 : Ctx} {F : Nat → List Nat} {es : List (Nat × Nat)}
    (h : Inv A N c F es) (hmem : c1.mem = c.mem)
    (htc : c1.tc = c.tc ∨ c1.tc = { c.tc with m_frag_inc := 0 }) : Inv A N c1 F es := by
  obtain ⟨hcore, hhot, hcnt⟩ := h
  have h1 : c1.tc.m_freelist_head = c.tc.m_freelist_head := by rcases htc with e | e <;> rw [e]
  have h2 : c1.tc.huge_list = c.tc.huge_list := by rcases htc with e | e <;> rw [e]
  have h3 : c1.tc.m_hot_pos = c.tc.m_hot_pos := by rcases htc with e | e <;> rw [e]
  have h4 : c1.tc.m_hot_end = c.tc.m_hot_end := by rcases htc with e | e <;> rw [e]
  have h5 : c1.tc.fragment_size = c.tc.fragment_size := by rcases htc with e | e <;> rw [e]
  have h6 : c1.tc.huge_size_sum = c.tc.huge_size_sum := by rcases htc with e | e <;> rw [e]
  have h7 : c1.tc.huge_node_cnt = c.tc.huge_node_cnt := by rcases htc with e | e <;> rw [e]
  have h8 : c1.tc.m_frag_inc = c.tc.m_frag_inc ∨ c1.tc.m_frag_inc = 0 := by
    rcases htc with e | e
    · exact Or.inl (by rw [e])
    · exact Or.inr (by rw [e])
  refine ⟨hcore.core_frame h1 h2 (fun _ _ _ => by rw [hmem]) (fun _ _ _ _ => by rw [hmem]),
    ⟨by rw [h3, h4]; exact hhot.hot_le, by rw [h3]; exact hhot.hot_pos_al,
      by rw [h4]; exact hhot.hot_end_al, by rw [h4]; exact hhot.hot_in, ?_, ?_⟩,
    ⟨by rw [h5, h1, h6]; exact hcnt.cnt_eq, by rw [h7]; exact hcnt.node_cnt, ?_, ?_⟩⟩
  · intro e he; rw [h3, h4, hmem]; exact hhot.hot_disj e he
  · intro i a ha; rw [h3, h4]; exact hhot.fast_hot i a ha
  · have := hcnt.inc_lo
    rcases h8 with e | e <;> rw [e] <;> omega
  · have := hcnt.inc_hi
    rcases h8 with e | e <;> rw [e] <;> omega

/-- The invariant of the pool is kept when pending deltas are moved to the
arena counter. -/
theorem PoolInv.recount {P : Params} {mp : ThreadCacheMemPool} {live : List (Nat × Nat)}
    {FF : Nat → Nat → List Nat} {EE : Nat → List (Nat × Nat)} (h : PoolInv P mp live FF EE)
    (fs : Nat) (tls1 : List TCMemPoolOneThread)
    (htls : ∀ (j : Nat) (tc1 : TCMemPoolOneThread), tls1[j]? = some tc1 →
      ∃ tc : TCMemPoolOneThread,
        mp.tls[j]? = some tc ∧ (tc1 = tc ∨ tc1 = { tc with m_frag_inc := 0 }))
    (hgap : pool_gap { mp with fragment_size := fs, tls := tls1 } = 0) :
    PoolInv P { mp with fragment_size := fs, tls := tls1 } live FF EE := by
  have key : ∀ tid c1,
      ThreadCacheMemPool.ctx { mp with fragment_size := fs, tls := tls1 } tid = some c1 →
      ∃ c, mp.ctx tid = some c ∧ c1.mem = c.mem ∧
        (c1.tc = c.tc ∨ c1.tc = { c.tc with m_frag_inc := 0 }) := by
    intro tid c1 hc1
    obtain ⟨h1, h2, _⟩ := ctx_fields hc1
    have h1a : tls1[tid]? = some c1.tc := h1
    obtain ⟨tc, h3, h4⟩ := htls tid _ h1a
    refine ⟨{ tc := tc, mem := mp.buf, mp_fragment_size := mp.fragment_size }, ?_, h2, h4⟩
    unfold ThreadCacheMemPool.ctx
    rw [h3]
  have hfree : ∀ tid c1 c,
      ThreadCacheMemPool.ctx { mp with fragment_size := fs, tls := tls1 } tid = some c1 →
      c1.mem = c.mem → (c1.tc = c.tc ∨ c1.tc = { c.tc with m_frag_inc := 0 }) →
      ∀ x, FreeAt P.AlignSize c1 (FF tid) (EE tid) x ↔ FreeAt P.AlignSize c (FF tid) (EE tid) x := by
    intro tid c1 c _ hm ht x
    exact FreeAt.free_congr c c1 (by rcases ht with e | e <;> rw [e])
      (by rcases ht with e | e <;> rw [e]) (fun _ _ => by rw [hm]) x
  refine ⟨⟨h.arena.used_le, h.arena.cap_link, h.arena.cap_le, h.arena.used_al, h.arena.cap_al,
    h.arena.base_al, h.arena.chunk, h.arena.commit⟩, ?_, ?_, ?_, h.live_disj, hgap, ?_⟩
  · intro tid c1 hc1
    obtain ⟨c, hc, hm, ht⟩ := key tid c1 hc1
    exact (h.inv tid c hc).inv_recount hm ht
  · intro i j ci cj hij hci hcj x hx
    obtain ⟨ci0, hci0, hmi, hti⟩ := key i ci hci
    obtain ⟨cj0, hcj0, hmj, htj⟩ := key j cj hcj
    rw [hfree j cj cj0 hcj hmj htj x]
    exact h.sep i j ci0 cj0 hij hci0 hcj0 x ((hfree i ci ci0 hci hmi hti x).1 hx)
  · intro b hb
    obtain ⟨h1, h2, h3, h4, h5⟩ := h.live_ok b hb
    refine ⟨h1, h2, h3, h4, ?_⟩
    intro tid c1 hc1 x hx1 hx2
    obtain ⟨c, hc, hm, ht⟩ := key tid c1 hc1
    rw [hfree tid c1 c hc1 hm ht x]
    exact h5 tid c hc x hx1 hx2
  · intro tc1 htc1
    have htc1a : tc1 ∈ tls1 := htc1
    obtain ⟨j, hj⟩ := List.mem_iff_getElem?.1 htc1a
    obtain ⟨tc, h3, h4⟩ := htls j tc1 hj
    have := h.bins tc (List.getElem?_mem h3)
    rcases h4 with e | e <;> rw [e] <;> exact this

/-- The loop of `sync_frag_size` moves the pending deltas to the arena
counter. -/
theorem sync_fold (tls : List TCMemPoolOneThread) (a : Nat) :
    (((tls.foldl (fun acc tc => tosize (acc + tosize (tc.m_frag_inc % 2 ^ 64).toNat)) a : Nat)
        : Int) + pending_sum (tls.map fun tc => { tc with m_frag_inc := 0 })) % 2 ^ 64
      = ((a : Int) + pending_sum tls) % 2 ^ 64 := by
  induction tls generalizing a with
  | nil => rfl
  | cons t l ih =>
    have := ih (tosize (a + tosize (t.m_frag_inc % 2 ^ 64).toNat))
    unfold pending_sum at this ⊢
    simp only [List.foldl_cons, List.map_cons, List.sum_cons]
    unfold tosize at this ⊢
    omega

/-- The method `sync_frag_size` keeps the invariant of the pool. -/
theorem sync_inv {P : Params} {mp : ThreadCacheMemPool} {live : List (Nat × Nat)}
    {FF : Nat → Nat → List Nat} {EE : Nat → List (Nat × Nat)} (h : PoolInv P mp live FF EE) :
    PoolInv P (sync_frag_size mp) live FF EE := by
  unfold sync_frag_size
  refine h.recount _ _ ?_ ?_
  · intro j tc1 hj
    rw [List.getElem?_map] at hj
    cases hget : mp.tls[j]? with
    | none => rw [hget] at hj; simp at hj
    | some tc =>
      rw [hget] at hj
      exact ⟨tc, rfl, Or.inr (Option.some.inj hj).symm⟩
  · have := h.gap
    unfold pool_gap at this ⊢
    exact (sync_fold mp.tls mp.fragment_size).trans this

/-- The method `clean_for_reuse` keeps the invariant of the pool. -/
theorem clean_inv {P : Params} {mp : ThreadCacheMemPool} {live : List (Nat × Nat)}
    {FF : Nat → Nat → List Nat} {EE : Nat → List (Nat × Nat)} (h : PoolInv P mp live FF EE)
    {tid : Nat} (htid : tid < mp.tls.length) :
    ∃ mp1, clean_for_reuse mp tid = some mp1 ∧ PoolInv P mp1 live FF EE ∧ mp1.c = mp.c := by
  have hget : mp.tls[tid]? = some (mp.tls[tid]) := List.getElem?_eq_getElem htid
  unfold clean_for_reuse
  simp only [hget]
  refine ⟨_, rfl, h.recount _ _ ?_ ?_, rfl⟩
  · intro j tc1 hj
    by_cases hjt : j = tid
    · subst hjt
      rw [List.getElem?_set_self htid] at hj
      exact ⟨_, hget, Or.inr (Option.some.inj hj).symm⟩
    · rw [List.getElem?_set_ne (fun e => hjt e.symm)] at hj
      exact ⟨tc1, hj, Or.inl rfl⟩
  · have := h.gap
    unfold pool_gap at this ⊢
    rw [pending_sum_set _ _ _ _ hget]
    unfold tosize
    simp only [Int.sub_zero]
    omega

/-- Every valid call keeps the invariant of the pool and returns; the fuel is
the bound of the searches in the huge list, and the capacity is enough. -/
theorem step_inv (P : Params) (fuel : Nat) (mp : ThreadCacheMemPool)
    (live : List (Nat × Nat)) (FF : Nat → Nat → List Nat) (EE : Nat → List (Nat × Nat))
    (k : Call) (h : PoolInv P mp live FF EE) (hfuel : mp.c + 2 < fuel)
    (hv : ValidCall P (mp, live) k) :
    ∃ mp1 live1 FF1 EE1, step_call P fuel (mp, live) k = some (mp1, live1) ∧
      PoolInv P mp1 live1 FF1 EE1 ∧ mp1.c = mp.c := by
  cases k with
  | alloc tid request =>
    obtain ⟨res, mp1, FF1, EE1, h1, h2, h3⟩ :=
      pool_alloc_global P fuel mp live FF EE tid request h hfuel hv
    refine ⟨mp1, _, FF1, EE1, ?_, h3, h2⟩
    unfold step_call
    simp only [h1]
  | alloc3 tid oldpos oldlen newlen =>
    obtain ⟨res, mp1, c, c1, FF1, EE1, _, h1, _, h2, h3, _⟩ :=
      pool_alloc3_global P fuel mp live FF EE tid oldpos oldlen newlen h hfuel hv
    refine ⟨mp1, _, FF1, EE1, ?_, h3, h2⟩
    unfold step_call
    simp only [h1]
  | sfree tid pos len => exact step_sfree_inv P fuel mp live FF EE tid pos len h hfuel hv
  | sync => exact ⟨sync_frag_size mp, live, FF, EE, rfl, sync_inv h, rfl⟩
  | clean tid =>
    obtain ⟨mp1, h1, h2, h3⟩ := clean_inv h (show tid < mp.tls.length from hv)
    refine ⟨mp1, live, FF, EE, ?_, h2, h3⟩
    unfold step_call
    simp only [h1]

/-- Every valid sequence of calls returns and keeps the invariant of the
pool. -/
theorem run_inv (P : Params) (fuel : Nat) (ks : List Call) (mp : ThreadCacheMemPool)
    (live : List (Nat × Nat)) (FF : Nat → Nat → List Nat) (EE : Nat → List (Nat × Nat))
    (h : PoolInv P mp live FF EE) (hfuel : mp.c + 2 < fuel)
    (hv : ValidRun P fuel ks (mp, live)) :
    ∃ mp1 live1 FF1 EE1, run_calls P fuel ks (mp, live) = some (mp1, live1) ∧
      PoolInv P mp1 live1 FF1 EE1 ∧ mp1.c = mp.c := by
  induction ks generalizing mp live FF EE with
  | nil => exact ⟨mp, live, FF, EE, rfl, h, rfl⟩
  | cons k ks ih =>
    obtain ⟨hv1, hv2⟩ := hv
    obtain ⟨mp1, live1, FF1, EE1, h1, h2, h3⟩ := step_inv P fuel mp live FF EE k h hfuel hv1
    obtain ⟨mp2, live2, FF2, EE2, h4, h5, h6⟩ :=
      ih mp1 live1 FF1 EE1 h2 (by omega) (hv2 _ h1)
    refine ⟨mp2, live2, FF2, EE2, ?_, h5, by omega⟩
    unfold run_calls
    simp only [h1]
    exact h4
theorem fastbin_sum_zero (A n i : Nat) (hd : Nat) :
    fastbin_sum A i (List.replicate n { head := hd, cnt := 0 }) = 0 := by
  induction n generalizing i with
  | zero => rfl
  | succ n ih =>
    rw [List.replicate_succ]
    unfold fastbin_sum
    rw [ih]
    simp

theorem pending_sum_fresh (A M k : Nat) :
    pending_sum (List.replicate k (TCMemPoolOneThread.init A M)) = 0 := by
  unfold pending_sum
  induction k with
  | zero => rfl
  | succ k ih =>
    rw [List.replicate_succ, List.map_cons, List.sum_cons, ih]
    rfl

/-- A thread cache that has not been used satisfies the invariant, with no
free block. -/
theorem init_inv {A M : Nat} (buf : Nat → Nat) (fs : Nat) (hA : ValidAlign A)
    (hM : M % A = 0) (hbig : sizeof_huge_link A ≤ M) (hle : M ≤ 2 ^ 62) :
    Inv A 0 { tc := TCMemPoolOneThread.init A M, mem := buf, mp_fragment_size := fs }
      (fun _ => []) [] := by
  have hlen : (TCMemPoolOneThread.init A M).m_freelist_head.length * A = M := by
    unfold TCMemPoolOneThread.init
    simp only [List.length_replicate]
    exact Nat.div_mul_cancel (Nat.dvd_of_mod_eq_zero hM)
  refine ⟨⟨hA, ⟨Nat.two_pow_pos _, Nat.zero_le _⟩, by rw [hlen]; exact hbig, by rw [hlen]; exact hle,
    ⟨Nat.zero_le _, fun k hk => absurd hk (Nat.not_lt_zero k), fun _ _ _ => rfl,
      fun e he => absurd he (List.not_mem_nil e), fun h => absurd rfl h, List.Pairwise.nil,
      fun e he => absurd he (List.not_mem_nil e), List.Pairwise.nil⟩,
    fun e he => absurd he (List.not_mem_nil e), fun e he => absurd he (List.not_mem_nil e),
    fun e he => absurd he (List.not_mem_nil e), ?_, fun i a ha => absurd ha (List.not_mem_nil a),
    fun _ => List.nodup_nil, fun i j a b ha => absurd ha (List.not_mem_nil a),
    fun i a e ha => absurd ha (List.not_mem_nil a)⟩,
    ⟨Nat.le_refl _, Nat.zero_mod _, Nat.zero_mod _, Nat.le_refl _,
      fun e he => absurd he (List.not_mem_nil e), fun i a ha => absurd ha (List.not_mem_nil a)⟩,
    ⟨?_, rfl, show -(256 * 1024) ≤ (0 : Int) by decide, show (0 : Int) ≤ 256 * 1024 by decide⟩⟩
  · intro i h hget
    have hmem := List.getElem?_mem hget
    unfold TCMemPoolOneThread.init at hmem
    have := List.eq_of_mem_replicate hmem
    subst this
    exact ⟨rfl, rfl⟩
  · unfold TCMemPoolOneThread.init
    simp only [fastbin_sum_zero]
    rfl

/-- A byte is never free in a thread cache that has not been used. -/
theorem init_not_free {A M : Nat} (buf : Nat → Nat) (fs x : Nat) :
    ¬ FreeAt A { tc := TCMemPoolOneThread.init A M, mem := buf, mp_fragment_size := fs }
      (fun _ => []) [] x := by
  unfold FreeAt
  rintro (⟨i, a, ha, _⟩ | ⟨e, he, _⟩ | ⟨h1, h2⟩)
  · exact absurd ha (List.not_mem_nil a)
  · exact absurd he (List.not_mem_nil e)
  · unfold TCMemPoolOneThread.init at h1 h2
    simp only at h1 h2
    omega

/-- The pool satisfies its invariant when it has been constructed with a
well-formed arena and a `fastbin_max_size` of at least `sizeof(huge_link_t)`,
as the constructor asserts: no block is handed out and none is free. -/
theorem fresh_inv (P : Params) (p cap fastbin_max_size chunk : Nat) (commit : Bool)
    (buf : Nat → Nat) (k : Nat)
    (har : ArenaWF P (fresh_pool P.AlignSize p cap fastbin_max_size chunk commit buf k))
    (hA : ValidAlign P.AlignSize) (hbig : sizeof_huge_link P.AlignSize ≤ fastbin_max_size)
    (hle : fastbin_max_size ≤ 2 ^ 61) :
    PoolInv P (fresh_pool P.AlignSize p cap fastbin_max_size chunk commit buf k) []
      (fun _ _ => []) (fun _ => []) := by
  have hAlt := hA.lt
  have hpos : 0 < fastbin_max_size := lt_of_lt_of_le (sizeof_huge_link_pos _) hbig
  obtain ⟨h1, _, h3⟩ := pow2_align_up_spec hA.pos hpos (x := fastbin_max_size) (by omega)
  have h4 := pow2_align_up_le fastbin_max_size P.AlignSize
  have key : ∀ tid c,
      (fresh_pool P.AlignSize p cap fastbin_max_size chunk commit buf k).ctx tid = some c →
      c = { tc := TCMemPoolOneThread.init P.AlignSize
              (pow2_align_up fastbin_max_size P.AlignSize),
            mem := buf, mp_fragment_size := 0 } := by
    intro tid c hc
    obtain ⟨h5, h6, h7⟩ := ctx_fields hc
    have h8 := List.eq_of_mem_replicate (List.getElem?_mem h5)
    cases c
    simp only at h6 h7 h8
    rw [h6, h7, h8]
    rfl
  refine ⟨har, ?_, ?_, fun b hb => absurd hb (List.not_mem_nil b), List.Pairwise.nil, ?_, ?_⟩
  · intro tid c hc
    rw [key tid c hc]
    exact init_inv buf 0 hA h3 (le_trans hbig h1) (by omega)
  · intro i j ci cj _ hci _ x hx
    rw [key i ci hci] at hx
    exact absurd hx (init_not_free buf 0 x)
  · unfold pool_gap fresh_pool
    simp only [pending_sum_fresh]
    rfl
  · intro tc htc
    have := List.eq_of_mem_replicate htc
    rw [this]
    unfold TCMemPoolOneThread.init fresh_pool
    simp only [List.length_replicate]

/-- The checker `check_run` is sound. -/
theorem check_run_sound (P : Params) (fuel : Nat) (ks : List Call)
    (s : ThreadCacheMemPool × List (Nat × Nat)) (h : check_run P fuel ks s = true) :
    ValidRun P fuel ks s := by
  induction ks generalizing s with
  | nil => trivial
  | cons k ks ih =>
    unfold check_run at h
    rw [Bool.and_eq_true] at h
    refine ⟨of_decide_eq_true h.1, ?_⟩
    intro s1 hs1
    have h2 := h.2
    rw [hs1] at h2
    exact ih s1 h2

theorem bins_bytes_cnt (A : Nat) (i : Nat) (hs : List head_t) :
    bins_bytes A i (hs.map fun h => h.cnt) = fastbin_sum A i hs := by
  induction hs generalizing i with
  | nil => rfl
  | cons h t ih =>
    simp only [List.map_cons]
    unfold bins_bytes fastbin_sum
    rw [ih]

theorem bins_bytes_zero (A n i : Nat) : bins_bytes A i (List.replicate n 0) = 0 := by
  induction n generalizing i with
  | zero => rfl
  | succ n ih =>
    rw [List.replicate_succ]
    unfold bins_bytes
    rw [ih]
    simp

/-- Adding two lists of counters position by position, in `size_t`, adds
their bytes. -/
theorem bins_bytes_zip (A : Nat) (i : Nat) (xs ys : List Nat) (h : xs.length = ys.length) :
    bins_bytes A i (List.zipWith (fun x y => tosize (x + y)) xs ys) % 2 ^ 64
      = (bins_bytes A i xs + bins_bytes A i ys) % 2 ^ 64 := by
  induction xs generalizing i ys with
  | nil =>
    cases ys with
    | nil => rfl
    | cons y ys => simp at h
  | cons x xs ih =>
    cases ys with
    | nil => simp at h
    | cons y ys =>
      have h1 := ih (i + 1) ys (by simpa using h)
      simp only [List.zipWith_cons_cons]
      unfold bins_bytes
      have h2 : tosize (x + y) * ((i + 1) * A) % 2 ^ 64
          = (x * ((i + 1) * A) + y * ((i + 1) * A)) % 2 ^ 64 := by
        unfold tosize
        rw [Nat.mul_mod, Nat.mod_mod, ← Nat.mul_mod, Nat.add_mul]
      omega

/-- The loop of the statistics tool adds up the bytes on the fastbins of a
pool with `AlignSize` 4, in `size_t`. -/
theorem tool_sum_fast_mod (i : Nat) (ks : List Nat) (acc : Nat) :
    tool_sum_fast i ks acc % 2 ^ 64 = (acc + bins_bytes 4 i ks) % 2 ^ 64 := by
  induction ks generalizing i acc with
  | nil => rfl
  | cons k ks ih =>
    unfold tool_sum_fast bins_bytes
    rw [ih]
    have h : 4 * (i + 1) * k = k * ((i + 1) * 4) := by ring
    rw [h]
    unfold tosize
    omega

theorem tool_sum_fast_lt (i : Nat) (ks : List Nat) (acc : Nat) (h : acc < 2 ^ 64) :
    tool_sum_fast i ks acc < 2 ^ 64 := by
  induction ks generalizing i acc with
  | nil => exact h
  | cons k ks ih =>
    unfold tool_sum_fast
    exact ih _ _ (Nat.mod_lt _ (by norm_num))

/-- When no delta is pending, the sum of `m_frag_inc - fragment_size` is
minus the sum of the thread counters. -/
theorem pending_sum_synced (tls : List TCMemPoolOneThread)
    (h : ∀ tc, tc ∈ tls → tc.m_frag_inc = 0) :
    pending_sum tls = -(((tls.map fun tc => tc.fragment_size).sum : Nat) : Int) := by
  unfold pending_sum
  induction tls with
  | nil => rfl
  | cons t l ih =>
    have h1 := ih (fun tc htc => h tc (List.mem_cons_of_mem _ htc))
    have h2 := h t (List.mem_cons_self _ _)
    simp only [List.map_cons, List.sum_cons, h1, h2]
    push_cast
    omega

theorem counters_sum (A : Nat) (tls : List TCMemPoolOneThread)
    (h : ∀ tc, tc ∈ tls →
      tc.fragment_size = tosize (fastbin_sum A 0 tc.m_freelist_head + tc.huge_size_sum)) :
    (tls.map fun tc => tc.fragment_size).sum % 2 ^ 64
      = ((tls.map fun tc => fastbin_sum A 0 tc.m_freelist_head).sum
          + (tls.map fun tc => tc.huge_size_sum).sum) % 2 ^ 64 := by
  induction tls with
  | nil => rfl
  | cons t l ih =>
    have h1 := ih (fun tc htc => h tc (List.mem_cons_of_mem _ htc))
    have h2 := h t (List.mem_cons_self _ _)
    simp only [List.map_cons, List.sum_cons]
    unfold tosize at h2
    omega

/-- The loop of `get_huge_stat` adds up `huge_size_sum`, in `size_t`. -/
theorem huge_stat_fold (tls : List TCMemPoolOneThread) (acc : Nat × Nat) (hacc : acc.2 < 2 ^ 64) :
    (tls.foldl (fun acc tc =>
        (tosize (acc.1 + tc.huge_node_cnt), tosize (acc.2 + tc.huge_size_sum))) acc).2 < 2 ^ 64 ∧
    (tls.foldl (fun acc tc =>
        (tosize (acc.1 + tc.huge_node_cnt), tosize (acc.2 + tc.huge_size_sum))) acc).2 % 2 ^ 64
      = (acc.2 + (tls.map fun tc => tc.huge_size_sum).sum) % 2 ^ 64 := by
  induction tls generalizing acc with
  | nil => exact ⟨hacc, rfl⟩
  | cons t l ih =>
    have h1 := ih (tosize (acc.1 + t.huge_node_cnt), tosize (acc.2 + t.huge_size_sum))
      (Nat.mod_lt _ (by norm_num))
    simp only [List.foldl_cons, List.map_cons, List.sum_cons]
    refine ⟨h1.1, ?_⟩
    rw [h1.2]
    show (tosize (acc.2 + t.huge_size_sum) + _) % 2 ^ 64 = _
    unfold tosize
    omega

/-- The loop of `get_fastbin` adds up the fastbin counters of the thread
caches, which all have as many fastbins as the result. -/
theorem fastbin_fold (A : Nat) (tls : List TCMemPoolOneThread) (fast : List Nat)
    (h : ∀ tc, tc ∈ tls → tc.m_freelist_head.length = fast.length) :
    ∃ fast1, tls.foldl
        (fun acc tc =>
          match acc with
          | none => none
          | some fast =>
            if tc.m_freelist_head.length ≤ fast.length then
              some (List.zipWith (fun x y => tosize (x + y)) fast
                (tc.m_freelist_head.map (fun h => h.cnt) ++
                  List.replicate (fast.length - tc.m_freelist_head.length) 0))
            else none)
        (some fast) = some fast1 ∧
      bins_bytes A 0 fast1 % 2 ^ 64
        = (bins_bytes A 0 fast
            + (tls.map fun tc => fastbin_sum A 0 tc.m_freelist_head).sum) % 2 ^ 64 := by
  induction tls generalizing fast with
  | nil => exact ⟨fast, rfl, rfl⟩
  | cons t l ih =>
    have ht := h t (List.mem_cons_self _ _)
    have hl : (List.zipWith (fun x y => tosize (x + y)) fast
        (t.m_freelist_head.map (fun h => h.cnt) ++
          List.replicate (fast.length - t.m_freelist_head.length) 0)).length = fast.length := by
      simp [ht]
    obtain ⟨fast1, h1, h2⟩ := ih _ (fun tc htc => by
      rw [hl]; exact h tc (List.mem_cons_of_mem _ htc))
    refine ⟨fast1, ?_, ?_⟩
    · simp only [List.foldl_cons, if_pos (le_of_eq ht)]
      exact h1
    · rw [h2]
      simp only [List.map_cons, List.sum_cons]
      have h3 := bins_bytes_zip A 0 fast (t.m_freelist_head.map (fun h => h.cnt) ++
          List.replicate (fast.length - t.m_freelist_head.length) 0) (by simp [ht])
      rw [ht, Nat.sub_self, List.replicate_zero, List.append_nil, bins_bytes_cnt] at h3
      rw [ht, Nat.sub_self, List.replicate_zero, List.append_nil]
      omega

theorem tool_arith {fs S H sumfs B X Y : Nat} (h2 : B % 2 ^ 64 = (0 + X) % 2 ^ 64)
    (h3 : H < 2 ^ 64) (h4 : H % 2 ^ 64 = (0 + Y) % 2 ^ 64)
    (h5 : sumfs % 2 ^ 64 = (X + Y) % 2 ^ 64)
    (h7 : ((fs : Int) + -(sumfs : Int)) % 2 ^ 64 = 0)
    (h8 : S % 2 ^ 64 = (0 + B) % 2 ^ 64) (h9 : S < 2 ^ 64) :
    (fs + (2 ^ 64 - S % 2 ^ 64)) % 2 ^ 64 = H ∧ S = (fs + (2 ^ 64 - H % 2 ^ 64)) % 2 ^ 64 := by
  omega

/-- The statistics of a pool with `AlignSize` 4 in which no delta is pending
pass the assertions of the tool. -/
theorem tool_ok {P : Params} {mp : ThreadCacheMemPool} {live : List (Nat × Nat)}
    {FF : Nat → Nat → List Nat} {EE : Nat → List (Nat × Nat)} (h : PoolInv P mp live FF EE)
    (hA : P.AlignSize = 4) (hsync : ∀ tc, tc ∈ mp.tls → tc.m_frag_inc = 0) :
    ∃ ms, mem_get_stat 4 mp = some ms ∧ tool_asserts mp ms := by
  have hcnt : ∀ tc, tc ∈ mp.tls →
      tc.fragment_size = tosize (fastbin_sum 4 0 tc.m_freelist_head + tc.huge_size_sum) := by
    intro tc htc
    obtain ⟨tid, htid⟩ := List.mem_iff_getElem?.1 htc
    have hctx : mp.ctx tid
        = some { tc := tc, mem := mp.buf, mp_fragment_size := mp.fragment_size } := by
      unfold ThreadCacheMemPool.ctx
      rw [htid]
    have := (h.inv tid _ hctx).counters.cnt_eq
    rw [hA] at this
    exact this
  obtain ⟨fast1, h1, h2⟩ := fastbin_fold 4 mp.tls (List.replicate (mp.m_fastbin_max_size / 4) 0)
    (fun tc htc => by rw [List.length_replicate, ← hA]; exact h.bins tc htc)
  obtain ⟨h3, h4⟩ := huge_stat_fold mp.tls (0, 0) (by norm_num)
  have h5 := counters_sum 4 mp.tls hcnt
  have h6 := pending_sum_synced mp.tls hsync
  have h7 := h.gap
  have h8 := tool_sum_fast_mod 0 fast1 0
  have h9 := tool_sum_fast_lt 0 fast1 0 (by norm_num)
  rw [bins_bytes_zero] at h2
  unfold pool_gap at h7
  rw [h6] at h7
  have hstat : mem_get_stat 4 mp = some (MemStat.mk fast1 mp.fragment_size (get_huge_stat mp).2
      (get_huge_stat mp).1) := by
    have h1a : get_fastbin 4 mp = some fast1 := h1
    unfold mem_get_stat
    rw [h1a]
  refine ⟨_, hstat, ?_⟩
  have h10 := tool_arith h2 h3 h4 h5 h7 h8 h9
  unfold tool_asserts size_sub get_huge_stat
  exact ⟨h10.1, rfl, h10.2⟩

/-! ## Runs of calls from a fresh pool -/

/-- Every thread cache of the pool is the cache of a view. -/
theorem tc_view {mp : ThreadCacheMemPool} {tc : TCMemPoolOneThread} (h : tc ∈ mp.tls) :
    ∃ tid c, mp.ctx tid = some c ∧ c.tc = tc := by
  obtain ⟨tid, htid⟩ := List.mem_iff_getElem?.1 h
  refine ⟨tid, { tc := tc, mem := mp.buf, mp_fragment_size := mp.fragment_size }, ?_, rfl⟩
  unfold ThreadCacheMemPool.ctx
  rw [htid]

theorem pending_sum_split (tls : List TCMemPoolOneThread) :
    pending_sum tls = (tls.map fun tc => tc.m_frag_inc).sum
      - (tls.map fun tc => (tc.fragment_size : Int)).sum := by
  unfold pending_sum
  induction tls with
  | nil => rfl
  | cons t l ih =>
    simp only [List.map_cons, List.sum_cons, ih]
    omega

/-- A valid sequence of calls on a fresh pool returns and leads to a pool that
satisfies the invariant. -/
theorem reach_inv (P : Params) (fuel p cap fastbin_max_size chunk : Nat) (commit : Bool)
    (buf : Nat → Nat) (k : Nat) (ks : List Call) (hA : ValidAlign P.AlignSize)
    (har : ArenaWF P (fresh_pool P.AlignSize p cap fastbin_max_size chunk commit buf k))
    (hbig : sizeof_huge_link P.AlignSize ≤ fastbin_max_size) (hle : fastbin_max_size ≤ 2 ^ 61)
    (hfuel : cap + 2 < fuel)
    (hv : ValidRun P fuel ks
      (fresh_pool P.AlignSize p cap fastbin_max_size chunk commit buf k, [])) :
    ∃ mp live FF EE,
      run_calls P fuel ks (fresh_pool P.AlignSize p cap fastbin_max_size chunk commit buf k, [])
        = some (mp, live) ∧
      PoolInv P mp live FF EE ∧ mp.c = cap :=
  run_inv P fuel ks _ [] _ _ (fresh_inv P p cap fastbin_max_size chunk commit buf k har hA hbig hle)
    hfuel hv

theorem ex_fresh_arena :
    ArenaWF ex_params (fresh_pool ex_params.AlignSize 4194304 8388608 64 2097152 false
      (fun _ => 0) 1) :=
  ⟨by decide, by decide, by decide, by decide, by decide, by decide,
    ⟨21, by decide, by decide, by decide⟩, fun h => absurd h (by decide)⟩

theorem ex_calls_valid :
    ValidRun ex_params 8388611 ex_calls
      (fresh_pool ex_params.AlignSize 4194304 8388608 64 2097152 false (fun _ => 0) 1, []) :=
  check_run_sound _ _ _ _ rfl

/-- Alignment on bounded runs (the part of C12 that holds).  Take a pool
constructed with an aligned base address and capacity, a chunk size not
below `AlignSize`, and a capacity below `2^32` bytes when `AlignSize` is 4
(`ArenaWF` of the fresh pool, with `cap_link`), and any valid sequence of
`alloc`, `alloc3`, `sfree`, `sync_frag_size` and `clean_for_reuse` calls on
it, with requests of at most `2^61` bytes.  The sequence returns and leads to a pool that satisfies the invariant, in
which every block handed out has an aligned offset and an aligned length, and
in every thread cache `m_hot_pos`, `m_hot_end`, the offsets of the blocks on
the fastbins and the offsets and sizes of the blocks on the huge list are
multiples of `AlignSize`.  A further valid `alloc` or `alloc3` returns; unless
it fails, the offset returned is a multiple of `AlignSize`, and the block of
the request rounded up to a multiple of `AlignSize` is handed out: it lies in
the used part of the arena, is free in no thread cache and is disjoint from
every other block handed out (`PoolInv` of the new pool). -/
theorem alloc_offsets_aligned (P : Params) (fuel p cap fastbin_max_size chunk : Nat)
    (commit : Bool) (buf : Nat → Nat) (k : Nat) (ks : List Call)
    (hA : ValidAlign P.AlignSize)
    (har : ArenaWF P (fresh_pool P.AlignSize p cap fastbin_max_size chunk commit buf k))
    (hbig : sizeof_huge_link P.AlignSize ≤ fastbin_max_size) (hle : fastbin_max_size ≤ 2 ^ 61)
    (hfuel : cap + 2 < fuel)
    (hv : ValidRun P fuel ks
      (fresh_pool P.AlignSize p cap fastbin_max_size chunk commit buf k, [])) :
    ∃ mp live FF EE,
      run_calls P fuel ks (fresh_pool P.AlignSize p cap fastbin_max_size chunk commit buf k, [])
        = some (mp, live) ∧
      PoolInv P mp live FF EE ∧
      (∀ b, b ∈ live → b.1 % P.AlignSize = 0 ∧ b.2 % P.AlignSize = 0) ∧
      (∀ tid c, mp.ctx tid = some c →
        c.tc.m_hot_pos % P.AlignSize = 0 ∧ c.tc.m_hot_end % P.AlignSize = 0 ∧
        (∀ i a, a ∈ FF tid i → a % P.AlignSize = 0) ∧
        (∀ e, e ∈ EE tid → e.1 % P.AlignSize = 0 ∧ c.mem e.1 % P.AlignSize = 0)) ∧
      (∀ tid request, ValidCall P (mp, live) (Call.alloc tid request) →
        ∃ res mp1 FF1 EE1, mp.alloc P fuel tid request = some (res, mp1) ∧
          (res = size_fail ∨
            (res % P.AlignSize = 0 ∧ request ≤ pow2_align_up request P.AlignSize ∧
              pow2_align_up request P.AlignSize < request + P.AlignSize ∧
              pow2_align_up request P.AlignSize % P.AlignSize = 0 ∧
              PoolInv P mp1 ((res, pow2_align_up request P.AlignSize) :: live) FF1 EE1))) ∧
      (∀ tid oldpos oldlen newlen,
        ValidCall P (mp, live) (Call.alloc3 tid oldpos oldlen newlen) →
        ∃ res mp1 FF1 EE1, mp.alloc3 P fuel tid oldpos oldlen newlen = some (res, mp1) ∧
          (res = size_fail ∨
            (res % P.AlignSize = 0 ∧ newlen ≤ pow2_align_up newlen P.AlignSize ∧
              pow2_align_up newlen P.AlignSize < newlen + P.AlignSize ∧
              pow2_align_up newlen P.AlignSize % P.AlignSize = 0 ∧
              PoolInv P mp1 ((res, pow2_align_up newlen P.AlignSize) ::
                live.erase (oldpos, pow2_align_up oldlen P.AlignSize)) FF1 EE1))) := by
  obtain ⟨mp, live, FF, EE, hrun, hinv, hc⟩ :=
    reach_inv P fuel p cap fastbin_max_size chunk commit buf k ks hA har hbig hle hfuel hv
  have hAlt := hA.lt
  have hApos := hA.pos
  refine ⟨mp, live, FF, EE, hrun, hinv, ?_, ?_, ?_, ?_⟩
  · intro b hb
    obtain ⟨_, h2, h3, _⟩ := hinv.live_ok b hb
    exact ⟨h3, h2⟩
  · intro tid c hctx
    have hi := hinv.inv tid c hctx
    exact ⟨hi.hot.hot_pos_al, hi.hot.hot_end_al, fun i a ha => (hi.core.fast_addr i a ha).2.1,
      fun e he => ⟨(hi.core.skip.addr e he).1, hi.core.size_al e he⟩⟩
  · intro tid request hcall
    obtain ⟨res, mp1, FF1, EE1, h1, _, h3⟩ :=
      pool_alloc_global P fuel mp live FF EE tid request hinv (by omega) hcall
    obtain ⟨_, hpos, hreq⟩ := hcall
    obtain ⟨hr1, _, hr3⟩ := pow2_align_up_spec hApos hpos (x := request) (by omega)
    have hr4 := pow2_align_up_le request P.AlignSize
    refine ⟨res, mp1, FF1, EE1, h1, ?_⟩
    by_cases hres : res = size_fail
    · exact Or.inl hres
    · rw [if_neg hres] at h3
      exact Or.inr ⟨(h3.live_ok _ (List.mem_cons_self _ _)).2.2.1, hr1, by omega, hr3, h3⟩
  · intro tid oldpos oldlen newlen hcall
    obtain ⟨res, mp1, _, _, FF1, EE1, _, h1, _, _, h3, _⟩ :=
      pool_alloc3_global P fuel mp live FF EE tid oldpos oldlen newlen hinv (by omega) hcall
    obtain ⟨_, _, hpos, hreq, _⟩ := hcall
    obtain ⟨hr1, _, hr3⟩ := pow2_align_up_spec hApos hpos (x := newlen) (by omega)
    have hr4 := pow2_align_up_le newlen P.AlignSize
    refine ⟨res, mp1, FF1, EE1, h1, ?_⟩
    by_cases hres : res = size_fail
    · exact Or.inl hres
    · rw [if_neg hres] at h3
      exact Or.inr ⟨(h3.live_ok _ (List.mem_cons_self _ _)).2.2.1, hr1, by omega, hr3, h3⟩

theorem alloc_offsets_aligned_witness :
    ∃ mp live FF EE,
      run_calls ex_params 8388611 ex_calls
        (fresh_pool ex_params.AlignSize 4194304 8388608 64 2097152 false (fun _ => 0) 1, [])
        = some (mp, live) ∧
      PoolInv ex_params mp live FF EE ∧
      (∀ b, b ∈ live → b.1 % ex_params.AlignSize = 0 ∧ b.2 % ex_params.AlignSize = 0) ∧
      (∀ tid request, ValidCall ex_params (mp, live) (Call.alloc tid request) →
        ∃ res mp1 FF1 EE1, mp.alloc ex_params 8388611 tid request = some (res, mp1) ∧
          (res = size_fail ∨
            (res % ex_params.AlignSize = 0 ∧
              PoolInv ex_params mp1
                ((res, pow2_align_up request ex_params.AlignSize) :: live) FF1 EE1))) := by
  obtain ⟨mp, live, FF, EE, h1, h2, h3, _, h5, _⟩ :=
    alloc_offsets_aligned ex_params 8388611 4194304 8388608 64 2097152 false (fun _ => 0) 1
      ex_calls ex_valid_align ex_fresh_arena (by decide) (by decide) (by decide) ex_calls_valid
  refine ⟨mp, live, FF, EE, h1, h2, h3, ?_⟩
  intro tid request hcall
  obtain ⟨res, mp1, FF1, EE1, h6, h7⟩ := h5 tid request hcall
  exact ⟨res, mp1, FF1, EE1, h6, h7.elim Or.inl (fun h => Or.inr ⟨h.1, h.2.2.2.2⟩)⟩

/-- The byte counter of a thread cache on bounded runs (the part of C14 that
holds).  After every valid sequence of `alloc`, `alloc3`, `sfree`,
`sync_frag_size` and `clean_for_reuse` calls, with requests of at most `2^61`
bytes, on a fresh pool whose capacity is below `2^32` bytes when `AlignSize`
is 4 (`ArenaWF.cap_link`), in every thread cache `fragment_size` is the sum over the fastbins
of `cnt[i] * (i + 1) * AlignSize` plus `huge_size_sum` (all of them `size_t`
values, so the sum is taken in `size_t`).  Hence, for `AlignSize` 4 and once
`sync_frag_size` has moved the pending deltas to the arena counter, the
statistics pass the three assertions of the tool: `frag_size` minus the bytes
on the fastbins is `huge_size`. -/
theorem frag_size_counts_free_lists (P : Params) (fuel p cap fastbin_max_size chunk : Nat)
    (commit : Bool) (buf : Nat → Nat) (k : Nat) (ks : List Call)
    (hA : ValidAlign P.AlignSize)
    (har : ArenaWF P (fresh_pool P.AlignSize p cap fastbin_max_size chunk commit buf k))
    (hbig : sizeof_huge_link P.AlignSize ≤ fastbin_max_size) (hle : fastbin_max_size ≤ 2 ^ 61)
    (hfuel : cap + 2 < fuel)
    (hv : ValidRun P fuel ks
      (fresh_pool P.AlignSize p cap fastbin_max_size chunk commit buf k, [])) :
    ∃ mp live,
      run_calls P fuel ks (fresh_pool P.AlignSize p cap fastbin_max_size chunk commit buf k, [])
        = some (mp, live) ∧
      (∀ tc, tc ∈ mp.tls → tc.fragment_size
        = tosize (fastbin_sum P.AlignSize 0 tc.m_freelist_head + tc.huge_size_sum)) ∧
      (P.AlignSize = 4 →
        ∃ ms, mem_get_stat 4 (sync_frag_size mp) = some ms ∧
          tool_asserts (sync_frag_size mp) ms) := by
  obtain ⟨mp, live, FF, EE, hrun, hinv, _⟩ :=
    reach_inv P fuel p cap fastbin_max_size chunk commit buf k ks hA har hbig hle hfuel hv
  refine ⟨mp, live, hrun, ?_, ?_⟩
  · intro tc htc
    obtain ⟨tid, c, hctx, rfl⟩ := tc_view htc
    exact (hinv.inv tid c hctx).counters.cnt_eq
  · intro hA4
    refine tool_ok (sync_inv hinv) hA4 ?_
    intro tc htc
    unfold sync_frag_size at htc
    obtain ⟨t, _, rfl⟩ := List.mem_map.1 htc
    rfl

theorem frag_size_counts_free_lists_witness :
    ∃ mp live,
      run_calls ex_params 8388611 ex_calls
        (fresh_pool ex_params.AlignSize 4194304 8388608 64 2097152 false (fun _ => 0) 1, [])
        = some (mp, live) ∧
      (∀ tc, tc ∈ mp.tls → tc.fragment_size
        = tosize (fastbin_sum ex_params.AlignSize 0 tc.m_freelist_head + tc.huge_size_sum)) ∧
      (ex_params.AlignSize = 4 →
        ∃ ms, mem_get_stat 4 (sync_frag_size mp) = some ms ∧
          tool_asserts (sync_frag_size mp) ms) :=
  frag_size_counts_free_lists ex_params 8388611 4194304 8388608 64 2097152 false (fun _ => 0) 1
    ex_calls ex_valid_align ex_fresh_arena (by decide) (by decide) (by decide) ex_calls_valid

/-- Growth by moving on bounded runs (the part of C18 that holds).  In the
pool reached by a valid sequence of calls (requests of at most `2^61` bytes)
on a fresh pool whose capacity is below `2^32` bytes when `AlignSize` is 4
(`ArenaWF.cap_link`), take a valid call
`alloc3(oldpos, oldlen, newlen)` whose new length, rounded up to `AlignSize`,
exceeds the old one, for a block that cannot be extended in place: it does
not end at `m_hot_pos`, or the hot region has not the room.  The call returns.
Either it returns `size_t(-1)` and the pool is unchanged, so that the old
block is still handed out and holds its bytes.  Or it returns another offset
`res`; the first bytes of the new block, as many as the (rounded) old length,
which is at least `oldlen`, are the bytes that were at `oldpos`; the new
block has replaced the old one among the blocks handed out, and every byte of
the old block is free in the calling thread cache. -/
theorem alloc3_grow_by_move (P : Params) (fuel p cap fastbin_max_size chunk : Nat)
    (commit : Bool) (buf : Nat → Nat) (k : Nat) (ks : List Call)
    (hA : ValidAlign P.AlignSize)
    (har : ArenaWF P (fresh_pool P.AlignSize p cap fastbin_max_size chunk commit buf k))
    (hbig : sizeof_huge_link P.AlignSize ≤ fastbin_max_size) (hle : fastbin_max_size ≤ 2 ^ 61)
    (hfuel : cap + 2 < fuel)
    (hv : ValidRun P fuel ks
      (fresh_pool P.AlignSize p cap fastbin_max_size chunk commit buf k, []))
    (mp : ThreadCacheMemPool) (live : List (Nat × Nat))
    (hrun : run_calls P fuel ks
      (fresh_pool P.AlignSize p cap fastbin_max_size chunk commit buf k, []) = some (mp, live))
    (tid oldpos oldlen newlen : Nat)
    (hcall : ValidCall P (mp, live) (Call.alloc3 tid oldpos oldlen newlen))
    (tc : TCMemPoolOneThread) (htc : mp.tls[tid]? = some tc)
    (hgrow : pow2_align_up oldlen P.AlignSize < pow2_align_up newlen P.AlignSize)
    (hnot : ¬ (oldpos + pow2_align_up oldlen P.AlignSize = tc.m_hot_pos ∧
      oldpos + pow2_align_up newlen P.AlignSize ≤ tc.m_hot_end)) :
    ∃ res mp1, mp.alloc3 P fuel tid oldpos oldlen newlen = some (res, mp1) ∧
      ((res = size_fail ∧ mp1 = mp) ∨
        (res ≠ size_fail ∧ res ≠ oldpos ∧
          (oldlen < 2 ^ 64 → oldlen ≤ pow2_align_up oldlen P.AlignSize) ∧
          (∀ d, d < pow2_align_up oldlen P.AlignSize →
            mp1.buf (res + d) = mp.buf (oldpos + d)) ∧
          ∃ c1 FF1 EE1, mp1.ctx tid = some c1 ∧
            PoolInv P mp1 ((res, pow2_align_up newlen P.AlignSize) ::
              live.erase (oldpos, pow2_align_up oldlen P.AlignSize)) FF1 EE1 ∧
            ∀ x, oldpos ≤ x → x < oldpos + pow2_align_up oldlen P.AlignSize →
              FreeAt P.AlignSize c1 (FF1 tid) (EE1 tid) x)) := by
  obtain ⟨mp0, live0, FF, EE, hrun0, hinv, hc⟩ :=
    reach_inv P fuel p cap fastbin_max_size chunk commit buf k ks hA har hbig hle hfuel hv
  rw [hrun] at hrun0
  obtain ⟨rfl, rfl⟩ := Prod.mk.inj (Option.some.inj hrun0)
  obtain ⟨res, mp1, c, c1, FF1, EE1, hctx, h1, hctx1, _, h3, hfail, hsucc⟩ :=
    pool_alloc3_global P fuel mp live FF EE tid oldpos oldlen newlen hinv (by omega) hcall
  have hctc : c.tc = tc := by
    have := (ctx_fields hctx).1
    rw [htc] at this
    exact (Option.some.inj this).symm
  refine ⟨res, mp1, h1, ?_⟩
  by_cases hres : res = size_fail
  · exact Or.inl ⟨hres, (hfail hres).1⟩
  · obtain ⟨hcopied, hfreed, hmoved, hstay⟩ := hsucc hres
    rw [if_neg hres] at h3
    have hne : res ≠ oldpos := by
      intro he
      have := hstay he hgrow
      rw [hctc] at this
      exact hnot this
    obtain ⟨_, holdpos, _, _, hmem⟩ := hcall
    have hAlt := hA.lt
    have hold : oldlen < 2 ^ 64 → oldlen ≤ pow2_align_up oldlen P.AlignSize := by
      intro h64
      by_cases hsmall : oldlen + P.AlignSize ≤ 2 ^ 64
      · exact (pow2_align_up_spec hA.pos holdpos hsmall).1
      · exfalso
        have hl := (hinv.live_ok _ hmem).1
        have hApos := hA.pos
        have hz : pow2_align_up oldlen P.AlignSize = 0 := by
          unfold pow2_align_up tosize
          have : (oldlen + (P.AlignSize - 1)) % 2 ^ 64 < P.AlignSize := by omega
          rw [Nat.div_eq_of_lt this, Nat.zero_mul]
        rw [hz] at hl
        exact Nat.lt_irrefl 0 hl
    refine Or.inr ⟨hres, hne, hold, fun d hd => hcopied d hd (by omega), c1, FF1, EE1, hctx1, h3,
      ?_⟩
    intro x hx1 hx2
    exact hfreed x hx1 hx2 (fun hx => (hmoved hne).2 x hx.1 hx.2 ⟨hx1, hx2⟩)

theorem alloc3_grow_by_move_witness :
    ∃ res mp1, ex_state_grow.1.alloc3 ex_params 8388611 0 0 96 200 = some (res, mp1) ∧
      ((res = size_fail ∧ mp1 = ex_state_grow.1) ∨
        (res ≠ size_fail ∧ res ≠ 0 ∧
          (∀ d, d < pow2_align_up 96 ex_params.AlignSize →
            mp1.buf (res + d) = ex_state_grow.1.buf (0 + d)) ∧
          ∃ c1 FF1 EE1, mp1.ctx 0 = some c1 ∧
            PoolInv ex_params mp1 ((res, pow2_align_up 200 ex_params.AlignSize) ::
              ex_state_grow.2.erase (0, pow2_align_up 96 ex_params.AlignSize)) FF1 EE1 ∧
            ∀ x, 0 ≤ x → x < 0 + pow2_align_up 96 ex_params.AlignSize →
              FreeAt ex_params.AlignSize c1 (FF1 0) (EE1 0) x)) := by
  obtain ⟨res, mp1, h1, h2⟩ :=
    alloc3_grow_by_move ex_params 8388611 4194304 8388608 64 2097152 false (fun _ => 0) 1
      [Call.alloc 0 128, Call.alloc 0 8, Call.sfree 0 0 128, Call.alloc 0 96]
      ex_valid_align ex_fresh_arena (by decide) (by decide) (by decide)
      (check_run_sound _ _ _ _ rfl) ex_state_grow.1 ex_state_grow.2 rfl 0 0 96 200
      (by decide) ex_tc_grow rfl (by decide) (by decide)
  refine ⟨res, mp1, h1, h2.elim Or.inl (fun h => Or.inr ⟨h.1, h.2.1, h.2.2.2⟩)⟩

/-- C19: a pending delta leaves the range.  On a fresh pool
(`AlignSize` 4, chunk size 2 MiB) the calls `alloc(2 MiB)`,
`alloc(2^64 - 2 MiB)` and `alloc(8)` return the offsets 0, 2 MiB and 0: the
sum `m_hot_pos + request` of the second call wraps around to 0, which passes
the test against `m_hot_end`.  Releasing the second block with
`sfree(2 MiB, 2^64 - 2 MiB)` enters it into the huge list and adds its length
to `m_frag_inc` as an `intptr_t`: the delta is -2097152, below -256 KiB, and
is not flushed, since `sfree` flushes only a delta above 256 KiB.  The block
released begins at `used`, so the pool's assertion `pos < mem::n` is false in
that call. -/
theorem frag_inc_leaves_range :
    ∃ m tc, ex_run_giant = some ([0, 2097152, 0], m) ∧ m.tls = [tc] ∧
      tc.m_frag_inc = -2097152 ∧ tc.m_frag_inc < -(256 * 1024) ∧ m.fragment_size = 0 ∧
      tc.fragment_size = 2 ^ 64 - 2097152 :=
  ⟨_, _, rfl, rfl, rfl, by decide, rfl, rfl⟩

/-- The pending deltas on bounded runs (the part of C19 that holds).  After
every valid sequence of `alloc`, `alloc3`, `sfree`, `sync_frag_size` and
`clean_for_reuse` calls on a fresh pool whose capacity is below `2^32` bytes
when `AlignSize` is 4 (`ArenaWF.cap_link`), with requests of at most `2^61`
bytes and blocks released or resized with the length they were handed out
with, the `m_frag_inc` of every thread cache lies within 256 KiB of zero, and
the arena counter plus the pending deltas is the sum of the thread counters
modulo `2^64`.  The statement holds for every sequence, hence after every
call. -/
theorem frag_inc_bounded (P : Params) (fuel p cap fastbin_max_size chunk : Nat)
    (commit : Bool) (buf : Nat → Nat) (k : Nat) (ks : List Call)
    (hA : ValidAlign P.AlignSize)
    (har : ArenaWF P (fresh_pool P.AlignSize p cap fastbin_max_size chunk commit buf k))
    (hbig : sizeof_huge_link P.AlignSize ≤ fastbin_max_size) (hle : fastbin_max_size ≤ 2 ^ 61)
    (hfuel : cap + 2 < fuel)
    (hv : ValidRun P fuel ks
      (fresh_pool P.AlignSize p cap fastbin_max_size chunk commit buf k, [])) :
    ∃ mp live,
      run_calls P fuel ks (fresh_pool P.AlignSize p cap fastbin_max_size chunk commit buf k, [])
        = some (mp, live) ∧
      (∀ tc, tc ∈ mp.tls → -(256 * 1024) ≤ tc.m_frag_inc ∧ tc.m_frag_inc ≤ 256 * 1024) ∧
      ((mp.fragment_size : Int) + (mp.tls.map fun tc => tc.m_frag_inc).sum) % 2 ^ 64
        = (mp.tls.map fun tc => (tc.fragment_size : Int)).sum % 2 ^ 64 := by
  obtain ⟨mp, live, FF, EE, hrun, hinv, _⟩ :=
    reach_inv P fuel p cap fastbin_max_size chunk commit buf k ks hA har hbig hle hfuel hv
  refine ⟨mp, live, hrun, ?_, ?_⟩
  · intro tc htc
    obtain ⟨tid, c, hctx, rfl⟩ := tc_view htc
    exact ⟨(hinv.inv tid c hctx).counters.inc_lo, (hinv.inv tid c hctx).counters.inc_hi⟩
  · have h := hinv.gap
    unfold pool_gap at h
    rw [pending_sum_split] at h
    omega

theorem frag_inc_bounded_witness :
    ∃ mp live,
      run_calls ex_params 8388611 ex_calls
        (fresh_pool ex_params.AlignSize 4194304 8388608 64 2097152 false (fun _ => 0) 1, [])
        = some (mp, live) ∧
      (∀ tc, tc ∈ mp.tls → -(256 * 1024) ≤ tc.m_frag_inc ∧ tc.m_frag_inc ≤ 256 * 1024) ∧
      ((mp.fragment_size : Int) + (mp.tls.map fun tc => tc.m_frag_inc).sum) % 2 ^ 64
        = (mp.tls.map fun tc => (tc.fragment_size : Int)).sum % 2 ^ 64 :=
  frag_inc_bounded ex_params 8388611 4194304 8388608 64 2097152 false (fun _ => 0) 1
    ex_calls ex_valid_align ex_fresh_arena (by decide) (by decide) (by decide) ex_calls_valid

/-! ## The block counters -/

/-- Walking a fastbin chain from its head counts its blocks. -/
theorem chain_blocks_seg (A : Nat) (m : Nat → Nat) (l : List Nat) (nx fuel : Nat)
    (hseg : FastSeg A m nx l)
    (hl : ∀ a, a ∈ l → a / A < list_tail A ∧ tosize (a / A * A) = a) (hf : l.length < fuel) :
    spec_chain_blocks A m fuel nx = some l.length := by
  induction l generalizing nx fuel with
  | nil =>
    obtain ⟨f, rfl⟩ : ∃ f, fuel = f + 1 := ⟨fuel - 1, by simp at hf; omega⟩
    have hnx : nx = list_tail A := hseg
    unfold spec_chain_blocks
    rw [if_pos hnx]
    rfl
  | cons a l ih =>
    obtain ⟨f, rfl⟩ : ∃ f, fuel = f + 1 := ⟨fuel - 1, by simp at hf; omega⟩
    obtain ⟨hnx, hrest⟩ : nx = a / A ∧ FastSeg A m (m a) l := hseg
    obtain ⟨h1, h2⟩ := hl a (List.mem_cons_self _ _)
    unfold spec_chain_blocks
    rw [if_neg (by rw [hnx]; omega), hnx, h2,
      ih (m a) f hrest (fun b hb => hl b (List.mem_cons_of_mem _ hb)) (by simp at hf; omega)]
    rfl

/-- Walking level 0 of the huge list counts its blocks. -/
theorem huge_count_seg (A : Nat) (hA : ValidAlign A) (m : Nat → Nat) (l : List Nat)
    (nx fuel : Nat) (hseg : Seg A m 0 nx l (list_tail A))
    (hl : ∀ a, a ∈ l → a % A = 0 ∧ a / A < list_tail A ∧ a < 2 ^ 64) (hf : l.length < fuel) :
    spec_huge_count A m fuel nx = some l.length := by
  induction l generalizing nx fuel with
  | nil =>
    obtain ⟨f, rfl⟩ : ∃ f, fuel = f + 1 := ⟨fuel - 1, by simp at hf; omega⟩
    have hnx : nx = list_tail A := hseg
    unfold spec_huge_count
    rw [if_pos hnx]
    rfl
  | cons a l ih =>
    obtain ⟨f, rfl⟩ : ∃ f, fuel = f + 1 := ⟨fuel - 1, by simp at hf; omega⟩
    obtain ⟨hnx, hrest⟩ :
      nx = a / A ∧ Seg A m 0 (m (a + sizeof_link A * (1 + 0))) l (list_tail A) := hseg
    obtain ⟨h1, h2, h3⟩ := hl a (List.mem_cons_self _ _)
    unfold spec_huge_count
    rw [if_neg (by rw [hnx]; omega), hnx, shl_off_link hA h1 h3,
      ih _ f hrest (fun b hb => hl b (List.mem_cons_of_mem _ hb)) (by simp at hf; omega)]
    rfl

/-- In a thread cache that satisfies the invariant, the counter of every
fastbin is the number of blocks on its chain, and `huge_node_cnt` is the
number of blocks on level 0 of the huge list. -/
theorem Inv.tc_counts {A N : Nat} {c : Ctx} {F : Nat → List Nat} {es : List (Nat × Nat)}
    (h : Inv A N c F es) {fuel : Nat} (hfuel : N < fuel) :
    (∀ (i : Nat) (hd : head_t), c.tc.m_freelist_head[i]? = some hd →
      spec_chain_blocks A c.mem fuel hd.head = some hd.cnt ∧ hd.cnt = (F i).length) ∧
    spec_huge_count A c.mem fuel (c.tc.huge_list.next 0) = some c.tc.huge_node_cnt ∧
      c.tc.huge_node_cnt = es.length := by
  refine ⟨?_, ?_, h.counters.node_cnt⟩
  · intro i hd hget
    obtain ⟨h1, h2⟩ := h.core.fast_chain i hd hget
    refine ⟨?_, h2⟩
    rw [h2]
    refine chain_blocks_seg A c.mem (F i) hd.head fuel h1 ?_ ?_
    · intro a ha
      have := h.core.fast_off ha
      exact ⟨this.1, this.2.2.2.1⟩
    · have := h.core.bin_length i
      omega
  · rw [h.counters.node_cnt]
    have hlen := h.core.length_le
    by_cases hz : c.tc.huge_list.size = 0
    · have hes : es = [] := by
        cases es with
        | nil => rfl
        | cons e t =>
          have := h.core.skip.height e (List.mem_cons_self _ _)
          omega
      subst hes
      have hnx := h.core.skip.above 0 (by omega) (by unfold skip_list_level_max; omega)
      obtain ⟨f, rfl⟩ : ∃ f, fuel = f + 1 := ⟨fuel - 1, by omega⟩
      unfold spec_huge_count
      rw [if_pos hnx]
      rfl
    · have hch := h.core.skip.chain 0 (by omega)
      have hl0 : level 0 es = es.map Prod.fst := level_zero (fun e he => (h.core.skip.height e he).1)
      have := huge_count_seg A h.core.align c.mem (level 0 es) _ fuel hch
        (fun a ha => h.core.skip.addr_level ha) (by rw [hl0, List.length_map]; omega)
      rw [this, hl0, List.length_map]
/-- Lists without repetition that are pairwise disjoint and lie below `N`
have at most `N` elements altogether. -/
theorem sum_length_le (k N : Nat) (L : Nat → List Nat) (hnd : ∀ t, t < k → (L t).Nodup)
    (hdisj : ∀ t u, t < k → u < k → t ≠ u → ∀ a, a ∈ L t → ¬ a ∈ L u)
    (hlt : ∀ t, t < k → ∀ a, a ∈ L t → a < N) :
    ((List.range k).map (fun t => (L t).length)).sum ≤ N := by
  have hn : ((List.range k).flatMap L).Nodup := by
    refine List.nodup_flatMap.2 ⟨fun t ht => hnd t (List.mem_range.1 ht), ?_⟩
    refine List.Pairwise.imp_of_mem ?_ (List.nodup_range k)
    intro t u ht hu htu
    exact List.disjoint_left.2
      (fun a ha => hdisj t u (List.mem_range.1 ht) (List.mem_range.1 hu) htu a ha)
  have hle := nodup_length_le hn (N := N) (by
    intro a ha
    obtain ⟨t, ht, hat⟩ := List.mem_flatMap.1 ha
    exact hlt t (List.mem_range.1 ht) a hat)
  rw [List.length_flatMap] at hle
  exact hle

/-- A map over the thread caches written as a map over their numbers. -/
theorem map_tls_range (tls : List TCMemPoolOneThread) (g : TCMemPoolOneThread → Nat)
    (f : Nat → Nat) (h : ∀ t tc, tls[t]? = some tc → g tc = f t) :
    tls.map g = (List.range tls.length).map f := by
  refine List.ext_getElem (by simp) ?_
  intro n h1 h2
  simp only [List.getElem_map, List.getElem_range]
  exact h n _ (List.getElem?_eq_getElem (by simpa using h1))

/-- The loop of `get_huge_stat` adds up `huge_node_cnt`, in `size_t`. -/
theorem huge_cnt_fold (tls : List TCMemPoolOneThread) (acc : Nat × Nat) (hacc : acc.1 < 2 ^ 64) :
    (tls.foldl (fun acc tc =>
        (tosize (acc.1 + tc.huge_node_cnt), tosize (acc.2 + tc.huge_size_sum))) acc).1 < 2 ^ 64 ∧
    (tls.foldl (fun acc tc =>
        (tosize (acc.1 + tc.huge_node_cnt), tosize (acc.2 + tc.huge_size_sum))) acc).1 % 2 ^ 64
      = (acc.1 + (tls.map fun tc => tc.huge_node_cnt).sum) % 2 ^ 64 := by
  induction tls generalizing acc with
  | nil => exact ⟨hacc, rfl⟩
  | cons t l ih =>
    have h1 := ih (tosize (acc.1 + t.huge_node_cnt), tosize (acc.2 + t.huge_size_sum))
      (Nat.mod_lt _ (by norm_num))
    simp only [List.foldl_cons, List.map_cons, List.sum_cons]
    refine ⟨h1.1, ?_⟩
    rw [h1.2]
    show (tosize (acc.1 + t.huge_node_cnt) + _) % 2 ^ 64 = _
    unfold tosize
    omega

/-- The counter of `fastbin[i]` of a thread cache, 0 when it has no such
bin. -/
theorem fastbin_fold_get (tls : List TCMemPoolOneThread) (fast : List Nat)
    (h : ∀ tc, tc ∈ tls → tc.m_freelist_head.length = fast.length) :
    ∃ fast1, tls.foldl
        (fun acc tc =>
          match acc with
          | none => none
          | some fast =>
            if tc.m_freelist_head.length ≤ fast.length then
              some (List.zipWith (fun x y => tosize (x + y)) fast
                (tc.m_freelist_head.map (fun h => h.cnt) ++
                  List.replicate (fast.length - tc.m_freelist_head.length) 0))
            else none)
        (some fast) = some fast1 ∧ fast1.length = fast.length ∧
      ∀ (i x : Nat), fast[i]? = some x → ∃ y, fast1[i]? = some y ∧ (x < 2 ^ 64 → y < 2 ^ 64) ∧
        y % 2 ^ 64 = (x + (tls.map fun tc =>
          ((tc.m_freelist_head[i]?).map (fun h : head_t => h.cnt)).getD 0).sum) % 2 ^ 64 := by
  induction tls generalizing fast with
  | nil => exact ⟨fast, rfl, rfl, fun i x hx => ⟨x, hx, fun h => h, rfl⟩⟩
  | cons t l ih =>
    have ht := h t (List.mem_cons_self _ _)
    have hl : (List.zipWith (fun x y => tosize (x + y)) fast
        (t.m_freelist_head.map (fun h => h.cnt) ++
          List.replicate (fast.length - t.m_freelist_head.length) 0)).length = fast.length := by
      simp [ht]
    obtain ⟨fast1, h1, h2, h3⟩ := ih _ (fun tc htc => by
      rw [hl]; exact h tc (List.mem_cons_of_mem _ htc))
    refine ⟨fast1, ?_, by rw [h2, hl], ?_⟩
    · simp only [List.foldl_cons, if_pos (le_of_eq ht)]
      exact h1
    · intro i x hx
      have hi : i < t.m_freelist_head.length := by
        rw [ht]
        exact (List.getElem?_eq_some_iff.1 hx).1
      have hget : t.m_freelist_head[i]? = some (t.m_freelist_head[i]) :=
        List.getElem?_eq_getElem hi
      obtain ⟨y, h4, h5, h6⟩ := h3 i (tosize (x + (t.m_freelist_head[i]).cnt)) (by
        rw [List.getElem?_zipWith, hx, ht, Nat.sub_self, List.replicate_zero, List.append_nil,
          List.getElem?_map, hget]
        rfl)
      refine ⟨y, h4, fun _ => h5 (Nat.mod_lt _ (by norm_num)), ?_⟩
      rw [h6]
      simp only [List.map_cons, List.sum_cons, hget, Option.map_some', Option.getD_some]
      unfold tosize
      omega

/-- The totals in the words of the specification are the sums of the
counters, when every counter is the number of blocks on its chain. -/
theorem spec_fastbin_total_eq (A : Nat) (m : Nat → Nat) (fuel i : Nat)
    (tls : List TCMemPoolOneThread)
    (h : ∀ tc, tc ∈ tls → ∃ hd, tc.m_freelist_head[i]? = some hd ∧
      spec_chain_blocks A m fuel hd.head = some hd.cnt) :
    spec_fastbin_total A m fuel i tls = some (tls.map fun tc =>
      ((tc.m_freelist_head[i]?).map (fun h : head_t => h.cnt)).getD 0).sum := by
  induction tls with
  | nil => rfl
  | cons t l ih =>
    obtain ⟨hd, h1, h2⟩ := h t (List.mem_cons_self _ _)
    unfold spec_fastbin_total
    simp only [h1, h2, ih (fun tc htc => h tc (List.mem_cons_of_mem _ htc)), List.map_cons,
      List.sum_cons, Option.map_some', Option.getD_some]

theorem spec_huge_total_eq (A : Nat) (m : Nat → Nat) (fuel : Nat)
    (tls : List TCMemPoolOneThread)
    (h : ∀ tc, tc ∈ tls →
      spec_huge_count A m fuel (tc.huge_list.next 0) = some tc.huge_node_cnt) :
    spec_huge_total A m fuel tls = some (tls.map fun tc => tc.huge_node_cnt).sum := by
  induction tls with
  | nil => rfl
  | cons t l ih =>
    unfold spec_huge_total
    simp only [h t (List.mem_cons_self _ _),
      ih (fun tc htc => h tc (List.mem_cons_of_mem _ htc)), List.map_cons, List.sum_cons]
/-- The view of the thread cache number `t`. -/
theorem ctx_of_get {mp : ThreadCacheMemPool} {t : Nat} {tc : TCMemPoolOneThread}
    (h : mp.tls[t]? = some tc) :
    mp.ctx t = some { tc := tc, mem := mp.buf, mp_fragment_size := mp.fragment_size } := by
  unfold ThreadCacheMemPool.ctx
  rw [h]

/-- In a pool that satisfies the invariant the free blocks of one fastbin
size are at most `used` many over all thread caches, and so are the free huge
blocks. -/
theorem PoolInv.count_le {P : Params} {mp : ThreadCacheMemPool} {live : List (Nat × Nat)}
    {FF : Nat → Nat → List Nat} {EE : Nat → List (Nat × Nat)} (h : PoolInv P mp live FF EE) :
    (∀ i, i < mp.m_fastbin_max_size / P.AlignSize →
      (mp.tls.map fun tc =>
        ((tc.m_freelist_head[i]?).map (fun h : head_t => h.cnt)).getD 0).sum ≤ mp.n) ∧
    (mp.tls.map fun tc => tc.huge_node_cnt).sum ≤ mp.n := by
  have hview : ∀ t, t < mp.tls.length → ∃ c, mp.ctx t = some c ∧
      Inv P.AlignSize mp.n c (FF t) (EE t) := by
    intro t ht
    obtain ⟨c, hc⟩ := ctx_exists ht
    exact ⟨c, hc, h.inv t c hc⟩
  constructor
  · intro i hi
    rw [map_tls_range mp.tls _ (fun t => (FF t i).length)]
    · refine sum_length_le _ _ (fun t => FF t i) ?_ ?_ ?_
      · intro t ht
        obtain ⟨c, _, hinv⟩ := hview t ht
        exact hinv.core.fast_nodup i
      · intro t u ht hu htu a ha hau
        obtain ⟨c, hc, hinv⟩ := hview t ht
        obtain ⟨cu, hcu, hinvu⟩ := hview u hu
        have hpos : 0 < (i + 1) * P.AlignSize := (hinv.core.fast_off ha).2.2.2.2.1
        exact h.sep t u c cu htu hc hcu a
          (Or.inl ⟨i, a, ha, Nat.le_refl _, by omega⟩)
          (Or.inl ⟨i, a, hau, Nat.le_refl _, by omega⟩)
      · intro t ht a ha
        obtain ⟨c, _, hinv⟩ := hview t ht
        exact (hinv.core.fast_off ha).2.2.2.2.2
    · intro t tc htc
      have hinv := h.inv t _ (ctx_of_get htc)
      have hlen := h.bins tc (List.getElem?_mem htc)
      have hget : tc.m_freelist_head[i]? = some (tc.m_freelist_head[i]) :=
        List.getElem?_eq_getElem (by rw [hlen]; exact hi)
      rw [hget]
      exact (hinv.core.fast_chain i _ hget).2
  · rw [map_tls_range mp.tls _ (fun t => ((EE t).map Prod.fst).length)]
    · refine sum_length_le _ _ (fun t => (EE t).map Prod.fst) ?_ ?_ ?_
      · intro t ht
        obtain ⟨c, _, hinv⟩ := hview t ht
        exact hinv.core.skip.nodup
      · intro t u ht hu htu a ha hau
        obtain ⟨c, hc, hinv⟩ := hview t ht
        obtain ⟨cu, hcu, hinvu⟩ := hview u hu
        obtain ⟨e, he, rfl⟩ := List.mem_map.1 ha
        obtain ⟨f, hf, hfe⟩ := List.mem_map.1 hau
        have h1 := (hinv.core.huge_pos he).2.1
        have h2 := (hinvu.core.huge_pos hf).2.1
        exact h.sep t u c cu htu hc hcu e.1
          (Or.inr (Or.inl ⟨e, he, Nat.le_refl _, by omega⟩))
          (Or.inr (Or.inl ⟨f, hf, le_of_eq hfe, by omega⟩))
      · intro t ht a ha
        obtain ⟨c, _, hinv⟩ := hview t ht
        obtain ⟨e, he, rfl⟩ := List.mem_map.1 ha
        exact (hinv.core.huge_pos he).2.2.1
    · intro t tc htc
      have hinv := h.inv t _ (ctx_of_get htc)
      rw [List.length_map]
      exact hinv.counters.node_cnt

/-- In a pool that satisfies the invariant every counter is the number of
blocks on its list, `get_fastbin` returns the total number of free blocks of
every size class, and `get_huge_stat` returns the number of free huge
blocks. -/
theorem PoolInv.counts {P : Params} {mp : ThreadCacheMemPool} {live : List (Nat × Nat)}
    {FF : Nat → Nat → List Nat} {EE : Nat → List (Nat × Nat)} (h : PoolInv P mp live FF EE)
    {fuel : Nat} (hfuel : mp.n < fuel) :
    (∀ tc, tc ∈ mp.tls →
      (∀ (i : Nat) (hd : head_t), tc.m_freelist_head[i]? = some hd →
        spec_chain_blocks P.AlignSize mp.buf fuel hd.head = some hd.cnt) ∧
      spec_huge_count P.AlignSize mp.buf fuel (tc.huge_list.next 0)
        = some tc.huge_node_cnt) ∧
    ∃ fast, get_fastbin P.AlignSize mp = some fast ∧
      fast.length = mp.m_fastbin_max_size / P.AlignSize ∧
      (∀ i, i < fast.length →
        spec_fastbin_total P.AlignSize mp.buf fuel i mp.tls = fast[i]?) ∧
      spec_huge_total P.AlignSize mp.buf fuel mp.tls = some (get_huge_stat mp).1 := by
  have hper : ∀ tc, tc ∈ mp.tls →
      (∀ (i : Nat) (hd : head_t), tc.m_freelist_head[i]? = some hd →
        spec_chain_blocks P.AlignSize mp.buf fuel hd.head = some hd.cnt) ∧
      spec_huge_count P.AlignSize mp.buf fuel (tc.huge_list.next 0)
        = some tc.huge_node_cnt := by
    intro tc htc
    obtain ⟨tid, c, hctx, rfl⟩ := tc_view htc
    obtain ⟨h1, h2, _⟩ := (h.inv tid c hctx).tc_counts hfuel
    rw [(ctx_fields hctx).2.1] at h1 h2
    exact ⟨fun i hd hget => (h1 i hd hget).1, h2⟩
  obtain ⟨hle1, hle2⟩ := h.count_le
  have hn : mp.n ≤ 2 ^ 62 := le_trans h.arena.used_le h.arena.cap_le
  refine ⟨hper, ?_⟩
  obtain ⟨fast1, h1, h2, h3⟩ := fastbin_fold_get mp.tls
    (List.replicate (mp.m_fastbin_max_size / P.AlignSize) 0)
    (fun tc htc => by rw [List.length_replicate]; exact h.bins tc htc)
  rw [List.length_replicate] at h2
  have h1a : get_fastbin P.AlignSize mp = some fast1 := h1
  refine ⟨fast1, h1a, h2, ?_, ?_⟩
  · intro i hi
    rw [h2] at hi
    obtain ⟨y, h4, h5, h6⟩ := h3 i 0 (by
      rw [List.getElem?_replicate, if_pos hi])
    have h7 := hle1 i hi
    have h8 := h5 (by norm_num)
    rw [h4, spec_fastbin_total_eq]
    · exact congrArg some (by omega)
    · intro tc htc
      have hlen := h.bins tc htc
      have hget : tc.m_freelist_head[i]? = some (tc.m_freelist_head[i]) :=
        List.getElem?_eq_getElem (by rw [hlen]; exact hi)
      exact ⟨_, hget, (hper tc htc).1 i _ hget⟩
  · rw [spec_huge_total_eq _ _ _ _ (fun tc htc => (hper tc htc).2)]
    obtain ⟨h4, h5⟩ := huge_cnt_fold mp.tls (0, 0) (by norm_num)
    have h6 : (get_huge_stat mp).1 % 2 ^ 64
        = (0 + (mp.tls.map fun tc => tc.huge_node_cnt).sum) % 2 ^ 64 := h5
    have h7 : (get_huge_stat mp).1 < 2 ^ 64 := h4
    exact congrArg some (by omega)
/-- The block that heads the list of the blocks handed out is apart from all
other blocks, handed out or free. -/
theorem PoolInv.head_apart {P : Params} {mp : ThreadCacheMemPool} {live : List (Nat × Nat)}
    {res r : Nat} {FF : Nat → Nat → List Nat} {EE : Nat → List (Nat × Nat)}
    (h : PoolInv P mp ((res, r) :: live) FF EE) :
    BlockApart P mp live res r FF EE := by
  obtain ⟨h1, _, _, h4, h5⟩ := h.live_ok (res, r) (List.mem_cons_self _ _)
  refine ⟨h4, (List.pairwise_cons.1 h.live_disj).1, ?_, ?_, ?_⟩
  · intro tid c hc i a ha
    have hpos := ((h.inv tid c hc).core.fast_off ha).2.2.2.2.1
    refine interval_disj h1 hpos ?_
    intro x hx1 hx2 hx3 hx4
    exact h5 tid c hc x hx1 hx2 (Or.inl ⟨i, a, ha, hx3, hx4⟩)
  · intro tid c hc e he
    have hpos := ((h.inv tid c hc).core.huge_pos he).2.1
    refine interval_disj h1 hpos ?_
    intro x hx1 hx2 hx3 hx4
    exact h5 tid c hc x hx1 hx2 (Or.inr (Or.inl ⟨e, he, hx3, hx4⟩))
  · intro tid c hc
    by_cases hhot : c.tc.m_hot_pos < c.tc.m_hot_end
    · have := interval_disj h1 (show 0 < c.tc.m_hot_end - c.tc.m_hot_pos by omega)
        (a := res) (p := c.tc.m_hot_pos) (by
          intro x hx1 hx2 hx3 hx4
          exact h5 tid c hc x hx1 hx2 (Or.inr (Or.inr ⟨hx3, by omega⟩)))
      omega
    · omega

/-- The block counters on bounded runs (the part of C21 that holds).  After
every valid sequence of `alloc`, `alloc3`, `sfree`, `sync_frag_size` and
`clean_for_reuse` calls, with requests of at most `2^61` bytes, on a fresh
pool whose capacity is below `2^32` bytes when `AlignSize` is 4
(`ArenaWF.cap_link`), in every thread cache the counter `cnt` of every fastbin is the number of blocks
linked from its head to `list_tail`, and `huge_node_cnt` is the number of
blocks linked on level 0 of the huge list (the lists are walked by
`spec_chain_blocks` and `spec_huge_count`).  So `get_fastbin` returns for
every size class the total number of free blocks of that size over all
thread caches, and `get_huge_stat` returns the total number of free huge
blocks. -/
theorem counters_count_blocks (P : Params) (fuel p cap fastbin_max_size chunk : Nat)
    (commit : Bool) (buf : Nat → Nat) (k : Nat) (ks : List Call)
    (hA : ValidAlign P.AlignSize)
    (har : ArenaWF P (fresh_pool P.AlignSize p cap fastbin_max_size chunk commit buf k))
    (hbig : sizeof_huge_link P.AlignSize ≤ fastbin_max_size) (hle : fastbin_max_size ≤ 2 ^ 61)
    (hfuel : cap + 2 < fuel)
    (hv : ValidRun P fuel ks
      (fresh_pool P.AlignSize p cap fastbin_max_size chunk commit buf k, [])) :
    ∃ mp live,
      run_calls P fuel ks (fresh_pool P.AlignSize p cap fastbin_max_size chunk commit buf k, [])
        = some (mp, live) ∧
      (∀ tc, tc ∈ mp.tls →
        (∀ (i : Nat) (hd : head_t), tc.m_freelist_head[i]? = some hd →
          spec_chain_blocks P.AlignSize mp.buf fuel hd.head = some hd.cnt) ∧
        spec_huge_count P.AlignSize mp.buf fuel (tc.huge_list.next 0)
          = some tc.huge_node_cnt) ∧
      ∃ fast, get_fastbin P.AlignSize mp = some fast ∧
        fast.length = mp.m_fastbin_max_size / P.AlignSize ∧
        (∀ i, i < fast.length →
          spec_fastbin_total P.AlignSize mp.buf fuel i mp.tls = fast[i]?) ∧
        spec_huge_total P.AlignSize mp.buf fuel mp.tls = some (get_huge_stat mp).1 := by
  obtain ⟨mp, live, FF, EE, hrun, hinv, hc⟩ :=
    reach_inv P fuel p cap fastbin_max_size chunk commit buf k ks hA har hbig hle hfuel hv
  have hn := hinv.arena.used_le
  exact ⟨mp, live, hrun, hinv.counts (by omega)⟩

theorem counters_count_blocks_witness :
    ∃ mp live,
      run_calls ex_params 8388611 ex_calls
        (fresh_pool ex_params.AlignSize 4194304 8388608 64 2097152 false (fun _ => 0) 1, [])
        = some (mp, live) ∧
      (∀ tc, tc ∈ mp.tls →
        (∀ (i : Nat) (hd : head_t), tc.m_freelist_head[i]? = some hd →
          spec_chain_blocks ex_params.AlignSize mp.buf 8388611 hd.head = some hd.cnt) ∧
        spec_huge_count ex_params.AlignSize mp.buf 8388611 (tc.huge_list.next 0)
          = some tc.huge_node_cnt) ∧
      ∃ fast, get_fastbin ex_params.AlignSize mp = some fast ∧
        fast.length = mp.m_fastbin_max_size / ex_params.AlignSize ∧
        (∀ i, i < fast.length →
          spec_fastbin_total ex_params.AlignSize mp.buf 8388611 i mp.tls = fast[i]?) ∧
        spec_huge_total ex_params.AlignSize mp.buf 8388611 mp.tls
          = some (get_huge_stat mp).1 :=
  counters_count_blocks ex_params 8388611 4194304 8388608 64 2097152 false (fun _ => 0) 1
    ex_calls ex_valid_align ex_fresh_arena (by decide) (by decide) (by decide) ex_calls_valid

/-- Live blocks on bounded runs (the part of C30 that holds).  Take any valid
sequence of `alloc`, `alloc3`, `sfree`, `sync_frag_size` and
`clean_for_reuse` calls on a fresh pool whose capacity is below `2^32` bytes
when `AlignSize` is 4 (`ArenaWF.cap_link`), with requests of at most `2^61`
bytes, in which `sfree` and `alloc3` are applied to blocks that are handed
out, with their length.  It leads to a pool that satisfies the invariant, in
which the blocks handed out are pairwise disjoint (`live_disj`).  A
further valid `alloc` or `alloc3` returns; unless it fails, the block
`[res, res + r)` it returns, `r` being the request rounded up to `AlignSize`,
lies inside `[0, used)` and is disjoint from every other block handed out,
from every block on a fastbin or on a huge list of any thread cache, and from
every hot region that is not empty; the free blocks are those of the
invariant of the new pool. -/
theorem live_blocks_disjoint (P : Params) (fuel p cap fastbin_max_size chunk : Nat)
    (commit : Bool) (buf : Nat → Nat) (k : Nat) (ks : List Call)
    (hA : ValidAlign P.AlignSize)
    (har : ArenaWF P (fresh_pool P.AlignSize p cap fastbin_max_size chunk commit buf k))
    (hbig : sizeof_huge_link P.AlignSize ≤ fastbin_max_size) (hle : fastbin_max_size ≤ 2 ^ 61)
    (hfuel : cap + 2 < fuel)
    (hv : ValidRun P fuel ks
      (fresh_pool P.AlignSize p cap fastbin_max_size chunk commit buf k, [])) :
    ∃ mp live FF EE,
      run_calls P fuel ks (fresh_pool P.AlignSize p cap fastbin_max_size chunk commit buf k, [])
        = some (mp, live) ∧
      PoolInv P mp live FF EE ∧
      (∀ tid request, ValidCall P (mp, live) (Call.alloc tid request) →
        ∃ res mp1 FF1 EE1, mp.alloc P fuel tid request = some (res, mp1) ∧
          (res = size_fail ∨
            (PoolInv P mp1 ((res, pow2_align_up request P.AlignSize) :: live) FF1 EE1 ∧
              BlockApart P mp1 live res (pow2_align_up request P.AlignSize) FF1 EE1))) ∧
      (∀ tid oldpos oldlen newlen,
        ValidCall P (mp, live) (Call.alloc3 tid oldpos oldlen newlen) →
        ∃ res mp1 FF1 EE1, mp.alloc3 P fuel tid oldpos oldlen newlen = some (res, mp1) ∧
          (res = size_fail ∨
            (PoolInv P mp1 ((res, pow2_align_up newlen P.AlignSize) ::
                live.erase (oldpos, pow2_align_up oldlen P.AlignSize)) FF1 EE1 ∧
              BlockApart P mp1 (live.erase (oldpos, pow2_align_up oldlen P.AlignSize)) res
                (pow2_align_up newlen P.AlignSize) FF1 EE1))) := by
  obtain ⟨mp, live, FF, EE, hrun, hinv, hc⟩ :=
    reach_inv P fuel p cap fastbin_max_size chunk commit buf k ks hA har hbig hle hfuel hv
  refine ⟨mp, live, FF, EE, hrun, hinv, ?_, ?_⟩
  · intro tid request hcall
    obtain ⟨res, mp1, FF1, EE1, h1, _, h3⟩ :=
      pool_alloc_global P fuel mp live FF EE tid request hinv (by omega) hcall
    refine ⟨res, mp1, FF1, EE1, h1, ?_⟩
    by_cases hres : res = size_fail
    · exact Or.inl hres
    · rw [if_neg hres] at h3
      exact Or.inr ⟨h3, h3.head_apart⟩
  · intro tid oldpos oldlen newlen hcall
    obtain ⟨res, mp1, _, _, FF1, EE1, _, h1, _, _, h3, _⟩ :=
      pool_alloc3_global P fuel mp live FF EE tid oldpos oldlen newlen hinv (by omega) hcall
    refine ⟨res, mp1, FF1, EE1, h1, ?_⟩
    by_cases hres : res = size_fail
    · exact Or.inl hres
    · rw [if_neg hres] at h3
      exact Or.inr ⟨h3, h3.head_apart⟩

theorem live_blocks_disjoint_witness :
    ∃ mp live FF EE,
      run_calls ex_params 8388611 ex_calls
        (fresh_pool ex_params.AlignSize 4194304 8388608 64 2097152 false (fun _ => 0) 1, [])
        = some (mp, live) ∧
      PoolInv ex_params mp live FF EE ∧
      (∀ tid request, ValidCall ex_params (mp, live) (Call.alloc tid request) →
        ∃ res mp1 FF1 EE1, mp.alloc ex_params 8388611 tid request = some (res, mp1) ∧
          (res = size_fail ∨
            BlockApart ex_params mp1 live res (pow2_align_up request ex_params.AlignSize)
              FF1 EE1)) := by
  obtain ⟨mp, live, FF, EE, h1, h2, h3, _⟩ :=
    live_blocks_disjoint ex_params 8388611 4194304 8388608 64 2097152 false (fun _ => 0) 1
      ex_calls ex_valid_align ex_fresh_arena (by decide) (by decide) (by decide) ex_calls_valid
  refine ⟨mp, live, FF, EE, h1, h2, ?_⟩
  intro tid request hcall
  obtain ⟨res, mp1, FF1, EE1, h4, h5⟩ := h3 tid request hcall
  exact ⟨res, mp1, FF1, EE1, h4, h5.elim Or.inl (fun h => Or.inr h.2)⟩

theorem encode_loop_decode (m : Nat) (hm : m ≠ 0) (s : List Nat) (room : Nat) (enc : List Nat)
    (tail : List Nat) (h : encode_00_0n_loop m s room = Except.ok enc) (droom : Nat)
    (hd : s.length < droom) :
    decode_00_0n_loop (enc ++ tail) droom = Except.ok (s, enc.length) ∧
      end_of_00_0n (enc ++ tail) = Except.ok enc.length := by
  induction s generalizing room enc droom with
  | nil =>
    unfold encode_00_0n_loop at h
    split at h
    · cases h
      have hd0 : droom ≠ 0 := by simp at hd; omega
      constructor
      · show decode_00_0n_loop (0 :: m :: tail) droom = _
        simp only [decode_00_0n_loop, if_neg hd0, ne_eq, not_true_eq_false, if_false, hm,
          not_false_eq_true, if_true]
        rfl
      · show end_of_00_0n (0 :: m :: tail) = _
        simp only [end_of_00_0n, ne_eq, not_true_eq_false, if_false, hm, not_false_eq_true,
          if_true]
        rfl
    · cases h
  | cons b rest ih =>
    unfold encode_00_0n_loop at h
    have hd0 : droom ≠ 0 := by omega
    have hd1 : rest.length < droom - 1 := by simp at hd; omega
    split at h
    · cases h
    · split at h
      · rename_i hb
        cases henc : encode_00_0n_loop m rest (room - 1) with
        | error e => rw [henc] at h; cases h
        | ok out =>
          rw [henc] at h
          cases h
          obtain ⟨h1, h2⟩ := ih (room - 1) out henc (droom - 1) hd1
          constructor
          · show decode_00_0n_loop (b :: (out ++ tail)) droom = _
            cases hx : out ++ tail with
            | nil => rw [hx] at h1; simp [decode_00_0n_loop] at h1; split at h1 <;> cases h1
            | cons b1 r =>
              rw [hx] at h1
              simp only [decode_00_0n_loop, if_neg hd0, if_pos hb, h1]
              rfl
          · show end_of_00_0n (b :: (out ++ tail)) = _
            cases hx : out ++ tail with
            | nil => rw [hx] at h2; simp [end_of_00_0n] at h2
            | cons b1 r =>
              rw [hx] at h2
              simp only [end_of_00_0n, if_pos hb, h2]
              rfl
      · rename_i hb
        have hb0 : b = 0 := by simpa using hb
        subst hb0
        split at h
        · cases h
        · cases henc : encode_00_0n_loop m rest (room - 2) with
          | error e => rw [henc] at h; cases h
          | ok out =>
            rw [henc] at h
            cases h
            obtain ⟨h1, h2⟩ := ih (room - 2) out henc (droom - 1) hd1
            constructor
            · show decode_00_0n_loop (0 :: 0 :: (out ++ tail)) droom = _
              simp only [decode_00_0n_loop, if_neg hd0, ne_eq, not_true_eq_false, if_false, h1]
              rfl
            · show end_of_00_0n (0 :: 0 :: (out ++ tail)) = _
              simp only [end_of_00_0n, ne_eq, not_true_eq_false, if_false, h2]
              rfl

/-- C27: `decode_00_0n` undoes `encode_00_0n`.  Let `enc` be the bytes that
`encode_00_0n` wrote for the input `s` and the nonzero end mark `m`, followed
in memory by any bytes `tail`.  Decoding into an output buffer with room for
more than `|s|` bytes writes exactly the bytes of `s` (so the pointer
returned is `obeg + |s|`, and the ending pair is not written) and sets
`*ires` to `ibeg + |enc|`, the end of the encoding; `end_of_00_0n` returns
the same position. -/
theorem decode_undoes_encode (s : List Nat) (m room : Nat) (enc tail : List Nat) (droom : Nat)
    (hm : m ≠ 0) (henc : encode_00_0n s room m = Except.ok enc) (hd : s.length < droom) :
    decode_00_0n (enc ++ tail) droom = Except.ok (s, enc.length) ∧
      end_of_00_0n (enc ++ tail) = Except.ok enc.length := by
  unfold encode_00_0n at henc
  rw [if_neg hm] at henc
  exact encode_loop_decode m hm s room enc tail henc droom hd

theorem decode_undoes_encode_witness :
    decode_00_0n ([1, 0, 0, 2, 0, 7] ++ [9]) 4 = Except.ok ([1, 0, 2], 6) ∧
      end_of_00_0n ([1, 0, 0, 2, 0, 7] ++ [9]) = Except.ok 6 :=
  decode_undoes_encode [1, 0, 2] 7 6 [1, 0, 0, 2, 0, 7] [9] 4 (by decide) rfl (by decide)

/-! ## `erase_if` of the string vectors -/

theorem read_bytes_congr {d1 d2 : Nat → Nat} {pos len : Nat}
    (h : ∀ x, pos ≤ x → x < pos + len → d1 x = d2 x) :
    read_bytes d1 pos len = read_bytes d2 pos len := by
  unfold read_bytes
  refine List.map_congr_left ?_
  intro d hd
  exact h _ (Nat.le_add_right _ _) (by have := List.mem_range.1 hd; omega)

theorem read_bytes_memmove (data : Nat → Nat) (dst src len : Nat) :
    read_bytes (memmove_bytes data dst src len) dst len = read_bytes data src len := by
  unfold read_bytes
  refine List.map_congr_left ?_
  intro d hd
  have := List.mem_range.1 hd
  unfold memmove_bytes
  rw [if_pos ⟨Nat.le_add_right _ _, by omega⟩, Nat.add_sub_cancel_left]

theorem packed_entries_offset (start : Nat) (es : List SEntry) :
    (packed_entries start es).map (fun e => e.offset)
      = packed_offsets start (es.map fun e => e.length) := by
  induction es generalizing start with
  | nil => rfl
  | cons e es ih =>
    unfold packed_entries
    simp only [List.map_cons, packed_offsets, ih]

theorem packed_entries_length (start : Nat) (es : List SEntry) :
    (packed_entries start es).map (fun e => e.length) = es.map fun e => e.length := by
  induction es generalizing start with
  | nil => rfl
  | cons e es ih =>
    unfold packed_entries
    simp only [List.map_cons, ih]

theorem packed_entries_seq_id (start : Nat) (es : List SEntry) :
    (packed_entries start es).map (fun e => e.seq_id) = es.map fun e => e.seq_id := by
  induction es generalizing start with
  | nil => rfl
  | cons e es ih =>
    unfold packed_entries
    simp only [List.map_cons, ih]

theorem packed_entries_len (start : Nat) (es : List SEntry) :
    (packed_entries start es).length = es.length := by
  rw [← List.length_map (packed_entries start es) (fun e => e.length), packed_entries_length,
    List.length_map]

/-- The loop of `erase_if` on entries that are stored one after the other
without overlap, at or after the write position: the kept entries are
appended with their strings packed from the write position on, the bytes
below the write position are untouched, and the strings are those of the
buffer before the loop. -/
theorem erase_loop_ok (w : Nat) (pred : List Nat → Bool) (cap : Nat) (rest : List SEntry) :
    ∀ (out : List SEntry) (data : Nat → Nat) (off : Nat),
    rest.Pairwise (fun e f => e.offset + e.length ≤ f.offset) →
    (∀ e, e ∈ rest → off ≤ e.offset ∧ e.offset + e.length ≤ cap ∧ e.offset < 2 ^ w ∧
      e.length < 2 ^ 20) →
    ∃ data1,
      erase_if_loop w pred cap rest out data off
        = some (out ++ packed_entries off
              (rest.filter fun e => !pred (read_bytes data e.offset e.length)),
            data1,
            off + ((rest.filter fun e => !pred (read_bytes data e.offset e.length)).map
              fun e => e.length).sum) ∧
      (∀ x, x < off → data1 x = data x) ∧
      (packed_entries off
          (rest.filter fun e => !pred (read_bytes data e.offset e.length))).map
          (fun e => read_bytes data1 e.offset e.length)
        = (rest.filter fun e => !pred (read_bytes data e.offset e.length)).map
          (fun e => read_bytes data e.offset e.length) := by
  induction rest with
  | nil =>
    intro out data off _ _
    exact ⟨data, by simp [erase_if_loop, packed_entries], fun _ _ => rfl, rfl⟩
  | cons e rest ih =>
    intro out data off hs hall
    obtain ⟨hs1, hs2⟩ := List.pairwise_cons.1 hs
    obtain ⟨he1, he2, he3, he4⟩ := hall e (List.mem_cons_self _ _)
    by_cases hp : pred (read_bytes data e.offset e.length) = true
    · obtain ⟨data1, h1, h2, h3⟩ := ih out data off hs2 (fun f hf => by
        obtain ⟨h5, h6⟩ := hall f (List.mem_cons_of_mem _ hf)
        exact ⟨h5, h6⟩)
      refine ⟨data1, ?_, h2, ?_⟩
      · unfold erase_if_loop
        rw [if_neg (by omega), if_pos hp, h1]
        simp [List.filter_cons, hp]
      · simpa [List.filter_cons, hp] using h3
    · have hp0 : pred (read_bytes data e.offset e.length) = false := by
        simpa using hp
      have hcongr : ∀ f, f ∈ rest →
          read_bytes (memmove_bytes data off e.offset e.length) f.offset f.length
            = read_bytes data f.offset f.length := by
        intro f hf
        refine read_bytes_congr ?_
        intro x hx1 hx2
        have := hs1 f hf
        unfold memmove_bytes
        rw [if_neg (by omega)]
      have hfilter : (rest.filter fun f =>
            !pred (read_bytes (memmove_bytes data off e.offset e.length) f.offset f.length))
          = rest.filter fun f => !pred (read_bytes data f.offset f.length) := by
        refine List.filter_congr ?_
        intro f hf
        rw [hcongr f hf]
      obtain ⟨data1, h1, h2, h3⟩ := ih
        (out ++ [{ offset := off % 2 ^ w, length := e.length % 2 ^ 20, seq_id := e.seq_id }])
        (memmove_bytes data off e.offset e.length) (off + e.length) hs2 (fun f hf => by
          obtain ⟨h5, h6⟩ := hall f (List.mem_cons_of_mem _ hf)
          have := hs1 f hf
          exact ⟨by omega, h6⟩)
      rw [hfilter] at h1 h3
      have hmod1 : off % 2 ^ w = off := Nat.mod_eq_of_lt (by omega)
      have hmod2 : e.length % 2 ^ 20 = e.length := Nat.mod_eq_of_lt he4
      refine ⟨data1, ?_, ?_, ?_⟩
      · unfold erase_if_loop
        rw [if_neg (by omega), if_neg hp, if_neg (by omega), h1, hmod1, hmod2]
        simp [List.filter_cons, hp0, packed_entries, Nat.add_assoc]
      · intro x hx
        rw [h2 x (by omega)]
        unfold memmove_bytes
        rw [if_neg (by omega)]
      · simp only [List.filter_cons, hp0, Bool.not_false, if_true, packed_entries,
          List.map_cons]
        refine congrArg₂ List.cons ?_ ?_
        · rw [read_bytes_congr (fun x _ hx2 => h2 x hx2)]
          exact read_bytes_memmove data off e.offset e.length
        · rw [h3]
          refine List.map_congr_left ?_
          intro f hf
          exact hcongr f (List.mem_filter.1 hf).1
/-- The loop of `SortThinStrVec::erase_if` is the loop of
`SortableStrVec::erase_if` for a 44-bit offset, on entries without sequence
numbers. -/
theorem thin_loop_eq (pred : List Nat → Bool) (cap : Nat) (rest : List ThinEntry) :
    ∀ (out : List ThinEntry) (data : Nat → Nat) (off : Nat),
    thin_erase_if_loop pred cap rest out data off
      = (erase_if_loop 44 pred cap (rest.map ThinEntry.up) (out.map ThinEntry.up) data off).map
          (fun r => (r.1.map SEntry.down, r.2)) := by
  induction rest with
  | nil =>
    intro out data off
    simp [thin_erase_if_loop, erase_if_loop, List.map_map, Function.comp_def, ThinEntry.up,
      SEntry.down]
  | cons e rest ih =>
    intro out data off
    unfold thin_erase_if_loop
    rw [List.map_cons]
    unfold erase_if_loop
    by_cases h1 : cap < e.offset + e.length
    · rw [if_pos h1, if_pos (show cap < e.up.offset + e.up.length from h1)]
      rfl
    · rw [if_neg h1, if_neg (show ¬ cap < e.up.offset + e.up.length from h1)]
      by_cases h2 : pred (read_bytes data e.offset e.length) = true
      · rw [if_pos h2, if_pos (show pred (read_bytes data e.up.offset e.up.length) = true from h2)]
        exact ih out data off
      · rw [if_neg h2,
          if_neg (show ¬ pred (read_bytes data e.up.offset e.up.length) = true from h2)]
        by_cases h3 : cap < off + e.length
        · rw [if_pos h3, if_pos (show cap < off + e.up.length from h3)]
          rfl
        · rw [if_neg h3, if_neg (show ¬ cap < off + e.up.length from h3), ih]
          simp only [List.map_append, List.map_cons, List.map_nil]
          rfl

theorem filter_up (p : Nat → Nat → Bool) (es : List ThinEntry) :
    (es.map ThinEntry.up).filter (fun e => p e.offset e.length)
      = (es.filter fun e => p e.offset e.length).map ThinEntry.up := by
  induction es with
  | nil => rfl
  | cons e es ih =>
    simp only [List.map_cons, List.filter_cons, ih]
    by_cases h : p e.offset e.length = true
    · simp [h, ThinEntry.up]
    · simp [h, ThinEntry.up]

/-- C28 (counterexample): `erase_if` on a vector whose strings share storage.
The index of `ex_strvec_shared` is sorted by offset and its strings `"a"`,
`"a"`, `"b"` lie inside the pool `"ab"`.  `erase_if` with a predicate that is
false for every string returns 3, but the third string of the result is
`"a"`: the copy of the second string to offset 1 has overwritten the byte of
the third, and the pool has grown to 3 bytes. -/
theorem erase_if_shared_pool :
    ex_strvec_shared.m_index.Pairwise (fun e f => e.offset ≤ f.offset) ∧
    (∀ e, e ∈ ex_strvec_shared.m_index → e.offset + e.length ≤ ex_strvec_shared.pool_size) ∧
    ex_strvec_shared.m_index.map ex_strvec_shared.str = [[97], [97], [98]] ∧
    ∃ v, ex_strvec_shared.erase_if (fun _ => false) = some (3, v) ∧
      v.m_index.map v.str = [[97], [97], [97]] ∧ v.pool_size = 3 :=
  ⟨by decide, by decide, by rfl, _, rfl, rfl, rfl⟩

/-- C28 (amended): `erase_if` packs the strings that are kept.  For a
`SortableStrVec` and a `SortThinStrVec` whose strings are stored one after the
other without overlap (every string ends at or before the offset of the
next) inside the pool, and every predicate: `erase_if` returns the number of
strings for which the predicate is false; the strings of the vector
afterwards are these strings, byte for byte and in their order, with their
lengths (and, for a `SortableStrVec`, their `seq_id`); they are stored back
to back from offset 0; and the size of the pool is the sum of their
lengths. -/
theorem erase_if_packs (pred : List Nat → Bool) (v : SortableStrVec) (t : SortThinStrVec)
    (hv1 : v.m_index.Pairwise (fun e f => e.offset + e.length ≤ f.offset))
    (hv2 : ∀ e, e ∈ v.m_index → e.offset + e.length ≤ v.pool_size)
    (hv3 : v.pool_size ≤ v.pool_cap)
    (hv4 : ∀ e, e ∈ v.m_index → e.offset < 2 ^ 40 ∧ e.length < 2 ^ 20)
    (ht1 : t.m_index.Pairwise (fun e f => e.offset + e.length ≤ f.offset))
    (ht2 : ∀ e, e ∈ t.m_index → e.offset + e.length ≤ t.pool_size)
    (ht3 : t.pool_size ≤ t.pool_cap)
    (ht4 : ∀ e, e ∈ t.m_index → e.offset < 2 ^ 44 ∧ e.length < 2 ^ 20) :
    (∃ v1, v.erase_if pred
        = some ((v.m_index.filter fun e => !pred (v.str e)).length, v1) ∧
      v1.m_index.map v1.str = (v.m_index.filter fun e => !pred (v.str e)).map v.str ∧
      v1.m_index.map (fun e => e.seq_id)
        = (v.m_index.filter fun e => !pred (v.str e)).map (fun e => e.seq_id) ∧
      v1.m_index.map (fun e => e.length)
        = (v.m_index.filter fun e => !pred (v.str e)).map (fun e => e.length) ∧
      v1.m_index.map (fun e => e.offset)
        = packed_offsets 0 ((v.m_index.filter fun e => !pred (v.str e)).map fun e => e.length) ∧
      v1.pool_size
        = ((v.m_index.filter fun e => !pred (v.str e)).map fun e => e.length).sum) ∧
    (∃ t1, t.erase_if pred
        = some ((t.m_index.filter fun e => !pred (t.str e)).length, t1) ∧
      t1.m_index.map t1.str = (t.m_index.filter fun e => !pred (t.str e)).map t.str ∧
      t1.m_index.map (fun e => e.length)
        = (t.m_index.filter fun e => !pred (t.str e)).map (fun e => e.length) ∧
      t1.m_index.map (fun e => e.offset)
        = packed_offsets 0 ((t.m_index.filter fun e => !pred (t.str e)).map fun e => e.length) ∧
      t1.pool_size
        = ((t.m_index.filter fun e => !pred (t.str e)).map fun e => e.length).sum) := by
  constructor
  · obtain ⟨data1, h1, _, h3⟩ := erase_loop_ok 40 pred v.pool_cap v.m_index [] v.data 0 hv1
      (fun e he => ⟨Nat.zero_le _, le_trans (hv2 e he) hv3, hv4 e he⟩)
    rw [List.nil_append, Nat.zero_add] at h1
    refine ⟨SortableStrVec.mk data1
      (((v.m_index.filter fun e => !pred (read_bytes v.data e.offset e.length)).map
        fun e => e.length).sum) v.pool_cap
      (packed_entries 0
        (v.m_index.filter fun e => !pred (read_bytes v.data e.offset e.length))),
      ?_, ?_, ?_, ?_, ?_, ?_⟩
    · unfold SortableStrVec.erase_if
      rw [h1]
      simp only [packed_entries_len]
      rfl
    · exact h3
    · exact packed_entries_seq_id _ _
    · exact packed_entries_length _ _
    · exact packed_entries_offset _ _
    · rfl
  · have hrun := thin_loop_eq pred t.pool_cap t.m_index [] t.data 0
    obtain ⟨data1, h1, _, h3⟩ := erase_loop_ok 44 pred t.pool_cap (t.m_index.map ThinEntry.up)
      [] t.data 0
      (by
        rw [List.pairwise_map]
        exact ht1)
      (fun e he => by
        obtain ⟨f, hf, rfl⟩ := List.mem_map.1 he
        exact ⟨Nat.zero_le _, le_trans (ht2 f hf) ht3, ht4 f hf⟩)
    have hf := filter_up (fun o l => !pred (read_bytes t.data o l)) t.m_index
    rw [hf] at h1 h3
    rw [List.nil_append, Nat.zero_add] at h1
    rw [List.map_nil, h1] at hrun
    refine ⟨SortThinStrVec.mk data1
      (((t.m_index.filter fun e => !pred (read_bytes t.data e.offset e.length)).map
        fun e => e.length).sum) t.pool_cap
      ((packed_entries 0
        ((t.m_index.filter fun e => !pred (read_bytes t.data e.offset e.length)).map
          ThinEntry.up)).map SEntry.down),
      ?_, ?_, ?_, ?_, ?_⟩
    · unfold SortThinStrVec.erase_if
      rw [hrun]
      simp only [Option.map_some', List.length_map, packed_entries_len, List.map_map]
      rfl
    · show (List.map SEntry.down _).map _ = _
      rw [List.map_map]
      rw [List.map_map] at h3
      exact h3
    · show (List.map SEntry.down _).map _ = _
      rw [List.map_map]
      have := packed_entries_length 0
        ((t.m_index.filter fun e => !pred (read_bytes t.data e.offset e.length)).map
          ThinEntry.up)
      rw [List.map_map] at this
      exact this
    · show (List.map SEntry.down _).map _ = _
      rw [List.map_map]
      have := packed_entries_offset 0
        ((t.m_index.filter fun e => !pred (read_bytes t.data e.offset e.length)).map
          ThinEntry.up)
      rw [List.map_map] at this
      exact this
    · show _ = _
      simp only [List.map_map]
      rfl

theorem erase_if_packs_witness :
    (∃ v1, ex_strvec_plain.erase_if (fun s => s.length == 1) = some (2, v1) ∧
      v1.m_index.map v1.str = [[97, 98], [100, 101]] ∧
      v1.m_index.map (fun e => e.seq_id) = [4, 6] ∧
      v1.m_index.map (fun e => e.offset) = [0, 2] ∧ v1.pool_size = 4) ∧
    (∃ t1, ex_thinvec_plain.erase_if (fun s => s.length == 1) = some (2, t1) ∧
      t1.m_index.map t1.str = [[97, 98], [100, 101]] ∧
      t1.m_index.map (fun e => e.offset) = [0, 2] ∧ t1.pool_size = 4) := by
  obtain ⟨⟨v1, h1, h2, h3, _, h5, h6⟩, ⟨t1, g1, g2, _, g4, g5⟩⟩ :=
    erase_if_packs (fun s => s.length == 1) ex_strvec_plain ex_thinvec_plain
      (by decide) (by decide) (by decide) (by decide) (by decide) (by decide) (by decide)
      (by decide)
  exact ⟨⟨v1, h1, h2, h3, h5, h6⟩, ⟨t1, g1, g2, g4, g5⟩⟩

/-! ## The Patricia trie -/

theorem match_label_spec (lab : List Nat) : ∀ key : List Nat,
    match match_label lab key with
    | LabelMatch.full r => key = lab ++ r
    | LabelMatch.key_ends c l lr => lab = c ++ l :: lr ∧ key = c
    | LabelMatch.mismatch c l lr k kr => lab = c ++ l :: lr ∧ key = c ++ k :: kr ∧ l ≠ k := by
  induction lab with
  | nil => intro key; simp [match_label]
  | cons l ls ih =>
    intro key
    cases key with
    | nil => simp [match_label]
    | cons k ks =>
      have h := ih ks
      by_cases hlk : l = k
      · subst hlk
        simp only [match_label, if_true]
        cases hm : match_label ls ks with
        | full r => rw [hm] at h; simpa using h
        | key_ends c l1 r => rw [hm] at h; simpa using h
        | mismatch c l1 lr k1 kr => rw [hm] at h; simpa using h
      · simp [match_label, hlk]

theorem TrieKids.lookup_node (c : Nat) (lab : List Nat) (val : Option Nat) (kids next : TrieKids)
    (b : Nat) (key : List Nat) :
    (TrieKids.node c lab val kids next).lookup b key =
      if b = c then TrieKids.walk lab val kids key else next.lookup b key := rfl

theorem TrieKids.lookup_nil (b : Nat) (key : List Nat) : TrieKids.nil.lookup b key = none := rfl

theorem TrieKids.walk_nil (val : Option Nat) (kids : TrieKids) (key : List Nat) :
    TrieKids.walk [] val kids key =
      match key with
      | [] => val
      | d :: r => kids.lookup d r := by
  cases key <;> rfl

theorem TrieKids.walk_cons_nil (l : Nat) (ls : List Nat) (val : Option Nat) (kids : TrieKids) :
    TrieKids.walk (l :: ls) val kids [] = none := rfl

theorem TrieKids.walk_cons (l : Nat) (ls : List Nat) (val : Option Nat) (kids : TrieKids)
    (k : Nat) (ks : List Nat) :
    TrieKids.walk (l :: ls) val kids (k :: ks) =
      if l = k then TrieKids.walk ls val kids ks else none := by
  by_cases hlk : l = k
  · subst hlk
    simp only [TrieKids.walk, match_label, if_true]
    cases hm : match_label ls ks with
    | full r => cases r <;> rfl
    | key_ends c l1 r => rfl
    | mismatch c l1 lr k1 kr => rfl
  · simp [TrieKids.walk, match_label, hlk]
theorem TrieKids.walk_self (lab : List Nat) (val : Option Nat) (kids : TrieKids) :
    TrieKids.walk lab val kids lab = val := by
  induction lab with
  | nil => rfl
  | cons l ls ih => rw [TrieKids.walk_cons, if_pos rfl, ih]

theorem TrieKids.walk_leaf (lab : List Nat) (val : Option Nat) (key : List Nat) :
    TrieKids.walk lab val TrieKids.nil key = if key = lab then val else none := by
  induction lab generalizing key with
  | nil =>
    cases key with
    | nil => rfl
    | cons d r => simp [TrieKids.walk_nil, TrieKids.lookup_nil]
  | cons l ls ih =>
    cases key with
    | nil => simp [TrieKids.walk_cons_nil]
    | cons k ks =>
      rw [TrieKids.walk_cons, ih]
      by_cases hlk : l = k
      · subst hlk; simp
      · have : ¬ k = l := fun h => hlk h.symm
        simp [hlk, this]

theorem TrieKids.walk_value (lab : List Nat) (v1 val : Option Nat) (kids : TrieKids)
    (key : List Nat) :
    TrieKids.walk lab v1 kids key = if key = lab then v1 else TrieKids.walk lab val kids key := by
  induction lab generalizing key with
  | nil =>
    cases key with
    | nil => rfl
    | cons d r => simp [TrieKids.walk_nil]
  | cons l ls ih =>
    cases key with
    | nil => simp [TrieKids.walk_cons_nil]
    | cons k ks =>
      rw [TrieKids.walk_cons, TrieKids.walk_cons, ih ks]
      by_cases hlk : l = k
      · subst hlk; simp
      · have : ¬ k = l := fun h => hlk h.symm
        simp [hlk, this]

theorem TrieKids.walk_kids (lab : List Nat) (val : Option Nat) (kids kids1 : TrieKids)
    (d : Nat) (r : List Nat) (x : Option Nat)
    (h : ∀ (d2 : Nat) (r2 : List Nat),
      kids1.lookup d2 r2 = if d2 = d ∧ r2 = r then x else kids.lookup d2 r2)
    (key : List Nat) :
    TrieKids.walk lab val kids1 key =
      if key = lab ++ d :: r then x else TrieKids.walk lab val kids key := by
  induction lab generalizing key with
  | nil =>
    cases key with
    | nil => simp [TrieKids.walk_nil]
    | cons k ks => simp [TrieKids.walk_nil, h]
  | cons l ls ih =>
    cases key with
    | nil => simp [TrieKids.walk_cons_nil]
    | cons k ks =>
      rw [TrieKids.walk_cons, TrieKids.walk_cons, ih ks]
      by_cases hlk : l = k
      · subst hlk; simp
      · have : ¬ k = l := fun h => hlk h.symm
        simp [hlk, this]

theorem TrieKids.walk_split (c : List Nat) (v1 : Option Nat) (l : Nat) (lr : List Nat)
    (val : Option Nat) (kids : TrieKids) (key : List Nat) :
    TrieKids.walk c v1 (TrieKids.node l lr val kids TrieKids.nil) key =
      if key = c then v1 else TrieKids.walk (c ++ l :: lr) val kids key := by
  induction c generalizing key with
  | nil =>
    cases key with
    | nil => simp [TrieKids.walk_nil]
    | cons k ks =>
      simp only [TrieKids.walk_nil, TrieKids.lookup_node, TrieKids.lookup_nil, List.nil_append,
        TrieKids.walk_cons]
      by_cases hlk : l = k
      · subst hlk; simp
      · have : ¬ k = l := fun h => hlk h.symm
        simp [hlk, this]
  | cons x xs ih =>
    cases key with
    | nil => simp [TrieKids.walk_cons_nil]
    | cons k ks =>
      rw [List.cons_append, TrieKids.walk_cons, TrieKids.walk_cons, ih ks]
      by_cases hlk : x = k
      · subst hlk; simp
      · have : ¬ k = x := fun h => hlk h.symm
        simp [hlk, this]

theorem TrieKids.walk_fork (c : List Nat) (l : Nat) (lr : List Nat) (val : Option Nat)
    (kids : TrieKids) (k : Nat) (kr : List Nat) (slot : Nat) (hlk : l ≠ k) (key : List Nat) :
    TrieKids.walk c none
        (if l < k then
          TrieKids.node l lr val kids (TrieKids.node k kr (some slot) TrieKids.nil TrieKids.nil)
        else
          TrieKids.node k kr (some slot) TrieKids.nil (TrieKids.node l lr val kids TrieKids.nil))
        key =
      if key = c ++ k :: kr then some slot else TrieKids.walk (c ++ l :: lr) val kids key := by
  induction c generalizing key with
  | nil =>
    cases key with
    | nil => simp [TrieKids.walk_nil, TrieKids.walk_cons_nil]
    | cons d r =>
      have hkl : ¬ k = l := fun h => hlk h.symm
      simp only [TrieKids.walk_nil, List.nil_append, TrieKids.walk_cons]
      split
      · simp only [TrieKids.lookup_node, TrieKids.lookup_nil, TrieKids.walk_leaf]
        by_cases h1 : d = l
        · subst h1; simp [hlk]
        · have : ¬ l = d := fun h => h1 h.symm
          by_cases h2 : d = k
          · subst h2; simp [h1, this]
          · simp [h1, h2, this]
      · simp only [TrieKids.lookup_node, TrieKids.lookup_nil, TrieKids.walk_leaf]
        by_cases h1 : d = l
        · subst h1; simp [hlk]
        · have : ¬ l = d := fun h => h1 h.symm
          by_cases h2 : d = k
          · subst h2; simp [h1, this]
          · simp [h1, h2, this]
  | cons x xs ih =>
    cases key with
    | nil => simp [TrieKids.walk_cons_nil]
    | cons d r =>
      rw [List.cons_append, List.cons_append, TrieKids.walk_cons, TrieKids.walk_cons, ih r]
      by_cases hxd : x = d
      · subst hxd; simp
      · have : ¬ d = x := fun h => hxd h.symm
        simp [hxd, this]

theorem TrieKids.lookup_above (b : Nat) (kids : TrieKids) (h : kids.all_gt b) (rest : List Nat) :
    kids.lookup b rest = none := by
  induction kids with
  | nil => rfl
  | node c lab val kids next _ ih2 =>
    have hc : b ≠ c := Nat.ne_of_lt h.1
    rw [TrieKids.lookup_node, if_neg hc]
    exact ih2 h.2
theorem TrieKids.all_gt_mono (b c : Nat) (hbc : b ≤ c) (kids : TrieKids) (h : kids.all_gt c) :
    kids.all_gt b := by
  induction kids with
  | nil => trivial
  | node d lab val kids next _ ih2 => exact ⟨Nat.lt_of_le_of_lt hbc h.1, ih2 h.2⟩

theorem TrieKids.lookup_insert (kids : TrieKids) :
    ∀ (b : Nat) (rest : List Nat) (slot : Nat) (kids1 : TrieKids) (e : Edit), kids.Sorted →
      kids.insert b rest slot = InsertResult.edited kids1 e →
      ∀ (b2 : Nat) (rest2 : List Nat),
        kids1.lookup b2 rest2 =
          if b2 = b ∧ rest2 = rest then some slot else kids.lookup b2 rest2 := by
  induction kids with
  | nil =>
    intro b rest slot kids1 e _ h b2 rest2
    simp only [TrieKids.insert, InsertResult.edited.injEq] at h
    obtain ⟨rfl, -⟩ := h
    rw [TrieKids.lookup_node, TrieKids.walk_leaf, TrieKids.lookup_nil]
    by_cases hb : b2 = b <;> simp [hb]
  | node c lab val kids next ih1 ih2 =>
    intro b rest slot kids1 e hs h b2 rest2
    obtain ⟨hs1, hs2, hs3⟩ := hs
    simp only [TrieKids.insert] at h
    by_cases hbc : b < c
    · rw [if_pos hbc] at h
      simp only [InsertResult.edited.injEq] at h
      obtain ⟨rfl, -⟩ := h
      rw [TrieKids.lookup_node, TrieKids.walk_leaf]
      by_cases hb : b2 = b
      · subst hb
        have hab : (TrieKids.node c lab val kids next).all_gt b2 :=
          ⟨hbc, TrieKids.all_gt_mono b2 c (Nat.le_of_lt hbc) next hs3⟩
        rw [TrieKids.lookup_above b2 _ hab]
        simp
      · simp [hb]
    · rw [if_neg hbc] at h
      by_cases hbe : b = c
      · subst hbe
        rw [if_pos rfl] at h
        have hspec := match_label_spec lab rest
        cases hm : match_label lab rest with
        | full r =>
          rw [hm] at h hspec
          have hrest : rest = lab ++ r := hspec
          cases r with
          | nil =>
            cases val with
            | some off => simp at h
            | none =>
              simp only [InsertResult.edited.injEq] at h
              obtain ⟨rfl, -⟩ := h
              rw [TrieKids.lookup_node, TrieKids.lookup_node,
                TrieKids.walk_value lab (some slot) none kids rest2]
              by_cases hb : b2 = b <;> simp [hb, hrest]
          | cons d r =>
            dsimp only at h
            cases hk : kids.insert d r slot with
            | existing off => rw [hk] at h; simp at h
            | edited kids2 e2 =>
              rw [hk] at h
              simp only [InsertResult.edited.injEq] at h
              obtain ⟨rfl, -⟩ := h
              rw [TrieKids.lookup_node, TrieKids.lookup_node,
                TrieKids.walk_kids lab val kids kids2 d r (some slot) (ih1 d r slot kids2 e2 hs1 hk)]
              by_cases hb : b2 = b <;> simp [hb, hrest]
        | key_ends common l lr =>
          rw [hm] at h hspec
          obtain ⟨hlab, hrest⟩ : lab = common ++ l :: lr ∧ rest = common := hspec
          simp only [InsertResult.edited.injEq] at h
          obtain ⟨rfl, -⟩ := h
          rw [TrieKids.lookup_node, TrieKids.lookup_node, TrieKids.walk_split, ← hlab]
          by_cases hb : b2 = b <;> simp [hb, hrest]
        | mismatch common l lr k kr =>
          rw [hm] at h hspec
          obtain ⟨hlab, hrest, hlk⟩ : lab = common ++ l :: lr ∧ rest = common ++ k :: kr ∧ l ≠ k :=
            hspec
          simp only [InsertResult.edited.injEq] at h
          obtain ⟨rfl, -⟩ := h
          rw [TrieKids.lookup_node, TrieKids.lookup_node,
            TrieKids.walk_fork common l lr val kids k kr slot hlk, ← hlab]
          by_cases hb : b2 = b <;> simp [hb, hrest]
      · rw [if_neg hbe] at h
        cases hn : next.insert b rest slot with
        | existing off => rw [hn] at h; simp at h
        | edited next1 e1 =>
          rw [hn] at h
          simp only [InsertResult.edited.injEq] at h
          obtain ⟨rfl, -⟩ := h
          rw [TrieKids.lookup_node, TrieKids.lookup_node, ih2 b rest slot next1 e1 hs2 hn]
          by_cases hb : b2 = c
          · have : ¬ c = b := fun h => hbe h.symm
            simp [hb, this]
          · simp [hb]

theorem TrieKids.insert_lookup (kids : TrieKids) :
    ∀ (b : Nat) (rest : List Nat) (slot : Nat), kids.Sorted →
      (∀ off, kids.insert b rest slot = InsertResult.existing off →
        kids.lookup b rest = some off) ∧
      (∀ kids1 e, kids.insert b rest slot = InsertResult.edited kids1 e →
        kids.lookup b rest = none) := by
  induction kids with
  | nil =>
    intro b rest slot _
    exact ⟨fun off h => by simp [TrieKids.insert] at h, fun _ _ _ => rfl⟩
  | node c lab val kids next ih1 ih2 =>
    intro b rest slot hs
    obtain ⟨hs1, hs2, hs3⟩ := hs
    simp only [TrieKids.insert]
    by_cases hbc : b < c
    · rw [if_pos hbc]
      refine ⟨fun off h => by simp at h, fun _ _ _ => ?_⟩
      have hab : (TrieKids.node c lab val kids next).all_gt b :=
        ⟨hbc, TrieKids.all_gt_mono b c (Nat.le_of_lt hbc) next hs3⟩
      exact TrieKids.lookup_above b _ hab rest
    · rw [if_neg hbc]
      by_cases hbe : b = c
      · subst hbe
        rw [if_pos rfl, TrieKids.lookup_node, if_pos rfl]
        have hspec := match_label_spec lab rest
        cases hm : match_label lab rest with
        | full r =>
          rw [hm] at hspec
          have hrest : rest = lab ++ r := hspec
          cases r with
          | nil =>
            have hrest1 : rest = lab := by simpa using hrest
            subst hrest1
            rw [TrieKids.walk_self]
            cases val with
            | some off => simp
            | none => simp
          | cons d r =>
            have hw : TrieKids.walk lab val kids rest = kids.lookup d r := by
              unfold TrieKids.walk
              rw [hm]
            rw [hw]
            dsimp only
            cases hk : kids.insert d r slot with
            | existing off =>
              refine ⟨fun off1 h => ?_, fun _ _ h => by simp at h⟩
              simp only [InsertResult.existing.injEq] at h
              subst h
              exact (ih1 d r slot hs1).1 off hk
            | edited kids2 e2 =>
              exact ⟨fun off1 h => by simp at h, fun _ _ _ => (ih1 d r slot hs1).2 kids2 e2 hk⟩
        | key_ends common l lr =>
          have hw : TrieKids.walk lab val kids rest = none := by
            unfold TrieKids.walk
            rw [hm]
          rw [hw]
          exact ⟨fun off1 h => by simp at h, fun _ _ _ => rfl⟩
        | mismatch common l lr k kr =>
          have hw : TrieKids.walk lab val kids rest = none := by
            unfold TrieKids.walk
            rw [hm]
          rw [hw]
          exact ⟨fun off1 h => by simp at h, fun _ _ _ => rfl⟩
      · rw [if_neg hbe, TrieKids.lookup_node, if_neg hbe]
        cases hn : next.insert b rest slot with
        | existing off =>
          refine ⟨fun off1 h => ?_, fun _ _ h => by simp at h⟩
          simp only [InsertResult.existing.injEq] at h
          subst h
          exact (ih2 b rest slot hs2).1 off hn
        | edited next1 e1 =>
          exact ⟨fun off1 h => by simp at h, fun _ _ _ => (ih2 b rest slot hs2).2 next1 e1 hn⟩
theorem TrieKids.insert_all_gt (a : Nat) (kids : TrieKids) :
    ∀ (b : Nat) (rest : List Nat) (slot : Nat) (kids1 : TrieKids) (e : Edit), kids.all_gt a →
      a < b → kids.insert b rest slot = InsertResult.edited kids1 e → kids1.all_gt a := by
  induction kids with
  | nil =>
    intro b rest slot kids1 e _ hab h
    simp only [TrieKids.insert, InsertResult.edited.injEq] at h
    obtain ⟨rfl, -⟩ := h
    exact ⟨hab, trivial⟩
  | node c lab val kids next _ ih2 =>
    intro b rest slot kids1 e hg hab h
    simp only [TrieKids.insert] at h
    by_cases hbc : b < c
    · rw [if_pos hbc] at h
      simp only [InsertResult.edited.injEq] at h
      obtain ⟨rfl, -⟩ := h
      exact ⟨hab, hg⟩
    · rw [if_neg hbc] at h
      by_cases hbe : b = c
      · subst hbe
        rw [if_pos rfl] at h
        cases hm : match_label lab rest with
        | full r =>
          rw [hm] at h
          cases r with
          | nil =>
            cases val with
            | some off => simp at h
            | none =>
              simp only [InsertResult.edited.injEq] at h
              obtain ⟨rfl, -⟩ := h
              exact hg
          | cons d r =>
            dsimp only at h
            cases hk : kids.insert d r slot with
            | existing off => rw [hk] at h; simp at h
            | edited kids2 e2 =>
              rw [hk] at h
              simp only [InsertResult.edited.injEq] at h
              obtain ⟨rfl, -⟩ := h
              exact hg
        | key_ends common l lr =>
          rw [hm] at h
          simp only [InsertResult.edited.injEq] at h
          obtain ⟨rfl, -⟩ := h
          exact hg
        | mismatch common l lr k kr =>
          rw [hm] at h
          simp only [InsertResult.edited.injEq] at h
          obtain ⟨rfl, -⟩ := h
          exact hg
      · rw [if_neg hbe] at h
        cases hn : next.insert b rest slot with
        | existing off => rw [hn] at h; simp at h
        | edited next1 e1 =>
          rw [hn] at h
          simp only [InsertResult.edited.injEq] at h
          obtain ⟨rfl, -⟩ := h
          exact ⟨hg.1, ih2 b rest slot next1 e1 hg.2 hab hn⟩

theorem TrieKids.insert_sorted (kids : TrieKids) :
    ∀ (b : Nat) (rest : List Nat) (slot : Nat) (kids1 : TrieKids) (e : Edit), kids.Sorted →
      kids.insert b rest slot = InsertResult.edited kids1 e → kids1.Sorted := by
  induction kids with
  | nil =>
    intro b rest slot kids1 e _ h
    simp only [TrieKids.insert, InsertResult.edited.injEq] at h
    obtain ⟨rfl, -⟩ := h
    exact ⟨trivial, trivial, trivial⟩
  | node c lab val kids next ih1 ih2 =>
    intro b rest slot kids1 e hs h
    obtain ⟨hs1, hs2, hs3⟩ := hs
    simp only [TrieKids.insert] at h
    by_cases hbc : b < c
    · rw [if_pos hbc] at h
      simp only [InsertResult.edited.injEq] at h
      obtain ⟨rfl, -⟩ := h
      exact ⟨trivial, ⟨hs1, hs2, hs3⟩, hbc,
        TrieKids.all_gt_mono b c (Nat.le_of_lt hbc) next hs3⟩
    · rw [if_neg hbc] at h
      by_cases hbe : b = c
      · subst hbe
        rw [if_pos rfl] at h
        have hspec := match_label_spec lab rest
        cases hm : match_label lab rest with
        | full r =>
          rw [hm] at h
          cases r with
          | nil =>
            cases val with
            | some off => simp at h
            | none =>
              simp only [InsertResult.edited.injEq] at h
              obtain ⟨rfl, -⟩ := h
              exact ⟨hs1, hs2, hs3⟩
          | cons d r =>
            dsimp only at h
            cases hk : kids.insert d r slot with
            | existing off => rw [hk] at h; simp at h
            | edited kids2 e2 =>
              rw [hk] at h
              simp only [InsertResult.edited.injEq] at h
              obtain ⟨rfl, -⟩ := h
              exact ⟨ih1 d r slot kids2 e2 hs1 hk, hs2, hs3⟩
        | key_ends common l lr =>
          rw [hm] at h
          simp only [InsertResult.edited.injEq] at h
          obtain ⟨rfl, -⟩ := h
          exact ⟨⟨hs1, trivial, trivial⟩, hs2, hs3⟩
        | mismatch common l lr k kr =>
          rw [hm] at h hspec
          obtain ⟨-, -, hlk⟩ : lab = common ++ l :: lr ∧ rest = common ++ k :: kr ∧ l ≠ k :=
            hspec
          simp only [InsertResult.edited.injEq] at h
          obtain ⟨rfl, -⟩ := h
          refine ⟨?_, hs2, hs3⟩
          by_cases h1 : l < k
          · rw [if_pos h1]
            exact ⟨hs1, ⟨trivial, trivial, trivial⟩, h1, trivial⟩
          · rw [if_neg h1]
            have h2 : k < l := by omega
            exact ⟨trivial, ⟨hs1, trivial, trivial⟩, h2, trivial⟩
      · rw [if_neg hbe] at h
        cases hn : next.insert b rest slot with
        | existing off => rw [hn] at h; simp at h
        | edited next1 e1 =>
          rw [hn] at h
          simp only [InsertResult.edited.injEq] at h
          obtain ⟨rfl, -⟩ := h
          have hcb : c < b := by omega
          exact ⟨hs1, ih2 b rest slot next1 e1 hs2 hn,
            TrieKids.insert_all_gt c next b rest slot next1 e1 hs3 hcb hn⟩

theorem TrieKids.slots_below_mono (n u u1 : Nat) (hu : u ≤ u1) (kids : TrieKids)
    (h : kids.slots_below n u) : kids.slots_below n u1 := by
  induction kids with
  | nil => trivial
  | node c lab val kids next ih1 ih2 =>
    exact ⟨fun off ho => Nat.le_trans (h.1 off ho) hu, ih1 h.2.1, ih2 h.2.2⟩

theorem TrieKids.insert_below (n u : Nat) (kids : TrieKids) :
    ∀ (b : Nat) (rest : List Nat) (slot : Nat) (kids1 : TrieKids) (e : Edit),
      kids.slots_below n u → slot + n ≤ u →
      kids.insert b rest slot = InsertResult.edited kids1 e → kids1.slots_below n u := by
  induction kids with
  | nil =>
    intro b rest slot kids1 e _ hsl h
    simp only [TrieKids.insert, InsertResult.edited.injEq] at h
    obtain ⟨rfl, -⟩ := h
    exact ⟨fun off ho => by simp only [Option.some.injEq] at ho; omega, trivial, trivial⟩
  | node c lab val kids next ih1 ih2 =>
    intro b rest slot kids1 e hb hsl h
    obtain ⟨hb1, hb2, hb3⟩ := hb
    have hnew : ∀ off, some slot = some off → off + n ≤ u := fun off ho => by
      simp only [Option.some.injEq] at ho; omega
    simp only [TrieKids.insert] at h
    by_cases hbc : b < c
    · rw [if_pos hbc] at h
      simp only [InsertResult.edited.injEq] at h
      obtain ⟨rfl, -⟩ := h
      exact ⟨hnew, trivial, hb1, hb2, hb3⟩
    · rw [if_neg hbc] at h
      by_cases hbe : b = c
      · subst hbe
        rw [if_pos rfl] at h
        cases hm : match_label lab rest with
        | full r =>
          rw [hm] at h
          cases r with
          | nil =>
            cases val with
            | some off => simp at h
            | none =>
              simp only [InsertResult.edited.injEq] at h
              obtain ⟨rfl, -⟩ := h
              exact ⟨hnew, hb2, hb3⟩
          | cons d r =>
            dsimp only at h
            cases hk : kids.insert d r slot with
            | existing off => rw [hk] at h; simp at h
            | edited kids2 e2 =>
              rw [hk] at h
              simp only [InsertResult.edited.injEq] at h
              obtain ⟨rfl, -⟩ := h
              exact ⟨hb1, ih1 d r slot kids2 e2 hb2 hsl hk, hb3⟩
        | key_ends common l lr =>
          rw [hm] at h
          simp only [InsertResult.edited.injEq] at h
          obtain ⟨rfl, -⟩ := h
          exact ⟨hnew, ⟨hb1, hb2, trivial⟩, hb3⟩
        | mismatch common l lr k kr =>
          rw [hm] at h
          simp only [InsertResult.edited.injEq] at h
          obtain ⟨rfl, -⟩ := h
          refine ⟨fun off ho => by simp at ho, ?_, hb3⟩
          by_cases h1 : l < k
          · rw [if_pos h1]
            exact ⟨hb1, hb2, hnew, trivial, trivial⟩
          · rw [if_neg h1]
            exact ⟨hnew, trivial, hb1, hb2, trivial⟩
      · rw [if_neg hbe] at h
        cases hn : next.insert b rest slot with
        | existing off => rw [hn] at h; simp at h
        | edited next1 e1 =>
          rw [hn] at h
          simp only [InsertResult.edited.injEq] at h
          obtain ⟨rfl, -⟩ := h
          exact ⟨hb1, hb2, ih2 b rest slot next1 e1 hb3 hsl hn⟩

theorem TrieKids.lookup_below (n u : Nat) (kids : TrieKids) :
    ∀ (b : Nat) (rest : List Nat) (off : Nat), kids.slots_below n u →
      kids.lookup b rest = some off → off + n ≤ u := by
  induction kids with
  | nil => intro b rest off _ h; simp [TrieKids.lookup_nil] at h
  | node c lab val kids next ih1 ih2 =>
    intro b rest off hb h
    rw [TrieKids.lookup_node] at h
    by_cases hbc : b = c
    · rw [if_pos hbc] at h
      unfold TrieKids.walk at h
      cases hm : match_label lab rest with
      | full r =>
        rw [hm] at h
        cases r with
        | nil => exact hb.1 off h
        | cons d r => exact ih1 d r off hb.2.1 h
      | key_ends common l lr => rw [hm] at h; simp at h
      | mismatch common l lr k kr => rw [hm] at h; simp at h
    · rw [if_neg hbc] at h
      exact ih2 b rest off hb.2.2 h
theorem TrieKids.words_node (c : Nat) (lab : List Nat) (val : Option Nat) (kids next : TrieKids)
    (pre : List Nat) :
    (TrieKids.node c lab val kids next).words pre =
      (match val with
        | some _ => [pre ++ c :: lab]
        | none => []) ++ kids.words (pre ++ c :: lab) ++ next.words pre := rfl

theorem TrieKids.words_nil (pre : List Nat) : TrieKids.nil.words pre = [] := rfl

theorem TrieKids.words_insert (kids : TrieKids) :
    ∀ (b : Nat) (rest : List Nat) (slot : Nat) (kids1 : TrieKids) (e : Edit) (pre : List Nat),
      kids.insert b rest slot = InsertResult.edited kids1 e →
      (kids1.words pre).Perm ((pre ++ b :: rest) :: kids.words pre) := by
  induction kids with
  | nil =>
    intro b rest slot kids1 e pre h
    simp only [TrieKids.insert, InsertResult.edited.injEq] at h
    obtain ⟨rfl, -⟩ := h
    simp [TrieKids.words_node, TrieKids.words_nil]
  | node c lab val kids next ih1 ih2 =>
    intro b rest slot kids1 e pre h
    simp only [TrieKids.insert] at h
    by_cases hbc : b < c
    · rw [if_pos hbc] at h
      simp only [InsertResult.edited.injEq] at h
      obtain ⟨rfl, -⟩ := h
      rw [TrieKids.words_node b]
      simp [TrieKids.words_nil]
    · rw [if_neg hbc] at h
      by_cases hbe : b = c
      · subst hbe
        rw [if_pos rfl] at h
        have hspec := match_label_spec lab rest
        cases hm : match_label lab rest with
        | full r =>
          rw [hm] at h hspec
          have hrest : rest = lab ++ r := hspec
          cases r with
          | nil =>
            have hrest1 : rest = lab := by simpa using hrest
            subst hrest1
            cases val with
            | some off => simp at h
            | none =>
              simp only [InsertResult.edited.injEq] at h
              obtain ⟨rfl, -⟩ := h
              simp [TrieKids.words_node]
          | cons d r =>
            dsimp only at h
            cases hk : kids.insert d r slot with
            | existing off => rw [hk] at h; simp at h
            | edited kids2 e2 =>
              rw [hk] at h
              simp only [InsertResult.edited.injEq] at h
              obtain ⟨rfl, -⟩ := h
              have hp := ih1 d r slot kids2 e2 (pre ++ b :: lab) hk
              have hkey : pre ++ b :: lab ++ d :: r = pre ++ b :: rest := by simp [hrest]
              rw [hkey] at hp
              rw [TrieKids.words_node, TrieKids.words_node]
              refine ((List.Perm.append_left _ hp).append_right _).trans ?_
              simp only [List.append_assoc, List.cons_append]
              exact List.perm_middle
        | key_ends common l lr =>
          rw [hm] at h hspec
          obtain ⟨hlab, hrest⟩ : lab = common ++ l :: lr ∧ rest = common := hspec
          simp only [InsertResult.edited.injEq] at h
          obtain ⟨rfl, -⟩ := h
          subst hlab hrest
          simp [TrieKids.words_node, TrieKids.words_nil]
        | mismatch common l lr k kr =>
          rw [hm] at h hspec
          obtain ⟨hlab, hrest, hlk⟩ : lab = common ++ l :: lr ∧ rest = common ++ k :: kr ∧ l ≠ k :=
            hspec
          simp only [InsertResult.edited.injEq] at h
          obtain ⟨rfl, -⟩ := h
          subst hlab hrest
          by_cases h1 : l < k
          · rw [if_pos h1]
            simp only [TrieKids.words_node, TrieKids.words_nil, List.append_assoc,
              List.cons_append, List.nil_append, List.append_nil]
            rw [← List.append_assoc, ← List.append_assoc]
            exact List.perm_middle
          · rw [if_neg h1]
            simp [TrieKids.words_node, TrieKids.words_nil]
      · rw [if_neg hbe] at h
        cases hn : next.insert b rest slot with
        | existing off => rw [hn] at h; simp at h
        | edited next1 e1 =>
          rw [hn] at h
          simp only [InsertResult.edited.injEq] at h
          obtain ⟨rfl, -⟩ := h
          have hp := ih2 b rest slot next1 e1 pre hn
          rw [TrieKids.words_node, TrieKids.words_node]
          refine (List.Perm.append_left _ hp).trans ?_
          exact List.perm_middle

theorem key_lt_extend (p : List Nat) (x : Nat) (xs : List Nat) : key_lt p (p ++ x :: xs) := by
  induction p with
  | nil => exact List.Lex.nil
  | cons a p ih => exact List.Lex.cons ih

theorem key_lt_byte (p : List Nat) (b c : Nat) (s s1 : List Nat) (h : b < c) :
    key_lt (p ++ b :: s) (p ++ c :: s1) := by
  induction p with
  | nil => exact List.Lex.rel h
  | cons a p ih => exact List.Lex.cons ih

theorem TrieKids.words_form (kids : TrieKids) :
    ∀ (pre w : List Nat), w ∈ kids.words pre →
      ∃ (b : Nat) (s : List Nat), w = pre ++ b :: s ∧ ∀ a, kids.all_gt a → a < b := by
  induction kids with
  | nil => intro pre w h; simp [TrieKids.words_nil] at h
  | node c lab val kids next ih1 ih2 =>
    intro pre w h
    rw [TrieKids.words_node, List.mem_append, List.mem_append] at h
    rcases h with (h | h) | h
    · refine ⟨c, lab, ?_, fun a ha => ha.1⟩
      cases val with
      | some off => simpa using h
      | none => simp at h
    · obtain ⟨b, s, hw, -⟩ := ih1 _ w h
      exact ⟨c, lab ++ b :: s, by simp [hw], fun a ha => ha.1⟩
    · obtain ⟨b, s, hw, hb⟩ := ih2 _ w h
      exact ⟨b, s, hw, fun a ha => hb a ha.2⟩

theorem TrieKids.words_sorted (kids : TrieKids) :
    ∀ (pre : List Nat), kids.Sorted → (kids.words pre).Pairwise key_lt := by
  induction kids with
  | nil => intro pre _; simp [TrieKids.words_nil]
  | node c lab val kids next ih1 ih2 =>
    intro pre hs
    obtain ⟨hs1, hs2, hs3⟩ := hs
    rw [TrieKids.words_node, List.pairwise_append, List.pairwise_append]
    have hown : ∀ w, w ∈ (match val with
        | some _ => [pre ++ c :: lab]
        | none => []) → w = pre ++ c :: lab := by
      intro w hw
      cases val with
      | some off => simpa using hw
      | none => simp at hw
    refine ⟨⟨?_, ih1 _ hs1, ?_⟩, ih2 _ hs2, ?_⟩
    · cases val with
      | some off => simp
      | none => simp
    · intro w1 h1 w2 h2
      obtain ⟨b, s, hw, -⟩ := TrieKids.words_form kids _ w2 h2
      rw [hown w1 h1, hw]
      exact key_lt_extend _ b s
    · intro w1 h1 w2 h2
      obtain ⟨b2, s2, hw2, hb2⟩ := TrieKids.words_form next _ w2 h2
      have hc : c < b2 := hb2 c hs3
      rw [List.mem_append] at h1
      rcases h1 with h1 | h1
      · rw [hown w1 h1, hw2]
        exact key_lt_byte pre c b2 lab s2 hc
      · obtain ⟨b, s, hw, -⟩ := TrieKids.words_form kids _ w1 h1
        rw [hw, hw2, List.append_assoc, List.cons_append]
        exact key_lt_byte pre c b2 _ s2 hc
theorem Patricia.need_ge (P : TrieParams) (hA : 0 < P.AlignSize) (t : Patricia) (e : Edit)
    (key : List Nat) : t.m_valsize ≤ t.need P e key := by
  unfold Patricia.need
  have h1 : t.m_valsize + (P.AlignSize - 1) <
      (t.m_valsize + (P.AlignSize - 1)) / P.AlignSize * P.AlignSize + P.AlignSize := by
    have := Nat.div_add_mod (t.m_valsize + (P.AlignSize - 1)) P.AlignSize
    have := Nat.mod_lt (t.m_valsize + (P.AlignSize - 1)) hA
    rw [Nat.mul_comm]
    omega
  omega

theorem Patricia.create_wf (valsize maxMem : Nat) : (Patricia.create valsize maxMem).WF :=
  ⟨trivial, fun off h => by simp [Patricia.create] at h, trivial, rfl, rfl⟩

theorem Patricia.insert_cases (P : TrieParams) (hA : 0 < P.AlignSize) (t : Patricia)
    (hwf : t.WF) (key value : List Nat) :
    (∃ off, t.find key = some off ∧ t.edit key = none ∧
      t.insert P key value = Except.ok (false, TokenBase.mk (some off), t)) ∨
    (∃ e, t.find key = none ∧ t.edit key = some e ∧
      ((t.used + t.need P e key ≤ t.maxMem ∧
          ∃ t1, t.insert P key value = Except.ok (true, TokenBase.mk (some t.used), t1) ∧
            t.Added key value t1) ∨
        (t.maxMem < t.used + t.need P e key ∧
          t.insert P key value = Except.ok (true, TokenBase.mk none, t)))) := by
  have hw := hwf.writable
  cases key with
  | nil =>
    cases hrv : t.root_value with
    | some off =>
      left
      refine ⟨off, hrv, ?_, ?_⟩
      · simp [Patricia.edit, hrv]
      · simp [Patricia.insert, hw, hrv]
    | none =>
      right
      refine ⟨Edit.mark_final, hrv, ?_, ?_⟩
      · simp [Patricia.edit, hrv]
      · have hge := Patricia.need_ge P hA t Edit.mark_final []
        by_cases hfit : t.used + t.need P Edit.mark_final [] ≤ t.maxMem
        · left
          refine ⟨hfit, t.committed P Edit.mark_final [] value (some t.used) t.root_kids, ?_, ?_⟩
          · simp only [Patricia.insert, hw, hrv, Patricia.commit, if_pos hfit]
            rfl
          · refine ⟨?_, rfl, ?_, rfl, rfl, ?_, rfl, ?_⟩
            · intro key2
              cases key2 with
              | nil => rfl
              | cons b2 r2 => simp [Patricia.find, Patricia.committed]
            · show t.used + t.m_valsize ≤ t.used + t.need P Edit.mark_final []
              omega
            · simp [Patricia.words, hrv, Patricia.committed]
            · refine ⟨hwf.sorted, ?_, ?_, ?_, hw⟩
              · intro off ho
                have ho1 : some t.used = some off := ho
                simp only [Option.some.injEq] at ho1
                show off + t.m_valsize ≤ t.used + t.need P Edit.mark_final []
                omega
              · exact TrieKids.slots_below_mono _ _ _ (Nat.le_add_right _ _) _ hwf.kids_below
              · show t.num_words + 1 = _
                rw [hwf.count]
                simp [Patricia.words, hrv, Patricia.committed]
        · right
          refine ⟨by omega, ?_⟩
          simp only [Patricia.insert, hw, hrv, Patricia.commit, if_neg hfit]
          rfl
  | cons b rest =>
    have hil := TrieKids.insert_lookup t.root_kids b rest t.used hwf.sorted
    cases hk : t.root_kids.insert b rest t.used with
    | existing off =>
      left
      refine ⟨off, hil.1 off hk, ?_, ?_⟩
      · simp [Patricia.edit, hk]
      · simp [Patricia.insert, hw, hk]
    | edited kids e =>
      right
      refine ⟨e, hil.2 kids e hk, ?_, ?_⟩
      · simp [Patricia.edit, hk]
      · have hge := Patricia.need_ge P hA t e (b :: rest)
        by_cases hfit : t.used + t.need P e (b :: rest) ≤ t.maxMem
        · left
          refine ⟨hfit, t.committed P e (b :: rest) value t.root_value kids, ?_, ?_⟩
          · simp only [Patricia.insert, hw, hk, Patricia.commit, if_pos hfit]
            rfl
          · refine ⟨?_, rfl, ?_, rfl, rfl, ?_, rfl, ?_⟩
            · intro key2
              cases key2 with
              | nil => simp [Patricia.find, Patricia.committed]
              | cons b2 r2 =>
                show kids.lookup b2 r2 = _
                rw [TrieKids.lookup_insert t.root_kids b rest t.used kids e hwf.sorted hk b2 r2]
                simp [Patricia.find]
            · show t.used + t.m_valsize ≤ t.used + t.need P e (b :: rest)
              omega
            · show (_ ++ kids.words []).Perm _
              have hp := TrieKids.words_insert t.root_kids b rest t.used kids e [] hk
              rw [List.nil_append] at hp
              refine (List.Perm.append_left _ hp).trans ?_
              exact List.perm_middle
            · refine ⟨TrieKids.insert_sorted t.root_kids b rest t.used kids e hwf.sorted hk,
                ?_, ?_, ?_, hw⟩
              · intro off ho
                have := hwf.root_below off ho
                show off + t.m_valsize ≤ t.used + t.need P e (b :: rest)
                omega
              · refine TrieKids.insert_below _ _ t.root_kids b rest t.used kids e ?_ ?_ hk
                · exact TrieKids.slots_below_mono _ _ _ (Nat.le_add_right _ _) _ hwf.kids_below
                · show t.used + t.m_valsize ≤ t.used + t.need P e (b :: rest)
                  omega
              · show t.num_words + 1 = (_ ++ kids.words []).length
                have hp := TrieKids.words_insert t.root_kids b rest t.used kids e [] hk
                rw [hwf.count, List.length_append, hp.length_eq]
                simp only [Patricia.words, Patricia.committed, List.length_append,
                  List.length_cons]
                omega
        · right
          refine ⟨by omega, ?_⟩
          simp only [Patricia.insert, hw, hk, Patricia.commit, if_neg hfit]
          rfl
theorem range_map_getD (v : List Nat) : (List.range v.length).map (fun d => v.getD d 0) = v := by
  apply List.ext_getElem
  · simp
  · intro i h1 h2
    simp [List.getD_eq_getElem?_getD, List.getElem?_eq_getElem h2]

theorem copy_value_eq (n : Nat) (value : List Nat) (h : value.length = n) :
    copy_value n value = value := by
  subst h
  exact range_map_getD value

theorem read_write_same (data : Nat → Nat) (pos : Nat) (v : List Nat) :
    read_bytes (write_bytes data pos v) pos v.length = v := by
  unfold read_bytes write_bytes
  have h : ∀ d, d ∈ List.range v.length →
      (fun d => if pos ≤ pos + d ∧ pos + d < pos + v.length then v.getD (pos + d - pos) 0
        else data (pos + d)) d = (fun d => v.getD d 0) d := by
    intro d hd
    have hd1 : d < v.length := List.mem_range.mp hd
    have h1 : pos ≤ pos + d ∧ pos + d < pos + v.length := ⟨by omega, by omega⟩
    simp only [if_pos h1, Nat.add_sub_cancel_left]
  rw [List.map_congr_left h]
  exact range_map_getD v

theorem read_write_below (data : Nat → Nat) (pos : Nat) (v : List Nat) (off n : Nat)
    (h : off + n ≤ pos) : read_bytes (write_bytes data pos v) off n = read_bytes data off n := by
  unfold read_bytes write_bytes
  apply List.map_congr_left
  intro d hd
  have hd1 : d < n := List.mem_range.mp hd
  have h1 : ¬ (pos ≤ off + d ∧ off + d < pos + v.length) := by omega
  simp only [if_neg h1]

theorem Patricia.insert_step (P : TrieParams) (hA : 0 < P.AlignSize) (t : Patricia)
    (hwf : t.WF) (key value : List Nat) :
    (∃ (b : Bool) (tok : TokenBase), t.insert P key value = Except.ok (b, tok, t) ∧
        (b = false ∨ tok.m_value = none)) ∨
      (∃ t1, t.insert P key value = Except.ok (true, TokenBase.mk (some t.used), t1) ∧
        t.Added key value t1) := by
  rcases Patricia.insert_cases P hA t hwf key value with ⟨off, -, -, h⟩ | ⟨e, -, -, h | h⟩
  · exact Or.inl ⟨false, _, h, Or.inl rfl⟩
  · exact Or.inr h.2
  · exact Or.inl ⟨true, _, h.2, Or.inr rfl⟩

theorem Patricia.insert_all_kept (P : TrieParams) (t : Patricia) (key value : List Nat)
    (ops : List (List Nat × List Nat)) (b : Bool) (tok : TokenBase)
    (h : t.insert P key value = Except.ok (b, tok, t)) (hb : b = false ∨ tok.m_value = none) :
    Patricia.insert_all P t ((key, value) :: ops) = Patricia.insert_all P t ops := by
  rw [Patricia.insert_all]
  rw [h]
  rcases hb with hb | hb
  · subst hb; rfl
  · cases tok with
    | mk v =>
      have hv : v = none := hb
      subst hv
      cases b <;> rfl

theorem Patricia.insert_all_added (P : TrieParams) (t : Patricia) (key value : List Nat)
    (ops : List (List Nat × List Nat)) (off : Nat) (t1 : Patricia)
    (h : t.insert P key value = Except.ok (true, TokenBase.mk (some off), t1)) :
    Patricia.insert_all P t ((key, value) :: ops) =
      ((Patricia.insert_all P t1 ops).1, key :: (Patricia.insert_all P t1 ops).2) := by
  rw [Patricia.insert_all]
  rw [h]

theorem Patricia.insert_all_inv (P : TrieParams) (hA : 0 < P.AlignSize)
    (Q : List Nat → Prop) (J : Patricia → Prop)
    (hstep : ∀ (t : Patricia) (key value : List Nat) (t1 : Patricia), t.WF → J t → Q key →
      t.Added key value t1 → J t1) :
    ∀ (ops : List (List Nat × List Nat)) (t : Patricia), t.WF → J t →
      (∀ op, op ∈ ops → Q op.1) →
      (Patricia.insert_all P t ops).1.WF ∧ J (Patricia.insert_all P t ops).1 := by
  intro ops
  induction ops with
  | nil => intro t hwf hj _; exact ⟨hwf, hj⟩
  | cons op ops ih =>
    intro t hwf hj hq
    obtain ⟨key, value⟩ := op
    have hq1 : ∀ op, op ∈ ops → Q op.1 := fun op h => hq op (List.mem_cons_of_mem _ h)
    rcases Patricia.insert_step P hA t hwf key value with ⟨b, tok, h, hb⟩ | ⟨t1, h, ha⟩
    · rw [Patricia.insert_all_kept P t key value ops b tok h hb]
      exact ih t hwf hj hq1
    · rw [Patricia.insert_all_added P t key value ops t.used t1 h]
      exact ih t1 ha.wf (hstep t key value t1 hwf hj (hq _ (List.mem_cons_self _ _)) ha) hq1

theorem Patricia.insert_all_wf (P : TrieParams) (hA : 0 < P.AlignSize)
    (ops : List (List Nat × List Nat)) (t : Patricia) (hwf : t.WF) :
    (Patricia.insert_all P t ops).1.WF :=
  (Patricia.insert_all_inv P hA (fun _ => True) (fun _ => True)
    (fun _ _ _ _ _ _ _ _ => trivial) ops t hwf trivial (fun _ _ => trivial)).1

theorem Patricia.insert_all_words (P : TrieParams) (hA : 0 < P.AlignSize) :
    ∀ (ops : List (List Nat × List Nat)) (t : Patricia), t.WF →
      (Patricia.insert_all P t ops).1.words.Perm ((Patricia.insert_all P t ops).2 ++ t.words) := by
  intro ops
  induction ops with
  | nil => intro t _; exact List.Perm.refl _
  | cons op ops ih =>
    intro t hwf
    obtain ⟨key, value⟩ := op
    rcases Patricia.insert_step P hA t hwf key value with ⟨b, tok, h, hb⟩ | ⟨t1, h, ha⟩
    · rw [Patricia.insert_all_kept P t key value ops b tok h hb]
      exact ih t hwf
    · rw [Patricia.insert_all_added P t key value ops t.used t1 h]
      refine (ih t1 ha.wf).trans ?_
      refine (List.Perm.append_left _ ha.words).trans ?_
      simp only [List.cons_append]
      exact List.perm_middle

theorem key_lt_irrefl (a : List Nat) : ¬ key_lt a a := by
  induction a with
  | nil => intro h; cases h
  | cons x xs ih =>
    intro h
    cases h with
    | cons h1 => exact ih h1
    | rel h1 => exact Nat.lt_irrefl _ h1

theorem key_lt_asymm (a : List Nat) : ∀ b : List Nat, key_lt a b → ¬ key_lt b a := by
  induction a with
  | nil => intro b _ h2; cases h2
  | cons x xs ih =>
    intro b h1 h2
    cases h1 with
    | cons h => 
      cases h2 with
      | cons h3 => exact ih _ h h3
      | rel h3 => exact Nat.lt_irrefl _ h3
    | rel h =>
      cases h2 with
      | cons h3 => exact Nat.lt_irrefl _ h
      | rel h3 => exact Nat.lt_asymm h h3

theorem Patricia.words_ascending (t : Patricia) (hwf : t.WF) : t.words.Pairwise key_lt := by
  unfold Patricia.words
  rw [List.pairwise_append]
  refine ⟨?_, TrieKids.words_sorted _ [] hwf.sorted, ?_⟩
  · cases t.root_value <;> simp
  · intro w1 h1 w2 h2
    obtain ⟨b, s, hw, -⟩ := TrieKids.words_form _ _ w2 h2
    have hw1 : w1 = [] := by
      cases hrv : t.root_value with
      | some off => rw [hrv] at h1; simpa using h1
      | none => rw [hrv] at h1; simp at h1
    rw [hw1, hw]
    exact List.Lex.nil

theorem sorted_keys_unique (l1 l2 : List (List Nat)) (h1 : l1.Pairwise key_lt)
    (h2 : l2.Pairwise key_lt) (h : ∀ k, k ∈ l1 ↔ k ∈ l2) : l1 = l2 := by
  have hn : ∀ l : List (List Nat), l.Pairwise key_lt → l.Nodup := by
    intro l hl
    unfold List.Nodup
    refine List.Pairwise.imp ?_ hl
    intro a b hab he
    rw [← he] at hab
    exact key_lt_irrefl a hab
  have hp : l1.Perm l2 := (List.perm_ext_iff_of_nodup (hn l1 h1) (hn l2 h2)).mpr h
  exact @List.eq_of_perm_of_sorted _ key_lt ⟨fun a b hab hba => absurd hba (key_lt_asymm a b hab)⟩
    l1 l2 hp h1 h2

theorem TrieKids.first_in_spec (rk : TrieKids) (kids : TrieKids) :
    ∀ (pre : List Nat) (left : List PathNode) (stack : List Frame),
      (kids.first_in pre left stack = none → kids.words pre = []) ∧
      (∀ s, kids.first_in pre left stack = some s →
        ∃ f rest, s = f :: rest ∧ f.cur.value.isSome = true ∧
          kids.words pre ++ after_up stack = f.word :: keys_after rk (f :: rest)) := by
  induction kids with
  | nil =>
    intro pre left stack
    exact ⟨fun _ => rfl, fun s h => by simp [TrieKids.first_in] at h⟩
  | node c lab val kids next ih1 ih2 =>
    intro pre left stack
    simp only [TrieKids.first_in]
    cases val with
    | some off =>
      simp only [Option.isSome_some, if_true]
      refine ⟨fun h => by simp at h, fun s h => ?_⟩
      simp only [Option.some.injEq] at h
      subst h
      refine ⟨_, _, rfl, rfl, ?_⟩
      simp [TrieKids.words_node, Frame.word, keys_after, after_up]
    | none =>
      simp only [Option.isSome_none, Bool.false_eq_true, if_false]
      obtain ⟨h1n, h1s⟩ := ih1 (pre ++ c :: lab) []
        (Frame.mk pre left (PathNode.mk c lab none kids) next :: stack)
      obtain ⟨h2n, h2s⟩ := ih2 pre (PathNode.mk c lab none kids :: left) stack
      cases hk : kids.first_in (pre ++ c :: lab) []
          (Frame.mk pre left (PathNode.mk c lab none kids) next :: stack) with
      | some s1 =>
        refine ⟨fun h => by simp at h, fun s h => ?_⟩
        simp only [Option.some.injEq] at h
        subst h
        obtain ⟨f, rest, hs, hv, hw⟩ := h1s s1 hk
        refine ⟨f, rest, hs, hv, ?_⟩
        rw [← hw]
        simp [TrieKids.words_node, after_up]
      | none =>
        have hkw := h1n hk
        dsimp only
        refine ⟨fun h => ?_, fun s h => ?_⟩
        · simp [TrieKids.words_node, hkw, h2n h]
        · obtain ⟨f, rest, hs, hv, hw⟩ := h2s s h
          refine ⟨f, rest, hs, hv, ?_⟩
          rw [← hw]
          simp [TrieKids.words_node, hkw]

theorem up_next_spec (rk : TrieKids) (stack : List Frame) :
    (up_next stack = none → after_up stack = []) ∧
    (∀ s, up_next stack = some s →
      ∃ f rest, s = f :: rest ∧ f.cur.value.isSome = true ∧
        after_up stack = f.word :: keys_after rk (f :: rest)) := by
  induction stack with
  | nil => exact ⟨fun _ => rfl, fun s h => by simp [up_next] at h⟩
  | cons g rest ih =>
    simp only [up_next]
    obtain ⟨h1n, h1s⟩ := TrieKids.first_in_spec rk g.right g.pre (g.cur :: g.left) rest
    cases hk : g.right.first_in g.pre (g.cur :: g.left) rest with
    | some s1 =>
      refine ⟨fun h => by simp at h, fun s h => ?_⟩
      simp only [Option.some.injEq] at h
      subst h
      exact h1s s1 hk
    | none =>
      have hkw := h1n hk
      dsimp only
      refine ⟨fun h => ?_, fun s h => ?_⟩
      · simp [after_up, hkw, ih.1 h]
      · obtain ⟨f, rest1, hs, hv, hw⟩ := ih.2 s h
        refine ⟨f, rest1, hs, hv, ?_⟩
        rw [← hw]
        simp [after_up, hkw]

/-- One step of `incr` from a valid position: it fails exactly when no key is
after the position, and otherwise moves to the first of the keys after it. -/
theorem Iterator.incr_spec (rv : Option Nat) (rk : TrieKids) (stack : List Frame) :
    (keys_after rk stack = [] ∧
        (Iterator.mk rv rk (some stack)).incr = (false, Iterator.mk rv rk none)) ∨
    (∃ s, (Iterator.mk rv rk (some stack)).incr = (true, Iterator.mk rv rk (some s)) ∧
      keys_after rk stack = (Iterator.mk rv rk (some s)).word :: keys_after rk s) := by
  cases stack with
  | nil =>
    obtain ⟨h1n, h1s⟩ := TrieKids.first_in_spec rk rk [] [] []
    cases hk : rk.first_in [] [] [] with
    | none =>
      left
      refine ⟨h1n hk, ?_⟩
      simp [Iterator.incr, hk]
    | some s =>
      right
      obtain ⟨f, rest, hs, -, hw⟩ := h1s s hk
      refine ⟨s, by simp [Iterator.incr, hk], ?_⟩
      subst hs
      simpa [after_up, keys_after, Iterator.word] using hw
  | cons g rest =>
    obtain ⟨h1n, h1s⟩ := TrieKids.first_in_spec rk g.cur.kids g.word [] (g :: rest)
    cases hk : g.cur.kids.first_in g.word [] (g :: rest) with
    | some s =>
      right
      obtain ⟨f, rest1, hs, -, hw⟩ := h1s s hk
      refine ⟨s, by simp [Iterator.incr, hk], ?_⟩
      subst hs
      simpa [keys_after, Iterator.word] using hw
    | none =>
      have hkw := h1n hk
      obtain ⟨h2n, h2s⟩ := up_next_spec rk (g :: rest)
      cases hu : up_next (g :: rest) with
      | none =>
        left
        refine ⟨?_, by simp [Iterator.incr, hk, hu]⟩
        simp [keys_after, hkw, h2n hu]
      | some s =>
        right
        obtain ⟨f, rest1, hs, -, hw⟩ := h2s s hu
        refine ⟨s, by simp [Iterator.incr, hk, hu], ?_⟩
        subst hs
        simp only [keys_after, hkw, List.nil_append, Iterator.word]
        exact hw

theorem Iterator.visit_incr (rv : Option Nat) (rk : TrieKids) :
    ∀ (fuel : Nat) (stack : List Frame), (keys_after rk stack).length < fuel →
      Iterator.visit Iterator.incr fuel (true, Iterator.mk rv rk (some stack)) =
        (Iterator.mk rv rk (some stack)).word :: keys_after rk stack := by
  intro fuel
  induction fuel with
  | zero => intro stack h; omega
  | succ fuel ih =>
    intro stack h
    rw [Iterator.visit, if_pos rfl]
    congr 1
    rcases Iterator.incr_spec rv rk stack with ⟨h1, h2⟩ | ⟨s, h1, h2⟩
    · rw [h2, h1]
      cases fuel <;> simp [Iterator.visit]
    · rw [h1, h2]
      apply ih
      rw [h2] at h
      simp only [List.length_cons] at h
      omega

theorem Patricia.iter_incr_words (t : Patricia) (fuel : Nat) (h : t.words.length ≤ fuel) :
    t.iter_incr fuel = t.words := by
  unfold Patricia.iter_incr Patricia.new_iter Patricia.words
  unfold Patricia.words at h
  cases hrv : t.root_value with
  | some off =>
    rw [hrv] at h
    have hs : (Iterator.mk (some off) t.root_kids none).seek_begin =
        (true, Iterator.mk (some off) t.root_kids (some [])) := rfl
    rw [hs, Iterator.visit_incr _ _ fuel [] (by simpa [keys_after] using h)]
    rfl
  | none =>
    rw [hrv] at h
    obtain ⟨h1n, h1s⟩ := TrieKids.first_in_spec t.root_kids t.root_kids [] [] []
    cases hk : t.root_kids.first_in [] [] [] with
    | none =>
      have hs : (Iterator.mk none t.root_kids none).seek_begin =
          (false, Iterator.mk none t.root_kids none) := by
        simp [Iterator.seek_begin, hk]
      rw [hs, h1n hk]
      cases fuel <;> simp [Iterator.visit]
    | some s =>
      have hs : (Iterator.mk none t.root_kids none).seek_begin =
          (true, Iterator.mk none t.root_kids (some s)) := by
        simp [Iterator.seek_begin, hk]
      obtain ⟨f, rest, hfs, -, hw⟩ := h1s s hk
      subst hfs
      simp only [after_up, List.append_nil] at hw
      rw [hw] at h
      rw [hs, Iterator.visit_incr _ _ fuel _ (by simpa using h)]
      simp only [List.nil_append]
      rw [hw]
      rfl
theorem TrieKids.last_in_spec (rv : Option Nat) (kids : TrieKids) :
    ∀ (pre : List Nat) (left : List PathNode) (stack : List Frame),
      (kids.last_in pre left stack = none → kids.words pre = []) ∧
      (∀ s, kids.last_in pre left stack = some s →
        at_key rv s ∧
          keys_upto rv s = keys_upto rv stack ++ left_words pre left ++ kids.words pre) := by
  induction kids with
  | nil =>
    intro pre left stack
    exact ⟨fun _ => rfl, fun s h => by simp [TrieKids.last_in] at h⟩
  | node c lab val kids next ih1 ih2 =>
    intro pre left stack
    simp only [TrieKids.last_in]
    obtain ⟨h2n, h2s⟩ := ih2 pre (PathNode.mk c lab val kids :: left) stack
    obtain ⟨h1n, h1s⟩ := ih1 (pre ++ c :: lab) []
      (Frame.mk pre left (PathNode.mk c lab val kids) next :: stack)
    cases hn : next.last_in pre (PathNode.mk c lab val kids :: left) stack with
    | some s1 =>
      refine ⟨fun h => by simp at h, fun s h => ?_⟩
      simp only [Option.some.injEq] at h
      subst h
      obtain ⟨hk, hw⟩ := h2s s1 hn
      refine ⟨hk, ?_⟩
      rw [hw]
      simp [left_words, TrieKids.words_node, TrieKids.words_nil]
    | none =>
      have hnw := h2n hn
      dsimp only
      cases hk : kids.last_in (pre ++ c :: lab) []
          (Frame.mk pre left (PathNode.mk c lab val kids) next :: stack) with
      | some s1 =>
        refine ⟨fun h => by simp at h, fun s h => ?_⟩
        simp only [Option.some.injEq] at h
        subst h
        obtain ⟨hk1, hw⟩ := h1s s1 hk
        refine ⟨hk1, ?_⟩
        rw [hw]
        simp [keys_upto, left_words, Frame.word, TrieKids.words_node, hnw]
      | none =>
        have hkw := h1n hk
        dsimp only
        cases val with
        | some off =>
          simp only [Option.isSome_some, if_true]
          refine ⟨fun h => by simp at h, fun s h => ?_⟩
          simp only [Option.some.injEq] at h
          subst h
          refine ⟨rfl, ?_⟩
          simp [keys_upto, Frame.word, TrieKids.words_node, hnw, hkw]
        | none =>
          simp only [Option.isSome_none, Bool.false_eq_true, if_false]
          refine ⟨fun _ => ?_, fun s h => by simp at h⟩
          simp [TrieKids.words_node, hnw, hkw]

theorem last_left_spec (rv : Option Nat) (left : List PathNode) :
    ∀ (pre : List Nat) (right : TrieKids) (stack : List Frame),
      (last_left left pre right stack = none → left_words pre left = []) ∧
      (∀ s, last_left left pre right stack = some s →
        at_key rv s ∧ keys_upto rv s = keys_upto rv stack ++ left_words pre left) := by
  induction left with
  | nil =>
    intro pre right stack
    exact ⟨fun _ => rfl, fun s h => by simp [last_left] at h⟩
  | cons l left ih =>
    intro pre right stack
    simp only [last_left]
    obtain ⟨h1n, h1s⟩ := TrieKids.last_in_spec rv l.kids (pre ++ l.byte :: l.label) []
      (Frame.mk pre left l right :: stack)
    cases hk : l.kids.last_in (pre ++ l.byte :: l.label) []
        (Frame.mk pre left l right :: stack) with
    | some s1 =>
      refine ⟨fun h => by simp at h, fun s h => ?_⟩
      simp only [Option.some.injEq] at h
      subst h
      obtain ⟨hk1, hw⟩ := h1s s1 hk
      refine ⟨hk1, ?_⟩
      rw [hw]
      simp [keys_upto, left_words, Frame.word, TrieKids.words_node, TrieKids.words_nil]
    | none =>
      have hkw := h1n hk
      dsimp only
      cases hv : l.value with
      | some off =>
        simp only [Option.isSome_some, if_true]
        refine ⟨fun h => by simp at h, fun s h => ?_⟩
        simp only [Option.some.injEq] at h
        subst h
        refine ⟨by simp [at_key, hv], ?_⟩
        simp [keys_upto, left_words, Frame.word, TrieKids.words_node, TrieKids.words_nil, hv,
          hkw]
      | none =>
        simp only [Option.isSome_none, Bool.false_eq_true, if_false]
        obtain ⟨h2n, h2s⟩ := ih pre (TrieKids.node l.byte l.label none l.kids right) stack
        refine ⟨fun h => ?_, fun s h => ?_⟩
        · simp [left_words, TrieKids.words_node, TrieKids.words_nil, hv, hkw, h2n h]
        · obtain ⟨hk1, hw⟩ := h2s s h
          refine ⟨hk1, ?_⟩
          rw [hw]
          simp [left_words, TrieKids.words_node, TrieKids.words_nil, hv, hkw]

theorem up_prev_spec (rv : Option Nat) (stack : List Frame) :
    (up_prev rv stack = none → keys_upto rv stack = []) ∧
    (∀ s, up_prev rv stack = some s → at_key rv s ∧ keys_upto rv s = keys_upto rv stack) := by
  induction stack with
  | nil =>
    cases rv with
    | some off =>
      refine ⟨fun h => by simp [up_prev] at h, fun s h => ?_⟩
      simp only [up_prev, Option.isSome_some, if_true, Option.some.injEq] at h
      subst h
      exact ⟨rfl, rfl⟩
    | none => exact ⟨fun _ => rfl, fun s h => by simp [up_prev] at h⟩
  | cons g rest ih =>
    simp only [up_prev]
    cases hv : g.cur.value with
    | some off =>
      simp only [Option.isSome_some, if_true]
      refine ⟨fun h => by simp at h, fun s h => ?_⟩
      simp only [Option.some.injEq] at h
      subst h
      exact ⟨by simp [at_key, hv], rfl⟩
    | none =>
      simp only [Option.isSome_none, Bool.false_eq_true, if_false]
      obtain ⟨h1n, h1s⟩ := last_left_spec rv g.left g.pre
        (TrieKids.node g.cur.byte g.cur.label none g.cur.kids g.right) rest
      cases hl : last_left g.left g.pre
          (TrieKids.node g.cur.byte g.cur.label none g.cur.kids g.right) rest with
      | some s1 =>
        refine ⟨fun h => by simp at h, fun s h => ?_⟩
        simp only [Option.some.injEq] at h
        subst h
        obtain ⟨hk1, hw⟩ := h1s s1 hl
        refine ⟨hk1, ?_⟩
        rw [hw]
        simp [keys_upto, hv]
      | none =>
        have hlw := h1n hl
        dsimp only
        refine ⟨fun h => ?_, fun s h => ?_⟩
        · simp [keys_upto, hv, hlw, ih.1 h]
        · obtain ⟨hk1, hw⟩ := ih.2 s h
          refine ⟨hk1, ?_⟩
          rw [hw]
          simp [keys_upto, hv, hlw]

theorem keys_upto_eq (rv : Option Nat) (rk : TrieKids) (stack : List Frame)
    (h : at_key rv stack) :
    keys_upto rv stack = keys_before rv stack ++ [(Iterator.mk rv rk (some stack)).word] := by
  cases stack with
  | nil =>
    cases rv with
    | some off => rfl
    | none => simp [at_key] at h
  | cons f rest =>
    have hv : f.cur.value.isSome = true := h
    cases hf : f.cur.value with
    | some off => simp [keys_upto, keys_before, Iterator.word, hf]
    | none => simp [hf] at hv

/-- One step of `decr` from a valid position: it fails exactly when no key is
before the position, and otherwise moves to the last of the keys before
it. -/
theorem Iterator.decr_spec (rv : Option Nat) (rk : TrieKids) (stack : List Frame) :
    (keys_before rv stack = [] ∧
        (Iterator.mk rv rk (some stack)).decr = (false, Iterator.mk rv rk none)) ∨
    (∃ s, (Iterator.mk rv rk (some stack)).decr = (true, Iterator.mk rv rk (some s)) ∧
      at_key rv s ∧
      keys_before rv stack = keys_before rv s ++ [(Iterator.mk rv rk (some s)).word]) := by
  cases stack with
  | nil => exact Or.inl ⟨rfl, rfl⟩
  | cons g rest =>
    obtain ⟨h1n, h1s⟩ := last_left_spec rv g.left g.pre
      (TrieKids.node g.cur.byte g.cur.label g.cur.value g.cur.kids g.right) rest
    cases hl : last_left g.left g.pre
        (TrieKids.node g.cur.byte g.cur.label g.cur.value g.cur.kids g.right) rest with
    | some s =>
      right
      obtain ⟨hk, hw⟩ := h1s s hl
      refine ⟨s, by simp [Iterator.decr, hl], hk, ?_⟩
      rw [← keys_upto_eq rv rk s hk, hw]
      rfl
    | none =>
      have hlw := h1n hl
      obtain ⟨h2n, h2s⟩ := up_prev_spec rv rest
      cases hu : up_prev rv rest with
      | none =>
        left
        refine ⟨?_, by simp [Iterator.decr, hl, hu]⟩
        simp [keys_before, hlw, h2n hu]
      | some s =>
        right
        obtain ⟨hk, hw⟩ := h2s s hu
        refine ⟨s, by simp [Iterator.decr, hl, hu], hk, ?_⟩
        rw [← keys_upto_eq rv rk s hk, hw]
        simp [keys_before, hlw]

theorem Iterator.visit_decr (rv : Option Nat) (rk : TrieKids) :
    ∀ (fuel : Nat) (stack : List Frame), (keys_before rv stack).length < fuel →
      Iterator.visit Iterator.decr fuel (true, Iterator.mk rv rk (some stack)) =
        (Iterator.mk rv rk (some stack)).word :: (keys_before rv stack).reverse := by
  intro fuel
  induction fuel with
  | zero => intro stack h; omega
  | succ fuel ih =>
    intro stack h
    rw [Iterator.visit, if_pos rfl]
    congr 1
    rcases Iterator.decr_spec rv rk stack with ⟨h1, h2⟩ | ⟨s, h1, -, h2⟩
    · rw [h2, h1]
      cases fuel <;> simp [Iterator.visit]
    · rw [h1, h2, List.reverse_append, List.reverse_singleton, List.singleton_append]
      apply ih
      rw [h2] at h
      simp only [List.length_append, List.length_singleton] at h
      omega

theorem Patricia.iter_decr_words (t : Patricia) (fuel : Nat) (h : t.words.length ≤ fuel) :
    t.iter_decr fuel = t.words.reverse := by
  unfold Patricia.iter_decr Patricia.new_iter
  have hup : keys_upto t.root_value [] ++ t.root_kids.words [] = t.words := rfl
  obtain ⟨h1n, h1s⟩ := TrieKids.last_in_spec t.root_value t.root_kids [] [] []
  cases hk : t.root_kids.last_in [] [] [] with
  | some s =>
    have hs : (Iterator.mk t.root_value t.root_kids none).seek_end =
        (true, Iterator.mk t.root_value t.root_kids (some s)) := by
      simp [Iterator.seek_end, hk]
    obtain ⟨hkey, hw⟩ := h1s s hk
    simp only [left_words, List.append_nil] at hw
    rw [hup, keys_upto_eq t.root_value t.root_kids s hkey] at hw
    rw [← hw] at h ⊢
    rw [hs, Iterator.visit_decr _ _ fuel s (by simpa using h)]
    simp
  | none =>
    have hkw := h1n hk
    rw [← hup, hkw, List.append_nil] at h ⊢
    cases hrv : t.root_value with
    | some off =>
      have hs : (Iterator.mk (some off) t.root_kids none).seek_end =
          (true, Iterator.mk (some off) t.root_kids (some [])) := by
        simp [Iterator.seek_end, hk]
      rw [hrv] at h
      rw [hs, Iterator.visit_decr _ _ fuel [] (by simpa [keys_before, keys_upto] using h)]
      rfl
    | none =>
      have hs : (Iterator.mk none t.root_kids none).seek_end =
          (false, Iterator.mk none t.root_kids none) := by
        simp [Iterator.seek_end, hk]
      rw [hs]
      cases fuel <;> simp [Iterator.visit, keys_upto]
/-- C22: after `insert(K, V)` newly inserted a key into a writable trie (the
call returned true with a non-null `token->value()`, which takes enough arena
memory), `lookup(K)` returns true and the `valsize` bytes at
`token->value()` equal `V`; this holds right after the insert (`ops` empty)
and after any further inserts of other keys. -/
theorem insert_then_lookup (P : TrieParams) (t : Patricia) (K V : List Nat) (off : Nat)
    (t1 : Patricia) (ops : List (List Nat × List Nat))
    (hA : 0 < P.AlignSize) (hwf : t.WF) (hV : V.length = t.m_valsize)
    (hins : t.insert P K V = Except.ok (true, TokenBase.mk (some off), t1))
    (hops : ∀ op, op ∈ ops → op.1 ≠ K) :
    ∃ off2, (Patricia.insert_all P t1 ops).1.lookup K = (true, TokenBase.mk (some off2)) ∧
      read_bytes (Patricia.insert_all P t1 ops).1.mem off2 t.m_valsize = V := by
  have hadd : off = t.used ∧ t.Added K V t1 := by
    rcases Patricia.insert_cases P hA t hwf K V with ⟨o, -, -, h⟩ | ⟨e, -, -, h | h⟩
    · rw [h] at hins
      simp at hins
    · obtain ⟨-, t2, h2, ha⟩ := h
      rw [h2] at hins
      simp only [Except.ok.injEq, Prod.mk.injEq, TokenBase.mk.injEq, Option.some.injEq,
        true_and] at hins
      obtain ⟨h3, h4⟩ := hins
      subst h4
      exact ⟨h3.symm, ha⟩
    · rw [h.2] at hins
      simp at hins
  obtain ⟨hoff, ha⟩ := hadd
  have hj := Patricia.insert_all_inv P hA (fun key => key ≠ K)
    (fun s => s.find K = some off ∧ read_bytes s.mem off t.m_valsize = V ∧
      off + t.m_valsize ≤ s.used ∧ s.m_valsize = t.m_valsize)
    (by
      intro s key value s1 _ hs hk hs1
      obtain ⟨hs2, hs3, hs4, hs5⟩ := hs
      refine ⟨?_, ?_, ?_, ?_⟩
      · rw [hs1.find K, if_neg (fun h => hk h.symm)]
        exact hs2
      · rw [hs1.mem, read_write_below _ _ _ _ _ hs4]
        exact hs3
      · have := hs1.used
        omega
      · rw [hs1.valsize]
        exact hs5)
    ops t1 ha.wf
    (by
      refine ⟨?_, ?_, ?_, ha.valsize⟩
      · rw [ha.find K, if_pos rfl, hoff]
      · have hl : (copy_value t.m_valsize V).length = t.m_valsize := by
          rw [copy_value_eq _ _ hV]
          exact hV
        rw [ha.mem, hoff]
        nth_rewrite 2 [← hl]
        rw [read_write_same, copy_value_eq _ _ hV]
      · rw [hoff]
        exact ha.used)
    hops
  obtain ⟨-, h1, h2, -, -⟩ := hj
  refine ⟨off, ?_, h2⟩
  simp [Patricia.lookup, h1]

theorem insert_then_lookup_witness :
    ∃ off2,
      (Patricia.insert_all ex_trie_params ex_trie_three [([98], [1, 2, 3, 4])]).1.lookup
          [97, 112, 112] = (true, TokenBase.mk (some off2)) ∧
        read_bytes (Patricia.insert_all ex_trie_params ex_trie_three [([98], [1, 2, 3, 4])]).1.mem
          off2 4 = [30, 0, 0, 0] :=
  insert_then_lookup ex_trie_params ex_trie_two [97, 112, 112] [30, 0, 0, 0] 50 ex_trie_three
    [([98], [1, 2, 3, 4])] (by decide)
    (Patricia.insert_all_wf ex_trie_params (by decide) _ _ (Patricia.create_wf 4 1000)) rfl rfl
    (by decide)

/-- C23: `insert` on a writable trie returns true exactly when the key was not
yet in the trie.  When it returns false the state (key set and values) is
unchanged and `token->value()` is the existing value slot, the one `lookup`
yields; when it returns true with a non-null `token->value()`, `num_words`
has grown by exactly one and the slot holds a copy of `value`. -/
theorem insert_reports_new_key (P : TrieParams) (t : Patricia) (K V : List Nat)
    (hA : 0 < P.AlignSize) (hwf : t.WF) (hV : V.length = t.m_valsize) :
    ∃ (b : Bool) (tok : TokenBase) (t1 : Patricia),
      t.insert P K V = Except.ok (b, tok, t1) ∧
      (b = true ↔ (t.lookup K).1 = false) ∧
      (b = false → t1 = t ∧ tok = (t.lookup K).2 ∧ tok.m_value ≠ none) ∧
      (b = true → ∀ off, tok.m_value = some off →
        t1.num_words = t.num_words + 1 ∧ read_bytes t1.mem off t.m_valsize = V) := by
  rcases Patricia.insert_cases P hA t hwf K V with ⟨o, hf, -, h⟩ | ⟨e, hf, -, h | h⟩
  · refine ⟨false, _, t, h, ?_, ?_, ?_⟩
    · simp [Patricia.lookup, hf]
    · intro _
      exact ⟨rfl, by simp [Patricia.lookup, hf], by simp⟩
    · intro hb
      simp at hb
  · obtain ⟨-, t1, h1, ha⟩ := h
    refine ⟨true, _, t1, h1, ?_, ?_, ?_⟩
    · simp [Patricia.lookup, hf]
    · intro hb
      simp at hb
    · intro _ off ho
      have ho1 : t.used = off := by simpa using ho
      subst ho1
      refine ⟨ha.num_words, ?_⟩
      have hl : (copy_value t.m_valsize V).length = t.m_valsize := by
        rw [copy_value_eq _ _ hV]
        exact hV
      rw [ha.mem]
      nth_rewrite 2 [← hl]
      rw [read_write_same, copy_value_eq _ _ hV]
  · refine ⟨true, _, t, h.2, ?_, ?_, ?_⟩
    · simp [Patricia.lookup, hf]
    · intro hb
      simp at hb
    · intro _ off ho
      simp at ho

theorem insert_reports_new_key_witness :
    ∃ (b : Bool) (tok : TokenBase) (t1 : Patricia),
      ex_trie_two.insert ex_trie_params [97, 112, 112] [30, 0, 0, 0] = Except.ok (b, tok, t1) ∧
      (b = true ↔ (ex_trie_two.lookup [97, 112, 112]).1 = false) ∧
      (b = false → t1 = ex_trie_two ∧ tok = (ex_trie_two.lookup [97, 112, 112]).2 ∧
        tok.m_value ≠ none) ∧
      (b = true → ∀ off, tok.m_value = some off →
        t1.num_words = ex_trie_two.num_words + 1 ∧ read_bytes t1.mem off 4 = [30, 0, 0, 0]) :=
  insert_reports_new_key ex_trie_params ex_trie_two [97, 112, 112] [30, 0, 0, 0] (by decide)
    (Patricia.insert_all_wf ex_trie_params (by decide) _ _ (Patricia.create_wf 4 1000)) rfl

/-- C24: when the arena cannot satisfy the allocation an insert of a new key
needs (the key is not in the trie, and the bytes of the transformation `e`
that adds it do not fit below the memory limit), `insert` returns true with a
null `token->value()`, without an error; the state after the call is the
state before it, so the key is not added (`lookup` is false, `num_words` is
unchanged) and every other lookup and every value is as before. -/
theorem insert_out_of_memory (P : TrieParams) (t : Patricia) (K V : List Nat) (e : Edit)
    (hA : 0 < P.AlignSize) (hwf : t.WF) (hnew : t.edit K = some e)
    (hfull : t.maxMem < t.used + t.need P e K) :
    ∃ t1, t.insert P K V = Except.ok (true, TokenBase.mk none, t1) ∧
      (t1.lookup K).1 = false ∧ t1.num_words = t.num_words ∧
      (∀ K2, t1.lookup K2 = t.lookup K2) ∧ t1.mem = t.mem := by
  rcases Patricia.insert_cases P hA t hwf K V with ⟨o, -, he, -⟩ | ⟨e1, hf, he, h | h⟩
  · rw [he] at hnew
    simp at hnew
  · rw [he] at hnew
    simp only [Option.some.injEq] at hnew
    subst hnew
    omega
  · exact ⟨t, h.2, by simp [Patricia.lookup, hf], rfl, fun _ => rfl, rfl⟩

theorem insert_out_of_memory_witness :
    ∃ t1, ex_trie_full.insert ex_trie_params [97, 112, 112] [30, 0, 0, 0]
        = Except.ok (true, TokenBase.mk none, t1) ∧
      (t1.lookup [97, 112, 112]).1 = false ∧ t1.num_words = ex_trie_full.num_words ∧
      (∀ K2, t1.lookup K2 = ex_trie_full.lookup K2) ∧ t1.mem = ex_trie_full.mem :=
  insert_out_of_memory ex_trie_params ex_trie_full [97, 112, 112] [30, 0, 0, 0] Edit.split
    (by decide)
    (Patricia.insert_all_wf ex_trie_params (by decide) _ _ (Patricia.create_wf 4 60)) rfl
    (by decide)

/-- C25: for every sequence of inserts into a new trie, the loop `seek_begin`,
`incr` visits the keys that were inserted, each exactly once, in strictly
ascending bytewise lexicographic order, and the loop `seek_end`, `decr` visits
them in the reverse order (`num_words` rounds or more are enough fuel for
both).  The visit depends on the set of inserted keys only: another sequence
of inserts (another order, or the atomic inserts of several writers in any
interleaving) that inserted the same keys is visited in the same order. -/
theorem iteration_ascending (P : TrieParams) (valsize maxMem : Nat)
    (ops : List (List Nat × List Nat)) (hA : 0 < P.AlignSize) :
    ((Patricia.build P valsize maxMem ops).1.iter_incr
        (Patricia.build P valsize maxMem ops).1.num_words).Pairwise key_lt ∧
    ((Patricia.build P valsize maxMem ops).1.iter_incr
        (Patricia.build P valsize maxMem ops).1.num_words).Perm
      (Patricia.build P valsize maxMem ops).2 ∧
    (∀ fuel, (Patricia.build P valsize maxMem ops).1.num_words ≤ fuel →
      (Patricia.build P valsize maxMem ops).1.iter_incr fuel =
        (Patricia.build P valsize maxMem ops).1.iter_incr
          (Patricia.build P valsize maxMem ops).1.num_words ∧
      (Patricia.build P valsize maxMem ops).1.iter_decr fuel =
        ((Patricia.build P valsize maxMem ops).1.iter_incr
          (Patricia.build P valsize maxMem ops).1.num_words).reverse) ∧
    ∀ (valsize2 maxMem2 : Nat) (ops2 : List (List Nat × List Nat)),
      (∀ k, k ∈ (Patricia.build P valsize2 maxMem2 ops2).2 ↔
        k ∈ (Patricia.build P valsize maxMem ops).2) →
      (Patricia.build P valsize2 maxMem2 ops2).1.iter_incr
          (Patricia.build P valsize2 maxMem2 ops2).1.num_words =
        (Patricia.build P valsize maxMem ops).1.iter_incr
          (Patricia.build P valsize maxMem ops).1.num_words := by
  have key : ∀ (vs mm : Nat) (os : List (List Nat × List Nat)),
      (∀ fuel, (Patricia.build P vs mm os).1.num_words ≤ fuel →
        (Patricia.build P vs mm os).1.iter_incr fuel = (Patricia.build P vs mm os).1.words ∧
        (Patricia.build P vs mm os).1.iter_decr fuel
          = (Patricia.build P vs mm os).1.words.reverse) ∧
      (Patricia.build P vs mm os).1.words.Pairwise key_lt ∧
      (Patricia.build P vs mm os).1.words.Perm (Patricia.build P vs mm os).2 := by
    intro vs mm os
    have hwf : (Patricia.build P vs mm os).1.WF :=
      Patricia.insert_all_wf P hA os _ (Patricia.create_wf vs mm)
    have hp : (Patricia.build P vs mm os).1.words.Perm
        ((Patricia.build P vs mm os).2 ++ (Patricia.create vs mm).words) :=
      Patricia.insert_all_words P hA os _ (Patricia.create_wf vs mm)
    refine ⟨fun fuel hf => ?_, Patricia.words_ascending _ hwf, ?_⟩
    · rw [hwf.count] at hf
      exact ⟨Patricia.iter_incr_words _ fuel hf, Patricia.iter_decr_words _ fuel hf⟩
    · have hw : (Patricia.create vs mm).words = [] := rfl
      rw [hw, List.append_nil] at hp
      exact hp
  obtain ⟨h1, h2, h3⟩ := key valsize maxMem ops
  have h4 := (h1 _ (Nat.le_refl _)).1
  rw [h4]
  refine ⟨h2, h3, fun fuel hf => ?_, ?_⟩
  · exact h1 fuel hf
  · intro vs mm os hmem
    obtain ⟨g1, g2, g3⟩ := key vs mm os
    rw [(g1 _ (Nat.le_refl _)).1]
    apply sorted_keys_unique _ _ g2 h2
    intro k
    rw [g3.mem_iff, h3.mem_iff]
    exact hmem k

theorem iteration_ascending_witness :
    ex_trie_three.iter_incr ex_trie_three.num_words =
        [[97, 112, 112], [97, 112, 112, 108, 101], [97, 112, 112, 108, 121]] ∧
      ex_trie_three.iter_decr ex_trie_three.num_words =
        [[97, 112, 112, 108, 121], [97, 112, 112, 108, 101], [97, 112, 112]] ∧
      (ex_trie_three.iter_incr ex_trie_three.num_words).Pairwise key_lt := by
  have h := iteration_ascending ex_trie_params 4 1000 ex_trie_ops (by decide)
  exact ⟨by decide, by decide, h.1⟩

/-! ## Bounds and order of the escape coding -/

/-- C34: `encode_00_0n` writes past `oend`.  With an empty input and no room,
or one byte of room, the two bytes of the end mark are written without a
check; with the input `"\0"` and one byte of room the check `obeg < oend`
passes and the second byte of the escape is written at `oend`; with the input
`"a"` and one byte of room the end mark is written at `oend`.  In none of
these calls the "broken data" check fails; with room 0 and a non-empty input
it does. -/
theorem encode_writes_past_oend :
    encode_00_0n [] 0 7 = Except.error Fault.out_of_bounds ∧
    encode_00_0n [] 1 7 = Except.error Fault.out_of_bounds ∧
    encode_00_0n [0] 1 7 = Except.error Fault.out_of_bounds ∧
    encode_00_0n [97] 1 7 = Except.error Fault.out_of_bounds ∧
    encode_00_0n [97] 0 7 = Except.error Fault.verify_failed ∧
    encode_00_0n [97] 3 7 = Except.ok [97, 0, 7] :=
  ⟨rfl, rfl, rfl, rfl, rfl, rfl⟩

theorem decode_loop_short (m : Nat) (s : List Nat) (room : Nat) (enc : List Nat)
    (tail : List Nat) (h : encode_00_0n_loop m s room = Except.ok enc) (droom : Nat)
    (hd : droom ≤ s.length) :
    decode_00_0n_loop (enc ++ tail) droom = Except.error Fault.verify_failed := by
  induction s generalizing room enc droom with
  | nil =>
    unfold encode_00_0n_loop at h
    split at h
    · cases h
      have hd0 : droom = 0 := by simpa using hd
      subst hd0
      show decode_00_0n_loop (0 :: m :: tail) 0 = _
      simp only [decode_00_0n_loop, if_true]
    · cases h
  | cons b rest ih =>
    unfold encode_00_0n_loop at h
    split at h
    · cases h
    · split at h
      · rename_i hb
        cases henc : encode_00_0n_loop m rest (room - 1) with
        | error e => rw [henc] at h; cases h
        | ok out =>
          rw [henc] at h
          cases h
          by_cases hd0 : droom = 0
          · subst hd0
            show decode_00_0n_loop (b :: (out ++ tail)) 0 = _
            cases hx : out ++ tail with
            | nil => simp only [decode_00_0n_loop, if_true]
            | cons x xs => simp only [decode_00_0n_loop, if_true]
          · have hd1 : droom - 1 ≤ rest.length := by simp at hd; omega
            have ih1 := ih (room - 1) out henc (droom - 1) hd1
            show decode_00_0n_loop (b :: (out ++ tail)) droom = _
            cases hx : out ++ tail with
            | nil =>
              rw [hx] at ih1
              simp only [decode_00_0n_loop, if_neg hd0, if_pos hb]
              simp only [decode_00_0n_loop] at ih1
              split at ih1
              · rename_i h0
                rw [if_pos h0]
              · cases ih1
            | cons x xs =>
              rw [hx] at ih1
              simp only [decode_00_0n_loop, if_neg hd0, if_pos hb, ih1]
      · rename_i hb
        have hb0 : b = 0 := by simpa using hb
        subst hb0
        split at h
        · cases h
        · cases henc : encode_00_0n_loop m rest (room - 2) with
          | error e => rw [henc] at h; cases h
          | ok out =>
            rw [henc] at h
            cases h
            by_cases hd0 : droom = 0
            · subst hd0
              show decode_00_0n_loop (0 :: 0 :: (out ++ tail)) 0 = _
              simp only [decode_00_0n_loop, if_true]
            · have hd1 : droom - 1 ≤ rest.length := by simp at hd; omega
              have ih1 := ih (room - 2) out henc (droom - 1) hd1
              show decode_00_0n_loop (0 :: 0 :: (out ++ tail)) droom = _
              simp only [decode_00_0n_loop, if_neg hd0, ne_eq, not_true_eq_false, if_false, ih1]

/-- C35 (counterexample): the encodings `0 7` of the empty string and
`97 0 7` of `"a"` are well formed, and `decode_00_0n` with an output buffer
of exactly the decoded length (0 bytes, 1 byte) fails its check `obeg < oend`,
which also runs in the round that meets the ending pair. -/
theorem decode_exact_room_fails :
    encode_00_0n [] 2 7 = Except.ok [0, 7] ∧
    decode_00_0n [0, 7] 0 = Except.error Fault.verify_failed ∧
    encode_00_0n [97] 3 7 = Except.ok [97, 0, 7] ∧
    decode_00_0n [97, 0, 7] 1 = Except.error Fault.verify_failed :=
  ⟨rfl, rfl, rfl, rfl⟩

/-- C35 (amended): for every well-formed encoding (an output of
`encode_00_0n` for a string `s` and a nonzero end mark, followed by any
bytes), `decode_00_0n` succeeds whenever the output buffer holds more bytes
than the decoded string, and it fails its "broken data" check whenever the
buffer holds at most as many bytes as the decoded string. -/
theorem decode_needs_spare_byte (s : List Nat) (m room : Nat) (enc tail : List Nat)
    (droom : Nat) (hm : m ≠ 0) (henc : encode_00_0n s room m = Except.ok enc) :
    (s.length < droom → decode_00_0n (enc ++ tail) droom = Except.ok (s, enc.length)) ∧
    (droom ≤ s.length →
      decode_00_0n (enc ++ tail) droom = Except.error Fault.verify_failed) := by
  unfold encode_00_0n at henc
  rw [if_neg hm] at henc
  exact ⟨fun hd => (encode_loop_decode m hm s room enc tail henc droom hd).1,
    fun hd => decode_loop_short m s room enc tail henc droom hd⟩

theorem decode_needs_spare_byte_witness :
    decode_00_0n ([97, 0, 0, 0, 7] ++ [9]) 3 = Except.ok ([97, 0], 5) ∧
    decode_00_0n ([97, 0, 0, 0, 7] ++ [9]) 2 = Except.error Fault.verify_failed :=
  ⟨(decode_needs_spare_byte [97, 0] 7 5 [97, 0, 0, 0, 7] [9] 3 (by decide) rfl).1 (by decide),
    (decode_needs_spare_byte [97, 0] 7 5 [97, 0, 0, 0, 7] [9] 2 (by decide) rfl).2 (by decide)⟩

theorem encode_loop_room (m : Nat) (s : List Nat) :
    ∀ (r1 r2 : Nat) (e1 e2 : List Nat), encode_00_0n_loop m s r1 = Except.ok e1 →
      encode_00_0n_loop m s r2 = Except.ok e2 → e1 = e2 := by
  induction s with
  | nil =>
    intro r1 r2 e1 e2 h1 h2
    unfold encode_00_0n_loop at h1 h2
    split at h1
    · split at h2
      · cases h1; cases h2; rfl
      · cases h2
    · cases h1
  | cons b rest ih =>
    intro r1 r2 e1 e2 h1 h2
    unfold encode_00_0n_loop at h1 h2
    split at h1
    · cases h1
    · split at h2
      · cases h2
      · split at h1
        · rename_i hb
          rw [if_pos hb] at h2
          cases g1 : encode_00_0n_loop m rest (r1 - 1) with
          | error e => rw [g1] at h1; cases h1
          | ok o1 =>
            cases g2 : encode_00_0n_loop m rest (r2 - 1) with
            | error e => rw [g2] at h2; cases h2
            | ok o2 =>
              rw [g1] at h1
              rw [g2] at h2
              cases h1
              cases h2
              rw [ih _ _ _ _ g1 g2]
        · rename_i hb
          rw [if_neg hb] at h2
          split at h1
          · cases h1
          · split at h2
            · cases h2
            · cases g1 : encode_00_0n_loop m rest (r1 - 2) with
              | error e => rw [g1] at h1; cases h1
              | ok o1 =>
                cases g2 : encode_00_0n_loop m rest (r2 - 2) with
                | error e => rw [g2] at h2; cases h2
                | ok o2 =>
                  rw [g1] at h1
                  rw [g2] at h2
                  cases h1
                  cases h2
                  rw [ih _ _ _ _ g1 g2]

theorem encode_loop_lt (m : Nat) (s : List Nat) :
    ∀ (t : List Nat) (rs rt : Nat) (es et : List Nat),
      encode_00_0n_loop m s rs = Except.ok es → encode_00_0n_loop m t rt = Except.ok et →
      key_lt s t → (∀ r, t ≠ s ++ 0 :: r) → key_lt es et := by
  induction s with
  | nil =>
    intro t rs rt es et hs ht hlt hne
    cases t with
    | nil => cases hlt
    | cons b t1 =>
      have hb : b ≠ 0 := by
        intro hb
        subst hb
        exact hne t1 rfl
      unfold encode_00_0n_loop at hs ht
      split at hs
      · cases hs
        split at ht
        · cases ht
        · cases g : encode_00_0n_loop m t1 (rt - 1) with
          | error e => rw [g] at ht; cases ht
          | ok o =>
            rw [g] at ht
            cases ht
            exact List.Lex.rel (Nat.pos_of_ne_zero hb)
      · cases hs
  | cons a s1 ih =>
    intro t rs rt es et hs ht hlt hne
    cases t with
    | nil => cases hlt
    | cons b t1 =>
      have hcase : a < b ∨ (a = b ∧ key_lt s1 t1) := by
        cases hlt with
        | cons h => exact Or.inr ⟨rfl, h⟩
        | rel h => exact Or.inl h
      unfold encode_00_0n_loop at hs ht
      split at hs
      · cases hs
      · split at ht
        · cases ht
        · rcases hcase with hab | ⟨hab, hlt1⟩
          · have hb : b ≠ 0 := by omega
            rw [if_pos hb] at ht
            cases g : encode_00_0n_loop m t1 (rt - 1) with
            | error e => rw [g] at ht; cases ht
            | ok o =>
              rw [g] at ht
              cases ht
              split at hs
              · cases g1 : encode_00_0n_loop m s1 (rs - 1) with
                | error e => rw [g1] at hs; cases hs
                | ok o1 =>
                  rw [g1] at hs
                  cases hs
                  exact List.Lex.rel hab
              · split at hs
                · cases hs
                · cases g1 : encode_00_0n_loop m s1 (rs - 2) with
                  | error e => rw [g1] at hs; cases hs
                  | ok o1 =>
                    rw [g1] at hs
                    cases hs
                    exact List.Lex.rel (Nat.pos_of_ne_zero hb)
          · subst hab
            have hne1 : ∀ r, t1 ≠ s1 ++ 0 :: r := by
              intro r hr
              exact hne r (by rw [hr]; rfl)
            split at hs
            · rename_i ha
              rw [if_pos ha] at ht
              cases g1 : encode_00_0n_loop m s1 (rs - 1) with
              | error e => rw [g1] at hs; cases hs
              | ok o1 =>
                cases g2 : encode_00_0n_loop m t1 (rt - 1) with
                | error e => rw [g2] at ht; cases ht
                | ok o2 =>
                  rw [g1] at hs
                  rw [g2] at ht
                  cases hs
                  cases ht
                  exact List.Lex.cons (ih t1 _ _ o1 o2 g1 g2 hlt1 hne1)
            · rename_i ha
              rw [if_neg ha] at ht
              split at hs
              · cases hs
              · split at ht
                · cases ht
                · cases g1 : encode_00_0n_loop m s1 (rs - 2) with
                  | error e => rw [g1] at hs; cases hs
                  | ok o1 =>
                    cases g2 : encode_00_0n_loop m t1 (rt - 2) with
                    | error e => rw [g2] at ht; cases ht
                    | ok o2 =>
                      rw [g1] at hs
                      rw [g2] at ht
                      cases hs
                      cases ht
                      exact List.Lex.cons (List.Lex.cons (ih t1 _ _ o1 o2 g1 g2 hlt1 hne1))

theorem key_lt_total (a : List Nat) : ∀ b : List Nat, key_lt a b ∨ a = b ∨ key_lt b a := by
  induction a with
  | nil =>
    intro b
    cases b with
    | nil => exact Or.inr (Or.inl rfl)
    | cons y ys => exact Or.inl List.Lex.nil
  | cons x xs ih =>
    intro b
    cases b with
    | nil => exact Or.inr (Or.inr List.Lex.nil)
    | cons y ys =>
      rcases Nat.lt_trichotomy x y with h | h | h
      · exact Or.inl (List.Lex.rel h)
      · subst h
        rcases ih ys with h1 | h1 | h1
        · exact Or.inl (List.Lex.cons h1)
        · exact Or.inr (Or.inl (by rw [h1]))
        · exact Or.inr (Or.inr (List.Lex.cons h1))
      · exact Or.inr (Or.inr (List.Lex.rel h))

/-- C36 (counterexample): with the end mark 7, the empty string is below the
string `"\0"`, but its encoding `0 7` is above the encoding `0 0 0 7` of
that string: the end mark is compared with the second byte of the escape. -/
theorem encode_reverses_zero_suffix :
    key_lt [] [0] ∧ encode_00_0n [] 2 7 = Except.ok [0, 7] ∧
    encode_00_0n [0] 4 7 = Except.ok [0, 0, 0, 7] ∧
    key_lt [0, 0, 0, 7] [0, 7] ∧ ¬ key_lt [0, 7] [0, 0, 0, 7] :=
  ⟨List.Lex.nil, rfl, rfl, List.Lex.cons (List.Lex.rel (by decide)),
    key_lt_asymm _ _ (List.Lex.cons (List.Lex.rel (by decide)))⟩

/-- C36 (amended): `encode_00_0n` preserves the order of all byte strings `s`
and `t` of which neither is the other followed by a zero byte and more
bytes: for a fixed nonzero end mark, with `es` and `et` the bytes that
`encode_00_0n` wrote for `s` and `t`, `s < t` in unsigned bytewise
lexicographic order if and only if `es < et`. -/
theorem encode_keeps_order (s t : List Nat) (m rs rt : Nat) (es et : List Nat) (hm : m ≠ 0)
    (hs : encode_00_0n s rs m = Except.ok es) (ht : encode_00_0n t rt m = Except.ok et)
    (hst : ∀ r, t ≠ s ++ 0 :: r) (hts : ∀ r, s ≠ t ++ 0 :: r) :
    key_lt s t ↔ key_lt es et := by
  unfold encode_00_0n at hs ht
  rw [if_neg hm] at hs ht
  constructor
  · intro h
    exact encode_loop_lt m s t rs rt es et hs ht h hst
  · intro h
    rcases key_lt_total s t with h1 | h1 | h1
    · exact h1
    · subst h1
      rw [encode_loop_room m s rs rt es et hs ht] at h
      exact absurd h (key_lt_irrefl et)
    · exact absurd (encode_loop_lt m t s rt rs et es ht hs h1 hts) (key_lt_asymm es et h)

theorem encode_keeps_order_witness :
    key_lt [97] [97, 98] ↔ key_lt [97, 0, 7] [97, 98, 0, 7] :=
  encode_keeps_order [97] [97, 98] 7 3 4 [97, 0, 7] [97, 98, 0, 7] (by decide) rfl rfl
    (by intro r h; simp at h) (by intro r h; simp at h)

/-! ## `parallel_for_lines` and `back` -/

/-- C39: the ranges of `parallel_for_lines` overlap when a line is longer
than a part.  For the 12 bytes `"aaaaaaaaaa\nb"` and 3 threads the parts
have 4 bytes; thread 0 gets `[0, 11)`, the whole first line; thread 1 gets
`[8, 11)`, which lies inside the range of thread 0, does not begin where
that range ends and begins in the middle of the first line; thread 2 gets
`[11, 12)`.  The begin of thread 1 is `adjust_bondary(4, 8)`, which stops at
the end of its part, while the end of thread 0 is `adjust_bondary(4, 12)`. -/
theorem parallel_ranges_overlap :
    parallel_for_lines ex_lines 12 3 = [(0, 0, 11), (1, 8, 11), (2, 11, 12)] ∧
    adjust_bondary ex_lines 4 8 = 8 ∧ adjust_bondary ex_lines 4 12 = 11 ∧
    isnewline (ex_lines 7) = false ∧ isnewline (ex_lines 8) = false :=
  ⟨by decide, by decide, by decide, by decide, by decide⟩

theorem SortedStrVec.back_none (v : SortedStrVec) (h : v.m_offsets.length < 2 ^ 64) :
    v.back = none := by
  unfold SortedStrVec.back SortedStrVec.get
  have h1 : ¬ ((v.m_offsets.length + 2 ^ 64 - 1) % 2 ^ 64 + 1) % 2 ^ 64 < v.m_offsets.length := by
    omega
  rw [if_neg h1]

theorem SortedStrVecUintTpl.back_none_tpl (v : SortedStrVecUintTpl)
    (h : v.m_offsets.length < 2 ^ 64) : v.back = none := by
  unfold SortedStrVecUintTpl.back SortedStrVecUintTpl.get
  have h1 : ¬ ((v.m_offsets.length + 2 ^ 64 - 1) % 2 ^ 64 + 1) % 2 ^ 64 < v.m_offsets.length := by
    omega
  rw [if_neg h1]

/-- C40: `back()` calls `operator[]` with the index `m_offsets.size() - 1`,
which is `size()`, not `size() - 1`.  For the vector of the strings `"ab"`,
`"c"` (3 offsets, `size() == 2`) the last string is `(*this)[1]`, and
`back()` passes the index 2, for which the assertion
`idx + 1 < m_offsets.size()` of `operator[]` fails; the same for
`SortedStrVecUintTpl`. -/
theorem back_index_out_of_range :
    ex_sorted_vec.size = some 2 ∧ ex_sorted_vec.get 1 = some [99] ∧
    ex_sorted_vec.back = ex_sorted_vec.get 2 ∧ ex_sorted_vec.back = none ∧
    ex_sorted_tpl.size = some 2 ∧ ex_sorted_tpl.get 1 = some [99] ∧
    ex_sorted_tpl.back = ex_sorted_tpl.get 2 ∧ ex_sorted_tpl.back = none :=
  ⟨by decide, by decide, by decide, SortedStrVec.back_none _ (by decide), by decide, by decide,
    by decide, SortedStrVecUintTpl.back_none_tpl _ (by decide)⟩

/-! ## The floating point coding -/

theorem and_top_bit (k x : Nat) (hx : x < 2 ^ (k + 1)) : x &&& 2 ^ k ≠ 0 ↔ 2 ^ k ≤ x := by
  rw [Nat.and_two_pow, Nat.toNat_testBit]
  have hk : 0 < 2 ^ k := Nat.pow_pos (by decide)
  have hdiv : x / 2 ^ k < 2 := by
    rw [Nat.div_lt_iff_lt_mul hk, Nat.mul_comm, ← Nat.pow_succ]
    exact hx
  constructor
  · intro h
    by_contra hlt
    have h0 : x / 2 ^ k = 0 := Nat.div_eq_of_lt (by omega)
    rw [h0] at h
    simp at h
  · intro h
    have h1 : 1 ≤ x / 2 ^ k := (Nat.le_div_iff_mul_le hk).2 (by omega)
    have h2 : x / 2 ^ k = 1 := by omega
    rw [h2]
    simp

theorem or_top_bit (k x : Nat) (hx : x < 2 ^ k) : x ||| 2 ^ k = x + 2 ^ k := by
  have h := Nat.mul_add_lt_is_or hx 1
  rw [Nat.mul_one] at h
  rw [Nat.lor_comm, ← h, Nat.add_comm]

theorem be_bytes_length (n u : Nat) : (be_bytes n u).length = n := by
  induction n with
  | zero => rfl
  | succ n ih => simp [be_bytes, ih]

theorem be_fold (n : Nat) : ∀ (acc u : Nat),
    (be_bytes n u).foldl (fun a b => a * 256 + b) acc = acc * 256 ^ n + u % 256 ^ n := by
  induction n with
  | zero => intro acc u; simp [be_bytes, Nat.mod_one]
  | succ n ih =>
    intro acc u
    simp only [be_bytes, List.foldl_cons, ih]
    have h1 : u % 256 ^ (n + 1) = u / 256 ^ n % 256 * 256 ^ n + u % 256 ^ n := by
      rw [Nat.pow_succ, Nat.mod_mul, Nat.add_comm, Nat.mul_comm]
    rw [h1, Nat.pow_succ]
    ring

theorem be_value_bytes (n u : Nat) (hu : u < 256 ^ n) : be_value (be_bytes n u) = u := by
  unfold be_value
  rw [be_fold, Nat.zero_mul, Nat.zero_add, Nat.mod_eq_of_lt hu]

theorem be_bytes_mod (n : Nat) : ∀ u : Nat, be_bytes n (u % 256 ^ n) = be_bytes n u := by
  induction n with
  | zero => intro u; rfl
  | succ n ih =>
    intro u
    have h1 : u % 256 ^ (n + 1) / 256 ^ n % 256 = u / 256 ^ n % 256 := by
      rw [Nat.pow_succ, Nat.mod_mul_right_div_self, Nat.mod_mod]
    have h2 : be_bytes n (u % 256 ^ (n + 1)) = be_bytes n u := by
      rw [← ih (u % 256 ^ (n + 1)), ← ih u, Nat.pow_succ, Nat.mod_mul_right_mod]
    simp only [be_bytes, h1, h2]

theorem be_bytes_lt (n : Nat) : ∀ (u v : Nat), u < 256 ^ n → v < 256 ^ n → u < v →
    key_lt (be_bytes n u) (be_bytes n v) := by
  induction n with
  | zero => intro u v hu hv h; simp at hu hv; omega
  | succ n ih =>
    intro u v hu hv h
    have hp : 0 < 256 ^ n := Nat.pow_pos (by decide)
    have hdu : u / 256 ^ n < 256 := by
      rw [Nat.div_lt_iff_lt_mul hp, Nat.mul_comm, ← Nat.pow_succ]; exact hu
    have hdv : v / 256 ^ n < 256 := by
      rw [Nat.div_lt_iff_lt_mul hp, Nat.mul_comm, ← Nat.pow_succ]; exact hv
    have hle : u / 256 ^ n ≤ v / 256 ^ n := Nat.div_le_div_right (Nat.le_of_lt h)
    simp only [be_bytes, Nat.mod_eq_of_lt hdu, Nat.mod_eq_of_lt hdv]
    rcases Nat.lt_or_eq_of_le hle with hlt | heq
    · exact List.Lex.rel hlt
    · rw [heq]
      apply List.Lex.cons
      rw [← be_bytes_mod n u, ← be_bytes_mod n v]
      apply ih _ _ (Nat.mod_lt _ hp) (Nat.mod_lt _ hp)
      have hu1 := Nat.div_add_mod u (256 ^ n)
      have hv1 := Nat.div_add_mod v (256 ^ n)
      rw [heq] at hu1
      omega
theorem zero_pattern_bytes4 : zero_pattern 4 = be_bytes 4 2147483648 := by decide

theorem zero_pattern_bytes8 : zero_pattern 8 = be_bytes 8 9223372036854775808 := by decide

theorem be_bytes_inj (n u v : Nat) (hu : u < 256 ^ n) (hv : v < 256 ^ n)
    (h : be_bytes n u = be_bytes n v) : u = v := by
  rw [← be_value_bytes n u hu, ← be_value_bytes n v hv, h]

theorem take_bytes (n u : Nat) (tail : List Nat) :
    (be_bytes n u ++ tail).take n = be_bytes n u := by
  rw [List.take_append_of_le_length (by rw [be_bytes_length])]
  exact List.take_of_length_le (by rw [be_bytes_length])

theorem encode_real4 (nr : Nat) (hnr : nr < 4294967296) :
    encode_memcmp_real 4 nr =
      if nr % 2147483648 = 0 then (zero_pattern 4, 4)
      else (be_bytes 4 (if 2147483648 ≤ nr then 4294967295 - nr
        else (nr + 2147483648 + 8388608) % 4294967296), 4) := by
  unfold encode_memcmp_real real_is_zero
  have ha := and_top_bit 31 nr (by norm_num; exact hnr)
  norm_num [FLT_EXP_DIG, FLT_MANT_DIG] at ha ⊢
  by_cases hz : nr % 2147483648 = 0
  · simp [hz]
  · simp only [hz, if_false]
    by_cases hs : 2147483648 ≤ nr
    · have h1 : ¬ nr &&& 2147483648 = 0 := ha.2 hs
      simp [h1, hs]
    · have h1 : nr &&& 2147483648 = 0 := by
        by_contra h
        exact hs (ha.1 h)
      have h2 := or_top_bit 31 nr (by norm_num; omega)
      norm_num at h2
      simp [h1, hs, h2]

theorem decode_real4 (u : Nat) (hu : u < 4294967296) (tail : List Nat) :
    decode_memcmp_real 4 (be_bytes 4 u ++ tail) =
      some (if u = 2147483648 then 0
        else if 2147483648 ≤ u then (u + 4294967296 - 8388608) % 4294967296 % 2147483648
        else 4294967295 - u, 4) := by
  unfold decode_memcmp_real
  have hlen : ¬ (be_bytes 4 u ++ tail).length < 4 := by
    rw [List.length_append, be_bytes_length]
    omega
  rw [if_neg hlen, take_bytes, be_value_bytes 4 u (by norm_num; exact hu)]
  by_cases hz : u = 2147483648
  · subst hz
    rw [if_pos zero_pattern_bytes4.symm, if_pos rfl]
  · have hz1 : ¬ be_bytes 4 u = zero_pattern 4 := by
      intro h
      rw [zero_pattern_bytes4] at h
      exact hz (be_bytes_inj 4 u _ (by norm_num; exact hu) (by norm_num) h)
    rw [if_neg hz1, if_neg hz]
    have ha := and_top_bit 31 u (by norm_num; exact hu)
    have hm := Nat.and_pow_two_sub_one_eq_mod ((u + 4294967296 - 8388608) % 4294967296) 31
    have hsh : (4294967295 : Nat) >>> 1 = 2147483647 := by decide
    norm_num [FLT_EXP_DIG, FLT_MANT_DIG] at ha hm ⊢
    by_cases hs : 2147483648 ≤ u
    · have h1 : ¬ u &&& 2147483648 = 0 := ha.2 hs
      simp only [h1, hs, if_true, if_false, not_false_eq_true, hsh, hm]
    · have h1 : u &&& 2147483648 = 0 := by
        by_contra h
        exact hs (ha.1 h)
      simp [h1, hs]

theorem encode_real8 (nr : Nat) (hnr : nr < 18446744073709551616) :
    encode_memcmp_real 8 nr =
      if nr % 9223372036854775808 = 0 then (zero_pattern 8, 8)
      else (be_bytes 8 (if 9223372036854775808 ≤ nr then 18446744073709551615 - nr
        else (nr + 9223372036854775808 + 4503599627370496) % 18446744073709551616), 8) := by
  unfold encode_memcmp_real real_is_zero
  have ha := and_top_bit 63 nr (by norm_num; exact hnr)
  norm_num [DBL_EXP_DIG, DBL_MANT_DIG] at ha ⊢
  by_cases hz : nr % 9223372036854775808 = 0
  · simp [hz]
  · simp only [hz, if_false]
    by_cases hs : 9223372036854775808 ≤ nr
    · have h1 : ¬ nr &&& 9223372036854775808 = 0 := ha.2 hs
      simp [h1, hs]
    · have h1 : nr &&& 9223372036854775808 = 0 := by
        by_contra h
        exact hs (ha.1 h)
      have h2 := or_top_bit 63 nr (by norm_num; omega)
      norm_num at h2
      simp [h1, hs, h2]

theorem decode_real8 (u : Nat) (hu : u < 18446744073709551616) (tail : List Nat) :
    decode_memcmp_real 8 (be_bytes 8 u ++ tail) =
      some (if u = 9223372036854775808 then 0
        else if 9223372036854775808 ≤ u then
          (u + 18446744073709551616 - 4503599627370496) % 18446744073709551616 %
            9223372036854775808
        else 18446744073709551615 - u, 8) := by
  unfold decode_memcmp_real
  have hlen : ¬ (be_bytes 8 u ++ tail).length < 8 := by
    rw [List.length_append, be_bytes_length]
    omega
  rw [if_neg hlen, take_bytes, be_value_bytes 8 u (by norm_num; exact hu)]
  by_cases hz : u = 9223372036854775808
  · subst hz
    rw [if_pos zero_pattern_bytes8.symm, if_pos rfl]
  · have hz1 : ¬ be_bytes 8 u = zero_pattern 8 := by
      intro h
      rw [zero_pattern_bytes8] at h
      exact hz (be_bytes_inj 8 u _ (by norm_num; exact hu) (by norm_num) h)
    rw [if_neg hz1, if_neg hz]
    have ha := and_top_bit 63 u (by norm_num; exact hu)
    have hm := Nat.and_pow_two_sub_one_eq_mod
      ((u + 18446744073709551616 - 4503599627370496) % 18446744073709551616) 63
    have hsh : (18446744073709551615 : Nat) >>> 1 = 9223372036854775807 := by decide
    norm_num [DBL_EXP_DIG, DBL_MANT_DIG] at ha hm ⊢
    by_cases hs : 9223372036854775808 ≤ u
    · have h1 : ¬ u &&& 9223372036854775808 = 0 := ha.2 hs
      simp only [h1, hs, if_true, if_false, not_false_eq_true, hsh, hm]
    · have h1 : u &&& 9223372036854775808 = 0 := by
        by_contra h
        exact hs (ha.1 h)
      simp [h1, hs]

/-- C37: `+infinity` does not come back.  For a `float` (`0x7F800000`) and for
a `double` (`0x7FF0000000000000`), which are not NaN, the branch commented
"Set high and move exponent one up" sets the high bit and adds one to the
exponent field, which is all ones: the sum wraps around to 0 and clears the
high bit again.  `encode_memcmp_real` writes zero bytes only, and
`decode_memcmp_real`, whose comments say that a set high bit means a positive
original and a clear one a negative original, takes the bytes for a negated
pattern and returns the pattern of all ones, a NaN. -/
theorem positive_infinity_lost :
    real_pos_inf 4 FLT_EXP_DIG = 0x7F800000 ∧ ¬ real_is_nan 4 FLT_EXP_DIG 0x7F800000 ∧
    encode_memcmp_real 4 0x7F800000 = ([0, 0, 0, 0], 4) ∧
    decode_memcmp_real 4 [0, 0, 0, 0] = some (0xFFFFFFFF, 4) ∧
    real_pos_inf 8 DBL_EXP_DIG = 0x7FF0000000000000 ∧
    ¬ real_is_nan 8 DBL_EXP_DIG 0x7FF0000000000000 ∧
    encode_memcmp_real 8 0x7FF0000000000000 = ([0, 0, 0, 0, 0, 0, 0, 0], 8) ∧
    decode_memcmp_real 8 [0, 0, 0, 0, 0, 0, 0, 0] = some (0xFFFFFFFFFFFFFFFF, 8) := by
  refine ⟨by decide, ?_, by decide, by decide, by decide, ?_, by decide, by decide⟩
  · unfold real_is_nan real_exp
    decide
  · unfold real_is_nan real_exp
    decide

/-- The round trip apart from `+infinity` (the part of C37 that holds):
`decode_memcmp_real` undoes `encode_memcmp_real` for `float` (`size = 4`) and
`double` (`size = 8`): for every value that is not a NaN and not `+infinity` (`-infinity` and the subnormals included), decoding
the `size` bytes that `encode_memcmp_real` wrote (whatever follows them)
yields the bit pattern of the value, except that `-0.0` comes back as `+0.0`;
both functions advance their pointer by `size`, and `size` bytes are
written. -/
theorem real_round_trip (size nr : Nat) (tail : List Nat) (hsize : size = 4 ∨ size = 8)
    (hnr : nr < 2 ^ (size * 8))
    (hnan : ¬ real_is_nan size (if size = 4 then FLT_EXP_DIG else DBL_EXP_DIG) nr)
    (hinf : nr ≠ real_pos_inf size (if size = 4 then FLT_EXP_DIG else DBL_EXP_DIG)) :
    decode_memcmp_real size ((encode_memcmp_real size nr).1 ++ tail) =
        some (if real_is_zero size nr then 0 else nr, size) ∧
      (encode_memcmp_real size nr).2 = size ∧ (encode_memcmp_real size nr).1.length = size := by
  rcases hsize with rfl | rfl
  · norm_num [real_is_nan, real_exp, real_pos_inf, FLT_EXP_DIG, FLT_MANT_DIG] at hnr hnan hinf
    rw [encode_real4 nr hnr]
    unfold real_is_zero
    norm_num
    by_cases hz : nr % 2147483648 = 0
    · simp only [hz, if_true]
      refine ⟨?_, trivial, by decide⟩
      rw [zero_pattern_bytes4, decode_real4 _ (by norm_num)]
      rfl
    · simp only [hz, if_false]
      refine ⟨?_, trivial, be_bytes_length _ _⟩
      by_cases hs : 2147483648 ≤ nr
      · rw [if_pos hs, decode_real4 _ (by omega)]
        have h1 : ¬ 4294967295 - nr = 2147483648 := by omega
        have h2 : ¬ 2147483648 ≤ 4294967295 - nr := by omega
        have h3 : 4294967295 - (4294967295 - nr) = nr := by omega
        rw [if_neg h1, if_neg h2, h3]
      · rw [if_neg hs]
        have hex : nr / 8388608 % 256 ≠ 255 := by
          intro h
          by_cases hm : nr % 8388608 = 0
          · omega
          · exact hm (hnan h)
        have hlt : nr < 2139095040 := by omega
        have hu : (nr + 2147483648 + 8388608) % 4294967296 = nr + 2155872256 := by omega
        rw [hu, decode_real4 _ (by omega)]
        have h1 : ¬ nr + 2155872256 = 2147483648 := by omega
        have h2 : 2147483648 ≤ nr + 2155872256 := by omega
        have h3 : (nr + 2155872256 + 4294967296 - 8388608) % 4294967296 % 2147483648 = nr := by
          omega
        rw [if_neg h1, if_pos h2, h3]
  · norm_num [real_is_nan, real_exp, real_pos_inf, DBL_EXP_DIG, DBL_MANT_DIG] at hnr hnan hinf
    rw [encode_real8 nr hnr]
    unfold real_is_zero
    norm_num
    by_cases hz : nr % 9223372036854775808 = 0
    · simp only [hz, if_true]
      refine ⟨?_, trivial, by decide⟩
      rw [zero_pattern_bytes8, decode_real8 _ (by norm_num)]
      rfl
    · simp only [hz, if_false]
      refine ⟨?_, trivial, be_bytes_length _ _⟩
      by_cases hs : 9223372036854775808 ≤ nr
      · rw [if_pos hs, decode_real8 _ (by omega)]
        have h1 : ¬ 18446744073709551615 - nr = 9223372036854775808 := by omega
        have h2 : ¬ 9223372036854775808 ≤ 18446744073709551615 - nr := by omega
        have h3 : 18446744073709551615 - (18446744073709551615 - nr) = nr := by omega
        rw [if_neg h1, if_neg h2, h3]
      · rw [if_neg hs]
        have hex : nr / 4503599627370496 % 2048 ≠ 2047 := by
          intro h
          by_cases hm : nr % 4503599627370496 = 0
          · omega
          · exact hm (hnan h)
        have hlt : nr < 9218868437227405312 := by omega
        have hu : (nr + 9223372036854775808 + 4503599627370496) % 18446744073709551616 =
            nr + 9227875636482146304 := by omega
        rw [hu, decode_real8 _ (by omega)]
        have h1 : ¬ nr + 9227875636482146304 = 9223372036854775808 := by omega
        have h2 : 9223372036854775808 ≤ nr + 9227875636482146304 := by omega
        have h3 : (nr + 9227875636482146304 + 18446744073709551616 - 4503599627370496) %
            18446744073709551616 % 9223372036854775808 = nr := by
          omega
        rw [if_neg h1, if_pos h2, h3]

theorem real_round_trip_witness :
    decode_memcmp_real 4 ((encode_memcmp_real 4 0xFF800000).1 ++ [9]) =
        some (if real_is_zero 4 0xFF800000 then 0 else 0xFF800000, 4) ∧
      (encode_memcmp_real 4 0xFF800000).2 = 4 ∧ (encode_memcmp_real 4 0xFF800000).1.length = 4 :=
  real_round_trip 4 0xFF800000 [9] (Or.inl rfl) (by decide)
    (by unfold real_is_nan real_exp; decide) (by decide)
theorem mag_bits_zero (p : Nat) : mag_bits p 0 = 0 := by
  simp [mag_bits]

theorem mag_bits_mono (p a b : Nat) (h : a < b) : mag_bits p a < mag_bits p b := by
  have hp : 0 < 2 ^ p := Nat.pow_pos (by decide)
  have hma : a % 2 ^ p < 2 ^ p := Nat.mod_lt _ hp
  have hmb : b % 2 ^ p < 2 ^ p := Nat.mod_lt _ hp
  have hda := Nat.div_add_mod a (2 ^ p)
  have hdb := Nat.div_add_mod b (2 ^ p)
  have hle : a / 2 ^ p ≤ b / 2 ^ p := Nat.div_le_div_right (Nat.le_of_lt h)
  unfold mag_bits
  generalize a / 2 ^ p = ea at *
  generalize b / 2 ^ p = eb at *
  generalize a % 2 ^ p = ma at *
  generalize b % 2 ^ p = mb at *
  have hupper : (if ea = 0 then ma else (2 ^ p + ma) * 2 ^ (ea - 1)) < 2 ^ (p + ea) := by
    by_cases h0 : ea = 0
    · rw [if_pos h0, h0, Nat.add_zero]
      exact hma
    · rw [if_neg h0]
      have h1 : p + ea = (p + 1) + (ea - 1) := by omega
      rw [h1, Nat.pow_add]
      apply Nat.mul_lt_mul_of_pos_right _ (Nat.pow_pos (by decide))
      rw [Nat.pow_succ]
      omega
  rcases Nat.lt_or_eq_of_le hle with hlt | heq
  · have hb0 : eb ≠ 0 := by omega
    have hlower : 2 ^ (p + ea) ≤ (if eb = 0 then mb else (2 ^ p + mb) * 2 ^ (eb - 1)) := by
      rw [if_neg hb0]
      have h1 : 2 ^ (p + ea) ≤ 2 ^ p * 2 ^ (eb - 1) := by
        rw [← Nat.pow_add]
        exact Nat.pow_le_pow_right (by decide) (by omega)
      exact Nat.le_trans h1 (Nat.mul_le_mul_right _ (Nat.le_add_right _ _))
    exact Nat.lt_of_lt_of_le hupper hlower
  · subst heq
    have hm : ma < mb := by omega
    by_cases h0 : ea = 0
    · rw [if_pos h0, if_pos h0]
      exact hm
    · rw [if_neg h0, if_neg h0]
      apply Nat.mul_lt_mul_of_pos_right _ (Nat.pow_pos (by decide))
      omega

theorem mag_bits_le (p a b : Nat) (h : mag_bits p a < mag_bits p b) : a < b := by
  by_contra hn
  rcases Nat.lt_or_eq_of_le (Nat.le_of_not_lt hn) with h1 | h1
  · have := mag_bits_mono p b a h1
    omega
  · subst h1
    omega

theorem real_value4 (x : Nat) (hx : x < 4294967296) :
    real_value 4 FLT_EXP_DIG x =
      if 2147483648 ≤ x then -(mag_bits 23 (x % 2147483648) : Int)
      else (mag_bits 23 (x % 2147483648) : Int) := by
  have hm : real_mag 4 FLT_EXP_DIG x = mag_bits 23 (x % 2147483648) := by
    unfold real_mag real_exp mag_bits
    norm_num [FLT_EXP_DIG, FLT_MANT_DIG]
    have h1 : x / 8388608 % 256 = x % 2147483648 / 8388608 := by omega
    rw [h1]
  unfold real_value
  rw [hm]
  norm_num
  by_cases hs : 2147483648 ≤ x
  · have h1 : x / 2147483648 % 2 = 1 := by omega
    rw [if_pos h1, if_pos hs]
  · have h1 : ¬ x / 2147483648 % 2 = 1 := by omega
    rw [if_neg h1, if_neg hs]

theorem real_value8 (x : Nat) (hx : x < 18446744073709551616) :
    real_value 8 DBL_EXP_DIG x =
      if 9223372036854775808 ≤ x then -(mag_bits 52 (x % 9223372036854775808) : Int)
      else (mag_bits 52 (x % 9223372036854775808) : Int) := by
  have hm : real_mag 8 DBL_EXP_DIG x = mag_bits 52 (x % 9223372036854775808) := by
    unfold real_mag real_exp mag_bits
    norm_num [DBL_EXP_DIG, DBL_MANT_DIG]
    have h1 : x / 4503599627370496 % 2048 = x % 9223372036854775808 / 4503599627370496 := by
      omega
    rw [h1]
  unfold real_value
  rw [hm]
  norm_num
  by_cases hs : 9223372036854775808 ≤ x
  · have h1 : x / 9223372036854775808 % 2 = 1 := by omega
    rw [if_pos h1, if_pos hs]
  · have h1 : ¬ x / 9223372036854775808 % 2 = 1 := by omega
    rw [if_neg h1, if_neg hs]

theorem encode_bytes4 (x : Nat) (hx : x < 4294967296) :
    (encode_memcmp_real 4 x).1 =
      be_bytes 4 (if x % 2147483648 = 0 then 2147483648
        else if 2147483648 ≤ x then 4294967295 - x
        else (x + 2147483648 + 8388608) % 4294967296) := by
  rw [encode_real4 x hx]
  by_cases hz : x % 2147483648 = 0
  · rw [if_pos hz, if_pos hz, zero_pattern_bytes4]
  · rw [if_neg hz, if_neg hz]

theorem encode_bytes8 (x : Nat) (hx : x < 18446744073709551616) :
    (encode_memcmp_real 8 x).1 =
      be_bytes 8 (if x % 9223372036854775808 = 0 then 9223372036854775808
        else if 9223372036854775808 ≤ x then 18446744073709551615 - x
        else (x + 9223372036854775808 + 4503599627370496) % 18446744073709551616) := by
  rw [encode_real8 x hx]
  by_cases hz : x % 9223372036854775808 = 0
  · rw [if_pos hz, if_pos hz, zero_pattern_bytes8]
  · rw [if_neg hz, if_neg hz]

theorem order_cases (B T a b : Nat) (sx sy : Bool) (ma mb : Nat)
    (hlt : (if sx then -(ma : Int) else (ma : Int)) < (if sy then -(mb : Int) else (mb : Int)))
    (hab : ma < mb → a < b) (hba : mb < ma → b < a) (ha0 : a = 0 → ma = 0)
    (hb0 : b = 0 → mb = 0) (ha : a < B - T) (hT : 0 < T) (hTB : T < B) :
    (if a = 0 then B else if sx then B - 1 - a else a + B + T) <
      (if b = 0 then B else if sy then B - 1 - b else b + B + T) := by
  cases sx <;> cases sy <;> simp only [if_true, if_false, Bool.false_eq_true] at hlt ⊢
  · have h1 : ma < mb := by omega
    have h2 := hab h1
    have hb1 : b ≠ 0 := by omega
    rw [if_neg hb1]
    split <;> omega
  · have hb1 : b ≠ 0 ∨ b = 0 := by omega
    exfalso
    omega
  · by_cases ha1 : a = 0
    · have := ha0 ha1
      have hb1 : b ≠ 0 := by
        intro hb1
        have := hb0 hb1
        omega
      rw [if_pos ha1, if_neg hb1]
      omega
    · rw [if_neg ha1]
      split <;> omega
  · have h1 : mb < ma := by omega
    have h2 := hba h1
    have ha1 : a ≠ 0 := by omega
    rw [if_neg ha1]
    split <;> omega

/-- C38: `encode_memcmp_real` keeps the order of finite values.  For `float`
(`size = 4`) and `double` (`size = 8`) and all finite values `x < y` (given
by their IEEE-754 bit patterns; the order is that of the values
`real_value`), the `size` bytes encoded for `x` are strictly below those
encoded for `y` in unsigned bytewise order; and `+0.0` and `-0.0` encode to
the same bytes `0x80 0x00 … 0x00`. -/
theorem real_order_kept (size x y : Nat) (hsize : size = 4 ∨ size = 8)
    (hx : x < 2 ^ (size * 8)) (hy : y < 2 ^ (size * 8))
    (hfx : real_exp size (if size = 4 then FLT_EXP_DIG else DBL_EXP_DIG) x ≠
      2 ^ (if size = 4 then FLT_EXP_DIG else DBL_EXP_DIG) - 1)
    (hfy : real_exp size (if size = 4 then FLT_EXP_DIG else DBL_EXP_DIG) y ≠
      2 ^ (if size = 4 then FLT_EXP_DIG else DBL_EXP_DIG) - 1)
    (hlt : real_value size (if size = 4 then FLT_EXP_DIG else DBL_EXP_DIG) x <
      real_value size (if size = 4 then FLT_EXP_DIG else DBL_EXP_DIG) y) :
    key_lt (encode_memcmp_real size x).1 (encode_memcmp_real size y).1 ∧
      (encode_memcmp_real size 0).1 = 128 :: List.replicate (size - 1) 0 ∧
      (encode_memcmp_real size (2 ^ (size * 8 - 1))).1 = 128 :: List.replicate (size - 1) 0 := by
  rcases hsize with rfl | rfl
  · refine ⟨?_, by decide, by decide⟩
    norm_num [real_exp, FLT_EXP_DIG, FLT_MANT_DIG] at hx hy hfx hfy
    have hvx := real_value4 x hx
    have hvy := real_value4 y hy
    simp only [if_true] at hlt
    rw [hvx, hvy] at hlt
    rw [encode_bytes4 x hx, encode_bytes4 y hy]
    have hux : (x + 2147483648 + 8388608) % 4294967296 =
        if 2147483648 ≤ x then (x + 2147483648 + 8388608) % 4294967296
        else x % 2147483648 + 2147483648 + 8388608 := by
      split <;> omega
    have huy : (y + 2147483648 + 8388608) % 4294967296 =
        if 2147483648 ≤ y then (y + 2147483648 + 8388608) % 4294967296
        else y % 2147483648 + 2147483648 + 8388608 := by
      split <;> omega
    have key := order_cases 2147483648 8388608 (x % 2147483648) (y % 2147483648)
      (decide (2147483648 ≤ x)) (decide (2147483648 ≤ y)) (mag_bits 23 (x % 2147483648))
      (mag_bits 23 (y % 2147483648)) (by simpa using hlt) (mag_bits_le 23 _ _)
      (mag_bits_le 23 _ _) (fun h => by rw [h, mag_bits_zero])
      (fun h => by rw [h, mag_bits_zero]) (by omega) (by decide) (by decide)
    apply be_bytes_lt 4 _ _ _ _ _
    · split
      · norm_num
      · split <;> omega
    · split
      · norm_num
      · split <;> omega
    · simp only [decide_eq_true_eq] at key
      by_cases hzx : x % 2147483648 = 0 <;> by_cases hzy : y % 2147483648 = 0 <;>
        by_cases hsx : 2147483648 ≤ x <;> by_cases hsy : 2147483648 ≤ y <;>
        simp only [hzx, hzy, hsx, hsy, if_true, if_false] at key ⊢ <;> omega
  · refine ⟨?_, by decide, by decide⟩
    norm_num [real_exp, DBL_EXP_DIG, DBL_MANT_DIG] at hx hy hfx hfy
    have hvx := real_value8 x hx
    have hvy := real_value8 y hy
    have h84 : ¬ (8 : Nat) = 4 := by decide
    simp only [h84, if_false] at hlt
    rw [hvx, hvy] at hlt
    rw [encode_bytes8 x hx, encode_bytes8 y hy]
    have key := order_cases 9223372036854775808 4503599627370496 (x % 9223372036854775808)
      (y % 9223372036854775808) (decide (9223372036854775808 ≤ x))
      (decide (9223372036854775808 ≤ y)) (mag_bits 52 (x % 9223372036854775808))
      (mag_bits 52 (y % 9223372036854775808)) (by simpa using hlt) (mag_bits_le 52 _ _)
      (mag_bits_le 52 _ _) (fun h => by rw [h, mag_bits_zero])
      (fun h => by rw [h, mag_bits_zero]) (by omega) (by decide) (by decide)
    apply be_bytes_lt 8 _ _ _ _ _
    · split
      · norm_num
      · split <;> omega
    · split
      · norm_num
      · split <;> omega
    · simp only [decide_eq_true_eq] at key
      by_cases hzx : x % 9223372036854775808 = 0 <;>
        by_cases hzy : y % 9223372036854775808 = 0 <;>
        by_cases hsx : 9223372036854775808 ≤ x <;> by_cases hsy : 9223372036854775808 ≤ y <;>
        simp only [hzx, hzy, hsx, hsy, if_true, if_false] at key ⊢ <;> omega

theorem real_order_kept_witness :
    key_lt (encode_memcmp_real 4 0x80000001).1 (encode_memcmp_real 4 1).1 ∧
      (encode_memcmp_real 4 0).1 = 128 :: List.replicate (4 - 1) 0 ∧
      (encode_memcmp_real 4 (2 ^ (4 * 8 - 1))).1 = 128 :: List.replicate (4 - 1) 0 :=
  real_order_kept 4 0x80000001 1 (Or.inl rfl) (by decide) (by decide) (by decide) (by decide)
    (by decide)

/-! ## Sequences of operations keep the invariant of the pool -/

/-- The checker `check_ops` is sound. -/
theorem check_ops_sound (P : Params) (fuel : Nat) (os : List Op)
    (s : ThreadCacheMemPool × List (Nat × Nat)) (h : check_ops P fuel os s = true) :
    ValidOps P fuel os s := by
  induction os generalizing s with
  | nil => trivial
  | cons o os ih =>
    unfold check_ops at h
    rw [Bool.and_eq_true] at h
    refine ⟨of_decide_eq_true h.1, ?_⟩
    intro s1 hs1
    have h2 := h.2
    rw [hs1] at h2
    exact ih s1 h2

/-- The length of the chunk taken by `tc_populate` is a multiple of
`AlignSize` and does not take `used` past the capacity. -/
theorem tc_populate_len_ok {P : Params} {mp : ThreadCacheMemPool} (h : ArenaWF P mp)
    (hA : ValidAlign P.AlignSize) (sz : Nat) (hsz : sz ≤ 2 ^ 61) :
    tc_populate_len mp sz % P.AlignSize = 0 ∧ mp.n + tc_populate_len mp sz ≤ mp.c := by
  have hd := h.align_dvd_chunk hA
  obtain ⟨j, hj61, hj, _⟩ := h.chunk
  have hcpos : 0 < mp.m_chunk_size := by rw [hj]; exact Nat.two_pow_pos j
  have hcle : mp.m_chunk_size ≤ 2 ^ 61 := by
    rw [hj]; exact Nat.pow_le_pow_right (by norm_num) hj61
  have hclt : mp.m_chunk_size < 2 ^ 64 := by omega
  have hcap := h.cap_le
  have hul := h.used_le
  have hdown : pow2_align_down sz mp.m_chunk_size % P.AlignSize = 0 := by
    unfold pow2_align_down
    exact Nat.mod_eq_zero_of_dvd (Dvd.dvd.mul_left hd _)
  have hdle : pow2_align_down sz mp.m_chunk_size ≤ sz := Nat.div_mul_le_self _ _
  have hrem : chunk_rem (tosize (mp.p + mp.n)) mp.m_chunk_size % P.AlignSize = 0 := by
    rw [chunk_rem_eq ⟨j, by omega, hj⟩, Nat.mod_mod_of_dvd _ hd]
    unfold tosize
    rw [Nat.mod_mod_of_dvd _ hA.dvd_size]
    exact Nat.mod_eq_zero_of_dvd (Nat.dvd_add (Nat.dvd_of_mod_eq_zero h.base_al)
      (Nat.dvd_of_mod_eq_zero h.used_al))
  have hfix : populate_len_fix mp (pow2_align_down sz mp.m_chunk_size) % P.AlignSize = 0 := by
    unfold populate_len_fix
    split
    · have hlt : chunk_rem (tosize (mp.p + mp.n)) mp.m_chunk_size < mp.m_chunk_size := by
        rw [chunk_rem_eq ⟨j, by omega, hj⟩]
        exact Nat.mod_lt _ hcpos
      rw [size_sub_of_le (le_of_lt hlt) hclt]
      unfold tosize
      rw [Nat.mod_mod_of_dvd _ hA.dvd_size]
      exact Nat.mod_eq_zero_of_dvd (Nat.dvd_add (Nat.dvd_of_mod_eq_zero hdown)
        (Nat.dvd_sub' hd (Nat.dvd_of_mod_eq_zero hrem)))
    · exact hdown
  have hfle := populate_len_fix_le mp (pow2_align_down sz mp.m_chunk_size) hcpos hclt
  unfold tc_populate_len
  simp only
  generalize populate_len_fix mp (pow2_align_down sz mp.m_chunk_size) = l at hfix hfle
  rw [tosize_of_lt (by omega : mp.n + l < 2 ^ 64)]
  by_cases h1 : mp.n + l > mp.c
  · rw [if_pos h1, size_sub_of_le hul (by omega)]
    refine ⟨?_, by omega⟩
    exact Nat.mod_eq_zero_of_dvd (Nat.dvd_sub' (Nat.dvd_of_mod_eq_zero h.cap_al)
      (Nat.dvd_of_mod_eq_zero h.used_al))
  · rw [if_neg h1]
    exact ⟨hfix, by omega⟩

/-- The loop of `populate_hot_area` writes inside `[pos, hot_end)` only, when
it starts at a word boundary and steps by whole words. -/
theorem populate_loop_outside (A hot_end ps : Nat) (hps : ps % sizeof_link A = 0)
    (hw : hot_end + ps ≤ 2 ^ 64) :
    ∀ (fuel pos : Nat) (m m1 : Nat → Nat), pos % sizeof_link A = 0 →
      populate_loop A hot_end ps fuel pos m = some m1 →
      ∀ x, (x < pos ∨ hot_end ≤ x) → m1 x = m x := by
  intro fuel
  induction fuel with
  | zero =>
    intro pos m m1 _ h
    unfold populate_loop at h
    exact absurd h (by simp)
  | succ f ih =>
    intro pos m m1 hal h x hx
    unfold populate_loop at h
    by_cases hlt : pos < hot_end
    · rw [if_pos hlt, tosize_of_lt (by omega)] at h
      have hnext : (pos + ps) % sizeof_link A = 0 :=
        Nat.mod_eq_zero_of_dvd (Nat.dvd_add (Nat.dvd_of_mod_eq_zero hal)
          (Nat.dvd_of_mod_eq_zero hps))
      rw [ih (pos + ps) _ m1 hnext h x (by omega)]
      unfold store_byte_zero
      have hw0 : pos / sizeof_link A * sizeof_link A = pos :=
        Nat.div_mul_cancel (Nat.dvd_of_mod_eq_zero hal)
      rw [hw0]
      exact Function.update_noteq (by omega) _ _
    · rw [if_neg hlt] at h
      rw [← Option.some.inj h]

theorem sizeof_link_dvd_align {A : Nat} (hA : ValidAlign A) : sizeof_link A ∣ A := by
  obtain ⟨j, h2, _, rfl⟩ := hA
  unfold sizeof_link link_bits
  by_cases h4 : 2 ^ j = 4
  · rw [if_pos h4, h4]
  · rw [if_neg h4]
    have h3 : 3 ≤ j := by
      by_contra hcon
      have : j = 2 := by omega
      rw [this] at h4
      exact h4 (by norm_num)
    exact Dvd.dvd.trans (by norm_num : 64 / 8 ∣ 2 ^ 3) (Nat.pow_dvd_pow 2 h3)

/-- The method `tc_populate(sz)` keeps the invariant of the pool: the chunk it
takes becomes the end of the hot region of the calling thread cache, whose old
remainder is released unless the chunk extends it, and the bytes written by
`populate_hot_area` lie in the hot region. -/
theorem tc_populate_inv (P : Params) (fuel : Nat) (mp : ThreadCacheMemPool)
    (live : List (Nat × Nat)) (FF : Nat → Nat → List Nat) (EE : Nat → List (Nat × Nat))
    (tid sz : Nat) (h : PoolInv P mp live FF EE) (hfuel : mp.c + 2 < fuel)
    (htid : tid < mp.tls.length) (hsz : sz ≤ 2 ^ 61) :
    ∃ mp1 FF1 EE1, tc_populate P fuel mp tid sz = some mp1 ∧
      PoolInv P mp1 live FF1 EE1 ∧ mp1.c = mp.c := by
  obtain ⟨c, hctx⟩ := ctx_exists htid
  have hinv := h.inv tid c hctx
  have har := h.arena
  have hA := hinv.core.align
  obtain ⟨hLal, hLfit⟩ := tc_populate_len_ok har hA sz hsz
  obtain ⟨L, hLdef⟩ : ∃ L, tc_populate_len mp sz = L := ⟨_, rfl⟩
  rw [hLdef] at hLal hLfit
  have hcl := har.cap_link
  have hc62 := har.cap_le
  have hts : tosize (mp.n + L) = mp.n + L := tosize_of_lt (by omega)
  obtain ⟨c1, F1, es1, hset, hinv1, hkeeps, hgap, hbins, hlen, hhe, hhp, hstays⟩ :=
    set_hot_area_inv P fuel mp.n c (FF tid) (EE tid) L hinv har.used_al hLal
      ⟨by omega, by omega⟩ (by have := h.fuel hctx hfuel; omega)
  have hw : c1.tc.m_hot_end + 4 * 1024 ≤ 2 ^ 64 := by rw [hhe]; omega
  obtain ⟨m1, hloop⟩ := populate_loop_total P.AlignSize c1.tc.m_hot_end (4 * 1024) (by norm_num)
    hw fuel c1.tc.m_hot_pos c1.mem
    (by
      rw [hhe]
      have h1 : (mp.n + L - c1.tc.m_hot_pos + (4 * 1024 - 1)) / (4 * 1024)
          ≤ (mp.c + (4 * 1024 - 1)) / (4 * 1024) := Nat.div_le_div_right (by omega)
      omega)
  have hps : (4 * 1024) % sizeof_link P.AlignSize = 0 := by
    rcases sizeof_link_cases P.AlignSize with h4 | h8
    · rw [h4]
    · rw [h8]
  have hpal : c1.tc.m_hot_pos % sizeof_link P.AlignSize = 0 :=
    Nat.mod_eq_zero_of_dvd (Dvd.dvd.trans (sizeof_link_dvd_align hA)
      (Nat.dvd_of_mod_eq_zero hinv1.hot.hot_pos_al))
  have hout := populate_loop_outside P.AlignSize c1.tc.m_hot_end (4 * 1024) hps hw fuel
    c1.tc.m_hot_pos c1.mem m1 hpal hloop
  have hcold : ∀ x, ¬ (c1.tc.m_hot_pos ≤ x ∧ x < c1.tc.m_hot_end) → m1 x = c1.mem x := by
    intro x hx
    exact hout x (by omega)
  have hfreemem : ∀ x, ((∃ i a, a ∈ F1 i ∧ a ≤ x ∧ x < a + (i + 1) * P.AlignSize) ∨
      (∃ e, e ∈ es1 ∧ e.1 ≤ x ∧ x < e.1 + c1.mem e.1)) → m1 x = c1.mem x := by
    intro x hx
    apply hcold
    rcases hx with ⟨i, a, ha, h1, h2⟩ | ⟨e, he, h1, h2⟩
    · have := hinv1.hot.fast_hot i a ha
      omega
    · have := hinv1.hot.hot_disj e he
      omega
  have hinv2 : Inv P.AlignSize (mp.n + L) { c1 with mem := m1 } F1 es1 :=
    hinv1.inv_frame rfl hfreemem
  have hsz1 : ∀ e, e ∈ es1 → m1 e.1 = c1.mem e.1 := fun e he =>
    hfreemem e.1 (Or.inr ⟨e, he, Nat.le_refl _, by
      have := (hinv1.core.huge_pos he).2.1
      omega⟩)
  have hfree : ∀ x, FreeAt P.AlignSize { c1 with mem := m1 } F1 es1 x ↔
      FreeAt P.AlignSize c1 F1 es1 x :=
    FreeAt.free_congr c1 { c1 with mem := m1 } rfl rfl hsz1
  have hctx2 : ({ mp with n := tosize (mp.n + L) } : ThreadCacheMemPool).ctx tid = some c :=
    hctx
  have hrun : tc_populate P fuel mp tid sz
      = some (({ mp with n := tosize (mp.n + L) } : ThreadCacheMemPool).put tid
          { c1 with mem := m1 }) := by
    unfold tc_populate populate_hot_area
    simp only [hLdef, hctx2, hset, hloop]
  rw [hts] at hrun hctx2
  have hctx1 : (({ mp with n := mp.n + L } : ThreadCacheMemPool).put tid
      { c1 with mem := m1 }).ctx tid = some { c1 with mem := m1 } := ctx_put _ hctx2
  have hstep : PoolStep P mp tid c (FF tid) (EE tid)
      (({ mp with n := mp.n + L } : ThreadCacheMemPool).put tid { c1 with mem := m1 })
      { c1 with mem := m1 } F1 es1 0 0 := by
    refine ⟨⟨hLfit, har.cap_link, har.cap_le, ?_, har.cap_al, har.base_al, har.chunk,
      har.commit⟩, hinv2, Nat.le_add_right _ _, rfl, rfl, rfl, rfl, rfl, rfl, hgap, hbins,
      ?_, ?_⟩
    · show (mp.n + L) % P.AlignSize = 0
      exact Nat.mod_eq_zero_of_dvd (Nat.dvd_add (Nat.dvd_of_mod_eq_zero har.used_al)
        (Nat.dvd_of_mod_eq_zero hLal))
    · intro x hx hlt _
      obtain ⟨h1, h2⟩ := hkeeps x hx (by omega)
      refine ⟨fun hf => h1 ((hfree x).1 hf), ?_⟩
      show m1 x = c.mem x
      rw [← h2]
      apply hcold
      intro hhot
      exact h1 (Or.inr (Or.inr hhot))
    · intro x hx
      have hx1 := (hfree x).1 hx
      rcases hstays x hx1 with h1 | h1
      · exact Or.inl h1
      · exact Or.inr (Or.inr ⟨h1, free_lt hinv1 hx1⟩)
  refine ⟨_, _, _, hrun, h.step hctx hctx1 hstep
    (fun _ _ _ _ x _ hx => absurd hx (by omega))
    (fun b hb => Or.inl ⟨hb, Or.inr (by omega)⟩) h.live_disj, rfl⟩

/-- The method `chunk_alloc`, made on its own for a request of at most `2^61`
bytes, returns and keeps the invariant of the pool. -/
theorem chunk_alloc_global (P : Params) (fuel : Nat) (mp : ThreadCacheMemPool)
    (live : List (Nat × Nat)) (FF : Nat → Nat → List Nat) (EE : Nat → List (Nat × Nat))
    (tid r : Nat) (h : PoolInv P mp live FF EE) (hfuel : mp.c + 2 < fuel)
    (htid : tid < mp.tls.length) (hpos : 0 < r) (hr : r ≤ 2 ^ 61) :
    ∃ b mp1 FF1 EE1, chunk_alloc P fuel mp tid r = some (b, mp1) ∧
      PoolInv P mp1 live FF1 EE1 ∧ mp1.c = mp.c := by
  obtain ⟨c, hctx⟩ := ctx_exists htid
  have hinv := h.inv tid c hctx
  rcases chunk_alloc_inv P fuel mp tid c (FF tid) (EE tid) r h.arena hctx hinv hpos (by omega)
    (by have := h.fuel hctx hfuel; omega) with ⟨_, h1⟩ | ⟨mp1, c1, F1, es1, h1, hctx1, hstep, _⟩
  · exact ⟨false, mp, FF, EE, h1, h, rfl⟩
  · exact ⟨true, mp1, _, _, h1, h.step hctx hctx1 hstep
      (fun _ _ _ _ x _ hx => absurd hx (by omega))
      (fun b hb => Or.inl ⟨hb, Or.inr (by omega)⟩) h.live_disj, hstep.cap⟩

/-- Every valid operation keeps the invariant of the pool and returns. -/
theorem op_inv (P : Params) (fuel : Nat) (mp : ThreadCacheMemPool)
    (live : List (Nat × Nat)) (FF : Nat → Nat → List Nat) (EE : Nat → List (Nat × Nat))
    (o : Op) (h : PoolInv P mp live FF EE) (hfuel : mp.c + 2 < fuel)
    (hv : ValidOp P (mp, live) o) :
    ∃ mp1 live1 FF1 EE1, step_op P fuel (mp, live) o = some (mp1, live1) ∧
      PoolInv P mp1 live1 FF1 EE1 ∧ mp1.c = mp.c := by
  cases o with
  | call k => exact step_inv P fuel mp live FF EE k h hfuel hv
  | chunk tid r =>
    obtain ⟨b, mp1, FF1, EE1, h1, h2, h3⟩ :=
      chunk_alloc_global P fuel mp live FF EE tid r h hfuel hv.1 hv.2.1 hv.2.2
    refine ⟨mp1, live, FF1, EE1, ?_, h2, h3⟩
    unfold step_op
    simp only [h1]
  | populate tid sz =>
    obtain ⟨mp1, FF1, EE1, h1, h2, h3⟩ :=
      tc_populate_inv P fuel mp live FF EE tid sz h hfuel hv.1 hv.2
    refine ⟨mp1, live, FF1, EE1, ?_, h2, h3⟩
    unfold step_op
    simp only [h1]

/-- Every valid sequence of operations returns and keeps the invariant of the
pool. -/
theorem ops_inv (P : Params) (fuel : Nat) (os : List Op) (mp : ThreadCacheMemPool)
    (live : List (Nat × Nat)) (FF : Nat → Nat → List Nat) (EE : Nat → List (Nat × Nat))
    (h : PoolInv P mp live FF EE) (hfuel : mp.c + 2 < fuel)
    (hv : ValidOps P fuel os (mp, live)) :
    ∃ mp1 live1 FF1 EE1, run_ops P fuel os (mp, live) = some (mp1, live1) ∧
      PoolInv P mp1 live1 FF1 EE1 ∧ mp1.c = mp.c := by
  induction os generalizing mp live FF EE with
  | nil => exact ⟨mp, live, FF, EE, rfl, h, rfl⟩
  | cons o os ih =>
    obtain ⟨hv1, hv2⟩ := hv
    obtain ⟨mp1, live1, FF1, EE1, h1, h2, h3⟩ := op_inv P fuel mp live FF EE o h hfuel hv1
    obtain ⟨mp2, live2, FF2, EE2, h4, h5, h6⟩ :=
      ih mp1 live1 FF1 EE1 h2 (by omega) (hv2 _ h1)
    refine ⟨mp2, live2, FF2, EE2, ?_, h5, by omega⟩
    unfold run_ops
    simp only [h1]
    exact h4

/-- The method `slow_get_free_size` returns when no thread cache reads
inverted: the re-read loop is left after the first reading of each cache. -/
theorem slow_get_free_size_some (mp : ThreadCacheMemPool)
    (h : ∀ tc, tc ∈ mp.tls → tc.m_hot_pos ≤ tc.m_hot_end) :
    ∃ sz, slow_get_free_size mp = some sz := by
  unfold slow_get_free_size
  generalize mp.tls = tls at h
  generalize (0 : Nat) = acc
  induction tls generalizing acc with
  | nil => exact ⟨acc, rfl⟩
  | cons t l ih =>
    rw [List.foldl_cons]
    simp only
    rw [if_neg (Nat.not_lt.2 (h t (List.mem_cons_self _ _)))]
    exact ih (fun tc htc => h tc (List.mem_cons_of_mem _ htc)) _

/-- A valid sequence of operations on a fresh pool returns and leads to a pool
that satisfies the invariant. -/
theorem reach_ops_inv (P : Params) (fuel p cap fastbin_max_size chunk : Nat) (commit : Bool)
    (buf : Nat → Nat) (k : Nat) (os : List Op) (hA : ValidAlign P.AlignSize)
    (har : ArenaWF P (fresh_pool P.AlignSize p cap fastbin_max_size chunk commit buf k))
    (hbig : sizeof_huge_link P.AlignSize ≤ fastbin_max_size) (hle : fastbin_max_size ≤ 2 ^ 61)
    (hfuel : cap + 2 < fuel)
    (hv : ValidOps P fuel os
      (fresh_pool P.AlignSize p cap fastbin_max_size chunk commit buf k, [])) :
    ∃ mp live FF EE,
      run_ops P fuel os (fresh_pool P.AlignSize p cap fastbin_max_size chunk commit buf k, [])
        = some (mp, live) ∧
      PoolInv P mp live FF EE ∧ mp.c = cap :=
  ops_inv P fuel os _ [] _ _ (fresh_inv P p cap fastbin_max_size chunk commit buf k har hA hbig hle)
    hfuel hv

theorem ex_ops_valid :
    ValidOps ex_params 8388611 ex_ops
      (fresh_pool ex_params.AlignSize 4194304 8388608 64 2097152 false (fun _ => 0) 1, []) := by
  set_option maxRecDepth 100000 in
  exact check_ops_sound _ _ _ _ rfl

theorem level_succ_sublist (k : Nat) (es : List (Nat × Nat)) :
    (level (k + 1) es).Sublist (level k es) := by
  unfold level
  refine List.Sublist.map _ (List.monotone_filter_right es ?_)
  intro e he
  simp only [decide_eq_true_eq] at he ⊢
  omega

theorem SkipWF.level_sorted {A : Nat} {c : Ctx} {es : List (Nat × Nat)} (hwf : SkipWF A c es)
    (k : Nat) : (level k es).Pairwise (fun a b => c.mem a ≤ c.mem b) :=
  List.Pairwise.sublist (level_sublist k es) (List.pairwise_map.2 hwf.sorted)

/-- C31 (counterexample): the size field of a free huge block is a
`link_size_t`, which has 32 bits for `AlignSize` 4, while the links, scaled by
`AlignSize`, address 16 GiB.  On a fresh pool of 12 GiB (`AlignSize` 4,
`fastbin_max` 64) the calls `alloc(2^32 + 8)`, `alloc(2^32 + 4)`, `alloc(8)`
return the offsets 0, `2^32 + 8` and `2^33 + 12`; `sfree(0, 2^32 + 8)` and
`sfree(2^32 + 8, 2^32 + 4)` then enter both blocks into the huge list, whose
only level is the block at offset 0 followed by the block at offset
`2^32 + 8`.  The statement `n2->size = len` has stored the sizes 8 and 4: the
level is not sorted by non-decreasing size (neither by the stored sizes nor
by the lengths released), and the stored sizes are below `fastbin_max`. -/
theorem huge_size_truncated :
    ex_pool_wide.c / 4 < list_tail 4 ∧
    ∃ m tc, ex_run_wide = some ([0, 2 ^ 32 + 8, 2 ^ 33 + 12], m) ∧ m.tls = [tc] ∧
      tc.huge_list.size = 1 ∧ tc.huge_node_cnt = 2 ∧
      tc.huge_list.next 0 = 0 / 4 ∧ m.buf 0 = 8 ∧
      m.buf (0 + 4) = (2 ^ 32 + 8) / 4 ∧ m.buf (2 ^ 32 + 8) = 4 ∧
      m.buf (2 ^ 32 + 8 + 4) = list_tail 4 ∧
      tc.m_freelist_head.length * 4 = 64 ∧ m.m_fastbin_max_size = 64 :=
  ⟨by decide, _, _, rfl, rfl, rfl, rfl, rfl, rfl, rfl, rfl, rfl, rfl, rfl⟩

/-- C31 (amended): the huge list stays a well-formed skiplist.  Take a fresh
pool whose capacity is below `2^32` for `AlignSize` 4 (`ArenaWF`: every
length fits the size field `link_size_t`), and any valid sequence of `alloc`,
`alloc3`, `sfree`, `sync_frag_size`, `clean_for_reuse`, `chunk_alloc` and
`tc_populate` operations on it (requests of at most `2^61` bytes, blocks
released with the length they were handed out with); `set_hot_area` is
reached through `chunk_alloc` and `tc_populate`.  The sequence returns, and in
every thread cache of the pool reached the huge list consists of entries
`EE tid` (offset and number of levels) such that: the height
`huge_list.size` is at most 8; every level at or above the height is empty;
every level `k` below the height is the chain of the entries with more than
`k` levels; the top level below the height is not empty; every level is
sorted by non-decreasing size field; every block on level `k + 1` is on level
`k`, in the same order; and the size of every block is larger than
`fastbin_max`, which the code reads as `m_freelist_head.size() * AlignSize`.
Moreover `random_level` returns a value below 8 for every seed and every
`rand_r`. -/
theorem huge_list_well_formed (P : Params) (fuel p cap fastbin_max_size chunk : Nat)
    (commit : Bool) (buf : Nat → Nat) (k : Nat) (os : List Op)
    (hA : ValidAlign P.AlignSize)
    (har : ArenaWF P (fresh_pool P.AlignSize p cap fastbin_max_size chunk commit buf k))
    (hbig : sizeof_huge_link P.AlignSize ≤ fastbin_max_size) (hle : fastbin_max_size ≤ 2 ^ 61)
    (hfuel : cap + 2 < fuel)
    (hv : ValidOps P fuel os
      (fresh_pool P.AlignSize p cap fastbin_max_size chunk commit buf k, [])) :
    (∀ (r : Nat → Nat × Nat) (seed : Nat), (random_level r seed).1 ≤ 7) ∧
    ∃ mp live, ∃ EE : Nat → List (Nat × Nat),
      run_ops P fuel os (fresh_pool P.AlignSize p cap fastbin_max_size chunk commit buf k, [])
        = some (mp, live) ∧
      ∀ tid c, mp.ctx tid = some c →
        c.tc.huge_list.size ≤ 8 ∧
        (∀ j, c.tc.huge_list.size ≤ j → j < 8 →
          c.tc.huge_list.next j = list_tail P.AlignSize) ∧
        (∀ j, j < c.tc.huge_list.size →
          Seg P.AlignSize c.mem j (c.tc.huge_list.next j) (level j (EE tid))
            (list_tail P.AlignSize)) ∧
        (c.tc.huge_list.size ≠ 0 → level (c.tc.huge_list.size - 1) (EE tid) ≠ []) ∧
        (∀ j, (level j (EE tid)).Pairwise (fun a b => c.mem a ≤ c.mem b)) ∧
        (∀ j, (level (j + 1) (EE tid)).Sublist (level j (EE tid))) ∧
        (∀ j a, a ∈ level j (EE tid) →
          c.tc.m_freelist_head.length * P.AlignSize < c.mem a) ∧
        c.tc.m_freelist_head.length = mp.m_fastbin_max_size / P.AlignSize := by
  constructor
  · intro r seed
    have h := random_level_lt r seed
    have h8 : skip_list_level_max = 8 := rfl
    omega
  · obtain ⟨mp, live, FF, EE, hrun, hinv, _⟩ :=
      reach_ops_inv P fuel p cap fastbin_max_size chunk commit buf k os hA har hbig hle hfuel hv
    refine ⟨mp, live, EE, hrun, ?_⟩
    intro tid c hctx
    have hi := hinv.inv tid c hctx
    have hwf := hi.core.skip
    refine ⟨hwf.size_le, hwf.above, hwf.chain, hwf.top, hwf.level_sorted,
      fun j => level_succ_sublist j _, ?_, ?_⟩
    · intro j a ha
      obtain ⟨x, hx, _⟩ := mem_level.1 ha
      exact hi.core.huge_big (a, x) hx
    · exact hinv.bins c.tc (List.getElem?_mem (ctx_fields hctx).1)

theorem huge_list_well_formed_witness :
    (∀ (r : Nat → Nat × Nat) (seed : Nat), (random_level r seed).1 ≤ 7) ∧
    ∃ mp live, ∃ EE : Nat → List (Nat × Nat),
      run_ops ex_params 8388611 ex_ops
        (fresh_pool ex_params.AlignSize 4194304 8388608 64 2097152 false (fun _ => 0) 1, [])
        = some (mp, live) ∧
      ∀ tid c, mp.ctx tid = some c →
        c.tc.huge_list.size ≤ 8 ∧
        (∀ j, c.tc.huge_list.size ≤ j → j < 8 →
          c.tc.huge_list.next j = list_tail ex_params.AlignSize) ∧
        (∀ j, j < c.tc.huge_list.size →
          Seg ex_params.AlignSize c.mem j (c.tc.huge_list.next j) (level j (EE tid))
            (list_tail ex_params.AlignSize)) ∧
        (c.tc.huge_list.size ≠ 0 → level (c.tc.huge_list.size - 1) (EE tid) ≠ []) ∧
        (∀ j, (level j (EE tid)).Pairwise (fun a b => c.mem a ≤ c.mem b)) ∧
        (∀ j, (level (j + 1) (EE tid)).Sublist (level j (EE tid))) ∧
        (∀ j a, a ∈ level j (EE tid) →
          c.tc.m_freelist_head.length * ex_params.AlignSize < c.mem a) ∧
        c.tc.m_freelist_head.length = mp.m_fastbin_max_size / ex_params.AlignSize :=
  huge_list_well_formed ex_params 8388611 4194304 8388608 64 2097152 false (fun _ => 0) 1
    ex_ops ex_valid_align ex_fresh_arena (by decide) (by decide) (by decide) ex_ops_valid

/-- C32: the hot region is inverted.  No path checks the size of a request.
On a fresh pool (`AlignSize` 4, chunk size 2 MiB) `alloc(8)` returns offset 0 and leaves
`used = 2 MiB` and the hot region `[8, 2 MiB)`.  For the request
`2^64 - 2 MiB - 4` the thread cache fails, `chunk_alloc` computes the chunk
length `2^64 - 2 MiB`, `oldn + chunk_len` wraps around to 0 and passes the
capacity test, `used` becomes 0 and `set_hot_area` sets `m_hot_end` to 0; the
thread cache fails again.  From `set_hot_area` on `m_hot_pos = 8` exceeds
`m_hot_end = 0`: the assertion `m_hot_pos <= m_hot_end` of the hot bump is
false in the retry of that very call, the state stays inverted without any
other thread, and `slow_get_free_size` re-reads that cache for ever. -/
theorem hot_region_inverted :
    ∃ m1 m2 tc1 tc2, ex_run_wrap = some (0, size_fail, m1, m2) ∧
      m1.tls = [tc1] ∧ m2.tls = [tc2] ∧
      tc1.m_hot_pos = 8 ∧ tc1.m_hot_end = 2097152 ∧ m1.n = 2097152 ∧
      tc2.m_hot_pos = 8 ∧ tc2.m_hot_end = 0 ∧ m2.n = 0 ∧
      ¬ (tc2.m_hot_pos ≤ tc2.m_hot_end) ∧ slow_get_free_size m2 = none :=
  ⟨_, _, _, _, rfl, rfl, rfl, rfl, rfl, rfl, rfl, rfl, rfl, by decide, rfl⟩

/-- The hot region on bounded runs (the part of C32 that holds):
`m_hot_pos ≤ m_hot_end ≤ used` in every thread cache, in every state reached
from a fresh pool whose capacity is below `2^32` bytes when `AlignSize` is 4
(`ArenaWF.cap_link`) by a valid sequence of `alloc`, `alloc3`, `sfree`,
`sync_frag_size`, `clean_for_reuse`, `chunk_alloc` and `tc_populate`
operations whose requests and populate sizes are at most `2^61` bytes
(`set_hot_area` is reached through `chunk_alloc` and `tc_populate`).
The sequence returns.  The states in which the hot bump of `alloc` evaluates
its assertions are such states - the state at the call, and the state after
`chunk_alloc` in the slow path - so the assertions hold; and
`slow_get_free_size` returns: its re-read loop is left after the first
reading of each thread cache. -/
theorem hot_region_ordered (P : Params) (fuel p cap fastbin_max_size chunk : Nat)
    (commit : Bool) (buf : Nat → Nat) (k : Nat) (os : List Op)
    (hA : ValidAlign P.AlignSize)
    (har : ArenaWF P (fresh_pool P.AlignSize p cap fastbin_max_size chunk commit buf k))
    (hbig : sizeof_huge_link P.AlignSize ≤ fastbin_max_size) (hle : fastbin_max_size ≤ 2 ^ 61)
    (hfuel : cap + 2 < fuel)
    (hv : ValidOps P fuel os
      (fresh_pool P.AlignSize p cap fastbin_max_size chunk commit buf k, [])) :
    ∃ mp live,
      run_ops P fuel os (fresh_pool P.AlignSize p cap fastbin_max_size chunk commit buf k, [])
        = some (mp, live) ∧
      (∀ tc, tc ∈ mp.tls → tc.m_hot_pos ≤ tc.m_hot_end ∧ tc.m_hot_end ≤ mp.n) ∧
      ∃ sz, slow_get_free_size mp = some sz := by
  obtain ⟨mp, live, FF, EE, hrun, hinv, _⟩ :=
    reach_ops_inv P fuel p cap fastbin_max_size chunk commit buf k os hA har hbig hle hfuel hv
  have hhot : ∀ tc, tc ∈ mp.tls → tc.m_hot_pos ≤ tc.m_hot_end ∧ tc.m_hot_end ≤ mp.n := by
    intro tc htc
    obtain ⟨tid, c, hctx, hc⟩ := tc_view htc
    have hi := hinv.inv tid c hctx
    rw [← hc]
    exact ⟨hi.hot.hot_le, hi.hot.hot_in⟩
  exact ⟨mp, live, hrun, hhot, slow_get_free_size_some mp (fun tc htc => (hhot tc htc).1)⟩

theorem hot_region_ordered_witness :
    ∃ mp live,
      run_ops ex_params 8388611 ex_ops
        (fresh_pool ex_params.AlignSize 4194304 8388608 64 2097152 false (fun _ => 0) 1, [])
        = some (mp, live) ∧
      (∀ tc, tc ∈ mp.tls → tc.m_hot_pos ≤ tc.m_hot_end ∧ tc.m_hot_end ≤ mp.n) ∧
      ∃ sz, slow_get_free_size mp = some sz :=
  hot_region_ordered ex_params 8388611 4194304 8388608 64 2097152 false (fun _ => 0) 1
    ex_ops ex_valid_align ex_fresh_arena (by decide) (by decide) (by decide) ex_ops_valid

/-- C33: a failed allocation that changes the pool.  On a
fresh pool (`AlignSize` 4, chunk size 2 MiB) with one block of 8 bytes handed
out at offset 0 (`used = 2 MiB`, hot region `[8, 2 MiB)`), `alloc` of
`2^64 - 2 MiB - 4` bytes and `alloc3` of that block to `2^64 - 2 MiB - 4`
bytes both return `size_t(-1)`: the thread cache fails, `chunk_alloc` lets
`oldn + chunk_len` wrap around to 0, which passes the capacity test, stores
`used = 0` and moves `m_hot_end` to 0, and the thread cache fails again, its
assertion `m_hot_pos <= m_hot_end` being false (`8 > 0`).  After the failed
call `used` and the hot region differ from what they were before it. -/
theorem failed_alloc_changes_pool :
    (∃ m1 m2 tc1 tc2, ex_run_wrap = some (0, size_fail, m1, m2) ∧
      m1.tls = [tc1] ∧ m2.tls = [tc2] ∧ m1.n = 2097152 ∧ m2.n = 0 ∧
      tc1.m_hot_end = 2097152 ∧ tc2.m_hot_end = 0 ∧ tc2.m_hot_pos = 8 ∧ m2 ≠ m1) ∧
    ∃ m1 m2 tc1 tc2, ex_run_wrap3 = some (0, size_fail, m1, m2) ∧
      m1.tls = [tc1] ∧ m2.tls = [tc2] ∧ m1.n = 2097152 ∧ m2.n = 0 ∧
      tc1.m_hot_end = 2097152 ∧ tc2.m_hot_end = 0 ∧ tc2.m_hot_pos = 8 ∧ m2 ≠ m1 :=
  ⟨⟨_, _, _, _, rfl, rfl, rfl, rfl, rfl, rfl, rfl, rfl,
      fun h => absurd (congrArg ThreadCacheMemPool.n h) (by decide)⟩,
    ⟨_, _, _, _, rfl, rfl, rfl, rfl, rfl, rfl, rfl, rfl,
      fun h => absurd (congrArg ThreadCacheMemPool.n h) (by decide)⟩⟩

/-- Failed allocations on bounded runs (the part of C33 that holds).  In every
state reached by a valid sequence of operations from a fresh pool whose
capacity is below `2^32` bytes when `AlignSize` is 4 (`ArenaWF.cap_link`),
every valid call
of the pool's `alloc` or `alloc3` (a request of at most `2^61` bytes; for
`alloc3` a block that was handed out, with its length) returns, and when it
returns `size_t(-1)` the pool after the call is the pool before it: `used`,
the buffer, the arena counter and every thread cache with its fastbins, huge
list, hot region, `fragment_size` and `m_frag_inc` are unchanged. -/
theorem failed_alloc_keeps_pool (P : Params) (fuel p cap fastbin_max_size chunk : Nat)
    (commit : Bool) (buf : Nat → Nat) (k : Nat) (os : List Op)
    (hA : ValidAlign P.AlignSize)
    (har : ArenaWF P (fresh_pool P.AlignSize p cap fastbin_max_size chunk commit buf k))
    (hbig : sizeof_huge_link P.AlignSize ≤ fastbin_max_size) (hle : fastbin_max_size ≤ 2 ^ 61)
    (hfuel : cap + 2 < fuel)
    (hv : ValidOps P fuel os
      (fresh_pool P.AlignSize p cap fastbin_max_size chunk commit buf k, [])) :
    ∃ mp live,
      run_ops P fuel os (fresh_pool P.AlignSize p cap fastbin_max_size chunk commit buf k, [])
        = some (mp, live) ∧
      (∀ tid request, ValidCall P (mp, live) (Call.alloc tid request) →
        ∃ res mp1, mp.alloc P fuel tid request = some (res, mp1) ∧
          (res = size_fail → mp1 = mp)) ∧
      (∀ tid oldpos oldlen newlen,
        ValidCall P (mp, live) (Call.alloc3 tid oldpos oldlen newlen) →
        ∃ res mp1, mp.alloc3 P fuel tid oldpos oldlen newlen = some (res, mp1) ∧
          (res = size_fail → mp1 = mp)) := by
  obtain ⟨mp, live, FF, EE, hrun, hinv, hc⟩ :=
    reach_ops_inv P fuel p cap fastbin_max_size chunk commit buf k os hA har hbig hle hfuel hv
  refine ⟨mp, live, hrun, ?_, ?_⟩
  · intro tid request hcall
    obtain ⟨htid, hpos, hreq⟩ := hcall
    obtain ⟨c, hctx⟩ := ctx_exists htid
    obtain ⟨res, mp1, _, _, _, h1, _, _, hfail, _⟩ :=
      pool_alloc_inv P fuel mp tid c (FF tid) (EE tid) request hinv.arena hctx
        (hinv.inv tid c hctx) hpos hreq
        (by have := hinv.fuel hctx (by omega : mp.c + 2 < fuel); omega)
    exact ⟨res, mp1, h1, fun h => (hfail h).1⟩
  · intro tid oldpos oldlen newlen hcall
    obtain ⟨res, mp1, _, _, _, _, _, h1, _, _, _, hfail, _⟩ :=
      pool_alloc3_global P fuel mp live FF EE tid oldpos oldlen newlen hinv (by omega) hcall
    exact ⟨res, mp1, h1, fun h => (hfail h).1⟩

theorem failed_alloc_keeps_pool_witness :
    ∃ mp live,
      run_ops ex_params 8388611 ex_ops
        (fresh_pool ex_params.AlignSize 4194304 8388608 64 2097152 false (fun _ => 0) 1, [])
        = some (mp, live) ∧
      (∀ tid request, ValidCall ex_params (mp, live) (Call.alloc tid request) →
        ∃ res mp1, mp.alloc ex_params 8388611 tid request = some (res, mp1) ∧
          (res = size_fail → mp1 = mp)) ∧
      (∀ tid oldpos oldlen newlen,
        ValidCall ex_params (mp, live) (Call.alloc3 tid oldpos oldlen newlen) →
        ∃ res mp1, mp.alloc3 ex_params 8388611 tid oldpos oldlen newlen = some (res, mp1) ∧
          (res = size_fail → mp1 = mp)) :=
  failed_alloc_keeps_pool ex_params 8388611 4194304 8388608 64 2097152 false (fun _ => 0) 1
    ex_ops ex_valid_align ex_fresh_arena (by decide) (by decide) (by decide) ex_ops_valid

/-! ## Requests close to `2^64`: the sums of the allocator wrap around -/

/-- A fastbin chain that runs from block 0 to the block at `2097152 * 4` and
back never reaches `list_tail`. -/
theorem chain_cycle (m : Nat → Nat) (h0 : m 0 = 2097152) (h1 : m 8388608 = 0) (fuel : Nat) :
    spec_chain_blocks 4 m fuel 0 = none ∧ spec_chain_blocks 4 m fuel 2097152 = none := by
  induction fuel with
  | zero => exact ⟨rfl, rfl⟩
  | succ f ih =>
    constructor
    · unfold spec_chain_blocks
      rw [if_neg (by decide)]
      have h2 : tosize (0 * 4) = 0 := rfl
      rw [h2, h0, ih.2]
      rfl
    · unfold spec_chain_blocks
      rw [if_neg (by decide)]
      have h2 : tosize (2097152 * 4) = 8388608 := rfl
      rw [h2, h1, ih.1]
      rfl

/-- C12: a length that is not reserved.  On a fresh pool (`AlignSize` 4,
aligned base and capacity, chunk size 2 MiB) `alloc(8)`, `alloc(8)` return
the offsets 0 and 8.  In `alloc3(0, 8, 2^64 - 1)` the rounding
`pow2_align_up(newlen, AlignSize)` wraps around to 0, after
`assert(newlen > 0)` has passed; the thread cache takes the call for a shrink
to 0 bytes, releases the whole block to the 8-byte fastbin and returns its
offset 0, not `size_t(-1)`.  No byte is reserved for the request: the next
`alloc(8)` returns offset 0 again.  In `alloc(2^64 - 1)` the request is
rounded to 0 as well, and the fastbin index `request / AlignSize - 1` is
`size_t(-1)`, outside `m_freelist_head`. -/
theorem alloc3_reserves_nothing :
    pow2_align_up (2 ^ 64 - 1) 4 = 0 ∧
    ∃ m0 m1 m2 tc1 hd,
      run_calls ex_params 8 ex_calls_round ex_fresh_state = some (m0, [(8, 8), (0, 8)]) ∧
      m0.alloc3 ex_params 8 0 0 8 (2 ^ 64 - 1) = some (0, m1) ∧ 0 ≠ size_fail ∧
      m1.tls = [tc1] ∧ tc1.m_freelist_head[1]? = some hd ∧ hd.head = 0 / 4 ∧ hd.cnt = 1 ∧
      m1.alloc ex_params 8 0 8 = some (0, m2) ∧
      m0.alloc ex_params 8 0 (2 ^ 64 - 1) = none :=
  ⟨rfl, _, _, _, _, _, rfl, rfl, by decide, rfl, rfl, rfl, rfl, rfl, rfl⟩

/-- C14: the counter equation fails.  On a fresh pool (`AlignSize` 4, chunk
size 2 MiB) `alloc(2 MiB)`, `alloc(2^64 - 2 MiB)`, `alloc(8)`, `alloc(8)`
return 0, 2 MiB, 0, 8: in the second call `m_hot_pos + request` wraps around
to 0 and passes `End <= m_hot_end`, so the hot region restarts at offset 0.
`sfree(0, 8)` puts block 0 on the 8-byte fastbin and `sfree(0, 2 MiB)` enters
the same offset into the huge list, storing the size in the word that holds
the fastbin link.  The next `alloc(8)` pops block 0 and reads the head
`2097152` from that word; the following `alloc(8)` pops again, returns the
offset `2097152 * 4`, the capacity, and decrements the counter from 0 to
`2^32 - 1`.  After `sync_frag_size()`, `fragment_size = 2097144` while the
fastbin counters give `8 * (2^32 - 1)` bytes and `huge_size_sum` is 2 MiB,
and the assertions of the statistics tool fail. -/
theorem frag_size_miscounts :
    ∃ m tc hd ms,
      run_calls ex_params 8 ex_calls_count ex_fresh_state
        = some (m, [(8388608, 8), (0, 8), (8, 8), (2097152, 2 ^ 64 - 2097152)]) ∧
      m.c = 8388608 ∧ m.tls = [tc] ∧ tc.m_freelist_head[1]? = some hd ∧
      hd.cnt = 2 ^ 32 - 1 ∧ tc.fragment_size = 2097144 ∧ tc.huge_size_sum = 2097152 ∧
      fastbin_sum 4 0 tc.m_freelist_head = 8 * (2 ^ 32 - 1) ∧
      tc.fragment_size ≠ tosize (fastbin_sum 4 0 tc.m_freelist_head + tc.huge_size_sum) ∧
      tc.m_frag_inc = 0 ∧ m.fragment_size = 2097144 ∧
      mem_get_stat 4 m = some ms ∧ ms.huge_size = 2097152 ∧
      tool_sum_fast 0 ms.fastbin 0 = 8 * (2 ^ 32 - 1) ∧
      size_sub m.fragment_size (tool_sum_fast 0 ms.fastbin 0) ≠ ms.huge_size ∧
      tool_sum_fast 0 ms.fastbin 0 ≠ size_sub ms.frag_size ms.huge_size :=
  ⟨_, _, _, _, rfl, rfl, rfl, rfl, rfl, rfl, rfl, rfl, by decide, rfl, rfl, rfl, rfl, rfl,
    by decide, by decide⟩

/-- C18: a moved block that does not hold the old bytes.  On a fresh pool
(`AlignSize` 4, chunk size 2 MiB, zeroed buffer) `alloc(4)`, `alloc(4)`,
`alloc(8)`, `alloc(2^64 - 12)` return 0, 4, 8 and 16: in the last call
`m_hot_pos + request` wraps around to 4 and passes `End <= m_hot_end`, so the
hot region becomes `[4, 2 MiB)`.  The block `[8, 16)` does not end at
`m_hot_pos`, so `alloc3(8, 8, 16)` cannot extend it in place; the new block
is cut from the hot region at offset 4, the old bytes are copied to
`[4, 12)`, and `sfree(8, 8)` then stores the fastbin link `list_tail` in the
word at offset 8, the second word of the new block.  The call returns 4, and
the second word of the new block is `0xFFFFFFFF`, while the second word of
the old block was 0. -/
theorem grow_by_move_clobbered :
    ∃ m0 m1 tc0,
      run_calls ex_params 8 ex_calls_move ex_fresh_state
        = some (m0, [(16, 2 ^ 64 - 12), (8, 8), (4, 4), (0, 4)]) ∧
      m0.tls = [tc0] ∧ tc0.m_hot_pos = 4 ∧ tc0.m_hot_end = 2097152 ∧ 8 + 8 ≠ tc0.m_hot_pos ∧
      m0.alloc3 ex_params 8 0 8 8 16 = some (4, m1) ∧ 4 ≠ size_fail ∧
      m0.buf 8 = 0 ∧ m0.buf (8 + 4) = 0 ∧
      m1.buf 4 = 0 ∧ m1.buf (4 + 4) = list_tail 4 ∧ m1.buf (4 + 4) ≠ m0.buf (8 + 4) :=
  ⟨_, _, _, rfl, rfl, rfl, rfl, by decide, rfl, by decide, rfl, rfl, rfl, rfl, by decide⟩

/-- C21: a fastbin counter that does not count the chain.  On a fresh pool
(`AlignSize` 4, chunk size 2 MiB) `alloc(2 MiB)`, `alloc(2^64 - 2 MiB)`,
`alloc(8)`, `alloc(8)` return 0, 2 MiB, 0, 8: in the second call
`m_hot_pos + request` wraps around to 0 and passes `End <= m_hot_end`, so the
third block is cut from the first.  `sfree(0, 8)` puts block 0 on the 8-byte
fastbin (head 0, counter 1), and `sfree(0, 2 MiB)` enters the same offset
into the huge list, storing the size `2097152` in the word that holds the
fastbin link.  The chain from the head of the 8-byte fastbin now leads on
from block 0 to the offset `2097152 * 4`, which is the capacity, so the chain
holds more than the one block that the counter says; in the zeroed buffer of
the model the word there is 0 and the chain returns to block 0, never
reaching `list_tail`. -/
theorem fastbin_chain_corrupted :
    ∃ m tc hd,
      run_calls ex_params 8 ex_calls_chain ex_fresh_state
        = some (m, [(8, 8), (2097152, 2 ^ 64 - 2097152)]) ∧
      m.tls = [tc] ∧ tc.m_freelist_head[1]? = some hd ∧ hd.head = 0 ∧ hd.cnt = 1 ∧
      tc.huge_list.next 0 = 0 ∧ tc.huge_node_cnt = 1 ∧
      m.buf 0 = 2097152 ∧ m.buf (2097152 * 4) = 0 ∧
      (∀ fuel, spec_chain_blocks 4 m.buf fuel hd.head = none) ∧
      ∀ fuel, spec_chain_blocks 4 m.buf fuel hd.head ≠ some hd.cnt :=
  ⟨_, _, _, rfl, rfl, rfl, rfl, rfl, rfl, rfl, rfl, rfl,
    fun fuel => (chain_cycle _ rfl rfl fuel).1,
    fun fuel h => Option.noConfusion ((chain_cycle _ rfl rfl fuel).1.symm.trans h)⟩

/-- C30: live blocks that overlap.  On a fresh pool (`AlignSize` 4, chunk
size 2 MiB) `alloc(2 MiB)` returns offset 0 and uses up the hot region
`[0, 2 MiB)`.  In `alloc(2^64 - 2 MiB)` the huge list is empty and the hot
bump computes `End = m_hot_pos + request`, which wraps around to 0 and passes
`End <= m_hot_end`: the call returns offset 2 MiB, which is `used`, and sets
`m_hot_pos` to 0.  `alloc(8)` then returns offset 0.  No block was released:
the third block `[0, 8)` lies inside the first block `[0, 2 MiB)`, the second
block begins at `used`, outside `[0, used)`, and after the second call the
first block lies inside the hot region. -/
theorem live_blocks_overlap :
    ∃ m2 m3 tc2 tc3,
      run_calls ex_params 8 (ex_calls_overlap.take 2) ex_fresh_state
        = some (m2, [(2097152, 2 ^ 64 - 2097152), (0, 2097152)]) ∧
      m2.n = 2097152 ∧ m2.tls = [tc2] ∧ tc2.m_hot_pos = 0 ∧ tc2.m_hot_end = 2097152 ∧
      run_calls ex_params 8 ex_calls_overlap ex_fresh_state
        = some (m3, [(0, 8), (2097152, 2 ^ 64 - 2097152), (0, 2097152)]) ∧
      m3.n = 2097152 ∧ m3.tls = [tc3] ∧ tc3.m_hot_pos = 8 ∧ tc3.m_hot_end = 2097152 ∧
      ¬ (0 + 8 ≤ 0 ∨ 0 + 2097152 ≤ 0) ∧
      ¬ (2097152 + (2 ^ 64 - 2097152) ≤ m3.n) ∧ ¬ (2097152 < m3.n) ∧
      ¬ (0 + 2097152 ≤ tc2.m_hot_pos ∨ tc2.m_hot_end ≤ 0 ∨ tc2.m_hot_end ≤ tc2.m_hot_pos) :=
  ⟨_, _, _, _, rfl, rfl, rfl, rfl, rfl, rfl, rfl, rfl, rfl, rfl, by decide, by decide,
    by decide, by decide⟩

end terark
